import Mathlib

/-!
# PssMathParser

A shallow embedding of `src/src/pssmathparser.cpp` (class `MathExpression` and its helpers)
and a verification development over it.

Modelling conventions
* a `std::string` is a `List Char` (`Str`); `s[i]` is `charAt s i`, which is the NUL character
  at `i = s.size()` exactly as `std::string::operator[]` is;
* `double` is an arbitrary type `V` with the operations of `Arith V` (the C library functions the
  operator table points to, `atof`, and the numeric literals of the constant table);
* a function pointer stored in the operator table is the name of the function it points to
  (`DDFun`, `DDDFun`); a pointer into `constantMap` or `m_argumentMap` is the key of the entry;
* undefined behaviour (reading `v[0]` of an empty vector, dereferencing `nullptr`), a thrown
  `std::out_of_range` and running out of loop fuel are the three `Fault`s; a function that can hit
  one returns `Except Fault`;
* loops whose trip count is bounded by a length are structural recursions on the remaining count;
  the two loops that edit the sequence they scan (the pre-pass and `expandMathExpression`) take
  explicit fuel.
-/

namespace PssMathParser

/-- A `std::string`. -/
abbrev Str := List Char

/-- Ways in which a call can fail to return normally. -/
inductive Fault where
  | undefinedBehaviour
  | outOfRange
  | outOfFuel
  deriving DecidableEq, Repr

deriving instance DecidableEq for Except

/-- Enum `EntityType` of the header. -/
inductive EntityType where
  | None
  | Operator
  | OperatorInDoubleOutDouble
  | OperatorInIntOutInt
  | OperatorInDoubleDoubleOutDouble
  | OperatorInDoubleIntOutDouble
  | Argument
  | ArgumentConstant
  | ArgumentUserConstant
  | ArgumentVariable
  | ArgumentGenerated
  | ArgumentGeneratedFromOneArg
  | ArgumentGeneratedFromTwoArg
  deriving DecidableEq, Repr

/-- Enum `OperatorPrecedence` of the header. -/
inductive OperatorPrecedence where
  | Function
  | Multiplication
  | Addition
  deriving DecidableEq, Repr

/-- The numeric value of an `OperatorPrecedence` (`static_cast<uint16_t>`). -/
def OperatorPrecedence.toNat : OperatorPrecedence → Nat
  | .Function => 9
  | .Multiplication => 6
  | .Addition => 3

/-- Targets of the `double (*)(const double)` pointers of the operator table. -/
inductive DDFun where
  | sin | cos | tan | sqrt | exp
  deriving DecidableEq, Repr

/-- Targets of the `double (*)(const double, const double)` pointers of the operator table. -/
inductive DDDFun where
  | add | subtract | multiply | divide | pow
  deriving DecidableEq, Repr

/-- The double-precision arithmetic the program is linked against. -/
structure Arith (V : Type) where
  add : V → V → V
  sub : V → V → V
  mul : V → V → V
  div : V → V → V
  pow : V → V → V
  sin : V → V
  cos : V → V
  tan : V → V
  sqrt : V → V
  exp : V → V
  /-- The C function `atof`. -/
  atof : Str → V
  /-- The literal `0.0`. -/
  zero : V
  /-- The constant `M_PI`. -/
  M_PI : V
  /-- The constant `M_1_PI`. -/
  M_1_PI : V
  /-- The literal `1.6021766208e-19`. -/
  qe : V
  /-- The literal `1.38064852e-23`. -/
  kBJ : V
  /-- The literal `8.6173303e-5`. -/
  kBeV : V
  /-- The literal `273.15`. -/
  ToK : V

/-- Calling through a one-argument function pointer. -/
def Arith.callDD {V : Type} (A : Arith V) : DDFun → V → V
  | .sin => A.sin
  | .cos => A.cos
  | .tan => A.tan
  | .sqrt => A.sqrt
  | .exp => A.exp

/-- Calling through a two-argument function pointer
(`MathExpression::add`, `subtract`, `multiply`, `divide` and `pow`). -/
def Arith.callDDD {V : Type} (A : Arith V) : DDDFun → V → V → V
  | .add => A.add
  | .subtract => A.sub
  | .multiply => A.mul
  | .divide => A.div
  | .pow => A.pow

/-- Class `Operator` (with its `Entity` base); `m_ddiOperator` is `nullptr` in every entry of
the table and is never called, so it is left out. -/
structure Operator where
  m_name : Str
  m_type : EntityType
  m_precedence : OperatorPrecedence
  m_ddOperator : Option DDFun
  m_dddOperator : Option DDDFun
  deriving DecidableEq, Repr

/-- Method `Operator::precedence`. -/
def Operator.precedence (o : Operator) : Nat := o.m_precedence.toNat

/-- Class `Argument` (with its `Entity` base). -/
structure Argument (V : Type) where
  m_name : Str
  m_type : EntityType
  m_ivalue : Int
  m_dvalue : V
  deriving DecidableEq, Repr

/-- A `const Argument *`: an entry of the static `constantMap` or of `m_argumentMap`. -/
inductive ArgPtr where
  | constant (key : Str)
  | argument (key : Str)
  deriving DecidableEq, Repr

/-- Class `Generator` (with its `Entity` base); `none` is `nullptr`. -/
structure Generator where
  m_name : Str
  m_type : EntityType
  m_op : Option Operator
  m_arg1 : Option ArgPtr
  m_arg2 : Option ArgPtr
  m_myArg : Option Str
  deriving DecidableEq, Repr

/-- The data members of class `MathExpression`. -/
structure MathExpression (V : Type) where
  m_reversePolishError : Nat
  m_reversePolishErrorString : Str
  m_expressionError : Nat
  m_expressionErrorString : Str
  m_expression : Str
  m_reversePolish : Str
  m_mathPrintPrecision : Nat
  m_argumentMap : List (Str × Argument V)
  m_generatorVec : List Generator
  m_math : List Str
  m_RPstack : List Str
  deriving DecidableEq, Repr

/-- The constructor `MathExpression::MathExpression`. -/
def MathExpression.new (V : Type) : MathExpression V where
  m_reversePolishError := 0
  m_reversePolishErrorString := []
  m_expressionError := 0
  m_expressionErrorString := []
  m_expression := []
  m_reversePolish := []
  m_mathPrintPrecision := 7
  m_argumentMap := []
  m_generatorVec := []
  m_math := []
  m_RPstack := []

/-- The expression `s[i]` of a `std::string`. -/
def charAt (s : Str) (i : Nat) : Char := s.getD i (Char.ofNat 0)

/-- The call `s.insert(s.begin() + i, c)`. -/
def insertAt {α : Type} (s : List α) (i : Nat) (c : α) : List α := s.take i ++ c :: s.drop i

/-- The call `s.erase(i, 1)` (for a vector, `v.erase(v.begin() + i)`). -/
def eraseAt {α : Type} (s : List α) (i : Nat) : List α := s.take i ++ s.drop (i + 1)

/-- The static vector `MathExpression::specialChars`. -/
def specialChars : List Char := ['+', '-', '*', '/', '^', '(', ')']

/-- The static map `MathExpression::operatorMap`. -/
def operatorMap : List (Str × Operator) :=
  [ (['+'], ⟨['+'], .OperatorInDoubleDoubleOutDouble, .Addition, none, some .add⟩),
    (['-'], ⟨['-'], .OperatorInDoubleDoubleOutDouble, .Addition, none, some .subtract⟩),
    (['*'], ⟨['*'], .OperatorInDoubleDoubleOutDouble, .Multiplication, none, some .multiply⟩),
    (['/'], ⟨['/'], .OperatorInDoubleDoubleOutDouble, .Multiplication, none, some .divide⟩),
    (['^'], ⟨['^'], .OperatorInDoubleDoubleOutDouble, .Function, none, some .pow⟩),
    (['p', 'o', 'w'],
      ⟨['p', 'o', 'w'], .OperatorInDoubleDoubleOutDouble, .Function, none, some .pow⟩),
    (['s', 'i', 'n'], ⟨['s', 'i', 'n'], .OperatorInDoubleOutDouble, .Function, some .sin, none⟩),
    (['c', 'o', 's'], ⟨['c', 'o', 's'], .OperatorInDoubleOutDouble, .Function, some .cos, none⟩),
    (['t', 'a', 'n'], ⟨['t', 'a', 'n'], .OperatorInDoubleOutDouble, .Function, some .tan, none⟩),
    (['s', 'q', 'r', 't'],
      ⟨['s', 'q', 'r', 't'], .OperatorInDoubleOutDouble, .Function, some .sqrt, none⟩),
    (['e', 'x', 'p'], ⟨['e', 'x', 'p'], .OperatorInDoubleOutDouble, .Function, some .exp, none⟩) ]

/-- The static map `MathExpression::constantMap` (the entry `kBeV` carries the name `kBJ`). -/
def constantMap {V : Type} (A : Arith V) : List (Str × Argument V) :=
  [ (['p', 'i'], ⟨['p', 'i'], .ArgumentConstant, 0, A.M_PI⟩),
    (['i', 'n', 'v', 'P', 'i'], ⟨['i', 'n', 'v', 'P', 'i'], .ArgumentConstant, 0, A.M_1_PI⟩),
    (['q', 'e'], ⟨['q', 'e'], .ArgumentConstant, 0, A.qe⟩),
    (['k', 'B', 'J'], ⟨['k', 'B', 'J'], .ArgumentConstant, 0, A.kBJ⟩),
    (['k', 'B', 'e', 'V'], ⟨['k', 'B', 'J'], .ArgumentConstant, 0, A.kBeV⟩),
    (['T', 'o', 'K'], ⟨['T', 'o', 'K'], .ArgumentConstant, 0, A.ToK⟩) ]

/-- Function `MathExpression::isNumber`. -/
def isNumber (a_str : Str) : Bool :=
  if a_str.length == 0 then false
  else if (charAt a_str 0).isDigit && a_str.length == 1 then true
  else if ((charAt a_str 0).isDigit || charAt a_str 0 == '+' || charAt a_str 0 == '-'
      || charAt a_str 0 == '.') && decide (a_str.length > 1) then true
  else false

/-- Function `MathExpression::isSpecialCharacter`. -/
def isSpecialCharacter (a_char : Char) : Bool := specialChars.contains a_char

/-- Function `MathExpression::isSpecialNoParenthesis`. -/
def isSpecialNoParenthesis (a_char : Char) : Bool :=
  if a_char == '(' || a_char == ')' then false else specialChars.contains a_char

/-- Function `MathExpression::hasOperatorMap`. -/
def hasOperatorMap (a_operatorName : Str) : Bool := (operatorMap.lookup a_operatorName).isSome

/-- Function `MathExpression::getOperator`; `none` is `nullptr`. -/
def getOperator (a_key : Str) : Option Operator :=
  if hasOperatorMap a_key then operatorMap.lookup a_key else none

/-- Function `MathExpression::isOperator`. -/
def isOperator (a_entityName : Str) : Bool := hasOperatorMap a_entityName

/-- Function `MathExpression::isOperatorOneArg`. -/
def isOperatorOneArg (a_entityName : Str) : Bool :=
  if hasOperatorMap a_entityName then
    match getOperator a_entityName with
    | some o => o.m_type == .OperatorInDoubleOutDouble || o.m_type == .OperatorInIntOutInt
    | none => false
  else false

/-- Function `MathExpression::isOperatorTwoArg`. -/
def isOperatorTwoArg (a_entityName : Str) : Bool :=
  if hasOperatorMap a_entityName then
    match getOperator a_entityName with
    | some o =>
      o.m_type == .OperatorInDoubleDoubleOutDouble || o.m_type == .OperatorInDoubleIntOutDouble
    | none => false
  else false

section Program

variable {V : Type} (A : Arith V)

/-- Function `MathExpression::hasConstantMap`. -/
def hasConstantMap (a_constantName : Str) : Bool := ((constantMap A).lookup a_constantName).isSome

/-- Function `MathExpression::getConstant`; `none` is `nullptr`. -/
def getConstant (a_key : Str) : Option (Argument V) :=
  if hasConstantMap A a_key then (constantMap A).lookup a_key else none

/-- Function `MathExpression::hasArgumentMap`. -/
def hasArgumentMap (s : MathExpression V) (a_argumentName : Str) : Bool :=
  (s.m_argumentMap.lookup a_argumentName).isSome

/-- Function `MathExpression::getArgument`; `none` is `nullptr`. -/
def getArgument (s : MathExpression V) (a_key : Str) : Option (Argument V) :=
  if hasArgumentMap s a_key then s.m_argumentMap.lookup a_key else none

/-- Function `MathExpression::isArgument`. -/
def isArgument (s : MathExpression V) (a_entityName : Str) : Bool :=
  hasArgumentMap s a_entityName || hasConstantMap A a_entityName

/-- Function `MathExpression::hasGeneratorMap`. -/
def hasGeneratorMap (s : MathExpression V) (a_generatorName : Str) : Bool :=
  s.m_generatorVec.any (fun igen => igen.m_name == a_generatorName)

/-- Function `MathExpression::entityType` (of a key). -/
def entityType (s : MathExpression V) (a_key : Str) : EntityType :=
  match getConstant A a_key with
  | some c => c.m_type
  | none =>
    match getOperator a_key with
    | some o => o.m_type
    | none =>
      match getArgument s a_key with
      | some a => a.m_type
      | none => .None

/-- Function `MathExpression::getEntitySize`; the counter is a `uint16_t`. -/
def getEntitySize (s : MathExpression V) (a_entityType : EntityType) : Nat :=
  if a_entityType = .Argument then
    (s.m_argumentMap.countP (fun argmap =>
      argmap.2.m_type == .Argument || argmap.2.m_type == .ArgumentGenerated
        || argmap.2.m_type == .ArgumentGeneratedFromOneArg
        || argmap.2.m_type == .ArgumentGeneratedFromTwoArg
        || argmap.2.m_type == .ArgumentUserConstant)) % 65536
  else
    (s.m_argumentMap.countP (fun argmap => argmap.2.m_type == a_entityType)) % 65536

/-- The conversion `char(n)` of an `int`: the low byte. -/
def toChar (n : Nat) : Char := Char.ofNat (n % 256)

/-- The name built by `createNewUserConstantName` from the entity count `n`: `#`, then
`char(int('A') + n/26)`, then `char(int('A') + n%26)`. -/
def nameOf (n : Nat) : Str := ['#', toChar (65 + n / 26), toChar (65 + n % 26)]

/-- Function `MathExpression::createNewUserConstantName`. -/
def createNewUserConstantName (s : MathExpression V) : Str :=
  nameOf (getEntitySize s .Argument)

/-- The call `m_argumentMap.insert(pair(key, arg))`, which keeps an existing entry. -/
def mapInsert (m : List (Str × Argument V)) (key : Str) (arg : Argument V) :
    List (Str × Argument V) :=
  if (m.lookup key).isSome then m else m ++ [(key, arg)]

/-- Assignment through a pointer to the entry `key` of the argument map. -/
def mapSetDouble (m : List (Str × Argument V)) (key : Str) (a_dvalue : V) :
    List (Str × Argument V) :=
  m.map (fun kv => (kv.1, if kv.1 == key then { kv.2 with m_dvalue := a_dvalue } else kv.2))

/-- Function `MathExpression::setExpression`. -/
def setExpression (a_expression : Str) (s : MathExpression V) : MathExpression V :=
  { s with m_expression := (a_expression.filter (fun c => c != ' ')).filter (fun c => c != '\t') }

/-- Function `MathExpression::appendToReversePolishString`, on the RP text. -/
def appendToReversePolishString (a_str : Str) (rp : Str) : Str :=
  if rp.length > 0 then rp ++ ' ' :: a_str else rp ++ a_str

/-- The operator loop of `pushToReversePolish`:
`for(i=0; static_cast<size_t>(i)<iend; i++)` with its body, on the stack and the RP text.
`prec` is `getOperator(a_str)->precedence()`; the result is the final `i`, stack and RP text.
Every trip but the last erases a stack entry, so `fuel = m_RPstack.size() + 1` trips suffice. -/
def pushOperatorLoop (prec : Nat) : Nat → Int → Nat → List Str → Str →
    Except Fault (Int × List Str × Str)
  | 0, _, _, _, _ => .error .outOfFuel
  | fuel + 1, i, iend, stack, rp =>
    if i.toNat < iend then
      match stack[i.toNat]? with
      | none => .error .undefinedBehaviour
      | some top =>
        match getOperator top with
        | none => .error .undefinedBehaviour
        | some o =>
          if o.precedence ≥ prec then
            pushOperatorLoop prec fuel ((i - 1) + 1) (iend - 1) (eraseAt stack i.toNat)
              (appendToReversePolishString top rp)
          else .ok (i, stack, rp)
    else .ok (i, stack, rp)

/-- The loop `for(iend=0; iend<m_RPstack.size(); iend++) if(m_RPstack[iend] == "(") break;`. -/
def firstParenthesis : List Str → Nat
  | [] => 0
  | x :: rest => if x == ['('] then 0 else firstParenthesis rest + 1

/-- The loop `for(; m_RPstack[0] != "(";)` of `pushToReversePolish` with its body.
The result is `true` with the stack and RP text at loop exit, or `false` when the body returned
`false`. Reading `m_RPstack[0]` of an empty vector is undefined behaviour. -/
def popToParenthesis : Nat → List Str → Str → Except Fault (Bool × List Str × Str)
  | 0, _, _ => .error .outOfFuel
  | fuel + 1, stack, rp =>
    match stack[0]? with
    | none => .error .undefinedBehaviour
    | some top =>
      if top != ['('] then
        if stack.length > 0 then
          popToParenthesis fuel (eraseAt stack 0) (appendToReversePolishString top rp)
        else .ok (false, stack, appendToReversePolishString top rp)
      else .ok (true, stack, rp)

/-- The final block of `pushToReversePolish`: if this is the last entry of the infix text,
move the whole stack to the output. -/
def flushIfLast (a_char : Char) (s : MathExpression V) : MathExpression V :=
  if a_char == 'N' || a_char == 'A' || a_char == 'S' then
    { s with
      m_reversePolish :=
        s.m_RPstack.foldl (fun rp x => appendToReversePolishString x rp) s.m_reversePolish
      m_RPstack := [] }
  else s

/-- Function `MathExpression::pushToReversePolish`. -/
def pushToReversePolish (a_str : Str) (a_char : Char) (s : MathExpression V) :
    Except Fault (Bool × MathExpression V) :=
  if (a_char == 'n' || a_char == 'N' || a_char == 'a' || a_char == 'A')
      && hasOperatorMap a_str == false then
    .ok (true, flushIfLast a_char
      { s with m_reversePolish := appendToReversePolishString a_str s.m_reversePolish })
  else if hasOperatorMap a_str then
    match getOperator a_str with
    | none => .error .undefinedBehaviour
    | some o =>
      match pushOperatorLoop o.precedence (s.m_RPstack.length + 1) 0
          (firstParenthesis s.m_RPstack) s.m_RPstack s.m_reversePolish with
      | .error f => .error f
      | .ok (i, stack, rp) =>
        .ok (true, flushIfLast a_char
          { s with m_reversePolish := rp, m_RPstack := insertAt stack i.toNat a_str })
  else if a_str == ['('] then
    .ok (true, flushIfLast a_char { s with m_RPstack := insertAt s.m_RPstack 0 a_str })
  else if a_str == [')'] then
    match popToParenthesis (s.m_RPstack.length + 1) s.m_RPstack s.m_reversePolish with
    | .error f => .error f
    | .ok (false, stack, rp) =>
      .ok (false,
        { s with
          m_reversePolish := rp
          m_RPstack := stack
          m_expressionError := 4
          m_expressionErrorString := "The expression doesn't have matching parenthesis".toList })
    | .ok (true, stack, rp) =>
      .ok (true, flushIfLast a_char { s with m_reversePolish := rp, m_RPstack := eraseAt stack 0 })
  else .ok (true, flushIfLast a_char s)

/-- The closing-parenthesis search of the pre-pass, `for (j=i+2; j < m_expression.length(); j++)`
up to its `break`: the result is the value of `j` at loop exit, which is the place of the special
character found or the length of the text. `rem` is `m_expression.length() - j`. -/
def prepassClose (e : Str) (i : Nat) : Nat → Nat
  | 0 => e.length
  | rem + 1 =>
    let j := e.length - (rem + 1)
    if isSpecialCharacter (charAt e j) then
      if charAt e (i - 1) == '^' && charAt e j == '^' then prepassClose e i rem
      else if charAt e (j - 1) == 'e' && (charAt e j == '-' || charAt e j == '+') then
        prepassClose e i rem
      else j
    else prepassClose e i rem

/-- The pre-pass of `expressionToReversePolish` (sign folding and parenthesis insertion):
`for (size_t i = 0; i < m_expression.length(); i++)` on the text, `i` and `addParenthesis`. -/
def prepassLoop : Nat → Str → Nat → Bool → Except Fault Str
  | 0, e, i, _ => if i < e.length then .error .outOfFuel else .ok e
  | fuel + 1, e, i, addParenthesis =>
    if i < e.length then
      if i > 0 && ((charAt e (i - 1) == '-' && charAt e i == '-')
          || (charAt e (i - 1) == '+' && charAt e i == '+')) then
        prepassLoop fuel (eraseAt (e.set i '+') (i - 1)) ((i - 1) + 1) addParenthesis
      else if i > 0 && ((charAt e (i - 1) == '-' && charAt e i == '+')
          || (charAt e (i - 1) == '+' && charAt e i == '-')) then
        prepassLoop fuel (eraseAt (e.set i '-') (i - 1)) ((i - 1) + 1) addParenthesis
      else
        let addParenthesis1 :=
          if i > 0 && ((isSpecialNoParenthesis (charAt e (i - 1))
              && ((charAt e i == '+' || charAt e i == '-') && charAt e (i - 1) != 'e'))
              || (charAt e (i - 1) == '^' && charAt e i != '(')) then true
          else addParenthesis
        if addParenthesis1 then
          if i = 0 then .error .undefinedBehaviour
          else
            let e1 := insertAt e i '('
            let j := prepassClose e1 i (e1.length - (i + 2))
            if j < e1.length then prepassLoop fuel (insertAt e1 j ')') (i + 1) false
            else .ok (insertAt e1 j ')')
        else prepassLoop fuel e (i + 1) addParenthesis1
    else .ok e

/-- The local variables of `expressionToReversePolish` that live across loop trips. -/
structure ReadState where
  alpha : Str
  number : Str
  special : Str
  readingAlpha : Bool
  readingNumber : Bool
  readingSpecial : Bool
  deriving DecidableEq, Repr

/-- A call of `pushToReversePolish` whose return value is discarded. -/
def pushIgnore (a_str : Str) (a_char : Char) (s : MathExpression V) :
    Except Fault (MathExpression V) :=
  match pushToReversePolish a_str a_char s with
  | .error f => .error f
  | .ok (_, s1) => .ok s1

/-- One trip of the main loop of `expressionToReversePolish`, at index `i`. The Boolean is
`false` when the trip executed `return false`. -/
def readStep (e : Str) (i : Nat) (r : ReadState) (s : MathExpression V) :
    Except Fault (Bool × ReadState × MathExpression V) :=
  let c := charAt e i
  if c.isAlpha && !(r.readingNumber && c == 'e') then
    if !r.readingAlpha then
      match (if r.readingNumber then pushIgnore r.number 'n' s
             else if r.readingSpecial then pushIgnore r.special 's' s
             else .ok s) with
      | .error f => .error f
      | .ok s1 =>
        let r1 : ReadState :=
          { r with alpha := [c], readingAlpha := true, readingNumber := false,
                   readingSpecial := false }
        if i > 1 && ((charAt e (i - 2) == '(' && charAt e (i - 1) == '+')
            || (charAt e (i - 2) == '(' && charAt e (i - 1) == '-')) then
          match pushIgnore ['0'] 'n' s1 with
          | .error f => .error f
          | .ok s2 => .ok (true, r1, s2)
        else .ok (true, r1, s1)
    else .ok (true, { r with alpha := r.alpha ++ [c] }, s)
  else
    if i > 0 then
      if !r.readingNumber
          && ((charAt e (i - 1) == '(' && c == '+') || (charAt e (i - 1) == '(' && c == '-')
            || c.isDigit || (!(charAt e (i - 1)).isDigit && c == '.')) then
        match (if r.readingAlpha then pushIgnore r.alpha 'a' s
               else if r.readingSpecial then pushIgnore r.special 's' s
               else .ok s) with
        | .error f => .error f
        | .ok s1 =>
          .ok (true, { r with number := [c], readingAlpha := false, readingNumber := true,
                              readingSpecial := false }, s1)
      else if isSpecialCharacter c
          && !(r.readingNumber && charAt e (i - 1) == 'e' && (c == '+' || c == '-')) then
        match (if r.readingAlpha then pushIgnore r.alpha 'a' s
               else if r.readingNumber then pushIgnore r.number 'n' s
               else if r.readingSpecial then pushIgnore r.special 's' s
               else .ok s) with
        | .error f => .error f
        | .ok s1 =>
          let r1 : ReadState :=
            { r with special := [c], readingAlpha := false, readingNumber := false,
                     readingSpecial := true }
          if i > 1 && ((charAt e (i - 2) == '(' && charAt e (i - 1) == '+' && c == '(')
              || (charAt e (i - 2) == '(' && charAt e (i - 1) == '-' && c == '(')) then
            match pushIgnore ['0'] 'n' s1 with
            | .error f => .error f
            | .ok s2 => .ok (true, r1, s2)
          else .ok (true, r1, s1)
      else if r.readingNumber
          && (c.isDigit || c == '.' || c == 'e' || c == '+' || c == '-') then
        .ok (true, { r with number := r.number ++ [c] }, s)
      else .ok (true, r, s)
    else
      if c == '+' || c == '-' then
        match pushIgnore ['0'] 'n' s with
        | .error f => .error f
        | .ok s1 =>
          .ok (true, { r with number := ['0'], special := [c], readingAlpha := false,
                              readingNumber := false, readingSpecial := true }, s1)
      else if c == '.' || c.isDigit then
        .ok (true, { r with number := [c], readingAlpha := false, readingNumber := true,
                            readingSpecial := false }, s)
      else if c == '(' then
        .ok (true, { r with special := [c], readingAlpha := false, readingNumber := false,
                            readingSpecial := true }, s)
      else
        .ok (false, r,
          { s with m_expressionError := 5
                   m_expressionErrorString := "The expression has incorect begining".toList })

/-- The main loop of `expressionToReversePolish`,
`for (size_t i = 0; i < m_expression.length(); i++)`; `rem` is `m_expression.length() - i`. -/
def readLoop (e : Str) : Nat → ReadState → MathExpression V →
    Except Fault (Bool × ReadState × MathExpression V)
  | 0, r, s => .ok (true, r, s)
  | rem + 1, r, s =>
    match readStep e (e.length - (rem + 1)) r s with
    | .error f => .error f
    | .ok (false, r1, s1) => .ok (false, r1, s1)
    | .ok (true, r1, s1) => readLoop e rem r1 s1

/-- Function `MathExpression::expressionToReversePolish`; `fuel` bounds the trips of the
pre-pass. -/
def expressionToReversePolish (fuel : Nat) (s : MathExpression V) :
    Except Fault (Bool × MathExpression V) :=
  match prepassLoop fuel s.m_expression 0 false with
  | .error f => .error f
  | .ok e =>
    let s0 : MathExpression V := { s with m_RPstack := [], m_expression := e }
    match readLoop e e.length ⟨[], [], [], false, false, false⟩ s0 with
    | .error f => .error f
    | .ok (false, _, s1) => .ok (false, s1)
    | .ok (true, r, s1) =>
      match (if r.readingAlpha then pushIgnore r.alpha 'A' s1
             else if r.readingNumber then pushIgnore r.number 'N' s1
             else if r.readingSpecial then pushIgnore r.special 'S' s1
             else .ok s1) with
      | .error f => .error f
      | .ok s2 => .ok (true, s2)

/-- The body of the `if` that ends an entity in `setArgumentMap`: classify `entity` and
extend `m_math` and `m_argumentMap`. The Boolean is `false` when the body executed
`return false` (after setting the error members for index `i`). -/
def classifyEntity (i : Nat) (entity : Str) (s : MathExpression V) :
    Bool × MathExpression V :=
  if (charAt entity 0).isAlpha then
    if hasOperatorMap entity then (true, { s with m_math := s.m_math ++ [entity] })
    else if hasConstantMap A entity then
      match getConstant A entity with
      | some c =>
        (true, { s with
          m_argumentMap :=
            if hasArgumentMap s entity == false then
              mapInsert s.m_argumentMap entity ⟨entity, .ArgumentConstant, 0, c.m_dvalue⟩
            else s.m_argumentMap
          m_math := s.m_math ++ [entity] })
      | none => (true, { s with m_math := s.m_math ++ [entity] })
    else
      (true, { s with
        m_argumentMap :=
          if hasArgumentMap s entity == false then
            mapInsert s.m_argumentMap entity ⟨entity, .ArgumentVariable, 0, A.zero⟩
          else s.m_argumentMap
        m_math := s.m_math ++ [entity] })
  else if isNumber entity then
    let cstName := createNewUserConstantName s
    (true, { s with
      m_argumentMap :=
        mapInsert s.m_argumentMap cstName ⟨cstName, .ArgumentUserConstant, 0, A.atof entity⟩
      m_math := s.m_math ++ [cstName] })
  else
    if hasOperatorMap entity then (true, { s with m_math := s.m_math ++ [entity] })
    else
      (false, { s with
        m_reversePolishError := i % 4294967296
        m_reversePolishErrorString :=
          "The operator \'".toList ++ entity
            ++ "\' doesn't exist in the operator map".toList })

/-- The loop of `setArgumentMap`, `for(size_t i=0; i<m_reversePolish.size(); i++)`, on the
local `entity` and the object; `rem` is `m_reversePolish.size() - i`. -/
def setArgumentMapLoop (rp : Str) : Nat → Str → MathExpression V → Bool × MathExpression V
  | 0, _, s => (true, s)
  | rem + 1, entity, s =>
    let i := rp.length - (rem + 1)
    if charAt rp i == ' ' || i == rp.length - 1 then
      let entity1 :=
        if i == rp.length - 1 && charAt rp i != ' ' then entity ++ [charAt rp i] else entity
      match classifyEntity A i entity1 s with
      | (false, s1) => (false, s1)
      | (true, s1) => setArgumentMapLoop rp rem [] s1
    else setArgumentMapLoop rp rem (entity ++ [charAt rp i]) s

/-- Function `MathExpression::setArgumentMap()`. -/
def setArgumentMap (s : MathExpression V) : Bool × MathExpression V :=
  setArgumentMapLoop A s.m_reversePolish s.m_reversePolish.length []
    { s with m_math := [], m_argumentMap := [], m_generatorVec := [] }

/-- Function `MathExpression::setArgumentMap(const string &)`. -/
def setArgumentMapFrom (a_reversePolish : Str) (s : MathExpression V) :
    Bool × MathExpression V :=
  setArgumentMap A { s with m_reversePolish := a_reversePolish }

/-- The pointer chosen for an argument key in `generateArgArgOp` and `generateArgOp`. -/
def argPointer (s : MathExpression V) (a_key : Str) : Option ArgPtr :=
  if entityType A s a_key = .ArgumentConstant then
    (getConstant A a_key).map (fun _ => ArgPtr.constant a_key)
  else (getArgument s a_key).map (fun _ => ArgPtr.argument a_key)

/-- Function `MathExpression::generateArgArgOp`. -/
def generateArgArgOp (a_key1 a_key2 a_key3 : Str) (s : MathExpression V) : MathExpression V :=
  let arg1 := argPointer A s a_key1
  let arg2 := argPointer A s a_key2
  let op := getOperator a_key3
  let cstName := createNewUserConstantName s
  { s with
    m_argumentMap :=
      mapInsert s.m_argumentMap cstName ⟨cstName, .ArgumentGeneratedFromTwoArg, 0, A.zero⟩
    m_generatorVec :=
      s.m_generatorVec ++ [⟨cstName, .ArgumentGeneratedFromTwoArg, op, arg1, arg2, some cstName⟩]
    m_math := s.m_math ++ [cstName] }

/-- Function `MathExpression::generateArgOp`. -/
def generateArgOp (a_key1 a_key2 : Str) (s : MathExpression V) : MathExpression V :=
  let arg1 := argPointer A s a_key1
  let op := getOperator a_key2
  let cstName := createNewUserConstantName s
  { s with
    m_argumentMap :=
      mapInsert s.m_argumentMap cstName ⟨cstName, .ArgumentGeneratedFromOneArg, 0, A.zero⟩
    m_generatorVec :=
      s.m_generatorVec ++ [⟨cstName, .ArgumentGeneratedFromOneArg, op, arg1, none, some cstName⟩]
    m_math := s.m_math ++ [cstName] }

/-- The backward loop `for ( ; j>=0; j--) if (isOperator(m_math.at(j))) break;` followed by
`j++`: started at `j = k - 1`, the result is the value of `j` after the `j++`. -/
def scanBack (math : List Str) : Nat → Nat
  | 0 => 0
  | k + 1 => if isOperator (math.getD k []) then k + 1 else scanBack math k

/-- The forward loop `for (j++; j<=last; j++) m_math.push_back(m_math.at(j));` for the `j`
found by `scanBack`, where `stop = last + 1`. -/
def pushBackRange (stop : Nat) (s : MathExpression V) : MathExpression V :=
  let start := scanBack s.m_math stop
  { s with m_math := s.m_math ++ (s.m_math.drop start).take (stop - start) }

/-- The loop of `expandMathExpression`, `for (size_t i=0; i<m_math.size(); i++)`. -/
def expandLoop : Nat → Nat → MathExpression V → Except Fault (Bool × MathExpression V)
  | 0, i, s => if i < s.m_math.length then .error .outOfFuel else .ok (true, s)
  | fuel + 1, i, s =>
    if i < s.m_math.length then
      let at_ (k : Nat) : Str := s.m_math.getD k []
      if isOperator (at_ i) then
        if i > 0 then
          if isArgument A s (at_ (i - 1)) && isOperator (at_ i) && isOperatorOneArg (at_ i) then
            let s1 := if i > 1 then pushBackRange (i - 1) s else s
            expandLoop fuel (i + 1) (generateArgOp A (at_ (i - 1)) (at_ i) s1)
          else if isOperator (at_ (i - 1)) && isOperator (at_ i) then
            expandLoop fuel (i + 1) { s with m_math := s.m_math ++ [at_ i] }
          else if i > 1 then
            if isArgument A s (at_ (i - 2)) && isArgument A s (at_ (i - 1))
                && isOperator (at_ i) && isOperatorTwoArg (at_ i) then
              let s1 := if i > 2 then pushBackRange (i - 2) s else s
              expandLoop fuel (i + 1)
                (generateArgArgOp A (at_ (i - 2)) (at_ (i - 1)) (at_ i) s1)
            else if isOperator (at_ (i - 2)) && isArgument A s (at_ (i - 1))
                && isOperator (at_ i) && isOperatorTwoArg (at_ i) then
              expandLoop fuel (i + 1) { s with m_math := s.m_math ++ [at_ (i - 1), at_ i] }
            else expandLoop fuel (i + 1) s
          else
            .ok (false,
              { s with
                m_expressionError := 2
                m_expressionErrorString :=
                  "The RP expression has operator without args".toList })
        else
          .ok (false,
            { s with
              m_expressionError := 1
              m_expressionErrorString := "The RP expression starts with an operator".toList })
      else expandLoop fuel (i + 1) s
    else .ok (true, s)

/-- Function `MathExpression::expandMathExpression`; `fuel` bounds the trips of its loop. -/
def expandMathExpression (fuel : Nat) (s : MathExpression V) :
    Except Fault (Bool × MathExpression V) :=
  expandLoop A fuel 0 s

/-- Reading `getDoubleValue()` through an argument pointer, given the content of the
argument map the pointer may point into. -/
def derefDouble (m : List (Str × Argument V)) : Option ArgPtr → Except Fault V
  | none => .error .undefinedBehaviour
  | some (.constant key) =>
    match (constantMap A).lookup key with
    | some a => .ok a.m_dvalue
    | none => .error .undefinedBehaviour
  | some (.argument key) =>
    match m.lookup key with
    | some a => .ok a.m_dvalue
    | none => .error .undefinedBehaviour

/-- Function `Generator::generateDoubleValue`. A generator reaches the argument map through
its pointers only, so the function acts on the content `m` of that map. -/
def generateDoubleValue (g : Generator) (m : List (Str × Argument V)) :
    Except Fault (V × List (Str × Argument V)) :=
  let store (dvalue : V) : Except Fault (V × List (Str × Argument V)) :=
    match g.m_myArg with
    | none => .error .undefinedBehaviour
    | some key =>
      if (m.lookup key).isSome then .ok (dvalue, mapSetDouble m key dvalue)
      else .error .undefinedBehaviour
  if g.m_type = .ArgumentGeneratedFromOneArg then
    match g.m_op with
    | none => .error .undefinedBehaviour
    | some o =>
      match o.m_ddOperator with
      | none => .error .undefinedBehaviour
      | some f =>
        match derefDouble A m g.m_arg1 with
        | .error e => .error e
        | .ok x => store (A.callDD f x)
  else if g.m_type = .ArgumentGeneratedFromTwoArg then
    match g.m_op with
    | none => .error .undefinedBehaviour
    | some o =>
      match o.m_dddOperator with
      | none => .error .undefinedBehaviour
      | some f =>
        match derefDouble A m g.m_arg1 with
        | .error e => .error e
        | .ok x =>
          match derefDouble A m g.m_arg2 with
          | .error e => .error e
          | .ok y => store (A.callDDD f x y)
  else store A.zero

/-- The generator calls of `calculateExpression`, first to last; the value is the one returned
by the last call (`dflt` for an empty list). -/
def runGenerators : List Generator → V → List (Str × Argument V) →
    Except Fault (V × List (Str × Argument V))
  | [], dflt, m => .ok (dflt, m)
  | g :: rest, _, m =>
    match generateDoubleValue A g m with
    | .error e => .error e
    | .ok (v, m1) => runGenerators rest v m1

/-- Function `MathExpression::calculateExpression`. -/
def calculateExpression (s : MathExpression V) : Except Fault (V × MathExpression V) :=
  if s.m_generatorVec.length == 0 then
    if s.m_math.length > 0 then
      match s.m_argumentMap.lookup (s.m_math.getD (s.m_math.length - 1) []) with
      | some a => .ok (a.m_dvalue, s)
      | none => .error .outOfRange
    else .ok (A.zero, s)
  else
    match runGenerators A s.m_generatorVec A.zero s.m_argumentMap with
    | .error e => .error e
    | .ok (v, m1) => .ok (v, { s with m_argumentMap := m1 })

/-- Function `MathExpression::setVariableDouble`. -/
def setVariableDouble (a_name : Str) (a_value : V) (s : MathExpression V) : MathExpression V :=
  if hasArgumentMap s a_name then
    { s with m_argumentMap := mapSetDouble s.m_argumentMap a_name a_value }
  else s

/-- Function `MathExpression::getVariableSize`. -/
def getVariableSize (s : MathExpression V) : Nat := getEntitySize s .ArgumentVariable

/-- Function `MathExpression::clear`. -/
def clear (s : MathExpression V) : MathExpression V :=
  { s with
    m_reversePolishErrorString := []
    m_expressionErrorString := []
    m_expression := []
    m_reversePolish := []
    m_argumentMap := []
    m_generatorVec := []
    m_math := []
    m_RPstack := [] }

/-- Function `MathExpression::setMath`: the four stages in sequence, each return value
discarded. `fuel` bounds the pre-pass and the expansion loop. -/
def setMath (fuel : Nat) (a_expression : Str) (s : MathExpression V) :
    Except Fault (MathExpression V) :=
  match expressionToReversePolish fuel (setExpression a_expression s) with
  | .error f => .error f
  | .ok (_, s1) =>
    match expandMathExpression A fuel (setArgumentMap A s1).2 with
    | .error f => .error f
    | .ok (_, s2) => .ok s2

/-! ### The reader of `expressionToReversePolish` as a lexer

The main loop of `expressionToReversePolish` never looks at the results of its
`pushToReversePolish` calls, so it factors into a lexer that yields the calls to make and the
calls themselves. The definitions below state the lexer; the theorems `readLoop_lex` and
`expressionToReversePolish_lex` prove the factoring. -/

/-- The token the reader is in the middle of. -/
inductive Pending where
  | idle
  | alpha (t : Str)
  | number (t : Str)
  | special (t : Str)
  deriving DecidableEq, Repr

/-- The token a `ReadState` is in the middle of. -/
def ReadState.pending (r : ReadState) : Pending :=
  if r.readingAlpha then .alpha r.alpha
  else if r.readingNumber then .number r.number
  else if r.readingSpecial then .special r.special
  else .idle

/-- At most one of the three `reading` flags is set. -/
def ReadState.exclusive (r : ReadState) : Bool :=
  !(r.readingAlpha && r.readingNumber) && !(r.readingAlpha && r.readingSpecial)
    && !(r.readingNumber && r.readingSpecial)

/-- The flag `readingNumber`. -/
def Pending.isNumber : Pending → Bool
  | .number _ => true
  | _ => false

/-- The `pushToReversePolish` call that ends the pending token inside the loop. -/
def Pending.pushes : Pending → List (Str × Char)
  | .idle => []
  | .alpha t => [(t, 'a')]
  | .number t => [(t, 'n')]
  | .special t => [(t, 's')]

/-- The `pushToReversePolish` call after the loop (`Add the last entity`). -/
def Pending.lastPushes : Pending → List (Str × Char)
  | .idle => []
  | .alpha t => [(t, 'A')]
  | .number t => [(t, 'N')]
  | .special t => [(t, 'S')]

/-- The test `m_expression[i-2] == '('` and `m_expression[i-1]` is a sign, for `i > 1`, on
the reversed text before position `i`. -/
def signAfterParenthesis : List Char → Bool
  | p1 :: p2 :: _ => (p2 == '(' && p1 == '+') || (p2 == '(' && p1 == '-')
  | _ => false

/-- The test that `m_expression[i-2] == '('`, `m_expression[i-1]` is a sign and the current
character `c` is `(`, for `i > 1`. -/
def signBetweenParentheses (c : Char) : List Char → Bool
  | p1 :: p2 :: _ => (p2 == '(' && p1 == '+' && c == '(') || (p2 == '(' && p1 == '-' && c == '(')
  | _ => false

/-- One trip of the main loop without its `pushToReversePolish` calls: the calls it makes, in
order, and the new values of the local variables, when the text before position `i`, reversed,
is `rpre` and `c` is `m_expression[i]`; `none` when the trip executes `return false`. -/
def readTrip (rpre : List Char) (c : Char) (r : ReadState) :
    Option (List (Str × Char) × ReadState) :=
  if c.isAlpha && !(r.readingNumber && c == 'e') then
    if !r.readingAlpha then
      some ((if r.readingNumber then [(r.number, 'n')]
             else if r.readingSpecial then [(r.special, 's')]
             else []) ++ (if signAfterParenthesis rpre then [(['0'], 'n')] else []),
        { r with alpha := [c], readingAlpha := true, readingNumber := false,
                 readingSpecial := false })
    else some ([], { r with alpha := r.alpha ++ [c] })
  else
    match rpre with
    | [] =>
      if c == '+' || c == '-' then
        some ([(['0'], 'n')],
          { r with number := ['0'], special := [c], readingAlpha := false,
                   readingNumber := false, readingSpecial := true })
      else if c == '.' || c.isDigit then
        some ([], { r with number := [c], readingAlpha := false, readingNumber := true,
                           readingSpecial := false })
      else if c == '(' then
        some ([], { r with special := [c], readingAlpha := false, readingNumber := false,
                           readingSpecial := true })
      else none
    | p1 :: _ =>
      if !r.readingNumber
          && ((p1 == '(' && c == '+') || (p1 == '(' && c == '-') || c.isDigit
            || (!p1.isDigit && c == '.')) then
        some ((if r.readingAlpha then [(r.alpha, 'a')]
               else if r.readingSpecial then [(r.special, 's')]
               else []),
          { r with number := [c], readingAlpha := false, readingNumber := true,
                   readingSpecial := false })
      else if isSpecialCharacter c
          && !(r.readingNumber && p1 == 'e' && (c == '+' || c == '-')) then
        some ((if r.readingAlpha then [(r.alpha, 'a')]
               else if r.readingNumber then [(r.number, 'n')]
               else if r.readingSpecial then [(r.special, 's')]
               else []) ++ (if signBetweenParentheses c rpre then [(['0'], 'n')] else []),
          { r with special := [c], readingAlpha := false, readingNumber := false,
                   readingSpecial := true })
      else if r.readingNumber
          && (c.isDigit || c == '.' || c == 'e' || c == '+' || c == '-') then
        some ([], { r with number := r.number ++ [c] })
      else some ([], r)

/-- The main loop without its `pushToReversePolish` calls: all the calls it makes on the text
`suf` that follows the reversed text `rpre`, and the final local variables. -/
def readTrips : List Char → List Char → ReadState → Option (List (Str × Char) × ReadState)
  | _, [], r => some ([], r)
  | rpre, c :: rest, r =>
    match readTrip rpre c r with
    | none => none
    | some (evs, r1) =>
      match readTrips (c :: rpre) rest r1 with
      | none => none
      | some (evs2, r2) => some (evs ++ evs2, r2)

/-- One trip of the main loop as a lexer step: `rpre` is the text before the current
character `c`, reversed; the result is the list of `pushToReversePolish` calls of the trip and
the new pending token, or `none` when the trip executes `return false`. -/
def lexStep (rpre : List Char) (c : Char) (p : Pending) : Option (List (Str × Char) × Pending) :=
  if c.isAlpha && !(p.isNumber && c == 'e') then
    match p with
    | .alpha t => some ([], .alpha (t ++ [c]))
    | _ => some (p.pushes ++ (if signAfterParenthesis rpre then [(['0'], 'n')] else []), .alpha [c])
  else
    match rpre with
    | [] =>
      if c == '+' || c == '-' then some ([(['0'], 'n')], .special [c])
      else if c == '.' || c.isDigit then some ([], .number [c])
      else if c == '(' then some ([], .special [c])
      else none
    | p1 :: _ =>
      if !p.isNumber && ((p1 == '(' && c == '+') || (p1 == '(' && c == '-') || c.isDigit
          || (!p1.isDigit && c == '.')) then
        some (p.pushes, .number [c])
      else if isSpecialCharacter c && !(p.isNumber && p1 == 'e' && (c == '+' || c == '-')) then
        some (p.pushes ++ (if signBetweenParentheses c rpre then [(['0'], 'n')] else []),
          .special [c])
      else
        match p with
        | .number t =>
          if c.isDigit || c == '.' || c == 'e' || c == '+' || c == '-' then
            some ([], .number (t ++ [c]))
          else some ([], p)
        | _ => some ([], p)

/-- The lexer on the text `suf` that follows the reversed text `rpre`. -/
def lexAll : List Char → List Char → Pending → Option (List (Str × Char) × Pending)
  | _, [], p => some ([], p)
  | rpre, c :: rest, p =>
    match lexStep rpre c p with
    | none => none
    | some (evs, p1) =>
      match lexAll (c :: rpre) rest p1 with
      | none => none
      | some (evs2, p2) => some (evs ++ evs2, p2)

/-- A sequence of `pushToReversePolish` calls whose return values are discarded. -/
def applyPushes : List (Str × Char) → MathExpression V → Except Fault (MathExpression V)
  | [], s => .ok s
  | (t, k) :: rest, s =>
    match pushIgnore t k s with
    | .error f => .error f
    | .ok s1 => applyPushes rest s1

/-- The object after the `return false` of the main loop. -/
def malformedStart (s : MathExpression V) : MathExpression V :=
  { s with m_expressionError := 5
           m_expressionErrorString := "The expression has incorect begining".toList }

end Program

/-! ## An exact model of the arithmetic

`exactArith` interprets `double` as `Option ℚ`: `some q` is a value known to be exactly the
rational `q`, `none` is a value outside this exact fragment (an irrational or rounded result, an
infinity or a NaN). It is the arithmetic used for the numeric examples, whose operands and
results are small integers that double precision represents exactly. -/

/-- The value of a string of decimal digits, continuing from `acc`. -/
def digitsToNat : Str → Nat → Nat
  | [], acc => acc
  | c :: rest, acc => digitsToNat rest (acc * 10 + (c.toNat - 48))

/-- The function `atof` on plain decimal text: an optional sign, digits, and an optional point
followed by digits. Any other text is outside the exact fragment. -/
def exactAtof (a_str : Str) : Option ℚ :=
  let body : Str :=
    match a_str with
    | '-' :: t => t
    | '+' :: t => t
    | _ => a_str
  let sign : ℚ :=
    match a_str with
    | '-' :: _ => -1
    | _ => 1
  let ip := body.takeWhile Char.isDigit
  match body.dropWhile Char.isDigit with
  | [] => if ip.isEmpty then none else some (sign * (digitsToNat ip 0 : ℚ))
  | '.' :: fp =>
    if fp.all Char.isDigit && !(ip.isEmpty && fp.isEmpty) then
      some (sign * ((digitsToNat ip 0 : ℚ) + (digitsToNat fp 0 : ℚ) / (10 ^ fp.length : ℚ)))
    else none
  | _ => none

/-- The function `pow` for an integer exponent. -/
def exactPow (x y : ℚ) : Option ℚ :=
  if y.den = 1 then
    if 0 ≤ y.num then some (x ^ y.num.toNat)
    else if x = 0 then none else some ((x ^ y.num.natAbs)⁻¹)
  else none

/-- Exact rational arithmetic as a (partial) model of double precision. -/
def exactArith : Arith (Option ℚ) where
  add := fun x y => x.bind fun a => y.bind fun b => some (a + b)
  sub := fun x y => x.bind fun a => y.bind fun b => some (a - b)
  mul := fun x y => x.bind fun a => y.bind fun b => some (a * b)
  div := fun x y => x.bind fun a => y.bind fun b => if b = 0 then none else some (a / b)
  pow := fun x y => x.bind fun a => y.bind fun b => exactPow a b
  sin := fun _ => none
  cos := fun _ => none
  tan := fun _ => none
  sqrt := fun _ => none
  exp := fun _ => none
  atof := exactAtof
  zero := some 0
  M_PI := none
  M_1_PI := none
  qe := none
  kBJ := none
  kBeV := none
  ToK := none

/-- What is observed of a compilation followed by one evaluation. -/
structure Observation where
  /-- The member `m_reversePolish`. -/
  reversePolish : Str
  /-- The member `m_expressionError`. -/
  expressionError : Nat
  /-- The member `m_reversePolishError`. -/
  reversePolishError : Nat
  /-- The member `m_generatorVec`. -/
  generators : List Generator
  /-- The outcome of `calculateExpression`. -/
  value : Except Fault (Option ℚ)
  deriving DecidableEq

/-- The call `setMath(a_expression)` on a fresh object followed by `calculateExpression()`, in
exact arithmetic. -/
def compileAndRun (fuel : Nat) (a_expression : Str) : Except Fault Observation :=
  (setMath exactArith fuel a_expression (MathExpression.new (Option ℚ))).map fun s =>
    ⟨s.m_reversePolish, s.m_expressionError, s.m_reversePolishError, s.m_generatorVec,
      (calculateExpression exactArith s).map Prod.fst⟩

/-- The generator record built by `generateArgArgOp` for operator `op` on two entries of the
argument map. -/
def twoArgGenerator (name : String) (op : String) (arg1 arg2 : String) : Generator :=
  ⟨name.toList, .ArgumentGeneratedFromTwoArg, getOperator op.toList,
    some (.argument arg1.toList), some (.argument arg2.toList), some name.toList⟩

/-! ### The pre-pass on a split text

The pre-pass walks the text with an index while it edits the text around that index. The
definitions below state the same walk on the text split at the index (the part before it,
reversed, and the part from it on); the theorem `prepassLoop_split` proves that they agree. -/

/-- The search `for (j=i+2; ...)` of the pre-pass on the text `rest` that starts at `i+2`:
the number of characters passed over before the `break`, or the length of `rest`. `hat` is
`m_expression[i-1] == '^'` and `prev` is the character before `rest`. -/
def closeIndex (hat : Bool) : Char → List Char → Nat
  | _, [] => 0
  | prev, ch :: more =>
    if isSpecialCharacter ch then
      if hat && ch == '^' then closeIndex hat ch more + 1
      else if prev == 'e' && (ch == '-' || ch == '+') then closeIndex hat ch more + 1
      else 0
    else closeIndex hat ch more + 1

/-- The test of the pre-pass that sets `addParenthesis`, on the previous character `p` and the
current character `c`. -/
def prepassTrigger (p c : Char) : Bool :=
  (isSpecialNoParenthesis p && ((c == '+' || c == '-') && p != 'e')) || (p == '^' && c != '(')

/-- The pre-pass on the text split at the index: `rpre` is the text before the index,
reversed, and `suf` the text from the index on. -/
def prepassSplit : Nat → List Char → List Char → Except Fault Str
  | 0, rpre, suf => if suf.length > 0 then .error .outOfFuel else .ok (rpre.reverse ++ suf)
  | _ + 1, rpre, [] => .ok rpre.reverse
  | fuel + 1, [], c :: rest => prepassSplit fuel [c] rest
  | fuel + 1, p :: rp, c :: rest =>
    if (p == '-' && c == '-') || (p == '+' && c == '+') then prepassSplit fuel ('+' :: rp) rest
    else if (p == '-' && c == '+') || (p == '+' && c == '-') then
      prepassSplit fuel ('-' :: rp) rest
    else if prepassTrigger p c then
      let k := closeIndex (p == '^') c rest
      if k < rest.length then prepassSplit fuel ('(' :: p :: rp) (c :: insertAt rest k ')')
      else .ok ((p :: rp).reverse ++ '(' :: c :: rest ++ [')'])
    else prepassSplit fuel (c :: p :: rp) rest

/-! ### Operand tokens -/

/-- An identifier that can stand for a variable or a constant: letters only, and not the name
of an operator. -/
def isIdentifier (t : Str) : Bool := !t.isEmpty && t.all Char.isAlpha && !hasOperatorMap t

/-- An unsigned number in plain decimal notation: digits with at most one point. -/
def isUnsignedNumber (t : Str) : Bool :=
  t.all (fun c => c.isDigit || c == '.') && t.any Char.isDigit && decide (t.count '.' ≤ 1)

/-- An operand token of the infix text. -/
def isOperand (t : Str) : Bool := isIdentifier t || isUnsignedNumber t

/-- The pending token of the reader after it has read the operand `t`. -/
def operandPending (t : Str) : Pending :=
  if (charAt t 0).isAlpha then .alpha t else .number t

/-- The previous character, if any, is not one of `+ - * / ^`. -/
def quietHead (rpre : List Char) : Prop := ∀ p ∈ rpre.head?, isSpecialNoParenthesis p = false

/-- The characters of an operand: letters, digits and the point. -/
def isOperandChar (c : Char) : Bool := c.isAlpha || c.isDigit || c == '.'

/-- The object with a new RP text and a new working stack. -/
def withRP {V : Type} (s : MathExpression V) (rp : Str) (stack : List Str) : MathExpression V :=
  { s with m_reversePolish := rp, m_RPstack := stack }

/-! ### What the generators compute

The value a generator writes is described by an expression over the bindings that no generator
writes (`Expr`); `symTable` builds the expression of every generator of a list, in creation
order. `Built` states how a generator list is laid out over the keys of the argument map. -/

/-- An expression over argument pointers. -/
inductive Expr where
  | leaf (p : ArgPtr)
  | app1 (f : DDFun) (x : Expr)
  | app2 (f : DDDFun) (x y : Expr)
  deriving DecidableEq, Repr

/-- The value of an expression for the content `m` of the argument map. -/
def Expr.eval {V : Type} (A : Arith V) (m : List (Str × Argument V)) : Expr → Except Fault V
  | .leaf p => derefDouble A m (some p)
  | .app1 f x =>
    match x.eval A m with
    | .error e => .error e
    | .ok a => .ok (A.callDD f a)
  | .app2 f x y =>
    match x.eval A m with
    | .error e => .error e
    | .ok a =>
      match y.eval A m with
      | .error e => .error e
      | .ok b => .ok (A.callDDD f a b)

/-- The keys of the argument map that occur in an expression. -/
def Expr.argKeys : Expr → List Str
  | .leaf (.argument k) => [k]
  | .leaf (.constant _) => []
  | .app1 _ x => x.argKeys
  | .app2 _ x y => x.argKeys ++ y.argKeys

/-- The expression behind a pointer: the expression of the generator that writes the binding
pointed to, if there is one in the table `Γ`, and the pointer itself otherwise. -/
def symOf (Γ : List (Str × Expr)) : ArgPtr → Expr
  | .constant k => .leaf (.constant k)
  | .argument k =>
    match Γ.lookup k with
    | some t => t
    | none => .leaf (.argument k)

/-- The expression a generator computes, given the table of the generators before it. -/
def genTree (Γ : List (Str × Expr)) (g : Generator) : Expr :=
  if g.m_type = .ArgumentGeneratedFromOneArg then
    match g.m_op.bind (fun o => o.m_ddOperator), g.m_arg1 with
    | some f, some p => .app1 f (symOf Γ p)
    | _, _ => .leaf (.argument g.m_name)
  else
    match g.m_op.bind (fun o => o.m_dddOperator), g.m_arg1, g.m_arg2 with
    | some f, some p1, some p2 => .app2 f (symOf Γ p1) (symOf Γ p2)
    | _, _, _ => .leaf (.argument g.m_name)

/-- The table of the expressions of a generator list, in creation order. -/
def symTable (G : List Generator) : List (Str × Expr) :=
  G.foldl (fun Γ g => Γ ++ [(g.m_name, genTree Γ g)]) []

/-- A pointer that points to an entry: a registry constant, or one of the given keys of the
argument map. -/
def PtrOK {V : Type} (A : Arith V) (keys : List Str) : ArgPtr → Prop
  | .constant k => hasConstantMap A k = true
  | .argument k => k ∈ keys

/-- A generator as `generateArgOp` and `generateArgArgOp` build it, with its argument pointers
pointing to registry constants or to the given keys. -/
def GenWF {V : Type} (A : Arith V) (keys : List Str) (g : Generator) : Prop :=
  g.m_myArg = some g.m_name ∧
    ((g.m_type = .ArgumentGeneratedFromOneArg ∧
        ∃ o f p, g.m_op = some o ∧ o.m_ddOperator = some f ∧ g.m_arg1 = some p ∧ PtrOK A keys p)
      ∨ (g.m_type = .ArgumentGeneratedFromTwoArg ∧
        ∃ o f p1 p2, g.m_op = some o ∧ o.m_dddOperator = some f ∧ g.m_arg1 = some p1
          ∧ g.m_arg2 = some p2 ∧ PtrOK A keys p1 ∧ PtrOK A keys p2))

/-- The layout of a generator list over the keys of the argument map: every generator was
added together with a new key, its own name, and points only to keys that existed before. -/
inductive Built {V : Type} (A : Arith V) : List Str → List Generator → Prop where
  | base (keys : List Str) : Built A keys []
  | gen {keys : List Str} {G : List Generator} (g : Generator) :
      Built A keys G → GenWF A keys g → g.m_name ∉ keys →
      Built A (keys ++ [g.m_name]) (G ++ [g])

/-- The keys of an argument map. -/
def mapKeys {V : Type} (m : List (Str × Argument V)) : List Str := m.map Prod.fst


/-! ### The layout of the argument map

`MapInv` states what `setArgumentMap` and `expandMathExpression` keep true of the argument
map: the entries with a synthesized name are the names of the counts below their number, in
creation order, and every other key starts with a letter. -/

/-- The entries counted by `getEntitySize(EntityType::Argument)`. -/
def counted {V : Type} (kv : Str × Argument V) : Bool :=
  kv.2.m_type == .Argument || kv.2.m_type == .ArgumentGenerated
    || kv.2.m_type == .ArgumentGeneratedFromOneArg
    || kv.2.m_type == .ArgumentGeneratedFromTwoArg
    || kv.2.m_type == .ArgumentUserConstant

/-- The number of distinct names `createNewUserConstantName` can build: for the count `6656`
the second character wraps around to `A`. -/
def nameCapacity : Nat := 6656

/-- The layout of the argument map. -/
def MapInv {V : Type} (A : Arith V) (M : List (Str × Argument V)) : Prop :=
  (M.filter counted).map Prod.fst = (List.range (M.countP counted)).map nameOf
    ∧ M.countP counted ≤ nameCapacity
    ∧ ∀ kv ∈ M, counted kv = false →
        (charAt kv.1 0).isAlpha = true ∧ hasOperatorMap kv.1 = false
          ∧ ((kv.2.m_type = .ArgumentConstant ∧ hasConstantMap A kv.1 = true)
            ∨ (kv.2.m_type = .ArgumentVariable ∧ hasConstantMap A kv.1 = false))

/-- The layout of a program under construction: the argument map is laid out, every entity of
`m_math` is an operator or a key of the argument map, and, as long as the names have not run
out, the generators are built over the keys. -/
def StInv {V : Type} (A : Arith V) (s : MathExpression V) : Prop :=
  MapInv A s.m_argumentMap
    ∧ (∀ t ∈ s.m_math, hasOperatorMap t = true ∨ t ∈ mapKeys s.m_argumentMap)
    ∧ (s.m_argumentMap.countP counted < nameCapacity →
        Built A (mapKeys s.m_argumentMap) s.m_generatorVec)

/-! ### Programs that can be evaluated, and sequences of calls -/

/-- Two contents of the argument map with the same keys and, except under the names of the
generators, the same entries. -/
def AgreeOff {V : Type} (G : List Generator) (m m2 : List (Str × Argument V)) : Prop :=
  mapKeys m = mapKeys m2 ∧ ∀ k, k ∉ G.map (fun g => g.m_name) → m.lookup k = m2.lookup k

/-- What `calculateExpression` needs of a program: the generators are built over the keys of
the argument map and, if there is no generator, the last entity of `m_math` is a key. -/
def Runnable {V : Type} (A : Arith V) (s : MathExpression V) : Prop :=
  Built A (mapKeys s.m_argumentMap) s.m_generatorVec
    ∧ (s.m_generatorVec = [] →
        s.m_math = [] ∨ s.m_math.getD (s.m_math.length - 1) [] ∈ mapKeys s.m_argumentMap)

/-- Two objects with the same program whose argument maps agree off the generators. -/
def SameProgram {V : Type} (s s2 : MathExpression V) : Prop :=
  s.m_generatorVec = s2.m_generatorVec ∧ s.m_math = s2.m_math
    ∧ AgreeOff s.m_generatorVec s.m_argumentMap s2.m_argumentMap

/-- A sequence of `setVariableDouble` calls, first to last. -/
def setVariables {V : Type} (vals : List (Str × V)) (s : MathExpression V) : MathExpression V :=
  vals.foldl (fun s1 kv => setVariableDouble kv.1 kv.2 s1) s

/-- A call of `setVariableDouble` or of `calculateExpression`. -/
inductive Call (V : Type) where
  | set (a_name : Str) (a_value : V)
  | calculate

/-- A sequence of calls on an object, first to last, the values returned being dropped. -/
def runCalls {V : Type} (A : Arith V) : List (Call V) → MathExpression V →
    Except Fault (MathExpression V)
  | [], s => .ok s
  | .set a_name a_value :: rest, s => runCalls A rest (setVariableDouble a_name a_value s)
  | .calculate :: rest, s =>
    match calculateExpression A s with
    | .error e => .error e
    | .ok (_, s1) => runCalls A rest s1

/-- The `setVariableDouble` calls of a sequence of calls. -/
def settingsOf {V : Type} : List (Call V) → List (Str × V)
  | [] => []
  | .set a_name a_value :: rest => (a_name, a_value) :: settingsOf rest
  | .calculate :: rest => settingsOf rest

/-! ### Reverse Polish text as a list of entities -/

/-- The text `appendToReversePolishString` builds from a list of entities: the entities in
order, separated by one space. -/
def rpText : List Str → Str
  | [] => []
  | [t] => t
  | t :: ts => t ++ ' ' :: rpText ts

/-- The steps of `setArgumentMap` on the entities of a Reverse Polish text, the first of them
starting at index `i` of the text: every entity but the last is classified at the index of the
space after it, the last one at the index of its last character. -/
def classifyTokens {V : Type} (A : Arith V) : Nat → List Str → MathExpression V →
    Bool × MathExpression V
  | _, [], s => (true, s)
  | i, [t], s => classifyEntity A (i + t.length - 1) t s
  | i, t :: ts, s =>
    match classifyEntity A (i + t.length) t s with
    | (false, s1) => (false, s1)
    | (true, s1) => classifyTokens A (i + t.length + 1) ts s1

/-- An entity of a Reverse Polish text: not empty, and without a space. -/
def isToken (t : Str) : Bool := !t.isEmpty && t.all (fun c => c != ' ')

/-! ### The expression of a Reverse Polish entity list

`parseRP` reads a list of entities of `m_math` as a postfix expression over the expressions of
the generators built so far; `Cfg` is what one trip of the loop of `expandMathExpression` keeps
true while it rewrites such a list. -/

/-- The pointer `generateArgOp` and `generateArgArgOp` choose for an argument entity. -/
def ptrOf {V : Type} (A : Arith V) (t : Str) : ArgPtr :=
  if hasConstantMap A t then .constant t else .argument t

/-- One entity read by a postfix reader that keeps a stack of expressions, the top first. -/
def parseStep {V : Type} (A : Arith V) (Γ : List (Str × Expr)) (st : List Expr) (t : Str) :
    Option (List Expr) :=
  if isOperatorOneArg t then
    match (getOperator t).bind (fun o => o.m_ddOperator), st with
    | some f, x :: st1 => some (.app1 f x :: st1)
    | _, _ => none
  else if isOperatorTwoArg t then
    match (getOperator t).bind (fun o => o.m_dddOperator), st with
    | some f, y :: x :: st1 => some (.app2 f x y :: st1)
    | _, _ => none
  else some (symOf Γ (ptrOf A t) :: st)

/-- A postfix reader that keeps a stack of expressions. -/
def parseRP {V : Type} (A : Arith V) (Γ : List (Str × Expr)) :
    List Str → List Expr → Option (List Expr)
  | [], st => some st
  | t :: ts, st =>
    match parseStep A Γ st t with
    | none => none
    | some st1 => parseRP A Γ ts st1

/-- The state of the loop of `expandMathExpression` inside a pass over `m_math`: `done` is
what the loop has left behind, `run` the arguments read since the last operator, `rest` what
is left of the pass, and `out` what the pass has copied to the end so far. The entities
`out ++ run ++ rest` read as the expression `T` on top of the arguments in front of it that no
operator takes; `L` is the number of literals and `K` the number of operators of the text. -/
structure Cfg {V : Type} (A : Arith V) (T : Expr) (L K : Nat)
    (done run rest out : List Str) (s : MathExpression V) : Prop where
  math : s.m_math = done ++ run ++ rest ++ out
  inv : StInv A s
  built : Built A (mapKeys s.m_argumentMap) s.m_generatorVec
  count : s.m_argumentMap.countP counted = L + s.m_generatorVec.length
  ops : (out ++ run ++ rest).countP isOperator + s.m_generatorVec.length = K
  cap : L + K ≤ nameCapacity
  run_args : ∀ t ∈ run, isOperator t = false
  boundary : done = [] ∨ ∃ d o, done = d ++ [o] ∧ isOperator o = true
  first : done = [] → out = []
  parse : ∃ S, parseRP A (symTable s.m_generatorVec) (out ++ run ++ rest) [] = some (T :: S)
    ∧ ∀ e ∈ S, ∃ p, e = Expr.leaf p
  quiet : s.m_generatorVec = [] → (out ++ run ++ rest).countP isOperator = 0 → out = []
  last : s.m_generatorVec = [] ∨
    ∃ G0 g, s.m_generatorVec = G0 ++ [g] ∧ g.m_name ∈ out ++ run ++ rest
  names : ∀ g ∈ s.m_generatorVec, hasConstantMap A g.m_name = false

/-! ### The postfix stack evaluator -/

/-- The value of an operand of a Reverse Polish text: a registry constant has its registered
value, any other name the value of the variable, and a number the value `atof` reads. -/
def operandValue {V : Type} (A : Arith V) (env : Str → V) (t : Str) : V :=
  if (charAt t 0).isAlpha then
    match (constantMap A).lookup t with
    | some c => c.m_dvalue
    | none => env t
  else A.atof t

/-- An operand of a Reverse Polish text: a name or a number, without a space, that is not the
name of an operator. -/
def isOperandToken (t : Str) : Bool :=
  !hasOperatorMap t && t.all (fun c => c != ' ') && ((charAt t 0).isAlpha || isNumber t)

/-- A number among the operands. -/
def isLiteralToken (t : Str) : Bool := isOperandToken t && !(charAt t 0).isAlpha

/-- The standard postfix stack evaluator, the top of the stack first: an operand is pushed, an
operator takes as many values off the stack as its registered type says and pushes its
result. -/
def postfixEval {V : Type} (A : Arith V) (env : Str → V) : List Str → List V → Option (List V)
  | [], st => some st
  | t :: ts, st =>
    match getOperator t with
    | some o =>
      if o.m_type = .OperatorInDoubleOutDouble then
        match o.m_ddOperator, st with
        | some f, x :: st1 => postfixEval A env ts (A.callDD f x :: st1)
        | _, _ => none
      else
        match o.m_dddOperator, st with
        | some f, y :: x :: st1 => postfixEval A env ts (A.callDDD f x y :: st1)
        | _, _ => none
    | none =>
      if isOperandToken t then postfixEval A env ts (operandValue A env t :: st) else none

/-- The value a sequence of `setVariableDouble` calls, first to last, leaves in a binding
named `x` that held `v0`: the value of the last call with that name. -/
def lastSet {V : Type} (vals : List (Str × V)) (x : Str) (v0 : V) : V :=
  vals.foldl (fun acc kv => if x == kv.1 then kv.2 else acc) v0

/-- The values of the variables after a sequence of `setVariableDouble` calls: the value last
set, and `0.0` for a variable never set. -/
def envOf {V : Type} (A : Arith V) (vals : List (Str × V)) (x : Str) : V :=
  lastSet vals x A.zero

/-- What the loop of `expandMathExpression` does to the argument map and the generators: it
adds entries at the end of the map, and generators. -/
def Extends {V : Type} (s s1 : MathExpression V) : Prop :=
  (∃ extra, s1.m_argumentMap = s.m_argumentMap ++ extra)
    ∧ s.m_generatorVec.length ≤ s1.m_generatorVec.length

/-- What `expandMathExpression` leaves behind for a text that reads as the expression `T`:
either no generator and, as last entity of `m_math`, the one argument the text consists of, or
generators the last of which computes `T`. -/
def FinalShape {V : Type} (A : Arith V) (T : Expr) (s : MathExpression V) : Prop :=
  (s.m_generatorVec = [] ∧ s.m_math ≠ []
      ∧ s.m_math.getD (s.m_math.length - 1) [] ∈ mapKeys s.m_argumentMap
      ∧ T = .leaf (ptrOf A (s.m_math.getD (s.m_math.length - 1) [])))
    ∨ (∃ G0 g, s.m_generatorVec = G0 ++ [g] ∧ genTree (symTable G0) g = T)

/-! ### The entities of a text and the entities of `m_math` -/

/-- An entity of a well-formed Reverse Polish text: the name of an operator, or an operand. -/
def isRPToken (t : Str) : Bool := hasOperatorMap t || isOperandToken t

/-- The values `setArgumentMap` gives the bindings with a name: a registry constant its
registered value, a variable `0.0`. -/
def InitVals {V : Type} (A : Arith V) (M : List (Str × Argument V)) : Prop :=
  ∀ k a, M.lookup k = some a → (charAt k 0).isAlpha = true →
    a.m_dvalue = operandValue A (fun _ => A.zero) k

/-- The entity `t2` that `setArgumentMap` puts in `m_math` for the entity `t` of the text, and
the value the argument map `M` holds for it when the variables have the values `env`: an
operator stays, a name stays, a number becomes a synthesized name. -/
def Den {V : Type} (A : Arith V) (env : Str → V) (M : List (Str × Argument V))
    (t t2 : Str) : Prop :=
  (hasOperatorMap t = true ∧ t2 = t)
    ∨ (hasOperatorMap t = false ∧ hasOperatorMap t2 = false
      ∧ (((charAt t 0).isAlpha = true ∧ t2 = t)
        ∨ ((charAt t 0).isAlpha = false ∧ ∃ j, t2 = nameOf j))
      ∧ ∃ a, M.lookup t2 = some a ∧ a.m_dvalue = operandValue A env t)

/-- A name `setVariableDouble` is called with for a variable: it starts with a letter and is
not the name of a registry constant. -/
def isVariableName {V : Type} (A : Arith V) (k : Str) : Bool :=
  (charAt k 0).isAlpha && !hasConstantMap A k

/-! ### Sample programs -/

/-- The entities of the Reverse Polish text `x 2 +`. -/
def sampleTokens : List Str := ["x".toList, "2".toList, "+".toList]

/-- The call `setVariableDouble("x", 3)`. -/
def sampleValues : List (Str × Option ℚ) := [("x".toList, some 3)]

/-- A fresh object holding the Reverse Polish text `x 2 +`. -/
def sampleSource : MathExpression (Option ℚ) :=
  { MathExpression.new (Option ℚ) with m_reversePolish := "x 2 +".toList }

/-- The object `sampleSource` after `setArgumentMap()`. -/
def sampleMapped : MathExpression (Option ℚ) := (setArgumentMap exactArith sampleSource).2

/-- The object `sampleMapped` after `expandMathExpression()`. -/
def sampleProgram : MathExpression (Option ℚ) :=
  match expandMathExpression exactArith 16 sampleMapped with
  | .ok (_, s) => s
  | .error _ => sampleMapped

/-- The calls `setVariableDouble("x", 3)`, `calculateExpression()`, `setVariableDouble("x", 4)`,
`calculateExpression()`, `setVariableDouble("x", 7)`. -/
def sampleCalls : List (Call (Option ℚ)) :=
  [.set "x".toList (some 3), .calculate, .set "x".toList (some 4), .calculate,
    .set "x".toList (some 7)]

/-- The entities of a Reverse Polish text with 6656 numbers: `5 1 +` followed by 6654 times
`1`. -/
def overflowTokens : List Str :=
  "5".toList :: "1".toList :: "+".toList :: "1".toList :: List.replicate 6653 "1".toList

/-- The Reverse Polish text `5 1 + 1 1 ... 1` of the entities `overflowTokens`. -/
def overflowText : Str := rpText overflowTokens

/-- The generator that `generateArgArgOp` builds for the text `overflowText`, the number `1`
having got the name number `j`: the name synthesized for the count 6656 is the name `#AA` of
the count 0, and the generator stores into the binding of the number `5`. -/
def overflowGenerator (j : Nat) : Generator :=
  ⟨nameOf 0, .ArgumentGeneratedFromTwoArg, getOperator "+".toList,
    some (.argument (nameOf 0)), some (.argument (nameOf j)), some (nameOf 0)⟩

/-! ### Definitions for the error paths of the compilation stages -/

/-- The calls `setMath(e1)` and `setMath(e2)` on a fresh object, with no `clear()` in between,
followed by `calculateExpression()`, in exact arithmetic. -/
def recompileAndRun (fuel : Nat) (e1 e2 : Str) : Except Fault Observation :=
  match setMath exactArith fuel e1 (MathExpression.new (Option ℚ)) with
  | .error f => .error f
  | .ok s1 =>
    (setMath exactArith fuel e2 s1).map fun s =>
      ⟨s.m_reversePolish, s.m_expressionError, s.m_reversePolishError, s.m_generatorVec,
        (calculateExpression exactArith s).map Prod.fst⟩

/-- The first characters `expressionToReversePolish` accepts: a sign, a digit, a point, a
letter or an opening parenthesis. -/
def startsWell (c : Char) : Bool :=
  c == '+' || c == '-' || c.isDigit || c == '.' || c.isAlpha || c == '('

/-- The class, by `startsWell`, of the first character of a text. -/
def startClass (e : Str) : Option Bool := e.head?.map startsWell

/-- The weight of a character of the text the pre-pass has still to visit. -/
def prepassWeight (c : Char) : Nat := if isSpecialNoParenthesis c then 3 else 1

/-- A bound on the trips the pre-pass of `expressionToReversePolish` still makes, when the text
before the loop index is `rpre` reversed and the text from the index on is `suf`: a sign
folded shortens the text, and a parenthesis pair is inserted only after one of `+ - * / ^`,
which then lies behind the inserted `(`. -/
def prepassMeasure (rpre suf : List Char) : Nat :=
  (suf.map prepassWeight).sum
    + (match rpre with
       | p :: _ => if isSpecialNoParenthesis p then 2 else 0
       | [] => 0)

/-- A list of texts without its last text when that one is empty. -/
def dropEmptyLast (parts : List Str) : List Str :=
  if parts.getLast? = some [] then parts.dropLast else parts

/-- The space-separated tokens of a text of which the part `cur`, without a space, has been
read and the part `rest` is still to come. -/
def tokensFrom (cur rest : Str) : List Str :=
  dropEmptyLast ((rest.splitOn ' ').modifyHead (fun t => cur ++ t))

/-- The space-separated tokens of an RP text: the texts between the spaces, a space at the end
of the text being the end of the last token; the empty text has no token. -/
def rpTokens (rp : Str) : List Str := dropEmptyLast (rp.splitOn ' ')

/-- A token that starts with a letter, is accepted as a number by `isNumber`, or is the name
of a registered operator. -/
def entityKnown (t : Str) : Bool := (charAt t 0).isAlpha || isNumber t || hasOperatorMap t

/-- The text of the error `setArgumentMap` reports for the token `t`. -/
def unknownOperatorMessage (t : Str) : Str :=
  "The operator \'".toList ++ t ++ "\' doesn't exist in the operator map".toList

/-! ### Definitions for the conversion of two binary operators -/

/-- One of the characters `+ - * /`. -/
def isArithmeticChar (x : Char) : Bool := x == '+' || x == '-' || x == '*' || x == '/'

/-- The value `getOperator(x)->precedence()` for an operator of one character. -/
def precedenceOf (x : Char) : Nat :=
  match getOperator [x] with
  | some o => o.precedence
  | none => 0

/-! ### What of an object the compilation stages read -/

/-- Two objects with the same compiled state: they may differ in the error numbers, the error
texts, the expression text and the print precision only. -/
def SameCompiled {V : Type} (s s2 : MathExpression V) : Prop :=
  s.m_reversePolish = s2.m_reversePolish ∧ s.m_RPstack = s2.m_RPstack
    ∧ s.m_math = s2.m_math ∧ s.m_argumentMap = s2.m_argumentMap
    ∧ s.m_generatorVec = s2.m_generatorVec

/-- Two outcomes of a stage that agree: the same fault, or the same return value with the same
compiled state. -/
def SameResult {V : Type} (x y : Except Fault (Bool × MathExpression V)) : Prop :=
  match x, y with
  | .ok (b, a), .ok (b2, a2) => b = b2 ∧ SameCompiled a a2
  | .error f, .error g => f = g
  | _, _ => False

/-- Two outcomes of `setMath` that agree: the same fault, or the same compiled state. -/
def SameOutcome {V : Type} (x y : Except Fault (MathExpression V)) : Prop :=
  match x, y with
  | .ok a, .ok a2 => SameCompiled a a2
  | .error f, .error g => f = g
  | _, _ => False

/-! ### One trip of the loop of `expandMathExpression` -/

section ExpandStep

variable {V : Type} (A : Arith V)

/-- The body of the loop of `expandMathExpression` at index `i`: the returned value and the
object when the body executes `return false`, and the object after the trip otherwise. -/
def expandStep (i : Nat) (s : MathExpression V) :
    (Bool × MathExpression V) ⊕ MathExpression V :=
  let at_ (k : Nat) : Str := s.m_math.getD k []
  if isOperator (at_ i) then
    if i > 0 then
      if isArgument A s (at_ (i - 1)) && isOperator (at_ i) && isOperatorOneArg (at_ i) then
        let s1 := if i > 1 then pushBackRange (i - 1) s else s
        .inr (generateArgOp A (at_ (i - 1)) (at_ i) s1)
      else if isOperator (at_ (i - 1)) && isOperator (at_ i) then
        .inr { s with m_math := s.m_math ++ [at_ i] }
      else if i > 1 then
        if isArgument A s (at_ (i - 2)) && isArgument A s (at_ (i - 1))
            && isOperator (at_ i) && isOperatorTwoArg (at_ i) then
          let s1 := if i > 2 then pushBackRange (i - 2) s else s
          .inr (generateArgArgOp A (at_ (i - 2)) (at_ (i - 1)) (at_ i) s1)
        else if isOperator (at_ (i - 2)) && isArgument A s (at_ (i - 1))
            && isOperator (at_ i) && isOperatorTwoArg (at_ i) then
          .inr { s with m_math := s.m_math ++ [at_ (i - 1), at_ i] }
        else .inr s
      else
        .inl (false,
          { s with
            m_expressionError := 2
            m_expressionErrorString :=
              "The RP expression has operator without args".toList })
    else
      .inl (false,
        { s with
          m_expressionError := 1
          m_expressionErrorString := "The RP expression starts with an operator".toList })
  else .inr s

end ExpandStep

/-! ### Names and bindings of a compiled program -/

/-- An entity that `setArgumentMap` makes a user variable: it starts with a letter and is the
name neither of an operator nor of a registry constant. -/
def isVariableToken {V : Type} (A : Arith V) (t : Str) : Bool :=
  (charAt t 0).isAlpha && !hasOperatorMap t && !hasConstantMap A t

/-- An entity that `setArgumentMap` makes a literal constant: it does not start with a letter
and `isNumber` accepts it. -/
def isNumberToken (t : Str) : Bool := !(charAt t 0).isAlpha && isNumber t

/-- A name of the form `createNewUserConstantName` builds: it starts with `#`. -/
def isSynthesizedName (t : Str) : Bool := charAt t 0 == '#'

/-- The names of the generators of a list, in creation order. -/
def generatorNames (G : List Generator) : List Str := G.map (fun g => g.m_name)

/-- The synthesized names of a compilation in creation order: those `setArgumentMap` put in
`m_math` for the literal constants, in the order of the RP text, then those of the generators
of `expandMathExpression`; `s1` is the object after `setArgumentMap` and `s2` the object after
`expandMathExpression`. -/
def synthesizedNames {V : Type} (s1 s2 : MathExpression V) : List Str :=
  s1.m_math.filter isSynthesizedName ++ generatorNames s2.m_generatorVec

/-- The order of the synthesized names: the names `L` made before the generators, then the
names of the generators, are the names of the counts in order, up to the capacity, and the
argument map counts them, up to the capacity. -/
def NameLaw {V : Type} (L : List Str) (s : MathExpression V) : Prop :=
  s.m_argumentMap.countP counted = min (L ++ generatorNames s.m_generatorVec).length nameCapacity
    ∧ (L ++ generatorNames s.m_generatorVec).take nameCapacity
        = (List.range (s.m_argumentMap.countP counted)).map nameOf

/-- The wiring of the generators over the keys `keys0` the argument map had before the first
of them was made: the keys of the argument map are `keys0` and the names of the generators;
every generator is built as `generateArgOp` and `generateArgArgOp` build it, with argument
pointers to registry constants, to keys of `keys0` or to names of generators made before it;
each of its two argument pointers, if set, points so, and not to an entry of the argument map
that has the name of a registry constant; and the name of every generator is a synthesized
one. -/
def Wired {V : Type} (A : Arith V) (keys0 : List Str) (s : MathExpression V) : Prop :=
  (∀ key, key ∈ mapKeys s.m_argumentMap ↔ key ∈ keys0 ∨ key ∈ generatorNames s.m_generatorVec)
    ∧ (∀ k g, s.m_generatorVec[k]? = some g →
        GenWF A (keys0 ++ generatorNames (s.m_generatorVec.take k)) g)
    ∧ (∀ k g, s.m_generatorVec[k]? = some g → ∀ p, (g.m_arg1 = some p ∨ g.m_arg2 = some p) →
        PtrOK A (keys0 ++ generatorNames (s.m_generatorVec.take k)) p
          ∧ ∀ key, p = .argument key → hasConstantMap A key = false)
    ∧ ∀ g ∈ s.m_generatorVec, ∃ j, g.m_name = nameOf j

/-- The types of the entries `setArgumentMap` makes: a registry constant under its name, a user
variable, or a literal constant. -/
def EntryTypes {V : Type} (A : Arith V) (M : List (Str × Argument V)) : Prop :=
  ∀ kv ∈ M, (kv.2.m_type = .ArgumentConstant ∧ hasConstantMap A kv.1 = true)
    ∨ kv.2.m_type = .ArgumentVariable ∨ kv.2.m_type = .ArgumentUserConstant

/-- A sequence of calls without its `setVariableDouble` calls whose name is the name of a
registry constant. -/
def dropConstantSets {V : Type} (A : Arith V) : List (Call V) → List (Call V)
  | [] => []
  | .set a_name a_value :: rest =>
    if hasConstantMap A a_name then dropConstantSets A rest
    else .set a_name a_value :: dropConstantSets A rest
  | .calculate :: rest => .calculate :: dropConstantSets A rest

/-! ### Registry constants and the calls on a program -/

/-- Two contents of the argument map with the same keys that agree on every entry whose name is
not the name of a registry constant. -/
def AgreeOffConstants {V : Type} (A : Arith V) (m m2 : List (Str × Argument V)) : Prop :=
  mapKeys m = mapKeys m2 ∧ ∀ k, hasConstantMap A k = false → m.lookup k = m2.lookup k

/-- What the evaluation needs of a program to be independent of the entries that have the name
of a registry constant: every generator points to entries, never to an entry of the argument
map that has the name of a registry constant, and is not named as a registry constant; and
a program without generator is empty or ends in a key that is not the name of a registry
constant. -/
def ConstantFree {V : Type} (A : Arith V) (s : MathExpression V) : Prop :=
  (∀ g ∈ s.m_generatorVec,
      GenWF A (mapKeys s.m_argumentMap) g ∧ g.m_name ∈ mapKeys s.m_argumentMap
        ∧ (∀ p, (g.m_arg1 = some p ∨ g.m_arg2 = some p) →
            ∀ key, p = .argument key → hasConstantMap A key = false)
        ∧ hasConstantMap A g.m_name = false)
    ∧ (s.m_generatorVec = [] →
        s.m_math = [] ∨ (s.m_math.getD (s.m_math.length - 1) [] ∈ mapKeys s.m_argumentMap
          ∧ hasConstantMap A (s.m_math.getD (s.m_math.length - 1) []) = false))

/-! ### Further sample programs -/

/-- The name number `n` of a family of 65536 variable names: `x` followed by four of the
letters `a` to `p`. -/
def varName (n : Nat) : Str :=
  ['x', Char.ofNat (97 + n / 4096 % 16), Char.ofNat (97 + n / 256 % 16),
    Char.ofNat (97 + n / 16 % 16), Char.ofNat (97 + n % 16)]

/-- The entities of a Reverse Polish text with 65536 distinct variable names. -/
def manyVariables : List Str := (List.range 65536).map varName

/-- The Reverse Polish text of the entities `manyVariables`. -/
def manyVariablesText : Str := rpText manyVariables

/-- The expression of the function `function1` of the test `test4.cpp`. -/
def diodeExpression : Str := "Io*(exp(qe*V/(kBJ*(ToK+TC)))-1)".toList

/-- A fresh object after `setExpression(diodeExpression)` and `expressionToReversePolish()`. -/
def diodeSource : MathExpression (Option ℚ) :=
  match expressionToReversePolish 64
      (setExpression diodeExpression (MathExpression.new (Option ℚ))) with
  | .ok (_, s) => s
  | .error _ => MathExpression.new (Option ℚ)

/-- The object `diodeSource` after `setArgumentMap()`. -/
def diodeMapped : MathExpression (Option ℚ) := (setArgumentMap exactArith diodeSource).2

/-- The object `diodeMapped` after `expandMathExpression()`. -/
def diodeProgram : MathExpression (Option ℚ) :=
  match expandMathExpression exactArith 64 diodeMapped with
  | .ok (_, s) => s
  | .error _ => diodeMapped

/-- A fresh object holding the Reverse Polish text `10 2 +`. -/
def sumSource : MathExpression (Option ℚ) :=
  { MathExpression.new (Option ℚ) with m_reversePolish := "10 2 +".toList }

/-- The object `sumSource` after `setArgumentMap()`. -/
def sumMapped : MathExpression (Option ℚ) := (setArgumentMap exactArith sumSource).2

/-- The object `sumMapped` after `expandMathExpression()`. -/
def sumProgram : MathExpression (Option ℚ) :=
  match expandMathExpression exactArith 16 sumMapped with
  | .ok (_, s) => s
  | .error _ => sumMapped

/-- The calls `setVariableDouble("ToK", 1)`, `setVariableDouble("V", 2)`,
`calculateExpression()`, `setVariableDouble("qe", 3)`. -/
def diodeCalls : List (Call (Option ℚ)) :=
  [.set "ToK".toList (some 1), .set "V".toList (some 2), .calculate, .set "qe".toList (some 3)]

/-! ### The error numbers of an object -/

/-- Two objects with the same error numbers. -/
def SameErrors {V : Type} (s s2 : MathExpression V) : Prop :=
  s.m_expressionError = s2.m_expressionError
    ∧ s.m_reversePolishError = s2.m_reversePolishError

/-! ### Getters -/

/-- Function `MathExpression::expression`. -/
def expression {V : Type} (s : MathExpression V) : Str := s.m_expression

/-- Function `MathExpression::reversePolishErrorNum`. -/
def reversePolishErrorNum {V : Type} (s : MathExpression V) : Nat := s.m_reversePolishError

/-- Function `MathExpression::expressionErrorNum`. -/
def expressionErrorNum {V : Type} (s : MathExpression V) : Nat := s.m_expressionError

/-- Function `MathExpression::getMathPrintPrecision`. -/
def getMathPrintPrecision {V : Type} (s : MathExpression V) : Nat := s.m_mathPrintPrecision

/-- The object after `setMath("*3+2")` on a fresh object, a compilation that fails. -/
def failedCompile : MathExpression (Option ℚ) :=
  match setMath exactArith 16 "*3+2".toList (MathExpression.new (Option ℚ)) with
  | .ok s => s
  | .error _ => MathExpression.new (Option ℚ)

/-- The object after `setMath("(1+2")` on a fresh object, a compilation that fails in
`setArgumentMap`. -/
def unclosedCompile : MathExpression (Option ℚ) :=
  match setMath exactArith 64 "(1+2".toList (MathExpression.new (Option ℚ)) with
  | .ok s => s
  | .error _ => MathExpression.new (Option ℚ)

/-- The object `clear(failedCompile)` after `expressionToReversePolish()` on `1+2`. -/
def recompiledSource : MathExpression (Option ℚ) :=
  match expressionToReversePolish 16 (setExpression "1+2".toList (clear failedCompile)) with
  | .ok (_, s) => s
  | .error _ => MathExpression.new (Option ℚ)

/-- The object `recompiledSource` after `setArgumentMap()`. -/
def recompiledMapped : MathExpression (Option ℚ) := (setArgumentMap exactArith recompiledSource).2

/-- The object `recompiledMapped` after `expandMathExpression()`. -/
def recompiledProgram : MathExpression (Option ℚ) :=
  match expandMathExpression exactArith 16 recompiledMapped with
  | .ok (_, s) => s
  | .error _ => recompiledMapped

/-- The object after `setMath("x")` on a fresh object and `setVariableDouble("x", 5)`. -/
def singleProgram : MathExpression (Option ℚ) :=
  match setMath exactArith 16 "x".toList (MathExpression.new (Option ℚ)) with
  | .ok s => setVariableDouble "x".toList (some 5) s
  | .error _ => MathExpression.new (Option ℚ)

/-! ### The operator case of `pushToReversePolish` -/

/-- The test of the operator loop of `pushToReversePolish` on a stack entry `x` for an incoming
operator of precedence `prec`: `x` is not `(` and is an operator whose precedence is at least
`prec`. -/
def yieldsTo (prec : Nat) (x : Str) : Bool :=
  x != ['('] &&
    match getOperator x with
    | some o => decide (o.precedence ≥ prec)
    | none => false

/-- An object in the middle of a conversion: the RP text `a b` and, on the working stack, `*`
above `+` above `(` above `-`. -/
def stackSample : MathExpression (Option ℚ) :=
  withRP (MathExpression.new (Option ℚ)) "a b".toList [['*'], ['+'], ['('], ['-']]

/-! ### Characters the reader has no branch for -/

/-- A character for which no branch of the main loop of `expressionToReversePolish` is written:
not a letter, not a digit, not the point and not one of `+ - * / ^ ( )`. -/
def isSkippedChar (c : Char) : Bool :=
  !c.isAlpha && !c.isDigit && c != '.' && !isSpecialCharacter c

/-! ### Runs of signs -/

/-- The sign the pre-pass writes for the sign `z` followed by the sign `c`: `+` for `--` and
`++`, `-` for `-+` and `+-`. -/
def foldSign (z c : Char) : Char := if z = c then '+' else '-'

/-- The sign by parity: `-` for an odd number of `-` in the run, `+` otherwise. -/
def paritySign (run : List Char) : Char := if run.count '-' % 2 = 1 then '-' else '+'

/-! ### What an evaluation leaves as it is -/

/-- An entry of the argument map without its `double` value: the key, the name, the type and
the integer value. -/
def entrySkeleton {V : Type} (kv : Str × Argument V) : Str × Str × EntityType × Int :=
  (kv.1, kv.2.m_name, kv.2.m_type, kv.2.m_ivalue)

/-- Two objects with the same expression text, RP text, entities and generator list, whose
argument maps hold the same entries in the same order up to the `double` values. -/
def SameShape {V : Type} (s s2 : MathExpression V) : Prop :=
  s.m_expression = s2.m_expression ∧ s.m_reversePolish = s2.m_reversePolish
    ∧ s.m_math = s2.m_math ∧ s.m_generatorVec = s2.m_generatorVec
    ∧ s.m_argumentMap.map entrySkeleton = s2.m_argumentMap.map entrySkeleton

/-- The bindings the generator calls of one `calculateExpression` store into, in order: every
call of `generateDoubleValue` stores once, through the pointer `m_myArg`. -/
def generatorWrites (G : List Generator) : List Str := G.filterMap (fun g => g.m_myArg)

/-- A sequence of stores `setDoubleValue` through pointers to entries of the argument map. -/
def storeAll {V : Type} (writes : List (Str × V)) (m : List (Str × Argument V)) :
    List (Str × Argument V) :=
  writes.foldl (fun m1 kv => mapSetDouble m1 kv.1 kv.2) m

/-- Every entry of the argument map has one of the keys `keys0` or the type of a generated
argument. -/
def GeneratedEntries {V : Type} (keys0 : List Str) (s : MathExpression V) : Prop :=
  ∀ kv ∈ s.m_argumentMap, kv.1 ∈ keys0 ∨ kv.2.m_type = .ArgumentGeneratedFromOneArg
    ∨ kv.2.m_type = .ArgumentGeneratedFromTwoArg

/-- While the names have not run out, the names of the generators are distinct and none of
them is one of the keys `keys0`. -/
def FreshNames {V : Type} (keys0 : List Str) (s : MathExpression V) : Prop :=
  s.m_argumentMap.countP counted < nameCapacity →
    (generatorNames s.m_generatorVec).Nodup
      ∧ ∀ n ∈ generatorNames s.m_generatorVec, n ∉ keys0

/-- The layout of the argument map and the wiring of the generators over the keys `keys0`,
with the types of the entries made after them and the distinct names below the capacity. -/
def WiredFresh {V : Type} (A : Arith V) (keys0 : List Str) (s : MathExpression V) : Prop :=
  (MapInv A s.m_argumentMap ∧ Wired A keys0 s) ∧ GeneratedEntries keys0 s ∧ FreshNames keys0 s

/-! ### The shape of a Reverse Polish entity list

`depthRP` reads a list of entities as a postfix expression and keeps only the depth of the
stack; `Pass` is what one trip of the loop of `expandMathExpression` keeps true of the shape of
`m_math`, whatever the names of the entities are. -/

/-- The depth of the stack of a postfix reader after the entity `t`, read at the depth `n`:
a one-argument operator needs one entry and leaves the depth, a two-argument operator needs
two entries and takes one off, any other entity adds one; `none` when the operator finds too
few entries. -/
def depthStep (n : Nat) (t : Str) : Option Nat :=
  if isOperatorOneArg t then (if 1 ≤ n then some n else none)
  else if isOperatorTwoArg t then (if 2 ≤ n then some (n - 1) else none)
  else some (n + 1)

/-- The depth of the stack of a postfix reader after a list of entities. -/
def depthRP : List Str → Nat → Option Nat
  | [], n => some n
  | t :: ts, n =>
    match depthStep n t with
    | none => none
    | some n1 => depthRP ts n1

/-- A well-formed Reverse Polish sequence: every entity is the name of an operator or an
operand, and a postfix reader reduces the sequence to one entry. -/
def isWellFormedRP (toks : List Str) : Bool :=
  toks.all isRPToken && (depthRP toks 0 == some 1)

/-- The operators of a list of entities, in order, one for every occurrence of an operator
name. -/
def operatorsOf (l : List Str) : List Operator := l.filterMap getOperator

/-- The operators of a list of generators, in creation order. -/
def generatorOperators (G : List Generator) : List Operator := G.filterMap (fun g => g.m_op)

/-- A generator of the right arity for its operator: a one-argument generator with one
argument pointer for an operator from `double` to `double`, or a two-argument generator with
two argument pointers for an operator from two `double` to `double`. -/
def GenArity (g : Generator) : Prop :=
  ∃ o, g.m_op = some o
    ∧ ((g.m_type = .ArgumentGeneratedFromOneArg ∧ o.m_type = .OperatorInDoubleOutDouble
        ∧ g.m_arg1 ≠ none ∧ g.m_arg2 = none)
      ∨ (g.m_type = .ArgumentGeneratedFromTwoArg ∧ o.m_type = .OperatorInDoubleDoubleOutDouble
        ∧ g.m_arg1 ≠ none ∧ g.m_arg2 ≠ none))

/-- The entity of `m_math` for an entity of the RP text, as far as the shape goes: an operator
name stays, an operand becomes an entity that is not an operator name. -/
def ShapeRel (t t2 : Str) : Prop :=
  (hasOperatorMap t = true ∧ t2 = t) ∨ (hasOperatorMap t = false ∧ hasOperatorMap t2 = false)

/-- The state of the loop of `expandMathExpression` inside a pass over `m_math`, as far as the
shape goes: `done` is what the loop has left behind, `run` the arguments read since the last
operator, `rest` what is left of the pass, and `out` what the pass has copied to the end so
far. The entities `out ++ run ++ rest` are the surplus operands `pre` followed by a sequence
that a postfix reader reduces to one entry. The operators of the generators and of
`out ++ run ++ rest` together are the operators `ops0`, every generator has the right arity,
and `tlast` is the last entity until its generator has been built, as the last one, and its
name has been put at the end in its place. -/
structure Pass {V : Type} (A : Arith V) (pre : List Str) (ops0 : List Operator) (tlast : Str)
    (done run rest out : List Str) (s : MathExpression V) : Prop where
  math : s.m_math = done ++ run ++ rest ++ out
  inv : StInv A s
  run_args : ∀ t ∈ run, isOperator t = false
  boundary : done = [] ∨ ∃ d o, done = d ++ [o] ∧ isOperator o = true
  first : done = [] → out = []
  pre_args : ∀ t ∈ pre, isOperator t = false
  core : ∃ core, out ++ run ++ rest = pre ++ core ∧ depthRP core 0 = some 1
  ops : List.Perm (generatorOperators s.m_generatorVec ++ operatorsOf (out ++ run ++ rest)) ops0
  count : (out ++ run ++ rest).countP isOperator + s.m_generatorVec.length = ops0.length
  arity : ∀ g ∈ s.m_generatorVec, GenArity g
  last : (out ++ run ++ rest).getLast? = some tlast
    ∨ (run = [] ∧ rest = [] ∧ out.countP isOperator = 0
      ∧ ∃ G0 g, s.m_generatorVec = G0 ++ [g] ∧ g.m_op = getOperator tlast
        ∧ out.getLast? = some g.m_name)

/-! ### A sample with operands in front that uses all the names -/

/-- The 6652 numbers `1` in front of the sequence `surplusCore`. -/
def surplusOperands : List Str := List.replicate 6652 "1".toList

/-- The entities of the Reverse Polish text `1 2 + 3 4 + *`, whose value is 21. -/
def surplusCore : List Str :=
  ["1".toList, "2".toList, "+".toList, "3".toList, "4".toList, "+".toList, "*".toList]

/-- The generator that `generateArgArgOp` builds for the operator `op` on the bindings `x` and
`y` when the argument map has 6656 synthesized names: the name synthesized for the count 6656
is the name `#AA` of the count 0. -/
def saturatedGenerator (op x y : Str) : Generator :=
  ⟨nameOf 0, .ArgumentGeneratedFromTwoArg, getOperator op, some (.argument x),
    some (.argument y), some (nameOf 0)⟩

/-! ### Programs whose synthesized names fit -/

/-- The synthesized names `L` made before the generators and the names of the generators of
`s` are together at most as many as there are distinct names. -/
def NamesFit {V : Type} (L : List Str) (s : MathExpression V) : Prop :=
  (L ++ generatorNames s.m_generatorVec).length ≤ nameCapacity

/-- As long as the synthesized names fit, the generators are built over the keys of the
argument map, their names are distinct, and none of them is one of the keys `keys0`. -/
def BuiltFit {V : Type} (A : Arith V) (keys0 L : List Str) (s : MathExpression V) : Prop :=
  NamesFit L s →
    Built A (mapKeys s.m_argumentMap) s.m_generatorVec
      ∧ (generatorNames s.m_generatorVec).Nodup
      ∧ ∀ n ∈ generatorNames s.m_generatorVec, n ∉ keys0

/-- The layout, the wiring and the order of the names of a program under construction, with
what holds of it as long as the synthesized names fit. -/
def FitInv {V : Type} (A : Arith V) (keys0 L : List Str) (s : MathExpression V) : Prop :=
  (MapInv A s.m_argumentMap ∧ Wired A keys0 s) ∧ NameLaw L s ∧ BuiltFit A keys0 L s
/-! ## Theorems

### Text indexing -/

theorem charAt_append_cons (pre : List Char) (c : Char) (rest : List Char) :
    charAt (pre ++ c :: rest) pre.length = c := by
  simp [charAt, List.getD_eq_getElem?_getD, List.getElem?_append_right (le_refl _)]

theorem charAt_append_left (pre : List Char) (rest : List Char) (k : Nat) (h : k < pre.length) :
    charAt (pre ++ rest) k = charAt pre k := by
  simp [charAt, List.getD_eq_getElem?_getD, List.getElem?_append_left h]

theorem charAt_append_right (pre : List Char) (rest : List Char) (k : Nat) :
    charAt (pre ++ rest) (pre.length + k) = charAt rest k := by
  simp [charAt, List.getD_eq_getElem?_getD, List.getElem?_append_right]

theorem charAt_reverse_cons_last (p1 : Char) (rpre : List Char) (rest : List Char) :
    charAt ((p1 :: rpre).reverse ++ rest) ((p1 :: rpre).length - 1) = p1 := by
  have h : (p1 :: rpre).reverse ++ rest = rpre.reverse ++ p1 :: rest := by simp
  rw [h]
  have h2 : (p1 :: rpre).length - 1 = rpre.reverse.length := by simp
  rw [h2, charAt_append_cons]

theorem charAt_reverse_cons_cons (p1 p2 : Char) (rpre : List Char) (rest : List Char) :
    charAt ((p1 :: p2 :: rpre).reverse ++ rest) ((p1 :: p2 :: rpre).length - 2) = p2 := by
  have h : (p1 :: p2 :: rpre).reverse ++ rest = rpre.reverse ++ p2 :: p1 :: rest := by simp
  rw [h]
  have h2 : (p1 :: p2 :: rpre).length - 2 = rpre.reverse.length := by simp
  rw [h2, charAt_append_cons]

/-! ### The reader is the lexer followed by its pushes -/

section Lex

variable {V : Type}

theorem applyPushes_nil (s : MathExpression V) : applyPushes [] s = .ok s := rfl

theorem applyPushes_append (xs ys : List (Str × Char)) (s : MathExpression V) :
    applyPushes (xs ++ ys) s =
      match applyPushes xs s with
      | .error f => .error f
      | .ok s1 => applyPushes ys s1 := by
  induction xs generalizing s with
  | nil => rfl
  | cons x xs ih =>
    obtain ⟨t, k⟩ := x
    simp only [List.cons_append, applyPushes]
    cases pushIgnore t k s with
    | error f => rfl
    | ok s1 => exact ih s1

set_option maxHeartbeats 1000000 in
/-- The result of a trip of the main loop, from the calls and local variables of `readTrip`. -/
theorem readStep_readTrip (rpre : List Char) (c : Char) (rest : List Char) (r : ReadState)
    (s : MathExpression V) :
    readStep (rpre.reverse ++ c :: rest) rpre.length r s =
      match readTrip rpre c r with
      | none => .ok (false, r, malformedStart s)
      | some (evs, r1) =>
        match applyPushes evs s with
        | .error f => .error f
        | .ok s1 => .ok (true, r1, s1) := by
  have hc : charAt (rpre.reverse ++ c :: rest) rpre.length = c := by
    have := charAt_append_cons rpre.reverse c rest
    simpa using this
  obtain ⟨al, nu, sp, ra, rn, rs⟩ := r
  rcases rpre with _ | ⟨p1, _ | ⟨p2, rpre⟩⟩
  · -- i = 0
    simp only [List.reverse_nil, List.nil_append, List.length_nil] at hc ⊢
    simp only [readStep, readTrip, hc, signAfterParenthesis, signBetweenParentheses]
    cases ra <;> cases rn <;> cases rs <;>
    simp only [Bool.false_eq_true, if_false, if_true, Bool.false_and, Bool.true_and,
      Bool.not_false, Bool.not_true, Bool.and_true, Bool.and_false, gt_iff_lt, Nat.lt_irrefl,
      decide_False, Nat.not_lt_zero, not_lt_zero', List.append_nil, List.nil_append] <;>
      split_ifs <;> simp [applyPushes, malformedStart] <;>
      (try (cases pushIgnore _ _ s <;> simp))
  · -- i = 1
    have h1 : charAt ([p1].reverse ++ c :: rest) ([p1].length - 1) = p1 :=
      charAt_reverse_cons_last p1 [] (c :: rest)
    simp only [List.length_singleton, Nat.sub_self] at h1 hc
    simp only [readStep, readTrip, hc, h1, signAfterParenthesis, signBetweenParentheses,
      List.length_singleton, Nat.sub_self]
    cases ra <;> cases rn <;> cases rs <;>
    simp only [Bool.false_eq_true, if_false, if_true, Bool.false_and, Bool.true_and,
      Bool.not_false, Bool.not_true, Bool.and_true, Bool.and_false, gt_iff_lt, Nat.lt_irrefl,
      decide_False, decide_True, Nat.lt_one_iff, Nat.zero_lt_one, List.append_nil,
      List.nil_append] <;>
      split_ifs <;> simp [applyPushes, malformedStart] <;>
      (try (cases pushIgnore _ _ s <;> simp))
  · -- i > 1
    have h1 : charAt ((p1 :: p2 :: rpre).reverse ++ c :: rest) ((p1 :: p2 :: rpre).length - 1)
        = p1 := charAt_reverse_cons_last p1 (p2 :: rpre) (c :: rest)
    have h2 : charAt ((p1 :: p2 :: rpre).reverse ++ c :: rest) ((p1 :: p2 :: rpre).length - 2)
        = p2 := charAt_reverse_cons_cons p1 p2 rpre (c :: rest)
    have hgt1 : (p1 :: p2 :: rpre).length > 1 := by simp
    have hgt0 : (p1 :: p2 :: rpre).length > 0 := by simp
    simp only [readStep, readTrip, hc, h1, h2, signAfterParenthesis, signBetweenParentheses,
      hgt0, hgt1]
    clear hc h1 h2 hgt0 hgt1
    cases ra <;> cases rn <;> cases rs <;>
    simp only [Bool.false_eq_true, if_false, if_true, Bool.false_and, Bool.true_and,
      Bool.not_false, Bool.not_true, Bool.and_true, Bool.and_false, decide_True,
      List.append_nil, List.nil_append] <;>
      split_ifs <;> simp [applyPushes, malformedStart] <;>
      (try (cases pushIgnore _ _ s <;> simp))
    all_goals (rename_i a; cases pushIgnore _ _ a <;> rfl)

/-- A `return false` of the main loop can only happen on the first character. -/
theorem readTrip_ne_none_of_ne_nil (rpre : List Char) (c : Char) (r : ReadState)
    (h : rpre ≠ []) : readTrip rpre c r ≠ none := by
  rcases rpre with _ | ⟨p1, rpre⟩
  · exact absurd rfl h
  · simp only [readTrip]
    split_ifs <;> simp

theorem readTrips_ne_none_of_ne_nil (suf rpre : List Char) (r : ReadState)
    (h : rpre ≠ []) : readTrips rpre suf r ≠ none := by
  induction suf generalizing rpre r with
  | nil => simp [readTrips]
  | cons c rest ih =>
    simp only [readTrips]
    have h1 := readTrip_ne_none_of_ne_nil rpre c r h
    cases h2 : readTrip rpre c r with
    | none => exact absurd h2 h1
    | some x =>
      obtain ⟨evs, r1⟩ := x
      have h3 := ih (c :: rpre) r1 (by simp)
      cases h4 : readTrips (c :: rpre) rest r1 with
      | none => exact absurd h4 h3
      | some y => simp [h4]

/-- The main loop of `expressionToReversePolish` is `readTrips` followed by the calls it
yields. -/
theorem readLoop_readTrips (suf rpre : List Char) (r : ReadState) (s : MathExpression V) :
    readLoop (rpre.reverse ++ suf) suf.length r s =
      match readTrips rpre suf r with
      | none => .ok (false, r, malformedStart s)
      | some (evs, r1) =>
        match applyPushes evs s with
        | .error f => .error f
        | .ok s1 => .ok (true, r1, s1) := by
  induction suf generalizing rpre r s with
  | nil => simp [readLoop, readTrips, applyPushes]
  | cons c rest ih =>
    have hidx : (rpre.reverse ++ c :: rest).length - (rest.length + 1) = rpre.length := by
      simp
    simp only [List.length_cons, readLoop, hidx, readStep_readTrip, readTrips]
    cases h2 : readTrip rpre c r with
    | none => rfl
    | some x =>
      obtain ⟨evs, r1⟩ := x
      simp only []
      have hne := readTrips_ne_none_of_ne_nil rest (c :: rpre) r1 (by simp)
      cases h3 : applyPushes evs s with
      | error f =>
        cases h4 : readTrips (c :: rpre) rest r1 with
        | none => exact absurd h4 hne
        | some y =>
          obtain ⟨evs2, r2⟩ := y
          simp [applyPushes_append, h3]
      | ok s1 =>
        have hrw : rpre.reverse ++ c :: rest = (c :: rpre).reverse ++ rest := by simp
        simp only []
        rw [hrw, ih (c :: rpre) r1 s1]
        cases h4 : readTrips (c :: rpre) rest r1 with
        | none => exact absurd h4 hne
        | some y =>
          obtain ⟨evs2, r2⟩ := y
          simp [applyPushes_append, h3]

end Lex
section Lex2

variable {V : Type}

/-- On local variables with at most one `reading` flag set, a trip of the main loop acts on the
pending token as `lexStep` does, and keeps at most one flag set. -/
theorem readTrip_lexStep (rpre : List Char) (c : Char) (r : ReadState)
    (hx : r.exclusive = true) :
    (readTrip rpre c r).map (fun x => (x.1, x.2.pending)) = lexStep rpre c r.pending ∧
      ∀ evs r1, readTrip rpre c r = some (evs, r1) → r1.exclusive = true := by
  obtain ⟨al, nu, sp, ra, rn, rs⟩ := r
  cases ra <;> cases rn <;> cases rs <;> simp [ReadState.exclusive] at hx <;>
    rcases rpre with _ | ⟨p1, rpre⟩ <;>
    simp only [readTrip, lexStep, ReadState.pending, Pending.isNumber, Pending.pushes,
      Bool.false_eq_true, if_false, if_true, Bool.false_and, Bool.true_and,
      Bool.not_false, Bool.not_true, Bool.and_true, Bool.and_false, List.append_nil,
      List.nil_append] <;>
    (constructor
     · split_ifs <;> simp [ReadState.pending]
     · intro evs r1
       split_ifs <;> simp [ReadState.exclusive] <;> (intro _ h; subst h; simp))

/-- The loop form of `readTrip_lexStep`. -/
theorem readTrips_lexAll (suf rpre : List Char) (r : ReadState) (hx : r.exclusive = true) :
    (readTrips rpre suf r).map (fun x => (x.1, x.2.pending)) = lexAll rpre suf r.pending := by
  induction suf generalizing rpre r with
  | nil => simp [readTrips, lexAll]
  | cons c rest ih =>
    obtain ⟨h1, h2⟩ := readTrip_lexStep rpre c r hx
    simp only [readTrips, lexAll, ← h1]
    cases h3 : readTrip rpre c r with
    | none => simp
    | some x =>
      obtain ⟨evs, r1⟩ := x
      have h4 := ih (c :: rpre) r1 (h2 evs r1 h3)
      simp only [Option.map_some', ← h4]
      cases readTrips (c :: rpre) rest r1 with
      | none => simp
      | some y => simp

/-- C-front. Function `expressionToReversePolish` is the pre-pass, then the lexer on the
rewritten text, then the `pushToReversePolish` calls the lexer yields, the last of them with
the upper-case kind. -/
theorem expressionToReversePolish_lex (fuel : Nat) (s : MathExpression V) :
    expressionToReversePolish fuel s =
      match prepassLoop fuel s.m_expression 0 false with
      | .error f => .error f
      | .ok e =>
        match lexAll [] e .idle with
        | none => .ok (false, malformedStart { s with m_RPstack := [], m_expression := e })
        | some (evs, p) =>
          match applyPushes (evs ++ p.lastPushes) { s with m_RPstack := [], m_expression := e } with
          | .error f => .error f
          | .ok s2 => .ok (true, s2) := by
  simp only [expressionToReversePolish]
  cases prepassLoop fuel s.m_expression 0 false with
  | error f => rfl
  | ok e =>
    simp only []
    have h1 := readLoop_readTrips e [] ⟨[], [], [], false, false, false⟩
      { s with m_RPstack := [], m_expression := e }
    simp only [List.reverse_nil, List.nil_append] at h1
    rw [h1]
    have h2 := readTrips_lexAll e [] ⟨[], [], [], false, false, false⟩ rfl
    have h3 : (⟨[], [], [], false, false, false⟩ : ReadState).pending = .idle := rfl
    rw [h3] at h2
    rw [← h2]
    cases readTrips [] e ⟨[], [], [], false, false, false⟩ with
    | none => rfl
    | some x =>
      obtain ⟨evs, r1⟩ := x
      simp only [Option.map_some', applyPushes_append]
      cases applyPushes evs { s with m_RPstack := [], m_expression := e } with
      | error f => rfl
      | ok s1 =>
        obtain ⟨al, nu, sp, ra, rn, rs⟩ := r1
        cases ra <;> cases rn <;> cases rs <;>
          simp [ReadState.pending, Pending.lastPushes, applyPushes] <;>
          (cases pushIgnore _ _ s1 <;> rfl)

end Lex2
/-! ### Character classes -/

theorem isDigit_iff (c : Char) : c.isDigit = true ↔ 48 ≤ c.toNat ∧ c.toNat ≤ 57 := by
  simp only [Char.isDigit, Bool.and_eq_true, decide_eq_true_eq, Char.toNat, ge_iff_le]
  rfl

theorem isAlpha_iff (c : Char) :
    c.isAlpha = true ↔ (65 ≤ c.toNat ∧ c.toNat ≤ 90) ∨ (97 ≤ c.toNat ∧ c.toNat ≤ 122) := by
  simp only [Char.isAlpha, Char.isUpper, Char.isLower, Bool.or_eq_true, Bool.and_eq_true,
    decide_eq_true_eq, Char.toNat, ge_iff_le]
  rfl

theorem isSpecialCharacter_iff (c : Char) :
    isSpecialCharacter c = true ↔
      c = '+' ∨ c = '-' ∨ c = '*' ∨ c = '/' ∨ c = '^' ∨ c = '(' ∨ c = ')' := by
  simp [isSpecialCharacter, specialChars]

theorem toNat_of_isSpecialCharacter (c : Char) (h : isSpecialCharacter c = true) :
    c.toNat = 43 ∨ c.toNat = 45 ∨ c.toNat = 42 ∨ c.toNat = 47 ∨ c.toNat = 94 ∨ c.toNat = 40
      ∨ c.toNat = 41 := by
  rw [isSpecialCharacter_iff] at h
  rcases h with h | h | h | h | h | h | h <;> subst h <;> decide

/-! ### The pre-pass on a split text -/

section Prepass

theorem insertAt_append_cons {α : Type} (pre : List α) (rest : List α) (c : α) :
    insertAt (pre ++ rest) pre.length c = pre ++ c :: rest := by
  simp [insertAt]

theorem insertAt_append_right {α : Type} (pre : List α) (rest : List α) (k : Nat) (c : α) :
    insertAt (pre ++ rest) (pre.length + k) c = pre ++ insertAt rest k c := by
  simp [insertAt, List.take_append, List.drop_append]

theorem insertAt_length {α : Type} (l : List α) (c : α) : insertAt l l.length c = l ++ [c] := by
  simp [insertAt]

theorem eraseAt_set_append {α : Type} (pre : List α) (p c x : α) (rest : List α) :
    eraseAt ((pre ++ p :: c :: rest).set (pre.length + 1) x) pre.length = pre ++ x :: rest := by
  simp [eraseAt, List.set_append, List.take_append, List.drop_append]

theorem closeIndex_le (hat : Bool) (prev : Char) (rest : List Char) :
    closeIndex hat prev rest ≤ rest.length := by
  induction rest generalizing prev with
  | nil => simp [closeIndex]
  | cons ch more ih =>
    simp only [closeIndex, List.length_cons]
    have h1 := ih ch
    split_ifs <;> omega

/-- The closing-parenthesis search of the pre-pass, on a text split at its start index. -/
theorem prepassClose_closeIndex (suf pre : List Char) (prev : Char) (i : Nat) :
    prepassClose (pre ++ prev :: suf) i suf.length =
      (pre ++ [prev]).length +
        closeIndex (charAt (pre ++ prev :: suf) (i - 1) == '^') prev suf := by
  induction suf generalizing pre prev with
  | nil => simp [prepassClose, closeIndex]
  | cons ch more ih =>
    have hlen : (pre ++ prev :: ch :: more).length - (more.length + 1) = (pre ++ [prev]).length := by
      simp only [List.length_append, List.length_cons, List.length_nil]
      omega
    have hch : charAt (pre ++ prev :: ch :: more) (pre ++ [prev]).length = ch := by
      have := charAt_append_cons (pre ++ [prev]) ch more
      simpa using this
    have hprev : charAt (pre ++ prev :: ch :: more) ((pre ++ [prev]).length - 1) = prev := by
      have := charAt_append_cons pre prev (ch :: more)
      simpa using this
    have hih := ih (pre ++ [prev]) ch
    have happ : pre ++ [prev] ++ ch :: more = pre ++ prev :: ch :: more := by simp
    rw [happ] at hih
    simp only [List.length_cons, prepassClose, hlen, hch, hprev, closeIndex, hih]
    split_ifs <;> simp <;> omega

/-- The pre-pass of `expressionToReversePolish`, on the text split at the loop index. -/
theorem prepassLoop_split (fuel : Nat) (rpre suf : List Char) :
    prepassLoop fuel (rpre.reverse ++ suf) rpre.length false = prepassSplit fuel rpre suf := by
  induction fuel generalizing rpre suf with
  | zero =>
    simp only [prepassLoop, prepassSplit, List.length_append, List.length_reverse]
    by_cases h : suf.length > 0
    · simp [h]
    · simp [h]
  | succ fuel ih =>
    rcases suf with _ | ⟨c, rest⟩
    · simp [prepassLoop, prepassSplit]
    · have hlt : rpre.length < (rpre.reverse ++ c :: rest).length := by simp
      rcases rpre with _ | ⟨p, rp⟩
      · have := ih [c] rest
        simp only [List.reverse_cons, List.reverse_nil, List.nil_append, List.length_singleton,
          List.singleton_append] at this
        simp [prepassLoop, prepassSplit, this]
      · have hc : charAt ((p :: rp).reverse ++ c :: rest) (p :: rp).length = c := by
          have := charAt_append_cons (p :: rp).reverse c rest
          simpa using this
        have hp : charAt ((p :: rp).reverse ++ c :: rest) ((p :: rp).length - 1) = p :=
          charAt_reverse_cons_last p rp (c :: rest)
        have hpos : (p :: rp).length > 0 := by simp
        have hne : (p :: rp).length ≠ 0 := by simp
        have hfold : ∀ x : Char,
            eraseAt (((p :: rp).reverse ++ c :: rest).set (p :: rp).length x)
                ((p :: rp).length - 1) = (x :: rp).reverse ++ rest := by
          intro x
          have := eraseAt_set_append rp.reverse p c x rest
          simpa using this
        have hidx : (p :: rp).length - 1 + 1 = (p :: rp).length := by simp
        rw [prepassLoop, prepassSplit]
        simp only [hlt, if_true, hc, hp, hpos, decide_True, Bool.true_and, hfold, hidx]
        by_cases h1 : ((p == '-' && c == '-') || (p == '+' && c == '+')) = true
        · simp only [h1, if_true]
          have := ih ('+' :: rp) rest
          simpa using this
        · simp only [h1, if_false]
          by_cases h2 : ((p == '-' && c == '+') || (p == '+' && c == '-')) = true
          · simp only [h2, if_true]
            have := ih ('-' :: rp) rest
            simpa using this
          · simp only [h2, if_false]
            by_cases h3 : prepassTrigger p c = true
            · have h3' : ((isSpecialNoParenthesis p && ((c == '+' || c == '-') && p != 'e'))
                  || (p == '^' && c != '(')) = true := h3
              simp only [h3', h3, if_true, hne, if_false]
              have he1 : insertAt ((p :: rp).reverse ++ c :: rest) (p :: rp).length '('
                  = ((p :: rp).reverse ++ ['(']) ++ c :: rest := by
                have := insertAt_append_cons (p :: rp).reverse (c :: rest) '('
                simpa using this
              have hrem : (((p :: rp).reverse ++ ['(']) ++ c :: rest).length
                  - ((p :: rp).length + 2) = rest.length := by
                simp only [List.length_append, List.length_cons, List.length_nil,
                  List.length_reverse]
                omega
              have hp1 : charAt (((p :: rp).reverse ++ ['(']) ++ c :: rest)
                  ((p :: rp).length - 1) = p := by
                have := charAt_append_cons rp.reverse p ('(' :: c :: rest)
                simpa using this
              have hclose := prepassClose_closeIndex rest ((p :: rp).reverse ++ ['(']) c
                (p :: rp).length
              rw [hp1] at hclose
              rw [he1, hrem, hclose]
              have hk := closeIndex_le (p == '^') c rest
              by_cases h4 : closeIndex (p == '^') c rest < rest.length
              · have hj : ((p :: rp).reverse ++ ['('] ++ [c]).length
                    + closeIndex (p == '^') c rest
                    < ((p :: rp).reverse ++ ['('] ++ c :: rest).length := by
                  simp only [List.length_append, List.length_cons, List.length_nil,
                    List.length_reverse]
                  omega
                simp only [hj, h4, if_true]
                have hins : insertAt ((p :: rp).reverse ++ ['('] ++ c :: rest)
                    (((p :: rp).reverse ++ ['('] ++ [c]).length + closeIndex (p == '^') c rest)
                    ')' = ('(' :: p :: rp).reverse
                      ++ c :: insertAt rest (closeIndex (p == '^') c rest) ')' := by
                  have := insertAt_append_right ((p :: rp).reverse ++ ['('] ++ [c]) rest
                    (closeIndex (p == '^') c rest) ')'
                  simpa using this
                rw [hins]
                have := ih ('(' :: p :: rp) (c :: insertAt rest (closeIndex (p == '^') c rest) ')')
                simpa using this
              · have hkeq : closeIndex (p == '^') c rest = rest.length := by omega
                have hj : ¬ (((p :: rp).reverse ++ ['('] ++ [c]).length
                    + closeIndex (p == '^') c rest
                    < ((p :: rp).reverse ++ ['('] ++ c :: rest).length) := by
                  simp only [List.length_append, List.length_cons, List.length_nil,
                    List.length_reverse]
                  omega
                simp only [hj, h4, if_false]
                have hjl : ((p :: rp).reverse ++ ['('] ++ [c]).length
                    + closeIndex (p == '^') c rest
                    = ((p :: rp).reverse ++ ['('] ++ c :: rest).length := by
                  simp only [List.length_append, List.length_cons, List.length_nil,
                    List.length_reverse]
                  omega
                rw [hjl, insertAt_length]
                simp
            · have h3' : ¬ (((isSpecialNoParenthesis p && ((c == '+' || c == '-') && p != 'e'))
                  || (p == '^' && c != '(')) = true) := h3
              simp only [h3', h3, if_false, Bool.false_eq_true]
              have := ih (c :: p :: rp) rest
              simpa using this

end Prepass
/-! ### Runs of the pre-pass -/

section PrepassRuns

/-- More fuel does not change a finished pre-pass. -/
theorem prepassSplit_mono (fuel : Nat) (rpre suf : List Char) (e : Str)
    (h : prepassSplit fuel rpre suf = .ok e) (fuel2 : Nat) (hle : fuel ≤ fuel2) :
    prepassSplit fuel2 rpre suf = .ok e := by
  induction fuel generalizing rpre suf fuel2 with
  | zero =>
    rcases suf with _ | ⟨c, rest⟩
    · cases fuel2 <;> simpa [prepassSplit] using h
    · simp [prepassSplit] at h
  | succ fuel ih =>
    obtain ⟨f2, rfl⟩ : ∃ f2, fuel2 = f2 + 1 := ⟨fuel2 - 1, by omega⟩
    have hle2 : fuel ≤ f2 := by omega
    rcases suf with _ | ⟨c, rest⟩
    · simpa [prepassSplit] using h
    · rcases rpre with _ | ⟨p, rp⟩
      · simp only [prepassSplit] at h ⊢
        exact ih _ _ h _ hle2
      · simp only [prepassSplit] at h ⊢
        split_ifs at h ⊢ <;> first | exact ih _ _ h _ hle2 | exact h

theorem quietHead_nil : quietHead [] := by simp [quietHead]

theorem quietHead_cons (p : Char) (rp : List Char) :
    quietHead (p :: rp) ↔ isSpecialNoParenthesis p = false := by simp [quietHead]

theorem isSpecialNoParenthesis_false_of (p : Char) (h : isSpecialNoParenthesis p = false) :
    p ≠ '+' ∧ p ≠ '-' ∧ p ≠ '^' := by
  refine ⟨?_, ?_, ?_⟩ <;> (rintro rfl; revert h; decide)

/-- A trip of the pre-pass after a character other than `+ - * / ^` only advances. -/
theorem prepassSplit_step (fuel : Nat) (rpre : List Char) (c : Char) (rest : List Char)
    (h : quietHead rpre) :
    prepassSplit (fuel + 1) rpre (c :: rest) = prepassSplit fuel (c :: rpre) rest := by
  rcases rpre with _ | ⟨p, rp⟩
  · simp [prepassSplit]
  · rw [quietHead_cons] at h
    obtain ⟨h1, h2, h3⟩ := isSpecialNoParenthesis_false_of p h
    simp [prepassSplit, prepassTrigger, h, h1, h2, h3]

/-- The pre-pass passes over a run of characters none of which is one of `+ - * / ^`. -/
theorem prepassSplit_run (t : List Char) (fuel : Nat) (rpre rest : List Char)
    (h : quietHead rpre) (ht : ∀ ch ∈ t, isSpecialNoParenthesis ch = false) :
    prepassSplit (fuel + t.length) rpre (t ++ rest) = prepassSplit fuel (t.reverse ++ rpre) rest := by
  induction t generalizing rpre with
  | nil => simp
  | cons ch t ih =>
    have h1 : fuel + (ch :: t).length = (fuel + t.length) + 1 := by simp; omega
    rw [h1, List.cons_append, prepassSplit_step _ _ _ _ h]
    rw [ih (ch :: rpre) ((quietHead_cons _ _).2 (ht ch (by simp))) (fun x hx => ht x (by simp [hx]))]
    simp

theorem closeIndex_run (t : List Char) (hat : Bool) (prev : Char) (rest : List Char)
    (ht : ∀ ch ∈ t, isSpecialCharacter ch = false) :
    closeIndex hat prev (t ++ rest) = t.length + closeIndex hat (t.getLastD prev) rest := by
  induction t generalizing prev with
  | nil => simp
  | cons ch t ih =>
    have h1 := ht ch (by simp)
    simp only [List.cons_append, closeIndex, h1, Bool.false_eq_true, if_false, List.append_eq]
    rw [ih ch (fun x hx => ht x (by simp [hx]))]
    simp only [List.length_cons]
    have : (ch :: t).getLastD prev = t.getLastD ch := by
      cases t <;> simp [List.getLastD]
    rw [this]
    omega

end PrepassRuns
/-! ### Operand tokens -/

section Operands

theorem isSpecialNoParenthesis_of_not_special (c : Char) (h : isSpecialCharacter c = false) :
    isSpecialNoParenthesis c = false := by
  simp only [isSpecialNoParenthesis]
  split_ifs
  · rfl
  · exact h

theorem not_special_of_isAlpha (c : Char) (h : c.isAlpha = true) :
    isSpecialCharacter c = false := by
  by_contra hs
  have h1 := toNat_of_isSpecialCharacter c (by simpa using hs)
  rw [isAlpha_iff] at h
  omega

theorem not_special_of_isDigit (c : Char) (h : c.isDigit = true) :
    isSpecialCharacter c = false := by
  by_contra hs
  have h1 := toNat_of_isSpecialCharacter c (by simpa using hs)
  rw [isDigit_iff] at h
  omega

theorem not_isAlpha_of_isDigit (c : Char) (h : c.isDigit = true) : c.isAlpha = false := by
  by_contra ha
  have h1 := (isAlpha_iff c).1 (by simpa using ha)
  rw [isDigit_iff] at h
  omega

theorem not_isDigit_of_isAlpha (c : Char) (h : c.isAlpha = true) : c.isDigit = false := by
  by_contra hd
  have h1 := (isDigit_iff c).1 (by simpa using hd)
  rw [isAlpha_iff] at h
  omega

theorem not_isDigit_of_special (c : Char) (h : isSpecialCharacter c = true) :
    c.isDigit = false := by
  by_contra hd
  exact absurd h (by simp [not_special_of_isDigit c (by simpa using hd)])

theorem not_isAlpha_of_special (c : Char) (h : isSpecialCharacter c = true) :
    c.isAlpha = false := by
  by_contra hd
  exact absurd h (by simp [not_special_of_isAlpha c (by simpa using hd)])

theorem isOperandChar_facts (c : Char) (h : isOperandChar c = true) :
    isSpecialCharacter c = false ∧ c ≠ ' ' ∧ c ≠ '\t' := by
  simp only [isOperandChar, Bool.or_eq_true, beq_iff_eq] at h
  rcases h with (h | h) | h
  · refine ⟨not_special_of_isAlpha c h, ?_, ?_⟩ <;> (rintro rfl; revert h; decide)
  · refine ⟨not_special_of_isDigit c h, ?_, ?_⟩ <;> (rintro rfl; revert h; decide)
  · subst h; decide

theorem isIdentifier_iff (t : Str) :
    isIdentifier t = true ↔ t ≠ [] ∧ (∀ c ∈ t, c.isAlpha = true) ∧ hasOperatorMap t = false := by
  simp [isIdentifier, and_assoc]

theorem isUnsignedNumber_chars (t : Str) (h : isUnsignedNumber t = true) :
    t ≠ [] ∧ ∀ c ∈ t, (c.isDigit = true ∨ c = '.') := by
  simp only [isUnsignedNumber, Bool.and_eq_true, List.all_eq_true, List.any_eq_true,
    Bool.or_eq_true, beq_iff_eq, decide_eq_true_eq] at h
  obtain ⟨⟨h1, ⟨x, hx, _⟩⟩, _⟩ := h
  exact ⟨List.ne_nil_of_mem hx, h1⟩

theorem lookup_isSome_eq_any {β : Type} (l : List (Str × β)) (k : Str) :
    (l.lookup k).isSome = l.any (fun p => k == p.1) := by
  induction l with
  | nil => rfl
  | cons x l ih =>
    obtain ⟨a, b⟩ := x
    simp only [List.lookup, List.any_cons]
    cases h : (k == a) with
    | true => simp
    | false => simpa using ih

/-- The reserved operator names. -/
theorem hasOperatorMap_iff (t : Str) :
    hasOperatorMap t = true ↔
      t = ['+'] ∨ t = ['-'] ∨ t = ['*'] ∨ t = ['/'] ∨ t = ['^'] ∨ t = ['p', 'o', 'w']
        ∨ t = ['s', 'i', 'n'] ∨ t = ['c', 'o', 's'] ∨ t = ['t', 'a', 'n']
        ∨ t = ['s', 'q', 'r', 't'] ∨ t = ['e', 'x', 'p'] := by
  simp only [hasOperatorMap, lookup_isSome_eq_any, operatorMap, List.any_cons, List.any_nil,
    Bool.or_false, Bool.or_eq_true, beq_iff_eq]

theorem hasOperatorMap_false_of_head (c : Char) (t : Str)
    (h : c.isDigit = true ∨ c = '.') : hasOperatorMap (c :: t) = false := by
  have hne : c ≠ '+' ∧ c ≠ '-' ∧ c ≠ '*' ∧ c ≠ '/' ∧ c ≠ '^' ∧ c ≠ 'p' ∧ c ≠ 's' ∧ c ≠ 'c'
      ∧ c ≠ 't' ∧ c ≠ 'e' := by
    rcases h with h | h
    · refine ⟨?_, ?_, ?_, ?_, ?_, ?_, ?_, ?_, ?_, ?_⟩ <;> (rintro rfl; revert h; decide)
    · subst h; decide
  obtain ⟨h1, h2, h3, h4, h5, h6, h7, h8, h9, h10⟩ := hne
  by_contra hc
  have := (hasOperatorMap_iff (c :: t)).1 (by simpa using hc)
  simp [h1, h2, h3, h4, h5, h6, h7, h8, h9, h10] at this

theorem isOperand_ne_nil (t : Str) (h : isOperand t = true) : t ≠ [] := by
  simp only [isOperand, Bool.or_eq_true] at h
  rcases h with h | h
  · exact ((isIdentifier_iff t).1 h).1
  · exact (isUnsignedNumber_chars t h).1

theorem isOperand_chars (t : Str) (h : isOperand t = true) :
    ∀ c ∈ t, isOperandChar c = true := by
  simp only [isOperand, Bool.or_eq_true] at h
  intro c hc
  rcases h with h | h
  · simp [isOperandChar, ((isIdentifier_iff t).1 h).2.1 c hc]
  · rcases (isUnsignedNumber_chars t h).2 c hc with h1 | h1
    · simp [isOperandChar, h1]
    · simp [isOperandChar, h1]

theorem isOperand_hasOperatorMap (t : Str) (h : isOperand t = true) :
    hasOperatorMap t = false := by
  simp only [isOperand, Bool.or_eq_true] at h
  rcases h with h | h
  · exact ((isIdentifier_iff t).1 h).2.2
  · obtain ⟨h1, h2⟩ := isUnsignedNumber_chars t h
    rcases t with _ | ⟨c, t⟩
    · exact absurd rfl h1
    · exact hasOperatorMap_false_of_head c t (h2 c (by simp))

theorem isOperand_not_special (t : Str) (h : isOperand t = true) :
    ∀ c ∈ t, isSpecialCharacter c = false :=
  fun c hc => (isOperandChar_facts c (isOperand_chars t h c hc)).1

theorem isOperand_quiet (t : Str) (h : isOperand t = true) :
    ∀ c ∈ t, isSpecialNoParenthesis c = false :=
  fun c hc => isSpecialNoParenthesis_of_not_special c (isOperand_not_special t h c hc)

/-- An operand is either all letters (then the reader holds it as `alpha`) or all digits and
points (then the reader holds it as `number`). -/
theorem isOperand_cases (t : Str) (h : isOperand t = true) :
    (operandPending t = .alpha t ∧ ∀ c ∈ t, c.isAlpha = true) ∨
      (operandPending t = .number t ∧ ∀ c ∈ t, (c.isDigit = true ∨ c = '.')) := by
  have h0 := h
  simp only [isOperand, Bool.or_eq_true] at h
  rcases t with _ | ⟨c, t⟩
  · exact absurd rfl (isOperand_ne_nil [] h0)
  · rcases h with h | h
    · left
      have h1 := ((isIdentifier_iff (c :: t)).1 h).2.1
      refine ⟨?_, h1⟩
      simp [operandPending, charAt, h1 c (by simp)]
    · right
      have h1 := (isUnsignedNumber_chars (c :: t) h).2
      refine ⟨?_, h1⟩
      have : c.isAlpha = false := by
        rcases h1 c (by simp) with h2 | h2
        · exact not_isAlpha_of_isDigit c h2
        · subst h2; decide
      simp [operandPending, charAt, this]

theorem filter_operand (t : Str) (h : ∀ c ∈ t, c ≠ ' ' ∧ c ≠ '\t') :
    (t.filter (fun c => c != ' ')).filter (fun c => c != '\t') = t := by
  have h1 : t.filter (fun c => c != ' ') = t := by
    rw [List.filter_eq_self]; intro c hc; simpa using (h c hc).1
  rw [h1, List.filter_eq_self]; intro c hc; simpa using (h c hc).2

end Operands
/-! ### The lexer on operand tokens -/

section LexTokens

theorem lexAll_cons (c : Char) (y rpre : List Char) (p : Pending) :
    lexAll rpre (c :: y) p =
      match lexStep rpre c p with
      | none => none
      | some (e1, p1) => (lexAll (c :: rpre) y p1).map (fun r => (e1 ++ r.1, r.2)) := by
  simp only [lexAll]
  cases lexStep rpre c p with
  | none => rfl
  | some r =>
    obtain ⟨e0, p0⟩ := r
    simp only []
    cases lexAll (c :: rpre) y p0 with
    | none => rfl
    | some r1 => rfl

theorem lexAll_append (x y rpre : List Char) (p : Pending) :
    lexAll rpre (x ++ y) p =
      match lexAll rpre x p with
      | none => none
      | some (e1, p1) => (lexAll (x.reverse ++ rpre) y p1).map (fun r => (e1 ++ r.1, r.2)) := by
  induction x generalizing rpre p with
  | nil => simp [lexAll]
  | cons c x ih =>
    rw [List.cons_append, lexAll_cons, lexAll_cons]
    cases lexStep rpre c p with
    | none => rfl
    | some r =>
      obtain ⟨e0, p0⟩ := r
      simp only [ih]
      cases lexAll (c :: rpre) x p0 with
      | none => rfl
      | some r1 =>
        obtain ⟨e1, p1⟩ := r1
        simp only [Option.map_some', List.reverse_cons, List.append_assoc,
          List.singleton_append]
        cases lexAll (x.reverse ++ c :: rpre) y p1 with
        | none => rfl
        | some r2 => simp

/-- The reader appends letters to the identifier it is reading. -/
theorem lexAll_alpha (t rpre : List Char) (u : Str) (ht : ∀ c ∈ t, c.isAlpha = true) :
    lexAll rpre t (.alpha u) = some ([], .alpha (u ++ t)) := by
  induction t generalizing rpre u with
  | nil => simp [lexAll]
  | cons c t ih =>
    have hc := ht c (by simp)
    simp only [lexAll, lexStep, hc, Pending.isNumber, Bool.false_and, Bool.not_false,
      Bool.and_true, if_true]
    rw [ih (c :: rpre) (u ++ [c]) (fun x hx => ht x (by simp [hx]))]
    simp

/-- The reader appends digits and points to the number it is reading. -/
theorem lexAll_number (t rpre : List Char) (u : Str) (hr : rpre ≠ [])
    (ht : ∀ c ∈ t, (c.isDigit = true ∨ c = '.')) :
    lexAll rpre t (.number u) = some ([], .number (u ++ t)) := by
  induction t generalizing rpre u with
  | nil => simp [lexAll]
  | cons c t ih =>
    rcases rpre with _ | ⟨p1, rp⟩
    · exact absurd rfl hr
    · have hc := ht c (by simp)
      have ha : c.isAlpha = false := by
        rcases hc with h | h
        · exact not_isAlpha_of_isDigit c h
        · subst h; decide
      have hs : isSpecialCharacter c = false := by
        rcases hc with h | h
        · exact not_special_of_isDigit c h
        · subst h; decide
      have hd : (c.isDigit || c == '.') = true := by
        rcases hc with h | h
        · simp [h]
        · simp [h]
      have hd2 : (c.isDigit || c == '.' || c == 'e' || c == '+' || c == '-') = true := by
        simp only [Bool.or_eq_true] at hd ⊢
        tauto
      simp only [lexAll, lexStep, ha, hs, hd2, Pending.isNumber, Bool.false_and,
        Bool.false_eq_true, if_false, Bool.not_true, if_true]
      rw [ih (c :: p1 :: rp) (u ++ [c]) (by simp) (fun x hx => ht x (by simp [hx]))]
      simp

/-- An operand at the start of the text is read as one token. -/
theorem lexAll_operand_start (t : Str) (h : isOperand t = true) :
    lexAll [] t .idle = some ([], operandPending t) := by
  rcases t with _ | ⟨c, t⟩
  · exact absurd rfl (isOperand_ne_nil [] h)
  · rcases isOperand_cases (c :: t) h with ⟨h1, h2⟩ | ⟨h1, h2⟩
    · have hc := h2 c (by simp)
      rw [h1, lexAll_cons]
      simp only [lexStep, hc, Pending.isNumber, Bool.false_and, Bool.not_false, Bool.and_true,
        if_true, Pending.pushes, signAfterParenthesis, Bool.false_eq_true, if_false,
        List.append_nil]
      rw [lexAll_alpha t [c] [c] (fun x hx => h2 x (by simp [hx]))]
      simp
    · have hc := h2 c (by simp)
      have ha : c.isAlpha = false := by
        rcases hc with h | h
        · exact not_isAlpha_of_isDigit c h
        · subst h; decide
      have hsg : (c == '+' || c == '-') = false := by
        rcases hc with h | h
        · have : c ≠ '+' ∧ c ≠ '-' := by
            constructor <;> (rintro rfl; revert h; decide)
          simp [this.1, this.2]
        · subst h; decide
      have hd : (c == '.' || c.isDigit) = true := by
        rcases hc with h | h
        · simp [h]
        · simp [h]
      rw [h1, lexAll_cons]
      simp only [lexStep, ha, hsg, hd, Bool.false_and, Bool.false_eq_true, if_false, if_true]
      rw [lexAll_number t [c] [c] (by simp) (fun x hx => h2 x (by simp [hx]))]
      simp

/-- An operand after a special character is read as one token, and the special character is
pushed when the operand starts. -/
theorem lexAll_operand_after (t : Str) (p1 : Char) (rpre : List Char) (sp : Str)
    (h : isOperand t = true) (hp1 : p1.isDigit = false)
    (hs : signAfterParenthesis (p1 :: rpre) = false) :
    lexAll (p1 :: rpre) t (.special sp) = some ([(sp, 's')], operandPending t) := by
  rcases t with _ | ⟨c, t⟩
  · exact absurd rfl (isOperand_ne_nil [] h)
  · rcases isOperand_cases (c :: t) h with ⟨h1, h2⟩ | ⟨h1, h2⟩
    · have hc := h2 c (by simp)
      rw [h1, lexAll_cons]
      simp only [lexStep, hc, Pending.isNumber, Bool.false_and, Bool.not_false, Bool.and_true,
        if_true, Pending.pushes, hs, Bool.false_eq_true, if_false, List.append_nil]
      rw [lexAll_alpha t (c :: p1 :: rpre) [c] (fun x hx => h2 x (by simp [hx]))]
      simp
    · have hc := h2 c (by simp)
      have ha : c.isAlpha = false := by
        rcases hc with h | h
        · exact not_isAlpha_of_isDigit c h
        · subst h; decide
      have hd : ((p1 == '(' && c == '+') || (p1 == '(' && c == '-') || c.isDigit
          || (!p1.isDigit && c == '.')) = true := by
        rcases hc with h | h
        · simp [h]
        · simp [h, hp1]
      rw [h1, lexAll_cons]
      simp only [lexStep, ha, hd, Pending.isNumber, Bool.false_and, Bool.false_eq_true,
        if_false, Bool.not_false, Bool.true_and, if_true, Pending.pushes]
      rw [lexAll_number t (c :: p1 :: rpre) [c] (by simp) (fun x hx => h2 x (by simp [hx]))]
      simp

/-- A special character after an operand ends the operand: the operand is pushed and the
special character becomes the pending token. -/
theorem lexStep_special_after_operand (t : Str) (rpre : List Char) (c : Char)
    (h : isOperand t = true) (hc : isSpecialCharacter c = true) :
    lexStep (t.reverse ++ rpre) c (operandPending t) =
      some ((operandPending t).pushes, .special [c]) := by
  have hne := isOperand_ne_nil t h
  obtain ⟨t0, l, rfl⟩ : ∃ t0 l, t = t0 ++ [l] := by
    rcases List.eq_nil_or_concat t with h1 | ⟨t0, l, h1⟩
    · exact absurd h1 hne
    · exact ⟨t0, l, by simpa using h1⟩
  have hca : c.isAlpha = false := not_isAlpha_of_special c hc
  have hcd : c.isDigit = false := not_isDigit_of_special c hc
  have hcdot : (c == '.') = false := by
    have : c ≠ '.' := by rintro rfl; revert hc; decide
    simpa using this
  have hl := isOperand_chars (t0 ++ [l]) h l (by simp)
  obtain ⟨hls, _, _⟩ := isOperandChar_facts l hl
  have hlne : l ≠ '(' ∧ l ≠ '+' ∧ l ≠ '-' := by
    refine ⟨?_, ?_, ?_⟩ <;> (rintro rfl; revert hls; decide)
  have hsb : signBetweenParentheses c (l :: (t0.reverse ++ rpre)) = false := by
    rcases hrp : t0.reverse ++ rpre with _ | ⟨p2, rp⟩
    · rfl
    · simp [signBetweenParentheses, hlne.2.1, hlne.2.2]
  have hrev : (t0 ++ [l]).reverse ++ rpre = l :: (t0.reverse ++ rpre) := by simp
  rw [hrev]
  rcases isOperand_cases (t0 ++ [l]) h with ⟨h1, h2⟩ | ⟨h1, h2⟩
  · rw [h1]
    simp [lexStep, hca, hcd, hcdot, hc, hsb, Pending.isNumber, Pending.pushes, hlne.1]
  · have hle : l ≠ 'e' := by
      rcases h2 l (by simp) with h3 | h3
      · rintro rfl; revert h3; decide
      · subst h3; decide
    rw [h1]
    simp [lexStep, hca, hc, hsb, Pending.isNumber, Pending.pushes, hle]

end LexTokens
/-! ### Pushes of operands and operators -/

section Pushes

variable {V : Type}

@[simp] theorem withRP_reversePolish (s : MathExpression V) (rp : Str) (stk : List Str) :
    (withRP s rp stk).m_reversePolish = rp := rfl

@[simp] theorem withRP_RPstack (s : MathExpression V) (rp : Str) (stk : List Str) :
    (withRP s rp stk).m_RPstack = stk := rfl

@[simp] theorem withRP_withRP (s : MathExpression V) (rp rp2 : Str) (stk stk2 : List Str) :
    withRP (withRP s rp stk) rp2 stk2 = withRP s rp2 stk2 := rfl

theorem appendRP_nil (t : Str) : appendToReversePolishString t [] = t := by
  simp [appendToReversePolishString]

theorem appendRP_ne_nil (t rp : Str) (h : rp ≠ []) :
    appendToReversePolishString t rp = rp ++ ' ' :: t := by
  have : rp.length > 0 := List.length_pos.2 h
  simp [appendToReversePolishString, this]

/-- Pushing an operand inside the loop appends it to the RP text. -/
theorem pushIgnore_operand (t : Str) (k : Char) (s : MathExpression V)
    (h : hasOperatorMap t = false) (hk : k = 'a' ∨ k = 'n') :
    pushIgnore t k s =
      .ok (withRP s (appendToReversePolishString t s.m_reversePolish) s.m_RPstack) := by
  rcases hk with rfl | rfl <;>
    simp [pushIgnore, pushToReversePolish, h, flushIfLast, withRP]

/-- Pushing the last operand appends it and then the whole stack to the RP text. -/
theorem pushIgnore_operand_last (t : Str) (k : Char) (s : MathExpression V)
    (h : hasOperatorMap t = false) (hk : k = 'A' ∨ k = 'N') :
    pushIgnore t k s =
      .ok (withRP s (s.m_RPstack.foldl (fun rp x => appendToReversePolishString x rp)
        (appendToReversePolishString t s.m_reversePolish)) []) := by
  rcases hk with rfl | rfl <;>
    simp [pushIgnore, pushToReversePolish, h, flushIfLast, withRP]

theorem operandPending_pushes (t : Str) (h : isOperand t = true) :
    ∃ k, (k = 'a' ∨ k = 'n') ∧ (operandPending t).pushes = [(t, k)] := by
  rcases isOperand_cases t h with ⟨h1, _⟩ | ⟨h1, _⟩
  · exact ⟨'a', Or.inl rfl, by rw [h1]; rfl⟩
  · exact ⟨'n', Or.inr rfl, by rw [h1]; rfl⟩

theorem operandPending_lastPushes (t : Str) (h : isOperand t = true) :
    ∃ k, (k = 'A' ∨ k = 'N') ∧ (operandPending t).lastPushes = [(t, k)] := by
  rcases isOperand_cases t h with ⟨h1, _⟩ | ⟨h1, _⟩
  · exact ⟨'A', Or.inl rfl, by rw [h1]; rfl⟩
  · exact ⟨'N', Or.inr rfl, by rw [h1]; rfl⟩

/-- The pushes of an operand inside the loop, followed by further pushes. -/
theorem applyPushes_operand (t : Str) (h : isOperand t = true) (rest : List (Str × Char))
    (s : MathExpression V) :
    applyPushes ((operandPending t).pushes ++ rest) s =
      applyPushes rest
        (withRP s (appendToReversePolishString t s.m_reversePolish) s.m_RPstack) := by
  obtain ⟨k, hk, hp⟩ := operandPending_pushes t h
  rw [hp]
  show applyPushes ((t, k) :: rest) s = _
  simp only [applyPushes, pushIgnore_operand t k s (isOperand_hasOperatorMap t h) hk]

/-- The push of the last operand. -/
theorem applyPushes_operand_last (t : Str) (h : isOperand t = true) (s : MathExpression V) :
    applyPushes (operandPending t).lastPushes s =
      .ok (withRP s (s.m_RPstack.foldl (fun rp x => appendToReversePolishString x rp)
        (appendToReversePolishString t s.m_reversePolish)) []) := by
  obtain ⟨k, hk, hp⟩ := operandPending_lastPushes t h
  rw [hp]
  simp only [applyPushes, pushIgnore_operand_last t k s (isOperand_hasOperatorMap t h) hk]

/-- Pushing `(` puts it on the front of the stack. -/
theorem pushIgnore_open (s : MathExpression V) :
    pushIgnore ['('] 's' s = .ok (withRP s s.m_reversePolish (['('] :: s.m_RPstack)) := by
  have h : hasOperatorMap ['('] = false := by decide
  simp [pushIgnore, pushToReversePolish, h, flushIfLast, withRP, insertAt]

/-- Pushing an operator on an empty stack or right after a `(` pops nothing. -/
theorem pushIgnore_operator_front (op : Str) (s : MathExpression V)
    (hop : hasOperatorMap op = true)
    (hst : s.m_RPstack = [] ∨ s.m_RPstack.head? = some ['(']) :
    pushIgnore op 's' s = .ok (withRP s s.m_reversePolish (op :: s.m_RPstack)) := by
  have hfp : firstParenthesis s.m_RPstack = 0 := by
    rcases hst with h | h
    · rw [h]; rfl
    · rcases hs : s.m_RPstack with _ | ⟨x, r⟩
      · rfl
      · rw [hs] at h
        simp only [List.head?_cons, Option.some.injEq] at h
        simp [firstParenthesis, h]
  have hg : ∃ o, getOperator op = some o := by
    simp only [getOperator, hop, if_true]
    simp only [hasOperatorMap, Option.isSome_iff_exists] at hop
    exact hop
  obtain ⟨o, ho⟩ := hg
  simp [pushIgnore, pushToReversePolish, hop, ho, hfp, pushOperatorLoop, flushIfLast, withRP,
    insertAt]

end Pushes
/-! ### Sign folding -/

section SignFolding

theorem quietHead_reverse_operand (t : Str) (rpre : List Char) (h : isOperand t = true) :
    quietHead (t.reverse ++ rpre) := by
  have hne := isOperand_ne_nil t h
  obtain ⟨t0, l, rfl⟩ : ∃ t0 l, t = t0 ++ [l] := by
    rcases List.eq_nil_or_concat t with h1 | ⟨t0, l, h1⟩
    · exact absurd h1 hne
    · exact ⟨t0, l, by simpa using h1⟩
  simp only [List.reverse_append, List.reverse_cons, List.reverse_nil, List.nil_append,
    List.singleton_append, List.cons_append, quietHead_cons]
  exact isOperand_quiet _ h l (by simp)

theorem signAfterParenthesis_operand (p1 : Char) (t : Str) (rpre : List Char)
    (h : isOperand t = true) : signAfterParenthesis (p1 :: (t.reverse ++ rpre)) = false := by
  have hne := isOperand_ne_nil t h
  obtain ⟨t0, l, rfl⟩ : ∃ t0 l, t = t0 ++ [l] := by
    rcases List.eq_nil_or_concat t with h1 | ⟨t0, l, h1⟩
    · exact absurd h1 hne
    · exact ⟨t0, l, by simpa using h1⟩
  have hl := isOperand_not_special _ h l (by simp)
  have : l ≠ '(' := by rintro rfl; revert hl; decide
  simp [signAfterParenthesis, this]

/-- A trip of the pre-pass after a sign, on a character that is not a sign, only advances. -/
theorem prepassSplit_after_sign (fuel : Nat) (z c : Char) (rp rest : List Char)
    (hz : z = '+' ∨ z = '-') (hc : c ≠ '+' ∧ c ≠ '-') :
    prepassSplit (fuel + 1) (z :: rp) (c :: rest) = prepassSplit fuel (c :: z :: rp) rest := by
  rcases hz with rfl | rfl <;> simp [prepassSplit, prepassTrigger, hc.1, hc.2]

/-- The pre-pass folds a pair of signs between two operands into one sign. -/
theorem prepassSplit_sign_pair (a b : Str) (x y : Char) (ha : isOperand a = true)
    (hb : isOperand b = true) (hx : x = '+' ∨ x = '-') (hy : y = '+' ∨ y = '-')
    (fuel : Nat) (hfuel : a.length + b.length + 2 ≤ fuel) :
    prepassSplit fuel [] (a ++ x :: y :: b)
      = .ok (a ++ (if x = y then '+' else '-') :: b) := by
  apply prepassSplit_mono ((b.length + 2) + a.length) _ _ _ _ fuel (by omega)
  rw [prepassSplit_run a _ [] _ quietHead_nil (isOperand_quiet a ha)]
  rw [prepassSplit_step _ _ _ _ (quietHead_reverse_operand a [] ha)]
  rcases b with _ | ⟨b0, b1⟩
  · exact absurd rfl (isOperand_ne_nil [] hb)
  · have hb0 := isOperand_not_special _ hb b0 (by simp)
    have hb0ne : b0 ≠ '+' ∧ b0 ≠ '-' := by
      refine ⟨?_, ?_⟩ <;> (rintro rfl; revert hb0; decide)
    have hfold : prepassSplit (b1.length + 1 + 1) (x :: (a.reverse ++ [])) (y :: b0 :: b1)
        = prepassSplit (b1.length + 1) ((if x = y then '+' else '-') :: (a.reverse ++ []))
            (b0 :: b1) := by
      rcases hx with rfl | rfl <;> rcases hy with rfl | rfl <;> simp [prepassSplit]
    have hz : (if x = y then '+' else '-') = '+' ∨ (if x = y then '+' else '-') = '-' := by
      split_ifs <;> simp
    simp only [List.length_cons]
    rw [hfold, prepassSplit_after_sign _ _ _ _ _ hz hb0ne]
    have hrun := prepassSplit_run b1 0 (b0 :: (if x = y then '+' else '-') :: (a.reverse ++ []))
        [] ((quietHead_cons _ _).2 (isOperand_quiet _ hb b0 (by simp)))
        (fun ch hch => isOperand_quiet _ hb ch (by simp [hch]))
    simp only [Nat.zero_add, List.append_nil] at hrun ⊢
    rw [hrun]
    simp [prepassSplit]

end SignFolding
section SignFolding2

variable {V : Type}

/-- The front end on a fresh object, in terms of the split pre-pass, the lexer and the
pushes. -/
theorem expressionToReversePolish_fresh (fuel : Nat) (text e : Str)
    (evs : List (Str × Char)) (p : Pending) (rp : Str)
    (hclean : ∀ c ∈ text, c ≠ ' ' ∧ c ≠ '\t')
    (hpre : prepassSplit fuel [] text = .ok e)
    (hlex : lexAll [] e .idle = some (evs, p))
    (hpush : ∀ s0 : MathExpression V, s0.m_reversePolish = [] → s0.m_RPstack = [] →
      applyPushes (evs ++ p.lastPushes) s0 = .ok (withRP s0 rp [])) :
    expressionToReversePolish fuel (setExpression text (MathExpression.new V)) =
      .ok (true, withRP { MathExpression.new V with m_expression := e } rp []) := by
  have h1 : (setExpression text (MathExpression.new V)).m_expression = text := by
    simp only [setExpression]
    exact filter_operand text hclean
  have h2 := prepassLoop_split fuel [] text
  simp only [List.reverse_nil, List.nil_append, List.length_nil] at h2
  rw [expressionToReversePolish_lex, h1, h2, hpre]
  simp only [hlex]
  rw [hpush _ rfl rfl]
  rfl

/-- Sign folding between two operands: the text and the RP text. -/
theorem sign_pair_rp (a b : Str) (x y : Char) (ha : isOperand a = true)
    (hb : isOperand b = true) (hx : x = '+' ∨ x = '-') (hy : y = '+' ∨ y = '-')
    (fuel : Nat) (hfuel : a.length + b.length + 2 ≤ fuel) :
    expressionToReversePolish fuel (setExpression (a ++ x :: y :: b) (MathExpression.new V)) =
      .ok (true, withRP
        { MathExpression.new V with m_expression := a ++ (if x = y then '+' else '-') :: b }
        (a ++ ' ' :: b ++ [' ', if x = y then '+' else '-']) []) := by
  have hz : (if x = y then '+' else '-') = '+' ∨ (if x = y then '+' else '-') = '-' := by
    split_ifs <;> simp
  have hpre := prepassSplit_sign_pair a b x y ha hb hx hy fuel hfuel
  generalize (if x = y then '+' else '-') = z at hz hpre ⊢
  have hzs : isSpecialCharacter z = true := by rcases hz with rfl | rfl <;> decide
  have hzd : z.isDigit = false := by rcases hz with rfl | rfl <;> decide
  have hzo : hasOperatorMap [z] = true := by rcases hz with rfl | rfl <;> decide
  have hane := isOperand_ne_nil a ha
  apply expressionToReversePolish_fresh fuel _ _ ((operandPending a).pushes ++ [([z], 's')])
    (operandPending b)
  · intro c hc
    simp only [List.mem_append, List.mem_cons] at hc
    rcases hc with hc | rfl | rfl | hc
    · exact (isOperandChar_facts c (isOperand_chars a ha c hc)).2
    · rcases hx with rfl | rfl <;> decide
    · rcases hy with rfl | rfl <;> decide
    · exact (isOperandChar_facts c (isOperand_chars b hb c hc)).2
  · exact hpre
  · rw [lexAll_append, lexAll_operand_start a ha]
    simp only [List.append_nil]
    have hst := lexStep_special_after_operand a [] z ha hzs
    simp only [List.append_nil] at hst
    rw [lexAll_cons, hst]
    simp only []
    rw [lexAll_operand_after b z a.reverse [z] hb hzd
      (by simpa using signAfterParenthesis_operand z a [] ha)]
    simp
  · intro s0 h1 h2
    rw [List.append_assoc, applyPushes_operand a ha, h1, h2, appendRP_nil]
    simp only [List.singleton_append, applyPushes]
    rw [pushIgnore_operator_front [z] _ hzo (Or.inl rfl)]
    simp only [withRP_withRP, withRP_reversePolish, withRP_RPstack, List.append_eq,
      List.nil_append]
    rw [applyPushes_operand_last b hb]
    simp [appendRP_ne_nil, hane]

end SignFolding2
/-! ### Chains of `^` -/

section PowerChain

variable {V : Type}

theorem operand_head_ne (c : Char) (rest : List Char) (h : isOperand (c :: rest) = true) :
    c ≠ '(' ∧ c ≠ '+' ∧ c ≠ '-' ∧ c ≠ '^' ∧ c ≠ ')' := by
  have hc := isOperand_not_special _ h c (by simp)
  refine ⟨?_, ?_, ?_, ?_, ?_⟩ <;> (rintro rfl; revert hc; decide)

/-- The pre-pass on `a^b^c`: one pair of parentheses, from the second operand to the end. -/
theorem prepassSplit_chain3 (a b c : Str) (ha : isOperand a = true) (hb : isOperand b = true)
    (hc : isOperand c = true) (fuel : Nat) (hfuel : a.length + 2 ≤ fuel) :
    prepassSplit fuel [] (a ++ '^' :: (b ++ '^' :: c))
      = .ok (a ++ '^' :: '(' :: (b ++ '^' :: (c ++ [')']))) := by
  apply prepassSplit_mono ((0 + 1 + 1) + a.length) _ _ _ _ fuel (by omega)
  rw [prepassSplit_run a _ [] _ quietHead_nil (isOperand_quiet a ha)]
  rw [prepassSplit_step _ _ _ _ (quietHead_reverse_operand a [] ha)]
  rcases b with _ | ⟨b0, b1⟩
  · exact absurd rfl (isOperand_ne_nil [] hb)
  · obtain ⟨h1, h2, h3, h4, h5⟩ := operand_head_ne b0 b1 hb
    have hk : closeIndex true b0 (b1 ++ '^' :: c) = (b1 ++ '^' :: c).length := by
      rw [closeIndex_run b1 true b0 _ (fun ch hch => isOperand_not_special _ hb ch (by simp [hch]))]
      have hs : isSpecialCharacter '^' = true := by decide
      simp only [closeIndex, hs, if_true, Bool.true_and, beq_self_eq_true]
      have := closeIndex_run c true '^' [] (isOperand_not_special c hc)
      simp only [List.append_nil, closeIndex] at this
      rw [this]
      simp
    simp [prepassSplit, prepassTrigger, h1, hk]

/-- The pre-pass on `a^(b^c)`: one more pair of parentheses, around the last operand. -/
theorem prepassSplit_chain3_grouped (a b c : Str) (ha : isOperand a = true)
    (hb : isOperand b = true) (hc : isOperand c = true) (fuel : Nat)
    (hfuel : a.length + b.length + c.length + 6 ≤ fuel) :
    prepassSplit fuel [] (a ++ '^' :: '(' :: (b ++ '^' :: (c ++ [')'])))
      = .ok (a ++ '^' :: '(' :: (b ++ '^' :: '(' :: (c ++ [')', ')']))) := by
  apply prepassSplit_mono
    ((((((0 + 1 + 1) + c.length) + 1 + 1) + b.length) + 1 + 1) + a.length) _ _ _ _ fuel
    (by omega)
  rw [prepassSplit_run a _ [] _ quietHead_nil (isOperand_quiet a ha)]
  rw [prepassSplit_step _ _ _ _ (quietHead_reverse_operand a [] ha)]
  have hopen : ∀ (f : Nat) (rp rest : List Char),
      prepassSplit (f + 1) ('^' :: rp) ('(' :: rest) = prepassSplit f ('(' :: '^' :: rp) rest := by
    intro f rp rest
    simp [prepassSplit, prepassTrigger]
  rw [hopen]
  rw [prepassSplit_run b _ _ _ ((quietHead_cons _ _).2 (by decide)) (isOperand_quiet b hb)]
  rw [prepassSplit_step _ _ _ _ (quietHead_reverse_operand b _ hb)]
  rcases c with _ | ⟨c0, c1⟩
  · exact absurd rfl (isOperand_ne_nil [] hc)
  · obtain ⟨h1, h2, h3, h4, h5⟩ := operand_head_ne c0 c1 hc
    have hk : closeIndex true c0 (c1 ++ [')']) = c1.length := by
      rw [closeIndex_run c1 true c0 _ (fun ch hch => isOperand_not_special _ hc ch (by simp [hch]))]
      have hs : isSpecialCharacter ')' = true := by decide
      simp [closeIndex, hs]
    have hins : insertAt (c1 ++ [')']) c1.length ')' = c1 ++ [')', ')'] := by
      have := insertAt_append_cons c1 [')'] ')'
      simpa using this
    have htrig : ∀ (f : Nat) (rp : List Char),
        prepassSplit (f + 1) ('^' :: rp) (c0 :: (c1 ++ [')']))
          = prepassSplit f ('(' :: '^' :: rp) (c0 :: (c1 ++ [')', ')'])) := by
      intro f rp
      simp [prepassSplit, prepassTrigger, h1, hk, hins]
    simp only [List.cons_append]
    rw [htrig]
    have hrun := prepassSplit_run (c0 :: c1) (0 + 1 + 1)
      ('(' :: '^' :: (b.reverse ++ '(' :: '^' :: (a.reverse ++ []))) [')', ')']
      ((quietHead_cons _ _).2 (by decide)) (isOperand_quiet _ hc)
    simp only [List.cons_append] at hrun
    rw [hrun]
    rw [prepassSplit_step _ _ _ _ (quietHead_reverse_operand _ _ hc)]
    rw [prepassSplit_step _ _ _ _ ((quietHead_cons _ _).2 (by decide))]
    simp [prepassSplit]

end PowerChain
section PowerChain2

variable {V : Type}

theorem signBetweenParentheses_of_not_sign (c p1 : Char) (rp : List Char)
    (h : p1 ≠ '+' ∧ p1 ≠ '-') : signBetweenParentheses c (p1 :: rp) = false := by
  rcases rp with _ | ⟨p2, rp⟩
  · rfl
  · simp [signBetweenParentheses, h.1, h.2]

theorem signAfterParenthesis_of_not_sign (p1 : Char) (rp : List Char)
    (h : p1 ≠ '+' ∧ p1 ≠ '-') : signAfterParenthesis (p1 :: rp) = false := by
  rcases rp with _ | ⟨p2, rp⟩
  · rfl
  · simp [signAfterParenthesis, h.1, h.2]

/-- A special character after a special character: the earlier one is pushed. -/
theorem lexStep_special_after_special (c p1 : Char) (rp : List Char) (sp : Str)
    (hc : isSpecialCharacter c = true)
    (hn : (p1 == '(' && (c == '+' || c == '-')) = false)
    (hz : signBetweenParentheses c (p1 :: rp) = false) :
    lexStep (p1 :: rp) c (.special sp) = some ([(sp, 's')], .special [c]) := by
  have hca : c.isAlpha = false := not_isAlpha_of_special c hc
  have hcd : c.isDigit = false := not_isDigit_of_special c hc
  have hcdot : (c == '.') = false := by
    have : c ≠ '.' := by rintro rfl; revert hc; decide
    simpa using this
  have hn2 : ((p1 == '(' && c == '+') || (p1 == '(' && c == '-')) = false := by
    cases h1 : (p1 == '(') <;> simp_all
  simp [lexStep, hca, hcd, hcdot, hc, hz, hn2, Pending.isNumber, Pending.pushes]

/-- The loop of the `)` case of `pushToReversePolish`: the entries in front of the nearest `(`
go to the RP text in order. -/
theorem popToParenthesis_spec (ops : List Str) (rest : List Str) (rp : Str) (fuel : Nat)
    (hops : ∀ x ∈ ops, x ≠ ['(']) (hfuel : ops.length + 1 ≤ fuel) :
    popToParenthesis fuel (ops ++ ['('] :: rest) rp =
      .ok (true, ['('] :: rest, ops.foldl (fun rp x => appendToReversePolishString x rp) rp) := by
  induction ops generalizing rp fuel with
  | nil =>
    obtain ⟨f, rfl⟩ : ∃ f, fuel = f + 1 := ⟨fuel - 1, by simp at hfuel; omega⟩
    simp [popToParenthesis]
  | cons x ops ih =>
    obtain ⟨f, rfl⟩ : ∃ f, fuel = f + 1 := ⟨fuel - 1, by simp at hfuel; omega⟩
    have hx : x ≠ ['('] := hops x (by simp)
    have hx2 : (x != ['(']) = true := by simpa using hx
    simp only [List.cons_append, popToParenthesis, List.getElem?_cons_zero, hx2, if_true,
      List.length_cons, gt_iff_lt, Nat.zero_lt_succ, eraseAt, List.take_zero, List.nil_append,
      List.drop_succ_cons, List.drop_zero, List.foldl_cons]
    exact ih _ f (fun y hy => hops y (by simp [hy])) (by simp at hfuel; omega)

/-- Pushing `)` inside the loop: the entries in front of the nearest `(` go to the RP text and
the `(` is discarded. -/
theorem pushIgnore_close (ops rest : List Str) (s : MathExpression V)
    (hst : s.m_RPstack = ops ++ ['('] :: rest) (hops : ∀ x ∈ ops, x ≠ ['(']) :
    pushIgnore [')'] 's' s =
      .ok (withRP s (ops.foldl (fun rp x => appendToReversePolishString x rp) s.m_reversePolish)
        rest) := by
  have h : hasOperatorMap [')'] = false := by decide
  have hp := popToParenthesis_spec ops rest s.m_reversePolish (s.m_RPstack.length + 1) hops
    (by rw [hst]; simp)
  rw [← hst] at hp
  simp [pushIgnore, pushToReversePolish, h, hp, flushIfLast, withRP, eraseAt]

/-- Pushing `)` as the last entry: as inside the loop, and then the rest of the stack goes to
the RP text. -/
theorem pushIgnore_close_last (ops rest : List Str) (s : MathExpression V)
    (hst : s.m_RPstack = ops ++ ['('] :: rest) (hops : ∀ x ∈ ops, x ≠ ['(']) :
    pushIgnore [')'] 'S' s =
      .ok (withRP s ((ops ++ rest).foldl (fun rp x => appendToReversePolishString x rp)
        s.m_reversePolish) []) := by
  have h : hasOperatorMap [')'] = false := by decide
  have hp := popToParenthesis_spec ops rest s.m_reversePolish (s.m_RPstack.length + 1) hops
    (by rw [hst]; simp)
  rw [← hst] at hp
  simp [pushIgnore, pushToReversePolish, h, hp, flushIfLast, withRP, eraseAt]

end PowerChain2
section PowerChain3

variable {V : Type}

theorem hat_facts : isSpecialCharacter '^' = true ∧ '^'.isDigit = false
    ∧ hasOperatorMap ['^'] = true ∧ isSpecialCharacter '(' = true
    ∧ isSpecialCharacter ')' = true ∧ '('.isDigit = false := by decide

/-- Pushing an operator on an empty stack or right after a `(`, on an object given by its RP
text and stack. -/
theorem pushIgnore_operator_onto (op : Str) (s : MathExpression V) (rp : Str) (stk : List Str)
    (hop : hasOperatorMap op = true) (hst : stk = [] ∨ stk.head? = some ['(']) :
    pushIgnore op 's' (withRP s rp stk) = .ok (withRP s rp (op :: stk)) := by
  simpa using pushIgnore_operator_front op (withRP s rp stk) hop hst

/-- The lexer on `a^(b^c)`. -/
theorem lexAll_chain3 (a b c : Str) (ha : isOperand a = true) (hb : isOperand b = true)
    (hc : isOperand c = true) :
    lexAll [] (a ++ '^' :: '(' :: (b ++ '^' :: (c ++ [')']))) .idle =
      some ((operandPending a).pushes ++ (['^'], 's') :: (['('], 's')
        :: ((operandPending b).pushes ++ (['^'], 's') :: (operandPending c).pushes),
        .special [')']) := by
  obtain ⟨h1, h2, h3, h4, h5, h6⟩ := hat_facts
  rw [lexAll_append, lexAll_operand_start a ha]
  simp only [List.append_nil]
  have hst := lexStep_special_after_operand a [] '^' ha h1
  simp only [List.append_nil] at hst
  rw [lexAll_cons, hst]
  simp only []
  rw [lexAll_cons, lexStep_special_after_special '(' '^' _ _ h4 (by decide)
    (signBetweenParentheses_of_not_sign _ _ _ (by decide))]
  simp only []
  rw [lexAll_append, lexAll_operand_after b '(' _ _ hb h6 (by simp [signAfterParenthesis])]
  simp only []
  rw [lexAll_cons, lexStep_special_after_operand b _ '^' hb h1]
  simp only []
  rw [lexAll_append, lexAll_operand_after c '^' _ _ hc h2
    (signAfterParenthesis_of_not_sign _ _ (by decide))]
  simp only []
  rw [lexAll_cons, lexStep_special_after_operand c _ ')' hc h5]
  simp [lexAll]

/-- The lexer on `a^(b^(c))`. -/
theorem lexAll_chain3_grouped (a b c : Str) (ha : isOperand a = true) (hb : isOperand b = true)
    (hc : isOperand c = true) :
    lexAll [] (a ++ '^' :: '(' :: (b ++ '^' :: '(' :: (c ++ [')', ')']))) .idle =
      some ((operandPending a).pushes ++ (['^'], 's') :: (['('], 's')
        :: ((operandPending b).pushes ++ (['^'], 's') :: (['('], 's')
          :: ((operandPending c).pushes ++ [([')'], 's')])),
        .special [')']) := by
  obtain ⟨h1, h2, h3, h4, h5, h6⟩ := hat_facts
  rw [lexAll_append, lexAll_operand_start a ha]
  simp only [List.append_nil]
  have hst := lexStep_special_after_operand a [] '^' ha h1
  simp only [List.append_nil] at hst
  rw [lexAll_cons, hst]
  simp only []
  rw [lexAll_cons, lexStep_special_after_special '(' '^' _ _ h4 (by decide)
    (signBetweenParentheses_of_not_sign _ _ _ (by decide))]
  simp only []
  rw [lexAll_append, lexAll_operand_after b '(' _ _ hb h6 (by simp [signAfterParenthesis])]
  simp only []
  rw [lexAll_cons, lexStep_special_after_operand b _ '^' hb h1]
  simp only []
  rw [lexAll_cons, lexStep_special_after_special '(' '^' _ _ h4 (by decide)
    (signBetweenParentheses_of_not_sign _ _ _ (by decide))]
  simp only []
  rw [lexAll_append, lexAll_operand_after c '(' _ _ hc h6 (by simp [signAfterParenthesis])]
  simp only []
  rw [lexAll_cons, lexStep_special_after_operand c _ ')' hc h5]
  simp only []
  rw [lexAll_cons, lexStep_special_after_special ')' ')' _ _ h5 (by decide)
    (signBetweenParentheses_of_not_sign _ _ _ (by decide))]
  simp [lexAll]

theorem operand_clean (t : Str) (h : isOperand t = true) : ∀ c ∈ t, c ≠ ' ' ∧ c ≠ '\t' :=
  fun c hc => (isOperandChar_facts c (isOperand_chars t h c hc)).2

/-- The RP text of `a^b^c`. -/
theorem chain3_rp (a b c : Str) (ha : isOperand a = true) (hb : isOperand b = true)
    (hc : isOperand c = true) (fuel : Nat) (hfuel : a.length + 2 ≤ fuel) :
    expressionToReversePolish fuel
        (setExpression (a ++ '^' :: (b ++ '^' :: c)) (MathExpression.new V)) =
      .ok (true, withRP
        { MathExpression.new V with
          m_expression := a ++ '^' :: '(' :: (b ++ '^' :: (c ++ [')'])) }
        (a ++ ' ' :: (b ++ ' ' :: (c ++ [' ', '^', ' ', '^']))) []) := by
  obtain ⟨h1, h2, h3, h4, h5, h6⟩ := hat_facts
  have hane := isOperand_ne_nil a ha
  apply expressionToReversePolish_fresh fuel _ _ _ _ _ ?_
    (prepassSplit_chain3 a b c ha hb hc fuel hfuel) (lexAll_chain3 a b c ha hb hc)
  · intro s0 hr hs
    simp only [List.append_assoc, List.cons_append]
    rw [applyPushes_operand a ha, hr, hs, appendRP_nil]
    simp only [applyPushes]
    rw [pushIgnore_operator_onto ['^'] _ _ _ h3 (Or.inl rfl)]
    simp only [withRP_withRP, withRP_reversePolish, withRP_RPstack, pushIgnore_open]
    rw [applyPushes_operand b hb]
    simp only [applyPushes, withRP_withRP, withRP_reversePolish, withRP_RPstack]
    rw [pushIgnore_operator_onto ['^'] _ _ [['('], ['^']] h3 (Or.inr rfl)]
    simp only [withRP_withRP, withRP_reversePolish, withRP_RPstack]
    rw [applyPushes_operand c hc]
    simp only [Pending.lastPushes, applyPushes, withRP_withRP, withRP_reversePolish,
      withRP_RPstack]
    rw [pushIgnore_close_last [['^']] [['^']] _ rfl (by decide)]
    simp [appendRP_ne_nil, hane]
  · intro x hx
    simp only [List.mem_append, List.mem_cons] at hx
    rcases hx with hx | rfl | hx | rfl | hx
    · exact operand_clean a ha x hx
    · decide
    · exact operand_clean b hb x hx
    · decide
    · exact operand_clean c hc x hx

/-- The RP text of `a^(b^c)`. -/
theorem chain3_grouped_rp (a b c : Str) (ha : isOperand a = true) (hb : isOperand b = true)
    (hc : isOperand c = true) (fuel : Nat) (hfuel : a.length + b.length + c.length + 6 ≤ fuel) :
    expressionToReversePolish fuel
        (setExpression (a ++ '^' :: '(' :: (b ++ '^' :: (c ++ [')']))) (MathExpression.new V)) =
      .ok (true, withRP
        { MathExpression.new V with
          m_expression := a ++ '^' :: '(' :: (b ++ '^' :: '(' :: (c ++ [')', ')'])) }
        (a ++ ' ' :: (b ++ ' ' :: (c ++ [' ', '^', ' ', '^']))) []) := by
  obtain ⟨h1, h2, h3, h4, h5, h6⟩ := hat_facts
  have hane := isOperand_ne_nil a ha
  apply expressionToReversePolish_fresh fuel _ _ _ _ _ ?_
    (prepassSplit_chain3_grouped a b c ha hb hc fuel hfuel)
    (lexAll_chain3_grouped a b c ha hb hc)
  · intro s0 hr hs
    simp only [List.append_assoc, List.cons_append]
    rw [applyPushes_operand a ha, hr, hs, appendRP_nil]
    simp only [applyPushes]
    rw [pushIgnore_operator_onto ['^'] _ _ _ h3 (Or.inl rfl)]
    simp only [withRP_withRP, withRP_reversePolish, withRP_RPstack, pushIgnore_open]
    rw [applyPushes_operand b hb]
    simp only [applyPushes, withRP_withRP, withRP_reversePolish, withRP_RPstack]
    rw [pushIgnore_operator_onto ['^'] _ _ [['('], ['^']] h3 (Or.inr rfl)]
    simp only [withRP_withRP, withRP_reversePolish, withRP_RPstack, pushIgnore_open]
    rw [applyPushes_operand c hc]
    simp only [List.singleton_append, List.nil_append, applyPushes, withRP_withRP,
      withRP_reversePolish, withRP_RPstack]
    rw [pushIgnore_close [] [['^'], ['('], ['^']] _ rfl (by simp)]
    simp only [Pending.lastPushes, applyPushes, withRP_withRP, withRP_reversePolish,
      withRP_RPstack, List.foldl_nil]
    rw [pushIgnore_close_last [['^']] [['^']] _ rfl (by decide)]
    simp [appendRP_ne_nil, hane]
  · intro x hx
    simp only [List.mem_append, List.mem_cons] at hx
    rcases hx with hx | rfl | rfl | hx | rfl | hx | hx
    · exact operand_clean a ha x hx
    · decide
    · decide
    · exact operand_clean b hb x hx
    · decide
    · exact operand_clean c hc x hx
    · simp only [List.mem_nil_iff, or_false] at hx
      subst hx; decide

end PowerChain3
/-! ### The argument map and the generators -/

section Sem

variable {V : Type} (A : Arith V)

theorem lookup_isSome_iff_mem_keys (m : List (Str × Argument V)) (k : Str) :
    (m.lookup k).isSome = true ↔ k ∈ mapKeys m := by
  rw [lookup_isSome_eq_any]
  simp only [List.any_eq_true, beq_iff_eq, mapKeys, List.mem_map]
  constructor
  · rintro ⟨x, hx, rfl⟩; exact ⟨x, hx, rfl⟩
  · rintro ⟨x, hx, rfl⟩; exact ⟨x, hx, rfl⟩

theorem mapKeys_mapSetDouble (m : List (Str × Argument V)) (k : Str) (v : V) :
    mapKeys (mapSetDouble m k v) = mapKeys m := by
  simp [mapKeys, mapSetDouble, List.map_map, Function.comp_def]

theorem lookup_mapSetDouble_ne (m : List (Str × Argument V)) (k k2 : Str) (v : V)
    (h : k2 ≠ k) : (mapSetDouble m k v).lookup k2 = m.lookup k2 := by
  induction m with
  | nil => rfl
  | cons x m ih =>
    obtain ⟨a, b⟩ := x
    simp only [mapSetDouble, List.map_cons, List.lookup] at ih ⊢
    cases hka : (k2 == a) with
    | true =>
      have h1 : k2 = a := by simpa using hka
      have h2 : (a == k) = false := by rw [← h1]; simpa using h
      simp [h2]
    | false => exact ih

theorem lookup_mapSetDouble_self (m : List (Str × Argument V)) (k : Str) (v : V) :
    (mapSetDouble m k v).lookup k = (m.lookup k).map (fun a => { a with m_dvalue := v }) := by
  induction m with
  | nil => rfl
  | cons x m ih =>
    obtain ⟨a, b⟩ := x
    simp only [mapSetDouble, List.map_cons, List.lookup] at ih ⊢
    cases hka : (k == a) with
    | true =>
      have h1 : k = a := by simpa using hka
      simp [h1]
    | false => exact ih

theorem derefDouble_mapSetDouble_ne (m : List (Str × Argument V)) (k : Str) (v : V)
    (p : ArgPtr) (h : p ≠ .argument k) :
    derefDouble A (mapSetDouble m k v) (some p) = derefDouble A m (some p) := by
  cases p with
  | constant c => rfl
  | argument k2 =>
    have : k2 ≠ k := fun h2 => h (by rw [h2])
    simp only [derefDouble, lookup_mapSetDouble_ne m k k2 v this]

theorem derefDouble_mapSetDouble_self (m : List (Str × Argument V)) (k : Str) (v : V)
    (h : (m.lookup k).isSome = true) :
    derefDouble A (mapSetDouble m k v) (some (.argument k)) = .ok v := by
  simp only [derefDouble, lookup_mapSetDouble_self]
  cases hl : m.lookup k with
  | none => simp [hl] at h
  | some a => rfl

theorem runGenerators_append (G : List Generator) (g : Generator) (d : V)
    (m : List (Str × Argument V)) :
    runGenerators A (G ++ [g]) d m =
      match runGenerators A G d m with
      | .error e => .error e
      | .ok (_, m1) => generateDoubleValue A g m1 := by
  induction G generalizing d m with
  | nil =>
    simp only [List.nil_append, runGenerators]
    cases generateDoubleValue A g m with
    | error e => rfl
    | ok r => rfl
  | cons g0 G ih =>
    simp only [List.cons_append, runGenerators]
    cases generateDoubleValue A g0 m with
    | error e => rfl
    | ok r => exact ih r.1 r.2

theorem symTable_append (G : List Generator) (g : Generator) :
    symTable (G ++ [g]) = symTable G ++ [(g.m_name, genTree (symTable G) g)] := by
  simp [symTable, List.foldl_append]

theorem symTable_keys (G : List Generator) :
    (symTable G).map Prod.fst = G.map (fun g => g.m_name) := by
  induction G using List.reverseRecOn with
  | nil => rfl
  | append_singleton G g ih => simp [symTable_append, ih]

theorem lookup_append_ne {β : Type} (l : List (Str × β)) (k n : Str) (b : β) (h : k ≠ n) :
    (l ++ [(n, b)]).lookup k = l.lookup k := by
  induction l with
  | nil =>
    have : (k == n) = false := by simpa using h
    simp [List.lookup, this]
  | cons x l ih =>
    obtain ⟨a, c⟩ := x
    simp only [List.cons_append, List.lookup]
    cases (k == a) with
    | true => rfl
    | false => exact ih

theorem lookup_append_new {β : Type} (l : List (Str × β)) (n : Str) (b : β)
    (h : n ∉ l.map Prod.fst) : (l ++ [(n, b)]).lookup n = some b := by
  induction l with
  | nil => simp [List.lookup]
  | cons x l ih =>
    obtain ⟨a, c⟩ := x
    simp only [List.map_cons, List.mem_cons, not_or] at h
    have : (n == a) = false := by simpa using h.1
    simp only [List.cons_append, List.lookup, this]
    exact ih h.2

/-- The names of the generators of a built list are among the keys, and so are the keys the
generators point to. -/
theorem Built.names_subset {keys : List Str} {G : List Generator} (h : Built A keys G) :
    ∀ g ∈ G, g.m_name ∈ keys := by
  induction h with
  | base keys => simp
  | gen g _ _ _ ih =>
    intro g2 hg2
    simp only [List.mem_append, List.mem_singleton] at hg2 ⊢
    rcases hg2 with hg2 | rfl
    · exact Or.inl (ih g2 hg2)
    · exact Or.inr rfl

theorem PtrOK.mono_keys {keys keys2 : List Str} (p : ArgPtr) (h : PtrOK A keys p)
    (hsub : ∀ k ∈ keys, k ∈ keys2) : PtrOK A keys2 p := by
  cases p with
  | constant k => exact h
  | argument k => exact hsub k h

end Sem

section Run

variable {V : Type} (A : Arith V)

theorem derefDouble_ok_of_PtrOK (keys : List Str) (m : List (Str × Argument V)) (p : ArgPtr)
    (hp : PtrOK A keys p) (hsub : ∀ k ∈ keys, k ∈ mapKeys m) :
    ∃ x, derefDouble A m (some p) = .ok x := by
  cases p with
  | constant k =>
    simp only [PtrOK, hasConstantMap, Option.isSome_iff_exists] at hp
    obtain ⟨a, ha⟩ := hp
    exact ⟨a.m_dvalue, by simp [derefDouble, ha]⟩
  | argument k =>
    have := (lookup_isSome_iff_mem_keys m k).2 (hsub k hp)
    rw [Option.isSome_iff_exists] at this
    obtain ⟨a, ha⟩ := this
    exact ⟨a.m_dvalue, by simp [derefDouble, ha]⟩

theorem symOf_append_ne (Γ : List (Str × Expr)) (n : Str) (t : Expr) (p : ArgPtr)
    (h : p ≠ .argument n) : symOf (Γ ++ [(n, t)]) p = symOf Γ p := by
  cases p with
  | constant k => rfl
  | argument k =>
    have : k ≠ n := fun h2 => h (by rw [h2])
    simp only [symOf, lookup_append_ne Γ k n t this]

theorem symOf_append_self (Γ : List (Str × Expr)) (n : Str) (t : Expr)
    (h : n ∉ Γ.map Prod.fst) : symOf (Γ ++ [(n, t)]) (.argument n) = t := by
  simp only [symOf, lookup_append_new Γ n t h]

/-- Running a built generator list on any content of the argument map that has its keys: the
run succeeds, keeps the keys, changes only the bindings the generators write, and leaves behind
every pointer the value of its expression on the initial content. -/
theorem run_spec {keys : List Str} {G : List Generator} (hB : Built A keys G)
    (m0 : List (Str × Argument V)) (hsub : ∀ k ∈ keys, k ∈ mapKeys m0) (d : V) :
    ∃ v m1, runGenerators A G d m0 = .ok (v, m1) ∧ mapKeys m1 = mapKeys m0
      ∧ (∀ p, PtrOK A keys p →
          derefDouble A m1 (some p) = (symOf (symTable G) p).eval A m0)
      ∧ (∀ k, k ∉ G.map (fun g => g.m_name) → m1.lookup k = m0.lookup k)
      ∧ (G = [] → v = d)
      ∧ (∀ G0 g, G = G0 ++ [g] → (genTree (symTable G0) g).eval A m0 = .ok v) := by
  induction hB generalizing d with
  | base keys =>
    refine ⟨d, m0, rfl, rfl, ?_, fun _ _ => rfl, fun _ => rfl, ?_⟩
    · intro p _
      cases p <;> rfl
    · intro G0 g h
      exact absurd h (by simp)
  | @gen keys G g hB hwf hn ih =>
    have hsub0 : ∀ k ∈ keys, k ∈ mapKeys m0 := fun k hk => hsub k (by simp [hk])
    obtain ⟨v1, m1, hrun, hkeys, hptr, hframe, _, _⟩ := ih hsub0 d
    have hsub1 : ∀ k ∈ keys, k ∈ mapKeys m1 := fun k hk => by rw [hkeys]; exact hsub0 k hk
    have hnm : (m1.lookup g.m_name).isSome = true := by
      rw [lookup_isSome_iff_mem_keys, hkeys]
      exact hsub _ (by simp)
    have hnΓ : g.m_name ∉ (symTable G).map Prod.fst := by
      rw [symTable_keys]
      intro hmem
      simp only [List.mem_map] at hmem
      obtain ⟨g2, hg2, hg2n⟩ := hmem
      exact hn (hg2n ▸ hB.names_subset A g2 hg2)
    -- the value of the new generator
    have hval : ∃ v, generateDoubleValue A g m1 = .ok (v, mapSetDouble m1 g.m_name v)
        ∧ (genTree (symTable G) g).eval A m0 = .ok v := by
      obtain ⟨hmy, h1 | h2⟩ := hwf
      · obtain ⟨hty, o, f, p, ho, hf, hp, hpok⟩ := h1
        obtain ⟨x, hx⟩ := derefDouble_ok_of_PtrOK A keys m1 p hpok hsub1
        have hx2 := hptr p hpok
        rw [hx] at hx2
        refine ⟨A.callDD f x, ?_, ?_⟩
        · simp [generateDoubleValue, hty, ho, hf, hp, hx, hmy, hnm]
        · simp [genTree, hty, ho, hf, hp, Expr.eval, ← hx2]
      · obtain ⟨hty, o, f, p1, p2, ho, hf, hp1, hp2, hpok1, hpok2⟩ := h2
        obtain ⟨x, hx⟩ := derefDouble_ok_of_PtrOK A keys m1 p1 hpok1 hsub1
        obtain ⟨y, hy⟩ := derefDouble_ok_of_PtrOK A keys m1 p2 hpok2 hsub1
        have hx2 := hptr p1 hpok1
        have hy2 := hptr p2 hpok2
        rw [hx] at hx2
        rw [hy] at hy2
        refine ⟨A.callDDD f x y, ?_, ?_⟩
        · simp [generateDoubleValue, hty, ho, hf, hp1, hp2, hx, hy, hmy, hnm]
        · simp [genTree, hty, ho, hf, hp1, hp2, Expr.eval, ← hx2, ← hy2]
    obtain ⟨v, hgen, hev⟩ := hval
    refine ⟨v, mapSetDouble m1 g.m_name v, ?_, ?_, ?_, ?_, ?_, ?_⟩
    · rw [runGenerators_append, hrun]
      exact hgen
    · rw [mapKeys_mapSetDouble, hkeys]
    · intro p hp
      rw [symTable_append]
      by_cases hpn : p = .argument g.m_name
      · subst hpn
        rw [symOf_append_self _ _ _ hnΓ, derefDouble_mapSetDouble_self A m1 _ v hnm, hev]
      · rw [symOf_append_ne _ _ _ _ hpn, derefDouble_mapSetDouble_ne A m1 _ v p hpn]
        apply hptr
        cases p with
        | constant k => exact hp
        | argument k =>
          simp only [PtrOK, List.mem_append, List.mem_singleton] at hp
          rcases hp with hp | hp
          · exact hp
          · exact absurd (by rw [hp]) hpn
    · intro k hk
      simp only [List.map_append, List.map_cons, List.map_nil, List.mem_append,
        List.mem_singleton, not_or] at hk
      rw [lookup_mapSetDouble_ne m1 _ k v hk.2]
      exact hframe k hk.1
    · intro h
      exact absurd h (by simp)
    · intro G0 g0 h
      obtain ⟨h1, h2⟩ := List.append_inj' h rfl
      simp only [List.cons.injEq, and_true] at h2
      subst h1; subst h2
      exact hev

end Run

/-! ### Synthesized names and the layout of the argument map -/

theorem toNat_ofNat_lt (n : Nat) (h : n < 256) : (Char.ofNat n).toNat = n := by
  have hv : n.isValidChar := Or.inl (by omega)
  simp only [Char.ofNat, hv, Char.ofNatAux, Char.toNat, dite_true]
  simp [UInt32.toNat, BitVec.toNat_ofNatLt]
theorem toChar_inj (a b : Nat) (ha : a < 256) (hb : b < 256)
    (h : toChar (65 + a) = toChar (65 + b)) : a = b := by
  have h1 := congrArg Char.toNat h
  simp only [toChar] at h1
  rw [toNat_ofNat_lt _ (Nat.mod_lt _ (by norm_num)),
    toNat_ofNat_lt _ (Nat.mod_lt _ (by norm_num))] at h1
  omega

theorem nameOf_inj (i j : Nat) (hi : i < nameCapacity) (hj : j < nameCapacity)
    (h : nameOf i = nameOf j) : i = j := by
  simp only [nameCapacity] at hi hj
  simp only [nameOf, List.cons.injEq, true_and, and_true] at h
  have h1 := toChar_inj (i / 26) (j / 26) (by omega) (by omega) h.1
  have h2 := toChar_inj (i % 26) (j % 26) (by omega) (by omega) h.2
  omega

theorem nameOf_capacity : nameOf nameCapacity = nameOf 0 := by decide

section Layout

variable {V : Type} (A : Arith V)

theorem charAt_nameOf (j : Nat) : charAt (nameOf j) 0 = '#' := rfl

theorem hasOperatorMap_nameOf (j : Nat) : hasOperatorMap (nameOf j) = false := by
  by_contra hc
  have := (hasOperatorMap_iff (nameOf j)).1 (by simpa using hc)
  simp [nameOf] at this

theorem hasConstantMap_of_head (t : Str) (h : hasConstantMap A t = true) :
    (charAt t 0).isAlpha = true := by
  simp only [hasConstantMap, lookup_isSome_eq_any, constantMap, List.any_cons, List.any_nil,
    Bool.or_false, Bool.or_eq_true, beq_iff_eq] at h
  rcases h with h | h | h | h | h | h <;> (subst h; decide)

theorem hasConstantMap_nameOf (j : Nat) : hasConstantMap A (nameOf j) = false := by
  by_contra hc
  have := hasConstantMap_of_head A (nameOf j) (by simpa using hc)
  revert this
  rw [charAt_nameOf]
  decide

theorem hasOperatorMap_head (t : Str) (h : hasOperatorMap t = true) :
    isSpecialCharacter (charAt t 0) = true ∨ (charAt t 0).isAlpha = true := by
  rcases (hasOperatorMap_iff t).1 h with h | h | h | h | h | h | h | h | h | h | h <;>
    (subst h; decide)

theorem hasConstantMap_not_operator (t : Str) (h : hasConstantMap A t = true) :
    hasOperatorMap t = false := by
  simp only [hasConstantMap, lookup_isSome_eq_any, constantMap, List.any_cons, List.any_nil,
    Bool.or_false, Bool.or_eq_true, beq_iff_eq] at h
  rcases h with h | h | h | h | h | h <;> (subst h; decide)

theorem getEntitySize_argument (s : MathExpression V) :
    getEntitySize s .Argument = s.m_argumentMap.countP counted % 65536 := rfl

theorem mem_mapKeys_iff (M : List (Str × Argument V)) (k : Str) :
    k ∈ mapKeys M ↔ ∃ kv ∈ M, kv.1 = k := List.mem_map

theorem mapKeys_append (M N : List (Str × Argument V)) :
    mapKeys (M ++ N) = mapKeys M ++ mapKeys N := List.map_append _ _ _

theorem MapInv.counted_key {M : List (Str × Argument V)} (h : MapInv A M)
    (kv : Str × Argument V) (hkv : kv ∈ M) (hc : counted kv = true) :
    ∃ j, j < M.countP counted ∧ kv.1 = nameOf j := by
  have h1 : kv.1 ∈ (M.filter counted).map Prod.fst :=
    List.mem_map.2 ⟨kv, List.mem_filter.2 ⟨hkv, hc⟩, rfl⟩
  rw [h.1] at h1
  obtain ⟨j, hj, hj2⟩ := List.mem_map.1 h1
  exact ⟨j, List.mem_range.1 hj, hj2.symm⟩

theorem MapInv.nameOf_mem {M : List (Str × Argument V)} (h : MapInv A M)
    (j : Nat) (hj : j < M.countP counted) : nameOf j ∈ mapKeys M := by
  have h1 : nameOf j ∈ (List.range (M.countP counted)).map nameOf :=
    List.mem_map.2 ⟨j, List.mem_range.2 hj, rfl⟩
  rw [← h.1] at h1
  obtain ⟨kv, hkv, hkv2⟩ := List.mem_map.1 h1
  exact (mem_mapKeys_iff M _).2 ⟨kv, (List.mem_filter.1 hkv).1, hkv2⟩

theorem MapInv.fresh_name {M : List (Str × Argument V)} (h : MapInv A M)
    (hc : M.countP counted < nameCapacity) : nameOf (M.countP counted) ∉ mapKeys M := by
  intro hmem
  obtain ⟨kv, hkv, hk⟩ := (mem_mapKeys_iff M _).1 hmem
  cases hcnt : counted kv with
  | true =>
    obtain ⟨j, hj, hj2⟩ := h.counted_key A kv hkv hcnt
    rw [hk] at hj2
    have := nameOf_inj _ _ hc (lt_trans hj hc) hj2
    omega
  | false =>
    have := (h.2.2 kv hkv hcnt).1
    rw [hk, charAt_nameOf] at this
    revert this
    decide

theorem mapInsert_of_not_mem (M : List (Str × Argument V)) (k : Str) (a : Argument V)
    (h : k ∉ mapKeys M) : mapInsert M k a = M ++ [(k, a)] := by
  have : (M.lookup k).isSome = false := by
    rw [Bool.eq_false_iff]
    intro hc
    exact h ((lookup_isSome_iff_mem_keys M k).1 hc)
  simp [mapInsert, this]

theorem mapInsert_of_mem (M : List (Str × Argument V)) (k : Str) (a : Argument V)
    (h : k ∈ mapKeys M) : mapInsert M k a = M := by
  have : (M.lookup k).isSome = true := (lookup_isSome_iff_mem_keys M k).2 h
  simp [mapInsert, this]

theorem mem_mapKeys_mapInsert (M : List (Str × Argument V)) (k : Str) (a : Argument V) :
    k ∈ mapKeys (mapInsert M k a) := by
  by_cases h : k ∈ mapKeys M
  · rw [mapInsert_of_mem M k a h]; exact h
  · rw [mapInsert_of_not_mem M k a h, mapKeys_append]
    exact List.mem_append.2 (Or.inr (List.mem_singleton.2 rfl))

theorem mapKeys_subset_mapInsert (M : List (Str × Argument V)) (k : Str) (a : Argument V)
    (t : Str) (ht : t ∈ mapKeys M) : t ∈ mapKeys (mapInsert M k a) := by
  by_cases h : k ∈ mapKeys M
  · rw [mapInsert_of_mem M k a h]; exact ht
  · rw [mapInsert_of_not_mem M k a h, mapKeys_append]
    exact List.mem_append.2 (Or.inl ht)

/-- Adding an entry under the next synthesized name keeps the layout: below the capacity the
entry is new, at the capacity the name is that of the count `0` and the map stays as it is. -/
theorem MapInv.insert_counted {M : List (Str × Argument V)} (h : MapInv A M)
    (a : Argument V) (ha : counted (nameOf (M.countP counted), a) = true) :
    MapInv A (mapInsert M (nameOf (M.countP counted)) a) := by
  rcases Nat.lt_or_ge (M.countP counted) nameCapacity with hc | hc
  · rw [mapInsert_of_not_mem M _ a (h.fresh_name A hc)]
    refine ⟨?_, ?_, ?_⟩
    · rw [List.filter_append, List.countP_append]
      simp only [List.filter_cons, ha, List.filter_nil, if_true, List.countP_cons, List.countP_nil,
        zero_add, List.map_append, List.map_cons, List.map_nil, List.range_succ]
      rw [h.1]
    · rw [List.countP_append]
      simp only [List.countP_cons, ha, List.countP_nil, if_true, zero_add]
      omega
    · intro kv hkv hcnt
      rcases List.mem_append.1 hkv with hkv | hkv
      · exact h.2.2 kv hkv hcnt
      · simp only [List.mem_singleton] at hkv
        rw [hkv, ha] at hcnt
        cases hcnt
  · have heq : M.countP counted = nameCapacity := le_antisymm h.2.1 hc
    have hmem : nameOf (M.countP counted) ∈ mapKeys M := by
      rw [heq, nameOf_capacity]
      exact h.nameOf_mem A 0 (by rw [heq]; decide)
    rw [mapInsert_of_mem M _ a hmem]
    exact h

/-- Adding a new entry for a variable or a registry constant keeps the layout. -/
theorem MapInv.insert_named {M : List (Str × Argument V)} (h : MapInv A M)
    (k : Str) (a : Argument V) (hcnt : counted (k, a) = false)
    (hk : (charAt k 0).isAlpha = true) (hop : hasOperatorMap k = false)
    (hty : (a.m_type = .ArgumentConstant ∧ hasConstantMap A k = true)
      ∨ (a.m_type = .ArgumentVariable ∧ hasConstantMap A k = false)) :
    MapInv A (M ++ [(k, a)]) := by
  have hf : [(k, a)].filter counted = [] := by simp [hcnt]
  have hcp : [(k, a)].countP counted = 0 := by simp [hcnt]
  refine ⟨?_, ?_, ?_⟩
  · rw [List.filter_append, List.countP_append, hf, hcp, List.append_nil, Nat.add_zero]
    exact h.1
  · rw [List.countP_append, hcp, Nat.add_zero]
    exact h.2.1
  · intro kv hkv hc
    rcases List.mem_append.1 hkv with hkv | hkv
    · exact h.2.2 kv hkv hc
    · simp only [List.mem_singleton] at hkv
      subst hkv
      exact ⟨hk, hop, hty⟩

theorem countP_mapInsert_le (M : List (Str × Argument V)) (k : Str) (a : Argument V) :
    M.countP counted ≤ (mapInsert M k a).countP counted := by
  by_cases h : k ∈ mapKeys M
  · rw [mapInsert_of_mem M k a h]
  · rw [mapInsert_of_not_mem M k a h, List.countP_append]
    omega

end Layout

section Inv

variable {V : Type} (A : Arith V)

theorem countP_le_of_MapInv {M : List (Str × Argument V)} (h : MapInv A M) :
    M.countP counted % 65536 = M.countP counted :=
  Nat.mod_eq_of_lt (lt_of_le_of_lt h.2.1 (by decide))

theorem createNewUserConstantName_eq (s : MathExpression V) (h : MapInv A s.m_argumentMap) :
    createNewUserConstantName s = nameOf (s.m_argumentMap.countP counted) := by
  rw [createNewUserConstantName, getEntitySize_argument, countP_le_of_MapInv A h]

/-- A step of `setArgumentMap` keeps the layout. -/
theorem classifyEntity_inv (i : Nat) (entity : Str) (s s1 : MathExpression V)
    (hs : StInv A s) (hg : s.m_generatorVec = [])
    (h : classifyEntity A i entity s = (true, s1)) :
    StInv A s1 ∧ s1.m_generatorVec = [] := by
  obtain ⟨hM, hmath, _⟩ := hs
  have hname := createNewUserConstantName_eq A s hM
  have key : ∀ (M1 : List (Str × Argument V)) (t : Str),
      MapInv A M1 → (∀ k ∈ mapKeys s.m_argumentMap, k ∈ mapKeys M1) →
      (hasOperatorMap t = true ∨ t ∈ mapKeys M1) →
      StInv A { s with m_argumentMap := M1, m_math := s.m_math ++ [t] }
        ∧ ({ s with m_argumentMap := M1, m_math := s.m_math ++ [t] } :
            MathExpression V).m_generatorVec = [] := by
    intro M1 t h1 h2 h3
    refine ⟨⟨h1, ?_, ?_⟩, hg⟩
    · intro u hu
      rcases List.mem_append.1 hu with hu | hu
      · rcases hmath u hu with h4 | h4
        · exact Or.inl h4
        · exact Or.inr (h2 u h4)
      · rw [List.mem_singleton.1 hu]; exact h3
    · intro _
      show Built A _ s.m_generatorVec
      rw [hg]
      exact Built.base _
  unfold classifyEntity at h
  by_cases halpha : (charAt entity 0).isAlpha = true
  · rw [if_pos halpha] at h
    by_cases hop : hasOperatorMap entity = true
    · rw [if_pos hop] at h
      cases h
      exact key s.m_argumentMap entity hM (fun k hk => hk) (Or.inl hop)
    · rw [if_neg hop] at h
      have hop2 : hasOperatorMap entity = false := by simpa using hop
      have hins : ∀ a : Argument V, counted (entity, a) = false →
          ((a.m_type = .ArgumentConstant ∧ hasConstantMap A entity = true)
            ∨ (a.m_type = .ArgumentVariable ∧ hasConstantMap A entity = false)) →
          StInv A { s with
              m_argumentMap :=
                if hasArgumentMap s entity == false then mapInsert s.m_argumentMap entity a
                else s.m_argumentMap
              m_math := s.m_math ++ [entity] }
            ∧ ({ s with
              m_argumentMap :=
                if hasArgumentMap s entity == false then mapInsert s.m_argumentMap entity a
                else s.m_argumentMap
              m_math := s.m_math ++ [entity] } : MathExpression V).m_generatorVec = [] := by
        intro a hcnt hty
        by_cases hhas : hasArgumentMap s entity = true
        · have : (hasArgumentMap s entity == false) = false := by simp [hhas]
          rw [this]
          exact key s.m_argumentMap entity hM (fun k hk => hk)
            (Or.inr ((lookup_isSome_iff_mem_keys _ _).1 hhas))
        · have hhas2 : hasArgumentMap s entity = false := by simpa using hhas
          have : (hasArgumentMap s entity == false) = true := by simp [hhas2]
          rw [this]
          have hnm : entity ∉ mapKeys s.m_argumentMap := fun hc =>
            hhas ((lookup_isSome_iff_mem_keys _ _).2 hc)
          simp only [if_true]
          refine key _ entity ?_ (fun k hk => mapKeys_subset_mapInsert _ _ _ k hk)
            (Or.inr (mem_mapKeys_mapInsert _ _ _))
          rw [mapInsert_of_not_mem _ _ _ hnm]
          exact hM.insert_named A entity a hcnt halpha hop2 hty
      by_cases hcst : hasConstantMap A entity = true
      · rw [if_pos hcst] at h
        cases hgc : getConstant A entity with
        | none =>
          rw [hgc] at h
          simp only [getConstant, hcst, if_true] at hgc
          simp only [hasConstantMap, hgc] at hcst
          cases hcst
        | some c =>
          rw [hgc] at h
          cases h
          exact hins _ rfl (Or.inl ⟨rfl, hcst⟩)
      · rw [if_neg hcst] at h
        cases h
        exact hins _ rfl (Or.inr ⟨rfl, by simpa using hcst⟩)
  · rw [if_neg halpha] at h
    by_cases hnum : isNumber entity = true
    · rw [if_pos hnum] at h
      cases h
      simp only [hname]
      exact key _ _ (hM.insert_counted A _ rfl)
        (fun k hk => mapKeys_subset_mapInsert _ _ _ k hk)
        (Or.inr (mem_mapKeys_mapInsert _ _ _))
    · rw [if_neg hnum] at h
      by_cases hop : hasOperatorMap entity = true
      · rw [if_pos hop] at h
        cases h
        exact key s.m_argumentMap entity hM (fun k hk => hk) (Or.inl hop)
      · rw [if_neg hop] at h
        cases h

theorem setArgumentMapLoop_inv (rp : Str) (rem : Nat) (entity : Str) (s s1 : MathExpression V)
    (hs : StInv A s) (hg : s.m_generatorVec = [])
    (h : setArgumentMapLoop A rp rem entity s = (true, s1)) :
    StInv A s1 ∧ s1.m_generatorVec = [] := by
  induction rem generalizing entity s with
  | zero =>
    simp only [setArgumentMapLoop] at h
    cases h
    exact ⟨hs, hg⟩
  | succ rem ih =>
    rw [setArgumentMapLoop] at h
    simp only at h
    split at h
    · split at h
      · cases h
      · rename_i s2 hcl
        obtain ⟨h1, h2⟩ := classifyEntity_inv A _ _ s s2 hs hg hcl
        exact ih [] s2 h1 h2 h
    · exact ih _ s hs hg h

theorem MapInv.nil : MapInv A ([] : List (Str × Argument V)) := by
  refine ⟨rfl, Nat.zero_le _, ?_⟩
  intro kv hkv
  cases hkv

/-- The program `setArgumentMap` leaves behind when it returns `true` is laid out, with no
generator. -/
theorem setArgumentMap_inv (s s1 : MathExpression V) (h : setArgumentMap A s = (true, s1)) :
    StInv A s1 ∧ s1.m_generatorVec = [] := by
  refine setArgumentMapLoop_inv A _ _ [] _ s1 ⟨MapInv.nil A, ?_, ?_⟩ rfl h
  · intro t ht
    cases ht
  · intro _
    exact Built.base _

end Inv

section ExpandInv

variable {V : Type} (A : Arith V)

theorem mem_of_lookup_eq_some {β : Type} (l : List (Str × β)) (k : Str) (b : β)
    (h : l.lookup k = some b) : (k, b) ∈ l := by
  induction l with
  | nil => cases h
  | cons x l ih =>
    obtain ⟨a, c⟩ := x
    simp only [List.lookup] at h
    cases hk : (k == a) with
    | true =>
      rw [hk] at h
      simp only [Option.some.injEq] at h
      have : k = a := by simpa using hk
      subst this; subst h
      exact List.mem_cons_self _ _
    | false =>
      rw [hk] at h
      exact List.mem_cons_of_mem _ (ih h)

theorem constant_type (k : Str) (c : Argument V) (h : (constantMap A).lookup k = some c) :
    c.m_type = .ArgumentConstant := by
  have := mem_of_lookup_eq_some _ k c h
  simp only [constantMap, List.mem_cons, Prod.mk.injEq, List.mem_nil_iff, or_false] at this
  rcases this with h | h | h | h | h | h <;> rw [h.2]

theorem MapInv.key_not_operator {M : List (Str × Argument V)} (h : MapInv A M)
    (k : Str) (hk : k ∈ mapKeys M) : hasOperatorMap k = false := by
  obtain ⟨kv, hkv, rfl⟩ := (mem_mapKeys_iff M k).1 hk
  cases hc : counted kv with
  | true =>
    obtain ⟨j, _, hj⟩ := h.counted_key A kv hkv hc
    rw [hj]
    exact hasOperatorMap_nameOf j
  | false => exact (h.2.2 kv hkv hc).2.1

/-- An operator name is not an argument. -/
theorem isArgument_false_of_operator (s : MathExpression V) (hM : MapInv A s.m_argumentMap)
    (t : Str) (h : hasOperatorMap t = true) : isArgument A s t = false := by
  rw [Bool.eq_false_iff]
  intro hc
  simp only [isArgument, Bool.or_eq_true] at hc
  rcases hc with hc | hc
  · have := hM.key_not_operator A t ((lookup_isSome_iff_mem_keys _ _).1 hc)
    rw [h] at this
    cases this
  · have := hasConstantMap_not_operator A t hc
    rw [h] at this
    cases this

/-- The pointer chosen for an argument key points to an entry. -/
theorem argPointer_ok (s : MathExpression V) (hM : MapInv A s.m_argumentMap) (key : Str)
    (h : isArgument A s key = true) :
    ∃ p, argPointer A s key = some p ∧ PtrOK A (mapKeys s.m_argumentMap) p
      ∧ p = (if hasConstantMap A key then ArgPtr.constant key else ArgPtr.argument key) := by
  by_cases hc : hasConstantMap A key = true
  · have hc2 := hc
    simp only [hasConstantMap, Option.isSome_iff_exists] at hc2
    obtain ⟨c, hcl⟩ := hc2
    have hgc : getConstant A key = some c := by simp [getConstant, hc, hcl]
    have hty : entityType A s key = .ArgumentConstant := by
      simp only [entityType, hgc]
      exact constant_type A key c hcl
    refine ⟨.constant key, ?_, hc, by simp [hc]⟩
    simp [argPointer, hty, hgc]
  · have hc2 : hasConstantMap A key = false := by simpa using hc
    have hhas : hasArgumentMap s key = true := by
      simp only [isArgument, Bool.or_eq_true] at h
      rcases h with h | h
      · exact h
      · exact absurd h hc
    have hmem := (lookup_isSome_iff_mem_keys _ _).1 hhas
    have hop := hM.key_not_operator A key hmem
    have hhas2 := hhas
    simp only [hasArgumentMap, Option.isSome_iff_exists] at hhas2
    obtain ⟨a, ha⟩ := hhas2
    have hgc : getConstant A key = none := by simp [getConstant, hc2]
    have hgo : getOperator key = none := by simp [getOperator, hop]
    have hga : getArgument s key = some a := by simp [getArgument, hhas, ha]
    have hty : entityType A s key ≠ .ArgumentConstant := by
      simp only [entityType, hgc, hgo, hga]
      intro hty
      have hkv := mem_of_lookup_eq_some _ key a ha
      have hcnt : counted (key, a) = false := by simp [counted, hty]
      rcases (hM.2.2 (key, a) hkv hcnt).2.2 with h1 | h1
      · rw [hc2] at h1
        cases h1.2
      · rw [hty] at h1
        cases h1.1
    refine ⟨.argument key, ?_, hmem, by simp [hc2]⟩
    simp [argPointer, hty, hga]

theorem isOperatorOneArg_spec (t : Str) (h : isOperatorOneArg t = true) :
    ∃ o f, getOperator t = some o ∧ o.m_ddOperator = some f := by
  have hop : hasOperatorMap t = true := by
    by_contra hc
    simp [isOperatorOneArg, hc] at h
  rcases (hasOperatorMap_iff t).1 hop with h1 | h1 | h1 | h1 | h1 | h1 | h1 | h1 | h1 | h1 | h1 <;>
    subst h1 <;> first
      | exact ⟨_, _, rfl, rfl⟩
      | exact absurd h (by decide)

theorem isOperatorTwoArg_spec (t : Str) (h : isOperatorTwoArg t = true) :
    ∃ o f, getOperator t = some o ∧ o.m_dddOperator = some f := by
  have hop : hasOperatorMap t = true := by
    by_contra hc
    simp [isOperatorTwoArg, hc] at h
  rcases (hasOperatorMap_iff t).1 hop with h1 | h1 | h1 | h1 | h1 | h1 | h1 | h1 | h1 | h1 | h1 <;>
    subst h1 <;> first
      | exact ⟨_, _, rfl, rfl⟩
      | exact absurd h (by decide)

/-- Adding a generator keeps the layout. -/
theorem addGenerator_inv (s : MathExpression V) (hs : StInv A s) (math1 : List Str)
    (hmath1 : ∀ t ∈ math1, hasOperatorMap t = true ∨ t ∈ mapKeys s.m_argumentMap)
    (ty : EntityType) (hty : counted (createNewUserConstantName s,
      (⟨createNewUserConstantName s, ty, 0, A.zero⟩ : Argument V)) = true)
    (g : Generator) (hname : g.m_name = createNewUserConstantName s)
    (hwf : GenWF A (mapKeys s.m_argumentMap) g) :
    StInv A { s with
      m_argumentMap := mapInsert s.m_argumentMap (createNewUserConstantName s)
        ⟨createNewUserConstantName s, ty, 0, A.zero⟩
      m_generatorVec := s.m_generatorVec ++ [g]
      m_math := math1 ++ [createNewUserConstantName s] } := by
  obtain ⟨hM, _, hB⟩ := hs
  have hn := createNewUserConstantName_eq A s hM
  rw [hn] at hty hname ⊢
  refine ⟨hM.insert_counted A _ hty, ?_, ?_⟩
  · intro t ht
    rcases List.mem_append.1 ht with ht | ht
    · rcases hmath1 t ht with h1 | h1
      · exact Or.inl h1
      · exact Or.inr (mapKeys_subset_mapInsert _ _ _ t h1)
    · rw [List.mem_singleton.1 ht]
      exact Or.inr (mem_mapKeys_mapInsert _ _ _)
  · intro hlt
    have hle := countP_mapInsert_le s.m_argumentMap (nameOf (s.m_argumentMap.countP counted))
      (⟨nameOf (s.m_argumentMap.countP counted), ty, 0, A.zero⟩ : Argument V)
    have hlt0 : s.m_argumentMap.countP counted < nameCapacity := lt_of_le_of_lt hle hlt
    have hfresh := hM.fresh_name A hlt0
    show Built A (mapKeys (mapInsert _ _ _)) (s.m_generatorVec ++ [g])
    rw [mapInsert_of_not_mem _ _ _ hfresh, mapKeys_append]
    have := Built.gen g (hB hlt0) hwf (by rw [hname]; exact hfresh)
    rw [hname] at this
    exact this

theorem generateArgOp_inv (s : MathExpression V) (hs : StInv A s) (math1 : List Str)
    (hmath1 : ∀ t ∈ math1, hasOperatorMap t = true ∨ t ∈ mapKeys s.m_argumentMap)
    (k1 k2 : Str) (h1 : isArgument A s k1 = true) (h2 : isOperatorOneArg k2 = true) :
    StInv A (generateArgOp A k1 k2 { s with m_math := math1 }) := by
  obtain ⟨p, hp, hpok, _⟩ := argPointer_ok A s hs.1 k1 h1
  obtain ⟨o, f, ho, hf⟩ := isOperatorOneArg_spec k2 h2
  exact addGenerator_inv A s hs math1 hmath1 .ArgumentGeneratedFromOneArg rfl _ rfl
    ⟨rfl, Or.inl ⟨rfl, o, f, p, ho, hf, hp, hpok⟩⟩

theorem generateArgArgOp_inv (s : MathExpression V) (hs : StInv A s) (math1 : List Str)
    (hmath1 : ∀ t ∈ math1, hasOperatorMap t = true ∨ t ∈ mapKeys s.m_argumentMap)
    (k1 k2 k3 : Str) (h1 : isArgument A s k1 = true) (h2 : isArgument A s k2 = true)
    (h3 : isOperatorTwoArg k3 = true) :
    StInv A (generateArgArgOp A k1 k2 k3 { s with m_math := math1 }) := by
  obtain ⟨p1, hp1, hpok1, _⟩ := argPointer_ok A s hs.1 k1 h1
  obtain ⟨p2, hp2, hpok2, _⟩ := argPointer_ok A s hs.1 k2 h2
  obtain ⟨o, f, ho, hf⟩ := isOperatorTwoArg_spec k3 h3
  exact addGenerator_inv A s hs math1 hmath1 .ArgumentGeneratedFromTwoArg rfl _ rfl
    ⟨rfl, Or.inr ⟨rfl, o, f, p1, p2, ho, hf, hp1, hp2, hpok1, hpok2⟩⟩

theorem pushBackRange_eq (stop : Nat) (s : MathExpression V) :
    pushBackRange stop s = { s with m_math := (pushBackRange stop s).m_math } := rfl

theorem pushBackRange_math_mem (stop : Nat) (s : MathExpression V) (t : Str)
    (ht : t ∈ (pushBackRange stop s).m_math) : t ∈ s.m_math := by
  simp only [pushBackRange] at ht
  rcases List.mem_append.1 ht with ht | ht
  · exact ht
  · exact List.mem_of_mem_drop (List.mem_of_mem_take ht)

theorem getD_mem_or {α : Type} (l : List α) (k : Nat) (d : α) (hk : k < l.length) :
    l.getD k d ∈ l := by
  rw [List.getD_eq_getElem _ _ hk]
  exact List.getElem_mem _

end ExpandInv

section ExpandInv2

variable {V : Type} (A : Arith V)

theorem StInv.add_math {s : MathExpression V} (hs : StInv A s) (math1 : List Str)
    (h : ∀ t ∈ math1, t ∈ s.m_math) : StInv A { s with m_math := s.m_math ++ math1 } := by
  refine ⟨hs.1, ?_, hs.2.2⟩
  intro t ht
  rcases List.mem_append.1 ht with ht | ht
  · exact hs.2.1 t ht
  · exact hs.2.1 t (h t ht)

/-- The loop of `expandMathExpression` keeps the layout, whatever it returns. -/
theorem expandLoop_inv (fuel i : Nat) (s s1 : MathExpression V) (b : Bool)
    (hs : StInv A s) (h : expandLoop A fuel i s = .ok (b, s1)) : StInv A s1 := by
  induction fuel generalizing i s with
  | zero =>
    unfold expandLoop at h
    split_ifs at h
    cases h
    exact hs
  | succ fuel ih =>
    rw [expandLoop] at h
    simp only at h
    split_ifs at h with h1 h2 h3 h4 h5 h6 h7 h8 h9 h10
    · -- one-argument operator on an argument
      simp only [Bool.and_eq_true] at h4
      refine ih _ _ ?_ h
      exact generateArgOp_inv A s hs _
        (fun t ht => hs.2.1 t (pushBackRange_math_mem _ s t ht)) _ _ h4.1.1 h4.2
    · simp only [Bool.and_eq_true] at h4
      refine ih _ _ ?_ h
      exact generateArgOp_inv A s hs _ hs.2.1 _ _ h4.1.1 h4.2
    · refine ih _ _ (hs.add_math A _ ?_) h
      intro t ht
      rw [List.mem_singleton.1 ht]
      exact getD_mem_or _ _ _ h1
    · simp only [Bool.and_eq_true] at h8
      refine ih _ _ ?_ h
      exact generateArgArgOp_inv A s hs _
        (fun t ht => hs.2.1 t (pushBackRange_math_mem _ s t ht)) _ _ _ h8.1.1.1 h8.1.1.2 h8.2
    · simp only [Bool.and_eq_true] at h8
      refine ih _ _ ?_ h
      exact generateArgArgOp_inv A s hs _ hs.2.1 _ _ _ h8.1.1.1 h8.1.1.2 h8.2
    · refine ih _ _ (hs.add_math A _ ?_) h
      intro t ht
      simp only [List.mem_cons, List.mem_singleton, List.mem_nil_iff, or_false] at ht
      rcases ht with ht | ht
      · rw [ht]; exact getD_mem_or _ _ _ (by omega)
      · rw [ht]; exact getD_mem_or _ _ _ h1
    · exact ih _ _ hs h
    · cases h; exact hs
    · cases h; exact hs
    · exact ih _ _ hs h
    · cases h; exact hs

end ExpandInv2

section Leaves

variable {V : Type} (A : Arith V)

theorem Expr.eval_congr (m m2 : List (Str × Argument V)) (t : Expr)
    (h : ∀ k ∈ t.argKeys, m.lookup k = m2.lookup k) : t.eval A m = t.eval A m2 := by
  induction t with
  | leaf p =>
    cases p with
    | constant k => rfl
    | argument k =>
      simp only [Expr.eval, derefDouble]
      rw [h k (by simp [Expr.argKeys])]
  | app1 f x ih =>
    simp only [Expr.eval]
    rw [ih h]
  | app2 f x y ihx ihy =>
    simp only [Expr.eval]
    rw [ihx (fun k hk => h k (by simp [Expr.argKeys, hk])),
      ihy (fun k hk => h k (by simp [Expr.argKeys, hk]))]

theorem genTree_argKeys (Γ : List (Str × Expr)) (keys : List Str) (g : Generator)
    (hwf : GenWF A keys g) (P : Str → Prop)
    (h : ∀ p, PtrOK A keys p → ∀ k ∈ (symOf Γ p).argKeys, P k) :
    ∀ k ∈ (genTree Γ g).argKeys, P k := by
  obtain ⟨_, h1 | h2⟩ := hwf
  · obtain ⟨hty, o, f, p, ho, hf, hp, hpok⟩ := h1
    have e : genTree Γ g = .app1 f (symOf Γ p) := by simp [genTree, hty, ho, hf, hp]
    rw [e]
    exact h p hpok
  · obtain ⟨hty, o, f, p1, p2, ho, hf, hp1, hp2, hpok1, hpok2⟩ := h2
    have e : genTree Γ g = .app2 f (symOf Γ p1) (symOf Γ p2) := by
      simp [genTree, hty, ho, hf, hp1, hp2]
    rw [e]
    intro k hk
    simp only [Expr.argKeys, List.mem_append] at hk
    rcases hk with hk | hk
    · exact h p1 hpok1 k hk
    · exact h p2 hpok2 k hk

/-- The leaves of the expression behind a pointer are keys no generator writes. -/
theorem Built.leaves {keys : List Str} {G : List Generator} (hB : Built A keys G) :
    ∀ p, PtrOK A keys p → ∀ k ∈ (symOf (symTable G) p).argKeys,
      k ∈ keys ∧ k ∉ G.map (fun g => g.m_name) := by
  induction hB with
  | base keys =>
    intro p hp k hk
    cases p with
    | constant c => simp [symTable, symOf, Expr.argKeys] at hk
    | argument c =>
      simp only [symTable, List.foldl_nil, symOf, List.lookup, Expr.argKeys,
        List.mem_singleton] at hk
      subst hk
      exact ⟨hp, by simp⟩
  | @gen keys G g hB hwf hn ih =>
    have hnΓ : g.m_name ∉ (symTable G).map Prod.fst := by
      rw [symTable_keys]
      intro hmem
      simp only [List.mem_map] at hmem
      obtain ⟨g2, hg2, hg2n⟩ := hmem
      exact hn (hg2n ▸ hB.names_subset A g2 hg2)
    have hup : ∀ k, (k ∈ keys ∧ k ∉ G.map (fun g => g.m_name)) →
        (k ∈ keys ++ [g.m_name] ∧ k ∉ (G ++ [g]).map (fun g => g.m_name)) := by
      intro k hk
      refine ⟨List.mem_append.2 (Or.inl hk.1), ?_⟩
      simp only [List.map_append, List.map_cons, List.map_nil, List.mem_append,
        List.mem_singleton, not_or]
      exact ⟨hk.2, fun h => hn (h ▸ hk.1)⟩
    intro p hp k hk
    rw [symTable_append] at hk
    by_cases hpn : p = .argument g.m_name
    · subst hpn
      rw [symOf_append_self _ _ _ hnΓ] at hk
      exact hup k (genTree_argKeys A _ keys g hwf _ ih k hk)
    · rw [symOf_append_ne _ _ _ _ hpn] at hk
      refine hup k (ih p ?_ k hk)
      cases p with
      | constant c => exact hp
      | argument c =>
        simp only [PtrOK, List.mem_append, List.mem_singleton] at hp
        rcases hp with hp | hp
        · exact hp
        · exact absurd (by rw [hp]) hpn

/-- The leaves of the expression of the last generator are keys no generator writes. -/
theorem Built.last_leaves {keys : List Str} {G : List Generator} (hB : Built A keys G)
    (G0 : List Generator) (g : Generator) (hG : G = G0 ++ [g]) :
    ∀ k ∈ (genTree (symTable G0) g).argKeys, k ∉ G.map (fun g => g.m_name) := by
  cases hB with
  | base keys => exact absurd hG (by simp)
  | @gen keys G1 g1 hB hwf hn =>
    obtain ⟨h1, h2⟩ := List.append_inj' hG rfl
    simp only [List.cons.injEq, and_true] at h2
    subst h1; subst h2
    intro k hk
    have := genTree_argKeys A (symTable G1) keys g1 hwf
      (fun k => k ∈ keys ∧ k ∉ G1.map (fun g => g.m_name)) (hB.leaves A) k hk
    simp only [List.map_append, List.map_cons, List.map_nil, List.mem_append,
      List.mem_singleton, not_or]
    exact ⟨this.2, fun h => hn (h ▸ this.1)⟩

theorem Built.keys_eq {keys keys2 : List Str} {G : List Generator} (hB : Built A keys G)
    (h : keys = keys2) : Built A keys2 G := h ▸ hB

theorem AgreeOff.agree_refl (G : List Generator) (m : List (Str × Argument V)) : AgreeOff G m m :=
  ⟨rfl, fun _ _ => rfl⟩

theorem AgreeOff.agree_symm {G : List Generator} {m m2 : List (Str × Argument V)}
    (h : AgreeOff G m m2) : AgreeOff G m2 m :=
  ⟨h.1.symm, fun k hk => (h.2 k hk).symm⟩

theorem AgreeOff.agree_trans {G : List Generator} {m m2 m3 : List (Str × Argument V)}
    (h : AgreeOff G m m2) (h2 : AgreeOff G m2 m3) : AgreeOff G m m3 :=
  ⟨h.1.trans h2.1, fun k hk => (h.2 k hk).trans (h2.2 k hk)⟩

theorem lookup_mapSetDouble (m : List (Str × Argument V)) (key k : Str) (v : V) :
    (mapSetDouble m key v).lookup k
      = (m.lookup k).map (fun a => if k == key then { a with m_dvalue := v } else a) := by
  by_cases h : k = key
  · subst h
    rw [lookup_mapSetDouble_self]
    simp
  · rw [lookup_mapSetDouble_ne m key k v h]
    have : (k == key) = false := by simpa using h
    simp [this]

theorem AgreeOff.agree_set {G : List Generator} {m m2 : List (Str × Argument V)}
    (h : AgreeOff G m m2) (key : Str) (v : V) :
    AgreeOff G (mapSetDouble m key v) (mapSetDouble m2 key v) := by
  refine ⟨by rw [mapKeys_mapSetDouble, mapKeys_mapSetDouble, h.1], ?_⟩
  intro k hk
  rw [lookup_mapSetDouble, lookup_mapSetDouble, h.2 k hk]

/-- Two runs of a built generator list on contents that agree off the generators: both
succeed, with the same value if there is a generator, and change the generated bindings
only. -/
theorem run_agree {keys : List Str} {G : List Generator} (hB : Built A keys G)
    (m m2 : List (Str × Argument V)) (hsub : ∀ k ∈ keys, k ∈ mapKeys m)
    (hag : AgreeOff G m m2) (d d2 : V) :
    ∃ v v2 m1 m3, runGenerators A G d m = .ok (v, m1) ∧ runGenerators A G d2 m2 = .ok (v2, m3)
      ∧ AgreeOff G m m1 ∧ AgreeOff G m2 m3 ∧ (G ≠ [] → v = v2) := by
  have hsub2 : ∀ k ∈ keys, k ∈ mapKeys m2 := fun k hk => hag.1 ▸ hsub k hk
  obtain ⟨v, m1, hrun, hkeys, _, hframe, _, hlast⟩ := run_spec A hB m hsub d
  obtain ⟨v2, m3, hrun2, hkeys2, _, hframe2, _, hlast2⟩ := run_spec A hB m2 hsub2 d2
  refine ⟨v, v2, m1, m3, hrun, hrun2, ⟨hkeys.symm, fun k hk => (hframe k hk).symm⟩,
    ⟨hkeys2.symm, fun k hk => (hframe2 k hk).symm⟩, ?_⟩
  intro hne
  rcases List.eq_nil_or_concat G with h0 | ⟨G0, g, hG⟩
  · exact absurd h0 hne
  · have hG2 : G = G0 ++ [g] := by simpa using hG
    have e1 := hlast G0 g hG2
    have e2 := hlast2 G0 g hG2
    rw [Expr.eval_congr A m m2 _
      (fun k hk => hag.2 k (hB.last_leaves A G0 g hG2 k hk))] at e1
    rw [e1] at e2
    exact Except.ok.inj e2

end Leaves

section Calc

variable {V : Type} (A : Arith V)

theorem SameProgram.same_refl (s : MathExpression V) : SameProgram s s :=
  ⟨rfl, rfl, AgreeOff.agree_refl _ _⟩

theorem SameProgram.same_symm {s s2 : MathExpression V} (h : SameProgram s s2) : SameProgram s2 s :=
  ⟨h.1.symm, h.2.1.symm, h.1 ▸ h.2.2.agree_symm⟩

theorem SameProgram.same_trans {s s2 s3 : MathExpression V} (h : SameProgram s s2)
    (h2 : SameProgram s2 s3) : SameProgram s s3 :=
  ⟨h.1.trans h2.1, h.2.1.trans h2.2.1, h.2.2.agree_trans (h.1 ▸ h2.2.2)⟩

theorem Runnable.of_same {s s2 : MathExpression V} (hR : Runnable A s) (h : SameProgram s s2) :
    Runnable A s2 := by
  obtain ⟨hG, hmath, hkeys, _⟩ := h
  refine ⟨?_, ?_⟩
  · rw [← hG, ← hkeys]; exact hR.1
  · rw [← hG, ← hmath, ← hkeys]; exact hR.2

theorem hasArgumentMap_eq_of_keys (s s2 : MathExpression V)
    (h : mapKeys s.m_argumentMap = mapKeys s2.m_argumentMap) (k : Str) :
    hasArgumentMap s k = hasArgumentMap s2 k := by
  rw [Bool.eq_iff_iff]
  simp only [hasArgumentMap]
  rw [lookup_isSome_iff_mem_keys, lookup_isSome_iff_mem_keys, h]

theorem SameProgram.same_set {s s2 : MathExpression V} (h : SameProgram s s2) (k : Str) (v : V) :
    SameProgram (setVariableDouble k v s) (setVariableDouble k v s2) := by
  obtain ⟨hG, hmath, hag⟩ := h
  have hh := hasArgumentMap_eq_of_keys s s2 hag.1 k
  unfold setVariableDouble
  rw [← hh]
  cases hasArgumentMap s k with
  | true => exact ⟨hG, hmath, hag.agree_set k v⟩
  | false => exact ⟨hG, hmath, hag⟩

theorem Runnable.after_set {s : MathExpression V} (hR : Runnable A s) (k : Str) (v : V) :
    Runnable A (setVariableDouble k v s) := by
  unfold setVariableDouble
  cases hasArgumentMap s k with
  | false => exact hR
  | true =>
    obtain ⟨h1, h2⟩ := hR
    refine ⟨?_, ?_⟩
    · show Built A (mapKeys (mapSetDouble _ _ _)) s.m_generatorVec
      rw [mapKeys_mapSetDouble]; exact h1
    · show s.m_generatorVec = [] → s.m_math = [] ∨
        s.m_math.getD (s.m_math.length - 1) [] ∈ mapKeys (mapSetDouble _ _ _)
      rw [mapKeys_mapSetDouble]; exact h2

theorem Runnable.setVariables {s : MathExpression V} (hR : Runnable A s)
    (vals : List (Str × V)) : Runnable A (setVariables vals s) := by
  induction vals generalizing s with
  | nil => exact hR
  | cons kv vals ih => exact ih (hR.after_set A kv.1 kv.2)

/-- Two calls of `calculateExpression` on objects with the same program whose argument maps
agree off the generators: both return, with the same value, and leave the program and the
bindings off the generators as they are. -/
theorem calc_agree (s s2 : MathExpression V) (hR : Runnable A s) (hS : SameProgram s s2) :
    ∃ v s1 s3, calculateExpression A s = .ok (v, s1)
      ∧ calculateExpression A s2 = .ok (v, s3)
      ∧ SameProgram s s1 ∧ SameProgram s2 s3 := by
  obtain ⟨hG, hmath, hag⟩ := hS
  by_cases h0 : s.m_generatorVec = []
  · have h02 : s2.m_generatorVec = [] := hG ▸ h0
    have hlen : (s.m_generatorVec.length == 0) = true := by simp [h0]
    have hlen2 : (s2.m_generatorVec.length == 0) = true := by simp [h02]
    by_cases hm : s.m_math.length > 0
    · have hm2 : s2.m_math.length > 0 := hmath ▸ hm
      have hne : s.m_math ≠ [] := by
        intro hc; rw [hc] at hm; exact absurd hm (by simp)
      have hkey := (hR.2 h0).resolve_left hne
      have hsome := (lookup_isSome_iff_mem_keys _ _).2 hkey
      rw [Option.isSome_iff_exists] at hsome
      obtain ⟨a, ha⟩ := hsome
      have ha2 : s2.m_argumentMap.lookup (s2.m_math.getD (s2.m_math.length - 1) []) = some a := by
        rw [← hmath, ← hag.2 _ (by rw [h0]; simp)]; exact ha
      refine ⟨a.m_dvalue, s, s2, ?_, ?_, SameProgram.same_refl s, SameProgram.same_refl s2⟩
      · unfold calculateExpression
        rw [hlen, if_pos rfl, if_pos hm, ha]
      · unfold calculateExpression
        rw [hlen2, if_pos rfl, if_pos hm2, ha2]
    · have hm2 : ¬ s2.m_math.length > 0 := hmath ▸ hm
      refine ⟨A.zero, s, s2, ?_, ?_, SameProgram.same_refl s, SameProgram.same_refl s2⟩
      · unfold calculateExpression
        rw [hlen, if_pos rfl, if_neg hm]
      · unfold calculateExpression
        rw [hlen2, if_pos rfl, if_neg hm2]
  · have h02 : s2.m_generatorVec ≠ [] := hG ▸ h0
    have hlen : (s.m_generatorVec.length == 0) = false := by
      cases hg : s.m_generatorVec with
      | nil => exact absurd hg h0
      | cons g G => rfl
    have hlen2 : (s2.m_generatorVec.length == 0) = false := by
      cases hg : s2.m_generatorVec with
      | nil => exact absurd hg h02
      | cons g G => rfl
    obtain ⟨v, v2, m1, m3, hr1, hr2, ha1, ha2, hv⟩ :=
      run_agree A hR.1 s.m_argumentMap s2.m_argumentMap (fun k hk => hk) hag A.zero A.zero
    rw [hG] at hr2
    refine ⟨v, { s with m_argumentMap := m1 }, { s2 with m_argumentMap := m3 }, ?_, ?_,
      ⟨rfl, rfl, ha1⟩, ⟨rfl, rfl, hG ▸ ha2⟩⟩
    · unfold calculateExpression
      rw [hlen, if_neg (by simp), hr1]
    · unfold calculateExpression
      rw [hlen2, if_neg (by simp), hr2, hv h0]

/-- Calling `calculateExpression` twice in a row gives the same value twice. -/
theorem calc_twice (s : MathExpression V) (hR : Runnable A s) :
    ∃ v s1 s2, calculateExpression A s = .ok (v, s1)
      ∧ calculateExpression A s1 = .ok (v, s2) := by
  obtain ⟨v, s1, _, h1, _, hS, _⟩ := calc_agree A s s hR (SameProgram.same_refl s)
  obtain ⟨v2, s3, s4, h3, h4, _, _⟩ := calc_agree A s s1 hR hS
  rw [h1] at h3
  have hv : v = v2 := (Prod.mk.inj (Except.ok.inj h3)).1
  exact ⟨v, s1, s4, h1, hv ▸ h4⟩

/-- After any sequence of calls, `calculateExpression` returns what it returns on the object
on which only the `setVariableDouble` calls of the sequence were made. -/
theorem calls_agree (calls : List (Call V)) (s s2 : MathExpression V) (hR : Runnable A s)
    (hS : SameProgram s s2) :
    ∃ s1, runCalls A calls s = .ok s1 ∧ Runnable A s1
      ∧ SameProgram s1 (setVariables (settingsOf calls) s2) := by
  induction calls generalizing s s2 with
  | nil => exact ⟨s, rfl, hR, hS⟩
  | cons c calls ih =>
    cases c with
    | set k v =>
      simp only [runCalls, settingsOf, setVariables, List.foldl_cons]
      exact ih _ _ (hR.after_set A k v) (hS.same_set k v)
    | calculate =>
      obtain ⟨v, s1, _, h1, _, hS1, _⟩ := calc_agree A s s hR (SameProgram.same_refl s)
      simp only [runCalls, settingsOf, h1]
      exact ih s1 s2 (hR.of_same A hS1) (hS1.same_symm.same_trans hS)

end Calc

section NoGenerator

variable {V : Type} (A : Arith V)

/-- The loop of `expandMathExpression` only adds generators. -/
theorem expandLoop_gen_ne (fuel i : Nat) (s s1 : MathExpression V) (b : Bool)
    (hs : s.m_generatorVec ≠ []) (h : expandLoop A fuel i s = .ok (b, s1)) :
    s1.m_generatorVec ≠ [] := by
  induction fuel generalizing i s with
  | zero =>
    unfold expandLoop at h
    split_ifs at h
    cases h
    exact hs
  | succ fuel ih =>
    rw [expandLoop] at h
    simp only at h
    split_ifs at h
    · exact ih _ _ (by simp [generateArgOp]) h
    · exact ih _ _ (by simp [generateArgOp]) h
    · refine ih _ _ ?_ h
      exact hs
    · exact ih _ _ (by simp [generateArgArgOp]) h
    · exact ih _ _ (by simp [generateArgArgOp]) h
    · refine ih _ _ ?_ h
      exact hs
    · exact ih _ _ hs h
    · cases h; exact hs
    · cases h; exact hs
    · exact ih _ _ hs h
    · cases h; exact hs

theorem isOperator_arity (t : Str) (h : isOperator t = true) :
    isOperatorOneArg t = true ∨ isOperatorTwoArg t = true := by
  rcases (hasOperatorMap_iff t).1 h with h1 | h1 | h1 | h1 | h1 | h1 | h1 | h1 | h1 | h1 | h1 <;>
    subst h1 <;> decide

theorem isArgument_of_key (s : MathExpression V) (t : Str)
    (h : t ∈ mapKeys s.m_argumentMap) : isArgument A s t = true := by
  simp only [isArgument, hasArgumentMap, Bool.or_eq_true]
  exact Or.inl ((lookup_isSome_iff_mem_keys _ _).2 h)

/-- An entity of `m_math` that is not an operator is an argument. -/
theorem StInv.isArgument_at {s : MathExpression V} (hs : StInv A s) (j : Nat)
    (hj : j < s.m_math.length) (h : isOperator (s.m_math.getD j []) = false) :
    isArgument A s (s.m_math.getD j []) = true := by
  rcases hs.2.1 _ (getD_mem_or s.m_math j [] hj) with h1 | h1
  · rw [isOperator, h1] at h
    cases h
  · exact isArgument_of_key A s _ h1

/-- When `expandMathExpression` returns `true` without having built a generator, `m_math` is
as it was and holds no operator. -/
theorem expandLoop_no_generator (fuel i : Nat) (s s1 : MathExpression V)
    (hs : StInv A s) (h : expandLoop A fuel i s = .ok (true, s1))
    (hG : s1.m_generatorVec = [])
    (hpre : ∀ j, j < i → isOperator (s.m_math.getD j []) = false) :
    s1.m_math = s.m_math ∧ ∀ j, j < s.m_math.length → isOperator (s.m_math.getD j []) = false := by
  induction fuel generalizing i s with
  | zero =>
    unfold expandLoop at h
    split_ifs at h with h1
    cases h
    exact ⟨rfl, fun j hj => hpre j (by omega)⟩
  | succ fuel ih =>
    rw [expandLoop] at h
    simp only at h
    split_ifs at h with h1 h2 h3 h4 h5 h6 h7 h8 h9 h10
    · exact absurd hG (expandLoop_gen_ne A _ _ _ _ _ (by simp [generateArgOp]) h)
    · exact absurd hG (expandLoop_gen_ne A _ _ _ _ _ (by simp [generateArgOp]) h)
    · simp only [Bool.and_eq_true] at h6
      have := hpre (i - 1) (by omega)
      rw [h6.1] at this
      cases this
    · exact absurd hG (expandLoop_gen_ne A _ _ _ _ _ (by simp [generateArgArgOp]) h)
    · exact absurd hG (expandLoop_gen_ne A _ _ _ _ _ (by simp [generateArgArgOp]) h)
    · simp only [Bool.and_eq_true] at h10
      have := hpre (i - 2) (by omega)
      rw [h10.1.1.1] at this
      cases this
    · exfalso
      have ha1 := hs.isArgument_at A (i - 1) (by omega) (hpre (i - 1) (by omega))
      have ha2 := hs.isArgument_at A (i - 2) (by omega) (hpre (i - 2) (by omega))
      rcases isOperator_arity _ h2 with h11 | h11
      · exact h4 (by rw [ha1, h2, h11]; rfl)
      · exact h8 (by rw [ha1, ha2, h2, h11]; rfl)
    · cases h
    · cases h
    · refine ih _ _ hs h ?_
      intro j hj
      rcases Nat.lt_or_ge j i with hji | hji
      · exact hpre j hji
      · have : j = i := by omega
        subst this
        simpa using h2
    · cases h
      exact ⟨rfl, fun j hj => hpre j (by omega)⟩

/-- A program that `setArgumentMap` and `expandMathExpression` built, both returning `true`,
with fewer synthesized names than there are, can be evaluated. -/
theorem compiled_runnable (fuel : Nat) (s0 s1 s2 : MathExpression V)
    (hmap : setArgumentMap A s0 = (true, s1))
    (hexp : expandMathExpression A fuel s1 = .ok (true, s2))
    (hcap : getEntitySize s2 .Argument < nameCapacity) : Runnable A s2 := by
  obtain ⟨hs1, _⟩ := setArgumentMap_inv A s0 s1 hmap
  have hs2 := expandLoop_inv A fuel 0 s1 s2 true hs1 hexp
  rw [getEntitySize_argument, countP_le_of_MapInv A hs2.1] at hcap
  refine ⟨hs2.2.2 hcap, ?_⟩
  intro hG
  obtain ⟨hm, hno⟩ := expandLoop_no_generator A fuel 0 s1 s2 hs1 hexp hG
    (fun j hj => absurd hj (by omega))
  by_cases hnil : s2.m_math = []
  · exact Or.inl hnil
  · right
    have hlen : s2.m_math.length - 1 < s2.m_math.length := by
      have := List.length_pos.2 hnil
      omega
    rcases hs2.2.1 _ (getD_mem_or s2.m_math _ [] hlen) with h1 | h1
    · have := hno (s2.m_math.length - 1) (by rw [← hm]; exact hlen)
      rw [← hm, isOperator, h1] at this
      cases this
    · exact h1

end NoGenerator

section Tokens

variable {V : Type} (A : Arith V)

theorem setArgumentMapLoop_char (rp : Str) (rem : Nat) (e : Str) (s : MathExpression V)
    (c : Char) (hch : charAt rp (rp.length - (rem + 1)) = c) (hc : c ≠ ' ')
    (hlast : rp.length - (rem + 1) ≠ rp.length - 1) :
    setArgumentMapLoop A rp (rem + 1) e s = setArgumentMapLoop A rp rem (e ++ [c]) s := by
  rw [setArgumentMapLoop]
  have hcb : (c == ' ') = false := by simpa using hc
  have hl : (rp.length - (rem + 1) == rp.length - 1) = false := by
    rw [beq_eq_false_iff_ne]; exact hlast
  simp only [hch, hcb, hl, Bool.or_self, Bool.false_eq_true, if_false]

theorem setArgumentMapLoop_blank (rp : Str) (rem : Nat) (e : Str) (s : MathExpression V)
    (hch : charAt rp (rp.length - (rem + 1)) = ' ') :
    setArgumentMapLoop A rp (rem + 1) e s
      = match classifyEntity A (rp.length - (rem + 1)) e s with
        | (false, s1) => (false, s1)
        | (true, s1) => setArgumentMapLoop A rp rem [] s1 := by
  rw [setArgumentMapLoop]
  simp only [hch, beq_self_eq_true, Bool.true_or, if_true, bne_self_eq_false, Bool.and_false,
    Bool.false_eq_true, if_false]

theorem setArgumentMapLoop_end (rp : Str) (rem : Nat) (e : Str) (s : MathExpression V)
    (c : Char) (hch : charAt rp (rp.length - (rem + 1)) = c) (hc : c ≠ ' ')
    (hlast : rp.length - (rem + 1) = rp.length - 1) :
    setArgumentMapLoop A rp (rem + 1) e s
      = match classifyEntity A (rp.length - (rem + 1)) (e ++ [c]) s with
        | (false, s1) => (false, s1)
        | (true, s1) => setArgumentMapLoop A rp rem [] s1 := by
  rw [setArgumentMapLoop]
  have hcn : (c != ' ') = true := by simpa using hc
  have hl : (rp.length - (rem + 1) == rp.length - 1) = true := by
    rw [beq_iff_eq]; exact hlast
  simp only [hch, hl, hcn, Bool.or_true, Bool.and_self, if_true]

theorem setArgumentMapLoop_space (pre u tail e : Str) (s : MathExpression V)
    (hu : ∀ c ∈ u, c ≠ ' ') :
    setArgumentMapLoop A (pre ++ u ++ ' ' :: tail) (u.length + 1 + tail.length) e s
      = match classifyEntity A (pre.length + u.length) (e ++ u) s with
        | (false, s1) => (false, s1)
        | (true, s1) => setArgumentMapLoop A (pre ++ u ++ ' ' :: tail) tail.length [] s1 := by
  induction u generalizing pre e with
  | nil =>
    have hrem : ([] : Str).length + 1 + tail.length = tail.length + 1 := by
      simp only [List.length_nil]; omega
    have hi : (pre ++ [] ++ ' ' :: tail).length - (tail.length + 1) = pre.length := by
      simp only [List.append_nil, List.length_append, List.length_cons]
      omega
    have hc : charAt (pre ++ [] ++ ' ' :: tail) ((pre ++ [] ++ ' ' :: tail).length
        - (tail.length + 1)) = ' ' := by
      rw [hi, List.append_nil]
      exact charAt_append_cons pre ' ' tail
    rw [hrem, setArgumentMapLoop_blank A _ _ e s hc, hi]
    simp only [List.append_nil, List.length_nil, Nat.add_zero]
  | cons c u ih =>
    have hc : c ≠ ' ' := hu c (List.mem_cons_self _ _)
    have hu2 : ∀ d ∈ u, d ≠ ' ' := fun d hd => hu d (List.mem_cons_of_mem _ hd)
    have hrem : (c :: u).length + 1 + tail.length = (u.length + 1 + tail.length) + 1 := by
      simp only [List.length_cons]; omega
    have hi : (pre ++ c :: u ++ ' ' :: tail).length - ((u.length + 1 + tail.length) + 1)
        = pre.length := by
      simp only [List.length_append, List.length_cons]
      omega
    have hch : charAt (pre ++ c :: u ++ ' ' :: tail) ((pre ++ c :: u ++ ' ' :: tail).length
        - ((u.length + 1 + tail.length) + 1)) = c := by
      rw [hi, List.append_assoc]
      exact charAt_append_cons pre c _
    have hlast : (pre ++ c :: u ++ ' ' :: tail).length - ((u.length + 1 + tail.length) + 1)
        ≠ (pre ++ c :: u ++ ' ' :: tail).length - 1 := by
      rw [hi]
      simp only [List.length_append, List.length_cons]
      omega
    rw [hrem, setArgumentMapLoop_char A _ _ e s c hch hc hlast]
    have e1 : pre ++ c :: u ++ ' ' :: tail = (pre ++ [c]) ++ u ++ ' ' :: tail := by simp
    rw [e1, ih (pre ++ [c]) (e ++ [c]) hu2]
    simp only [List.length_append, List.length_cons, List.length_nil, List.append_assoc,
      List.singleton_append]
    have e2 : pre.length + 0 + 1 + u.length = pre.length + (u.length + 1) := by omega
    rw [e2]

theorem setArgumentMapLoop_last (pre u e : Str) (c : Char) (s : MathExpression V)
    (hu : ∀ d ∈ u, d ≠ ' ') (hc : c ≠ ' ') :
    setArgumentMapLoop A (pre ++ u ++ [c]) (u.length + 1) e s
      = match classifyEntity A (pre.length + u.length) (e ++ u ++ [c]) s with
        | (false, s1) => (false, s1)
        | (true, s1) => (true, s1) := by
  induction u generalizing pre e with
  | nil =>
    have hi : (pre ++ [] ++ [c]).length - (0 + 1) = pre.length := by simp
    have hch : charAt (pre ++ [] ++ [c]) ((pre ++ [] ++ [c]).length - (0 + 1)) = c := by
      rw [hi, List.append_nil]
      exact charAt_append_cons pre c []
    rw [show ([] : Str).length + 1 = 0 + 1 from rfl,
      setArgumentMapLoop_end A _ _ e s c hch hc rfl, hi]
    simp only [List.append_nil, List.length_nil, Nat.add_zero, setArgumentMapLoop]
  | cons d u ih =>
    have hd : d ≠ ' ' := hu d (List.mem_cons_self _ _)
    have hu2 : ∀ x ∈ u, x ≠ ' ' := fun x hx => hu x (List.mem_cons_of_mem _ hx)
    have hi : (pre ++ d :: u ++ [c]).length - ((u.length + 1) + 1) = pre.length := by
      simp only [List.length_append, List.length_cons, List.length_nil]
      omega
    have hch : charAt (pre ++ d :: u ++ [c]) ((pre ++ d :: u ++ [c]).length
        - ((u.length + 1) + 1)) = d := by
      rw [hi, List.append_assoc]
      exact charAt_append_cons pre d _
    have hlast : (pre ++ d :: u ++ [c]).length - ((u.length + 1) + 1)
        ≠ (pre ++ d :: u ++ [c]).length - 1 := by
      rw [hi]
      simp only [List.length_append, List.length_cons, List.length_nil]
      omega
    rw [show (d :: u).length + 1 = (u.length + 1) + 1 from rfl,
      setArgumentMapLoop_char A _ _ e s d hch hd hlast]
    have e1 : pre ++ d :: u ++ [c] = (pre ++ [d]) ++ u ++ [c] := by simp
    rw [e1, ih (pre ++ [d]) (e ++ [d]) hu2]
    simp only [List.length_append, List.length_cons, List.length_nil, List.append_assoc,
      List.singleton_append]
    have e2 : pre.length + 0 + 1 + u.length = pre.length + (u.length + 1) := by omega
    rw [e2]

theorem isToken_iff (t : Str) : isToken t = true ↔ t ≠ [] ∧ ∀ c ∈ t, c ≠ ' ' := by
  cases t with
  | nil => simp [isToken]
  | cons c t => simp [isToken]

/-- On the text of a list of entities, the loop of `setArgumentMap` classifies the entities
one after the other. -/
theorem setArgumentMapLoop_tokens (pre : Str) (ts : List Str) (s : MathExpression V)
    (hts : ∀ t ∈ ts, isToken t = true) :
    setArgumentMapLoop A (pre ++ rpText ts) (rpText ts).length [] s
      = classifyTokens A pre.length ts s := by
  induction ts generalizing pre s with
  | nil => rfl
  | cons t ts ih =>
    obtain ⟨hne, hsp⟩ := (isToken_iff t).1 (hts t (List.mem_cons_self _ _))
    cases ts with
    | nil =>
      rcases List.eq_nil_or_concat t with h0 | ⟨u, c, hu⟩
      · exact absurd h0 hne
      · have hu2 : t = u ++ [c] := by simpa using hu
        subst hu2
        have h1 : ∀ d ∈ u, d ≠ ' ' := fun d hd => hsp d (List.mem_append.2 (Or.inl hd))
        have h2 : c ≠ ' ' := hsp c (List.mem_append.2 (Or.inr (List.mem_singleton.2 rfl)))
        simp only [rpText, classifyTokens]
        rw [← List.append_assoc, show (u ++ [c]).length = u.length + 1 by simp,
          setArgumentMapLoop_last A pre u [] c s h1 h2]
        have e : pre.length + (u.length + 1) - 1 = pre.length + u.length := by omega
        rw [e, List.nil_append]
        cases classifyEntity A (pre.length + u.length) (u ++ [c]) s with
        | mk b s1 => cases b <;> rfl
    | cons t2 ts =>
      have hts2 : ∀ x ∈ t2 :: ts, isToken x = true :=
        fun x hx => hts x (List.mem_cons_of_mem _ hx)
      simp only [rpText, classifyTokens]
      rw [← List.append_assoc,
        show (t ++ ' ' :: rpText (t2 :: ts)).length = t.length + 1 + (rpText (t2 :: ts)).length by
          simp only [List.length_append, List.length_cons]; omega,
        setArgumentMapLoop_space A pre t (rpText (t2 :: ts)) [] s hsp, List.nil_append]
      cases hcl : classifyEntity A (pre.length + t.length) t s with
      | mk b s1 =>
        cases b with
        | false => rfl
        | true =>
          simp only
          have e1 : pre ++ t ++ ' ' :: rpText (t2 :: ts) = (pre ++ t ++ [' ']) ++ rpText (t2 :: ts) := by
            simp
          rw [e1, ih (pre ++ t ++ [' ']) s1 hts2]
          simp only [List.length_append, List.length_cons, List.length_nil]

/-- The case of `setArgumentMap(const string &)`. -/
theorem setArgumentMapFrom_tokens (ts : List Str) (s : MathExpression V)
    (hts : ∀ t ∈ ts, isToken t = true) :
    setArgumentMapFrom A (rpText ts) s
      = classifyTokens A 0 ts
          { s with m_reversePolish := rpText ts, m_math := [], m_argumentMap := [],
                   m_generatorVec := [] } := by
  have := setArgumentMapLoop_tokens A [] ts
    { s with m_reversePolish := rpText ts, m_math := [], m_argumentMap := [],
             m_generatorVec := [] } hts
  simp only [List.nil_append, List.length_nil] at this
  exact this

end Tokens

section Steps

variable {V : Type} (A : Arith V)

theorem getD_append_cons {α : Type} (pre : List α) (t : α) (post : List α) (d : α) :
    (pre ++ t :: post).getD pre.length d = t := by
  induction pre with
  | nil => rfl
  | cons a pre ih => simpa using ih

theorem getD_append_left {α : Type} (pre post : List α) (k : Nat) (d : α)
    (h : k < pre.length) : (pre ++ post).getD k d = pre.getD k d := by
  rw [List.getD_eq_getElem?_getD, List.getD_eq_getElem?_getD, List.getElem?_append_left h]

theorem isOperatorTwoArg_not_one (t : Str) (h : isOperatorTwoArg t = true) :
    isOperatorOneArg t = false := by
  have hop : hasOperatorMap t = true := by
    by_contra hc
    simp [isOperatorTwoArg, hc] at h
  rcases (hasOperatorMap_iff t).1 hop with h1 | h1 | h1 | h1 | h1 | h1 | h1 | h1 | h1 | h1 | h1 <;>
    subst h1 <;> first
      | rfl
      | exact absurd h (by decide)

theorem isOperator_of_one (t : Str) (h : isOperatorOneArg t = true) : isOperator t = true := by
  by_contra hc
  have : hasOperatorMap t = false := by simpa [isOperator] using hc
  simp [isOperatorOneArg, this] at h

theorem isOperator_of_two (t : Str) (h : isOperatorTwoArg t = true) : isOperator t = true := by
  by_contra hc
  have : hasOperatorMap t = false := by simpa [isOperator] using hc
  simp [isOperatorTwoArg, this] at h

/-- An argument is not an operator name. -/
theorem isOperator_false_of_argument (s : MathExpression V) (hM : MapInv A s.m_argumentMap)
    (t : Str) (h : isArgument A s t = true) : isOperator t = false := by
  rw [Bool.eq_false_iff]
  intro hc
  have := isArgument_false_of_operator A s hM t hc
  rw [h] at this
  cases this

/-- The backward scan from the end of a run of entities that are not operators stops at the
start of the run. -/
theorem scanBack_run (done r0 post : List Str)
    (hb : done = [] ∨ ∃ d o, done = d ++ [o] ∧ isOperator o = true)
    (hr : ∀ t ∈ r0, isOperator t = false) :
    scanBack (done ++ r0 ++ post) (done ++ r0).length = done.length := by
  induction r0 using List.reverseRecOn generalizing post with
  | nil =>
    rcases hb with hb | ⟨d, o, hd, ho⟩
    · subst hb; rfl
    · subst hd
      have hlen : (d ++ [o] ++ []).length = d.length + 1 := by simp
      have hget : (d ++ [o] ++ [] ++ post).getD d.length [] = o := by
        rw [List.append_nil, List.append_assoc]
        exact getD_append_cons d o _ []
      rw [hlen, scanBack, hget, ho, if_pos rfl]
      simp
  | append_singleton r0 x ih =>
    have hx : isOperator x = false := hr x (by simp)
    have hr0 : ∀ t ∈ r0, isOperator t = false := fun t ht => hr t (by simp [ht])
    have hlen : (done ++ (r0 ++ [x])).length = (done ++ r0).length + 1 := by
      simp only [List.length_append, List.length_cons, List.length_nil]; omega
    have hget : (done ++ (r0 ++ [x]) ++ post).getD (done ++ r0).length [] = x := by
      have : done ++ (r0 ++ [x]) ++ post = (done ++ r0) ++ x :: post := by simp
      rw [this]
      exact getD_append_cons _ x _ []
    rw [hlen, scanBack, hget, hx]
    simp only [Bool.false_eq_true, if_false]
    have : done ++ (r0 ++ [x]) ++ post = done ++ r0 ++ (x :: post) := by simp
    rw [this]
    exact ih (x :: post) hr0

end Steps

section Steps2

variable {V : Type} (A : Arith V)

theorem expandLoop_operand (fuel : Nat) (pre post : List Str) (t : Str) (s : MathExpression V)
    (hm : s.m_math = pre ++ t :: post) (ht : isOperator t = false) :
    expandLoop A (fuel + 1) pre.length s = expandLoop A fuel (pre.length + 1) s := by
  rw [expandLoop]
  have hlt : pre.length < s.m_math.length := by rw [hm]; simp
  have hget : s.m_math.getD pre.length [] = t := by rw [hm]; exact getD_append_cons _ _ _ _
  simp only [hlt, if_true, hget, ht, Bool.false_eq_true, if_false]

theorem with_math_self (s : MathExpression V) : { s with m_math := s.m_math ++ [] } = s := by
  simp

/-- A one-argument operator after an argument: the entities of the run before the argument are
copied to the end of `m_math` and a generator is built. -/
theorem expandLoop_reduce1 (fuel : Nat) (done r0 post : List Str) (x t : Str)
    (s : MathExpression V) (hm : s.m_math = done ++ r0 ++ [x] ++ t :: post)
    (hb : done = [] ∨ ∃ d o, done = d ++ [o] ∧ isOperator o = true)
    (hr : ∀ u ∈ r0, isOperator u = false)
    (hx : isArgument A s x = true) (ht : isOperatorOneArg t = true) :
    expandLoop A (fuel + 1) (done ++ r0 ++ [x]).length s
      = expandLoop A fuel ((done ++ r0 ++ [x]).length + 1)
          (generateArgOp A x t { s with m_math := s.m_math ++ r0 }) := by
  rw [expandLoop]
  have hlt : (done ++ r0 ++ [x]).length < s.m_math.length := by rw [hm]; simp
  have hget : s.m_math.getD (done ++ r0 ++ [x]).length [] = t := by
    rw [hm]; exact getD_append_cons _ _ _ _
  have hi1 : (done ++ r0 ++ [x]).length - 1 = (done ++ r0).length := by simp
  have hget1 : s.m_math.getD ((done ++ r0 ++ [x]).length - 1) [] = x := by
    rw [hi1, hm, List.append_assoc (done ++ r0)]
    exact getD_append_cons _ _ _ _
  have hop := isOperator_of_one t ht
  have hpos : (done ++ r0 ++ [x]).length > 0 := by simp
  simp only [hlt, if_true, hget, hget1, hop, hpos, hx, ht, Bool.and_self]
  by_cases h1 : (done ++ r0 ++ [x]).length > 1
  · rw [if_pos h1]
    congr 1
    simp only [pushBackRange, hi1]
    have hsb : scanBack s.m_math (done ++ r0).length = done.length := by
      rw [hm, List.append_assoc (done ++ r0)]
      exact scanBack_run done r0 _ hb hr
    rw [hsb]
    have : (s.m_math.drop done.length).take ((done ++ r0).length - done.length) = r0 := by
      rw [hm]
      simp only [List.append_assoc, List.drop_left, List.length_append, Nat.add_sub_cancel_left,
        List.take_left]
    rw [this]
  · rw [if_neg h1]
    have : r0 = [] := by
      simp only [List.length_append, List.length_cons, List.length_nil] at h1
      exact List.length_eq_zero.1 (by omega)
    subst this
    rw [with_math_self]

/-- An operator after an operator is copied to the end of `m_math`. -/
theorem expandLoop_copy1 (fuel : Nat) (pre post : List Str) (o t : Str)
    (s : MathExpression V) (hM : MapInv A s.m_argumentMap)
    (hm : s.m_math = pre ++ [o] ++ t :: post)
    (ho : isOperator o = true) (ht : isOperator t = true) :
    expandLoop A (fuel + 1) (pre ++ [o]).length s
      = expandLoop A fuel ((pre ++ [o]).length + 1) { s with m_math := s.m_math ++ [t] } := by
  rw [expandLoop]
  have hlt : (pre ++ [o]).length < s.m_math.length := by rw [hm]; simp
  have hget : s.m_math.getD (pre ++ [o]).length [] = t := by
    rw [hm]; exact getD_append_cons _ _ _ _
  have hi1 : (pre ++ [o]).length - 1 = pre.length := by simp
  have hget1 : s.m_math.getD ((pre ++ [o]).length - 1) [] = o := by
    rw [hi1, hm, List.append_assoc]
    exact getD_append_cons _ _ _ _
  have hpos : (pre ++ [o]).length > 0 := by simp
  have hna : isArgument A s o = false := isArgument_false_of_operator A s hM o ho
  simp only [hlt, if_true, hget, hget1, ht, hpos, hna, ho, Bool.false_and, Bool.and_self,
    Bool.false_eq_true, if_false]

/-- A two-argument operator after two arguments: the entities of the run before the arguments
are copied to the end of `m_math` and a generator is built. -/
theorem expandLoop_reduce2 (fuel : Nat) (done r0 post : List Str) (x y t : Str)
    (s : MathExpression V) (hM : MapInv A s.m_argumentMap)
    (hm : s.m_math = done ++ r0 ++ [x, y] ++ t :: post)
    (hb : done = [] ∨ ∃ d o, done = d ++ [o] ∧ isOperator o = true)
    (hr : ∀ u ∈ r0, isOperator u = false)
    (hx : isArgument A s x = true) (hy : isArgument A s y = true)
    (ht : isOperatorTwoArg t = true) :
    expandLoop A (fuel + 1) (done ++ r0 ++ [x, y]).length s
      = expandLoop A fuel ((done ++ r0 ++ [x, y]).length + 1)
          (generateArgArgOp A x y t { s with m_math := s.m_math ++ r0 }) := by
  rw [expandLoop]
  have hlt : (done ++ r0 ++ [x, y]).length < s.m_math.length := by rw [hm]; simp
  have hget : s.m_math.getD (done ++ r0 ++ [x, y]).length [] = t := by
    rw [hm]; exact getD_append_cons _ _ _ _
  have hi1 : (done ++ r0 ++ [x, y]).length - 1 = (done ++ r0 ++ [x]).length := by simp
  have hi2 : (done ++ r0 ++ [x, y]).length - 2 = (done ++ r0).length := by
    simp only [List.length_append, List.length_cons, List.length_nil]; omega
  have hget1 : s.m_math.getD ((done ++ r0 ++ [x, y]).length - 1) [] = y := by
    rw [hi1, hm]
    have : done ++ r0 ++ [x, y] ++ t :: post = (done ++ r0 ++ [x]) ++ y :: t :: post := by simp
    rw [this]
    exact getD_append_cons _ _ _ _
  have hget2 : s.m_math.getD ((done ++ r0 ++ [x, y]).length - 2) [] = x := by
    rw [hi2, hm]
    have : done ++ r0 ++ [x, y] ++ t :: post = (done ++ r0) ++ x :: y :: t :: post := by simp
    rw [this]
    exact getD_append_cons _ _ _ _
  have hop := isOperator_of_two t ht
  have hone := isOperatorTwoArg_not_one t ht
  have hyo := isOperator_false_of_argument A s hM y hy
  have hpos : (done ++ r0 ++ [x, y]).length > 0 := by simp
  have hpos1 : (done ++ r0 ++ [x, y]).length > 1 := by
    simp only [List.length_append, List.length_cons, List.length_nil]; omega
  simp only [hlt, if_true, hget, hget1, hget2, hop, hpos, hpos1, hx, hy, ht, hone, hyo,
    Bool.and_self, Bool.and_false, Bool.false_and, Bool.false_eq_true, if_false]
  by_cases h1 : (done ++ r0 ++ [x, y]).length > 2
  · rw [if_pos h1]
    congr 1
    simp only [pushBackRange, hi2]
    have hsb : scanBack s.m_math (done ++ r0).length = done.length := by
      rw [hm, List.append_assoc (done ++ r0)]
      exact scanBack_run done r0 _ hb hr
    rw [hsb]
    have : (s.m_math.drop done.length).take ((done ++ r0).length - done.length) = r0 := by
      rw [hm]
      simp only [List.append_assoc, List.drop_left, List.length_append, Nat.add_sub_cancel_left,
        List.take_left]
    rw [this]
  · rw [if_neg h1]
    have : r0 = [] := by
      simp only [List.length_append, List.length_cons, List.length_nil] at h1
      exact List.length_eq_zero.1 (by omega)
    subst this
    rw [with_math_self]

/-- A two-argument operator after an operator and one argument: the argument and the operator
are copied to the end of `m_math`. -/
theorem expandLoop_copy2 (fuel : Nat) (pre post : List Str) (o x t : Str)
    (s : MathExpression V) (hM : MapInv A s.m_argumentMap)
    (hm : s.m_math = pre ++ [o, x] ++ t :: post)
    (ho : isOperator o = true) (hx : isArgument A s x = true)
    (ht : isOperatorTwoArg t = true) :
    expandLoop A (fuel + 1) (pre ++ [o, x]).length s
      = expandLoop A fuel ((pre ++ [o, x]).length + 1)
          { s with m_math := s.m_math ++ [x, t] } := by
  rw [expandLoop]
  have hlt : (pre ++ [o, x]).length < s.m_math.length := by rw [hm]; simp
  have hget : s.m_math.getD (pre ++ [o, x]).length [] = t := by
    rw [hm]; exact getD_append_cons _ _ _ _
  have hi1 : (pre ++ [o, x]).length - 1 = (pre ++ [o]).length := by simp
  have hi2 : (pre ++ [o, x]).length - 2 = pre.length := by
    simp only [List.length_append, List.length_cons, List.length_nil]; omega
  have hget1 : s.m_math.getD ((pre ++ [o, x]).length - 1) [] = x := by
    rw [hi1, hm]
    have : pre ++ [o, x] ++ t :: post = (pre ++ [o]) ++ x :: t :: post := by simp
    rw [this]
    exact getD_append_cons _ _ _ _
  have hget2 : s.m_math.getD ((pre ++ [o, x]).length - 2) [] = o := by
    rw [hi2, hm]
    have : pre ++ [o, x] ++ t :: post = pre ++ o :: x :: t :: post := by simp
    rw [this]
    exact getD_append_cons _ _ _ _
  have hop := isOperator_of_two t ht
  have hone := isOperatorTwoArg_not_one t ht
  have hxo := isOperator_false_of_argument A s hM x hx
  have hna : isArgument A s o = false := isArgument_false_of_operator A s hM o ho
  have hpos : (pre ++ [o, x]).length > 0 := by simp
  have hpos1 : (pre ++ [o, x]).length > 1 := by
    simp only [List.length_append, List.length_cons, List.length_nil]; omega
  simp only [hlt, if_true, hget, hget1, hget2, hop, hpos, hpos1, hx, ht, hone, hxo, hna, ho,
    Bool.and_self, Bool.and_false, Bool.false_and, Bool.false_eq_true, if_false]

/-- Past the last operator the loop of `expandMathExpression` runs to the end. -/
theorem expandLoop_skip (fuel : Nat) (pre post : List Str) (s : MathExpression V)
    (hm : s.m_math = pre ++ post) (hp : ∀ t ∈ post, isOperator t = false)
    (hf : post.length ≤ fuel) :
    expandLoop A fuel pre.length s = .ok (true, s) := by
  induction post generalizing pre fuel with
  | nil =>
    have hlt : ¬ pre.length < s.m_math.length := by rw [hm]; simp
    cases fuel with
    | zero => rw [expandLoop, if_neg hlt]
    | succ fuel => rw [expandLoop, if_neg hlt]
  | cons t post ih =>
    cases fuel with
    | zero => simp at hf
    | succ fuel =>
      rw [expandLoop_operand A fuel pre post t s hm (hp t (List.mem_cons_self _ _))]
      have := ih fuel (pre ++ [t]) (by rw [hm]; simp)
        (fun u hu => hp u (List.mem_cons_of_mem _ hu)) (by simpa using hf)
      simpa using this

end Steps2

section Parse

variable {V : Type} (A : Arith V)

theorem parseRP_append (Γ : List (Str × Expr)) (l1 l2 : List Str) (st : List Expr) :
    parseRP A Γ (l1 ++ l2) st = (parseRP A Γ l1 st).bind (parseRP A Γ l2) := by
  induction l1 generalizing st with
  | nil => rfl
  | cons t l1 ih =>
    simp only [List.cons_append, parseRP]
    cases parseStep A Γ st t with
    | none => rfl
    | some st1 => exact ih st1

theorem isOperatorOneArg_false_of (t : Str) (h : isOperator t = false) :
    isOperatorOneArg t = false := by
  rw [Bool.eq_false_iff]
  intro hc
  rw [isOperator_of_one t hc] at h
  cases h

theorem isOperatorTwoArg_false_of (t : Str) (h : isOperator t = false) :
    isOperatorTwoArg t = false := by
  rw [Bool.eq_false_iff]
  intro hc
  rw [isOperator_of_two t hc] at h
  cases h

theorem parseStep_operand (Γ : List (Str × Expr)) (st : List Expr) (t : Str)
    (h : isOperator t = false) : parseStep A Γ st t = some (symOf Γ (ptrOf A t) :: st) := by
  simp [parseStep, isOperatorOneArg_false_of t h, isOperatorTwoArg_false_of t h]

theorem parseStep_one (Γ : List (Str × Expr)) (st : List Expr) (t : Str) (f : DDFun)
    (x : Expr) (h : isOperatorOneArg t = true)
    (hf : (getOperator t).bind (fun o => o.m_ddOperator) = some f) :
    parseStep A Γ (x :: st) t = some (.app1 f x :: st) := by
  simp [parseStep, h, hf]

theorem parseStep_two (Γ : List (Str × Expr)) (st : List Expr) (t : Str) (f : DDDFun)
    (x y : Expr) (h : isOperatorTwoArg t = true)
    (hf : (getOperator t).bind (fun o => o.m_dddOperator) = some f) :
    parseStep A Γ (y :: x :: st) t = some (.app2 f x y :: st) := by
  simp [parseStep, h, hf, isOperatorTwoArg_not_one t h]

theorem parseStep_operator_nil (Γ : List (Str × Expr)) (t : Str) (h : isOperator t = true) :
    parseStep A Γ [] t = none := by
  rcases isOperator_arity t h with h1 | h1
  · simp [parseStep, h1]
  · simp [parseStep, h1, isOperatorTwoArg_not_one t h1]

theorem parseStep_two_single (Γ : List (Str × Expr)) (t : Str) (x : Expr)
    (h : isOperatorTwoArg t = true) : parseStep A Γ [x] t = none := by
  simp [parseStep, h, isOperatorTwoArg_not_one t h]

theorem ptrOf_ne (t nm : Str) (h : t ≠ nm) : ptrOf A t ≠ .argument nm := by
  unfold ptrOf
  split
  · intro hc; cases hc
  · intro hc
    exact h (ArgPtr.argument.inj hc)

theorem parseStep_congr (Γ : List (Str × Expr)) (nm : Str) (e : Expr) (st : List Expr)
    (t : Str) (h : t ≠ nm) :
    parseStep A (Γ ++ [(nm, e)]) st t = parseStep A Γ st t := by
  simp only [parseStep, symOf_append_ne Γ nm e _ (ptrOf_ne A t nm h)]

/-- A new generator does not change how a list without its name is read. -/
theorem parseRP_congr (Γ : List (Str × Expr)) (nm : Str) (e : Expr) (l : List Str)
    (st : List Expr) (h : nm ∉ l) :
    parseRP A (Γ ++ [(nm, e)]) l st = parseRP A Γ l st := by
  induction l generalizing st with
  | nil => rfl
  | cons t l ih =>
    have ht : t ≠ nm := fun hc => h (hc ▸ List.mem_cons_self _ _)
    have hl : nm ∉ l := fun hc => h (List.mem_cons_of_mem _ hc)
    simp only [parseRP, parseStep_congr A Γ nm e st t ht]
    cases parseStep A Γ st t with
    | none => rfl
    | some st1 => exact ih st1 hl

/-- A run of arguments is pushed on the stack. -/
theorem parseRP_run (Γ : List (Str × Expr)) (run : List Str) (st : List Expr)
    (h : ∀ t ∈ run, isOperator t = false) :
    parseRP A Γ run st = some ((run.map (fun t => symOf Γ (ptrOf A t))).reverse ++ st) := by
  induction run generalizing st with
  | nil => rfl
  | cons t run ih =>
    simp only [parseRP, parseStep_operand A Γ st t (h t (List.mem_cons_self _ _))]
    rw [ih _ (fun u hu => h u (List.mem_cons_of_mem _ hu))]
    simp

theorem createNewUserConstantName_with_math (s : MathExpression V) (math1 : List Str) :
    createNewUserConstantName { s with m_math := math1 } = createNewUserConstantName s := rfl

/-- The generator `generateArgOp` builds while the names have not run out. -/
theorem generateArgOp_fresh (s : MathExpression V) (hM : MapInv A s.m_argumentMap)
    (hc : s.m_argumentMap.countP counted < nameCapacity) (x t : Str)
    (hx : isArgument A s x = true) (ht : isOperatorOneArg t = true) :
    ∃ g f, generateArgOp A x t s = { s with
        m_argumentMap := s.m_argumentMap ++ [(nameOf (s.m_argumentMap.countP counted),
          ⟨nameOf (s.m_argumentMap.countP counted), .ArgumentGeneratedFromOneArg, 0, A.zero⟩)]
        m_generatorVec := s.m_generatorVec ++ [g]
        m_math := s.m_math ++ [nameOf (s.m_argumentMap.countP counted)] }
      ∧ g.m_name = nameOf (s.m_argumentMap.countP counted)
      ∧ GenWF A (mapKeys s.m_argumentMap) g
      ∧ (getOperator t).bind (fun o => o.m_ddOperator) = some f
      ∧ ∀ Γ, genTree Γ g = .app1 f (symOf Γ (ptrOf A x)) := by
  obtain ⟨p, hp, hpok, hpe⟩ := argPointer_ok A s hM x hx
  obtain ⟨o, f, ho, hf⟩ := isOperatorOneArg_spec t ht
  have hn := createNewUserConstantName_eq A s hM
  refine ⟨⟨nameOf (s.m_argumentMap.countP counted), .ArgumentGeneratedFromOneArg, some o,
    some p, none, some (nameOf (s.m_argumentMap.countP counted))⟩, f, ?_, rfl,
    ⟨rfl, Or.inl ⟨rfl, o, f, p, rfl, hf, rfl, hpok⟩⟩, by simp [ho, hf], ?_⟩
  · simp only [generateArgOp, hn, hp, ho, mapInsert_of_not_mem _ _ _ (hM.fresh_name A hc)]
  · intro Γ
    simp [genTree, hf, hpe, ptrOf]

/-- The generator `generateArgArgOp` builds while the names have not run out. -/
theorem generateArgArgOp_fresh (s : MathExpression V) (hM : MapInv A s.m_argumentMap)
    (hc : s.m_argumentMap.countP counted < nameCapacity) (x y t : Str)
    (hx : isArgument A s x = true) (hy : isArgument A s y = true)
    (ht : isOperatorTwoArg t = true) :
    ∃ g f, generateArgArgOp A x y t s = { s with
        m_argumentMap := s.m_argumentMap ++ [(nameOf (s.m_argumentMap.countP counted),
          ⟨nameOf (s.m_argumentMap.countP counted), .ArgumentGeneratedFromTwoArg, 0, A.zero⟩)]
        m_generatorVec := s.m_generatorVec ++ [g]
        m_math := s.m_math ++ [nameOf (s.m_argumentMap.countP counted)] }
      ∧ g.m_name = nameOf (s.m_argumentMap.countP counted)
      ∧ GenWF A (mapKeys s.m_argumentMap) g
      ∧ (getOperator t).bind (fun o => o.m_dddOperator) = some f
      ∧ ∀ Γ, genTree Γ g = .app2 f (symOf Γ (ptrOf A x)) (symOf Γ (ptrOf A y)) := by
  obtain ⟨p1, hp1, hpok1, hpe1⟩ := argPointer_ok A s hM x hx
  obtain ⟨p2, hp2, hpok2, hpe2⟩ := argPointer_ok A s hM y hy
  obtain ⟨o, f, ho, hf⟩ := isOperatorTwoArg_spec t ht
  have hn := createNewUserConstantName_eq A s hM
  refine ⟨⟨nameOf (s.m_argumentMap.countP counted), .ArgumentGeneratedFromTwoArg, some o,
    some p1, some p2, some (nameOf (s.m_argumentMap.countP counted))⟩, f, ?_, rfl,
    ⟨rfl, Or.inr ⟨rfl, o, f, p1, p2, rfl, hf, rfl, rfl, hpok1, hpok2⟩⟩, by simp [ho, hf], ?_⟩
  · simp only [generateArgArgOp, hn, hp1, hp2, ho, mapInsert_of_not_mem _ _ _ (hM.fresh_name A hc)]
  · intro Γ
    simp [genTree, hf, hpe1, hpe2, ptrOf]

end Parse

section CfgSteps

variable {V : Type} (A : Arith V)

theorem symOf_ptrOf_name (Γ : List (Str × Expr)) (nm : Str) (e : Expr)
    (hc : hasConstantMap A nm = false) (hn : nm ∉ Γ.map Prod.fst) :
    symOf (Γ ++ [(nm, e)]) (ptrOf A nm) = e := by
  simp only [ptrOf, hc, Bool.false_eq_true, if_false]
  exact symOf_append_self Γ nm e hn

/-- Reading a generated name gives what reading the argument and the one-argument operator it
stands for gave. -/
theorem parse_reduce1 (Γ : List (Str × Expr)) (nm x t : Str) (f : DDFun) (P rest : List Str)
    (hx : isOperator x = false) (ht : isOperatorOneArg t = true)
    (hf : (getOperator t).bind (fun o => o.m_ddOperator) = some f)
    (hP : nm ∉ P) (hrest : nm ∉ rest) (hop : isOperator nm = false)
    (hc : hasConstantMap A nm = false) (hn : nm ∉ Γ.map Prod.fst) :
    parseRP A (Γ ++ [(nm, .app1 f (symOf Γ (ptrOf A x)))]) (P ++ nm :: rest) []
      = parseRP A Γ (P ++ x :: t :: rest) [] := by
  rw [parseRP_append, parseRP_append, parseRP_congr A Γ nm _ P [] hP]
  cases parseRP A Γ P [] with
  | none => rfl
  | some st =>
    show parseRP A _ (nm :: rest) st = parseRP A Γ (x :: t :: rest) st
    simp only [parseRP, parseStep_operand A _ st nm hop,
      parseStep_operand A Γ st x hx, parseStep_one A Γ st t f _ ht hf,
      symOf_ptrOf_name A Γ nm _ hc hn]
    exact parseRP_congr A Γ nm _ rest _ hrest

/-- Reading a generated name gives what reading the two arguments and the two-argument
operator it stands for gave. -/
theorem parse_reduce2 (Γ : List (Str × Expr)) (nm x y t : Str) (f : DDDFun)
    (P rest : List Str) (hx : isOperator x = false) (hy : isOperator y = false)
    (ht : isOperatorTwoArg t = true)
    (hf : (getOperator t).bind (fun o => o.m_dddOperator) = some f)
    (hP : nm ∉ P) (hrest : nm ∉ rest) (hop : isOperator nm = false)
    (hc : hasConstantMap A nm = false) (hn : nm ∉ Γ.map Prod.fst) :
    parseRP A (Γ ++ [(nm, .app2 f (symOf Γ (ptrOf A x)) (symOf Γ (ptrOf A y)))])
        (P ++ nm :: rest) []
      = parseRP A Γ (P ++ x :: y :: t :: rest) [] := by
  rw [parseRP_append, parseRP_append, parseRP_congr A Γ nm _ P [] hP]
  cases parseRP A Γ P [] with
  | none => rfl
  | some st =>
    show parseRP A _ (nm :: rest) st = parseRP A Γ (x :: y :: t :: rest) st
    simp only [parseRP, parseStep_operand A _ st nm hop,
      parseStep_operand A Γ st x hx, parseStep_operand A Γ _ y hy,
      parseStep_two A Γ st t f _ _ ht hf, symOf_ptrOf_name A Γ nm _ hc hn]
    exact parseRP_congr A Γ nm _ rest _ hrest

theorem Cfg.mem_math {T : Expr} {L K : Nat} {done run rest out : List Str}
    {s : MathExpression V} (h : Cfg A T L K done run rest out s) (t : Str)
    (ht : t ∈ out ++ run ++ rest) : t ∈ s.m_math := by
  rw [h.math]
  simp only [List.mem_append] at ht ⊢
  tauto

theorem Cfg.isArgument_of {T : Expr} {L K : Nat} {done run rest out : List Str}
    {s : MathExpression V} (h : Cfg A T L K done run rest out s) (t : Str)
    (ht : t ∈ s.m_math) (hop : isOperator t = false) : isArgument A s t = true := by
  rcases h.inv.2.1 t ht with h1 | h1
  · rw [isOperator, h1] at hop
    cases hop
  · exact isArgument_of_key A s t h1

theorem Cfg.fresh_math {T : Expr} {L K : Nat} {done run rest out : List Str}
    {s : MathExpression V} (h : Cfg A T L K done run rest out s)
    (hc : s.m_argumentMap.countP counted < nameCapacity) :
    nameOf (s.m_argumentMap.countP counted) ∉ s.m_math := by
  intro hmem
  rcases h.inv.2.1 _ hmem with h1 | h1
  · rw [hasOperatorMap_nameOf] at h1
    cases h1
  · exact h.inv.1.fresh_name A hc h1

theorem Cfg.table_keys {T : Expr} {L K : Nat} {done run rest out : List Str}
    {s : MathExpression V} (h : Cfg A T L K done run rest out s) (nm : Str)
    (hn : nm ∉ mapKeys s.m_argumentMap) :
    nm ∉ (symTable s.m_generatorVec).map Prod.fst := by
  rw [symTable_keys]
  intro hmem
  obtain ⟨g, hg, hgn⟩ := List.mem_map.1 hmem
  exact hn (hgn ▸ h.built.names_subset A g hg)

/-- An argument entity joins the run. -/
theorem Cfg.operand {T : Expr} {L K : Nat} {done run rest out : List Str} {t : Str}
    {s : MathExpression V} (h : Cfg A T L K done run (t :: rest) out s)
    (ht : isOperator t = false) : Cfg A T L K done (run ++ [t]) rest out s := by
  have e : out ++ (run ++ [t]) ++ rest = out ++ run ++ t :: rest := by simp
  exact {
    math := by rw [h.math]; simp
    inv := h.inv
    built := h.built
    count := h.count
    ops := by rw [e]; exact h.ops
    cap := h.cap
    run_args := by
      intro u hu
      rcases List.mem_append.1 hu with hu | hu
      · exact h.run_args u hu
      · rw [List.mem_singleton.1 hu]; exact ht
    boundary := h.boundary
    first := h.first
    parse := by rw [e]; exact h.parse
    quiet := by rw [e]; exact h.quiet
    last := by rw [e]; exact h.last
    names := h.names }

/-- An operator right after an operator is copied. -/
theorem Cfg.copy1 {T : Expr} {L K : Nat} {done rest out : List Str} {t : Str}
    {s : MathExpression V} (h : Cfg A T L K done [] (t :: rest) out s)
    (ht : isOperator t = true) :
    Cfg A T L K (done ++ [t]) [] rest (out ++ [t]) { s with m_math := s.m_math ++ [t] } := by
  have e : out ++ [t] ++ [] ++ rest = out ++ [] ++ t :: rest := by simp
  exact {
    math := by
      show s.m_math ++ [t] = _
      rw [h.math]; simp
    inv := h.inv.add_math A [t] (fun u hu => by
      rw [List.mem_singleton.1 hu]
      exact h.mem_math A t (by simp))
    built := h.built
    count := h.count
    ops := by rw [e]; exact h.ops
    cap := h.cap
    run_args := fun u hu => by cases hu
    boundary := Or.inr ⟨done, t, rfl, ht⟩
    first := fun hd => absurd hd (by simp)
    parse := by rw [e]; exact h.parse
    quiet := fun _ h0 => by
      have hpos : 0 < (out ++ [t] ++ [] ++ rest).countP isOperator :=
        List.countP_pos_iff.2 ⟨t, by simp, ht⟩
      omega
    last := by rw [e]; exact h.last
    names := h.names }

/-- An argument and a two-argument operator right after an operator are copied. -/
theorem Cfg.copy2 {T : Expr} {L K : Nat} {done rest out : List Str} {x t : Str}
    {s : MathExpression V} (h : Cfg A T L K done [x] (t :: rest) out s)
    (ht : isOperator t = true) :
    Cfg A T L K (done ++ [x, t]) [] rest (out ++ [x, t])
      { s with m_math := s.m_math ++ [x, t] } := by
  have e : out ++ [x, t] ++ [] ++ rest = out ++ [x] ++ t :: rest := by simp
  exact {
    math := by
      show s.m_math ++ [x, t] = _
      rw [h.math]; simp
    inv := h.inv.add_math A [x, t] (fun u hu => by
      simp only [List.mem_cons, List.mem_singleton, List.mem_nil_iff, or_false] at hu
      rcases hu with hu | hu
      · rw [hu]; exact h.mem_math A x (by simp)
      · rw [hu]; exact h.mem_math A t (by simp))
    built := h.built
    count := h.count
    ops := by rw [e]; exact h.ops
    cap := h.cap
    run_args := fun u hu => by cases hu
    boundary := Or.inr ⟨done ++ [x], t, by simp, ht⟩
    first := fun hd => absurd hd (by simp)
    parse := by rw [e]; exact h.parse
    quiet := fun _ h0 => by
      have hpos : 0 < (out ++ [x, t] ++ [] ++ rest).countP isOperator :=
        List.countP_pos_iff.2 ⟨t, by simp, ht⟩
      omega
    last := by rw [e]; exact h.last
    names := h.names }

end CfgSteps

section CfgReduce

variable {V : Type} (A : Arith V)

theorem countP_isOperator_operand (t : Str) (h : isOperator t = false) :
    [t].countP isOperator = 0 := by simp [h]

theorem countP_isOperator_operator (t : Str) (h : isOperator t = true) :
    [t].countP isOperator = 1 := by simp [h]

/-- The room left for a new name while an operator is still to be reduced. -/
theorem Cfg.room {T : Expr} {L K : Nat} {done run rest out : List Str} {t : Str}
    {s : MathExpression V} (h : Cfg A T L K done run (t :: rest) out s)
    (ht : isOperator t = true) : s.m_argumentMap.countP counted < nameCapacity := by
  have h1 := h.ops
  have h2 := h.cap
  have h3 := h.count
  have e : out ++ run ++ t :: rest = out ++ run ++ [t] ++ rest := by simp
  rw [e, List.countP_append, List.countP_append, countP_isOperator_operator t ht] at h1
  omega

/-- A one-argument operator after an argument is reduced to a generator. -/
theorem Cfg.reduce1 {T : Expr} {L K : Nat} {done r0 rest out : List Str} {x t : Str}
    {s : MathExpression V} (h : Cfg A T L K done (r0 ++ [x]) (t :: rest) out s)
    (ht : isOperatorOneArg t = true) :
    ∃ nm, Cfg A T L K (done ++ (r0 ++ [x]) ++ [t]) [] rest (out ++ r0 ++ [nm])
        (generateArgOp A x t { s with m_math := s.m_math ++ r0 })
      ∧ Extends s (generateArgOp A x t { s with m_math := s.m_math ++ r0 })
      ∧ (generateArgOp A x t { s with m_math := s.m_math ++ r0 }).m_generatorVec.length
          = s.m_generatorVec.length + 1 := by
  have hop := isOperator_of_one t ht
  have hxo : isOperator x = false := h.run_args x (by simp)
  have hx : isArgument A s x = true := h.isArgument_of A x (h.mem_math A x (by simp)) hxo
  have hc := h.room A hop
  have hfr := h.fresh_math A hc
  have hfk := h.inv.1.fresh_name A hc
  obtain ⟨g, f, hgen, hname, hwf, hf, htree⟩ :=
    generateArgOp_fresh A { s with m_math := s.m_math ++ r0 } h.inv.1 hc x t hx ht
  refine ⟨nameOf (s.m_argumentMap.countP counted), ?_, ?_, ?_⟩
  · have hinv := generateArgOp_inv A s h.inv (s.m_math ++ r0)
      (fun u hu => by
        rcases List.mem_append.1 hu with hu | hu
        · exact h.inv.2.1 u hu
        · exact h.inv.2.1 u (h.mem_math A u (by simp [hu]))) x t hx ht
    rw [hgen] at hinv ⊢
    have hnW : ∀ l : List Str, (∀ u ∈ l, u ∈ s.m_math) →
        nameOf (s.m_argumentMap.countP counted) ∉ l := fun l hl hc2 => hfr (hl _ hc2)
    exact {
      math := by
        show s.m_math ++ r0 ++ [_] = _
        rw [h.math]; simp
      inv := hinv
      built := by
        show Built A (mapKeys (s.m_argumentMap ++ _)) (s.m_generatorVec ++ [g])
        rw [mapKeys_append]
        have := Built.gen g h.built hwf (by rw [hname]; exact hfk)
        rw [hname] at this
        exact this
      count := by
        show (s.m_argumentMap ++ _).countP counted = L + (s.m_generatorVec ++ [g]).length
        rw [List.countP_append, h.count]
        simp [counted]
        omega
      ops := by
        show (out ++ r0 ++ [_] ++ [] ++ rest).countP isOperator
          + (s.m_generatorVec ++ [g]).length = K
        have h1 := h.ops
        have e : out ++ (r0 ++ [x]) ++ t :: rest = out ++ r0 ++ [x] ++ [t] ++ rest := by simp
        rw [e] at h1
        simp only [List.countP_append, countP_isOperator_operand x hxo,
          countP_isOperator_operator t hop] at h1
        simp only [List.countP_append, List.countP_nil, List.length_append,
          List.length_cons, List.length_nil,
          countP_isOperator_operand _ (hasOperatorMap_nameOf _)]
        omega
      cap := h.cap
      run_args := fun u hu => by cases hu
      boundary := Or.inr ⟨done ++ (r0 ++ [x]), t, rfl, hop⟩
      first := fun hd => absurd hd (by simp)
      parse := by
        obtain ⟨S, hpar, hS⟩ := h.parse
        refine ⟨S, ?_, hS⟩
        show parseRP A (symTable (s.m_generatorVec ++ [g])) (out ++ r0 ++ [_] ++ [] ++ rest) []
          = some (T :: S)
        rw [symTable_append, hname, htree]
        have e1 : out ++ r0 ++ [nameOf (s.m_argumentMap.countP counted)] ++ [] ++ rest
            = (out ++ r0) ++ nameOf (s.m_argumentMap.countP counted) :: rest := by simp
        have e2 : out ++ (r0 ++ [x]) ++ t :: rest = (out ++ r0) ++ x :: t :: rest := by simp
        rw [e1, parse_reduce1 A _ _ x t f (out ++ r0) rest hxo ht hf
          (hnW _ (fun u hu => h.mem_math A u (by
            simp only [List.mem_append] at hu ⊢; tauto)))
          (hnW _ (fun u hu => h.mem_math A u (by simp [hu])))
          (hasOperatorMap_nameOf _) (hasConstantMap_nameOf A _) (h.table_keys A _ hfk),
          ← e2]
        exact hpar
      quiet := fun hG _ => absurd hG (by simp)
      last := Or.inr ⟨s.m_generatorVec, g, rfl, by rw [hname]; simp⟩
      names := by
        intro g2 hg2
        rcases List.mem_append.1 hg2 with hg2 | hg2
        · exact h.names g2 hg2
        · rw [List.mem_singleton.1 hg2, hname]
          exact hasConstantMap_nameOf A _ }
  · rw [hgen]
    exact ⟨⟨_, rfl⟩, by simp⟩
  · rw [hgen]
    simp

/-- A two-argument operator after two arguments is reduced to a generator. -/
theorem Cfg.reduce2 {T : Expr} {L K : Nat} {done r0 rest out : List Str} {x y t : Str}
    {s : MathExpression V} (h : Cfg A T L K done (r0 ++ [x, y]) (t :: rest) out s)
    (ht : isOperatorTwoArg t = true) :
    ∃ nm, Cfg A T L K (done ++ (r0 ++ [x, y]) ++ [t]) [] rest (out ++ r0 ++ [nm])
        (generateArgArgOp A x y t { s with m_math := s.m_math ++ r0 })
      ∧ Extends s (generateArgArgOp A x y t { s with m_math := s.m_math ++ r0 })
      ∧ (generateArgArgOp A x y t { s with m_math := s.m_math ++ r0 }).m_generatorVec.length
          = s.m_generatorVec.length + 1 := by
  have hop := isOperator_of_two t ht
  have hxo : isOperator x = false := h.run_args x (by simp)
  have hyo : isOperator y = false := h.run_args y (by simp)
  have hx : isArgument A s x = true := h.isArgument_of A x (h.mem_math A x (by simp)) hxo
  have hy : isArgument A s y = true := h.isArgument_of A y (h.mem_math A y (by simp)) hyo
  have hc := h.room A hop
  have hfr := h.fresh_math A hc
  have hfk := h.inv.1.fresh_name A hc
  obtain ⟨g, f, hgen, hname, hwf, hf, htree⟩ :=
    generateArgArgOp_fresh A { s with m_math := s.m_math ++ r0 } h.inv.1 hc x y t hx hy ht
  refine ⟨nameOf (s.m_argumentMap.countP counted), ?_, ?_, ?_⟩
  · have hinv := generateArgArgOp_inv A s h.inv (s.m_math ++ r0)
      (fun u hu => by
        rcases List.mem_append.1 hu with hu | hu
        · exact h.inv.2.1 u hu
        · exact h.inv.2.1 u (h.mem_math A u (by simp [hu]))) x y t hx hy ht
    rw [hgen] at hinv ⊢
    have hnW : ∀ l : List Str, (∀ u ∈ l, u ∈ s.m_math) →
        nameOf (s.m_argumentMap.countP counted) ∉ l := fun l hl hc2 => hfr (hl _ hc2)
    exact {
      math := by
        show s.m_math ++ r0 ++ [_] = _
        rw [h.math]; simp
      inv := hinv
      built := by
        show Built A (mapKeys (s.m_argumentMap ++ _)) (s.m_generatorVec ++ [g])
        rw [mapKeys_append]
        have := Built.gen g h.built hwf (by rw [hname]; exact hfk)
        rw [hname] at this
        exact this
      count := by
        show (s.m_argumentMap ++ _).countP counted = L + (s.m_generatorVec ++ [g]).length
        rw [List.countP_append, h.count]
        simp [counted]
        omega
      ops := by
        show (out ++ r0 ++ [_] ++ [] ++ rest).countP isOperator
          + (s.m_generatorVec ++ [g]).length = K
        have h1 := h.ops
        have e : out ++ (r0 ++ [x, y]) ++ t :: rest
            = out ++ r0 ++ [x] ++ [y] ++ [t] ++ rest := by simp
        rw [e] at h1
        simp only [List.countP_append, countP_isOperator_operand x hxo,
          countP_isOperator_operand y hyo, countP_isOperator_operator t hop] at h1
        simp only [List.countP_append, List.countP_nil, List.length_append,
          List.length_cons, List.length_nil,
          countP_isOperator_operand _ (hasOperatorMap_nameOf _)]
        omega
      cap := h.cap
      run_args := fun u hu => by cases hu
      boundary := Or.inr ⟨done ++ (r0 ++ [x, y]), t, rfl, hop⟩
      first := fun hd => absurd hd (by simp)
      parse := by
        obtain ⟨S, hpar, hS⟩ := h.parse
        refine ⟨S, ?_, hS⟩
        show parseRP A (symTable (s.m_generatorVec ++ [g])) (out ++ r0 ++ [_] ++ [] ++ rest) []
          = some (T :: S)
        rw [symTable_append, hname, htree]
        have e1 : out ++ r0 ++ [nameOf (s.m_argumentMap.countP counted)] ++ [] ++ rest
            = (out ++ r0) ++ nameOf (s.m_argumentMap.countP counted) :: rest := by simp
        have e2 : out ++ (r0 ++ [x, y]) ++ t :: rest = (out ++ r0) ++ x :: y :: t :: rest := by
          simp
        rw [e1, parse_reduce2 A _ _ x y t f (out ++ r0) rest hxo hyo ht hf
          (hnW _ (fun u hu => h.mem_math A u (by
            simp only [List.mem_append] at hu ⊢; tauto)))
          (hnW _ (fun u hu => h.mem_math A u (by simp [hu])))
          (hasOperatorMap_nameOf _) (hasConstantMap_nameOf A _) (h.table_keys A _ hfk),
          ← e2]
        exact hpar
      quiet := fun hG _ => absurd hG (by simp)
      last := Or.inr ⟨s.m_generatorVec, g, rfl, by rw [hname]; simp⟩
      names := by
        intro g2 hg2
        rcases List.mem_append.1 hg2 with hg2 | hg2
        · exact h.names g2 hg2
        · rw [List.mem_singleton.1 hg2, hname]
          exact hasConstantMap_nameOf A _ }
  · rw [hgen]
    exact ⟨⟨_, rfl⟩, by simp⟩
  · rw [hgen]
    simp

end CfgReduce

section Pass

variable {V : Type} (A : Arith V)

theorem Extends.ext_refl (s : MathExpression V) : Extends s s := ⟨⟨[], by simp⟩, le_refl _⟩

theorem Extends.ext_trans {s s1 s2 : MathExpression V} (h : Extends s s1) (h2 : Extends s1 s2) :
    Extends s s2 := by
  obtain ⟨⟨e1, he1⟩, hl1⟩ := h
  obtain ⟨⟨e2, he2⟩, hl2⟩ := h2
  exact ⟨⟨e1 ++ e2, by rw [he2, he1, List.append_assoc]⟩, le_trans hl1 hl2⟩

theorem Extends.ext_math (s : MathExpression V) (math1 : List Str) :
    Extends s { s with m_math := math1 } := ⟨⟨[], by simp⟩, le_refl _⟩

theorem Cfg.no_operator_first {T : Expr} {L K : Nat} {done rest out : List Str} {t : Str}
    {s : MathExpression V} (h : Cfg A T L K done [] (t :: rest) out s)
    (ht : isOperator t = true) (ho : out = []) : False := by
  obtain ⟨S, hp, _⟩ := h.parse
  subst ho
  simp only [List.nil_append, parseRP, parseStep_operator_nil A _ t ht] at hp
  cases hp

theorem Cfg.no_two_after_one {T : Expr} {L K : Nat} {done rest out : List Str} {x t : Str}
    {s : MathExpression V} (h : Cfg A T L K done [x] (t :: rest) out s)
    (ht : isOperatorTwoArg t = true) (ho : out = []) : False := by
  obtain ⟨S, hp, _⟩ := h.parse
  have hx : isOperator x = false := h.run_args x (by simp)
  subst ho
  simp only [List.nil_append, List.singleton_append, parseRP, parseStep_operand A _ [] x hx,
    parseStep_two_single A _ t _ ht] at hp
  cases hp

/-- The rest of a pass of the loop of `expandMathExpression`: the loop reads it to its end,
keeps the reading of the entities, and builds a generator if the pass has copied nothing so
far and there is an operator left. -/
theorem pass_spec (T : Expr) (L K : Nat) (rest : List Str) :
    ∀ (done run out : List Str) (s : MathExpression V) (f : Nat),
      Cfg A T L K done run rest out s →
      ∃ done1 run1 out1 s1,
        expandLoop A (f + rest.length) (done ++ run).length s
            = expandLoop A f (done ++ run ++ rest).length s1
          ∧ Cfg A T L K done1 run1 [] out1 s1
          ∧ done1 ++ run1 = done ++ run ++ rest
          ∧ Extends s s1
          ∧ (out = [] → (∃ t ∈ rest, isOperator t = true) →
              s.m_generatorVec.length < s1.m_generatorVec.length)
          ∧ (out1 ++ run1).length ≤ (out ++ run ++ rest).length := by
  induction rest with
  | nil =>
    intro done run out s f h
    refine ⟨done, run, out, s, by simp, h, by simp, Extends.ext_refl s, ?_, by simp⟩
    rintro _ ⟨t, ht, _⟩
    cases ht
  | cons t rest ih =>
    intro done run out s f h
    have hfuel : f + (t :: rest).length = (f + rest.length) + 1 := by
      simp only [List.length_cons]; omega
    rw [hfuel]
    by_cases hop : isOperator t = true
    · rcases List.eq_nil_or_concat run with hr | ⟨r1, y, hr⟩
      · -- no argument since the last operator
        subst hr
        rcases h.boundary with hd | ⟨d, o, hd, ho⟩
        · exact absurd (h.no_operator_first A hop (h.first hd)) id
        · have hm : s.m_math = d ++ [o] ++ t :: (rest ++ out) := by
            rw [h.math, hd]; simp
          have hstep := expandLoop_copy1 A (f + rest.length) d (rest ++ out) o t s h.inv.1 hm
            ho hop
          obtain ⟨done1, run1, out1, s1, hrun, hC, hd1, hE, _, hlen⟩ :=
            ih (done ++ [t]) [] (out ++ [t]) _ f (h.copy1 A hop)
          refine ⟨done1, run1, out1, s1, ?_, hC, ?_, (Extends.ext_math s _).ext_trans hE, ?_, ?_⟩
          · have e1 : (done ++ []).length = (d ++ [o]).length := by rw [hd]; simp only [List.length_append, List.length_cons, List.length_nil]
            have e2 : (d ++ [o]).length + 1 = (done ++ [t] ++ []).length := by rw [hd]; simp only [List.length_append, List.length_cons, List.length_nil]
            have e3 : (done ++ [] ++ t :: rest).length = (done ++ [t] ++ [] ++ rest).length := by
              simp only [List.length_append, List.length_cons, List.length_nil]; omega
            rw [e1, hstep, e2, hrun, e3]
          · rw [hd1]; simp
          · intro hout _
            exact absurd (h.no_operator_first A hop hout) id
          · refine le_trans hlen (le_of_eq ?_)
            simp
      · have hr2 : run = r1 ++ [y] := by simpa using hr
        subst hr2
        rcases isOperator_arity t hop with h1 | h2
        · -- a one-argument operator after an argument
          have hm : s.m_math = done ++ r1 ++ [y] ++ t :: (rest ++ out) := by
            rw [h.math]; simp
          have hyo : isOperator y = false := h.run_args y (by simp)
          have hy : isArgument A s y = true :=
            h.isArgument_of A y (h.mem_math A y (by simp)) hyo
          have hstep := expandLoop_reduce1 A (f + rest.length) done r1 (rest ++ out) y t s hm
            h.boundary (fun u hu => h.run_args u (by simp [hu])) hy h1
          obtain ⟨nm, hC0, hE0, hG0⟩ := h.reduce1 A h1
          obtain ⟨done1, run1, out1, s1, hrun, hC, hd1, hE, _, hlen⟩ :=
            ih (done ++ (r1 ++ [y]) ++ [t]) [] (out ++ r1 ++ [nm]) _ f hC0
          refine ⟨done1, run1, out1, s1, ?_, hC, ?_, hE0.ext_trans hE, ?_, ?_⟩
          · have e1 : (done ++ (r1 ++ [y])).length = (done ++ r1 ++ [y]).length := by simp only [List.length_append, List.length_cons, List.length_nil]; omega
            have e2 : (done ++ r1 ++ [y]).length + 1
                = (done ++ (r1 ++ [y]) ++ [t] ++ []).length := by 
              simp only [List.length_append, List.length_cons, List.length_nil]; omega
            have e3 : (done ++ (r1 ++ [y]) ++ t :: rest).length
                = (done ++ (r1 ++ [y]) ++ [t] ++ [] ++ rest).length := by 
              simp only [List.length_append, List.length_cons, List.length_nil]; omega
            rw [e1, hstep, e2, hrun, e3]
          · rw [hd1]; simp
          · intro _ _
            have := hE.2
            omega
          · refine le_trans hlen ?_
            simp only [List.length_append, List.length_cons, List.length_nil]
            omega
        · rcases List.eq_nil_or_concat r1 with hr1 | ⟨r0, x, hr1⟩
          · -- a two-argument operator after one argument
            subst hr1
            have h' : Cfg A T L K done [y] (t :: rest) out s := by simpa using h
            rcases h.boundary with hd | ⟨d, o, hd, ho⟩
            · exact absurd (h'.no_two_after_one A h2 (h.first hd)) id
            · have hm : s.m_math = d ++ [o, y] ++ t :: (rest ++ out) := by
                rw [h.math, hd]; simp
              have hyo : isOperator y = false := h.run_args y (by simp)
              have hy : isArgument A s y = true :=
                h.isArgument_of A y (h.mem_math A y (by simp)) hyo
              have hstep := expandLoop_copy2 A (f + rest.length) d (rest ++ out) o y t s
                h.inv.1 hm ho hy h2
              obtain ⟨done1, run1, out1, s1, hrun, hC, hd1, hE, _, hlen⟩ :=
                ih (done ++ [y, t]) [] (out ++ [y, t]) _ f (h'.copy2 A hop)
              refine ⟨done1, run1, out1, s1, ?_, hC, ?_,
                (Extends.ext_math s _).ext_trans hE, ?_, ?_⟩
              · have e1 : (done ++ ([] ++ [y])).length = (d ++ [o, y]).length := by
                  rw [hd]; simp
                have e2 : (d ++ [o, y]).length + 1 = (done ++ [y, t] ++ []).length := by
                  rw [hd]; simp only [List.length_append, List.length_cons, List.length_nil]
                have e3 : (done ++ ([] ++ [y]) ++ t :: rest).length
                    = (done ++ [y, t] ++ [] ++ rest).length := by 
                  simp only [List.length_append, List.length_cons, List.length_nil]; omega
                rw [e1, hstep, e2, hrun, e3]
              · rw [hd1]; simp
              · intro hout _
                exact absurd (h'.no_two_after_one A h2 hout) id
              · refine le_trans hlen (le_of_eq ?_)
                simp
          · -- a two-argument operator after two arguments
            have hr3 : r1 = r0 ++ [x] := by simpa using hr1
            subst hr3
            have h' : Cfg A T L K done (r0 ++ [x, y]) (t :: rest) out s := by simpa using h
            have hm : s.m_math = done ++ r0 ++ [x, y] ++ t :: (rest ++ out) := by
              rw [h.math]; simp
            have hxo : isOperator x = false := h.run_args x (by simp)
            have hyo : isOperator y = false := h.run_args y (by simp)
            have hx : isArgument A s x = true :=
              h.isArgument_of A x (h.mem_math A x (by simp)) hxo
            have hy : isArgument A s y = true :=
              h.isArgument_of A y (h.mem_math A y (by simp)) hyo
            have hstep := expandLoop_reduce2 A (f + rest.length) done r0 (rest ++ out) x y t s
              h.inv.1 hm h.boundary (fun u hu => h.run_args u (by simp [hu])) hx hy h2
            obtain ⟨nm, hC0, hE0, hG0⟩ := h'.reduce2 A h2
            obtain ⟨done1, run1, out1, s1, hrun, hC, hd1, hE, _, hlen⟩ :=
              ih (done ++ (r0 ++ [x, y]) ++ [t]) [] (out ++ r0 ++ [nm]) _ f hC0
            refine ⟨done1, run1, out1, s1, ?_, hC, ?_, hE0.ext_trans hE, ?_, ?_⟩
            · have e1 : (done ++ (r0 ++ [x] ++ [y])).length = (done ++ r0 ++ [x, y]).length := by
                simp only [List.length_append, List.length_cons, List.length_nil]; omega
              have e2 : (done ++ r0 ++ [x, y]).length + 1
                  = (done ++ (r0 ++ [x, y]) ++ [t] ++ []).length := by 
                simp only [List.length_append, List.length_cons, List.length_nil]; omega
              have e3 : (done ++ (r0 ++ [x] ++ [y]) ++ t :: rest).length
                  = (done ++ (r0 ++ [x, y]) ++ [t] ++ [] ++ rest).length := by 
                simp only [List.length_append, List.length_cons, List.length_nil]; omega
              rw [e1, hstep, e2, hrun, e3]
            · rw [hd1]; simp
            · intro _ _
              have := hE.2
              omega
            · refine le_trans hlen ?_
              simp only [List.length_append, List.length_cons, List.length_nil]
              omega
    · -- an argument
      have hop2 : isOperator t = false := by simpa using hop
      have hm : s.m_math = (done ++ run) ++ t :: (rest ++ out) := by
        rw [h.math]; simp
      have hstep := expandLoop_operand A (f + rest.length) (done ++ run) (rest ++ out) t s hm
        hop2
      obtain ⟨done1, run1, out1, s1, hrun, hC, hd1, hE, hprog, hlen⟩ :=
        ih done (run ++ [t]) out s f (h.operand A hop2)
      refine ⟨done1, run1, out1, s1, ?_, hC, ?_, hE, ?_, ?_⟩
      · have e2 : (done ++ run).length + 1 = (done ++ (run ++ [t])).length := by simp only [List.length_append, List.length_cons, List.length_nil]; omega
        have e3 : (done ++ run ++ t :: rest).length = (done ++ (run ++ [t]) ++ rest).length := by
          simp only [List.length_append, List.length_cons, List.length_nil]; omega
        rw [hstep, e2, hrun, e3]
      · rw [hd1]; simp
      · rintro hout ⟨u, hu, huo⟩
        refine hprog hout ⟨u, ?_, huo⟩
        rcases List.mem_cons.1 hu with hu | hu
        · rw [hu, hop2] at huo
          cases huo
        · exact hu
      · refine le_trans hlen (le_of_eq ?_)
        simp

end Pass


section Expand

variable {V : Type} (A : Arith V)

theorem parseStep_ne_nil (Γ : List (Str × Expr)) (st st1 : List Expr) (t : Str)
    (h : parseStep A Γ st t = some st1) : st1 ≠ [] := by
  unfold parseStep at h
  split_ifs at h
  · split at h
    · cases h; simp
    · cases h
  · split at h
    · cases h; simp
    · cases h
  · cases h; simp

theorem parseRP_ne_nil (Γ : List (Str × Expr)) (l : List Str) (t : Str) (st st1 : List Expr)
    (h : parseRP A Γ (l ++ [t]) st = some st1) : st1 ≠ [] := by
  rw [parseRP_append] at h
  cases h1 : parseRP A Γ l st with
  | none => rw [h1] at h; cases h
  | some st2 =>
    rw [h1] at h
    simp only [Option.some_bind, parseRP] at h
    cases h2 : parseStep A Γ st2 t with
    | none => rw [h2] at h; cases h
    | some st3 =>
      rw [h2] at h
      have h3 : st3 = st1 := Option.some.inj h
      rw [← h3]
      exact parseStep_ne_nil A Γ st2 st3 t h2

theorem countP_eq_zero_iff_all (l : List Str) :
    l.countP isOperator = 0 ↔ ∀ t ∈ l, isOperator t = false := by
  rw [List.countP_eq_zero]
  constructor
  · intro h t ht
    simpa using h t ht
  · intro h t ht
    simp [h t ht]

/-- A list without operators that reads as one expression is one argument. -/
theorem parse_single (Γ : List (Str × Expr)) (W : List Str) (T : Expr)
    (h : parseRP A Γ W [] = some [T]) (h0 : W.countP isOperator = 0) :
    ∃ x, W = [x] ∧ T = symOf Γ (ptrOf A x) := by
  have hall := (countP_eq_zero_iff_all W).1 h0
  rw [parseRP_run A Γ W [] hall] at h
  have hlen := congrArg List.length (Option.some.inj h)
  simp only [List.append_nil, List.length_reverse, List.length_map, List.length_cons,
    List.length_nil] at hlen
  match W, hlen, h with
  | [x], _, h =>
    refine ⟨x, rfl, ?_⟩
    simp only [List.map_cons, List.map_nil, List.reverse_cons, List.reverse_nil,
      List.nil_append, List.append_nil, Option.some.injEq, List.cons.injEq, and_true] at h
    exact h.symm

/-- A list with an operator that reads as one expression ends with an operator. -/
theorem parse_last_operator (Γ : List (Str × Expr)) (W0 : List Str) (u : Str) (T : Expr)
    (h : parseRP A Γ (W0 ++ [u]) [] = some [T]) (h1 : 0 < (W0 ++ [u]).countP isOperator) :
    isOperator u = true := by
  by_contra hu
  have hu2 : isOperator u = false := by simpa using hu
  rw [parseRP_append] at h
  cases h2 : parseRP A Γ W0 [] with
  | none => rw [h2] at h; cases h
  | some st =>
    rw [h2] at h
    simp only [Option.some_bind, parseRP, parseStep_operand A Γ st u hu2, Option.some.injEq,
      List.cons.injEq] at h
    have hst : st = [] := h.2
    subst hst
    rcases List.eq_nil_or_concat W0 with h0 | ⟨W1, v, h0⟩
    · subst h0
      simp [hu2] at h1
    · have h0' : W0 = W1 ++ [v] := by simpa using h0
      subst h0'
      exact parseRP_ne_nil A Γ W1 v [] [] h2 rfl

theorem Built.last_fresh {keys : List Str} {G : List Generator} (hB : Built A keys G)
    (G0 : List Generator) (g : Generator) (hG : G = G0 ++ [g]) :
    g.m_name ∉ G0.map (fun g => g.m_name) := by
  cases hB with
  | base keys => exact absurd hG (by simp)
  | @gen keys G1 g1 hB hwf hn =>
    obtain ⟨h1, h2⟩ := List.append_inj' hG rfl
    simp only [List.cons.injEq, and_true] at h2
    subst h1; subst h2
    intro hmem
    obtain ⟨g2, hg2, hg2n⟩ := List.mem_map.1 hmem
    exact hn (hg2n ▸ hB.names_subset A g2 hg2)

/-- A generator as `generateArgOp` and `generateArgArgOp` build it computes an application. -/
theorem genTree_not_leaf (keys : List Str) (g : Generator) (hwf : GenWF A keys g)
    (Γ : List (Str × Expr)) (p : ArgPtr) : genTree Γ g ≠ .leaf p := by
  rcases hwf.2 with ⟨hty, o, f, p1, ho, hf, hp, _⟩ | ⟨hty, o, f, p1, p2, ho, hf, hp1, hp2, _⟩
  · have e : genTree Γ g = .app1 f (symOf Γ p1) := by simp [genTree, hty, ho, hf, hp]
    rw [e]
    intro hc
    cases hc
  · have e : genTree Γ g = .app2 f (symOf Γ p1) (symOf Γ p2) := by
      simp [genTree, hty, ho, hf, hp1, hp2]
    rw [e]
    intro hc
    cases hc

theorem Built.last_wf {keys : List Str} {G : List Generator} (hB : Built A keys G)
    (G0 : List Generator) (g : Generator) (hG : G = G0 ++ [g]) : ∃ keys0, GenWF A keys0 g := by
  cases hB with
  | base keys => exact absurd hG (by simp)
  | @gen keys G1 g1 hB hwf hn =>
    obtain ⟨_, h2⟩ := List.append_inj' hG rfl
    simp only [List.cons.injEq, and_true] at h2
    subst h2
    exact ⟨_, hwf⟩

/-- An operator leaves an application on the stack of the postfix reader, and an application
stays on the stack. -/
theorem parseStep_node (Γ : List (Str × Expr)) (st st1 : List Expr) (t : Str)
    (h : parseStep A Γ st t = some st1)
    (hn : isOperator t = true ∨ ∃ e ∈ st, ∀ p, e ≠ Expr.leaf p) :
    ∃ e ∈ st1, ∀ p, e ≠ Expr.leaf p := by
  unfold parseStep at h
  split_ifs at h with h1 h2
  · split at h
    · rw [← Option.some.inj h]
      exact ⟨_, List.mem_cons_self _ _, fun p hp => by cases hp⟩
    · cases h
  · split at h
    · rw [← Option.some.inj h]
      exact ⟨_, List.mem_cons_self _ _, fun p hp => by cases hp⟩
    · cases h
  · rw [← Option.some.inj h]
    rcases hn with hop | ⟨e, he, hne⟩
    · rcases isOperator_arity t hop with h3 | h3
      · exact absurd h3 h1
      · exact absurd h3 h2
    · exact ⟨e, List.mem_cons_of_mem _ he, hne⟩

theorem parseRP_node (Γ : List (Str × Expr)) (l : List Str) (st st1 : List Expr)
    (h : parseRP A Γ l st = some st1)
    (hn : (∃ t ∈ l, isOperator t = true) ∨ ∃ e ∈ st, ∀ p, e ≠ Expr.leaf p) :
    ∃ e ∈ st1, ∀ p, e ≠ Expr.leaf p := by
  induction l generalizing st with
  | nil =>
    rw [parseRP] at h
    rw [← Option.some.inj h]
    rcases hn with ⟨t, ht, _⟩ | hn
    · cases ht
    · exact hn
  | cons t l ih =>
    rw [parseRP] at h
    cases hs : parseStep A Γ st t with
    | none => rw [hs] at h; cases h
    | some st2 =>
      rw [hs] at h
      refine ih st2 h ?_
      rcases hn with ⟨u, hu, huo⟩ | hn
      · rcases List.mem_cons.1 hu with hu | hu
        · right
          exact parseStep_node A Γ st st2 t hs (Or.inl (hu ▸ huo))
        · exact Or.inl ⟨u, hu, huo⟩
      · right
        exact parseStep_node A Γ st st2 t hs (Or.inr hn)

/-- A list without operators that reads as an expression on top of others ends with the
argument that is the expression. -/
theorem parse_operands (Γ : List (Str × Expr)) (W : List Str) (T : Expr) (S : List Expr)
    (h : parseRP A Γ W [] = some (T :: S)) (h0 : W.countP isOperator = 0) :
    ∃ W0 x, W = W0 ++ [x] ∧ T = symOf Γ (ptrOf A x)
      ∧ S = (W0.map (fun t => symOf Γ (ptrOf A t))).reverse := by
  have hall := (countP_eq_zero_iff_all W).1 h0
  rw [parseRP_run A Γ W [] hall, List.append_nil] at h
  rcases List.eq_nil_or_concat W with hW | ⟨W0, x, hW⟩
  · rw [hW] at h
    cases Option.some.inj h
  · have hW2 : W = W0 ++ [x] := by simpa using hW
    refine ⟨W0, x, hW2, ?_⟩
    rw [hW2] at h
    simp only [List.map_append, List.map_cons, List.map_nil, List.reverse_append,
      List.reverse_cons, List.reverse_nil, List.nil_append, List.singleton_append,
      Option.some.injEq, List.cons.injEq] at h
    exact ⟨h.1.symm, h.2.symm⟩

/-- At the end of the last pass the loop of `expandMathExpression` has left the final shape. -/
theorem Cfg.final {T : Expr} {L K : Nat} {done run out : List Str} {s : MathExpression V}
    (h : Cfg A T L K done run [] out s) (h0 : (out ++ run).countP isOperator = 0) :
    FinalShape A T s ∧ s.m_generatorVec.length = K := by
  obtain ⟨S, hp, hS⟩ := h.parse
  have hops := h.ops
  rw [List.append_nil] at hp hops
  obtain ⟨W0, x, hW, hT, hSW⟩ := parse_operands A _ _ T S hp h0
  have hxo : isOperator x = false :=
    (countP_eq_zero_iff_all _).1 h0 x (by rw [hW]; simp)
  refine ⟨?_, by omega⟩
  rcases h.last with hG | ⟨G0, g, hG, hg⟩
  · left
    have hout : out = [] := h.quiet hG (by rw [List.append_nil]; exact h0)
    have hrun : run = W0 ++ [x] := by rw [← hW, hout, List.nil_append]
    have e : s.m_math = (done ++ W0) ++ x :: [] := by rw [h.math, hout, hrun]; simp
    have hlast : s.m_math.getD (s.m_math.length - 1) [] = x := by
      have : s.m_math.length - 1 = (done ++ W0).length := by rw [e]; simp
      rw [this, e]
      exact getD_append_cons (done ++ W0) x [] []
    refine ⟨hG, by rw [e]; simp, ?_, ?_⟩
    · rw [hlast]
      rcases h.inv.2.1 x (h.mem_math A x (by rw [List.append_nil, hW]; simp)) with h1 | h1
      · rw [isOperator, h1] at hxo; cases hxo
      · exact h1
    · rw [hlast, hT, hG]
      cases hp2 : ptrOf A x <;> rfl
  · right
    refine ⟨G0, g, hG, ?_⟩
    have hc := h.names g (by rw [hG]; simp)
    have hfr := h.built.last_fresh A G0 g hG
    obtain ⟨keys0, hwf⟩ := h.built.last_wf A G0 g hG
    have hfr2 : g.m_name ∉ (symTable G0).map Prod.fst := by
      rw [symTable_keys]; exact hfr
    have hsym : symOf (symTable s.m_generatorVec) (ptrOf A g.m_name)
        = genTree (symTable G0) g := by
      rw [hG, symTable_append]
      exact symOf_ptrOf_name A (symTable G0) g.m_name _ hc hfr2
    rw [List.append_nil, hW] at hg
    rcases List.mem_append.1 hg with hg | hg
    · exfalso
      have hmem : symOf (symTable s.m_generatorVec) (ptrOf A g.m_name) ∈ S := by
        rw [hSW, List.mem_reverse]
        exact List.mem_map.2 ⟨g.m_name, hg, rfl⟩
      obtain ⟨p, hp2⟩ := hS _ hmem
      rw [hsym] at hp2
      exact genTree_not_leaf A keys0 g hwf _ p hp2
    · rw [List.mem_singleton] at hg
      rw [hT, ← hg]
      exact hsym.symm

/-- The next pass starts where a pass that ends with an operator ended. -/
theorem Cfg.next {T : Expr} {L K : Nat} {done run out : List Str} {s : MathExpression V}
    (h : Cfg A T L K done run [] out s) (h1 : 0 < (out ++ run).countP isOperator) :
    run = [] ∧ Cfg A T L K done [] out [] s := by
  obtain ⟨S, hp, hS⟩ := h.parse
  rw [List.append_nil] at hp
  have hrun : run = [] := by
    rcases List.eq_nil_or_concat run with hr | ⟨r1, y, hr⟩
    · exact hr
    · exfalso
      have hr2 : run = r1 ++ [y] := by simpa using hr
      subst hr2
      have hy : isOperator y = false := h.run_args y (by simp)
      rw [← List.append_assoc] at hp h1
      rw [parseRP_append] at hp
      cases h2 : parseRP A (symTable s.m_generatorVec) (out ++ r1) [] with
      | none => rw [h2] at hp; cases hp
      | some st =>
        rw [h2] at hp
        simp only [Option.some_bind, parseRP, parseStep_operand A _ st y hy, Option.some.injEq,
          List.cons.injEq] at hp
        have hst : st = S := hp.2
        have hpos : 0 < (out ++ r1).countP isOperator := by
          rw [List.countP_append, countP_isOperator_operand y hy] at h1
          exact h1
        obtain ⟨u, hu, huo⟩ := List.countP_pos_iff.1 hpos
        obtain ⟨e, he, hne⟩ := parseRP_node A _ _ [] st h2 (Or.inl ⟨u, hu, huo⟩)
        rw [hst] at he
        obtain ⟨p, hp3⟩ := hS e he
        exact hne p hp3
  subst hrun
  refine ⟨rfl, ?_⟩
  have e : ([] : List Str) ++ [] ++ out = out ++ [] ++ [] := by simp
  exact {
    math := by rw [h.math]; simp
    inv := h.inv
    built := h.built
    count := h.count
    ops := by rw [e]; exact h.ops
    cap := h.cap
    run_args := h.run_args
    boundary := h.boundary
    first := fun _ => rfl
    parse := by rw [e]; exact h.parse
    quiet := fun _ _ => rfl
    last := by rw [e]; exact h.last
    names := h.names }

/-- From the start of a pass, the loop of `expandMathExpression` runs to its end and returns
`true`, given a trip for every entity of every pass. -/
theorem expand_spec (T : Expr) (L K : Nat) (k : Nat) :
    ∀ (done rest : List Str) (s : MathExpression V) (f : Nat),
      Cfg A T L K done [] rest [] s → rest.countP isOperator ≤ k →
      rest.length * (k + 2) ≤ f →
      ∃ s1, expandLoop A f done.length s = .ok (true, s1) ∧ Extends s s1
        ∧ Built A (mapKeys s1.m_argumentMap) s1.m_generatorVec
        ∧ s1.m_generatorVec.length = K ∧ FinalShape A T s1 := by
  induction k using Nat.strong_induction_on with
  | _ k ih =>
    intro done rest s f h hk hf
    have hw : rest.length ≤ f := by nlinarith
    obtain ⟨done1, run1, out1, s1, hrun, hC, hd1, hE, hprog, hlen⟩ :=
      pass_spec A T L K rest done [] [] s (f - rest.length) h
    have hf2 : f - rest.length + rest.length = f := by omega
    rw [hf2] at hrun
    simp only [List.append_nil, List.nil_append] at hrun hd1 hlen
    have hops := h.ops
    have hops1 := hC.ops
    simp only [List.append_nil, List.nil_append] at hops hops1
    have hlen1 : out1.length ≤ rest.length := by
      simp only [List.length_append] at hlen; omega
    rcases Nat.eq_zero_or_pos ((out1 ++ run1).countP isOperator) with h0 | h1
    · -- the pass has left no operator
      obtain ⟨hshape, hK⟩ := hC.final A h0
      have hskip := expandLoop_skip A (f - rest.length) (done1 ++ run1) out1 s1
        (by rw [hC.math]; simp)
        (fun t ht => (countP_eq_zero_iff_all _).1 h0 t (by simp [ht]))
        (by
          have : rest.length * (k + 2) = rest.length * (k + 1) + rest.length := by ring
          have : rest.length ≤ rest.length * (k + 1) := Nat.le_mul_of_pos_right _ (by omega)
          omega)
      refine ⟨s1, ?_, hE, hC.built, hK, hshape⟩
      rw [hrun, ← hd1]
      exact hskip
    · -- the pass has left an operator: another pass
      obtain ⟨hr1, hC2⟩ := hC.next A h1
      subst hr1
      simp only [List.append_nil] at hd1 h1 hops1
      have hrest : ∃ t ∈ rest, isOperator t = true := by
        have hpos : 0 < rest.countP isOperator := by
          have := hE.2
          omega
        obtain ⟨t, ht, hto⟩ := List.countP_pos_iff.1 hpos
        exact ⟨t, ht, hto⟩
      have hlt := hprog rfl hrest
      have hm : out1.countP isOperator < k := by omega
      have hfuel : out1.length * (out1.countP isOperator + 2) ≤ f - rest.length := by
        have h2 : out1.length * (out1.countP isOperator + 2) ≤ rest.length * (k + 1) :=
          Nat.mul_le_mul hlen1 (by omega)
        have : rest.length * (k + 2) = rest.length * (k + 1) + rest.length := by ring
        omega
      obtain ⟨s2, hrun2, hE2, hB2, hK2, hshape2⟩ :=
        ih (out1.countP isOperator) hm done1 out1 s1 (f - rest.length) hC2 (le_refl _) hfuel
      refine ⟨s2, ?_, hE.ext_trans hE2, hB2, hK2, hshape2⟩
      rw [hrun, ← hd1]
      exact hrun2

end Expand


section Classify

variable {V : Type} (A : Arith V)

theorem lookup_append_some {β : Type} (l l2 : List (Str × β)) (k : Str) (b : β)
    (h : l.lookup k = some b) : (l ++ l2).lookup k = some b := by
  induction l with
  | nil => cases h
  | cons x l ih =>
    obtain ⟨a, c⟩ := x
    simp only [List.cons_append, List.lookup] at h ⊢
    cases hk : (k == a) with
    | true => rw [hk] at h; exact h
    | false => rw [hk] at h; exact ih h

theorem isNumber_false_of_operator (t : Str) (h : hasOperatorMap t = true)
    (ha : (charAt t 0).isAlpha = false) : isNumber t = false := by
  rcases (hasOperatorMap_iff t).1 h with h1 | h1 | h1 | h1 | h1 | h1 | h1 | h1 | h1 | h1 | h1 <;>
    subst h1 <;> rfl

theorem isToken_of_isRPToken (t : Str) (h : isRPToken t = true) : isToken t = true := by
  simp only [isRPToken, Bool.or_eq_true] at h
  rcases h with h | h
  · rcases (hasOperatorMap_iff t).1 h with h1 | h1 | h1 | h1 | h1 | h1 | h1 | h1 | h1 | h1 | h1 <;>
      subst h1 <;> rfl
  · simp only [isOperandToken, Bool.and_eq_true, Bool.or_eq_true] at h
    obtain ⟨⟨_, hsp⟩, hk⟩ := h
    have hne : t ≠ [] := by
      rintro rfl
      rcases hk with hk | hk
      · exact absurd hk (by decide)
      · exact absurd hk (by decide)
    cases t with
    | nil => exact absurd rfl hne
    | cons c t => simpa [isToken] using hsp

theorem countP_single_counted (kv : Str × Argument V) :
    [kv].countP counted = if counted kv = true then 1 else 0 :=
  List.countP_singleton counted kv

theorem operandValue_literal (env : Str → V) (t : Str) (h : (charAt t 0).isAlpha = false) :
    operandValue A env t = A.atof t := by
  simp [operandValue, h]

theorem InitVals.append {M : List (Str × Argument V)} (h : InitVals A M) (k0 : Str)
    (a0 : Argument V) (hk : k0 ∉ mapKeys M)
    (ha : (charAt k0 0).isAlpha = true → a0.m_dvalue = operandValue A (fun _ => A.zero) k0) :
    InitVals A (M ++ [(k0, a0)]) := by
  intro k a hl halpha
  by_cases hkk : k = k0
  · subst hkk
    rw [lookup_append_new M k a0 hk] at hl
    cases hl
    exact ha halpha
  · rw [lookup_append_ne M k k0 a0 hkk] at hl
    exact h k a hl halpha

/-- One entity of a well-formed text classified by `setArgumentMap`. -/
theorem classifyEntity_den (i : Nat) (t : Str) (s : MathExpression V) (hs : StInv A s)
    (hv : InitVals A s.m_argumentMap) (ht : isRPToken t = true)
    (hroom : isLiteralToken t = true → s.m_argumentMap.countP counted < nameCapacity) :
    ∃ t2 M1, classifyEntity A i t s
          = (true, { s with m_argumentMap := M1, m_math := s.m_math ++ [t2] })
      ∧ Den A (fun _ => A.zero) M1 t t2 ∧ InitVals A M1
      ∧ (∀ k a, s.m_argumentMap.lookup k = some a → M1.lookup k = some a)
      ∧ M1.countP counted
          = s.m_argumentMap.countP counted + (if isLiteralToken t = true then 1 else 0) := by
  by_cases hop : hasOperatorMap t = true
  · -- an operator
    have hlit : isLiteralToken t = false := by simp [isLiteralToken, isOperandToken, hop]
    refine ⟨t, s.m_argumentMap, ?_, Or.inl ⟨hop, rfl⟩, hv, fun k a h => h,
      by rw [hlit, if_neg Bool.false_ne_true]; rfl⟩
    unfold classifyEntity
    by_cases halpha : (charAt t 0).isAlpha = true
    · rw [if_pos halpha, if_pos hop]
    · have hnum := isNumber_false_of_operator t hop (by simpa using halpha)
      rw [if_neg halpha, hnum, if_neg (by simp), if_pos hop]
  · have hop2 : hasOperatorMap t = false := by simpa using hop
    have hopd : isOperandToken t = true := by
      simpa [isRPToken, hop2] using ht
    have hkind : (charAt t 0).isAlpha = true ∨ isNumber t = true := by
      simp only [isOperandToken, Bool.and_eq_true, Bool.or_eq_true] at hopd
      exact hopd.2
    by_cases halpha : (charAt t 0).isAlpha = true
    · -- a name
      have hlit : isLiteralToken t = false := by simp [isLiteralToken, halpha]
      have hcase : ∀ (ty : EntityType) (v : V),
          counted (t, (⟨t, ty, 0, v⟩ : Argument V)) = false →
          v = operandValue A (fun _ => A.zero) t →
          ∃ M1, (if hasArgumentMap s t == false then
                  mapInsert s.m_argumentMap t (⟨t, ty, 0, v⟩ : Argument V)
                else s.m_argumentMap) = M1
            ∧ Den A (fun _ => A.zero) M1 t t ∧ InitVals A M1
            ∧ (∀ k a, s.m_argumentMap.lookup k = some a → M1.lookup k = some a)
            ∧ M1.countP counted = s.m_argumentMap.countP counted := by
        intro ty v hcnt hval
        by_cases hhas : hasArgumentMap s t = true
        · have : (hasArgumentMap s t == false) = false := by simp [hhas]
          rw [this]
          have hsome := hhas
          simp only [hasArgumentMap, Option.isSome_iff_exists] at hsome
          obtain ⟨a, ha⟩ := hsome
          exact ⟨_, rfl, Or.inr ⟨hop2, hop2, Or.inl ⟨halpha, rfl⟩, a, ha, hv t a ha halpha⟩, hv,
            fun k a h => h, rfl⟩
        · have hhas2 : hasArgumentMap s t = false := by simpa using hhas
          have : (hasArgumentMap s t == false) = true := by simp [hhas2]
          rw [this]
          have hnm : t ∉ mapKeys s.m_argumentMap := fun hc =>
            hhas ((lookup_isSome_iff_mem_keys _ _).2 hc)
          simp only [if_true]
          rw [mapInsert_of_not_mem _ _ _ hnm]
          refine ⟨_, rfl, Or.inr ⟨hop2, hop2, Or.inl ⟨halpha, rfl⟩, _,
            lookup_append_new _ t _ hnm, hval⟩, hv.append A t _ hnm (fun _ => hval),
            fun k a h => lookup_append_some _ _ k a h, ?_⟩
          rw [List.countP_append, countP_single_counted, hcnt, if_neg Bool.false_ne_true]
          rfl
      by_cases hcst : hasConstantMap A t = true
      · have hc2 := hcst
        simp only [hasConstantMap, Option.isSome_iff_exists] at hc2
        obtain ⟨c, hcl⟩ := hc2
        have hgc : getConstant A t = some c := by simp [getConstant, hcst, hcl]
        obtain ⟨M1, hM1, hden, hiv, hmono, hcount⟩ := hcase .ArgumentConstant c.m_dvalue rfl
          (by rw [operandValue, if_pos halpha, hcl])
        refine ⟨t, M1, ?_, hden, hiv, hmono, by rw [hcount, hlit, if_neg Bool.false_ne_true]; rfl⟩
        unfold classifyEntity
        rw [if_pos halpha, if_neg hop, if_pos hcst, hgc]
        simp only [hM1]
      · have hcl : (constantMap A).lookup t = none := by
          cases h : (constantMap A).lookup t with
          | none => rfl
          | some c =>
            refine absurd ?_ hcst
            show ((constantMap A).lookup t).isSome = true
            rw [h]; rfl
        obtain ⟨M1, hM1, hden, hiv, hmono, hcount⟩ := hcase .ArgumentVariable A.zero rfl
          (by rw [operandValue, if_pos halpha, hcl])
        refine ⟨t, M1, ?_, hden, hiv, hmono, by rw [hcount, hlit, if_neg Bool.false_ne_true]; rfl⟩
        unfold classifyEntity
        rw [if_pos halpha, if_neg hop, if_neg hcst]
        simp only [hM1]
    · -- a number
      have halpha2 : (charAt t 0).isAlpha = false := by simpa using halpha
      have hnum : isNumber t = true := hkind.resolve_left halpha
      have hlit : isLiteralToken t = true := by simp [isLiteralToken, hopd, halpha2]
      have hc := hroom hlit
      have hfr := hs.1.fresh_name A hc
      have hn := createNewUserConstantName_eq A s hs.1
      refine ⟨nameOf (s.m_argumentMap.countP counted), _, ?_,
        Or.inr ⟨hop2, hasOperatorMap_nameOf _, Or.inr ⟨halpha2, _, rfl⟩,
          ⟨nameOf (s.m_argumentMap.countP counted), .ArgumentUserConstant, 0, A.atof t⟩,
          lookup_append_new _ _ _ hfr, (operandValue_literal A _ t halpha2).symm⟩,
        hv.append A _ _ hfr (fun h => absurd h (by rw [charAt_nameOf]; decide)),
        fun k a h => lookup_append_some _ _ k a h, ?_⟩
      · unfold classifyEntity
        rw [if_neg halpha, if_pos hnum]
        simp only [hn, mapInsert_of_not_mem _ _ _ hfr]
      · rw [List.countP_append, countP_single_counted, hlit, if_pos rfl]
        rfl

end Classify


section ClassifyAll

variable {V : Type} (A : Arith V)

theorem Den.mono_map {env : Str → V} {M M1 : List (Str × Argument V)} {t t2 : Str}
    (h : Den A env M t t2) (hm : ∀ k a, M.lookup k = some a → M1.lookup k = some a) :
    Den A env M1 t t2 := by
  rcases h with h | ⟨h1, h2, h3, a, ha, hv⟩
  · exact Or.inl h
  · exact Or.inr ⟨h1, h2, h3, a, hm _ _ ha, hv⟩

theorem Forall₂_Den_mono {env : Str → V} {M M1 : List (Str × Argument V)}
    {toks math : List Str} (h : List.Forall₂ (Den A env M) toks math)
    (hm : ∀ k a, M.lookup k = some a → M1.lookup k = some a) :
    List.Forall₂ (Den A env M1) toks math := by
  induction h with
  | nil => exact List.Forall₂.nil
  | cons h1 _ ih => exact List.Forall₂.cons (h1.mono_map A hm) ih

/-- The entities of a well-formed text classified by `setArgumentMap`, while the names do not
run out. -/
theorem classifyTokens_den (toks : List Str) :
    ∀ (i : Nat) (s : MathExpression V), StInv A s → s.m_generatorVec = [] →
      InitVals A s.m_argumentMap → (∀ t ∈ toks, isRPToken t = true) →
      s.m_argumentMap.countP counted + toks.countP isLiteralToken ≤ nameCapacity →
      ∃ M1 math1, classifyTokens A i toks s
            = (true, { s with m_argumentMap := M1, m_math := s.m_math ++ math1 })
        ∧ List.Forall₂ (Den A (fun _ => A.zero) M1) toks math1
        ∧ (∀ k a, s.m_argumentMap.lookup k = some a → M1.lookup k = some a)
        ∧ InitVals A M1
        ∧ M1.countP counted = s.m_argumentMap.countP counted + toks.countP isLiteralToken
        ∧ StInv A { s with m_argumentMap := M1, m_math := s.m_math ++ math1 } := by
  induction toks with
  | nil =>
    intro i s hs _ hv _ _
    refine ⟨s.m_argumentMap, [], ?_, List.Forall₂.nil, fun k a h => h, hv, by simp, ?_⟩
    · simp [classifyTokens]
    · simpa using hs
  | cons t ts ih =>
    intro i s hs hg hv htok hcap
    have ht := htok t (List.mem_cons_self _ _)
    have hts : ∀ u ∈ ts, isRPToken u = true := fun u hu => htok u (List.mem_cons_of_mem _ hu)
    have hcount : (t :: ts).countP isLiteralToken
        = ts.countP isLiteralToken + (if isLiteralToken t = true then 1 else 0) :=
      List.countP_cons _ _ _
    have hroom : isLiteralToken t = true →
        s.m_argumentMap.countP counted < nameCapacity := by
      intro hl
      rw [hcount, if_pos hl] at hcap
      omega
    have hstep : ∀ j, ∃ t2 M1, classifyEntity A j t s
          = (true, { s with m_argumentMap := M1, m_math := s.m_math ++ [t2] })
        ∧ Den A (fun _ => A.zero) M1 t t2 ∧ InitVals A M1
        ∧ (∀ k a, s.m_argumentMap.lookup k = some a → M1.lookup k = some a)
        ∧ M1.countP counted
            = s.m_argumentMap.countP counted + (if isLiteralToken t = true then 1 else 0) :=
      fun j => classifyEntity_den A j t s hs hv ht hroom
    cases ts with
    | nil =>
      obtain ⟨t2, M1, hcl, hden, hiv, hmono, hcnt⟩ := hstep (i + t.length - 1)
      have hinv := (classifyEntity_inv A _ t s _ hs hg hcl).1
      refine ⟨M1, [t2], ?_, List.Forall₂.cons hden List.Forall₂.nil, hmono, hiv, ?_, hinv⟩
      · rw [classifyTokens, hcl]
      · rw [hcnt, hcount]
        simp
    | cons t3 ts =>
      obtain ⟨t2, M1, hcl, hden, hiv, hmono, hcnt⟩ := hstep (i + t.length)
      obtain ⟨hinv, hg1⟩ := classifyEntity_inv A _ t s _ hs hg hcl
      obtain ⟨M2, math2, hcl2, hden2, hmono2, hiv2, hcnt2, hinv2⟩ :=
        ih (i + t.length + 1) { s with m_argumentMap := M1, m_math := s.m_math ++ [t2] }
          hinv hg1 hiv hts (by
            show M1.countP counted + _ ≤ _
            rw [hcnt]
            rw [hcount] at hcap
            omega)
      refine ⟨M2, t2 :: math2, ?_, List.Forall₂.cons (hden.mono_map A hmono2) hden2,
        fun k a h => hmono2 k a (hmono k a h), hiv2, ?_, ?_⟩
      · simp only [classifyTokens, hcl]
        simp only [hcl2, List.append_assoc, List.singleton_append]
      · rw [hcnt2]
        show M1.countP counted + _ = _
        rw [hcnt, hcount]
        omega
      · simpa using hinv2

end ClassifyAll


section Bridge

variable {V : Type} (A : Arith V)

theorem operator_kinds (t : Str) (h : hasOperatorMap t = true) :
    (∃ o f, getOperator t = some o ∧ o.m_type = .OperatorInDoubleOutDouble
        ∧ o.m_ddOperator = some f ∧ isOperatorOneArg t = true)
      ∨ (∃ o f, getOperator t = some o ∧ o.m_type ≠ .OperatorInDoubleOutDouble
        ∧ o.m_dddOperator = some f ∧ isOperatorTwoArg t = true) := by
  rcases (hasOperatorMap_iff t).1 h with h1 | h1 | h1 | h1 | h1 | h1 | h1 | h1 | h1 | h1 | h1 <;>
    subst h1 <;> first
      | exact Or.inl ⟨_, _, rfl, rfl, rfl, rfl⟩
      | exact Or.inr ⟨_, _, rfl, by decide, rfl, rfl⟩

theorem getOperator_none (t : Str) (h : hasOperatorMap t = false) : getOperator t = none := by
  simp [getOperator, h]

theorem symOf_nil (p : ArgPtr) : symOf [] p = .leaf p := by
  cases p <;> rfl

theorem operandValue_constant (env env2 : Str → V) (t : Str)
    (h : hasConstantMap A t = true) : operandValue A env t = operandValue A env2 t := by
  simp only [hasConstantMap, Option.isSome_iff_exists] at h
  obtain ⟨c, hc⟩ := h
  unfold operandValue
  split_ifs
  · rw [hc]
  · rfl

theorem operandValue_variable (env : Str → V) (t : Str) (ha : (charAt t 0).isAlpha = true)
    (h : hasConstantMap A t = false) : operandValue A env t = env t := by
  have hcl : (constantMap A).lookup t = none := by
    cases h2 : (constantMap A).lookup t with
    | none => rfl
    | some c =>
      have : hasConstantMap A t = true := by
        show ((constantMap A).lookup t).isSome = true
        rw [h2]; rfl
      rw [h] at this
      cases this
  rw [operandValue, if_pos ha, hcl]

/-- The pointer to an argument entity of `m_math` reads the value of the entity of the
text. -/
theorem Den.deref {env : Str → V} {M : List (Str × Argument V)} {t t2 : Str}
    (h : Den A env M t t2) (hop : hasOperatorMap t = false) :
    isOperator t2 = false
      ∧ derefDouble A M (some (ptrOf A t2)) = .ok (operandValue A env t)
      ∧ ∃ a, M.lookup t2 = some a ∧ a.m_dvalue = operandValue A env t := by
  rcases h with h | ⟨_, h2, h3, a, ha, hv⟩
  · rw [h.1] at hop; cases hop
  · refine ⟨h2, ?_, a, ha, hv⟩
    rcases h3 with ⟨halpha, rfl⟩ | ⟨halpha, j, rfl⟩
    · by_cases hc : hasConstantMap A t2 = true
      · have hc2 := hc
        simp only [hasConstantMap, Option.isSome_iff_exists] at hc2
        obtain ⟨c, hcl⟩ := hc2
        simp only [ptrOf, hc, if_true, derefDouble, hcl, operandValue, halpha]
      · have hc3 : hasConstantMap A t2 = false := by simpa using hc
        simp only [ptrOf, hc3, Bool.false_eq_true, if_false, derefDouble, ha, hv]
    · simp only [ptrOf, hasConstantMap_nameOf, Bool.false_eq_true, if_false, derefDouble, ha, hv]

theorem map_eval_cons (m : List (Str × Argument V)) (est : List Expr) (x : V) (st : List V)
    (h : est.map (Expr.eval A m) = (x :: st).map Except.ok) :
    ∃ ex est1, est = ex :: est1 ∧ ex.eval A m = .ok x
      ∧ est1.map (Expr.eval A m) = st.map Except.ok := by
  cases est with
  | nil => cases h
  | cons ex est1 =>
    simp only [List.map_cons, List.cons.injEq] at h
    exact ⟨ex, est1, rfl, h.1, h.2⟩

/-- What the postfix stack evaluator computes from the entities of the text, the expressions
read from the entities of `m_math` evaluate to. -/
theorem bridge (env : Str → V) (m : List (Str × Argument V)) (toks math : List Str)
    (h : List.Forall₂ (Den A env m) toks math) :
    ∀ (st : List V) (est : List Expr) (st1 : List V),
      est.map (Expr.eval A m) = st.map Except.ok →
      postfixEval A env toks st = some st1 →
      ∃ est1, parseRP A [] math est = some est1
        ∧ est1.map (Expr.eval A m) = st1.map Except.ok := by
  induction h with
  | nil =>
    intro st est st1 he hp
    simp only [postfixEval, Option.some.injEq] at hp
    subst hp
    exact ⟨est, rfl, he⟩
  | @cons t t2 toks math hd _ ih =>
    intro st est st1 he hp
    by_cases hop : hasOperatorMap t = true
    · have ht2 : t2 = t := by
        rcases hd with hd | hd
        · exact hd.2
        · rw [hd.1] at hop; cases hop
      subst ht2
      rcases operator_kinds t2 hop with ⟨o, f, ho, hty, hf, h1⟩ | ⟨o, f, ho, hty, hf, h2⟩
      · simp only [postfixEval, ho, hty, if_true, hf] at hp
        cases st with
        | nil => cases hp
        | cons x st0 =>
          simp only at hp
          obtain ⟨ex, est0, rfl, hex, hest0⟩ := map_eval_cons A m est x st0 he
          have hps := parseStep_one A [] est0 t2 f ex h1 (by simp [ho, hf])
          obtain ⟨est1, hpar, hev⟩ := ih (A.callDD f x :: st0) (.app1 f ex :: est0) st1
            (by simp [Expr.eval, hex, hest0]) hp
          exact ⟨est1, by simp only [parseRP, hps, hpar], hev⟩
      · simp only [postfixEval, ho, hty, if_false, hf] at hp
        cases st with
        | nil => cases hp
        | cons y st0 =>
          cases st0 with
          | nil => cases hp
          | cons x st00 =>
            simp only at hp
            obtain ⟨ey, est0, rfl, hey, hest0⟩ := map_eval_cons A m est y (x :: st00) he
            obtain ⟨ex, est00, rfl, hex, hest00⟩ := map_eval_cons A m est0 x st00 hest0
            have hps := parseStep_two A [] est00 t2 f ex ey h2 (by simp [ho, hf])
            obtain ⟨est1, hpar, hev⟩ := ih (A.callDDD f x y :: st00)
              (.app2 f ex ey :: est00) st1 (by simp [Expr.eval, hex, hey, hest00]) hp
            exact ⟨est1, by simp only [parseRP, hps, hpar], hev⟩
    · have hop2 : hasOperatorMap t = false := by simpa using hop
      obtain ⟨h2, hderef, _⟩ := hd.deref A hop2
      simp only [postfixEval, getOperator_none t hop2] at hp
      split_ifs at hp with hopd
      have hps := parseStep_operand A [] est t2 h2
      obtain ⟨est1, hpar, hev⟩ := ih (operandValue A env t :: st)
        (symOf [] (ptrOf A t2) :: est) st1
        (by simp [symOf_nil, Expr.eval, hderef, he]) hp
      exact ⟨est1, by simp only [parseRP, hps, hpar], hev⟩

/-- The entities of a text the postfix stack evaluator accepts are operators and operands. -/
theorem postfixEval_tokens (env : Str → V) (toks : List Str) :
    ∀ (st st1 : List V), postfixEval A env toks st = some st1 →
      ∀ t ∈ toks, isRPToken t = true := by
  induction toks with
  | nil =>
    intro _ _ _ t ht
    cases ht
  | cons u toks ih =>
    intro st st1 hp t ht
    by_cases hop : hasOperatorMap u = true
    · have hu : isRPToken u = true := by simp [isRPToken, hop]
      rcases List.mem_cons.1 ht with ht | ht
      · rw [ht]; exact hu
      · rcases operator_kinds u hop with ⟨o, f, ho, hty, hf, _⟩ | ⟨o, f, ho, hty, hf, _⟩
        · simp only [postfixEval, ho, hty, if_true, hf] at hp
          cases st with
          | nil => cases hp
          | cons x st0 => exact ih _ _ hp t ht
        · simp only [postfixEval, ho, hty, if_false, hf] at hp
          cases st with
          | nil => cases hp
          | cons y st0 =>
            cases st0 with
            | nil => cases hp
            | cons x st00 => exact ih _ _ hp t ht
    · have hop2 : hasOperatorMap u = false := by simpa using hop
      simp only [postfixEval, getOperator_none u hop2] at hp
      split_ifs at hp with hopd
      rcases List.mem_cons.1 ht with ht | ht
      · rw [ht]; simp [isRPToken, hopd]
      · exact ih _ _ hp t ht

/-- The operators of `m_math` are the operators of the text. -/
theorem Forall₂_Den_operators {env : Str → V} {M : List (Str × Argument V)}
    {toks math : List Str} (h : List.Forall₂ (Den A env M) toks math) :
    math.countP isOperator = toks.countP hasOperatorMap := by
  induction h with
  | nil => rfl
  | @cons t t2 toks math hd _ ih =>
    rw [List.countP_cons, List.countP_cons, ih]
    rcases hd with hd | hd
    · rw [hd.2, isOperator]
    · rw [isOperator, hd.1, hd.2.1]

end Bridge


section Sets

variable {V : Type} (A : Arith V)

theorem mapSetDouble_of_not_mem (m : List (Str × Argument V)) (k : Str) (v : V)
    (h : k ∉ mapKeys m) : mapSetDouble m k v = m := by
  induction m with
  | nil => rfl
  | cons x m ih =>
    have hx : x.1 ≠ k := fun hc => h (by rw [← hc]; exact List.mem_cons_self _ _)
    have hm : k ∉ mapKeys m := fun hc => h (List.mem_cons_of_mem _ hc)
    have hb : (x.1 == k) = false := by simpa using hx
    simp only [mapSetDouble, List.map_cons, hb, Bool.false_eq_true, if_false] at ih ⊢
    rw [show List.map (fun kv : Str × Argument V =>
        (kv.1, if (kv.1 == k) = true then { kv.2 with m_dvalue := v } else kv.2)) m = m from ih hm]

theorem setVariableDouble_eq (k : Str) (v : V) (s : MathExpression V) :
    setVariableDouble k v s = { s with m_argumentMap := mapSetDouble s.m_argumentMap k v } := by
  unfold setVariableDouble
  by_cases h : hasArgumentMap s k = true
  · rw [if_pos h]
  · rw [if_neg h]
    have : k ∉ mapKeys s.m_argumentMap := fun hc => h ((lookup_isSome_iff_mem_keys _ _).2 hc)
    rw [mapSetDouble_of_not_mem _ _ _ this]

theorem setVariables_eq (vals : List (Str × V)) (s : MathExpression V) :
    setVariables vals s = { s with
      m_argumentMap := vals.foldl (fun m kv => mapSetDouble m kv.1 kv.2) s.m_argumentMap } := by
  induction vals generalizing s with
  | nil => rfl
  | cons kv vals ih =>
    simp only [setVariables, List.foldl_cons] at ih ⊢
    rw [ih, setVariableDouble_eq]

/-- The binding named `k` after a sequence of `setVariableDouble` calls. -/
theorem lookup_setAll (vals : List (Str × V)) (m : List (Str × Argument V)) (k : Str) :
    (vals.foldl (fun m kv => mapSetDouble m kv.1 kv.2) m).lookup k
      = (m.lookup k).map (fun a => { a with m_dvalue := lastSet vals k a.m_dvalue }) := by
  induction vals generalizing m with
  | nil =>
    simp only [List.foldl_nil, lastSet]
    cases m.lookup k <;> rfl
  | cons kv vals ih =>
    simp only [List.foldl_cons]
    rw [ih, lookup_mapSetDouble]
    cases m.lookup k with
    | none => rfl
    | some a =>
      simp only [Option.map_some', lastSet, List.foldl_cons]
      cases (k == kv.1) <;> rfl

theorem lastSet_of_not_mem (vals : List (Str × V)) (k : Str) (v0 : V)
    (h : ∀ kv ∈ vals, kv.1 ≠ k) : lastSet vals k v0 = v0 := by
  induction vals generalizing v0 with
  | nil => rfl
  | cons kv vals ih =>
    have h1 : (k == kv.1) = false := by
      have := h kv (List.mem_cons_self _ _)
      simpa using fun hc => this hc.symm
    simp only [lastSet, List.foldl_cons, h1, Bool.false_eq_true, if_false]
    exact ih v0 (fun kv2 hkv2 => h kv2 (List.mem_cons_of_mem _ hkv2))

/-- After the `setVariableDouble` calls the argument map holds, for the entities of `m_math`,
the values of the entities of the text under the values set. -/
theorem Den.after_sets {M : List (Str × Argument V)} {t t2 : Str}
    (h : Den A (fun _ => A.zero) M t t2) (vals : List (Str × V))
    (hvals : ∀ kv ∈ vals, isVariableName A kv.1 = true) :
    Den A (envOf A vals) (vals.foldl (fun m kv => mapSetDouble m kv.1 kv.2) M) t t2 := by
  rcases h with h | ⟨h1, h2, h3, a, ha, hv⟩
  · exact Or.inl h
  · refine Or.inr ⟨h1, h2, h3, { a with m_dvalue := lastSet vals t2 a.m_dvalue }, ?_, ?_⟩
    · rw [lookup_setAll, ha]
      rfl
    · show lastSet vals t2 a.m_dvalue = _
      have hnames : ∀ kv ∈ vals, (charAt kv.1 0).isAlpha = true ∧ hasConstantMap A kv.1 = false := by
        intro kv hkv
        have := hvals kv hkv
        simpa [isVariableName] using this
      rcases h3 with ⟨halpha, rfl⟩ | ⟨halpha, j, rfl⟩
      · by_cases hc : hasConstantMap A t2 = true
        · rw [lastSet_of_not_mem vals t2 _ (fun kv hkv hkk => by
            have := (hnames kv hkv).2
            rw [hkk, hc] at this
            cases this), hv]
          exact operandValue_constant A _ _ t2 hc
        · have hc2 : hasConstantMap A t2 = false := by simpa using hc
          rw [hv, operandValue_variable A _ t2 halpha hc2,
            operandValue_variable A _ t2 halpha hc2]
          rfl
      · rw [lastSet_of_not_mem vals _ _ (fun kv hkv hkk => by
          have := (hnames kv hkv).1
          rw [hkk, charAt_nameOf] at this
          exact absurd this (by decide)), hv, operandValue_literal A _ t halpha,
          operandValue_literal A _ t halpha]

end Sets


section Refinement

variable {V : Type} (A : Arith V)

theorem Forall₂_single {α β : Type} {R : α → β → Prop} {l : List α} {x : β}
    (h : List.Forall₂ R l [x]) : ∃ t, l = [t] ∧ R t x := by
  cases h with
  | cons h1 h2 =>
    cases h2
    exact ⟨_, rfl, h1⟩

theorem ptrOf_inj (x y : Str) (h : ptrOf A x = ptrOf A y) : x = y := by
  unfold ptrOf at h
  split_ifs at h
  · exact ArgPtr.constant.inj h
  · exact ArgPtr.argument.inj h

theorem mapKeys_setAll (vals : List (Str × V)) (m : List (Str × Argument V)) :
    mapKeys (vals.foldl (fun m kv => mapSetDouble m kv.1 kv.2) m) = mapKeys m := by
  induction vals generalizing m with
  | nil => rfl
  | cons kv vals ih =>
    simp only [List.foldl_cons]
    rw [ih, mapKeys_mapSetDouble]

theorem map_eval_single (m : List (Str × Argument V)) (est : List Expr) (v : V)
    (h : est.map (Expr.eval A m) = [v].map Except.ok) :
    ∃ T, est = [T] ∧ T.eval A m = .ok v := by
  obtain ⟨T, est1, rfl, hT, h1⟩ := map_eval_cons A m est v [] h
  cases est1 with
  | nil => exact ⟨T, rfl, hT⟩
  | cons e est2 => cases h1

/-- What `calculateExpression` returns for a program in the final shape. -/
theorem calc_final (T : Expr) (s : MathExpression V)
    (hB : Built A (mapKeys s.m_argumentMap) s.m_generatorVec)
    (hG : ∃ G0 g, s.m_generatorVec = G0 ++ [g] ∧ genTree (symTable G0) g = T)
    (v : V) (hT : T.eval A s.m_argumentMap = .ok v) :
    ∃ s1, calculateExpression A s = .ok (v, s1) := by
  obtain ⟨G0, g, hG, hg⟩ := hG
  obtain ⟨v1, m1, hrun, _, _, _, _, hlast⟩ :=
    run_spec A hB s.m_argumentMap (fun k hk => hk) A.zero
  have h1 := hlast G0 g hG
  rw [hg, hT] at h1
  have hv : v = v1 := Except.ok.inj h1
  have hlen : (s.m_generatorVec.length == 0) = false := by
    rw [hG]; simp
  refine ⟨{ s with m_argumentMap := m1 }, ?_⟩
  unfold calculateExpression
  rw [hlen, if_neg (by simp), hrun, hv]

/-- **Refinement of the postfix stack evaluator.** For the text of a list of entities the
postfix stack evaluator reduces to one value, with room for the names of its numbers and
operators, `setArgumentMap` returns `true`, `expandMathExpression` returns `true` given a trip
for every entity of every pass, and `calculateExpression` returns the value of the
evaluator. -/
theorem rp_program_spec (toks : List Str) (vals : List (Str × V)) (v : V)
    (s0 : MathExpression V)
    (hcap : toks.countP isLiteralToken + toks.countP hasOperatorMap ≤ nameCapacity)
    (hvals : ∀ kv ∈ vals, isVariableName A kv.1 = true)
    (hwf : postfixEval A (envOf A vals) toks [] = some [v]) :
    ∃ s1, setArgumentMapFrom A (rpText toks) s0 = (true, s1)
      ∧ ∀ fuel, toks.length * (toks.length + 2) ≤ fuel →
        ∃ s2, expandMathExpression A fuel s1 = .ok (true, s2)
          ∧ s2.m_generatorVec.length = toks.countP hasOperatorMap
          ∧ ∃ s3, calculateExpression A (setVariables vals s2) = .ok (v, s3) := by
  have htok := postfixEval_tokens A _ toks [] [v] hwf
  have hsinit : StInv A ({ s0 with
      m_reversePolish := rpText toks
      m_math := []
      m_argumentMap := []
      m_generatorVec := [] } : MathExpression V) :=
    ⟨MapInv.nil A, fun t ht => absurd ht (List.not_mem_nil t), fun _ => Built.base _⟩
  obtain ⟨M1, math1, hcl, hden, _, _, hcnt, hinv⟩ :=
    classifyTokens_den A toks 0 _ hsinit rfl (fun k a h => by cases h) htok
      (by
        show ([] : List (Str × Argument V)).countP counted + _ ≤ _
        simp only [List.countP_nil, Nat.zero_add]
        omega)
  simp only [List.nil_append, List.countP_nil, Nat.zero_add] at hcl hcnt hinv
  refine ⟨_, (setArgumentMapFrom_tokens A toks s0
    (fun t ht => isToken_of_isRPToken t (htok t ht))).trans hcl, ?_⟩
  -- the expression the text reads as
  have hset : ∀ M : List (Str × Argument V),
      (∀ k a, M1.lookup k = some a → M.lookup k = some a) →
      List.Forall₂ (Den A (envOf A vals)
        (vals.foldl (fun m kv => mapSetDouble m kv.1 kv.2) M)) toks math1 := by
    intro M hM
    exact List.Forall₂.imp (fun _ _ h => h.after_sets A vals hvals)
      (Forall₂_Den_mono A hden hM)
  obtain ⟨est1, hpar, hev⟩ := bridge A _ _ toks math1 (hset M1 (fun k a h => h)) [] [] [v] rfl
    hwf
  obtain ⟨T, rfl, _⟩ := map_eval_single A _ est1 v hev
  have hops := Forall₂_Den_operators A hden
  have hlen : math1.length = toks.length := (List.Forall₂.length_eq hden).symm
  have hC : Cfg A T (toks.countP isLiteralToken) (toks.countP hasOperatorMap) [] [] math1 []
      ({ s0 with
        m_reversePolish := rpText toks
        m_math := math1
        m_argumentMap := M1
        m_generatorVec := [] } : MathExpression V) :=
    { math := by simp
      inv := hinv
      built := Built.base _
      count := by simpa using hcnt
      ops := by simpa using hops
      cap := hcap
      run_args := fun t ht => by cases ht
      boundary := Or.inl rfl
      first := fun _ => rfl
      parse := ⟨[], by simpa [symTable] using hpar, fun e he => by cases he⟩
      quiet := fun _ _ => rfl
      last := Or.inl rfl
      names := fun g hg => by cases hg }
  intro fuel hfuel
  obtain ⟨s2, hrun, hE, hB, hK, hshape⟩ :=
    expand_spec A T _ _ (toks.countP hasOperatorMap) [] math1 _ fuel hC (le_of_eq hops)
      (by
        rw [hlen]
        refine le_trans (Nat.mul_le_mul_left _ ?_) hfuel
        have := @List.countP_le_length _ hasOperatorMap toks
        omega)
  refine ⟨s2, hrun, hK, ?_⟩
  obtain ⟨extra, hextra⟩ := hE.1
  have hden3 := hset s2.m_argumentMap (fun k a h => by
    rw [hextra]; exact lookup_append_some _ _ k a h)
  obtain ⟨est3, hpar3, hev3⟩ := bridge A _ _ toks math1 hden3 [] [] [v] rfl hwf
  rw [hpar] at hpar3
  have hest3 : est3 = [T] := (Option.some.inj hpar3).symm
  subst hest3
  have hT3 : T.eval A (vals.foldl (fun m kv => mapSetDouble m kv.1 kv.2) s2.m_argumentMap)
      = .ok v := by
    simpa using hev3
  rw [setVariables_eq]
  rcases hshape with ⟨hG, hne, hkey, hTx⟩ | hG
  · -- no generator: the text is one operand
    have hK0 : math1.countP isOperator = 0 := by rw [hops, ← hK, hG]; rfl
    obtain ⟨x1, hm1, hT1⟩ := parse_single A [] math1 T hpar hK0
    rw [symOf_nil, hTx] at hT1
    have hx : s2.m_math.getD (s2.m_math.length - 1) [] = x1 :=
      ptrOf_inj A _ _ (Expr.leaf.inj hT1)
    subst hm1
    obtain ⟨t1, rfl, hd⟩ := Forall₂_single hden3
    have hop1 : hasOperatorMap t1 = false := by
      rw [hK0] at hops
      have := (List.countP_eq_zero.1 hops.symm) t1 (List.mem_singleton.2 rfl)
      simpa using this
    obtain ⟨_, _, a, ha, hva⟩ := hd.deref A hop1
    have hv : v = operandValue A (envOf A vals) t1 := by
      simp only [postfixEval, getOperator_none t1 hop1] at hwf
      split_ifs at hwf
      simp only [postfixEval, Option.some.injEq, List.cons.injEq, and_true] at hwf
      exact hwf.symm
    refine ⟨{ s2 with
      m_argumentMap := vals.foldl (fun m kv => mapSetDouble m kv.1 kv.2) s2.m_argumentMap }, ?_⟩
    unfold calculateExpression
    have hlen0 : (s2.m_generatorVec.length == 0) = true := by rw [hG]; rfl
    simp only [hlen0, if_true]
    rw [if_pos (List.length_pos.2 hne), hx, ha]
    show Except.ok (a.m_dvalue, _) = _
    rw [hva, ← hv]
  · exact calc_final A T
      { s2 with
        m_argumentMap := vals.foldl (fun m kv => mapSetDouble m kv.1 kv.2) s2.m_argumentMap }
      (by
        show Built A (mapKeys (vals.foldl (fun m kv => mapSetDouble m kv.1 kv.2)
          s2.m_argumentMap)) s2.m_generatorVec
        rw [mapKeys_setAll]
        exact hB) hG v hT3

end Refinement

section Overflow

variable {V : Type} (A : Arith V)

/-- A number entity classified by `setArgumentMap` while the names have not run out. -/
theorem classifyEntity_literal (i : Nat) (t : Str) (s : MathExpression V)
    (hM : MapInv A s.m_argumentMap) (hlit : isLiteralToken t = true)
    (hroom : s.m_argumentMap.countP counted < nameCapacity) :
    classifyEntity A i t s = (true, { s with
      m_argumentMap := s.m_argumentMap ++ [(nameOf (s.m_argumentMap.countP counted),
        ⟨nameOf (s.m_argumentMap.countP counted), .ArgumentUserConstant, 0, A.atof t⟩)]
      m_math := s.m_math ++ [nameOf (s.m_argumentMap.countP counted)] }) := by
  simp only [isLiteralToken, isOperandToken, Bool.and_eq_true, Bool.or_eq_true,
    Bool.not_eq_true'] at hlit
  obtain ⟨⟨⟨_, _⟩, hk⟩, halpha⟩ := hlit
  have hnum : isNumber t = true := by
    rcases hk with hk | hk
    · rw [halpha] at hk; cases hk
    · exact hk
  have hfr := hM.fresh_name A hroom
  have hn := createNewUserConstantName_eq A s hM
  unfold classifyEntity
  rw [if_neg (by rw [halpha]; exact Bool.false_ne_true), if_pos hnum]
  simp only [hn, mapInsert_of_not_mem _ _ _ hfr]

/-- An operator entity classified by `setArgumentMap`. -/
theorem classifyEntity_operator (i : Nat) (t : Str) (s : MathExpression V)
    (hop : hasOperatorMap t = true) :
    classifyEntity A i t s = (true, { s with m_math := s.m_math ++ [t] }) := by
  unfold classifyEntity
  by_cases halpha : (charAt t 0).isAlpha = true
  · rw [if_pos halpha, if_pos hop]
  · have hnum := isNumber_false_of_operator t hop (by simpa using halpha)
    rw [if_neg halpha, hnum, if_neg (by simp), if_pos hop]

theorem Den.not_operator {env : Str → V} {M : List (Str × Argument V)} {t t2 : Str}
    (h : Den A env M t t2) (hop : hasOperatorMap t = false) : isOperator t2 = false := by
  rcases h with h | h
  · rw [h.1] at hop; cases hop
  · exact h.2.1

theorem Forall₂_Den_operands {env : Str → V} {M : List (Str × Argument V)}
    {toks math : List Str} (h : List.Forall₂ (Den A env M) toks math)
    (hop : ∀ t ∈ toks, hasOperatorMap t = false) : ∀ t ∈ math, isOperator t = false := by
  induction h with
  | nil =>
    intro t ht
    cases ht
  | @cons a b l1 l2 hd _ ih =>
    intro t ht
    rcases List.mem_cons.1 ht with ht | ht
    · rw [ht]
      exact hd.not_operator A (hop a (List.mem_cons_self _ _))
    · exact ih (fun u hu => hop u (List.mem_cons_of_mem _ hu)) t ht

theorem classifyTokens_cons_cons (i : Nat) (t t2 : Str) (ts : List Str)
    (s : MathExpression V) (s1 : MathExpression V)
    (h : classifyEntity A (i + t.length) t s = (true, s1)) :
    classifyTokens A i (t :: t2 :: ts) s = classifyTokens A (i + t.length + 1) (t2 :: ts) s1 := by
  rw [classifyTokens, h]
  all_goals exact List.cons_ne_nil _ _

/-- The first number of a text gets the name `#AA`. -/
theorem classifyEntity_first (i : Nat) (t : Str) (s : MathExpression V)
    (hmap : s.m_argumentMap = []) (hmath : s.m_math = []) (hlit : isLiteralToken t = true) :
    classifyEntity A i t s = (true, { s with
      m_argumentMap := [(nameOf 0, ⟨nameOf 0, .ArgumentUserConstant, 0, A.atof t⟩)]
      m_math := [nameOf 0] }) := by
  rw [classifyEntity_literal A i t s (by rw [hmap]; exact MapInv.nil A) hlit
    (by rw [hmap]; exact (by decide : 0 < nameCapacity)), hmap, hmath]
  rfl

/-- What `setArgumentMap` builds for the text `overflowText`: the number `5` gets the name
`#AA`, and the 6656 numbers use up the 6656 names. -/
theorem overflow_classify (s0 : MathExpression V) :
    ∃ s1 j math1, setArgumentMapFrom A overflowText s0 = (true, s1)
      ∧ StInv A s1 ∧ s1.m_generatorVec = []
      ∧ s1.m_math = nameOf 0 :: nameOf j :: "+".toList :: math1
      ∧ s1.m_argumentMap.countP counted = nameCapacity
      ∧ s1.m_argumentMap.lookup (nameOf 0)
          = some ⟨nameOf 0, .ArgumentUserConstant, 0, A.atof "5".toList⟩
      ∧ (∃ a, s1.m_argumentMap.lookup (nameOf j) = some a ∧ a.m_dvalue = A.atof "1".toList)
      ∧ (∀ t ∈ math1, isOperator t = false) ∧ math1.length = 6654 := by
  have htoks : ∀ t ∈ overflowTokens, isToken t = true := by
    intro t ht
    simp only [overflowTokens, List.mem_cons, List.mem_replicate] at ht
    rcases ht with rfl | rfl | rfl | rfl | ⟨_, rfl⟩ <;> rfl
  rw [overflowText, setArgumentMapFrom_tokens A overflowTokens s0 htoks]
  have hcl : classifyTokens A 0 overflowTokens ({ s0 with
        m_reversePolish := rpText overflowTokens
        m_math := []
        m_argumentMap := []
        m_generatorVec := [] } : MathExpression V)
      = classifyTokens A (0 + "5".toList.length + 1)
          ("1".toList :: "+".toList :: "1".toList :: List.replicate 6653 "1".toList)
          ({ s0 with
              m_reversePolish := rpText overflowTokens
              m_math := [nameOf 0]
              m_argumentMap := [(nameOf 0, ⟨nameOf 0, .ArgumentUserConstant, 0, A.atof "5".toList⟩)]
              m_generatorVec := [] } : MathExpression V) := by
    rw [overflowTokens]
    exact classifyTokens_cons_cons A 0 _ _ _ _ _
      (classifyEntity_first A _ _ _ rfl rfl (by decide))
  rw [hcl]
  have hinv : StInv A ({ s0 with
      m_reversePolish := rpText overflowTokens
      m_math := [nameOf 0]
      m_argumentMap := [(nameOf 0, ⟨nameOf 0, .ArgumentUserConstant, 0, A.atof "5".toList⟩)]
      m_generatorVec := [] } : MathExpression V) := by
    have hsinit : StInv A ({ s0 with
        m_reversePolish := rpText overflowTokens
        m_math := []
        m_argumentMap := []
        m_generatorVec := [] } : MathExpression V) :=
      ⟨MapInv.nil A, fun t ht => absurd ht (List.not_mem_nil t), fun _ => Built.base _⟩
    exact (classifyEntity_inv A 0 "5".toList _ _ hsinit rfl
      (classifyEntity_first A _ _ _ rfl rfl (by decide))).1
  have hvals : InitVals A
      [(nameOf 0, (⟨nameOf 0, .ArgumentUserConstant, 0, A.atof "5".toList⟩ : Argument V))] := by
    intro k a hk halpha
    by_cases hk0 : k = nameOf 0
    · rw [hk0] at halpha
      exact absurd halpha (by decide)
    · have hb : (k == nameOf 0) = false := beq_eq_false_iff_ne.2 hk0
      rw [List.lookup_cons, hb] at hk
      cases hk
  obtain ⟨M1, math1, heq, hden, hmono, _, hcount, hinv1⟩ := classifyTokens_den A
    ("1".toList :: "+".toList :: "1".toList :: List.replicate 6653 "1".toList)
    (0 + "5".toList.length + 1) _ hinv rfl hvals
    (by
      intro t ht
      simp only [List.mem_cons, List.mem_replicate] at ht
      rcases ht with rfl | rfl | rfl | ⟨_, rfl⟩ <;> rfl)
    (by
      show 1 + _ ≤ _
      rw [List.countP_cons, List.countP_cons, List.countP_cons, List.countP_replicate]
      decide)
  obtain ⟨n1, r1, hd1, hr1, rfl⟩ := List.forall₂_cons_left_iff.1 hden
  obtain ⟨p, r2, hd2, hr2, rfl⟩ := List.forall₂_cons_left_iff.1 hr1
  have hp : p = "+".toList := by
    rcases hd2 with h | h
    · exact h.2
    · exact absurd h.1 (by decide)
  subst hp
  obtain ⟨j, hj, a, ha, hav⟩ : ∃ j, n1 = nameOf j ∧ ∃ a, M1.lookup n1 = some a
      ∧ a.m_dvalue = A.atof "1".toList := by
    rcases hd1 with h | h
    · exact absurd h.1 (by decide)
    · obtain ⟨_, _, hk, a, ha, hav⟩ := h
      rcases hk with hk | hk
      · exact absurd hk.1 (by decide)
      · obtain ⟨j, hj⟩ := hk.2
        exact ⟨j, hj, a, ha, hav⟩
  subst hj
  refine ⟨_, j, r2, heq, hinv1, rfl, rfl, ?_, hmono _ _ ?_, ⟨a, ha, hav⟩,
    Forall₂_Den_operands A hr2 ?_, ?_⟩
  · rw [hcount]
    show 1 + _ = _
    rw [List.countP_cons, List.countP_cons, List.countP_cons, List.countP_replicate]
    decide
  · show List.lookup (nameOf 0) [(nameOf 0, _)] = _
    rw [List.lookup_cons, beq_self_eq_true]
  · intro t ht
    simp only [List.mem_cons, List.mem_replicate] at ht
    rcases ht with rfl | ⟨_, rfl⟩ <;> rfl
  · rw [← hr2.length_eq, List.length_cons, List.length_replicate]

/-- With all 6656 names in use, `generateArgArgOp` names its generator `#AA` and keeps the
argument map as it is. -/
theorem generateArgArgOp_saturated (j : Nat) (s : MathExpression V)
    (hM : MapInv A s.m_argumentMap) (hG : s.m_generatorVec = [])
    (hcount : s.m_argumentMap.countP counted = nameCapacity)
    (h0 : nameOf 0 ∈ mapKeys s.m_argumentMap) (h1 : nameOf j ∈ mapKeys s.m_argumentMap) :
    generateArgArgOp A (nameOf 0) (nameOf j) "+".toList s
      = { s with m_generatorVec := [overflowGenerator j], m_math := s.m_math ++ [nameOf 0] } := by
  obtain ⟨p0, hp0, _, hq0⟩ := argPointer_ok A s hM (nameOf 0) (isArgument_of_key A s _ h0)
  obtain ⟨p1, hp1, _, hq1⟩ := argPointer_ok A s hM (nameOf j) (isArgument_of_key A s _ h1)
  rw [hasConstantMap_nameOf, if_neg Bool.false_ne_true] at hq0 hq1
  subst hq0 hq1
  have hn : createNewUserConstantName s = nameOf 0 := by
    rw [createNewUserConstantName_eq A s hM, hcount, nameOf_capacity]
  unfold generateArgArgOp
  simp only [hn, hp0, hp1, hG, List.nil_append, mapInsert_of_mem _ _ _ h0, overflowGenerator]

/-- The expansion of the program of `overflowText`: one generator, named `#AA`. -/
theorem overflow_expand (j : Nat) (math1 : List Str) (s : MathExpression V)
    (hs : StInv A s) (hG : s.m_generatorVec = [])
    (hm : s.m_math = nameOf 0 :: nameOf j :: "+".toList :: math1)
    (hcount : s.m_argumentMap.countP counted = nameCapacity)
    (h0 : nameOf 0 ∈ mapKeys s.m_argumentMap) (h1 : nameOf j ∈ mapKeys s.m_argumentMap)
    (hrest : ∀ t ∈ math1, isOperator t = false) (fuel : Nat)
    (hfuel : math1.length + 4 ≤ fuel) :
    expandMathExpression A fuel s = .ok (true,
      { s with m_generatorVec := [overflowGenerator j], m_math := s.m_math ++ [nameOf 0] }) := by
  obtain ⟨f, rfl⟩ : ∃ f, fuel = f + 3 := ⟨fuel - 3, by omega⟩
  have e1 := expandLoop_operand A (f + 2) [] (nameOf j :: "+".toList :: math1) (nameOf 0) s hm
    (hasOperatorMap_nameOf 0)
  have e2 := expandLoop_operand A (f + 1) [nameOf 0] ("+".toList :: math1) (nameOf j) s hm
    (hasOperatorMap_nameOf j)
  have e3 := expandLoop_reduce2 A f [] [] math1 (nameOf 0) (nameOf j) "+".toList s hs.1 hm
    (Or.inl rfl) (fun u hu => absurd hu (List.not_mem_nil u)) (isArgument_of_key A s _ h0)
    (isArgument_of_key A s _ h1) (by decide)
  rw [with_math_self, generateArgArgOp_saturated A j s hs.1 hG hcount h0 h1] at e3
  have e4 := expandLoop_skip A f [nameOf 0, nameOf j, "+".toList] (math1 ++ [nameOf 0])
    { s with m_generatorVec := [overflowGenerator j], m_math := s.m_math ++ [nameOf 0] }
    (by
      show s.m_math ++ [nameOf 0] = _
      rw [hm]
      rfl)
    (by
      intro t ht
      rcases List.mem_append.1 ht with ht | ht
      · exact hrest t ht
      · rw [List.mem_singleton.1 ht]
        exact hasOperatorMap_nameOf 0)
    (by rw [List.length_append, List.length_singleton]; omega)
  exact e1.trans (e2.trans (e3.trans e4))

/-- An evaluation of the program of `overflowText`: the sum of the bindings `#AA` and number
`j` is returned and stored into the binding `#AA`. -/
theorem overflow_calc (j : Nat) (s : MathExpression V) (a0 a1 : Argument V)
    (hG : s.m_generatorVec = [overflowGenerator j])
    (h0 : s.m_argumentMap.lookup (nameOf 0) = some a0)
    (h1 : s.m_argumentMap.lookup (nameOf j) = some a1) :
    calculateExpression A s = .ok (A.add a0.m_dvalue a1.m_dvalue,
      { s with m_argumentMap :=
          mapSetDouble s.m_argumentMap (nameOf 0) (A.add a0.m_dvalue a1.m_dvalue) }) := by
  unfold calculateExpression
  rw [hG]
  simp only [runGenerators, generateDoubleValue, overflowGenerator, derefDouble, h0, h1]
  rfl

end Overflow

section Overflow5

/-- The program of `overflowText` in exact arithmetic: it compiles with both stages returning
`true`, has one generator and 6656 synthesized names, and its first two evaluations return 6 and
then 7. -/
theorem overflow_evaluations :
    ∃ s1 s2 s3 s4 : MathExpression (Option ℚ),
      setArgumentMapFrom exactArith overflowText (MathExpression.new (Option ℚ)) = (true, s1)
      ∧ (∀ fuel, 6658 ≤ fuel → expandMathExpression exactArith fuel s1 = .ok (true, s2))
      ∧ s2.m_generatorVec.length = 1
      ∧ getEntitySize s2 .Argument = nameCapacity
      ∧ calculateExpression exactArith s2 = .ok (some 6, s3)
      ∧ calculateExpression exactArith s3 = .ok (some 7, s4) := by
  obtain ⟨s1, j, math1, hset, hinv, hG, hm, hcount, h0, ⟨a, ha, hav⟩, hrest, hlen⟩ :=
    overflow_classify exactArith (MathExpression.new (Option ℚ))
  have h0mem : nameOf 0 ∈ mapKeys s1.m_argumentMap :=
    (lookup_isSome_iff_mem_keys _ _).1 (by rw [h0]; rfl)
  have h1mem : nameOf j ∈ mapKeys s1.m_argumentMap :=
    (lookup_isSome_iff_mem_keys _ _).1 (by rw [ha]; rfl)
  have h5 : exactArith.atof "5".toList = some 5 := by decide!
  have h1 : exactArith.atof "1".toList = some 1 := by decide!
  have hne : nameOf j ≠ nameOf 0 := by
    intro hj
    rw [hj, h0] at ha
    have := congrArg Argument.m_dvalue (Option.some.inj ha)
    rw [hav, h5, h1] at this
    exact absurd this (by decide)
  have hsum1 : exactArith.add (exactArith.atof "5".toList) a.m_dvalue = some 6 := by
    rw [hav, h5, h1]
    show some ((5 : ℚ) + 1) = some 6
    norm_num
  have hsum2 : exactArith.add (some 6) a.m_dvalue = some 7 := by
    rw [hav, h1]
    show some ((6 : ℚ) + 1) = some 7
    norm_num
  have c1 := overflow_calc exactArith j
    { s1 with m_generatorVec := [overflowGenerator j], m_math := s1.m_math ++ [nameOf 0] }
    _ a rfl h0 ha
  rw [hsum1] at c1
  have c2 := overflow_calc exactArith j
    { s1 with
      m_generatorVec := [overflowGenerator j]
      m_math := s1.m_math ++ [nameOf 0]
      m_argumentMap := mapSetDouble s1.m_argumentMap (nameOf 0) (some 6) }
    _ a rfl
    (by
      show (mapSetDouble s1.m_argumentMap (nameOf 0) (some 6)).lookup (nameOf 0) = _
      rw [lookup_mapSetDouble_self, h0]
      rfl)
    (by
      show (mapSetDouble s1.m_argumentMap (nameOf 0) (some 6)).lookup (nameOf j) = _
      rw [lookup_mapSetDouble_ne _ _ _ _ hne, ha])
  rw [hsum2] at c2
  refine ⟨s1, _, _, _, hset, fun fuel hf => overflow_expand exactArith j math1 s1 hinv hG hm
    hcount h0mem h1mem hrest fuel (by omega), rfl, ?_, c1, c2⟩
  rw [getEntitySize_argument, countP_le_of_MapInv exactArith hinv.1]
  exact hcount

end Overflow5
section PushErrors

variable {V : Type}

/-- With no `(` on the working stack, the loop `for(; m_RPstack[0] != "(";)` empties the stack
and then reads `m_RPstack[0]` of the empty vector. -/
theorem popToParenthesis_no_open (stack : List Str) (rp : Str)
    (h : ∀ x ∈ stack, x ≠ ['(']) :
    popToParenthesis (stack.length + 1) stack rp = .error .undefinedBehaviour := by
  induction stack generalizing rp with
  | nil => rfl
  | cons x xs ih =>
    have hx : (x != ['(']) = true := by
      simpa using h x (List.mem_cons_self _ _)
    rw [List.length_cons, popToParenthesis]
    simp only [List.getElem?_cons_zero, hx, if_true, List.length_cons, Nat.zero_lt_succ]
    exact ih _ (fun y hy => h y (List.mem_cons_of_mem _ hy))

/-- A `)` handed to `pushToReversePolish` as a special character while the working stack holds
no `(`: the call reads `m_RPstack[0]` of an empty vector, and never reaches the statements that
set the error 4. -/
theorem pushToReversePolish_close_no_open (a_char : Char) (s : MathExpression V)
    (hk : a_char = 's' ∨ a_char = 'S') (h : ∀ x ∈ s.m_RPstack, x ≠ ['(']) :
    pushToReversePolish [')'] a_char s = .error .undefinedBehaviour := by
  have hp := popToParenthesis_no_open s.m_RPstack s.m_reversePolish h
  rcases hk with rfl | rfl
  · simp only [pushToReversePolish, hp]
    rfl
  · simp only [pushToReversePolish, hp]
    rfl

end PushErrors
section ExpandErrors

variable {V : Type} (A : Arith V)

/-- A result of the loop of `expandMathExpression` does not depend on the fuel left over. -/
theorem expandLoop_fuel_succ (fuel i : Nat) (s : MathExpression V)
    (r : Bool × MathExpression V) (h : expandLoop A fuel i s = .ok r) :
    expandLoop A (fuel + 1) i s = .ok r := by
  induction fuel generalizing i s with
  | zero =>
    rw [expandLoop] at h
    split_ifs at h with h1
    rw [expandLoop, if_neg h1]
    exact h
  | succ fuel ih =>
    rw [expandLoop] at h
    rw [expandLoop]
    simp only at h ⊢
    split_ifs at h with h1 h2 h3 h4 h5 h6 h7 h8 h9 h10
    · rw [if_pos h1, if_pos h2, if_pos h3, if_pos h4, if_pos h5]
      exact ih _ _ h
    · rw [if_pos h1, if_pos h2, if_pos h3, if_pos h4, if_neg h5]
      exact ih _ _ h
    · rw [if_pos h1, if_pos h2, if_pos h3, if_neg h4, if_pos h6]
      exact ih _ _ h
    · rw [if_pos h1, if_pos h2, if_pos h3, if_neg h4, if_neg h6, if_pos h7, if_pos h8, if_pos h9]
      exact ih _ _ h
    · rw [if_pos h1, if_pos h2, if_pos h3, if_neg h4, if_neg h6, if_pos h7, if_pos h8, if_neg h9]
      exact ih _ _ h
    · rw [if_pos h1, if_pos h2, if_pos h3, if_neg h4, if_neg h6, if_pos h7, if_neg h8, if_pos h10]
      exact ih _ _ h
    · rw [if_pos h1, if_pos h2, if_pos h3, if_neg h4, if_neg h6, if_pos h7, if_neg h8, if_neg h10]
      exact ih _ _ h
    · rw [if_pos h1, if_pos h2, if_pos h3, if_neg h4, if_neg h6, if_neg h7]
      exact h
    · rw [if_pos h1, if_pos h2, if_neg h3]
      exact h
    · rw [if_pos h1, if_neg h2]
      exact ih _ _ h
    · rw [if_neg h1]
      exact h

theorem expandLoop_fuel_add (k fuel i : Nat) (s : MathExpression V)
    (r : Bool × MathExpression V) (h : expandLoop A fuel i s = .ok r) :
    expandLoop A (fuel + k) i s = .ok r := by
  induction k with
  | zero => exact h
  | succ k ih => exact expandLoop_fuel_succ A _ i s r ih

/-- The only fault of the loop of `expandMathExpression` is the lack of fuel. -/
theorem expandLoop_fault (fuel i : Nat) (s : MathExpression V) (f : Fault)
    (h : expandLoop A fuel i s = .error f) : f = .outOfFuel := by
  induction fuel generalizing i s with
  | zero =>
    rw [expandLoop] at h
    split_ifs at h
    cases h
    rfl
  | succ fuel ih =>
    rw [expandLoop] at h
    simp only at h
    split_ifs at h <;> exact ih _ _ h

/-- A loop of `expandMathExpression` that runs out of every large amount of fuel runs out of
every amount of fuel: it does not return. -/
theorem expandLoop_never (n i : Nat) (s : MathExpression V)
    (h : ∀ fuel, n ≤ fuel → expandLoop A fuel i s = .error .outOfFuel) (fuel : Nat) :
    expandLoop A fuel i s = .error .outOfFuel := by
  cases hr : expandLoop A fuel i s with
  | error f => rw [expandLoop_fault A fuel i s f hr]
  | ok r =>
    have h1 := expandLoop_fuel_add A n fuel i s r hr
    rw [h (fuel + n) (Nat.le_add_left _ _)] at h1
    cases h1

/-- Past the first entity, the only `return false` of `expandMathExpression` is the one that
sets the error 2. -/
theorem expandLoop_false_error2 (fuel i : Nat) (s s1 : MathExpression V) (hi : 0 < i)
    (h : expandLoop A fuel i s = .ok (false, s1)) : s1.m_expressionError = 2 := by
  induction fuel generalizing i s with
  | zero =>
    rw [expandLoop] at h
    split_ifs at h
    cases h
  | succ fuel ih =>
    rw [expandLoop] at h
    simp only at h
    split_ifs at h
    · exact ih _ _ (Nat.succ_pos _) h
    · exact ih _ _ (Nat.succ_pos _) h
    · exact ih _ _ (Nat.succ_pos _) h
    · exact ih _ _ (Nat.succ_pos _) h
    · exact ih _ _ (Nat.succ_pos _) h
    · exact ih _ _ (Nat.succ_pos _) h
    · exact ih _ _ (Nat.succ_pos _) h
    · cases h
      rfl
    · exact ih _ _ (Nat.succ_pos _) h
    · cases h

/-- An operator as the first entity of `m_math`: `expandMathExpression` returns `false` at
once, with the error 1 and nothing else changed. -/
theorem expandLoop_leading_operator (fuel : Nat) (s : MathExpression V) (t : Str)
    (rest : List Str) (hm : s.m_math = t :: rest) (ht : isOperator t = true) :
    expandLoop A (fuel + 1) 0 s = .ok (false,
      { s with
        m_expressionError := 1
        m_expressionErrorString := "The RP expression starts with an operator".toList }) := by
  rw [expandLoop]
  have hlt : 0 < s.m_math.length := by rw [hm]; exact Nat.succ_pos _
  have hget : s.m_math.getD 0 [] = t := by rw [hm]; rfl
  simp only [hlt, if_true, hget, ht, Nat.lt_irrefl, gt_iff_lt, if_false]

/-- A first entity of `m_math` that is no operator: a `return false` of
`expandMathExpression` sets the error 2. -/
theorem expandLoop_operand_first (fuel : Nat) (s s1 : MathExpression V) (t : Str)
    (rest : List Str) (hm : s.m_math = t :: rest) (ht : isOperator t = false)
    (h : expandLoop A fuel 0 s = .ok (false, s1)) : s1.m_expressionError = 2 := by
  cases fuel with
  | zero =>
    rw [expandLoop] at h
    split_ifs at h
    cases h
  | succ fuel =>
    have e1 := expandLoop_operand A fuel [] rest t s hm ht
    rw [show ([] : List Str).length = 0 from rfl] at e1
    rw [e1] at h
    exact expandLoop_false_error2 A fuel _ s s1 (Nat.succ_pos _) h

/-- An operator with two arguments that follows an operator and one argument at the end of
`m_math`: the loop of `expandMathExpression` copies the argument and the operator to the end
of `m_math`, comes to the copy, copies it, and so on; it does not return. -/
theorem expandLoop_dangling (fuel : Nat) (pre : List Str) (o g t : Str)
    (s : MathExpression V) (hM : MapInv A s.m_argumentMap)
    (hm : s.m_math = pre ++ [o, g] ++ [t]) (ho : isOperator o = true)
    (hg : isArgument A s g = true) (hgo : isOperator g = false)
    (ht : isOperatorTwoArg t = true) :
    expandLoop A fuel (pre ++ [o, g]).length s = .error .outOfFuel := by
  induction fuel using Nat.strong_induction_on generalizing pre o s with
  | _ fuel ih =>
    have hlt : (pre ++ [o, g]).length < s.m_math.length := by
      rw [hm]
      simp only [List.length_append, List.length_cons, List.length_nil]
      omega
    cases fuel with
    | zero => rw [expandLoop, if_pos hlt]
    | succ fuel =>
      rw [expandLoop_copy2 A fuel pre [] o g t s hM hm ho hg ht]
      have hm3 : ({ s with m_math := s.m_math ++ [g, t] } : MathExpression V).m_math
          = (pre ++ [o, g] ++ [t]) ++ g :: [t] := by
        show s.m_math ++ [g, t] = _
        rw [hm]
      cases fuel with
      | zero =>
        rw [expandLoop, if_pos]
        show (pre ++ [o, g]).length + 1 < (s.m_math ++ [g, t]).length
        rw [hm]
        simp only [List.length_append, List.length_cons, List.length_nil]
        omega
      | succ fuel =>
        have e1 := expandLoop_operand A fuel (pre ++ [o, g] ++ [t]) [t] g
          { s with m_math := s.m_math ++ [g, t] } hm3 hgo
        have hlen : (pre ++ [o, g] ++ [t]).length = (pre ++ [o, g]).length + 1 := by
          rw [List.length_append, List.length_singleton]
        rw [hlen] at e1
        rw [e1]
        have hm4 : ({ s with m_math := s.m_math ++ [g, t] } : MathExpression V).m_math
            = (pre ++ [o, g]) ++ [t, g] ++ [t] := by
          show s.m_math ++ [g, t] = _
          rw [hm]
          simp only [List.append_assoc, List.cons_append, List.nil_append]
        have hlen2 : (pre ++ [o, g]).length + 1 + 1 = ((pre ++ [o, g]) ++ [t, g]).length := by
          simp only [List.length_append, List.length_cons, List.length_nil]
        rw [hlen2]
        exact ih fuel (by omega) (pre ++ [o, g]) t _ hM hm4 (isOperator_of_two t ht) hg

end ExpandErrors
section PrepassTotal

theorem sum_weight_insertAt (l : List Char) (k : Nat) (c : Char) :
    ((insertAt l k c).map prepassWeight).sum = (l.map prepassWeight).sum + prepassWeight c := by
  have h := congrArg (fun x => (x.map prepassWeight).sum) (List.take_append_drop k l)
  simp only [List.map_append, List.sum_append] at h
  simp only [insertAt, List.map_append, List.map_cons, List.sum_append, List.sum_cons]
  omega

theorem prepassWeight_pos (c : Char) : 1 ≤ prepassWeight c := by
  unfold prepassWeight
  split_ifs <;> omega

theorem startClass_append (l t1 t2 : Str) (h : l ≠ []) :
    startClass (l ++ t1) = startClass (l ++ t2) := by
  cases l with
  | nil => exact absurd rfl h
  | cons x xs => rfl

theorem startClass_reverse_cons (p q : Char) (rp t1 t2 : List Char)
    (h : startsWell p = startsWell q) :
    startClass ((p :: rp).reverse ++ t1) = startClass ((q :: rp).reverse ++ t2) := by
  rw [List.reverse_cons, List.reverse_cons]
  cases hr : rp.reverse with
  | nil =>
    show some (startsWell p) = some (startsWell q)
    rw [h]
  | cons x xs => rfl

theorem prepassTrigger_special (p c : Char) (h : prepassTrigger p c = true) :
    isSpecialNoParenthesis p = true := by
  simp only [prepassTrigger, Bool.or_eq_true, Bool.and_eq_true, beq_iff_eq] at h
  rcases h with h | h
  · exact h.1
  · rw [h.1]
    rfl

/-- The pre-pass of `expressionToReversePolish` ends, within `prepassMeasure` trips, and keeps
the class of the first character of the text. -/
theorem prepassSplit_total (n : Nat) : ∀ (rpre suf : List Char), prepassMeasure rpre suf ≤ n →
    ∃ e1, (∀ fuel, n < fuel → prepassSplit fuel rpre suf = .ok e1)
      ∧ startClass e1 = startClass (rpre.reverse ++ suf) := by
  induction n with
  | zero =>
    intro rpre suf h
    cases suf with
    | nil =>
      refine ⟨rpre.reverse, ?_, by rw [List.append_nil]⟩
      intro fuel hf
      obtain ⟨f, rfl⟩ : ∃ f, fuel = f + 1 := ⟨fuel - 1, by omega⟩
      rw [prepassSplit]
    | cons c rest =>
      have := prepassWeight_pos c
      simp only [prepassMeasure, List.map_cons, List.sum_cons] at h
      omega
  | succ n ih =>
    intro rpre suf h
    cases suf with
    | nil =>
      refine ⟨rpre.reverse, ?_, by rw [List.append_nil]⟩
      intro fuel hf
      obtain ⟨f, rfl⟩ : ∃ f, fuel = f + 1 := ⟨fuel - 1, by omega⟩
      rw [prepassSplit]
    | cons c rest =>
      cases rpre with
      | nil =>
        obtain ⟨e1, he1, hc1⟩ := ih [c] rest (by
          have hw : prepassWeight c = if isSpecialNoParenthesis c = true then 3 else 1 := rfl
          simp only [prepassMeasure, List.map_cons, List.sum_cons] at h ⊢
          rw [hw] at h
          split_ifs at h ⊢ <;> omega)
        refine ⟨e1, ?_, hc1⟩
        intro fuel hf
        obtain ⟨f, rfl⟩ : ∃ f, fuel = f + 1 := ⟨fuel - 1, by omega⟩
        rw [prepassSplit]
        exact he1 f (by omega)
      | cons p rp =>
        have hwc := prepassWeight_pos c
        by_cases h1 : ((p == '-' && c == '-') || (p == '+' && c == '+')) = true
        · have hsp : isSpecialNoParenthesis p = true ∧ prepassWeight c = 3
              ∧ startsWell p = true := by
            simp only [Bool.or_eq_true, Bool.and_eq_true, beq_iff_eq] at h1
            rcases h1 with ⟨rfl, rfl⟩ | ⟨rfl, rfl⟩ <;> exact ⟨rfl, rfl, rfl⟩
          obtain ⟨e1, he1, hc1⟩ := ih ('+' :: rp) rest (by
            simp only [prepassMeasure, List.map_cons, List.sum_cons, hsp.1, hsp.2.1,
              if_true] at h ⊢
            rw [if_pos (by rfl)]
            omega)
          refine ⟨e1, ?_, hc1.trans (startClass_reverse_cons _ _ _ _ _ (by rw [hsp.2.2]; rfl))⟩
          intro fuel hf
          obtain ⟨f, rfl⟩ : ∃ f, fuel = f + 1 := ⟨fuel - 1, by omega⟩
          rw [prepassSplit, if_pos h1]
          exact he1 f (by omega)
        · by_cases h2 : ((p == '-' && c == '+') || (p == '+' && c == '-')) = true
          · have hsp : isSpecialNoParenthesis p = true ∧ prepassWeight c = 3
                ∧ startsWell p = true := by
              simp only [Bool.or_eq_true, Bool.and_eq_true, beq_iff_eq] at h2
              rcases h2 with ⟨rfl, rfl⟩ | ⟨rfl, rfl⟩ <;> exact ⟨rfl, rfl, rfl⟩
            obtain ⟨e1, he1, hc1⟩ := ih ('-' :: rp) rest (by
              simp only [prepassMeasure, List.map_cons, List.sum_cons, hsp.1, hsp.2.1,
                if_true] at h ⊢
              rw [if_pos (by rfl)]
              omega)
            refine ⟨e1, ?_,
              hc1.trans (startClass_reverse_cons _ _ _ _ _ (by rw [hsp.2.2]; rfl))⟩
            intro fuel hf
            obtain ⟨f, rfl⟩ : ∃ f, fuel = f + 1 := ⟨fuel - 1, by omega⟩
            rw [prepassSplit, if_neg h1, if_pos h2]
            exact he1 f (by omega)
          · by_cases h3 : prepassTrigger p c = true
            · have hsp := prepassTrigger_special p c h3
              by_cases h4 : closeIndex (p == '^') c rest < rest.length
              · obtain ⟨e1, he1, hc1⟩ := ih ('(' :: p :: rp)
                  (c :: insertAt rest (closeIndex (p == '^') c rest) ')') (by
                  simp only [prepassMeasure, List.map_cons, List.sum_cons, hsp, if_true,
                    sum_weight_insertAt] at h ⊢
                  rw [if_neg (by decide), show prepassWeight ')' = 1 from rfl]
                  omega)
                refine ⟨e1, ?_, hc1.trans ?_⟩
                · intro fuel hf
                  obtain ⟨f, rfl⟩ : ∃ f, fuel = f + 1 := ⟨fuel - 1, by omega⟩
                  rw [prepassSplit, if_neg h1, if_neg h2, if_pos h3]
                  simp only [h4, if_true]
                  exact he1 f (by omega)
                · rw [List.reverse_cons, List.append_assoc]
                  exact startClass_append (p :: rp).reverse _ _ (by simp)
              · refine ⟨(p :: rp).reverse ++ '(' :: c :: rest ++ [')'], ?_, ?_⟩
                · intro fuel hf
                  obtain ⟨f, rfl⟩ : ∃ f, fuel = f + 1 := ⟨fuel - 1, by omega⟩
                  rw [prepassSplit, if_neg h1, if_neg h2, if_pos h3]
                  simp only [h4, if_false]
                · rw [List.append_assoc]
                  exact startClass_append (p :: rp).reverse _ _ (by simp)
            · obtain ⟨e1, he1, hc1⟩ := ih (c :: p :: rp) rest (by
                have hw : prepassWeight c
                    = if isSpecialNoParenthesis c = true then 3 else 1 := rfl
                simp only [prepassMeasure, List.map_cons, List.sum_cons] at h ⊢
                rw [hw] at h
                split_ifs at h ⊢ <;> omega)
              refine ⟨e1, ?_, hc1.trans ?_⟩
              · intro fuel hf
                obtain ⟨f, rfl⟩ : ∃ f, fuel = f + 1 := ⟨fuel - 1, by omega⟩
                rw [prepassSplit, if_neg h1, if_neg h2, if_neg h3]
                exact he1 f (by omega)
              · rw [List.reverse_cons, List.append_assoc]
                rfl

theorem prepassMeasure_le (e : Str) : prepassMeasure [] e ≤ 3 * e.length := by
  induction e with
  | nil => simp [prepassMeasure]
  | cons c rest ih =>
    have hw : prepassWeight c ≤ 3 := by
      unfold prepassWeight
      split_ifs <;> omega
    simp only [prepassMeasure, List.map_cons, List.sum_cons, List.length_cons, Nat.add_zero]
      at ih ⊢
    omega

/-- The pre-pass of `expressionToReversePolish` ends on every text, within three trips for
each character, and keeps the class of the first character. -/
theorem prepassLoop_total (e : Str) :
    ∃ e1, (∀ fuel, 3 * e.length < fuel → prepassLoop fuel e 0 false = .ok e1)
      ∧ startClass e1 = startClass e := by
  obtain ⟨e1, h1, h2⟩ := prepassSplit_total (3 * e.length) [] e (prepassMeasure_le e)
  refine ⟨e1, ?_, h2⟩
  intro fuel hf
  have := prepassLoop_split fuel [] e
  simp only [List.reverse_nil, List.nil_append, List.length_nil] at this
  rw [this]
  exact h1 fuel hf

end PrepassTotal
section MalformedStart

variable {V : Type}

theorem lexStep_ne_none_of_ne_nil (rpre : List Char) (c : Char) (p : Pending)
    (h : rpre ≠ []) : lexStep rpre c p ≠ none := by
  rcases rpre with _ | ⟨p1, rpre⟩
  · exact absurd rfl h
  · simp only [lexStep]
    split_ifs <;> cases p <;> simp

theorem lexAll_ne_none_of_ne_nil (suf rpre : List Char) (p : Pending)
    (h : rpre ≠ []) : lexAll rpre suf p ≠ none := by
  induction suf generalizing rpre p with
  | nil => simp [lexAll]
  | cons c rest ih =>
    simp only [lexAll]
    have h1 := lexStep_ne_none_of_ne_nil rpre c p h
    cases h2 : lexStep rpre c p with
    | none => exact absurd h2 h1
    | some x =>
      obtain ⟨evs, p1⟩ := x
      have h3 := ih (c :: rpre) p1 (by simp)
      cases h4 : lexAll (c :: rpre) rest p1 with
      | none => exact absurd h4 h3
      | some y => simp [h4]

/-- The first trip of the main loop executes `return false` exactly on a first character that
is not a sign, a digit, a point, a letter or `(`. -/
theorem lexStep_first (c : Char) : lexStep [] c .idle = none ↔ startsWell c = false := by
  simp only [lexStep, Pending.isNumber, Bool.false_and, Bool.not_false, Bool.and_true,
    startsWell]
  by_cases h1 : c.isAlpha = true
  · simp [h1]
  · by_cases h2 : (c == '+' || c == '-') = true
    · simp only [Bool.or_eq_true] at h2
      rcases h2 with h2 | h2 <;> simp [h1, h2]
    · by_cases h3 : (c == '.' || c.isDigit) = true
      · simp only [Bool.or_eq_true] at h3
        rcases h3 with h3 | h3 <;> simp [h1, h2, h3]
      · by_cases h4 : (c == '(') = true
        · simp [h1, h2, h3, h4]
        · simp only [Bool.or_eq_true, not_or, Bool.not_eq_true] at h2 h3
          simp [h1, h2.1, h2.2, h3.1, h3.2, h4]

theorem lexAll_first (c : Char) (rest : List Char) :
    lexAll [] (c :: rest) .idle = none ↔ startsWell c = false := by
  rw [← lexStep_first]
  simp only [lexAll]
  cases h2 : lexStep [] c .idle with
  | none => simp
  | some x =>
    obtain ⟨evs, p1⟩ := x
    have h3 := lexAll_ne_none_of_ne_nil rest [c] p1 (by simp)
    cases h4 : lexAll [c] rest p1 with
    | none => exact absurd h4 h3
    | some y => simp [h4]

/-- On a non-empty text, `expressionToReversePolish` returns `false` exactly when the first
character is not a sign, a digit, a point, a letter or `(`: it then sets the error 5 and
leaves the RP text as it was. The pre-pass ends within three trips for each character. -/
theorem expressionToReversePolish_start (s : MathExpression V) (c : Char) (rest : Str)
    (hs : s.m_expression = c :: rest) :
    ∃ e1, ∀ fuel, 3 * s.m_expression.length < fuel →
      (startsWell c = false → expressionToReversePolish fuel s
        = .ok (false, malformedStart { s with m_RPstack := [], m_expression := e1 }))
      ∧ (startsWell c = true → ∀ s1, expressionToReversePolish fuel s ≠ .ok (false, s1)) := by
  obtain ⟨e1, he1, hc1⟩ := prepassLoop_total s.m_expression
  refine ⟨e1, fun fuel hf => ?_⟩
  have hpre := he1 fuel hf
  rw [hs] at hc1
  obtain ⟨c1, rest1, rfl, hcc⟩ : ∃ c1 rest1, e1 = c1 :: rest1 ∧ startsWell c1 = startsWell c := by
    cases e1 with
    | nil => cases hc1
    | cons c1 rest1 => exact ⟨c1, rest1, rfl, Option.some.inj hc1⟩
  rw [expressionToReversePolish_lex, hpre]
  constructor
  · intro hbad
    have := (lexAll_first c1 rest1).2 (by rw [hcc]; exact hbad)
    simp only [this]
  · intro hgood s1
    have hne : lexAll [] (c1 :: rest1) .idle ≠ none := fun h0 => by
      have := (lexAll_first c1 rest1).1 h0
      rw [hcc, hgood] at this
      cases this
    cases hl : lexAll [] (c1 :: rest1) .idle with
    | none => exact absurd hl hne
    | some x =>
      obtain ⟨evs, p⟩ := x
      intro hcontra
      simp only [hl] at hcontra
      split at hcontra
      · cases hcontra
      · simp at hcontra

end MalformedStart
section RPTokens

variable {V : Type} (A : Arith V)

theorem dropEmptyLast_cons (x : Str) (l : List Str) (h : l ≠ []) :
    dropEmptyLast (x :: l) = x :: dropEmptyLast l := by
  cases l with
  | nil => exact absurd rfl h
  | cons y ys =>
    simp only [dropEmptyLast, List.getLast?_cons_cons, List.dropLast_cons₂]
    split_ifs <;> rfl

theorem tokensFrom_nil (cur : Str) : tokensFrom cur [] = if cur = [] then [] else [cur] := by
  simp only [tokensFrom, List.splitOn, List.splitOnP_nil, List.modifyHead, List.append_nil,
    dropEmptyLast, List.getLast?_singleton, Option.some.injEq, List.dropLast_single]

theorem tokensFrom_space (cur rest : Str) :
    tokensFrom cur (' ' :: rest) = cur :: tokensFrom [] rest := by
  have hne := List.splitOnP_ne_nil (fun x => x == ' ') rest
  simp only [tokensFrom, List.splitOn, List.splitOnP_cons, beq_self_eq_true, if_true,
    List.modifyHead, List.append_nil]
  rw [dropEmptyLast_cons _ _ hne]
  congr 2
  cases List.splitOnP (fun x => x == ' ') rest with
  | nil => rfl
  | cons y ys => rfl

theorem tokensFrom_char (cur rest : Str) (c : Char) (hc : c ≠ ' ') :
    tokensFrom cur (c :: rest) = tokensFrom (cur ++ [c]) rest := by
  have hcb : (c == ' ') = false := by simpa using hc
  simp only [tokensFrom, List.splitOn, List.splitOnP_cons, hcb, Bool.false_eq_true, if_false]
  cases List.splitOnP (fun x => x == ' ') rest with
  | nil => rfl
  | cons y ys =>
    simp only [List.modifyHead, List.append_assoc, List.singleton_append]

theorem rpTokens_eq (rp : Str) : rpTokens rp = tokensFrom [] rp := by
  simp only [rpTokens, tokensFrom, List.splitOn]
  cases List.splitOnP (fun x => x == ' ') rp with
  | nil => rfl
  | cons y ys => rfl

theorem drop_charAt (rp : Str) (i : Nat) (h : i < rp.length) :
    rp.drop i = charAt rp i :: rp.drop (i + 1) := by
  rw [List.drop_eq_getElem_cons h, charAt, List.getD_eq_getElem _ _ h]

/-- The result of classifying one entity in `setArgumentMap`. -/
theorem classifyEntity_known (i : Nat) (t : Str) (s : MathExpression V) :
    ((classifyEntity A i t s).1 = true ∧ entityKnown t = true)
      ∨ ((classifyEntity A i t s).1 = false ∧ entityKnown t = false
        ∧ (classifyEntity A i t s).2.m_reversePolishErrorString = unknownOperatorMessage t) := by
  unfold classifyEntity entityKnown
  by_cases h1 : (charAt t 0).isAlpha = true
  · left
    rw [if_pos h1]
    refine ⟨?_, by simp [h1]⟩
    by_cases hop : hasOperatorMap t = true
    · rw [if_pos hop]
    · rw [if_neg hop]
      by_cases hcst : hasConstantMap A t = true
      · rw [if_pos hcst]
        cases getConstant A t <;> rfl
      · rw [if_neg hcst]
  · rw [if_neg h1]
    by_cases h2 : isNumber t = true
    · left
      rw [if_pos h2]
      exact ⟨rfl, by simp [h2]⟩
    · rw [if_neg h2]
      by_cases h3 : hasOperatorMap t = true
      · left
        rw [if_pos h3]
        exact ⟨rfl, by simp [h3]⟩
      · right
        rw [if_neg h3]
        refine ⟨rfl, by simp [h1, h2, h3], rfl⟩

/-- The loop of `setArgumentMap` classifies the space-separated tokens in order and stops at
the first one that is unknown. -/
theorem setArgumentMapLoop_known (rp : Str) (rem : Nat) :
    ∀ (cur : Str) (s : MathExpression V), rem ≤ rp.length → (rem = 0 → cur = []) →
      ((setArgumentMapLoop A rp rem cur s).1 = true
          ∧ ∀ t ∈ tokensFrom cur (rp.drop (rp.length - rem)), entityKnown t = true)
        ∨ ((setArgumentMapLoop A rp rem cur s).1 = false
          ∧ ∃ t ∈ tokensFrom cur (rp.drop (rp.length - rem)), entityKnown t = false
            ∧ (setArgumentMapLoop A rp rem cur s).2.m_reversePolishErrorString
                = unknownOperatorMessage t) := by
  induction rem with
  | zero =>
    intro cur s _ hcur
    left
    rw [hcur rfl, Nat.sub_zero, List.drop_length, tokensFrom_nil, if_pos rfl]
    exact ⟨rfl, fun t ht => absurd ht (List.not_mem_nil t)⟩
  | succ rem ih =>
    intro cur s hrem _
    have hi : rp.length - (rem + 1) < rp.length := by omega
    have hnext : rp.length - (rem + 1) + 1 = rp.length - rem := by omega
    rw [drop_charAt rp _ hi, hnext]
    by_cases hc : charAt rp (rp.length - (rem + 1)) = ' '
    · rw [setArgumentMapLoop_blank A rp rem cur s hc, hc, tokensFrom_space]
      have hk := classifyEntity_known A (rp.length - (rem + 1)) cur s
      rcases hres : classifyEntity A (rp.length - (rem + 1)) cur s with ⟨b, s1⟩
      rw [hres] at hk
      cases b with
      | true =>
        have hk1 : entityKnown cur = true := by
          rcases hk with ⟨_, hk⟩ | ⟨hb, _⟩
          · exact hk
          · cases hb
        dsimp only
        rcases ih [] s1 (by omega) (fun _ => rfl) with ⟨h1, h2⟩ | ⟨h1, t, ht, h2⟩
        · left
          refine ⟨h1, fun t ht => ?_⟩
          rcases List.mem_cons.1 ht with rfl | ht
          · exact hk1
          · exact h2 t ht
        · right
          exact ⟨h1, t, List.mem_cons_of_mem _ ht, h2⟩
      | false =>
        dsimp only
        right
        rcases hk with ⟨hb, _⟩ | ⟨_, hk, hmsg⟩
        · cases hb
        · exact ⟨rfl, cur, List.mem_cons_self _ _, hk, hmsg⟩
    · by_cases hlast : rp.length - (rem + 1) = rp.length - 1
      · have hrem0 : rem = 0 := by omega
        subst hrem0
        rw [setArgumentMapLoop_end A rp 0 cur s _ rfl hc hlast, tokensFrom_char _ _ _ hc,
          Nat.sub_zero, List.drop_length, tokensFrom_nil, if_neg (by simp)]
        have hk := classifyEntity_known A (rp.length - (0 + 1))
          (cur ++ [charAt rp (rp.length - (0 + 1))]) s
        rcases hres : classifyEntity A (rp.length - (0 + 1))
          (cur ++ [charAt rp (rp.length - (0 + 1))]) s with ⟨b, s1⟩
        rw [hres] at hk
        cases b with
        | true =>
          dsimp only
          left
          refine ⟨rfl, fun t ht => ?_⟩
          rw [List.mem_singleton.1 ht]
          rcases hk with ⟨_, hk⟩ | ⟨hb, _⟩
          · exact hk
          · cases hb
        | false =>
          dsimp only
          right
          rcases hk with ⟨hb, _⟩ | ⟨_, hk, hmsg⟩
          · cases hb
          · exact ⟨rfl, _, List.mem_singleton.2 rfl, hk, hmsg⟩
      · rw [setArgumentMapLoop_char A rp rem cur s _ rfl hc hlast, tokensFrom_char _ _ _ hc]
        exact ih _ s (by omega) (fun h0 => absurd (by omega) hlast)

/-- The result of `setArgumentMap` in terms of the space-separated tokens of the RP text. -/
theorem setArgumentMap_known (s : MathExpression V) :
    ((setArgumentMap A s).1 = true
        ∧ ∀ t ∈ rpTokens s.m_reversePolish, entityKnown t = true)
      ∨ ((setArgumentMap A s).1 = false
        ∧ ∃ t ∈ rpTokens s.m_reversePolish, entityKnown t = false
          ∧ (setArgumentMap A s).2.m_reversePolishErrorString = unknownOperatorMessage t) := by
  have h := setArgumentMapLoop_known A s.m_reversePolish s.m_reversePolish.length []
    { s with m_math := [], m_argumentMap := [], m_generatorVec := [] } (Nat.le_refl _)
    (fun _ => rfl)
  rw [Nat.sub_self, List.drop_zero, ← rpTokens_eq] at h
  exact h

end RPTokens
section Dangling

variable {V : Type} (A : Arith V)

/-- Two operands followed by two operators with two arguments, as in `1 2 + +`: the first
operator is reduced to a generator, the second is copied behind it, and from then on the loop of
`expandMathExpression` copies the generated argument and the operator again and again; it does
not return, whatever the fuel. -/
theorem expand_two_operands_two_operators (s : MathExpression V) (hs : StInv A s)
    (x y t t2 : Str) (hm : s.m_math = [x, y, t, t2])
    (hx : isOperator x = false) (hy : isOperator y = false)
    (ht : isOperatorTwoArg t = true) (ht2 : isOperatorTwoArg t2 = true) (fuel : Nat) :
    expandMathExpression A fuel s = .error .outOfFuel := by
  have hkey : ∀ u ∈ s.m_math, isOperator u = false → isArgument A s u = true := by
    intro u hu huo
    rcases hs.2.1 u hu with h | h
    · rw [isOperator, h] at huo
      cases huo
    · exact isArgument_of_key A s u h
  have hxa := hkey x (by rw [hm]; simp) hx
  have hya := hkey y (by rw [hm]; simp) hy
  have hs1 : StInv A (generateArgArgOp A x y t s) :=
    generateArgArgOp_inv A s hs s.m_math hs.2.1 x y t hxa hya ht
  have hm1 : (generateArgArgOp A x y t s).m_math
      = [x, y, t, t2, createNewUserConstantName s] := by
    show s.m_math ++ [createNewUserConstantName s] = _
    rw [hm]
    rfl
  have hname : isOperator (createNewUserConstantName s) = false := by
    rw [createNewUserConstantName_eq A s hs.1]
    exact hasOperatorMap_nameOf _
  have hga : isArgument A (generateArgArgOp A x y t s) (createNewUserConstantName s) = true :=
    isArgument_of_key A _ _ (mem_mapKeys_mapInsert _ _ _)
  unfold expandMathExpression
  refine expandLoop_never A 5 0 s ?_ fuel
  intro fuel hfuel
  obtain ⟨f, rfl⟩ : ∃ f, fuel = f + 5 := ⟨fuel - 5, by omega⟩
  have e1 := expandLoop_operand A (f + 4) [] [y, t, t2] x s hm hx
  have e2 := expandLoop_operand A (f + 3) [x] [t, t2] y s hm hy
  have e3 := expandLoop_reduce2 A (f + 2) [] [] [t2] x y t s hs.1 hm (Or.inl rfl)
    (fun u hu => absurd hu (List.not_mem_nil u)) hxa hya ht
  rw [with_math_self] at e3
  have e4 := expandLoop_copy1 A (f + 1) [x, y] [createNewUserConstantName s] t t2
    (generateArgArgOp A x y t s) hs1.1 hm1 (isOperator_of_two t ht) (isOperator_of_two t2 ht2)
  have e5 := expandLoop_operand A f [x, y, t, t2] [t2] (createNewUserConstantName s)
    { generateArgArgOp A x y t s with m_math := (generateArgArgOp A x y t s).m_math ++ [t2] }
    (by
      show (generateArgArgOp A x y t s).m_math ++ [t2] = _
      rw [hm1]
      rfl)
    hname
  have e6 := expandLoop_dangling A f [x, y, t] t2 (createNewUserConstantName s) t2
    { generateArgArgOp A x y t s with m_math := (generateArgArgOp A x y t s).m_math ++ [t2] }
    hs1.1
    (by
      show (generateArgArgOp A x y t s).m_math ++ [t2] = _
      rw [hm1]
      rfl)
    (isOperator_of_two t2 ht2) hga hname ht2
  exact e1.trans (e2.trans (e3.trans (e4.trans (e5.trans e6))))

end Dangling
section EmptyProgram

variable {V : Type} (A : Arith V)

/-- On an empty RP text `setArgumentMap` clears the program and returns `true`. -/
theorem setArgumentMap_empty (s : MathExpression V) (h : s.m_reversePolish = []) :
    setArgumentMap A s
      = (true, { s with m_math := [], m_argumentMap := [], m_generatorVec := [] }) := by
  unfold setArgumentMap
  rw [h]
  rfl

/-- On an empty `m_math` the loop of `expandMathExpression` returns `true` at once. -/
theorem expandLoop_empty (fuel : Nat) (s : MathExpression V) (h : s.m_math = []) :
    expandLoop A fuel 0 s = .ok (true, s) := by
  have hlt : ¬ 0 < s.m_math.length := by rw [h]; exact Nat.lt_irrefl 0
  cases fuel with
  | zero => rw [expandLoop, if_neg hlt]
  | succ fuel => rw [expandLoop, if_neg hlt]

/-- The calls of `setMath` after `expressionToReversePolish`: `setArgumentMap` and
`expandMathExpression` are run whatever `expressionToReversePolish` returned, and
`expandMathExpression` is run whatever `setArgumentMap` returned. -/
theorem setMath_stages (fuel : Nat) (e : Str) (s s1 : MathExpression V) (b : Bool)
    (h : expressionToReversePolish fuel (setExpression e s) = .ok (b, s1)) :
    setMath A fuel e s
      = (expandMathExpression A fuel (setArgumentMap A s1).2).map Prod.snd := by
  rw [setMath, h]
  simp only []
  cases expandMathExpression A fuel (setArgumentMap A s1).2 with
  | error f => rfl
  | ok r => rfl

end EmptyProgram
/-! ### Two binary operators between three operands -/

section BinaryPair

variable {V : Type}

theorem isArithmeticChar_iff (x : Char) :
    isArithmeticChar x = true ↔ x = '+' ∨ x = '-' ∨ x = '*' ∨ x = '/' := by
  simp [isArithmeticChar, or_assoc]

/-- A trip of the pre-pass after one of `+ - * /`, on a character that is not a sign, only
advances. -/
theorem prepassSplit_after_arithmetic (fuel : Nat) (z c : Char) (rp rest : List Char)
    (hz : isArithmeticChar z = true) (hc : c ≠ '+' ∧ c ≠ '-') :
    prepassSplit (fuel + 1) (z :: rp) (c :: rest) = prepassSplit fuel (c :: z :: rp) rest := by
  rcases (isArithmeticChar_iff z).1 hz with rfl | rfl | rfl | rfl <;>
    simp [prepassSplit, prepassTrigger, hc.1, hc.2]

/-- The pre-pass walks over an operand that stands at the start of the text or after one of
`+ - * /`. -/
theorem prepassSplit_operand (t : Str) (fuel : Nat) (rpre rest : List Char)
    (ht : isOperand t = true)
    (h : rpre = [] ∨ ∃ z rp, rpre = z :: rp ∧ isArithmeticChar z = true) :
    prepassSplit (fuel + t.length) rpre (t ++ rest)
      = prepassSplit fuel (t.reverse ++ rpre) rest := by
  rcases t with _ | ⟨t0, t1⟩
  · exact absurd rfl (isOperand_ne_nil [] ht)
  · have ht0 := isOperand_not_special _ ht t0 (by simp)
    have ht0ne : t0 ≠ '+' ∧ t0 ≠ '-' := by
      refine ⟨?_, ?_⟩ <;> (rintro rfl; revert ht0; decide)
    have hfirst : prepassSplit (fuel + t1.length + 1) rpre (t0 :: (t1 ++ rest))
        = prepassSplit (fuel + t1.length) (t0 :: rpre) (t1 ++ rest) := by
      rcases h with rfl | ⟨z, rp, rfl, hz⟩
      · exact prepassSplit_step _ _ _ _ quietHead_nil
      · exact prepassSplit_after_arithmetic _ _ _ _ _ hz ht0ne
    have hrun := prepassSplit_run t1 fuel (t0 :: rpre) rest
      ((quietHead_cons _ _).2 (isOperand_quiet _ ht t0 (by simp)))
      (fun ch hch => isOperand_quiet _ ht ch (by simp [hch]))
    rw [List.length_cons, ← Nat.add_assoc, List.cons_append, hfirst, hrun]
    simp only [List.reverse_cons, List.append_assoc, List.singleton_append]

/-- The pre-pass steps over a character that follows an operand. -/
theorem prepassSplit_after_operand (t : Str) (fuel : Nat) (rpre : List Char) (c : Char)
    (rest : List Char) (ht : isOperand t = true) :
    prepassSplit (fuel + 1) (t.reverse ++ rpre) (c :: rest)
      = prepassSplit fuel (c :: (t.reverse ++ rpre)) rest :=
  prepassSplit_step _ _ _ _ (quietHead_reverse_operand t rpre ht)

/-- The pre-pass leaves `a x b y c` as it is, for operands `a`, `b`, `c` and `x`, `y` among
`+ - * /`. -/
theorem prepassSplit_binary3 (a b c : Str) (x y : Char) (ha : isOperand a = true)
    (hb : isOperand b = true) (hc : isOperand c = true) (hx : isArithmeticChar x = true)
    (hy : isArithmeticChar y = true) (fuel : Nat)
    (hfuel : a.length + b.length + c.length + 2 ≤ fuel) :
    prepassSplit fuel [] (a ++ x :: (b ++ y :: c)) = .ok (a ++ x :: (b ++ y :: c)) := by
  apply prepassSplit_mono ((((0 + c.length) + 1 + b.length) + 1) + a.length) _ _ _ _ fuel
    (by omega)
  rw [prepassSplit_operand a _ [] _ ha (Or.inl rfl),
    prepassSplit_after_operand a _ [] x _ ha,
    prepassSplit_operand b _ _ _ hb (Or.inr ⟨x, _, rfl, hx⟩),
    prepassSplit_after_operand b _ _ y _ hb]
  have hlast := prepassSplit_operand c 0 (y :: (b.reverse ++ x :: (a.reverse ++ []))) [] hc
    (Or.inr ⟨y, _, rfl, hy⟩)
  simp only [List.append_nil] at hlast ⊢
  rw [hlast]
  simp [prepassSplit]

/-- The lexer on `a x b y c`. -/
theorem lexAll_binary3 (a b c : Str) (x y : Char) (ha : isOperand a = true)
    (hb : isOperand b = true) (hc : isOperand c = true) (hx : isArithmeticChar x = true)
    (hy : isArithmeticChar y = true) :
    lexAll [] (a ++ x :: (b ++ y :: c)) .idle =
      some ((operandPending a).pushes ++ ([x], 's')
        :: ((operandPending b).pushes ++ [([y], 's')]), operandPending c) := by
  have hxs : isSpecialCharacter x = true ∧ x.isDigit = false := by
    rcases (isArithmeticChar_iff x).1 hx with rfl | rfl | rfl | rfl <;> decide
  have hys : isSpecialCharacter y = true ∧ y.isDigit = false := by
    rcases (isArithmeticChar_iff y).1 hy with rfl | rfl | rfl | rfl <;> decide
  rw [lexAll_append, lexAll_operand_start a ha]
  simp only [List.append_nil]
  have hst := lexStep_special_after_operand a [] x ha hxs.1
  simp only [List.append_nil] at hst
  rw [lexAll_cons, hst]
  simp only []
  rw [lexAll_append, lexAll_operand_after b x a.reverse [x] hb hxs.2
    (by simpa using signAfterParenthesis_operand x a [] ha)]
  simp only []
  rw [lexAll_cons, lexStep_special_after_operand b (x :: a.reverse) y hb hys.1]
  simp only []
  rw [lexAll_operand_after c y (b.reverse ++ x :: a.reverse) [y] hc hys.2
    (signAfterParenthesis_operand y b (x :: a.reverse) hb)]
  simp

/-- Pushing one of `+ - * /` on a stack that holds one of them: the one on the stack goes to
the output first unless its precedence is lower. -/
theorem pushIgnore_arithmetic_second (x y : Char) (s : MathExpression V) (rp : Str)
    (hx : isArithmeticChar x = true) (hy : isArithmeticChar y = true) (hrp : rp ≠ []) :
    pushIgnore [y] 's' (withRP s rp [[x]])
      = .ok (if precedenceOf x ≥ precedenceOf y then withRP s (rp ++ [' ', x]) [[y]]
             else withRP s rp [[y], [x]]) := by
  have happ : ∀ t : Str, appendToReversePolishString t rp = rp ++ ' ' :: t :=
    fun t => appendRP_ne_nil t rp hrp
  have h1 : hasOperatorMap ['+'] = true ∧ hasOperatorMap ['-'] = true
      ∧ hasOperatorMap ['*'] = true ∧ hasOperatorMap ['/'] = true := by decide
  have g1 : getOperator ['+']
      = some ⟨['+'], .OperatorInDoubleDoubleOutDouble, .Addition, none, some .add⟩ := by decide
  have g2 : getOperator ['-']
      = some ⟨['-'], .OperatorInDoubleDoubleOutDouble, .Addition, none, some .subtract⟩ := by
    decide
  have g3 : getOperator ['*']
      = some ⟨['*'], .OperatorInDoubleDoubleOutDouble, .Multiplication, none, some .multiply⟩ := by
    decide
  have g4 : getOperator ['/']
      = some ⟨['/'], .OperatorInDoubleDoubleOutDouble, .Multiplication, none, some .divide⟩ := by
    decide
  rcases (isArithmeticChar_iff x).1 hx with rfl | rfl | rfl | rfl <;>
    rcases (isArithmeticChar_iff y).1 hy with rfl | rfl | rfl | rfl <;>
    simp [pushIgnore, pushToReversePolish, pushOperatorLoop, firstParenthesis, flushIfLast,
      withRP, insertAt, eraseAt, happ, precedenceOf, h1, g1, g2, g3, g4,
      Operator.precedence, OperatorPrecedence.toNat]

end BinaryPair
section BinaryPair2

variable {V : Type}

/-- The infix text `a x b y c`, for operands `a`, `b`, `c` and `x`, `y` among `+ - * /`, and
its RP text: `a b x c y` unless `x` has the lower precedence, and `a b c y x` if it has. -/
theorem binary3_rp (a b c : Str) (x y : Char) (ha : isOperand a = true)
    (hb : isOperand b = true) (hc : isOperand c = true) (hx : isArithmeticChar x = true)
    (hy : isArithmeticChar y = true) (fuel : Nat)
    (hfuel : a.length + b.length + c.length + 2 ≤ fuel) :
    expressionToReversePolish fuel
        (setExpression (a ++ x :: (b ++ y :: c)) (MathExpression.new V)) =
      .ok (true, withRP
        { MathExpression.new V with m_expression := a ++ x :: (b ++ y :: c) }
        (if precedenceOf x ≥ precedenceOf y then a ++ ' ' :: (b ++ ' ' :: x :: ' ' :: (c ++ [' ', y]))
         else a ++ ' ' :: (b ++ ' ' :: (c ++ [' ', y, ' ', x]))) []) := by
  have hxo : hasOperatorMap [x] = true ∧ x ≠ ' ' ∧ x ≠ '\t' := by
    rcases (isArithmeticChar_iff x).1 hx with rfl | rfl | rfl | rfl <;> decide
  have hyo : y ≠ ' ' ∧ y ≠ '\t' := by
    rcases (isArithmeticChar_iff y).1 hy with rfl | rfl | rfl | rfl <;> decide
  have hane := isOperand_ne_nil a ha
  apply expressionToReversePolish_fresh fuel _ _
    ((operandPending a).pushes ++ ([x], 's') :: ((operandPending b).pushes ++ [([y], 's')]))
    (operandPending c)
  · intro ch hch
    simp only [List.mem_append, List.mem_cons] at hch
    rcases hch with hch | rfl | hch | rfl | hch
    · exact operand_clean a ha ch hch
    · exact hxo.2
    · exact operand_clean b hb ch hch
    · exact hyo
    · exact operand_clean c hc ch hch
  · exact prepassSplit_binary3 a b c x y ha hb hc hx hy fuel hfuel
  · exact lexAll_binary3 a b c x y ha hb hc hx hy
  · intro s0 h1 h2
    rw [List.append_assoc, applyPushes_operand a ha, h1, h2, appendRP_nil]
    simp only [List.cons_append, applyPushes]
    rw [pushIgnore_operator_onto [x] s0 a [] hxo.1 (Or.inl rfl)]
    simp only [List.append_eq, List.append_assoc]
    rw [applyPushes_operand b hb]
    simp only [withRP_withRP, withRP_reversePolish, withRP_RPstack, appendRP_ne_nil _ _ hane,
      List.singleton_append, applyPushes]
    rw [pushIgnore_arithmetic_second x y s0 _ hx hy (by simp)]
    simp only [List.append_eq, List.nil_append]
    rw [applyPushes_operand_last c hc]
    split_ifs <;>
      simp [withRP, appendToReversePolishString]

end BinaryPair2
section ExpandStepLemmas

variable {V : Type} (A : Arith V)

/-- The loop of `expandMathExpression` in terms of its body. -/
theorem expandLoop_succ (fuel i : Nat) (s : MathExpression V) :
    expandLoop A (fuel + 1) i s =
      if i < s.m_math.length then
        match expandStep A i s with
        | .inl r => .ok r
        | .inr s1 => expandLoop A fuel (i + 1) s1
      else .ok (true, s) := by
  rw [expandLoop, expandStep]
  simp only []
  split_ifs <;> rfl

/-- A property that every trip of the loop of `expandMathExpression` keeps holds of the object
the loop returns. -/
theorem expandLoop_induct (P : MathExpression V → Prop)
    (hstep : ∀ i s, P s → i < s.m_math.length →
      match expandStep A i s with
      | .inl r => P r.2
      | .inr s1 => P s1)
    (fuel i : Nat) (s s1 : MathExpression V) (b : Bool) (hs : P s)
    (h : expandLoop A fuel i s = .ok (b, s1)) : P s1 := by
  induction fuel generalizing i s with
  | zero =>
    rw [expandLoop] at h
    split_ifs at h
    cases h
    exact hs
  | succ fuel ih =>
    rw [expandLoop_succ] at h
    by_cases hi : i < s.m_math.length
    · rw [if_pos hi] at h
      have h1 := hstep i s hs hi
      rcases hx : expandStep A i s with r | s2
      · rw [hx] at h h1
        cases h
        exact h1
      · rw [hx] at h h1
        exact ih _ _ h1 h
    · rw [if_neg hi] at h
      cases h
      exact hs

theorem isArgument_pushBackRange (k : Nat) (s : MathExpression V) (x : Str) :
    isArgument A (pushBackRange k s) x = isArgument A s x := rfl

/-- A property that does not depend on `m_math` and on the error members, and that adding a
generator keeps, is kept by every trip of the loop of `expandMathExpression`. -/
theorem expandStep_preserves (P : MathExpression V → Prop)
    (hmath : ∀ (s : MathExpression V) (m : List Str), P s → P { s with m_math := m })
    (herr : ∀ (s : MathExpression V) (n : Nat) (str : Str), P s →
      P { s with m_expressionError := n, m_expressionErrorString := str })
    (h1 : ∀ (s : MathExpression V) (k1 k2 : Str), P s → isArgument A s k1 = true →
      isOperatorOneArg k2 = true → P (generateArgOp A k1 k2 s))
    (h2 : ∀ (s : MathExpression V) (k1 k2 k3 : Str), P s → isArgument A s k1 = true →
      isArgument A s k2 = true → isOperatorTwoArg k3 = true →
      P (generateArgArgOp A k1 k2 k3 s))
    (i : Nat) (s : MathExpression V) (hs : P s) :
    match expandStep A i s with
    | .inl r => P r.2
    | .inr s1 => P s1 := by
  unfold expandStep
  simp only []
  split_ifs with c1 c2 c3 c4 c5 c6 c7 c8 c9
  · simp only [Bool.and_eq_true] at c3
    exact h1 _ _ _ (hmath s _ hs) c3.1.1 c3.2
  · simp only [Bool.and_eq_true] at c3
    exact h1 _ _ _ hs c3.1.1 c3.2
  · exact hmath s _ hs
  · simp only [Bool.and_eq_true] at c7
    exact h2 _ _ _ _ (hmath s _ hs) c7.1.1.1 c7.1.1.2 c7.2
  · simp only [Bool.and_eq_true] at c7
    exact h2 _ _ _ _ hs c7.1.1.1 c7.1.1.2 c7.2
  · exact hmath s _ hs
  · exact hs
  · exact herr s _ _ hs
  · exact herr s _ _ hs
  · exact hs

end ExpandStepLemmas
/-! ### The compilation stages read the compiled state only -/

section Frame

variable {V : Type} (A : Arith V)

theorem SameCompiled.sc_refl (s : MathExpression V) : SameCompiled s s :=
  ⟨rfl, rfl, rfl, rfl, rfl⟩

theorem SameResult.result_refl {x : Except Fault (Bool × MathExpression V)} : SameResult x x := by
  cases x with
  | error f => rfl
  | ok r => exact ⟨rfl, SameCompiled.sc_refl r.2⟩

theorem pushToReversePolish_frame (t : Str) (k : Char) (s s2 : MathExpression V)
    (h : SameCompiled s s2) :
    SameResult (pushToReversePolish t k s) (pushToReversePolish t k s2) := by
  obtain ⟨h1, h2, h3, h4, h5⟩ := h
  unfold pushToReversePolish
  rw [← h1, ← h2]
  split_ifs
  · exact ⟨rfl, by simp only [flushIfLast]; split_ifs <;> exact ⟨by simp [h2], rfl, h3, h4, h5⟩⟩
  · cases getOperator t with
    | none => rfl
    | some o =>
      simp only []
      cases pushOperatorLoop o.precedence (s.m_RPstack.length + 1) 0
          (firstParenthesis s.m_RPstack) s.m_RPstack s.m_reversePolish with
      | error f => rfl
      | ok r =>
        obtain ⟨i, stack, rp⟩ := r
        exact ⟨rfl, by simp only [flushIfLast]; split_ifs <;> exact ⟨rfl, rfl, h3, h4, h5⟩⟩
  · exact ⟨rfl, by simp only [flushIfLast]; split_ifs <;> exact ⟨by simp [h1], rfl, h3, h4, h5⟩⟩
  · cases popToParenthesis (s.m_RPstack.length + 1) s.m_RPstack s.m_reversePolish with
    | error f => rfl
    | ok r =>
      obtain ⟨b, stack, rp⟩ := r
      cases b with
      | false => exact ⟨rfl, rfl, rfl, h3, h4, h5⟩
      | true =>
        exact ⟨rfl, by simp only [flushIfLast]; split_ifs <;> exact ⟨rfl, rfl, h3, h4, h5⟩⟩
  · exact ⟨rfl, by simp only [flushIfLast]; split_ifs <;> exact ⟨by simp [h1, h2], by simp [h2], h3, h4, h5⟩⟩

end Frame
section Frame2

variable {V : Type} (A : Arith V)

theorem SameCompiled.sc_symm {s s2 : MathExpression V} (h : SameCompiled s s2) :
    SameCompiled s2 s :=
  ⟨h.1.symm, h.2.1.symm, h.2.2.1.symm, h.2.2.2.1.symm, h.2.2.2.2.symm⟩

theorem SameCompiled.sc_trans {s s2 s3 : MathExpression V} (h : SameCompiled s s2)
    (h2 : SameCompiled s2 s3) : SameCompiled s s3 :=
  ⟨h.1.trans h2.1, h.2.1.trans h2.2.1, h.2.2.1.trans h2.2.2.1, h.2.2.2.1.trans h2.2.2.2.1,
    h.2.2.2.2.trans h2.2.2.2.2⟩

theorem pushIgnore_frame (t : Str) (k : Char) (s s2 : MathExpression V)
    (h : SameCompiled s s2) :
    SameOutcome (pushIgnore t k s) (pushIgnore t k s2) := by
  have h1 := pushToReversePolish_frame t k s s2 h
  unfold pushIgnore
  rcases hx : pushToReversePolish t k s with f | ⟨b, r⟩ <;>
    rcases hy : pushToReversePolish t k s2 with g | ⟨b2, r2⟩ <;>
    rw [hx, hy] at h1
  · exact h1
  · exact h1
  · exact h1
  · exact h1.2

theorem applyPushes_frame (evs : List (Str × Char)) (s s2 : MathExpression V)
    (h : SameCompiled s s2) :
    SameOutcome (applyPushes evs s) (applyPushes evs s2) := by
  induction evs generalizing s s2 with
  | nil => exact h
  | cons ev rest ih =>
    obtain ⟨t, k⟩ := ev
    have h1 := pushIgnore_frame t k s s2 h
    rw [applyPushes, applyPushes]
    rcases hx : pushIgnore t k s with f | r <;>
      rcases hy : pushIgnore t k s2 with g | r2 <;>
      rw [hx, hy] at h1
    · exact h1
    · exact False.elim h1
    · exact False.elim h1
    · exact ih r r2 h1

/-- The conversion to Reverse Polish reads the expression text and the RP text only. -/
theorem expressionToReversePolish_frame (fuel : Nat) (s s2 : MathExpression V)
    (h : SameCompiled s s2) (he : s.m_expression = s2.m_expression) :
    SameResult (expressionToReversePolish fuel s) (expressionToReversePolish fuel s2) := by
  rw [expressionToReversePolish_lex, expressionToReversePolish_lex, ← he]
  cases prepassLoop fuel s.m_expression 0 false with
  | error f => rfl
  | ok e =>
    simp only []
    have hc : SameCompiled ({ s with m_RPstack := [], m_expression := e } : MathExpression V)
        { s2 with m_RPstack := [], m_expression := e } :=
      ⟨h.1, rfl, h.2.2.1, h.2.2.2.1, h.2.2.2.2⟩
    cases lexAll [] e .idle with
    | none => exact ⟨rfl, h.1, rfl, h.2.2.1, h.2.2.2.1, h.2.2.2.2⟩
    | some r =>
      obtain ⟨evs, p⟩ := r
      simp only []
      have h1 := applyPushes_frame (evs ++ p.lastPushes) _ _ hc
      rcases hx : applyPushes (evs ++ p.lastPushes)
          ({ s with m_RPstack := [], m_expression := e } : MathExpression V) with f | r <;>
        rcases hy : applyPushes (evs ++ p.lastPushes)
          ({ s2 with m_RPstack := [], m_expression := e } : MathExpression V) with g | r2 <;>
        rw [hx, hy] at h1
      · exact h1
      · exact h1
      · exact h1
      · exact ⟨rfl, h1⟩

theorem classifyEntity_frame (i : Nat) (t : Str) (s s2 : MathExpression V)
    (h : SameCompiled s s2) :
    (classifyEntity A i t s).1 = (classifyEntity A i t s2).1
      ∧ SameCompiled (classifyEntity A i t s).2 (classifyEntity A i t s2).2 := by
  obtain ⟨h1, h2, h3, h4, h5⟩ := h
  unfold classifyEntity
  simp only [hasArgumentMap, createNewUserConstantName, getEntitySize, ← h3, ← h4]
  split_ifs
  all_goals first
    | exact ⟨rfl, h1, h2, rfl, rfl, h5⟩
    | (cases getConstant A t <;> exact ⟨rfl, h1, h2, rfl, rfl, h5⟩)

theorem setArgumentMapLoop_frame (rp : Str) (rem : Nat) (cur : Str) (s s2 : MathExpression V)
    (h : SameCompiled s s2) :
    (setArgumentMapLoop A rp rem cur s).1 = (setArgumentMapLoop A rp rem cur s2).1
      ∧ SameCompiled (setArgumentMapLoop A rp rem cur s).2
          (setArgumentMapLoop A rp rem cur s2).2 := by
  induction rem generalizing cur s s2 with
  | zero => exact ⟨rfl, h⟩
  | succ rem ih =>
    rw [setArgumentMapLoop, setArgumentMapLoop]
    simp only []
    generalize (if (rp.length - (rem + 1) == rp.length - 1
        && charAt rp (rp.length - (rem + 1)) != ' ') = true
      then cur ++ [charAt rp (rp.length - (rem + 1))] else cur) = e1
    by_cases hc : (charAt rp (rp.length - (rem + 1)) == ' '
        || rp.length - (rem + 1) == rp.length - 1) = true
    · rw [if_pos hc, if_pos hc]
      have h1 := classifyEntity_frame A (rp.length - (rem + 1)) e1 s s2 h
      rcases hx : classifyEntity A (rp.length - (rem + 1)) e1 s with ⟨b, r⟩
      rcases hy : classifyEntity A (rp.length - (rem + 1)) e1 s2 with ⟨b2, r2⟩
      rw [hx, hy] at h1
      obtain ⟨hb, hr⟩ := h1
      simp only [] at hb hr
      subst hb
      cases b with
      | false => exact ⟨rfl, hr⟩
      | true => exact ih [] r r2 hr
    · rw [if_neg hc, if_neg hc]
      exact ih _ s s2 h

/-- The symbol-table stage reads the RP text only. -/
theorem setArgumentMap_frame (s s2 : MathExpression V) (h : SameCompiled s s2) :
    (setArgumentMap A s).1 = (setArgumentMap A s2).1
      ∧ SameCompiled (setArgumentMap A s).2 (setArgumentMap A s2).2 := by
  unfold setArgumentMap
  rw [← h.1]
  exact setArgumentMapLoop_frame A _ _ _ _ _ ⟨rfl, h.2.1, rfl, rfl, rfl⟩

end Frame2
section Frame3

variable {V : Type} (A : Arith V)

theorem isArgument_frame (s s2 : MathExpression V) (h : SameCompiled s s2) (x : Str) :
    isArgument A s2 x = isArgument A s x := by
  simp only [isArgument, hasArgumentMap, h.2.2.2.1]

theorem generateArgOp_frame (k1 k2 : Str) (s s2 : MathExpression V) (h : SameCompiled s s2) :
    SameCompiled (generateArgOp A k1 k2 s) (generateArgOp A k1 k2 s2) := by
  obtain ⟨h1, h2, h3, h4, h5⟩ := h
  simp only [SameCompiled, generateArgOp, argPointer, entityType, getArgument, hasArgumentMap,
    createNewUserConstantName, getEntitySize, ← h1, ← h2, ← h3, ← h4, ← h5, and_self]

theorem generateArgArgOp_frame (k1 k2 k3 : Str) (s s2 : MathExpression V)
    (h : SameCompiled s s2) :
    SameCompiled (generateArgArgOp A k1 k2 k3 s) (generateArgArgOp A k1 k2 k3 s2) := by
  obtain ⟨h1, h2, h3, h4, h5⟩ := h
  simp only [SameCompiled, generateArgArgOp, argPointer, entityType, getArgument, hasArgumentMap,
    createNewUserConstantName, getEntitySize, ← h1, ← h2, ← h3, ← h4, ← h5, and_self]

theorem pushBackRange_frame (k : Nat) (s s2 : MathExpression V) (h : SameCompiled s s2) :
    SameCompiled (pushBackRange k s) (pushBackRange k s2) := by
  obtain ⟨h1, h2, h3, h4, h5⟩ := h
  simp only [SameCompiled, pushBackRange, ← h1, ← h2, ← h3, ← h4, ← h5, and_self]

theorem expandStep_frame (i : Nat) (s s2 : MathExpression V) (h : SameCompiled s s2) :
    match expandStep A i s, expandStep A i s2 with
    | .inl r, .inl r2 => r.1 = r2.1 ∧ SameCompiled r.2 r2.2
    | .inr r, .inr r2 => SameCompiled r r2
    | _, _ => False := by
  have hm : s2.m_math = s.m_math := h.2.2.1.symm
  have ha := isArgument_frame A s s2 h
  unfold expandStep
  simp only [hm, ha]
  by_cases c1 : isOperator (s.m_math.getD i []) = true
  · simp only [if_pos c1]
    by_cases c2 : i > 0
    · simp only [if_pos c2]
      split_ifs with c3 c4 c5 c6 c7 c8 c9
      · exact generateArgOp_frame A _ _ _ _ (pushBackRange_frame _ _ _ h)
      · exact generateArgOp_frame A _ _ _ _ h
      · exact ⟨h.1, h.2.1, rfl, h.2.2.2.1, h.2.2.2.2⟩
      · exact generateArgArgOp_frame A _ _ _ _ _ (pushBackRange_frame _ _ _ h)
      · exact generateArgArgOp_frame A _ _ _ _ _ h
      · exact ⟨h.1, h.2.1, rfl, h.2.2.2.1, h.2.2.2.2⟩
      · exact h
      · exact ⟨rfl, h.1, h.2.1, rfl, h.2.2.2.1, h.2.2.2.2⟩
    · simp only [if_neg c2]
      exact ⟨trivial, h.1, h.2.1, rfl, h.2.2.2.1, h.2.2.2.2⟩
  · simp only [if_neg c1]
    exact h

/-- The loop of `expandMathExpression` reads the compiled state only. -/
theorem expandLoop_frame (fuel i : Nat) (s s2 : MathExpression V) (h : SameCompiled s s2) :
    SameResult (expandLoop A fuel i s) (expandLoop A fuel i s2) := by
  induction fuel generalizing i s s2 with
  | zero =>
    rw [expandLoop, expandLoop, ← h.2.2.1]
    split_ifs
    · rfl
    · exact ⟨rfl, h⟩
  | succ fuel ih =>
    rw [expandLoop_succ, expandLoop_succ, ← h.2.2.1]
    by_cases hi : i < s.m_math.length
    · rw [if_pos hi, if_pos hi]
      have h1 := expandStep_frame A i s s2 h
      rcases hx : expandStep A i s with r | r <;>
        rcases hy : expandStep A i s2 with r2 | r2 <;>
        rw [hx, hy] at h1
      · exact ⟨h1.1, h1.2⟩
      · exact False.elim h1
      · exact False.elim h1
      · exact ih _ _ _ h1
    · rw [if_neg hi, if_neg hi]
      exact ⟨rfl, h⟩

theorem setExpression_frame (e : Str) (s s2 : MathExpression V) (h : SameCompiled s s2) :
    SameCompiled (setExpression e s) (setExpression e s2)
      ∧ (setExpression e s).m_expression = (setExpression e s2).m_expression :=
  ⟨h, rfl⟩

/-- Function `setMath` reads the compiled state only. -/
theorem setMath_frame (fuel : Nat) (e : Str) (s s2 : MathExpression V)
    (h : SameCompiled s s2) :
    SameOutcome (setMath A fuel e s) (setMath A fuel e s2) := by
  obtain ⟨h0, he⟩ := setExpression_frame e s s2 h
  have h1 := expressionToReversePolish_frame fuel _ _ h0 he
  unfold setMath
  rcases hx : expressionToReversePolish fuel (setExpression e s) with f | ⟨b, r⟩ <;>
    rcases hy : expressionToReversePolish fuel (setExpression e s2) with g | ⟨b2, r2⟩ <;>
    rw [hx, hy] at h1
  · exact h1
  · exact False.elim h1
  · exact False.elim h1
  · have h2 := (setArgumentMap_frame A r r2 h1.2).2
    have h3 := expandLoop_frame A fuel 0 _ _ h2
    simp only [expandMathExpression]
    rcases hx2 : expandLoop A fuel 0 (setArgumentMap A r).2 with f | ⟨b3, r3⟩ <;>
      rcases hy2 : expandLoop A fuel 0 (setArgumentMap A r2).2 with g | ⟨b4, r4⟩ <;>
      rw [hx2, hy2] at h3
    · exact h3
    · exact False.elim h3
    · exact False.elim h3
    · exact h3.2

/-- Function `calculateExpression` reads the compiled state only. -/
theorem calculateExpression_frame (s s2 : MathExpression V) (h : SameCompiled s s2) :
    (calculateExpression A s).map Prod.fst = (calculateExpression A s2).map Prod.fst := by
  obtain ⟨h1, h2, h3, h4, h5⟩ := h
  unfold calculateExpression
  rw [← h3, ← h4, ← h5]
  split_ifs
  · cases s.m_argumentMap.lookup (s.m_math.getD (s.m_math.length - 1) []) <;> rfl
  · rfl
  · rcases runGenerators A s.m_generatorVec A.zero s.m_argumentMap with f | ⟨v, m⟩ <;> rfl

theorem getVariableSize_frame (s s2 : MathExpression V) (h : SameCompiled s s2) :
    getVariableSize s = getVariableSize s2 := by
  simp only [getVariableSize, getEntitySize, h.2.2.2.1]

/-- After `clear()` the compiled state is the one of a freshly constructed object. -/
theorem clear_fresh (s : MathExpression V) : SameCompiled (clear s) (MathExpression.new V) :=
  ⟨rfl, rfl, rfl, rfl, rfl⟩

end Frame3
section ClassifyCases

variable {V : Type} (A : Arith V)

theorem mapInsert_guarded (s : MathExpression V) (k : Str) (a : Argument V) :
    (if (hasArgumentMap s k == false) = true then mapInsert s.m_argumentMap k a
      else s.m_argumentMap) = mapInsert s.m_argumentMap k a := by
  by_cases h : k ∈ mapKeys s.m_argumentMap
  · rw [mapInsert_of_mem _ _ _ h]
    have : hasArgumentMap s k = true := (lookup_isSome_iff_mem_keys _ _).2 h
    simp [this]
  · have : hasArgumentMap s k = false := by
      rw [Bool.eq_false_iff]
      exact fun hc => h ((lookup_isSome_iff_mem_keys _ _).1 hc)
    simp [this]

/-- The four ways a step of `setArgumentMap` returns `true`: on the name of an operator, of a
registry constant, of a user variable, and on a number. -/
theorem classifyEntity_cases (i : Nat) (t : Str) (s s1 : MathExpression V)
    (h : classifyEntity A i t s = (true, s1)) :
    (hasOperatorMap t = true ∧ s1 = { s with m_math := s.m_math ++ [t] })
      ∨ ((charAt t 0).isAlpha = true ∧ hasOperatorMap t = false ∧ hasConstantMap A t = true
        ∧ ∃ c : Argument V, (constantMap A).lookup t = some c ∧ s1 = { s with
          m_argumentMap := mapInsert s.m_argumentMap t ⟨t, .ArgumentConstant, 0, c.m_dvalue⟩
          m_math := s.m_math ++ [t] })
      ∨ (isVariableToken A t = true ∧ s1 = { s with
          m_argumentMap := mapInsert s.m_argumentMap t ⟨t, .ArgumentVariable, 0, A.zero⟩
          m_math := s.m_math ++ [t] })
      ∨ (isNumberToken t = true ∧ s1 = { s with
          m_argumentMap := mapInsert s.m_argumentMap (createNewUserConstantName s)
            ⟨createNewUserConstantName s, .ArgumentUserConstant, 0, A.atof t⟩
          m_math := s.m_math ++ [createNewUserConstantName s] }) := by
  unfold classifyEntity at h
  by_cases h1 : (charAt t 0).isAlpha = true
  · rw [if_pos h1] at h
    by_cases hop : hasOperatorMap t = true
    · rw [if_pos hop] at h
      exact Or.inl ⟨hop, (Prod.mk.inj h).2.symm⟩
    · rw [if_neg hop] at h
      have hop2 : hasOperatorMap t = false := by simpa using hop
      by_cases hcst : hasConstantMap A t = true
      · rw [if_pos hcst] at h
        right; left
        have hc2 := hcst
        simp only [hasConstantMap, Option.isSome_iff_exists] at hc2
        obtain ⟨c, hcl⟩ := hc2
        have hgc : getConstant A t = some c := by simp [getConstant, hcst, hcl]
        rw [hgc] at h
        simp only [] at h
        rw [mapInsert_guarded] at h
        exact ⟨h1, hop2, hcst, c, hcl, (Prod.mk.inj h).2.symm⟩
      · rw [if_neg hcst] at h
        have hcst2 : hasConstantMap A t = false := by simpa using hcst
        right; right; left
        rw [mapInsert_guarded] at h
        exact ⟨by simp [isVariableToken, h1, hop2, hcst2], (Prod.mk.inj h).2.symm⟩
  · rw [if_neg h1] at h
    have h1f : (charAt t 0).isAlpha = false := by simpa using h1
    by_cases h2 : isNumber t = true
    · rw [if_pos h2] at h
      right; right; right
      exact ⟨by simp [isNumberToken, h1f, h2], (Prod.mk.inj h).2.symm⟩
    · rw [if_neg h2] at h
      by_cases h3 : hasOperatorMap t = true
      · rw [if_pos h3] at h
        exact Or.inl ⟨h3, (Prod.mk.inj h).2.symm⟩
      · rw [if_neg h3] at h
        cases (Prod.mk.inj h).1

/-- A step of `setArgumentMap` that returns `false` sets the error members only. -/
theorem classifyEntity_false (i : Nat) (t : Str) (s s1 : MathExpression V)
    (h : classifyEntity A i t s = (false, s1)) : SameCompiled s s1 := by
  unfold classifyEntity at h
  split_ifs at h
  all_goals first
    | (rw [← (Prod.mk.inj h).2]; exact ⟨rfl, rfl, rfl, rfl, rfl⟩)
    | (cases hg : getConstant A t <;> rw [hg] at h <;> cases (Prod.mk.inj h).1)
    | cases (Prod.mk.inj h).1

/-- A property of the object that every step of `setArgumentMap` keeps holds of the object
`setArgumentMap` leaves, whatever it returns. -/
theorem setArgumentMapLoop_induct_any (Q : MathExpression V → Prop)
    (hstep : ∀ (i : Nat) (t : Str) (s : MathExpression V), Q s → Q (classifyEntity A i t s).2)
    (rp : Str) (rem : Nat) (cur : Str) (s : MathExpression V) (hs : Q s) :
    Q (setArgumentMapLoop A rp rem cur s).2 := by
  induction rem generalizing cur s with
  | zero => exact hs
  | succ rem ih =>
    rw [setArgumentMapLoop]
    simp only []
    generalize (if (rp.length - (rem + 1) == rp.length - 1
        && charAt rp (rp.length - (rem + 1)) != ' ') = true
      then cur ++ [charAt rp (rp.length - (rem + 1))] else cur) = e1
    by_cases hc : (charAt rp (rp.length - (rem + 1)) == ' '
        || rp.length - (rem + 1) == rp.length - 1) = true
    · rw [if_pos hc]
      have h1 := hstep (rp.length - (rem + 1)) e1 s hs
      rcases hx : classifyEntity A (rp.length - (rem + 1)) e1 s with ⟨b, r⟩
      rw [hx] at h1
      cases b with
      | false => exact h1
      | true => exact ih [] r h1
    · rw [if_neg hc]
      exact ih _ s hs

/-- A property of the entities read so far and of the object that every step of
`setArgumentMap` keeps holds, once `setArgumentMap` has returned `true`, of the
space-separated tokens of the RP text and of the object. -/
theorem setArgumentMapLoop_induct (P : List Str → MathExpression V → Prop)
    (hstep : ∀ (ts : List Str) (i : Nat) (t : Str) (s s1 : MathExpression V), P ts s →
      classifyEntity A i t s = (true, s1) → P (ts ++ [t]) s1)
    (rp : Str) (rem : Nat) :
    ∀ (cur : Str) (s s1 : MathExpression V) (ts : List Str), rem ≤ rp.length →
      (rem = 0 → cur = []) → P ts s → setArgumentMapLoop A rp rem cur s = (true, s1) →
      P (ts ++ tokensFrom cur (rp.drop (rp.length - rem))) s1 := by
  induction rem with
  | zero =>
    intro cur s s1 ts _ hcur hs h
    rw [hcur rfl, Nat.sub_zero, List.drop_length, tokensFrom_nil, if_pos rfl, List.append_nil]
    rw [setArgumentMapLoop] at h
    cases h
    exact hs
  | succ rem ih =>
    intro cur s s1 ts hrem _ hs h
    have hi : rp.length - (rem + 1) < rp.length := by omega
    have hnext : rp.length - (rem + 1) + 1 = rp.length - rem := by omega
    rw [drop_charAt rp _ hi, hnext]
    by_cases hc : charAt rp (rp.length - (rem + 1)) = ' '
    · rw [setArgumentMapLoop_blank A rp rem cur s hc] at h
      rw [hc, tokensFrom_space]
      rcases hres : classifyEntity A (rp.length - (rem + 1)) cur s with ⟨b, r⟩
      rw [hres] at h
      cases b with
      | false => cases (Prod.mk.inj h).1
      | true =>
        have := ih [] r s1 (ts ++ [cur]) (by omega) (fun _ => rfl)
          (hstep ts _ cur s r hs hres) h
        rw [List.append_assoc] at this
        exact this
    · by_cases hlast : rp.length - (rem + 1) = rp.length - 1
      · have hrem0 : rem = 0 := by omega
        subst hrem0
        rw [setArgumentMapLoop_end A rp 0 cur s _ rfl hc hlast] at h
        rw [tokensFrom_char _ _ _ hc, Nat.sub_zero, List.drop_length, tokensFrom_nil,
          if_neg (by simp)]
        rcases hres : classifyEntity A (rp.length - (0 + 1))
          (cur ++ [charAt rp (rp.length - (0 + 1))]) s with ⟨b, r⟩
        rw [hres] at h
        cases b with
        | false => cases (Prod.mk.inj h).1
        | true =>
          have h2 : r = s1 := (Prod.mk.inj h).2
          rw [← h2]
          exact hstep ts _ _ s r hs hres
      · rw [setArgumentMapLoop_char A rp rem cur s _ rfl hc hlast] at h
        rw [tokensFrom_char _ _ _ hc]
        exact ih _ s s1 ts (by omega) (fun h0 => absurd (by omega) hlast) hs h

/-- The induction over the entities of `setArgumentMap`. -/
theorem setArgumentMap_induct (P : List Str → MathExpression V → Prop)
    (hstep : ∀ (ts : List Str) (i : Nat) (t : Str) (s s1 : MathExpression V), P ts s →
      classifyEntity A i t s = (true, s1) → P (ts ++ [t]) s1)
    (s0 s1 : MathExpression V)
    (h0 : P [] { s0 with m_math := [], m_argumentMap := [], m_generatorVec := [] })
    (h : setArgumentMap A s0 = (true, s1)) : P (rpTokens s0.m_reversePolish) s1 := by
  have := setArgumentMapLoop_induct A P hstep s0.m_reversePolish s0.m_reversePolish.length []
    _ s1 [] (Nat.le_refl _) (fun _ => rfl) h0 h
  rw [Nat.sub_self, List.drop_zero, ← rpTokens_eq, List.nil_append] at this
  exact this

end ClassifyCases
section WiredLemmas

variable {V : Type} (A : Arith V)

theorem mem_mapKeys_mapInsert_iff (M : List (Str × Argument V)) (k : Str) (a : Argument V)
    (key : Str) : key ∈ mapKeys (mapInsert M k a) ↔ key ∈ mapKeys M ∨ key = k := by
  by_cases h : k ∈ mapKeys M
  · rw [mapInsert_of_mem M k a h]
    constructor
    · exact Or.inl
    · rintro (h1 | h1)
      · exact h1
      · rw [h1]; exact h
  · rw [mapInsert_of_not_mem M k a h, mapKeys_append, List.mem_append]
    exact or_congr Iff.rfl List.mem_singleton

theorem GenWF.mono_genwf {keys keys2 : List Str} (h : ∀ k ∈ keys, k ∈ keys2) (g : Generator)
    (hg : GenWF A keys g) : GenWF A keys2 g := by
  obtain ⟨h1, h2⟩ := hg
  refine ⟨h1, ?_⟩
  rcases h2 with ⟨ht, o, f, p, ho, hf, hp, hok⟩ | ⟨ht, o, f, p1, p2, ho, hf, hp1, hp2, hok1, hok2⟩
  · exact Or.inl ⟨ht, o, f, p, ho, hf, hp, PtrOK.mono_keys A p hok h⟩
  · exact Or.inr ⟨ht, o, f, p1, p2, ho, hf, hp1, hp2, PtrOK.mono_keys A p1 hok1 h,
      PtrOK.mono_keys A p2 hok2 h⟩

theorem StInv.of_same_compiled {s s2 : MathExpression V} (hs : StInv A s) (h : SameCompiled s s2) :
    StInv A s2 := by
  obtain ⟨_, _, h3, h4, h5⟩ := h
  unfold StInv
  rw [← h3, ← h4, ← h5]
  exact hs

/-- Every step of `setArgumentMap` keeps the layout, makes no generator and makes entries of
the three types of `EntryTypes` only. -/
theorem classifyEntity_entries (i : Nat) (t : Str) (s : MathExpression V)
    (hs : StInv A s ∧ s.m_generatorVec = [] ∧ EntryTypes A s.m_argumentMap) :
    StInv A (classifyEntity A i t s).2 ∧ (classifyEntity A i t s).2.m_generatorVec = []
      ∧ EntryTypes A (classifyEntity A i t s).2.m_argumentMap := by
  obtain ⟨hS, hg, hE⟩ := hs
  rcases hres : classifyEntity A i t s with ⟨b, s1⟩
  cases b with
  | false =>
    have h := classifyEntity_false A i t s s1 hres
    refine ⟨hS.of_same_compiled A h, ?_, ?_⟩
    · show s1.m_generatorVec = []
      rw [← h.2.2.2.2]; exact hg
    · show EntryTypes A s1.m_argumentMap
      rw [← h.2.2.2.1]; exact hE
  | true =>
    obtain ⟨h1, h2⟩ := classifyEntity_inv A i t s s1 hS hg hres
    refine ⟨h1, h2, ?_⟩
    show EntryTypes A s1.m_argumentMap
    have key : ∀ (k : Str) (a : Argument V),
        ((a.m_type = .ArgumentConstant ∧ hasConstantMap A k = true)
          ∨ a.m_type = .ArgumentVariable ∨ a.m_type = .ArgumentUserConstant) →
        EntryTypes A (mapInsert s.m_argumentMap k a) := by
      intro k a ha kv hkv
      by_cases hk : k ∈ mapKeys s.m_argumentMap
      · rw [mapInsert_of_mem _ _ _ hk] at hkv
        exact hE kv hkv
      · rw [mapInsert_of_not_mem _ _ _ hk] at hkv
        rcases List.mem_append.1 hkv with hkv | hkv
        · exact hE kv hkv
        · rw [List.mem_singleton.1 hkv]
          exact ha
    rcases classifyEntity_cases A i t s s1 hres with ⟨_, h⟩ | ⟨_, _, hc, c, _, h⟩ | ⟨_, h⟩
      | ⟨_, h⟩
    · rw [h]; exact hE
    · rw [h]; exact key _ _ (Or.inl ⟨rfl, hc⟩)
    · rw [h]; exact key _ _ (Or.inr (Or.inl rfl))
    · rw [h]; exact key _ _ (Or.inr (Or.inr rfl))

/-- The object `setArgumentMap` leaves, whatever it returns: the layout holds, there is no
generator, and the entries are registry constants, user variables and literal constants. -/
theorem setArgumentMap_entries (s0 : MathExpression V) :
    StInv A (setArgumentMap A s0).2 ∧ (setArgumentMap A s0).2.m_generatorVec = []
      ∧ EntryTypes A (setArgumentMap A s0).2.m_argumentMap := by
  unfold setArgumentMap
  refine setArgumentMapLoop_induct_any A
    (fun s => StInv A s ∧ s.m_generatorVec = [] ∧ EntryTypes A s.m_argumentMap)
    (fun i t s hs => classifyEntity_entries A i t s hs) _ _ _ _ ⟨⟨MapInv.nil A, ?_, ?_⟩, rfl, ?_⟩
  · intro t ht
    exact absurd ht (List.not_mem_nil t)
  · intro _
    exact Built.base _
  · intro kv hkv
    exact absurd hkv (List.not_mem_nil kv)

theorem Wired.wired_base (s : MathExpression V) (hg : s.m_generatorVec = []) :
    Wired A (mapKeys s.m_argumentMap) s := by
  refine ⟨?_, ?_, ?_, ?_⟩
  · intro key
    rw [hg]
    simp [generatorNames]
  · intro k g hk
    rw [hg] at hk
    simp at hk
  · intro k g hk
    rw [hg] at hk
    simp at hk
  · intro g hgm
    rw [hg] at hgm
    exact absurd hgm (List.not_mem_nil g)

/-- Adding a generator with its entry keeps the wiring. -/
theorem Wired.wired_add {keys0 : List Str} (s : MathExpression V) (hM : MapInv A s.m_argumentMap)
    (hW : Wired A keys0 s) (g : Generator) (a : Argument V) (math1 : List Str)
    (hname : g.m_name = createNewUserConstantName s)
    (hwf : GenWF A (mapKeys s.m_argumentMap) g)
    (hptr : ∀ p, (g.m_arg1 = some p ∨ g.m_arg2 = some p) →
      PtrOK A (mapKeys s.m_argumentMap) p
        ∧ ∀ key, p = .argument key → hasConstantMap A key = false) :
    Wired A keys0 { s with
      m_argumentMap := mapInsert s.m_argumentMap (createNewUserConstantName s) a
      m_generatorVec := s.m_generatorVec ++ [g]
      m_math := math1 } := by
  obtain ⟨hk, hw, hp, hn⟩ := hW
  refine ⟨?_, ?_, ?_, ?_⟩
  · intro key
    show key ∈ mapKeys (mapInsert _ _ _) ↔ _ ∨ key ∈ generatorNames (s.m_generatorVec ++ [g])
    rw [mem_mapKeys_mapInsert_iff, hk key, ← hname]
    simp only [generatorNames, List.map_append, List.map_cons, List.map_nil, List.mem_append,
      List.mem_singleton]
    tauto
  · intro k g2 hg2
    have hg3 : (s.m_generatorVec ++ [g])[k]? = some g2 := hg2
    show GenWF A (keys0 ++ generatorNames ((s.m_generatorVec ++ [g]).take k)) g2
    rcases Nat.lt_or_ge k s.m_generatorVec.length with hlt | hge
    · rw [List.getElem?_append_left hlt] at hg3
      rw [List.take_append_of_le_length (Nat.le_of_lt hlt)]
      exact hw k g2 hg3
    · rw [List.getElem?_append_right hge] at hg3
      have hk0 : k - s.m_generatorVec.length = 0 := by
        by_contra hne
        obtain ⟨m, hm⟩ := Nat.exists_eq_succ_of_ne_zero hne
        rw [hm] at hg3
        simp at hg3
      rw [hk0] at hg3
      have hgg : g = g2 := by simpa using hg3
      have hkl : k = s.m_generatorVec.length := by omega
      subst hgg
      rw [hkl, List.take_left']
      · refine GenWF.mono_genwf A ?_ g hwf
        intro key hkey
        exact List.mem_append.2 ((hk key).1 hkey)
      · rfl
  · intro k g2 hg2 p hpp
    have hg3 : (s.m_generatorVec ++ [g])[k]? = some g2 := hg2
    show PtrOK A (keys0 ++ generatorNames ((s.m_generatorVec ++ [g]).take k)) p ∧ _
    rcases Nat.lt_or_ge k s.m_generatorVec.length with hlt | hge
    · rw [List.getElem?_append_left hlt] at hg3
      rw [List.take_append_of_le_length (Nat.le_of_lt hlt)]
      exact hp k g2 hg3 p hpp
    · rw [List.getElem?_append_right hge] at hg3
      have hk0 : k - s.m_generatorVec.length = 0 := by
        by_contra hne
        obtain ⟨m, hm⟩ := Nat.exists_eq_succ_of_ne_zero hne
        rw [hm] at hg3
        simp at hg3
      rw [hk0] at hg3
      have hgg : g = g2 := by simpa using hg3
      have hkl : k = s.m_generatorVec.length := by omega
      subst hgg
      rw [hkl, List.take_left']
      · obtain ⟨h1, h2⟩ := hptr p hpp
        refine ⟨PtrOK.mono_keys A p h1 ?_, h2⟩
        intro key hkey
        exact List.mem_append.2 ((hk key).1 hkey)
      · rfl
  · intro g2 hg2
    rcases List.mem_append.1 hg2 with h1 | h1
    · exact hn g2 h1
    · rw [List.mem_singleton.1 h1, hname, createNewUserConstantName_eq A s hM]
      exact ⟨_, rfl⟩

theorem argPointer_not_constant (s : MathExpression V) (hM : MapInv A s.m_argumentMap)
    (k1 key : Str) (h : isArgument A s k1 = true)
    (hp : argPointer A s k1 = some (.argument key)) : hasConstantMap A key = false := by
  obtain ⟨p, hp1, _, hp3⟩ := argPointer_ok A s hM k1 h
  rw [hp1] at hp
  have hp4 : p = .argument key := by simpa using hp
  rw [hp4] at hp3
  by_cases hc : hasConstantMap A k1 = true
  · rw [if_pos hc] at hp3
    cases hp3
  · rw [if_neg hc] at hp3
    have : key = k1 := by simpa using hp3
    rw [this]
    simpa using hc

theorem generateArgOp_wired {keys0 : List Str} (s : MathExpression V) (k1 k2 : Str)
    (hs : MapInv A s.m_argumentMap ∧ Wired A keys0 s)
    (h1 : isArgument A s k1 = true) (h2 : isOperatorOneArg k2 = true) :
    MapInv A (generateArgOp A k1 k2 s).m_argumentMap
      ∧ Wired A keys0 (generateArgOp A k1 k2 s) := by
  obtain ⟨hM, hW⟩ := hs
  obtain ⟨p, hp, hpok, _⟩ := argPointer_ok A s hM k1 h1
  obtain ⟨o, f, ho, hf⟩ := isOperatorOneArg_spec k2 h2
  constructor
  · show MapInv A (mapInsert _ _ _)
    rw [createNewUserConstantName_eq A s hM]
    exact hM.insert_counted A _ rfl
  · refine Wired.wired_add A s hM hW _ _ _ rfl ⟨rfl, Or.inl ⟨rfl, o, f, p, ho, hf, hp, hpok⟩⟩ ?_
    intro q hq
    rcases hq with hq | hq
    · have hq2 : q = p := by
        have : some p = some q := hp.symm.trans hq
        exact (Option.some.inj this).symm
      subst hq2
      exact ⟨hpok, fun key hkey => argPointer_not_constant A s hM k1 key h1 (hkey ▸ hp)⟩
    · cases hq

theorem generateArgArgOp_wired {keys0 : List Str} (s : MathExpression V) (k1 k2 k3 : Str)
    (hs : MapInv A s.m_argumentMap ∧ Wired A keys0 s)
    (h1 : isArgument A s k1 = true) (h2 : isArgument A s k2 = true)
    (h3 : isOperatorTwoArg k3 = true) :
    MapInv A (generateArgArgOp A k1 k2 k3 s).m_argumentMap
      ∧ Wired A keys0 (generateArgArgOp A k1 k2 k3 s) := by
  obtain ⟨hM, hW⟩ := hs
  obtain ⟨p1, hp1, hpok1, _⟩ := argPointer_ok A s hM k1 h1
  obtain ⟨p2, hp2, hpok2, _⟩ := argPointer_ok A s hM k2 h2
  obtain ⟨o, f, ho, hf⟩ := isOperatorTwoArg_spec k3 h3
  constructor
  · show MapInv A (mapInsert _ _ _)
    rw [createNewUserConstantName_eq A s hM]
    exact hM.insert_counted A _ rfl
  · refine Wired.wired_add A s hM hW _ _ _ rfl
      ⟨rfl, Or.inr ⟨rfl, o, f, p1, p2, ho, hf, hp1, hp2, hpok1, hpok2⟩⟩ ?_
    intro q hq
    rcases hq with hq | hq
    · have hq2 : q = p1 := by
        have : some p1 = some q := hp1.symm.trans hq
        exact (Option.some.inj this).symm
      subst hq2
      exact ⟨hpok1, fun key hkey => argPointer_not_constant A s hM k1 key h1 (hkey ▸ hp1)⟩
    · have hq2 : q = p2 := by
        have : some p2 = some q := hp2.symm.trans hq
        exact (Option.some.inj this).symm
      subst hq2
      exact ⟨hpok2, fun key hkey => argPointer_not_constant A s hM k2 key h2 (hkey ▸ hp2)⟩

/-- The loop of `expandMathExpression` keeps the wiring, whatever it returns. -/
theorem expandLoop_wired {keys0 : List Str} (fuel i : Nat) (s s1 : MathExpression V) (b : Bool)
    (hs : MapInv A s.m_argumentMap ∧ Wired A keys0 s)
    (h : expandLoop A fuel i s = .ok (b, s1)) :
    MapInv A s1.m_argumentMap ∧ Wired A keys0 s1 :=
  expandLoop_induct A (fun s => MapInv A s.m_argumentMap ∧ Wired A keys0 s)
    (fun i s hs _ => expandStep_preserves A _ (fun _ _ h => h) (fun _ _ _ h => h)
      (fun s k1 k2 hs h1 h2 => generateArgOp_wired A s k1 k2 hs h1 h2)
      (fun s k1 k2 k3 hs h1 h2 h3 => generateArgArgOp_wired A s k1 k2 k3 hs h1 h2 h3) i s hs)
    fuel i s s1 b hs h

/-- The wiring of every program `expandMathExpression` builds on what `setArgumentMap` left. -/
theorem compiled_wired (fuel : Nat) (s0 s2 : MathExpression V) (b : Bool)
    (hexp : expandMathExpression A fuel (setArgumentMap A s0).2 = .ok (b, s2)) :
    MapInv A s2.m_argumentMap
      ∧ Wired A (mapKeys (setArgumentMap A s0).2.m_argumentMap) s2 := by
  obtain ⟨hS, hg, _⟩ := setArgumentMap_entries A s0
  exact expandLoop_wired A fuel 0 _ s2 b ⟨hS.1, Wired.wired_base A _ hg⟩ hexp

end WiredLemmas
section Safety

variable {V : Type} (A : Arith V)

/-- A generator whose pointers point to entries returns a value and writes it under its name. -/
theorem generateDoubleValue_safe (g : Generator) (m : List (Str × Argument V))
    (hwf : GenWF A (mapKeys m) g) (hname : g.m_name ∈ mapKeys m) :
    ∃ v, generateDoubleValue A g m = .ok (v, mapSetDouble m g.m_name v) := by
  have hnm : (m.lookup g.m_name).isSome = true := (lookup_isSome_iff_mem_keys m _).2 hname
  obtain ⟨hmy, h1 | h2⟩ := hwf
  · obtain ⟨hty, o, f, p, ho, hf, hp, hpok⟩ := h1
    obtain ⟨x, hx⟩ := derefDouble_ok_of_PtrOK A _ m p hpok (fun _ h => h)
    exact ⟨A.callDD f x, by simp [generateDoubleValue, hty, ho, hf, hp, hx, hmy, hnm]⟩
  · obtain ⟨hty, o, f, p1, p2, ho, hf, hp1, hp2, hpok1, hpok2⟩ := h2
    obtain ⟨x, hx⟩ := derefDouble_ok_of_PtrOK A _ m p1 hpok1 (fun _ h => h)
    obtain ⟨y, hy⟩ := derefDouble_ok_of_PtrOK A _ m p2 hpok2 (fun _ h => h)
    exact ⟨A.callDDD f x y,
      by simp [generateDoubleValue, hty, ho, hf, hp1, hp2, hx, hy, hmy, hnm]⟩

/-- A list of generators whose pointers point to entries runs through. -/
theorem runGenerators_safe (G : List Generator) (m : List (Str × Argument V))
    (h : ∀ g ∈ G, GenWF A (mapKeys m) g ∧ g.m_name ∈ mapKeys m) (d : V) :
    ∃ v m1, runGenerators A G d m = .ok (v, m1) ∧ mapKeys m1 = mapKeys m := by
  induction G generalizing m d with
  | nil => exact ⟨d, m, rfl, rfl⟩
  | cons g rest ih =>
    obtain ⟨hwf, hname⟩ := h g (List.mem_cons_self _ _)
    obtain ⟨v, hv⟩ := generateDoubleValue_safe A g m hwf hname
    have hk : mapKeys (mapSetDouble m g.m_name v) = mapKeys m := mapKeys_mapSetDouble _ _ _
    obtain ⟨v2, m2, h2, hk2⟩ := ih (mapSetDouble m g.m_name v)
      (fun g2 hg2 => by rw [hk]; exact h g2 (List.mem_cons_of_mem _ hg2)) v
    refine ⟨v2, m2, ?_, hk2.trans hk⟩
    rw [runGenerators, hv]
    exact h2

theorem Wired.generators_safe {keys0 : List Str} {s : MathExpression V} (hW : Wired A keys0 s) :
    ∀ g ∈ s.m_generatorVec,
      GenWF A (mapKeys s.m_argumentMap) g ∧ g.m_name ∈ mapKeys s.m_argumentMap := by
  obtain ⟨hk, hw, _, _⟩ := hW
  intro g hg
  obtain ⟨k, hk1, hk2⟩ := List.getElem_of_mem hg
  have hget : s.m_generatorVec[k]? = some g := by
    rw [List.getElem?_eq_getElem hk1, hk2]
  refine ⟨GenWF.mono_genwf A ?_ g (hw k g hget), ?_⟩
  · intro key hkey
    rcases List.mem_append.1 hkey with h1 | h1
    · exact (hk key).2 (Or.inl h1)
    · refine (hk key).2 (Or.inr ?_)
      obtain ⟨g2, hg2, hg3⟩ := List.mem_map.1 h1
      exact List.mem_map.2 ⟨g2, List.mem_of_mem_take hg2, hg3⟩
  · exact (hk _).2 (Or.inr (List.mem_map.2 ⟨g, hg, rfl⟩))

/-- A program without generator that `setArgumentMap` and `expandMathExpression` built, both
returning `true`, is empty or ends in a key of the argument map. -/
theorem compiled_last_key (fuel : Nat) (s0 s1 s2 : MathExpression V)
    (hmap : setArgumentMap A s0 = (true, s1))
    (hexp : expandMathExpression A fuel s1 = .ok (true, s2)) (hG : s2.m_generatorVec = []) :
    s2.m_math = [] ∨ s2.m_math.getD (s2.m_math.length - 1) [] ∈ mapKeys s2.m_argumentMap := by
  obtain ⟨hs1, _⟩ := setArgumentMap_inv A s0 s1 hmap
  have hs2 := expandLoop_inv A fuel 0 s1 s2 true hs1 hexp
  obtain ⟨hm, hno⟩ := expandLoop_no_generator A fuel 0 s1 s2 hs1 hexp hG
    (fun j hj => absurd hj (by omega))
  by_cases hnil : s2.m_math = []
  · exact Or.inl hnil
  · right
    have hlen : s2.m_math.length - 1 < s2.m_math.length := by
      have := List.length_pos.2 hnil
      omega
    rcases hs2.2.1 _ (getD_mem_or s2.m_math _ [] hlen) with h1 | h1
    · have := hno (s2.m_math.length - 1) (by rw [← hm]; exact hlen)
      rw [← hm, isOperator, h1] at this
      cases this
    · exact h1

/-- A program that `setArgumentMap` and `expandMathExpression` built, both returning `true`,
is evaluated without a fault, whatever its size. -/
theorem compiled_calc_safe (fuel : Nat) (s0 s1 s2 : MathExpression V)
    (hmap : setArgumentMap A s0 = (true, s1))
    (hexp : expandMathExpression A fuel s1 = .ok (true, s2)) :
    ∃ v s3, calculateExpression A s2 = .ok (v, s3) := by
  have hs1 : s1 = (setArgumentMap A s0).2 := by rw [hmap]
  have hexp2 := hexp
  rw [hs1] at hexp2
  obtain ⟨_, hW⟩ := compiled_wired A fuel s0 s2 true hexp2
  unfold calculateExpression
  by_cases hG : s2.m_generatorVec = []
  · have hlen : (s2.m_generatorVec.length == 0) = true := by rw [hG]; rfl
    rw [if_pos hlen]
    rcases compiled_last_key A fuel s0 s1 s2 hmap hexp hG with h | h
    · have : ¬ s2.m_math.length > 0 := by rw [h]; simp
      rw [if_neg this]
      exact ⟨_, _, rfl⟩
    · by_cases hpos : s2.m_math.length > 0
      · rw [if_pos hpos]
        have := (lookup_isSome_iff_mem_keys _ _).2 h
        rw [Option.isSome_iff_exists] at this
        obtain ⟨a, ha⟩ := this
        rw [ha]
        exact ⟨_, _, rfl⟩
      · rw [if_neg hpos]
        exact ⟨_, _, rfl⟩
  · have hlen : ¬ (s2.m_generatorVec.length == 0) = true := by
      simpa using hG
    rw [if_neg hlen]
    obtain ⟨v, m1, hrun, _⟩ := runGenerators_safe A s2.m_generatorVec s2.m_argumentMap
      (hW.generators_safe A) A.zero
    rw [hrun]
    exact ⟨_, _, rfl⟩

end Safety

section Sources

variable {V : Type} (A : Arith V)

theorem mem_generatorNames_take (G : List Generator) (k : Nat) (key : Str)
    (h : key ∈ generatorNames (G.take k)) :
    ∃ j g2, j < k ∧ G[j]? = some g2 ∧ g2.m_name = key := by
  obtain ⟨g2, hg2, hg3⟩ := List.mem_map.1 h
  obtain ⟨j, hj1, hj2⟩ := List.getElem_of_mem hg2
  rw [List.length_take] at hj1
  refine ⟨j, g2, by omega, ?_, hg3⟩
  rw [List.getElem_take] at hj2
  rw [List.getElem?_eq_getElem (by omega), hj2]

/-- The sources of a generator of a wired program: a registry constant, a key the argument map
had before the generators, or the name of a generator made before. -/
theorem Wired.sources {keys0 : List Str} {s : MathExpression V} (hW : Wired A keys0 s)
    (k : Nat) (g : Generator) (hg : s.m_generatorVec[k]? = some g) (p : ArgPtr)
    (hp : g.m_arg1 = some p ∨ g.m_arg2 = some p) :
    match p with
    | .constant key => hasConstantMap A key = true
    | .argument key =>
      hasConstantMap A key = false
        ∧ (key ∈ keys0
          ∨ ∃ j g2, j < k ∧ s.m_generatorVec[j]? = some g2 ∧ g2.m_name = key
              ∧ g2.m_myArg = some key) := by
  obtain ⟨_, hw, hptr, _⟩ := hW
  obtain ⟨h1, h2⟩ := hptr k g hg p hp
  cases p with
  | constant key => exact h1
  | argument key =>
    refine ⟨h2 key rfl, ?_⟩
    rcases List.mem_append.1 h1 with h3 | h3
    · exact Or.inl h3
    · right
      obtain ⟨j, g2, hj, hg2, hn⟩ := mem_generatorNames_take _ _ _ h3
      exact ⟨j, g2, hj, hg2, hn, by rw [← hn]; exact (hw j g2 hg2).1⟩

/-- An entry `setArgumentMap` made under a name that is not the name of a registry constant is
a user variable or a literal constant. -/
theorem EntryTypes.not_constant {M : List (Str × Argument V)} (hE : EntryTypes A M) (key : Str)
    (hkey : key ∈ mapKeys M) (hc : hasConstantMap A key = false) :
    ∃ a, M.lookup key = some a
      ∧ (a.m_type = .ArgumentVariable ∨ a.m_type = .ArgumentUserConstant) := by
  have := (lookup_isSome_iff_mem_keys M key).2 hkey
  rw [Option.isSome_iff_exists] at this
  obtain ⟨a, ha⟩ := this
  refine ⟨a, ha, ?_⟩
  rcases hE (key, a) (mem_of_lookup_eq_some M key a ha) with ⟨_, h⟩ | h
  · rw [hc] at h
    cases h
  · exact h

end Sources
section NameLawLemmas

variable {V : Type} (A : Arith V)

theorem countP_mapInsert_uncounted (M : List (Str × Argument V)) (k : Str) (a : Argument V)
    (ha : counted (k, a) = false) : (mapInsert M k a).countP counted = M.countP counted := by
  by_cases h : k ∈ mapKeys M
  · rw [mapInsert_of_mem M k a h]
  · rw [mapInsert_of_not_mem M k a h, List.countP_append, List.countP_singleton, ha]
    rfl

/-- Adding an entry under the next synthesized name keeps the order of the names: below the
capacity the name is the next one, at the capacity the count stays. -/
theorem nameLaw_push (M : List (Str × Argument V)) (hM : MapInv A M) (names : List Str)
    (a : Argument V) (ha : counted (nameOf (M.countP counted), a) = true)
    (h1 : M.countP counted = min names.length nameCapacity)
    (h2 : names.take nameCapacity = (List.range (M.countP counted)).map nameOf) :
    (mapInsert M (nameOf (M.countP counted)) a).countP counted
        = min (names ++ [nameOf (M.countP counted)]).length nameCapacity
      ∧ (names ++ [nameOf (M.countP counted)]).take nameCapacity
        = (List.range ((mapInsert M (nameOf (M.countP counted)) a).countP counted)).map
            nameOf := by
  rcases Nat.lt_or_ge (M.countP counted) nameCapacity with hc | hc
  · have hfresh := hM.fresh_name A hc
    have hlen : names.length = M.countP counted := by
      rcases Nat.le_total names.length nameCapacity with h | h
      · rw [Nat.min_eq_left h] at h1
        exact h1.symm
      · rw [Nat.min_eq_right h] at h1
        omega
    have hcnt : (mapInsert M (nameOf (M.countP counted)) a).countP counted
        = M.countP counted + 1 := by
      rw [mapInsert_of_not_mem _ _ _ hfresh, List.countP_append, List.countP_singleton, ha]
      rfl
    rw [hcnt]
    constructor
    · rw [List.length_append, List.length_singleton, hlen]
      exact (Nat.min_eq_left hc).symm
    · rw [List.take_of_length_le (by
        rw [List.length_append, List.length_singleton, hlen]; exact hc)]
      rw [List.take_of_length_le (by rw [hlen]; exact Nat.le_of_lt hc)] at h2
      rw [h2, List.range_succ, List.map_append]
      rfl
  · have hle := hM.2.1
    have hceq : M.countP counted = nameCapacity := Nat.le_antisymm hle hc
    have hmem : nameOf (M.countP counted) ∈ mapKeys M := by
      rw [hceq, nameOf_capacity]
      exact hM.nameOf_mem A 0 (by rw [hceq]; decide)
    have hlen : nameCapacity ≤ names.length := by
      rcases Nat.le_total names.length nameCapacity with h | h
      · rw [Nat.min_eq_left h] at h1
        omega
      · exact h
    rw [mapInsert_of_mem _ _ _ hmem]
    constructor
    · rw [List.length_append, List.length_singleton, hceq]
      exact (Nat.min_eq_right (by omega)).symm
    · rw [List.take_append_of_le_length hlen]
      exact h2

theorem generatorNames_append (G : List Generator) (g : Generator) :
    generatorNames (G ++ [g]) = generatorNames G ++ [g.m_name] := by
  simp [generatorNames]

theorem generateArgOp_names (L : List Str) (s : MathExpression V) (k1 k2 : Str)
    (hs : MapInv A s.m_argumentMap ∧ NameLaw L s) :
    MapInv A (generateArgOp A k1 k2 s).m_argumentMap ∧ NameLaw L (generateArgOp A k1 k2 s) := by
  obtain ⟨hM, h1, h2⟩ := hs
  have hn := createNewUserConstantName_eq A s hM
  constructor
  · show MapInv A (mapInsert _ _ _)
    rw [hn]
    exact hM.insert_counted A _ rfl
  · have := nameLaw_push A s.m_argumentMap hM _
      ⟨nameOf (s.m_argumentMap.countP counted), .ArgumentGeneratedFromOneArg, 0, A.zero⟩ rfl
      h1 h2
    unfold NameLaw generateArgOp
    simp only [generatorNames_append, hn, ← List.append_assoc]
    exact this

theorem generateArgArgOp_names (L : List Str) (s : MathExpression V) (k1 k2 k3 : Str)
    (hs : MapInv A s.m_argumentMap ∧ NameLaw L s) :
    MapInv A (generateArgArgOp A k1 k2 k3 s).m_argumentMap
      ∧ NameLaw L (generateArgArgOp A k1 k2 k3 s) := by
  obtain ⟨hM, h1, h2⟩ := hs
  have hn := createNewUserConstantName_eq A s hM
  constructor
  · show MapInv A (mapInsert _ _ _)
    rw [hn]
    exact hM.insert_counted A _ rfl
  · have := nameLaw_push A s.m_argumentMap hM _
      ⟨nameOf (s.m_argumentMap.countP counted), .ArgumentGeneratedFromTwoArg, 0, A.zero⟩ rfl
      h1 h2
    unfold NameLaw generateArgArgOp
    simp only [generatorNames_append, hn, ← List.append_assoc]
    exact this

/-- The loop of `expandMathExpression` keeps the order of the synthesized names. -/
theorem expandLoop_names (L : List Str) (fuel i : Nat) (s s1 : MathExpression V) (b : Bool)
    (hs : MapInv A s.m_argumentMap ∧ NameLaw L s)
    (h : expandLoop A fuel i s = .ok (b, s1)) :
    MapInv A s1.m_argumentMap ∧ NameLaw L s1 :=
  expandLoop_induct A (fun s => MapInv A s.m_argumentMap ∧ NameLaw L s)
    (fun i s hs _ => expandStep_preserves A _ (fun _ _ h => h) (fun _ _ _ h => h)
      (fun s k1 k2 hs _ _ => generateArgOp_names A L s k1 k2 hs)
      (fun s k1 k2 k3 hs _ _ _ => generateArgArgOp_names A L s k1 k2 k3 hs) i s hs)
    fuel i s s1 b hs h

theorem isSynthesizedName_nameOf (j : Nat) : isSynthesizedName (nameOf j) = true := rfl

theorem isSynthesizedName_of_alpha (t : Str) (h : (charAt t 0).isAlpha = true) :
    isSynthesizedName t = false := by
  unfold isSynthesizedName
  rw [beq_eq_false_iff_ne]
  intro hc
  rw [hc] at h
  exact absurd h (by decide)

theorem isSynthesizedName_of_operator (t : Str) (h : hasOperatorMap t = true) :
    isSynthesizedName t = false := by
  rcases (hasOperatorMap_iff t).1 h with h | h | h | h | h | h | h | h | h | h | h <;>
    (subst h; decide)

theorem isNumberToken_of_operator (t : Str) (h : hasOperatorMap t = true) :
    isNumberToken t = false := by
  rcases (hasOperatorMap_iff t).1 h with h | h | h | h | h | h | h | h | h | h | h <;>
    (subst h; decide)

/-- Every step of `setArgumentMap` keeps the order of the synthesized names, which are as many
as the numbers among the entities read. -/
theorem classifyEntity_names (ts : List Str) (i : Nat) (t : Str) (s s1 : MathExpression V)
    (hs : StInv A s ∧ s.m_generatorVec = []
      ∧ NameLaw (s.m_math.filter isSynthesizedName) s
      ∧ (s.m_math.filter isSynthesizedName).length = ts.countP isNumberToken)
    (h : classifyEntity A i t s = (true, s1)) :
    StInv A s1 ∧ s1.m_generatorVec = []
      ∧ NameLaw (s1.m_math.filter isSynthesizedName) s1
      ∧ (s1.m_math.filter isSynthesizedName).length = (ts ++ [t]).countP isNumberToken := by
  obtain ⟨hS, hg, ⟨h1, h2⟩, h3⟩ := hs
  obtain ⟨hS1, hg1⟩ := classifyEntity_inv A i t s s1 hS hg h
  refine ⟨hS1, hg1, ?_⟩
  have hn := createNewUserConstantName_eq A s hS.1
  rw [hg] at h1 h2
  simp only [generatorNames, List.map_nil, List.append_nil] at h1 h2
  have plain : ∀ (M1 : List (Str × Argument V)), M1.countP counted
        = s.m_argumentMap.countP counted →
      isSynthesizedName t = false → isNumberToken t = false →
      s1 = { s with m_argumentMap := M1, m_math := s.m_math ++ [t] } →
      NameLaw (s1.m_math.filter isSynthesizedName) s1
        ∧ (s1.m_math.filter isSynthesizedName).length = (ts ++ [t]).countP isNumberToken := by
    intro M1 hc hsy hnum hs1
    subst hs1
    have hf : (s.m_math ++ [t]).filter isSynthesizedName
        = s.m_math.filter isSynthesizedName := by
      rw [List.filter_append, List.filter_cons_of_neg (by rw [hsy]; exact Bool.false_ne_true),
        List.filter_nil, List.append_nil]
    refine ⟨?_, ?_⟩
    · unfold NameLaw
      simp only [hg, generatorNames, List.map_nil, List.append_nil, hf, hc]
      exact ⟨h1, h2⟩
    · simp only [hf]
      rw [List.countP_append, List.countP_singleton, hnum]
      exact h3
  rcases classifyEntity_cases A i t s s1 h with ⟨hop, hs1⟩ | ⟨ha, _, _, c, _, hs1⟩ | ⟨hv, hs1⟩
    | ⟨hnum, hs1⟩
  · exact plain s.m_argumentMap rfl (isSynthesizedName_of_operator t hop)
      (isNumberToken_of_operator t hop) hs1
  · exact plain (mapInsert s.m_argumentMap t ⟨t, .ArgumentConstant, 0, c.m_dvalue⟩)
      (countP_mapInsert_uncounted _ _ _ rfl) (isSynthesizedName_of_alpha t ha)
      (by simp [isNumberToken, ha]) hs1
  · have ha : (charAt t 0).isAlpha = true := by
      simp only [isVariableToken, Bool.and_eq_true] at hv
      exact hv.1.1
    exact plain (mapInsert s.m_argumentMap t ⟨t, .ArgumentVariable, 0, A.zero⟩)
      (countP_mapInsert_uncounted _ _ _ rfl) (isSynthesizedName_of_alpha t ha)
      (by simp [isNumberToken, ha]) hs1
  · subst hs1
    have hf : (s.m_math ++ [nameOf (s.m_argumentMap.countP counted)]).filter isSynthesizedName
        = s.m_math.filter isSynthesizedName ++ [nameOf (s.m_argumentMap.countP counted)] := by
      rw [List.filter_append, List.filter_cons_of_pos (isSynthesizedName_nameOf _),
        List.filter_nil]
    have := nameLaw_push A s.m_argumentMap hS.1 _
      ⟨nameOf (s.m_argumentMap.countP counted), .ArgumentUserConstant, 0, A.atof t⟩ rfl h1 h2
    refine ⟨?_, ?_⟩
    · unfold NameLaw
      simp only [hg, generatorNames, List.map_nil, List.append_nil, hf, hn]
      exact this
    · simp only [hn, hf]
      rw [List.length_append, List.length_singleton, List.countP_append,
        List.countP_singleton, hnum, h3]
      rfl

/-- The order of the synthesized names after `setArgumentMap` has returned `true`. -/
theorem setArgumentMap_names (s0 s1 : MathExpression V)
    (h : setArgumentMap A s0 = (true, s1)) :
    StInv A s1 ∧ s1.m_generatorVec = []
      ∧ NameLaw (s1.m_math.filter isSynthesizedName) s1
      ∧ (s1.m_math.filter isSynthesizedName).length
          = (rpTokens s0.m_reversePolish).countP isNumberToken := by
  refine setArgumentMap_induct A
    (fun ts s => StInv A s ∧ s.m_generatorVec = []
      ∧ NameLaw (s.m_math.filter isSynthesizedName) s
      ∧ (s.m_math.filter isSynthesizedName).length = ts.countP isNumberToken)
    (fun ts i t s s1 hs h => classifyEntity_names A ts i t s s1 hs h) s0 s1
    ⟨⟨MapInv.nil A, ?_, ?_⟩, rfl, ⟨rfl, rfl⟩, rfl⟩ h
  · intro t ht
    exact absurd ht (List.not_mem_nil t)
  · intro _
    exact Built.base _

/-- The order of the synthesized names of a compilation: up to the capacity, the names of the
literal constants and then those of the generators are the names of the counts in order. -/
theorem compiled_names (fuel : Nat) (s0 s1 s2 : MathExpression V) (b : Bool)
    (hmap : setArgumentMap A s0 = (true, s1))
    (hexp : expandMathExpression A fuel s1 = .ok (b, s2)) :
    MapInv A s2.m_argumentMap
      ∧ s2.m_argumentMap.countP counted = min (synthesizedNames s1 s2).length nameCapacity
      ∧ (synthesizedNames s1 s2).take nameCapacity
          = (List.range (s2.m_argumentMap.countP counted)).map nameOf := by
  obtain ⟨hS, hg, hL, _⟩ := setArgumentMap_names A s0 s1 hmap
  have hL1 : NameLaw (s1.m_math.filter isSynthesizedName) s1 := hL
  obtain ⟨hM, h1, h2⟩ := expandLoop_names A _ fuel 0 s1 s2 b ⟨hS.1, hL1⟩ hexp
  exact ⟨hM, h1, h2⟩

theorem nameOf_letters (n : Nat) (h : n < 676) :
    nameOf n = ['#', Char.ofNat (65 + n / 26), Char.ofNat (65 + n % 26)] := by
  have h1 : 65 + n / 26 < 256 := by omega
  have h2 : 65 + n % 26 < 256 := by omega
  simp only [nameOf, toChar, Nat.mod_eq_of_lt h1, Nat.mod_eq_of_lt h2]

end NameLawLemmas
section VariableCount

variable {V : Type} (A : Arith V)

theorem lookup_of_mem_nodup {β : Type} (l : List (Str × β)) (k : Str) (b : β)
    (hmem : (k, b) ∈ l) (hnd : (l.map Prod.fst).Nodup) : l.lookup k = some b := by
  induction l with
  | nil => exact absurd hmem (List.not_mem_nil _)
  | cons x l ih =>
    obtain ⟨a, c⟩ := x
    rw [List.map_cons, List.nodup_cons] at hnd
    rcases List.mem_cons.1 hmem with h | h
    · have h1 : k = a := (Prod.mk.inj h).1
      have h2 : b = c := (Prod.mk.inj h).2
      subst h1 h2
      simp [List.lookup]
    · have hk : k ∈ l.map Prod.fst := List.mem_map.2 ⟨(k, b), h, rfl⟩
      have hne : k ≠ a := fun hka => hnd.1 (hka ▸ hk)
      have hne2 : (k == a) = false := beq_eq_false_iff_ne.2 hne
      simp only [List.lookup, hne2]
      exact ih h hnd.2

theorem nodup_mapKeys_mapInsert (M : List (Str × Argument V)) (k : Str) (a : Argument V)
    (h : (mapKeys M).Nodup) : (mapKeys (mapInsert M k a)).Nodup := by
  by_cases hk : k ∈ mapKeys M
  · rw [mapInsert_of_mem M k a hk]
    exact h
  · rw [mapInsert_of_not_mem M k a hk, mapKeys_append]
    refine List.Nodup.append h (List.nodup_singleton _) ?_
    intro x hx hx2
    rw [show mapKeys [(k, a)] = [k] from rfl, List.mem_singleton] at hx2
    exact hk (hx2 ▸ hx)

theorem mem_mapInsert (M : List (Str × Argument V)) (k : Str) (a : Argument V)
    (kv : Str × Argument V) (h : kv ∈ mapInsert M k a) : kv ∈ M ∨ kv = (k, a) := by
  by_cases hk : k ∈ mapKeys M
  · rw [mapInsert_of_mem M k a hk] at h
    exact Or.inl h
  · rw [mapInsert_of_not_mem M k a hk] at h
    rcases List.mem_append.1 h with h | h
    · exact Or.inl h
    · exact Or.inr (List.mem_singleton.1 h)

theorem mem_mapInsert_of_mem (M : List (Str × Argument V)) (k : Str) (a : Argument V)
    (kv : Str × Argument V) (h : kv ∈ M) : kv ∈ mapInsert M k a := by
  by_cases hk : k ∈ mapKeys M
  · rw [mapInsert_of_mem M k a hk]
    exact h
  · rw [mapInsert_of_not_mem M k a hk]
    exact List.mem_append.2 (Or.inl h)

/-- The bindings of the user variables: one entry for a name, every entry of a variable a
fresh one under the name of a variable entity read, and every variable entity read with an
entry. -/
theorem classifyEntity_variables (ts : List Str) (i : Nat) (t : Str) (s s1 : MathExpression V)
    (hs : StInv A s ∧ s.m_generatorVec = [] ∧ (mapKeys s.m_argumentMap).Nodup
      ∧ (∀ kv ∈ s.m_argumentMap, kv.2.m_type = .ArgumentVariable →
          kv.2 = ⟨kv.1, .ArgumentVariable, 0, A.zero⟩ ∧ isVariableToken A kv.1 = true
            ∧ kv.1 ∈ ts)
      ∧ ∀ u ∈ ts, isVariableToken A u = true →
          ∃ a, (u, a) ∈ s.m_argumentMap ∧ a.m_type = .ArgumentVariable)
    (h : classifyEntity A i t s = (true, s1)) :
    StInv A s1 ∧ s1.m_generatorVec = [] ∧ (mapKeys s1.m_argumentMap).Nodup
      ∧ (∀ kv ∈ s1.m_argumentMap, kv.2.m_type = .ArgumentVariable →
          kv.2 = ⟨kv.1, .ArgumentVariable, 0, A.zero⟩ ∧ isVariableToken A kv.1 = true
            ∧ kv.1 ∈ ts ++ [t])
      ∧ ∀ u ∈ ts ++ [t], isVariableToken A u = true →
          ∃ a, (u, a) ∈ s1.m_argumentMap ∧ a.m_type = .ArgumentVariable := by
  obtain ⟨hS, hg, hnd, hv, hall⟩ := hs
  obtain ⟨hS1, hg1⟩ := classifyEntity_inv A i t s s1 hS hg h
  refine ⟨hS1, hg1, ?_⟩
  have other : ∀ (k : Str) (a : Argument V), a.m_type ≠ .ArgumentVariable →
      isVariableToken A t = false →
      s1.m_argumentMap = mapInsert s.m_argumentMap k a →
      (mapKeys s1.m_argumentMap).Nodup
      ∧ (∀ kv ∈ s1.m_argumentMap, kv.2.m_type = .ArgumentVariable →
          kv.2 = ⟨kv.1, .ArgumentVariable, 0, A.zero⟩ ∧ isVariableToken A kv.1 = true
            ∧ kv.1 ∈ ts ++ [t])
      ∧ ∀ u ∈ ts ++ [t], isVariableToken A u = true →
          ∃ a, (u, a) ∈ s1.m_argumentMap ∧ a.m_type = .ArgumentVariable := by
    intro k a hty hnv hm
    rw [hm]
    refine ⟨nodup_mapKeys_mapInsert _ _ _ hnd, ?_, ?_⟩
    · intro kv hkv hkt
      rcases mem_mapInsert _ _ _ _ hkv with h1 | h1
      · obtain ⟨e1, e2, e3⟩ := hv kv h1 hkt
        exact ⟨e1, e2, List.mem_append.2 (Or.inl e3)⟩
      · rw [h1] at hkt
        exact absurd hkt hty
    · intro u hu huv
      rcases List.mem_append.1 hu with h1 | h1
      · obtain ⟨b, hb, hbt⟩ := hall u h1 huv
        exact ⟨b, mem_mapInsert_of_mem _ _ _ _ hb, hbt⟩
      · rw [List.mem_singleton.1 h1, hnv] at huv
        cases huv
  rcases classifyEntity_cases A i t s s1 h with ⟨hop, hs1⟩ | ⟨_, _, hc, c, _, hs1⟩ | ⟨hvt, hs1⟩
    | ⟨hnum, hs1⟩
  · have hnv : isVariableToken A t = false := by simp [isVariableToken, hop]
    have hm : s1.m_argumentMap = s.m_argumentMap := by rw [hs1]
    rw [hm]
    refine ⟨hnd, ?_, ?_⟩
    · intro kv hkv hkt
      obtain ⟨e1, e2, e3⟩ := hv kv hkv hkt
      exact ⟨e1, e2, List.mem_append.2 (Or.inl e3)⟩
    · intro u hu huv
      rcases List.mem_append.1 hu with h1 | h1
      · exact hall u h1 huv
      · rw [List.mem_singleton.1 h1, hnv] at huv
        cases huv
  · exact other t ⟨t, .ArgumentConstant, 0, c.m_dvalue⟩ (by intro hx; cases hx)
      (by simp [isVariableToken, hc]) (by rw [hs1])
  · have hm : s1.m_argumentMap
        = mapInsert s.m_argumentMap t ⟨t, .ArgumentVariable, 0, A.zero⟩ := by rw [hs1]
    rw [hm]
    refine ⟨nodup_mapKeys_mapInsert _ _ _ hnd, ?_, ?_⟩
    · intro kv hkv hkt
      rcases mem_mapInsert _ _ _ _ hkv with h1 | h1
      · obtain ⟨e1, e2, e3⟩ := hv kv h1 hkt
        exact ⟨e1, e2, List.mem_append.2 (Or.inl e3)⟩
      · rw [h1]
        exact ⟨rfl, hvt, List.mem_append.2 (Or.inr (List.mem_singleton.2 rfl))⟩
    · intro u hu huv
      rcases List.mem_append.1 hu with h1 | h1
      · obtain ⟨b, hb, hbt⟩ := hall u h1 huv
        exact ⟨b, mem_mapInsert_of_mem _ _ _ _ hb, hbt⟩
      · rw [List.mem_singleton.1 h1]
        by_cases hk : t ∈ mapKeys s.m_argumentMap
        · rw [mapInsert_of_mem _ _ _ hk]
          obtain ⟨kv, hkv, hkey⟩ := (mem_mapKeys_iff _ _).1 hk
          simp only [isVariableToken, Bool.and_eq_true, Bool.not_eq_true'] at hvt
          obtain ⟨⟨ha, _⟩, hnc⟩ := hvt
          cases hcnt : counted kv with
          | true =>
            obtain ⟨j, _, hj⟩ := hS.1.counted_key A kv hkv hcnt
            rw [hkey] at hj
            rw [hj, charAt_nameOf] at ha
            exact absurd ha (by decide)
          | false =>
            rcases (hS.1.2.2 kv hkv hcnt).2.2 with ⟨_, h2⟩ | ⟨h2, _⟩
            · rw [hkey, hnc] at h2
              cases h2
            · refine ⟨kv.2, ?_, h2⟩
              rw [← hkey]
              exact hkv
        · rw [mapInsert_of_not_mem _ _ _ hk]
          exact ⟨_, List.mem_append.2 (Or.inr (List.mem_singleton.2 rfl)), rfl⟩
  · have hnv : isVariableToken A t = false := by
      simp only [isNumberToken, Bool.and_eq_true, Bool.not_eq_true'] at hnum
      simp [isVariableToken, hnum.1]
    exact other _ ⟨createNewUserConstantName s, .ArgumentUserConstant, 0, A.atof t⟩
      (by intro hx; cases hx) hnv (by rw [hs1])

/-- The bindings of the user variables after `setArgumentMap` has returned `true`. -/
theorem setArgumentMap_variables (s0 s1 : MathExpression V)
    (h : setArgumentMap A s0 = (true, s1)) :
    (mapKeys s1.m_argumentMap).Nodup
      ∧ (∀ kv ∈ s1.m_argumentMap, kv.2.m_type = .ArgumentVariable →
          kv.2 = ⟨kv.1, .ArgumentVariable, 0, A.zero⟩ ∧ isVariableToken A kv.1 = true
            ∧ kv.1 ∈ rpTokens s0.m_reversePolish)
      ∧ ∀ u ∈ rpTokens s0.m_reversePolish, isVariableToken A u = true →
          ∃ a, (u, a) ∈ s1.m_argumentMap ∧ a.m_type = .ArgumentVariable := by
  have := setArgumentMap_induct A
    (fun ts s => StInv A s ∧ s.m_generatorVec = [] ∧ (mapKeys s.m_argumentMap).Nodup
      ∧ (∀ kv ∈ s.m_argumentMap, kv.2.m_type = .ArgumentVariable →
          kv.2 = ⟨kv.1, .ArgumentVariable, 0, A.zero⟩ ∧ isVariableToken A kv.1 = true
            ∧ kv.1 ∈ ts)
      ∧ ∀ u ∈ ts, isVariableToken A u = true →
          ∃ a, (u, a) ∈ s.m_argumentMap ∧ a.m_type = .ArgumentVariable)
    (fun ts i t s s1 hs h => classifyEntity_variables A ts i t s s1 hs h) s0 s1
    ⟨⟨MapInv.nil A, fun t ht => absurd ht (List.not_mem_nil t), fun _ => Built.base _⟩, rfl,
      List.nodup_nil, fun kv hkv => absurd hkv (List.not_mem_nil kv),
      fun u hu => absurd hu (List.not_mem_nil u)⟩ h
  exact this.2.2

/-- The count of `getVariableSize` after `setArgumentMap` has returned `true`: the number of
distinct variable entities of the RP text, as a `uint16_t`. -/
theorem setArgumentMap_variable_count (s0 s1 : MathExpression V)
    (h : setArgumentMap A s0 = (true, s1)) :
    getVariableSize s1
      = ((rpTokens s0.m_reversePolish).filter (isVariableToken A)).dedup.length % 65536 := by
  obtain ⟨hnd, hv, hall⟩ := setArgumentMap_variables A s0 s1 h
  have hperm : ((s1.m_argumentMap.filter
        (fun kv => kv.2.m_type == .ArgumentVariable)).map Prod.fst).Perm
      ((rpTokens s0.m_reversePolish).filter (isVariableToken A)).dedup := by
    rw [List.perm_ext_iff_of_nodup
      (List.Nodup.sublist (List.Sublist.map _ (List.filter_sublist _)) hnd)
      (List.nodup_dedup _)]
    intro u
    rw [List.mem_dedup, List.mem_filter, List.mem_map]
    constructor
    · rintro ⟨kv, hkv, rfl⟩
      obtain ⟨hkv1, hkv2⟩ := List.mem_filter.1 hkv
      obtain ⟨_, e2, e3⟩ := hv kv hkv1 (by simpa using hkv2)
      exact ⟨e3, e2⟩
    · rintro ⟨hu1, hu2⟩
      obtain ⟨a, ha, hat⟩ := hall u hu1 hu2
      exact ⟨(u, a), List.mem_filter.2 ⟨ha, by simp [hat]⟩, rfl⟩
  rw [← hperm.length_eq, List.length_map, ← List.countP_eq_length_filter]
  rfl

/-- The binding of a variable entity after `setArgumentMap` has returned `true`. -/
theorem setArgumentMap_variable_binding (s0 s1 : MathExpression V)
    (h : setArgumentMap A s0 = (true, s1)) (u : Str) (hu : u ∈ rpTokens s0.m_reversePolish)
    (huv : isVariableToken A u = true) :
    s1.m_argumentMap.lookup u = some ⟨u, .ArgumentVariable, 0, A.zero⟩ := by
  obtain ⟨hnd, hv, hall⟩ := setArgumentMap_variables A s0 s1 h
  obtain ⟨a, ha, hat⟩ := hall u hu huv
  have := (hv (u, a) ha hat).1
  simp only [] at this
  rw [this] at ha
  exact lookup_of_mem_nodup _ _ _ ha hnd

end VariableCount
section ConstantSets

variable {V : Type} (A : Arith V)

theorem AgreeOffConstants.agree_set_both {m m2 : List (Str × Argument V)}
    (h : AgreeOffConstants A m m2) (key : Str) (v : V) :
    AgreeOffConstants A (mapSetDouble m key v) (mapSetDouble m2 key v) := by
  refine ⟨by rw [mapKeys_mapSetDouble, mapKeys_mapSetDouble, h.1], ?_⟩
  intro k hk
  rw [lookup_mapSetDouble, lookup_mapSetDouble, h.2 k hk]

theorem AgreeOffConstants.agree_set_constant {m m2 : List (Str × Argument V)}
    (h : AgreeOffConstants A m m2) (key : Str) (v : V) (hc : hasConstantMap A key = true) :
    AgreeOffConstants A (mapSetDouble m key v) m2 := by
  refine ⟨by rw [mapKeys_mapSetDouble, h.1], ?_⟩
  intro k hk
  have hne : k ≠ key := by
    intro hkk
    rw [hkk, hc] at hk
    cases hk
  rw [lookup_mapSetDouble_ne _ _ _ _ hne, h.2 k hk]

theorem derefDouble_agree {m m2 : List (Str × Argument V)} (h : AgreeOffConstants A m m2)
    (p : ArgPtr) (hp : ∀ key, p = .argument key → hasConstantMap A key = false) :
    derefDouble A m (some p) = derefDouble A m2 (some p) := by
  cases p with
  | constant k => rfl
  | argument k => simp only [derefDouble, h.2 k (hp k rfl)]

/-- A generator returns the same value on two contents of the argument map that agree off the
names of the registry constants. -/
theorem generateDoubleValue_agree (g : Generator) {m m2 : List (Str × Argument V)}
    (h : AgreeOffConstants A m m2) (hwf : GenWF A (mapKeys m) g) (hname : g.m_name ∈ mapKeys m)
    (hptr : ∀ p, (g.m_arg1 = some p ∨ g.m_arg2 = some p) →
      ∀ key, p = .argument key → hasConstantMap A key = false) :
    ∃ v, generateDoubleValue A g m = .ok (v, mapSetDouble m g.m_name v)
      ∧ generateDoubleValue A g m2 = .ok (v, mapSetDouble m2 g.m_name v) := by
  have hnm : (m.lookup g.m_name).isSome = true := (lookup_isSome_iff_mem_keys m _).2 hname
  have hnm2 : (m2.lookup g.m_name).isSome = true :=
    (lookup_isSome_iff_mem_keys m2 _).2 (h.1 ▸ hname)
  obtain ⟨hmy, h1 | h2⟩ := hwf
  · obtain ⟨hty, o, f, p, ho, hf, hp, hpok⟩ := h1
    obtain ⟨x, hx⟩ := derefDouble_ok_of_PtrOK A _ m p hpok (fun _ h => h)
    have hx2 := hx
    rw [derefDouble_agree A h p (hptr p (Or.inl hp))] at hx2
    exact ⟨A.callDD f x, by simp [generateDoubleValue, hty, ho, hf, hp, hx, hmy, hnm],
      by simp [generateDoubleValue, hty, ho, hf, hp, hx2, hmy, hnm2]⟩
  · obtain ⟨hty, o, f, p1, p2, ho, hf, hp1, hp2, hpok1, hpok2⟩ := h2
    obtain ⟨x, hx⟩ := derefDouble_ok_of_PtrOK A _ m p1 hpok1 (fun _ h => h)
    obtain ⟨y, hy⟩ := derefDouble_ok_of_PtrOK A _ m p2 hpok2 (fun _ h => h)
    have hx2 := hx
    have hy2 := hy
    rw [derefDouble_agree A h p1 (hptr p1 (Or.inl hp1))] at hx2
    rw [derefDouble_agree A h p2 (hptr p2 (Or.inr hp2))] at hy2
    exact ⟨A.callDDD f x y,
      by simp [generateDoubleValue, hty, ho, hf, hp1, hp2, hx, hy, hmy, hnm],
      by simp [generateDoubleValue, hty, ho, hf, hp1, hp2, hx2, hy2, hmy, hnm2]⟩

/-- A list of generators returns the same value on two contents of the argument map that agree
off the names of the registry constants. -/
theorem runGenerators_agree_constants (G : List Generator) (m m2 : List (Str × Argument V))
    (h : AgreeOffConstants A m m2)
    (hG : ∀ g ∈ G, GenWF A (mapKeys m) g ∧ g.m_name ∈ mapKeys m
      ∧ (∀ p, (g.m_arg1 = some p ∨ g.m_arg2 = some p) →
          ∀ key, p = .argument key → hasConstantMap A key = false)
      ∧ hasConstantMap A g.m_name = false) (d : V) :
    ∃ v m1 m3, runGenerators A G d m = .ok (v, m1) ∧ runGenerators A G d m2 = .ok (v, m3)
      ∧ AgreeOffConstants A m1 m3 ∧ mapKeys m1 = mapKeys m := by
  induction G generalizing m m2 d with
  | nil => exact ⟨d, m, m2, rfl, rfl, h, rfl⟩
  | cons g rest ih =>
    obtain ⟨hwf, hname, hptr, _⟩ := hG g (List.mem_cons_self _ _)
    obtain ⟨v, hv, hv2⟩ := generateDoubleValue_agree A g h hwf hname hptr
    have hk : mapKeys (mapSetDouble m g.m_name v) = mapKeys m := mapKeys_mapSetDouble _ _ _
    obtain ⟨v2, m1, m3, h1, h3, hag, hk2⟩ := ih (mapSetDouble m g.m_name v)
      (mapSetDouble m2 g.m_name v) (h.agree_set_both A _ v)
      (fun g2 hg2 => by rw [hk]; exact hG g2 (List.mem_cons_of_mem _ hg2)) v
    refine ⟨v2, m1, m3, ?_, ?_, hag, hk2.trans hk⟩
    · rw [runGenerators, hv]
      exact h1
    · rw [runGenerators, hv2]
      exact h3

theorem ConstantFree.of_keys {s s2 : MathExpression V} (h : ConstantFree A s)
    (hg : s2.m_generatorVec = s.m_generatorVec) (hm : s2.m_math = s.m_math)
    (hk : mapKeys s2.m_argumentMap = mapKeys s.m_argumentMap) : ConstantFree A s2 := by
  unfold ConstantFree
  rw [hg, hm, hk]
  exact h

/-- An evaluation of a program returns the same value on two objects whose argument maps agree
off the names of the registry constants. -/
theorem calculateExpression_agree_constants (s s2 : MathExpression V) (hC : ConstantFree A s)
    (hg : s.m_generatorVec = s2.m_generatorVec) (hm : s.m_math = s2.m_math)
    (h : AgreeOffConstants A s.m_argumentMap s2.m_argumentMap) :
    ∃ v r r2, calculateExpression A s = .ok (v, r) ∧ calculateExpression A s2 = .ok (v, r2)
      ∧ ConstantFree A r ∧ r.m_generatorVec = r2.m_generatorVec ∧ r.m_math = r2.m_math
      ∧ AgreeOffConstants A r.m_argumentMap r2.m_argumentMap := by
  unfold calculateExpression
  rw [← hg, ← hm]
  by_cases hG : s.m_generatorVec = []
  · have hlen : (s.m_generatorVec.length == 0) = true := by rw [hG]; rfl
    rw [if_pos hlen, if_pos hlen]
    by_cases hpos : s.m_math.length > 0
    · rw [if_pos hpos, if_pos hpos]
      rcases hC.2 hG with h1 | ⟨h1, h2⟩
      · rw [h1] at hpos
        exact absurd hpos (by simp)
      · have := (lookup_isSome_iff_mem_keys _ _).2 h1
        rw [Option.isSome_iff_exists] at this
        obtain ⟨a, ha⟩ := this
        have ha2 := ha
        rw [h.2 _ h2] at ha2
        rw [ha, ha2]
        exact ⟨_, _, _, rfl, rfl, hC, hg, hm, h⟩
    · rw [if_neg hpos, if_neg hpos]
      exact ⟨_, _, _, rfl, rfl, hC, hg, hm, h⟩
  · have hlen : ¬ (s.m_generatorVec.length == 0) = true := by simpa using hG
    rw [if_neg hlen, if_neg hlen]
    obtain ⟨v, m1, m3, h1, h3, hag, hk⟩ := runGenerators_agree_constants A s.m_generatorVec
      s.m_argumentMap s2.m_argumentMap h hC.1 A.zero
    rw [h1, h3]
    exact ⟨_, _, _, rfl, rfl, hC.of_keys A rfl rfl hk, rfl, rfl, hag⟩

/-- A sequence of calls on a program, with and without the `setVariableDouble` calls whose name
is the name of a registry constant: both run through and leave programs that return the same
value. -/
theorem calls_agree_constants (calls : List (Call V)) (s s2 : MathExpression V)
    (hC : ConstantFree A s) (hg : s.m_generatorVec = s2.m_generatorVec)
    (hm : s.m_math = s2.m_math) (h : AgreeOffConstants A s.m_argumentMap s2.m_argumentMap) :
    ∃ r r2, runCalls A calls s = .ok r ∧ runCalls A (dropConstantSets A calls) s2 = .ok r2
      ∧ ConstantFree A r ∧ r.m_generatorVec = r2.m_generatorVec ∧ r.m_math = r2.m_math
      ∧ AgreeOffConstants A r.m_argumentMap r2.m_argumentMap := by
  induction calls generalizing s s2 with
  | nil => exact ⟨s, s2, rfl, rfl, hC, hg, hm, h⟩
  | cons c rest ih =>
    cases c with
    | set k v =>
      have hC1 : ConstantFree A (setVariableDouble k v s) := by
        rw [setVariableDouble_eq]
        exact hC.of_keys A rfl rfl (mapKeys_mapSetDouble _ _ _)
      by_cases hc : hasConstantMap A k = true
      · have hd : dropConstantSets A (Call.set k v :: rest) = dropConstantSets A rest := by
          rw [dropConstantSets, if_pos hc]
        rw [hd, runCalls]
        refine ih _ s2 hC1 ?_ ?_ ?_
        · rw [setVariableDouble_eq]; exact hg
        · rw [setVariableDouble_eq]; exact hm
        · rw [setVariableDouble_eq]; exact h.agree_set_constant A k v hc
      · have hd : dropConstantSets A (Call.set k v :: rest)
            = Call.set k v :: dropConstantSets A rest := by
          rw [dropConstantSets, if_neg hc]
        rw [hd, runCalls, runCalls]
        refine ih _ _ hC1 ?_ ?_ ?_
        · rw [setVariableDouble_eq, setVariableDouble_eq]; exact hg
        · rw [setVariableDouble_eq, setVariableDouble_eq]; exact hm
        · rw [setVariableDouble_eq, setVariableDouble_eq]; exact h.agree_set_both A k v
    | calculate =>
      obtain ⟨v, r, r2, h1, h2, hC1, hg1, hm1, hag⟩ :=
        calculateExpression_agree_constants A s s2 hC hg hm h
      rw [dropConstantSets, runCalls, runCalls, h1, h2]
      exact ih r r2 hC1 hg1 hm1 hag

theorem AgreeOffConstants.agree_same (m : List (Str × Argument V)) :
    AgreeOffConstants A m m := ⟨rfl, fun _ _ => rfl⟩

/-- A program that `setArgumentMap` and `expandMathExpression` built, both returning `true`,
and that does not end, without generator, in the name of a registry constant. -/
theorem compiled_constant_free (fuel : Nat) (s0 s1 s2 : MathExpression V)
    (hmap : setArgumentMap A s0 = (true, s1))
    (hexp : expandMathExpression A fuel s1 = .ok (true, s2))
    (hlone : s2.m_generatorVec = [] →
      hasConstantMap A (s2.m_math.getD (s2.m_math.length - 1) []) = false) :
    ConstantFree A s2 := by
  have hs1 : s1 = (setArgumentMap A s0).2 := by rw [hmap]
  have hexp2 := hexp
  rw [hs1] at hexp2
  obtain ⟨_, hW⟩ := compiled_wired A fuel s0 s2 true hexp2
  constructor
  · intro g hg
    obtain ⟨hwf, hname⟩ := hW.generators_safe A g hg
    obtain ⟨k, hk1, hk2⟩ := List.getElem_of_mem hg
    have hget : s2.m_generatorVec[k]? = some g := by
      rw [List.getElem?_eq_getElem hk1, hk2]
    refine ⟨hwf, hname, fun p hp => (hW.2.2.1 k g hget p hp).2, ?_⟩
    obtain ⟨j, hj⟩ := hW.2.2.2 g hg
    rw [hj]
    exact hasConstantMap_nameOf A j
  · intro hG
    rcases compiled_last_key A fuel s0 s1 s2 hmap hexp hG with h | h
    · exact Or.inl h
    · exact Or.inr ⟨h, hlone hG⟩

end ConstantSets
section ManyVariables

variable {V : Type} (A : Arith V)

theorem ofNat_letter_ne_space (k : Nat) (h : k < 16) : Char.ofNat (97 + k) ≠ ' ' := by
  intro hc
  have := congrArg Char.toNat hc
  rw [toNat_ofNat_lt _ (by omega)] at this
  have h2 : (' ' : Char).toNat = 32 := rfl
  omega

theorem ofNat_letter_inj (j k : Nat) (hj : j < 16) (hk : k < 16)
    (h : Char.ofNat (97 + j) = Char.ofNat (97 + k)) : j = k := by
  have := congrArg Char.toNat h
  rw [toNat_ofNat_lt _ (by omega), toNat_ofNat_lt _ (by omega)] at this
  omega

theorem varName_inj (a b : Nat) (ha : a < 65536) (hb : b < 65536)
    (h : varName a = varName b) : a = b := by
  simp only [varName, List.cons.injEq, and_true, true_and] at h
  obtain ⟨h1, h2, h3, h4⟩ := h
  have e1 := ofNat_letter_inj _ _ (Nat.mod_lt _ (by decide)) (Nat.mod_lt _ (by decide)) h1
  have e2 := ofNat_letter_inj _ _ (Nat.mod_lt _ (by decide)) (Nat.mod_lt _ (by decide)) h2
  have e3 := ofNat_letter_inj _ _ (Nat.mod_lt _ (by decide)) (Nat.mod_lt _ (by decide)) h3
  have e4 := ofNat_letter_inj _ _ (Nat.mod_lt _ (by decide)) (Nat.mod_lt _ (by decide)) h4
  omega

theorem varName_token (n : Nat) : varName n ≠ [] ∧ ∀ c ∈ varName n, c ≠ ' ' := by
  refine ⟨List.cons_ne_nil _ _, ?_⟩
  intro c hc
  simp only [varName, List.mem_cons, List.mem_singleton, List.mem_nil_iff, or_false] at hc
  rcases hc with rfl | rfl | rfl | rfl | rfl
  · decide
  · exact ofNat_letter_ne_space _ (Nat.mod_lt _ (by decide))
  · exact ofNat_letter_ne_space _ (Nat.mod_lt _ (by decide))
  · exact ofNat_letter_ne_space _ (Nat.mod_lt _ (by decide))
  · exact ofNat_letter_ne_space _ (Nat.mod_lt _ (by decide))

theorem isVariableToken_varName (n : Nat) : isVariableToken A (varName n) = true := by
  have h1 : (charAt (varName n) 0).isAlpha = true := (by decide : ('x' : Char).isAlpha = true)
  have h2 : hasOperatorMap (varName n) = false := by
    by_contra hc
    have := (hasOperatorMap_iff (varName n)).1 (by simpa using hc)
    simp [varName] at this
  have h3 : hasConstantMap A (varName n) = false := by
    by_contra hc
    have hc2 : hasConstantMap A (varName n) = true := by simpa using hc
    simp only [hasConstantMap, lookup_isSome_eq_any, constantMap, List.any_cons, List.any_nil,
      Bool.or_false, Bool.or_eq_true, beq_iff_eq] at hc2
    simp [varName] at hc2
  simp [isVariableToken, h1, h2, h3]

theorem tokensFrom_append (cur t rest : Str) (ht : ∀ c ∈ t, c ≠ ' ') :
    tokensFrom cur (t ++ rest) = tokensFrom (cur ++ t) rest := by
  induction t generalizing cur with
  | nil => rw [List.nil_append, List.append_nil]
  | cons c t ih =>
    rw [List.cons_append, tokensFrom_char _ _ _ (ht c (List.mem_cons_self _ _)),
      ih _ (fun d hd => ht d (List.mem_cons_of_mem _ hd)), List.append_assoc]
    rfl

/-- The space-separated tokens of the text built from a list of entities are the entities. -/
theorem rpTokens_rpText (ts : List Str) (h : ∀ t ∈ ts, t ≠ [] ∧ ∀ c ∈ t, c ≠ ' ') :
    rpTokens (rpText ts) = ts := by
  rw [rpTokens_eq]
  induction ts with
  | nil => rw [rpText, tokensFrom_nil, if_pos rfl]
  | cons t rest ih =>
    obtain ⟨hne, hsp⟩ := h t (List.mem_cons_self _ _)
    cases rest with
    | nil =>
      rw [rpText]
      have := tokensFrom_append [] t [] hsp
      rw [List.append_nil, List.nil_append] at this
      rw [this, tokensFrom_nil, if_neg hne]
    | cons u us =>
      rw [rpText, tokensFrom_append [] t _ hsp, List.nil_append, tokensFrom_space,
        ih (fun x hx => h x (List.mem_cons_of_mem _ hx))]
      · exact List.cons_ne_nil _ _

/-- A text of distinct variable names: `setArgumentMap` returns `true` and `getVariableSize`
then returns their number as a `uint16_t`. -/
theorem distinct_variables (s0 : MathExpression V) (txt : Str) (toks : List Str)
    (htok : rpTokens txt = toks) (hvar : ∀ t ∈ toks, isVariableToken A t = true)
    (hnd : toks.Nodup) :
    ∃ s1, setArgumentMapFrom A txt s0 = (true, s1)
      ∧ ((rpTokens txt).filter (isVariableToken A)).dedup.length = toks.length
      ∧ getVariableSize s1 = toks.length % 65536 := by
  have hcount : ((rpTokens txt).filter (isVariableToken A)).dedup.length = toks.length := by
    rw [htok, List.filter_eq_self.2 hvar, hnd.dedup]
  have hres : (setArgumentMapFrom A txt s0).1 = true := by
    rcases setArgumentMap_known A { s0 with m_reversePolish := txt }
      with ⟨h1, _⟩ | ⟨_, t, ht, hk, _⟩
    · exact h1
    · have ht2 : t ∈ toks := by
        rw [← htok]
        exact ht
      have := hvar t ht2
      simp only [isVariableToken, Bool.and_eq_true] at this
      rw [entityKnown, this.1.1] at hk
      cases hk
  refine ⟨(setArgumentMapFrom A txt s0).2, ?_, hcount, ?_⟩
  · rw [← hres]
  · have hmap : setArgumentMap A { s0 with m_reversePolish := txt }
        = (true, (setArgumentMapFrom A txt s0).2) := by
      rw [← hres]
      rfl
    have := setArgumentMap_variable_count A _ _ hmap
    rw [this]
    have hc2 : ((rpTokens ({ s0 with m_reversePolish := txt } :
        MathExpression V).m_reversePolish).filter (isVariableToken A)).dedup.length
          = toks.length := hcount
    rw [hc2]

theorem manyVariables_length : manyVariables.length = 65536 := by
  rw [manyVariables, List.length_map, List.length_range]

/-- A text with 65536 distinct variable names: `setArgumentMap` returns `true` and
`getVariableSize` then returns 0. -/
theorem many_variables (s0 : MathExpression V) :
    ∃ s1, setArgumentMapFrom A manyVariablesText s0 = (true, s1)
      ∧ ((rpTokens manyVariablesText).filter (isVariableToken A)).dedup.length = 65536
      ∧ getVariableSize s1 = 0 := by
  have htok : rpTokens manyVariablesText = manyVariables := by
    rw [manyVariablesText]
    refine rpTokens_rpText _ ?_
    intro t ht
    obtain ⟨n, _, rfl⟩ := List.mem_map.1 ht
    exact varName_token n
  have hvar : ∀ t ∈ manyVariables, isVariableToken A t = true := by
    intro t ht
    obtain ⟨n, _, rfl⟩ := List.mem_map.1 ht
    exact isVariableToken_varName A n
  have hnd : manyVariables.Nodup := by
    refine List.Nodup.map_on ?_ (List.nodup_range _)
    intro a ha b hb hab
    exact varName_inj a b (List.mem_range.1 ha) (List.mem_range.1 hb) hab
  obtain ⟨s1, h1, h2, h3⟩ := distinct_variables A s0 manyVariablesText manyVariables htok
    hvar hnd
  rw [manyVariables_length] at h2 h3
  exact ⟨s1, h1, h2, h3⟩

end ManyVariables
section OverflowNames

/-- The synthesized names of the program of `overflowText`: the name `#AA` of the number `5` is
also the name of the generator. -/
theorem overflow_names :
    ∃ s1 s2 : MathExpression (Option ℚ),
      setArgumentMapFrom exactArith overflowText (MathExpression.new (Option ℚ)) = (true, s1)
      ∧ expandMathExpression exactArith 6658 s1 = .ok (true, s2)
      ∧ (s1.m_math.filter isSynthesizedName)[0]? = some (nameOf 0)
      ∧ generatorNames s2.m_generatorVec = [nameOf 0] := by
  obtain ⟨s1, j, math1, hset, hinv, hG, hm, hcount, h0, ⟨a, ha, _⟩, hrest, hlen⟩ :=
    overflow_classify exactArith (MathExpression.new (Option ℚ))
  have h0mem : nameOf 0 ∈ mapKeys s1.m_argumentMap :=
    (lookup_isSome_iff_mem_keys _ _).1 (by rw [h0]; rfl)
  have h1mem : nameOf j ∈ mapKeys s1.m_argumentMap :=
    (lookup_isSome_iff_mem_keys _ _).1 (by rw [ha]; rfl)
  refine ⟨s1, _, hset, overflow_expand exactArith j math1 s1 hinv hG hm hcount h0mem h1mem
    hrest 6658 (by omega), ?_, rfl⟩
  rw [hm, List.filter_cons_of_pos (isSynthesizedName_nameOf 0)]
  rfl

end OverflowNames
section ErrorNumbers

variable {V : Type} (A : Arith V)

theorem SameErrors.err_refl (s : MathExpression V) : SameErrors s s := ⟨rfl, rfl⟩

theorem SameErrors.err_trans {s s2 s3 : MathExpression V} (h : SameErrors s s2)
    (h2 : SameErrors s2 s3) : SameErrors s s3 :=
  ⟨h.1.trans h2.1, h.2.trans h2.2⟩

/-- The loop `for(; m_RPstack[0] != "(";)` never takes the branch that returns `false`. -/
theorem popToParenthesis_not_false (fuel : Nat) (stack : List Str) (rp : Str)
    (stack1 : List Str) (rp1 : Str) :
    popToParenthesis fuel stack rp ≠ .ok (false, stack1, rp1) := by
  induction fuel generalizing stack rp with
  | zero =>
    intro h
    rw [popToParenthesis] at h
    cases h
  | succ fuel ih =>
    intro h
    rw [popToParenthesis] at h
    cases stack with
    | nil =>
      simp only [List.getElem?_nil] at h
      cases h
    | cons top rest =>
      simp only [List.getElem?_cons_zero] at h
      by_cases htop : (top != ['(']) = true
      · rw [if_pos htop, if_pos (by simp)] at h
        exact ih _ _ h
      · rw [if_neg htop] at h
        cases h

theorem flushIfLast_errors (k : Char) (s s2 : MathExpression V) (h : SameErrors s s2) :
    SameErrors s (flushIfLast k s2) := by
  unfold flushIfLast
  split_ifs <;> exact h

/-- A call of `pushToReversePolish` that returns leaves the error numbers as they are, and
returns `true`. -/
theorem pushToReversePolish_errors (t : Str) (k : Char) (s s1 : MathExpression V) (b : Bool)
    (h : pushToReversePolish t k s = .ok (b, s1)) : b = true ∧ SameErrors s s1 := by
  unfold pushToReversePolish at h
  split_ifs at h
  · cases h
    exact ⟨rfl, flushIfLast_errors k _ _ ⟨rfl, rfl⟩⟩
  · cases hg : getOperator t with
    | none => rw [hg] at h; cases h
    | some o =>
      rw [hg] at h
      simp only [] at h
      cases hl : pushOperatorLoop o.precedence (s.m_RPstack.length + 1) 0
          (firstParenthesis s.m_RPstack) s.m_RPstack s.m_reversePolish with
      | error f => rw [hl] at h; cases h
      | ok r =>
        obtain ⟨i, stack, rp⟩ := r
        rw [hl] at h
        cases h
        exact ⟨rfl, flushIfLast_errors k _ _ ⟨rfl, rfl⟩⟩
  · cases h
    exact ⟨rfl, flushIfLast_errors k _ _ ⟨rfl, rfl⟩⟩
  · cases hl : popToParenthesis (s.m_RPstack.length + 1) s.m_RPstack s.m_reversePolish with
    | error f => rw [hl] at h; cases h
    | ok r =>
      obtain ⟨b2, stack, rp⟩ := r
      cases b2 with
      | false => exact absurd hl (popToParenthesis_not_false _ _ _ _ _)
      | true =>
        rw [hl] at h
        cases h
        exact ⟨rfl, flushIfLast_errors k _ _ ⟨rfl, rfl⟩⟩
  · cases h
    exact ⟨rfl, flushIfLast_errors k _ _ ⟨rfl, rfl⟩⟩

theorem applyPushes_errors (evs : List (Str × Char)) (s s1 : MathExpression V)
    (h : applyPushes evs s = .ok s1) : SameErrors s s1 := by
  induction evs generalizing s with
  | nil =>
    rw [applyPushes] at h
    cases h
    exact SameErrors.err_refl _
  | cons ev rest ih =>
    obtain ⟨t, k⟩ := ev
    rw [applyPushes] at h
    cases hp : pushIgnore t k s with
    | error f => rw [hp] at h; cases h
    | ok r =>
      rw [hp] at h
      unfold pushIgnore at hp
      cases hq : pushToReversePolish t k s with
      | error f => rw [hq] at hp; cases hp
      | ok x =>
        obtain ⟨b, r2⟩ := x
        rw [hq] at hp
        cases hp
        exact (pushToReversePolish_errors t k s r b hq).2.err_trans (ih r h)

/-- A call of `expressionToReversePolish` that returns `true` leaves the error numbers as they
are. -/
theorem expressionToReversePolish_errors (fuel : Nat) (s s1 : MathExpression V)
    (h : expressionToReversePolish fuel s = .ok (true, s1)) : SameErrors s s1 := by
  rw [expressionToReversePolish_lex] at h
  cases hp : prepassLoop fuel s.m_expression 0 false with
  | error f => rw [hp] at h; cases h
  | ok e =>
    rw [hp] at h
    simp only [] at h
    cases hl : lexAll [] e .idle with
    | none =>
      rw [hl] at h
      cases h
    | some r =>
      obtain ⟨evs, p⟩ := r
      rw [hl] at h
      simp only [] at h
      cases ha : applyPushes (evs ++ p.lastPushes)
          ({ s with m_RPstack := [], m_expression := e } : MathExpression V) with
      | error f => rw [ha] at h; cases h
      | ok s2 =>
        rw [ha] at h
        cases h
        have h2 := applyPushes_errors _ _ _ ha
        exact ⟨h2.1, h2.2⟩

/-- A call of `setArgumentMap` that returns `true` leaves the error numbers as they are. -/
theorem setArgumentMap_errors (s0 s1 : MathExpression V)
    (h : setArgumentMap A s0 = (true, s1)) : SameErrors s0 s1 := by
  refine setArgumentMap_induct A (fun _ s => SameErrors s0 s) ?_ s0 s1 ⟨rfl, rfl⟩ h
  intro ts i t s s2 hs hc
  refine hs.err_trans ?_
  rcases classifyEntity_cases A i t s s2 hc with ⟨_, h1⟩ | ⟨_, _, _, c, _, h1⟩ | ⟨_, h1⟩
    | ⟨_, h1⟩ <;> (rw [h1]; exact ⟨rfl, rfl⟩)

/-- A trip of the loop of `expandMathExpression` that ends the loop returns `false`. -/
theorem expandStep_inl (i : Nat) (s : MathExpression V) (r : Bool × MathExpression V)
    (h : expandStep A i s = .inl r) : r.1 = false := by
  unfold expandStep at h
  simp only [] at h
  split_ifs at h <;> cases h <;> rfl

/-- A property that every trip of the loop of `expandMathExpression` that goes on keeps holds
of the object with which the loop returns `true`. -/
theorem expandLoop_induct_true (P : MathExpression V → Prop)
    (hstep : ∀ i s s1, P s → i < s.m_math.length → expandStep A i s = .inr s1 → P s1)
    (fuel i : Nat) (s s1 : MathExpression V) (hs : P s)
    (h : expandLoop A fuel i s = .ok (true, s1)) : P s1 := by
  induction fuel generalizing i s with
  | zero =>
    rw [expandLoop] at h
    split_ifs at h
    cases h
    exact hs
  | succ fuel ih =>
    rw [expandLoop_succ] at h
    by_cases hi : i < s.m_math.length
    · rw [if_pos hi] at h
      rcases hx : expandStep A i s with r | s2
      · rw [hx] at h
        have := expandStep_inl A i s r hx
        cases h
        cases this
      · rw [hx] at h
        exact ih _ _ (hstep i s s2 hs hi hx) h
    · rw [if_neg hi] at h
      cases h
      exact hs

theorem expandStep_inr_errors (i : Nat) (s s1 : MathExpression V)
    (h : expandStep A i s = .inr s1) : SameErrors s s1 := by
  unfold expandStep at h
  simp only [] at h
  split_ifs at h <;> cases h <;> exact ⟨rfl, rfl⟩

/-- A call of `expandMathExpression` that returns `true` leaves the error numbers as they
are. -/
theorem expandMathExpression_errors (fuel : Nat) (s s1 : MathExpression V)
    (h : expandMathExpression A fuel s = .ok (true, s1)) : SameErrors s s1 :=
  expandLoop_induct_true A (fun x => SameErrors s x)
    (fun i x x1 hx _ hst => hx.err_trans (expandStep_inr_errors A i x x1 hst))
    fuel 0 s s1 (SameErrors.err_refl s) h

end ErrorNumbers

/-! ### The compilation of a single operand -/

section SingleOperand

variable {V : Type} (A : Arith V)

/-- The infix text of one operand has the operand as its RP text. -/
theorem operand_rp (t : Str) (ht : isOperand t = true) (fuel : Nat) (hfuel : t.length ≤ fuel) :
    expressionToReversePolish fuel (setExpression t (MathExpression.new V)) =
      .ok (true, withRP { MathExpression.new V with m_expression := t } t []) := by
  apply expressionToReversePolish_fresh fuel _ _ [] (operandPending t)
  · exact operand_clean t ht
  · apply prepassSplit_mono (0 + t.length) _ _ _ _ fuel (by omega)
    have h := prepassSplit_operand t 0 [] [] ht (Or.inl rfl)
    simp only [List.append_nil] at h
    rw [h]
    simp [prepassSplit]
  · have h := lexAll_operand_start t ht
    exact h
  · intro s0 h1 h2
    rw [List.nil_append, applyPushes_operand_last t ht, h1, h2, appendRP_nil]
    rfl

/-- Function `setArgumentMap` on the RP text of one variable. -/
theorem setArgumentMap_single_variable (x : Str) (hx : isIdentifier x = true)
    (hc : hasConstantMap A x = false) (s : MathExpression V) (hrp : s.m_reversePolish = x) :
    setArgumentMap A s = (true, { s with
      m_math := [x]
      m_argumentMap := [(x, ⟨x, .ArgumentVariable, 0, A.zero⟩)]
      m_generatorVec := [] }) := by
  have hop : isOperand x = true := by simp [isOperand, hx]
  have htok : ∀ t ∈ [x], isToken t = true := by
    intro t ht
    rw [List.mem_singleton] at ht
    subst ht
    rw [isToken_iff]
    refine ⟨isOperand_ne_nil t hop, fun c hc2 => ?_⟩
    exact (operand_clean t hop c hc2).1
  have h := setArgumentMapFrom_tokens A [x] s htok
  have hs : ({ s with m_reversePolish := rpText [x] } : MathExpression V) = s := by
    rw [← hrp]
    rfl
  rw [setArgumentMapFrom, hs] at h
  rw [h]
  have ha : (charAt x 0).isAlpha = true := by
    rcases isOperand_cases x hop with ⟨h1, h2⟩ | ⟨h1, h2⟩
    · rcases x with _ | ⟨c, t⟩
      · exact absurd rfl (isOperand_ne_nil [] hop)
      · exact h2 c (by simp)
    · rw [isIdentifier_iff] at hx
      rcases x with _ | ⟨c, t⟩
      · exact absurd rfl (isOperand_ne_nil [] hop)
      · exact hx.2.1 c (by simp)
  have ho : hasOperatorMap x = false := isOperand_hasOperatorMap x hop
  simp only [classifyTokens, classifyEntity, ha, ho, hc, if_true, Bool.false_eq_true, if_false,
    hasArgumentMap, List.lookup, Option.isSome_none, beq_self_eq_true, mapInsert, List.nil_append]
  rw [← hrp]
  rfl

/-- Function `calculateExpression` on a program without generator: the value of the binding of
the last entry of `m_math`. -/
theorem calculateExpression_last (s : MathExpression V) (h : s.m_generatorVec = [])
    (pre : List Str) (key : Str) (a : Argument V) (hm : s.m_math = pre ++ [key])
    (hl : s.m_argumentMap.lookup key = some a) :
    calculateExpression A s = .ok (a.m_dvalue, s) := by
  have hg : s.m_math.getD (s.m_math.length - 1) [] = key := by
    rw [hm]
    simp
  have hlen : s.m_math.length > 0 := by rw [hm]; simp
  simp only [calculateExpression, h, List.length_nil, beq_self_eq_true, if_true, hlen, hg, hl]

end SingleOperand

/-! ### The operator loop of `pushToReversePolish` -/

section OperatorStep

variable {V : Type}

theorem getOperator_of_has (x : Str) (h : hasOperatorMap x = true) :
    ∃ o, getOperator x = some o := by
  simp only [getOperator, h, if_true]
  simp only [hasOperatorMap, Option.isSome_iff_exists] at h
  exact h

/-- The operator loop moves the entries of the stack that yield to the incoming operator, up
to the first that does not, to the RP text, and ends with the index 0. -/
theorem pushOperatorLoop_spec (prec : Nat) (stack : List Str)
    (hS : ∀ x ∈ stack, x = ['('] ∨ hasOperatorMap x = true) (fuel : Nat)
    (hf : stack.length + 1 ≤ fuel) (rp : Str) :
    pushOperatorLoop prec fuel 0 (firstParenthesis stack) stack rp
      = .ok (0, stack.dropWhile (yieldsTo prec),
          (stack.takeWhile (yieldsTo prec)).foldl
            (fun rp x => appendToReversePolishString x rp) rp) := by
  induction stack generalizing fuel rp with
  | nil =>
    cases fuel with
    | zero => omega
    | succ fuel => simp [pushOperatorLoop, firstParenthesis]
  | cons x rest ih =>
    cases fuel with
    | zero => omega
    | succ fuel =>
      by_cases hx : x = ['(']
      · subst hx
        simp [pushOperatorLoop, firstParenthesis, yieldsTo]
      · have hop : hasOperatorMap x = true := by
          rcases hS x (List.mem_cons_self _ _) with h | h
          · exact absurd h hx
          · exact h
        obtain ⟨o, ho⟩ := getOperator_of_has x hop
        have hfp : firstParenthesis (x :: rest) = firstParenthesis rest + 1 := by
          simp [firstParenthesis, hx]
        have hne : (x != ['(']) = true := by simpa using hx
        rw [pushOperatorLoop, hfp]
        simp only [Int.toNat_zero, Nat.zero_lt_succ, if_true, List.getElem?_cons_zero, ho]
        by_cases hp : o.precedence ≥ prec
        · have hq : yieldsTo prec x = true := by simp [yieldsTo, hne, ho, hp]
          rw [if_pos hp, List.takeWhile_cons_of_pos hq, List.dropWhile_cons_of_pos hq,
            List.foldl_cons]
          have hi : ((0 : Int) - 1) + 1 = 0 := by omega
          have he : eraseAt (x :: rest) 0 = rest := by simp [eraseAt]
          rw [hi, Nat.add_sub_cancel, he]
          exact ih (fun y hy => hS y (List.mem_cons_of_mem _ hy)) fuel
            (by simp only [List.length_cons] at hf; omega) _
        · have hq : yieldsTo prec x = false := by simp [yieldsTo, ho, hp]
          rw [if_neg hp, List.takeWhile_cons_of_neg (by simp [hq]),
            List.dropWhile_cons_of_neg (by simp [hq])]
          rfl

/-- The operator case of `pushToReversePolish`. -/
theorem pushToReversePolish_operator (o : Str) (k : Char) (s : MathExpression V) (op : Operator)
    (ho : getOperator o = some op)
    (hS : ∀ x ∈ s.m_RPstack, x = ['('] ∨ hasOperatorMap x = true) :
    pushToReversePolish o k s = .ok (true, flushIfLast k { s with
      m_reversePolish := (s.m_RPstack.takeWhile (yieldsTo op.precedence)).foldl
        (fun rp x => appendToReversePolishString x rp) s.m_reversePolish
      m_RPstack := o :: s.m_RPstack.dropWhile (yieldsTo op.precedence) }) := by
  have hh : hasOperatorMap o = true := by
    by_contra hc
    simp [getOperator, hc] at ho
  unfold pushToReversePolish
  simp only [hh, Bool.true_eq_false, beq_iff_eq, Bool.and_false, Bool.false_eq_true, if_false,
    if_true, ho]
  rw [pushOperatorLoop_spec op.precedence s.m_RPstack hS _ (le_refl _)]
  simp [insertAt]

end OperatorStep

/-! ### Characters the reader skips -/

section Skipped

variable {V : Type}

theorem isSkippedChar_facts (c : Char) (h : isSkippedChar c = true) :
    c.isAlpha = false ∧ c.isDigit = false ∧ c ≠ '.' ∧ isSpecialCharacter c = false
      ∧ c ≠ '+' ∧ c ≠ '-' ∧ c ≠ 'e' := by
  simp only [isSkippedChar, Bool.and_eq_true, Bool.not_eq_true', bne_iff_ne, ne_eq] at h
  obtain ⟨⟨⟨h1, h2⟩, h3⟩, h4⟩ := h
  refine ⟨h1, h2, h3, h4, ?_, ?_, ?_⟩
  · rintro rfl; revert h4; decide
  · rintro rfl; revert h4; decide
  · rintro rfl; revert h1; decide

/-- A trip of the main loop on a skipped character after the first position makes no push and
leaves the pending token as it is. -/
theorem lexStep_skipped (rpre : List Char) (c : Char) (p : Pending) (hr : rpre ≠ [])
    (hc : isSkippedChar c = true) : lexStep rpre c p = some ([], p) := by
  obtain ⟨h1, h2, h3, h4, h5, h6, h7⟩ := isSkippedChar_facts c hc
  rcases rpre with _ | ⟨p1, rp⟩
  · exact absurd rfl hr
  · cases p <;> simp [lexStep, h1, h2, h3, h4, h5, h6, h7, Pending.isNumber]

/-- The reader on a text that starts with a skipped character, after the first position. -/
theorem lexAll_skipped (rpre : List Char) (c : Char) (rest : List Char) (p : Pending)
    (hr : rpre ≠ []) (hc : isSkippedChar c = true) :
    lexAll rpre (c :: rest) p = lexAll (c :: rpre) rest p := by
  rw [lexAll, lexStep_skipped rpre c p hr hc]
  simp only []
  cases lexAll (c :: rpre) rest p with
  | none => rfl
  | some r => simp

/-- The RP text of two runs of letters with a skipped character between them: the one
identifier they make together. -/
theorem skipped_joined_rp (a b : Str) (c : Char) (ha : a ≠ [])
    (hab : isIdentifier (a ++ b) = true) (hc : isSkippedChar c = true)
    (hclean : c ≠ ' ' ∧ c ≠ '\t') (fuel : Nat) (hfuel : a.length + b.length + 1 ≤ fuel) :
    expressionToReversePolish fuel (setExpression (a ++ c :: b) (MathExpression.new V)) =
      .ok (true, withRP { MathExpression.new V with m_expression := a ++ c :: b } (a ++ b) []) := by
  obtain ⟨h1, h2, h3, h4, h5, h6, h7⟩ := isSkippedChar_facts c hc
  have hop : isOperand (a ++ b) = true := by simp [isOperand, hab]
  have hletters : ∀ ch ∈ a ++ b, ch.isAlpha = true := ((isIdentifier_iff (a ++ b)).1 hab).2.1
  have hquiet : ∀ ch ∈ a ++ c :: b, isSpecialNoParenthesis ch = false := by
    intro ch hch
    simp only [List.mem_append, List.mem_cons] at hch
    rcases hch with hch | rfl | hch
    · exact isSpecialNoParenthesis_of_not_special ch
        (not_special_of_isAlpha ch (hletters ch (List.mem_append_left _ hch)))
    · exact isSpecialNoParenthesis_of_not_special ch h4
    · exact isSpecialNoParenthesis_of_not_special ch
        (not_special_of_isAlpha ch (hletters ch (List.mem_append_right _ hch)))
  apply expressionToReversePolish_fresh fuel _ _ [] (.alpha (a ++ b))
  · intro ch hch
    simp only [List.mem_append, List.mem_cons] at hch
    rcases hch with hch | rfl | hch
    · exact operand_clean (a ++ b) hop ch (List.mem_append_left _ hch)
    · exact hclean
    · exact operand_clean (a ++ b) hop ch (List.mem_append_right _ hch)
  · apply prepassSplit_mono (0 + (a ++ c :: b).length) _ _ _ _ fuel
      (by simp only [List.length_append, List.length_cons]; omega)
    have h := prepassSplit_run (a ++ c :: b) 0 [] [] quietHead_nil hquiet
    simp only [List.append_nil] at h
    rw [h]
    simp [prepassSplit]
  · rcases a with _ | ⟨a0, a1⟩
    · exact absurd rfl ha
    · have ha0 : a0.isAlpha = true := hletters a0 (by simp)
      have hfirst : lexStep [] a0 .idle = some ([], .alpha [a0]) := by
        simp [lexStep, ha0, Pending.isNumber, Pending.pushes, signAfterParenthesis]
      rw [List.cons_append, lexAll, hfirst]
      simp only []
      rw [lexAll_append, lexAll_alpha a1 [a0] [a0]
        (fun ch hch => hletters ch (by simp [hch]))]
      simp only []
      rw [lexAll_skipped _ c b _ (by simp) hc, lexAll_alpha b _ _
        (fun ch hch => hletters ch (by simp [hch]))]
      simp
  · intro s0 h1 h2
    have hp : Pending.alpha (a ++ b) = operandPending (a ++ b) := by
      rcases a with _ | ⟨a0, a1⟩
      · exact absurd rfl ha
      · have ha0 : a0.isAlpha = true := hletters a0 (by simp)
        simp [operandPending, charAt, ha0]
    rw [List.nil_append, hp, applyPushes_operand_last (a ++ b) hop, h1, h2, appendRP_nil]
    rfl

end Skipped

/-! ### Runs of signs between two operands -/

section SignRuns

variable {V : Type}

theorem foldSign_sign (z c : Char) : foldSign z c = '+' ∨ foldSign z c = '-' := by
  unfold foldSign
  split_ifs <;> simp

/-- A trip of the pre-pass on a sign after a sign folds the two. -/
theorem prepassSplit_fold (fuel : Nat) (z c : Char) (rp rest : List Char)
    (hz : z = '+' ∨ z = '-') (hc : c = '+' ∨ c = '-') :
    prepassSplit (fuel + 1) (z :: rp) (c :: rest) = prepassSplit fuel (foldSign z c :: rp) rest := by
  rcases hz with rfl | rfl <;> rcases hc with rfl | rfl <;> simp [prepassSplit, foldSign]

/-- The pre-pass folds a run of signs after a sign into one sign. -/
theorem prepassSplit_sign_run (run : List Char) (hrun : ∀ c ∈ run, c = '+' ∨ c = '-')
    (fuel : Nat) (z : Char) (hz : z = '+' ∨ z = '-') (rp rest : List Char) :
    prepassSplit (fuel + run.length) (z :: rp) (run ++ rest)
      = prepassSplit fuel (run.foldl foldSign z :: rp) rest := by
  induction run generalizing z with
  | nil => rfl
  | cons c run ih =>
    have h1 : fuel + (c :: run).length = (fuel + run.length) + 1 := by
      rw [List.length_cons]
      rfl
    rw [h1, List.cons_append, prepassSplit_fold _ z c rp _ hz (hrun c (by simp)),
      ih (fun x hx => hrun x (by simp [hx])) _ (foldSign_sign z c)]
    rfl

/-- The fold of a run of signs is the sign by parity. -/
theorem foldl_foldSign (run : List Char) (hrun : ∀ c ∈ run, c = '+' ∨ c = '-') (z : Char)
    (hz : z = '+' ∨ z = '-') : run.foldl foldSign z = paritySign (z :: run) := by
  induction run generalizing z with
  | nil => rcases hz with rfl | rfl <;> rfl
  | cons c run ih =>
    rw [List.foldl_cons, ih (fun x hx => hrun x (by simp [hx])) _ (foldSign_sign z c)]
    have hc := hrun c (by simp)
    unfold paritySign
    rcases hz with rfl | rfl <;> rcases hc with rfl | rfl <;>
      (simp only [foldSign, List.count_cons, if_true, if_false, beq_self_eq_true,
        reduceCtorEq, (by decide : ('+' == '-') = false), (by decide : ('-' == '+') = false),
        (by decide : ('+' : Char) ≠ '-'), (by decide : ('-' : Char) ≠ '+'),
        Bool.false_eq_true, Nat.add_zero]
       try (split_ifs <;> first | rfl | omega))

theorem paritySign_sign (run : List Char) : paritySign run = '+' ∨ paritySign run = '-' := by
  unfold paritySign
  split_ifs <;> simp

/-- The RP text of a text that the pre-pass turns into `a z b`, for operands `a` and `b` and a
sign `z`. -/
theorem sign_rp_of_prepass (a b text : Str) (z : Char) (ha : isOperand a = true)
    (hb : isOperand b = true) (hz : z = '+' ∨ z = '-') (fuel : Nat)
    (hclean : ∀ c ∈ text, c ≠ ' ' ∧ c ≠ '\t')
    (hpre : prepassSplit fuel [] text = .ok (a ++ z :: b)) :
    expressionToReversePolish fuel (setExpression text (MathExpression.new V)) =
      .ok (true, withRP { MathExpression.new V with m_expression := a ++ z :: b }
        (a ++ ' ' :: b ++ [' ', z]) []) := by
  have hzs : isSpecialCharacter z = true := by rcases hz with rfl | rfl <;> decide
  have hzd : z.isDigit = false := by rcases hz with rfl | rfl <;> decide
  have hzo : hasOperatorMap [z] = true := by rcases hz with rfl | rfl <;> decide
  have hane := isOperand_ne_nil a ha
  apply expressionToReversePolish_fresh fuel _ _ ((operandPending a).pushes ++ [([z], 's')])
    (operandPending b)
  · exact hclean
  · exact hpre
  · rw [lexAll_append, lexAll_operand_start a ha]
    simp only [List.append_nil]
    have hst := lexStep_special_after_operand a [] z ha hzs
    simp only [List.append_nil] at hst
    rw [lexAll_cons, hst]
    simp only []
    rw [lexAll_operand_after b z a.reverse [z] hb hzd
      (by simpa using signAfterParenthesis_operand z a [] ha)]
    simp
  · intro s0 h1 h2
    rw [List.append_assoc, applyPushes_operand a ha, h1, h2, appendRP_nil]
    simp only [List.singleton_append, applyPushes]
    rw [pushIgnore_operator_front [z] _ hzo (Or.inl rfl)]
    simp only [withRP_withRP, withRP_reversePolish, withRP_RPstack, List.append_eq,
      List.nil_append]
    rw [applyPushes_operand_last b hb]
    simp [appendRP_ne_nil, hane]

/-- The pre-pass on two operands with a run of signs between them. -/
theorem prepassSplit_run_between (a b run : Str) (ha : isOperand a = true)
    (hb : isOperand b = true) (hne : run ≠ []) (hrun : ∀ c ∈ run, c = '+' ∨ c = '-')
    (fuel : Nat) (hfuel : a.length + run.length + b.length ≤ fuel) :
    prepassSplit fuel [] (a ++ (run ++ b)) = .ok (a ++ paritySign run :: b) := by
  rcases run with _ | ⟨z, run⟩
  · exact absurd rfl hne
  · have hz := hrun z (by simp)
    have hrun2 : ∀ c ∈ run, c = '+' ∨ c = '-' := fun c hc => hrun c (by simp [hc])
    apply prepassSplit_mono ((((0 + b.length) + run.length) + 1) + a.length) _ _ _ _ fuel
      (by simp only [List.length_cons] at hfuel; omega)
    rw [prepassSplit_run a _ [] _ quietHead_nil (isOperand_quiet a ha), List.cons_append,
      prepassSplit_step _ _ _ _ (quietHead_reverse_operand a [] ha),
      prepassSplit_sign_run run hrun2 _ z hz, foldl_foldSign run hrun2 z hz]
    have hlast := prepassSplit_operand b 0 (paritySign (z :: run) :: (a.reverse ++ [])) [] hb
      (Or.inr ⟨_, _, rfl, by
        rcases paritySign_sign (z :: run) with h | h <;> rw [h] <;> rfl⟩)
    simp only [List.append_nil] at hlast ⊢
    rw [hlast]
    simp [prepassSplit]

end SignRuns

/-! ### A sign after `(` and a sign at the start -/

section Signed

variable {V : Type}

theorem sign_facts (z : Char) (hz : z = '+' ∨ z = '-') :
    isSpecialCharacter z = true ∧ z.isDigit = false ∧ z.isAlpha = false
      ∧ hasOperatorMap [z] = true ∧ isArithmeticChar z = true ∧ z ≠ ' ' ∧ z ≠ '\t'
      ∧ (z == '+' || z == '-') = true := by
  rcases hz with rfl | rfl <;> decide

/-- The pre-pass leaves a sign and an operand between parentheses as they are. -/
theorem prepassSplit_signed (t : Str) (z : Char) (ht : isOperand t = true)
    (hz : z = '+' ∨ z = '-') (fuel : Nat) (hfuel : t.length + 3 ≤ fuel) :
    prepassSplit fuel [] ('(' :: z :: (t ++ [')'])) = .ok ('(' :: z :: (t ++ [')'])) := by
  apply prepassSplit_mono ((((0 + 1) + t.length) + 1) + 1) _ _ _ _ fuel (by omega)
  rw [prepassSplit_step _ _ _ _ quietHead_nil,
    prepassSplit_step _ _ _ _ ((quietHead_cons _ _).2 (by decide)),
    prepassSplit_operand t _ _ _ ht (Or.inr ⟨z, _, rfl, (sign_facts z hz).2.2.2.2.1⟩),
    prepassSplit_after_operand t _ _ ')' _ ht]
  simp [prepassSplit]

/-- The pre-pass leaves a sign and an operand at the start as they are. -/
theorem prepassSplit_leading (t : Str) (z : Char) (ht : isOperand t = true)
    (hz : z = '+' ∨ z = '-') (fuel : Nat) (hfuel : t.length + 1 ≤ fuel) :
    prepassSplit fuel [] (z :: t) = .ok (z :: t) := by
  apply prepassSplit_mono ((0 + t.length) + 1) _ _ _ _ fuel (by omega)
  rw [prepassSplit_step _ _ _ _ quietHead_nil]
  have h := prepassSplit_operand t 0 [z] [] ht (Or.inr ⟨z, _, rfl, (sign_facts z hz).2.2.2.2.1⟩)
  simp only [List.append_nil] at h
  rw [h]
  simp [prepassSplit]

theorem signBetweenParentheses_close (rpre : List Char) :
    signBetweenParentheses ')' rpre = false := by
  rcases rpre with _ | ⟨p1, _ | ⟨p2, rp⟩⟩ <;> simp [signBetweenParentheses]

/-- A sign right after `(` starts a number. -/
theorem lexStep_sign_after_open (z : Char) (hz : z = '+' ∨ z = '-') (rpre : List Char)
    (p : Pending) (hp : p.isNumber = false) :
    lexStep ('(' :: rpre) z p = some (p.pushes, .number [z]) := by
  rcases hz with rfl | rfl <;> simp [lexStep, hp]

/-- A letter other than `e` after `(` and a sign: the sign is pushed, then the text `0`. -/
theorem lexStep_letter_after_sign (z d : Char) (hz : z = '+' ∨ z = '-') (rpre : List Char)
    (hd : d.isAlpha = true) (hde : d ≠ 'e') :
    lexStep (z :: '(' :: rpre) d (.number [z])
      = some ([([z], 'n'), (['0'], 'n')], .alpha [d]) := by
  rcases hz with rfl | rfl <;>
    simp [lexStep, hd, hde, Pending.isNumber, Pending.pushes, signAfterParenthesis]

/-- A digit or a point after `(` and a sign goes on with the number the sign started. -/
theorem lexStep_digit_after_sign (z d : Char) (rpre : List Char)
    (hd : d.isDigit = true ∨ d = '.') :
    lexStep (z :: '(' :: rpre) d (.number [z]) = some ([], .number [z, d]) := by
  have hda : d.isAlpha = false := by
    rcases hd with hd | rfl
    · exact not_isAlpha_of_isDigit d hd
    · decide
  have hds : isSpecialCharacter d = false := by
    rcases hd with hd | rfl
    · exact not_special_of_isDigit d hd
    · decide
  rcases hd with hd | rfl
  · simp [lexStep, hda, hds, hd, Pending.isNumber]
  · simp [lexStep, hda, hds, Pending.isNumber]

/-- A `(` after `(` and a sign: the sign is pushed, then the text `0`. -/
theorem lexStep_open_after_sign (z : Char) (hz : z = '+' ∨ z = '-') (rpre : List Char) :
    lexStep (z :: '(' :: rpre) '(' (.number [z])
      = some ([([z], 'n'), (['0'], 'n')], .special ['(']) := by
  rcases hz with rfl | rfl <;>
    simp [lexStep, Pending.isNumber, Pending.pushes, signBetweenParentheses,
      isSpecialCharacter, specialChars]

/-- A sign at the very start: the text `0` is pushed. -/
theorem lexStep_sign_first (z : Char) (hz : z = '+' ∨ z = '-') :
    lexStep [] z .idle = some ([(['0'], 'n')], .special [z]) := by
  rcases hz with rfl | rfl <;> simp [lexStep, Pending.isNumber]

/-- Pushing a sign flagged as a number puts it on the stack as an operator. -/
theorem pushIgnore_sign_number (z : Char) (hz : z = '+' ∨ z = '-') (s : MathExpression V)
    (hst : s.m_RPstack = [] ∨ s.m_RPstack.head? = some ['(']) :
    pushIgnore [z] 'n' s = .ok (withRP s s.m_reversePolish ([z] :: s.m_RPstack)) := by
  have hop := (sign_facts z hz).2.2.2.1
  have hfp : firstParenthesis s.m_RPstack = 0 := by
    rcases hst with h | h
    · rw [h]; rfl
    · rcases hs : s.m_RPstack with _ | ⟨x, r⟩
      · rfl
      · rw [hs] at h
        simp only [List.head?_cons, Option.some.injEq] at h
        simp [firstParenthesis, h]
  obtain ⟨o, ho⟩ := getOperator_of_has [z] hop
  simp [pushIgnore, pushToReversePolish, hop, ho, hfp, pushOperatorLoop, flushIfLast, withRP,
    insertAt]

theorem pushIgnore_sign_number_onto (z : Char) (hz : z = '+' ∨ z = '-') (s : MathExpression V)
    (rp : Str) (stk : List Str) (hst : stk = [] ∨ stk.head? = some ['(']) :
    pushIgnore [z] 'n' (withRP s rp stk) = .ok (withRP s rp ([z] :: stk)) := by
  simpa using pushIgnore_sign_number z hz (withRP s rp stk) hst

/-- The RP text of `(zt)` for a sign `z` and an identifier `t` that does not start with `e`:
`0 t z`. -/
theorem signed_identifier_rp (t : Str) (z : Char) (ht : isIdentifier t = true)
    (he : charAt t 0 ≠ 'e') (hz : z = '+' ∨ z = '-') (fuel : Nat) (hfuel : t.length + 3 ≤ fuel) :
    expressionToReversePolish fuel
        (setExpression ('(' :: z :: (t ++ [')'])) (MathExpression.new V)) =
      .ok (true, withRP { MathExpression.new V with m_expression := '(' :: z :: (t ++ [')']) }
        (rpText [['0'], t, [z]]) []) := by
  have hop : isOperand t = true := by simp [isOperand, ht]
  obtain ⟨hz1, hz2, hz3, hz4, hz5, hz6, hz7, hz8⟩ := sign_facts z hz
  have hletters := ((isIdentifier_iff t).1 ht).2.1
  apply expressionToReversePolish_fresh fuel _ _
    ((['('], 's') :: ([z], 'n') :: (['0'], 'n') :: (operandPending t).pushes) (.special [')'])
  · intro c hc
    simp only [List.mem_append, List.mem_cons, List.mem_singleton, List.not_mem_nil,
      or_false] at hc
    rcases hc with rfl | rfl | hc | rfl
    · decide
    · exact ⟨hz6, hz7⟩
    · exact operand_clean t hop c hc
    · decide
  · exact prepassSplit_signed t z hop hz fuel hfuel
  · rcases t with _ | ⟨t0, t1⟩
    · exact absurd rfl (isOperand_ne_nil [] hop)
    · have ht0 : t0.isAlpha = true := hletters t0 (by simp)
      have hfirst : lexStep [] '(' .idle = some ([], .special ['(']) := by
        simp [lexStep, Pending.isNumber]
      have hp : operandPending (t0 :: t1) = .alpha (t0 :: t1) := by
        simp [operandPending, charAt, ht0]
      rw [lexAll, hfirst]
      simp only []
      rw [lexAll, lexStep_sign_after_open z hz [] (.special ['(']) rfl]
      simp only []
      rw [List.cons_append, lexAll, lexStep_letter_after_sign z t0 hz [] ht0 he]
      simp only []
      rw [lexAll_append, lexAll_alpha t1 _ [t0] (fun x hx => hletters x (by simp [hx]))]
      simp only []
      have hst := lexStep_special_after_operand (t0 :: t1) [z, '('] ')' hop (by decide)
      rw [hp] at hst
      simp only [List.reverse_cons, List.append_assoc, List.singleton_append,
        List.nil_append, List.cons_append] at hst ⊢
      rw [lexAll, hst]
      simp [lexAll, Pending.pushes, hp]
  · intro s0 h1 h2
    have hs0 : s0 = withRP s0 [] [] := by rw [← h1, ← h2]; rfl
    rw [hs0]
    simp only [List.cons_append, applyPushes, pushIgnore_open, withRP_withRP,
      withRP_reversePolish, withRP_RPstack]
    rw [pushIgnore_sign_number_onto z hz _ _ [['(']] (Or.inr rfl)]
    simp only [withRP_withRP, withRP_reversePolish, withRP_RPstack]
    rw [pushIgnore_operand ['0'] 'n' _ (by decide) (Or.inr rfl)]
    simp only [withRP_withRP, withRP_reversePolish, withRP_RPstack, appendRP_nil,
      List.append_eq]
    rw [applyPushes_operand t hop]
    simp only [Pending.lastPushes, applyPushes, withRP_withRP, withRP_reversePolish,
      withRP_RPstack]
    rw [pushIgnore_close_last [[z]] [] _ rfl (by
      intro x hx
      rw [List.mem_singleton] at hx
      rw [hx]
      rcases hz with rfl | rfl <;> decide)]
    simp [appendRP_ne_nil, rpText, appendToReversePolishString]

/-- The RP text of `(zn)` for a sign `z` and an unsigned number `n`: the one token `zn`. -/
theorem signed_number_rp (n : Str) (z : Char) (hn : isUnsignedNumber n = true)
    (hz : z = '+' ∨ z = '-') (fuel : Nat) (hfuel : n.length + 3 ≤ fuel) :
    expressionToReversePolish fuel
        (setExpression ('(' :: z :: (n ++ [')'])) (MathExpression.new V)) =
      .ok (true, withRP { MathExpression.new V with m_expression := '(' :: z :: (n ++ [')']) }
        (z :: n) []) := by
  have hop : isOperand n = true := by simp [isOperand, hn]
  obtain ⟨hz1, hz2, hz3, hz4, hz5, hz6, hz7, hz8⟩ := sign_facts z hz
  obtain ⟨hne, hchars⟩ := isUnsignedNumber_chars n hn
  have hnop : hasOperatorMap (z :: n) = false := by
    by_contra hc
    have := (hasOperatorMap_iff (z :: n)).1 (by simpa using hc)
    rcases n with _ | ⟨n0, n1⟩
    · exact hne rfl
    · rcases hz with rfl | rfl <;> simp at this
  apply expressionToReversePolish_fresh fuel _ _
    [(['('], 's'), (z :: n, 'n')] (.special [')'])
  · intro c hc
    simp only [List.mem_append, List.mem_cons, List.mem_singleton, List.not_mem_nil,
      or_false] at hc
    rcases hc with rfl | rfl | hc | rfl
    · decide
    · exact ⟨hz6, hz7⟩
    · exact operand_clean n hop c hc
    · decide
  · exact prepassSplit_signed n z hop hz fuel hfuel
  · have hfirst : lexStep [] '(' .idle = some ([], .special ['(']) := by
      simp [lexStep, Pending.isNumber]
    rw [lexAll, hfirst]
    simp only []
    rw [lexAll, lexStep_sign_after_open z hz [] (.special ['(']) rfl]
    simp only []
    rw [lexAll_append, lexAll_number n _ [z] (by simp) hchars]
    simp only []
    have hclose : lexStep (n.reverse ++ [z, '(']) ')' (.number ([z] ++ n))
        = some ([([z] ++ n, 'n')], .special [')']) := by
      rcases hrev : (n.reverse ++ [z, '(']) with _ | ⟨p1, rp⟩
      · simp at hrev
      · simp [lexStep, Pending.isNumber, Pending.pushes, signBetweenParentheses_close,
          isSpecialCharacter, specialChars]
    rw [lexAll, hclose]
    simp [lexAll, Pending.pushes]
  · intro s0 h1 h2
    have hs0 : s0 = withRP s0 [] [] := by rw [← h1, ← h2]; rfl
    rw [hs0]
    simp only [List.cons_append, List.nil_append, applyPushes, pushIgnore_open,
      Pending.lastPushes, withRP_withRP, withRP_reversePolish, withRP_RPstack]
    rw [pushIgnore_operand (z :: n) 'n' _ hnop (Or.inr rfl)]
    simp only [withRP_withRP, withRP_reversePolish, withRP_RPstack, appendRP_nil]
    rw [pushIgnore_close_last [] [] _ rfl (by simp)]
    simp

/-- The RP text of `zt` for a sign `z` at the very start and an operand `t`: `0 t z`. -/
theorem leading_sign_rp (t : Str) (z : Char) (ht : isOperand t = true)
    (hz : z = '+' ∨ z = '-') (fuel : Nat) (hfuel : t.length + 1 ≤ fuel) :
    expressionToReversePolish fuel (setExpression (z :: t) (MathExpression.new V)) =
      .ok (true, withRP { MathExpression.new V with m_expression := z :: t }
        (rpText [['0'], t, [z]]) []) := by
  obtain ⟨hz1, hz2, hz3, hz4, hz5, hz6, hz7, hz8⟩ := sign_facts z hz
  apply expressionToReversePolish_fresh fuel _ _ [(['0'], 'n'), ([z], 's')] (operandPending t)
  · intro c hc
    simp only [List.mem_cons] at hc
    rcases hc with rfl | hc
    · exact ⟨hz6, hz7⟩
    · exact operand_clean t ht c hc
  · exact prepassSplit_leading t z ht hz fuel hfuel
  · rw [lexAll, lexStep_sign_first z hz]
    simp only []
    rw [lexAll_operand_after t z [] [z] ht hz2 rfl]
    simp
  · intro s0 h1 h2
    have hs0 : s0 = withRP s0 [] [] := by rw [← h1, ← h2]; rfl
    rw [hs0]
    simp only [List.cons_append, List.nil_append, applyPushes]
    rw [pushIgnore_operand ['0'] 'n' _ (by decide) (Or.inr rfl)]
    simp only [withRP_withRP, withRP_reversePolish, withRP_RPstack, appendRP_nil]
    rw [pushIgnore_operator_onto [z] _ _ _ hz4 (Or.inl rfl)]
    simp only [List.append_eq, List.nil_append]
    rw [applyPushes_operand_last t ht]
    simp [appendRP_ne_nil, rpText, appendToReversePolishString]

end Signed

/-! ### The frame of `calculateExpression` -/

section CalcFrame

variable {V : Type} (A : Arith V)

theorem SameShape.shape_refl (s : MathExpression V) : SameShape s s := ⟨rfl, rfl, rfl, rfl, rfl⟩

theorem SameShape.shape_trans {s s2 s3 : MathExpression V} (h : SameShape s s2)
    (h2 : SameShape s2 s3) : SameShape s s3 :=
  ⟨h.1.trans h2.1, h.2.1.trans h2.2.1, h.2.2.1.trans h2.2.2.1, h.2.2.2.1.trans h2.2.2.2.1,
    h.2.2.2.2.trans h2.2.2.2.2⟩

theorem skeleton_mapSetDouble (m : List (Str × Argument V)) (k : Str) (v : V) :
    (mapSetDouble m k v).map entrySkeleton = m.map entrySkeleton := by
  unfold mapSetDouble
  rw [List.map_map]
  apply List.map_congr_left
  intro kv _
  simp only [Function.comp, entrySkeleton]
  split_ifs <;> rfl

theorem skeleton_storeAll (writes : List (Str × V)) (m : List (Str × Argument V)) :
    (storeAll writes m).map entrySkeleton = m.map entrySkeleton := by
  induction writes generalizing m with
  | nil => rfl
  | cons w rest ih =>
    show (storeAll rest (mapSetDouble m w.1 w.2)).map entrySkeleton = _
    rw [ih, skeleton_mapSetDouble]

theorem mapKeys_of_skeleton (m m2 : List (Str × Argument V))
    (h : m.map entrySkeleton = m2.map entrySkeleton) : mapKeys m = mapKeys m2 := by
  have h2 := congrArg (List.map (fun x : Str × Str × EntityType × Int => x.1)) h
  simpa [mapKeys, List.map_map, Function.comp, entrySkeleton] using h2

/-- Entries that differ in the `double` values only are found under the same keys, with the
same types. -/
theorem lookup_of_skeleton (m m2 : List (Str × Argument V))
    (h : m.map entrySkeleton = m2.map entrySkeleton) (key : Str) (a : Argument V)
    (ha : m.lookup key = some a) :
    ∃ a2, m2.lookup key = some a2 ∧ a2.m_type = a.m_type ∧ a2.m_name = a.m_name
      ∧ a2.m_ivalue = a.m_ivalue := by
  induction m generalizing m2 with
  | nil => cases ha
  | cons kv m ih =>
    cases m2 with
    | nil => cases h
    | cons kv2 m2 =>
      simp only [List.map_cons, List.cons.injEq] at h
      obtain ⟨hh, ht⟩ := h
      simp only [entrySkeleton, Prod.mk.injEq] at hh
      obtain ⟨a2, b2⟩ := kv2
      obtain ⟨a1, b1⟩ := kv
      simp only at hh
      obtain ⟨hk, hn, hty, hi⟩ := hh
      subst hk
      rw [List.lookup_cons] at ha ⊢
      cases hkey : (key == a1) with
      | true =>
        rw [hkey] at ha
        simp only [Option.some.injEq] at ha
        subst ha
        exact ⟨b2, rfl, hty.symm, hn.symm, hi.symm⟩
      | false =>
        rw [hkey] at ha
        exact ih m2 ht ha

theorem lookup_storeAll_of_not_mem (writes : List (Str × V)) (m : List (Str × Argument V))
    (key : Str) (h : key ∉ writes.map Prod.fst) : (storeAll writes m).lookup key = m.lookup key := by
  induction writes generalizing m with
  | nil => rfl
  | cons w rest ih =>
    simp only [List.map_cons, List.mem_cons, not_or] at h
    show (storeAll rest (mapSetDouble m w.1 w.2)).lookup key = _
    rw [ih _ h.2, lookup_mapSetDouble_ne _ _ _ _ h.1]

/-- A call of `generateDoubleValue` that returns has stored the value it returns, once, through
`m_myArg`. -/
theorem generateDoubleValue_store (g : Generator) (m m1 : List (Str × Argument V)) (v : V)
    (h : generateDoubleValue A g m = .ok (v, m1)) :
    ∃ key, g.m_myArg = some key ∧ m1 = mapSetDouble m key v := by
  unfold generateDoubleValue at h
  simp only [] at h
  repeat' split at h
  all_goals first
    | (cases h; done)
    | (cases h
       exact ⟨_, by assumption, rfl⟩)

/-- A run of the generators that returns has made one store per generator, in order, through
the pointers `m_myArg`. -/
theorem runGenerators_stores (G : List Generator) (d v : V) (m m1 : List (Str × Argument V))
    (h : runGenerators A G d m = .ok (v, m1)) :
    ∃ vals : List V, vals.length = G.length ∧ (generatorWrites G).length = G.length
      ∧ m1 = storeAll ((generatorWrites G).zip vals) m := by
  induction G generalizing d m with
  | nil =>
    rw [runGenerators] at h
    cases h
    exact ⟨[], rfl, rfl, rfl⟩
  | cons g rest ih =>
    rw [runGenerators] at h
    cases hg : generateDoubleValue A g m with
    | error e => rw [hg] at h; cases h
    | ok r =>
      obtain ⟨v1, m2⟩ := r
      rw [hg] at h
      obtain ⟨key, hkey, hm2⟩ := generateDoubleValue_store A g m m2 v1 hg
      obtain ⟨vals, hlen, hw, hm1⟩ := ih v1 m2 h
      refine ⟨v1 :: vals, by simp [hlen], ?_, ?_⟩
      · simp [generatorWrites, List.filterMap_cons, hkey] at hw ⊢
        exact hw
      · rw [hm1, hm2]
        simp [generatorWrites, List.filterMap_cons, hkey, storeAll]

/-- The frame of `calculateExpression`, for every object: a call that returns leaves the
object as it is but for the `double` values of the argument map, and these it changes by one
store per generator, in order, through the pointers `m_myArg`. -/
theorem calculateExpression_stores (s s3 : MathExpression V) (v : V)
    (h : calculateExpression A s = .ok (v, s3)) :
    ∃ vals : List V, vals.length = (generatorWrites s.m_generatorVec).length
      ∧ s3 = { s with
          m_argumentMap := storeAll ((generatorWrites s.m_generatorVec).zip vals)
            s.m_argumentMap } := by
  unfold calculateExpression at h
  split_ifs at h with h0 h1
  · cases hl : s.m_argumentMap.lookup (s.m_math.getD (s.m_math.length - 1) []) with
    | none => rw [hl] at h; cases h
    | some a =>
      rw [hl] at h
      cases h
      have hG : s.m_generatorVec = [] := by
        simpa using h0
      refine ⟨[], by simp [hG, generatorWrites], ?_⟩
      have hst : storeAll ((generatorWrites s.m_generatorVec).zip ([] : List V))
          s.m_argumentMap = s.m_argumentMap := by
        rw [hG]
        rfl
      rw [hst]
  · cases h
    have hG : s.m_generatorVec = [] := by
      simpa using h0
    refine ⟨[], by simp [hG, generatorWrites], ?_⟩
    have hst : storeAll ((generatorWrites s.m_generatorVec).zip ([] : List V))
        s.m_argumentMap = s.m_argumentMap := by
      rw [hG]
      rfl
    rw [hst]
  · cases hr : runGenerators A s.m_generatorVec A.zero s.m_argumentMap with
    | error e => rw [hr] at h; cases h
    | ok r =>
      obtain ⟨v1, m1⟩ := r
      rw [hr] at h
      cases h
      obtain ⟨vals, hlen, hw, hm1⟩ := runGenerators_stores A _ _ _ _ _ hr
      exact ⟨vals, by rw [hlen, hw], by rw [hm1]⟩

theorem calculateExpression_shape (s s3 : MathExpression V) (v : V)
    (h : calculateExpression A s = .ok (v, s3)) : SameShape s s3 := by
  obtain ⟨vals, _, hs3⟩ := calculateExpression_stores A s s3 v h
  rw [hs3]
  exact ⟨rfl, rfl, rfl, rfl, (skeleton_storeAll _ _).symm⟩

theorem setVariableDouble_shape (k : Str) (v : V) (s : MathExpression V) :
    SameShape s (setVariableDouble k v s) := by
  unfold setVariableDouble
  split_ifs
  · exact ⟨rfl, rfl, rfl, rfl, (skeleton_mapSetDouble _ _ _).symm⟩
  · exact SameShape.shape_refl s

theorem runCalls_shape (calls : List (Call V)) (s s1 : MathExpression V)
    (h : runCalls A calls s = .ok s1) : SameShape s s1 := by
  induction calls generalizing s with
  | nil =>
    rw [runCalls] at h
    cases h
    exact SameShape.shape_refl _
  | cons c rest ih =>
    cases c with
    | set k v =>
      rw [runCalls] at h
      exact (setVariableDouble_shape k v s).shape_trans (ih _ h)
    | calculate =>
      rw [runCalls] at h
      cases hc : calculateExpression A s with
      | error e => rw [hc] at h; cases h
      | ok r =>
        obtain ⟨v, s2⟩ := r
        rw [hc] at h
        exact (calculateExpression_shape A s s2 v hc).shape_trans (ih _ h)

/-! #### The names of the generators below the capacity -/

theorem generateArgOp_distinct {keys0 : List Str} (s : MathExpression V) (k1 k2 : Str)
    (hs : (MapInv A s.m_argumentMap ∧ Wired A keys0 s)
      ∧ GeneratedEntries keys0 s ∧ FreshNames keys0 s) :
    GeneratedEntries keys0 (generateArgOp A k1 k2 s)
      ∧ FreshNames keys0 (generateArgOp A k1 k2 s) := by
  obtain ⟨⟨hM, hW⟩, hE, hF⟩ := hs
  constructor
  · intro kv hkv
    have hkv2 : kv ∈ mapInsert s.m_argumentMap (createNewUserConstantName s)
        ⟨createNewUserConstantName s, .ArgumentGeneratedFromOneArg, 0, A.zero⟩ := hkv
    unfold mapInsert at hkv2
    split_ifs at hkv2
    · exact hE kv hkv2
    · rcases List.mem_append.1 hkv2 with h | h
      · exact hE kv h
      · rw [List.mem_singleton.1 h]
        exact Or.inr (Or.inl rfl)
  · intro hc
    have hc2 : (mapInsert s.m_argumentMap (createNewUserConstantName s)
        ⟨createNewUserConstantName s, .ArgumentGeneratedFromOneArg, 0, A.zero⟩).countP counted
          < nameCapacity := hc
    have hc3 : s.m_argumentMap.countP counted < nameCapacity :=
      lt_of_le_of_lt (countP_mapInsert_le _ _ _) hc2
    obtain ⟨hnd, hdis⟩ := hF hc3
    have hfresh := hM.fresh_name A hc3
    rw [← createNewUserConstantName_eq A s hM] at hfresh
    have hnot := fun h => hfresh ((hW.1 _).2 h)
    show (generatorNames (s.m_generatorVec ++ [_])).Nodup
      ∧ ∀ n ∈ generatorNames (s.m_generatorVec ++ [_]), n ∉ keys0
    rw [generatorNames_append]
    refine ⟨?_, ?_⟩
    · rw [List.nodup_append]
      refine ⟨hnd, List.nodup_singleton _, ?_⟩
      intro a ha hb
      rw [List.mem_singleton] at hb
      subst hb
      exact hnot (Or.inr ha)
    · intro n hn
      rcases List.mem_append.1 hn with h | h
      · exact hdis n h
      · rw [List.mem_singleton] at h
        subst h
        exact fun hk => hnot (Or.inl hk)

theorem generateArgArgOp_distinct {keys0 : List Str} (s : MathExpression V) (k1 k2 k3 : Str)
    (hs : (MapInv A s.m_argumentMap ∧ Wired A keys0 s)
      ∧ GeneratedEntries keys0 s ∧ FreshNames keys0 s) :
    GeneratedEntries keys0 (generateArgArgOp A k1 k2 k3 s)
      ∧ FreshNames keys0 (generateArgArgOp A k1 k2 k3 s) := by
  obtain ⟨⟨hM, hW⟩, hE, hF⟩ := hs
  constructor
  · intro kv hkv
    have hkv2 : kv ∈ mapInsert s.m_argumentMap (createNewUserConstantName s)
        ⟨createNewUserConstantName s, .ArgumentGeneratedFromTwoArg, 0, A.zero⟩ := hkv
    unfold mapInsert at hkv2
    split_ifs at hkv2
    · exact hE kv hkv2
    · rcases List.mem_append.1 hkv2 with h | h
      · exact hE kv h
      · rw [List.mem_singleton.1 h]
        exact Or.inr (Or.inr rfl)
  · intro hc
    have hc2 : (mapInsert s.m_argumentMap (createNewUserConstantName s)
        ⟨createNewUserConstantName s, .ArgumentGeneratedFromTwoArg, 0, A.zero⟩).countP counted
          < nameCapacity := hc
    have hc3 : s.m_argumentMap.countP counted < nameCapacity :=
      lt_of_le_of_lt (countP_mapInsert_le _ _ _) hc2
    obtain ⟨hnd, hdis⟩ := hF hc3
    have hfresh := hM.fresh_name A hc3
    rw [← createNewUserConstantName_eq A s hM] at hfresh
    have hnot := fun h => hfresh ((hW.1 _).2 h)
    show (generatorNames (s.m_generatorVec ++ [_])).Nodup
      ∧ ∀ n ∈ generatorNames (s.m_generatorVec ++ [_]), n ∉ keys0
    rw [generatorNames_append]
    refine ⟨?_, ?_⟩
    · rw [List.nodup_append]
      refine ⟨hnd, List.nodup_singleton _, ?_⟩
      intro a ha hb
      rw [List.mem_singleton] at hb
      subst hb
      exact hnot (Or.inr ha)
    · intro n hn
      rcases List.mem_append.1 hn with h | h
      · exact hdis n h
      · rw [List.mem_singleton] at h
        subst h
        exact fun hk => hnot (Or.inl hk)

/-- Every program `expandMathExpression` builds on what `setArgumentMap` left: the entries
made by the expansion have generated types, and below the capacity the names of the generators
are distinct and none of them is a key `setArgumentMap` made. -/
theorem compiled_distinct (fuel : Nat) (s0 s2 : MathExpression V) (b : Bool)
    (hexp : expandMathExpression A fuel (setArgumentMap A s0).2 = .ok (b, s2)) :
    WiredFresh A (mapKeys (setArgumentMap A s0).2.m_argumentMap) s2 := by
  obtain ⟨hS, hg, _⟩ := setArgumentMap_entries A s0
  refine expandLoop_induct A
    (WiredFresh A (mapKeys (setArgumentMap A s0).2.m_argumentMap))
    (fun i s hs _ => expandStep_preserves A
      (WiredFresh A (mapKeys (setArgumentMap A s0).2.m_argumentMap))
      (fun _ _ h => h) (fun _ _ _ h => h)
      (fun s k1 k2 hs h1 h2 =>
        ⟨generateArgOp_wired A s k1 k2 hs.1 h1 h2, generateArgOp_distinct A s k1 k2 hs⟩)
      (fun s k1 k2 k3 hs h1 h2 h3 =>
        ⟨generateArgArgOp_wired A s k1 k2 k3 hs.1 h1 h2 h3,
          generateArgArgOp_distinct A s k1 k2 k3 hs⟩) i s hs)
    fuel 0 _ s2 b ⟨⟨hS.1, Wired.wired_base A _ hg⟩, ?_, ?_⟩ hexp
  · intro kv hkv
    exact Or.inl ((mem_mapKeys_iff _ _).2 ⟨kv, hkv, rfl⟩)
  · intro _
    rw [hg]
    exact ⟨List.nodup_nil, fun n hn => absurd hn (List.not_mem_nil n)⟩

theorem generatorWrites_eq_names (G : List Generator)
    (h : ∀ g ∈ G, g.m_myArg = some g.m_name) : generatorWrites G = generatorNames G := by
  induction G with
  | nil => rfl
  | cons g rest ih =>
    simp only [generatorWrites, generatorNames, List.filterMap_cons, List.map_cons,
      h g (List.mem_cons_self _ _)]
    exact congrArg _ (ih (fun g2 hg2 => h g2 (List.mem_cons_of_mem _ hg2)))

end CalcFrame

section CalcFrame2

variable {V : Type} (A : Arith V)

/-- An object with the shape of a program that `setArgumentMap` and `expandMathExpression`
built, both returning `true`, is evaluated without a fault, whatever its size. -/
theorem calc_safe_of_shape (fuel : Nat) (s0 s1 s2 s : MathExpression V)
    (hmap : setArgumentMap A s0 = (true, s1))
    (hexp : expandMathExpression A fuel s1 = .ok (true, s2)) (hsh : SameShape s2 s) :
    ∃ v s3, calculateExpression A s = .ok (v, s3) := by
  have hs1 : s1 = (setArgumentMap A s0).2 := by rw [hmap]
  have hexp2 := hexp
  rw [hs1] at hexp2
  obtain ⟨_, hW⟩ := compiled_wired A fuel s0 s2 true hexp2
  obtain ⟨_, _, hmath, hgen, hskel⟩ := hsh
  have hkeys : mapKeys s2.m_argumentMap = mapKeys s.m_argumentMap :=
    mapKeys_of_skeleton _ _ hskel
  unfold calculateExpression
  by_cases hG : s2.m_generatorVec = []
  · have hlen : (s.m_generatorVec.length == 0) = true := by rw [← hgen, hG]; rfl
    rw [if_pos hlen]
    rcases compiled_last_key A fuel s0 s1 s2 hmap hexp hG with h | h
    · have : ¬ s.m_math.length > 0 := by rw [← hmath, h]; simp
      rw [if_neg this]
      exact ⟨_, _, rfl⟩
    · by_cases hpos : s.m_math.length > 0
      · rw [if_pos hpos]
        rw [hmath, hkeys] at h
        have := (lookup_isSome_iff_mem_keys _ _).2 h
        rw [Option.isSome_iff_exists] at this
        obtain ⟨a, ha⟩ := this
        rw [ha]
        exact ⟨_, _, rfl⟩
      · rw [if_neg hpos]
        exact ⟨_, _, rfl⟩
  · have hlen : ¬ (s.m_generatorVec.length == 0) = true := by
      rw [← hgen]
      simpa using hG
    rw [if_neg hlen]
    obtain ⟨v, m1, hrun, _⟩ := runGenerators_safe A s.m_generatorVec s.m_argumentMap
      (by
        rw [← hgen, ← hkeys]
        exact hW.generators_safe A) A.zero
    rw [hrun]
    exact ⟨_, _, rfl⟩

/-- Calls on a program that `setArgumentMap` and `expandMathExpression` built, both returning
`true`, run through, whatever its size. -/
theorem runCalls_safe (fuel : Nat) (s0 s1 s2 : MathExpression V)
    (hmap : setArgumentMap A s0 = (true, s1))
    (hexp : expandMathExpression A fuel s1 = .ok (true, s2)) (calls : List (Call V))
    (s : MathExpression V) (hsh : SameShape s2 s) :
    ∃ s3, runCalls A calls s = .ok s3 := by
  induction calls generalizing s with
  | nil => exact ⟨s, rfl⟩
  | cons c rest ih =>
    cases c with
    | set k v =>
      rw [runCalls]
      exact ih _ (hsh.shape_trans (setVariableDouble_shape k v s))
    | calculate =>
      rw [runCalls]
      obtain ⟨v, s3, hc⟩ := calc_safe_of_shape A fuel s0 s1 s2 s hmap hexp hsh
      rw [hc]
      exact ih _ (hsh.shape_trans (calculateExpression_shape A s s3 v hc))

end CalcFrame2

/-! ### The depth of a postfix reader -/

section Depth

theorem depthStep_operand (n : Nat) (t : Str) (h : isOperator t = false) :
    depthStep n t = some (n + 1) := by
  simp [depthStep, isOperatorOneArg_false_of t h, isOperatorTwoArg_false_of t h]

theorem depthStep_one (n : Nat) (t : Str) (h : isOperatorOneArg t = true) :
    depthStep n t = if 1 ≤ n then some n else none := by
  simp [depthStep, h]

theorem depthStep_two (n : Nat) (t : Str) (h : isOperatorTwoArg t = true) :
    depthStep n t = if 2 ≤ n then some (n - 1) else none := by
  simp [depthStep, h, isOperatorTwoArg_not_one t h]

theorem depthStep_pos (n m : Nat) (t : Str) (h : depthStep n t = some m) : 1 ≤ m := by
  unfold depthStep at h
  split_ifs at h <;> simp only [Option.some.injEq] at h <;> omega

theorem depthRP_cons (t : Str) (ts : List Str) (n : Nat) :
    depthRP (t :: ts) n = (depthStep n t).bind (depthRP ts) := by
  rw [depthRP]
  cases depthStep n t <;> rfl

theorem depthRP_append (l1 l2 : List Str) (n : Nat) :
    depthRP (l1 ++ l2) n = (depthRP l1 n).bind (depthRP l2) := by
  induction l1 generalizing n with
  | nil => rfl
  | cons t l1 ih =>
    simp only [List.cons_append, depthRP]
    cases depthStep n t with
    | none => rfl
    | some n1 => exact ih n1

/-- A reader that has read an entity holds an entry. -/
theorem depthRP_pos (l : List Str) (n m : Nat) (h : depthRP l n = some m) (hl : l ≠ [] ∨ 1 ≤ n) :
    1 ≤ m := by
  induction l generalizing n with
  | nil =>
    simp only [depthRP, Option.some.injEq] at h
    rcases hl with hl | hl
    · exact absurd rfl hl
    · omega
  | cons t l ih =>
    simp only [depthRP] at h
    cases hs : depthStep n t with
    | none => rw [hs] at h; cases h
    | some n1 =>
      rw [hs] at h
      exact ih n1 h (Or.inr (depthStep_pos n n1 t hs))

theorem depthRP_zero (l : List Str) (h : depthRP l 0 = some 0) : l = [] := by
  by_contra hne
  have := depthRP_pos l 0 0 h (Or.inl hne)
  omega

/-- A run of arguments adds its length to the depth. -/
theorem depthRP_run (run : List Str) (n : Nat) (h : ∀ t ∈ run, isOperator t = false) :
    depthRP run n = some (n + run.length) := by
  induction run generalizing n with
  | nil => rfl
  | cons t run ih =>
    simp only [depthRP, depthStep_operand n t (h t (List.mem_cons_self _ _))]
    rw [ih _ (fun u hu => h u (List.mem_cons_of_mem _ hu))]
    simp only [List.length_cons]
    congr 1
    omega

/-- A sequence that is reduced to one entry and holds an operator ends with an operator. -/
theorem depthRP_last_operator (l : List Str) (y : Str) (h : depthRP (l ++ [y]) 0 = some 1)
    (hy : isOperator y = false) : l = [] := by
  rw [depthRP_append] at h
  cases hl : depthRP l 0 with
  | none => rw [hl] at h; cases h
  | some n =>
    rw [hl] at h
    have h2 : depthRP [y] n = some 1 := h
    rw [depthRP, depthStep_operand n y hy] at h2
    simp only [depthRP, Option.some.injEq] at h2
    have hn : n = 0 := by omega
    rw [hn] at hl
    exact depthRP_zero l hl

/-- The entities of the shape of the RP text have the depth of the RP text. -/
theorem depthRP_shape (toks math : List Str) (h : List.Forall₂ ShapeRel toks math) (n : Nat) :
    depthRP math n = depthRP toks n := by
  induction h generalizing n with
  | nil => rfl
  | @cons t t2 toks math hd _ ih =>
    have hstep : depthStep n t2 = depthStep n t := by
      rcases hd with ⟨_, h2⟩ | ⟨h1, h2⟩
      · rw [h2]
      · rw [depthStep_operand n t (by rw [isOperator, h1]),
          depthStep_operand n t2 (by rw [isOperator, h2])]
    simp only [depthRP, hstep]
    cases depthStep n t with
    | none => rfl
    | some n1 => exact ih n1

theorem getOperator_eq_none (t : Str) (h : isOperator t = false) : getOperator t = none := by
  rw [isOperator] at h
  simp [getOperator, h]

theorem operatorsOf_append (l1 l2 : List Str) :
    operatorsOf (l1 ++ l2) = operatorsOf l1 ++ operatorsOf l2 :=
  List.filterMap_append _ _ _

theorem operatorsOf_operand (t : Str) (h : isOperator t = false) : operatorsOf [t] = [] := by
  simp [operatorsOf, List.filterMap_cons, getOperator_eq_none t h]

theorem operatorsOf_run (run : List Str) (h : ∀ t ∈ run, isOperator t = false) :
    operatorsOf run = [] := by
  induction run with
  | nil => rfl
  | cons t run ih =>
    have e : t :: run = [t] ++ run := rfl
    rw [e, operatorsOf_append, operatorsOf_operand t (h t (List.mem_cons_self _ _)),
      ih (fun u hu => h u (List.mem_cons_of_mem _ hu))]
    rfl

theorem operatorsOf_operator (t : Str) (o : Operator) (h : getOperator t = some o) :
    operatorsOf [t] = [o] := by
  simp [operatorsOf, List.filterMap_cons, h]

theorem operatorsOf_shape (toks math : List Str) (h : List.Forall₂ ShapeRel toks math) :
    operatorsOf math = operatorsOf toks := by
  induction h with
  | nil => rfl
  | @cons t t2 toks math hd _ ih =>
    have e1 : t2 :: math = [t2] ++ math := rfl
    have e2 : t :: toks = [t] ++ toks := rfl
    rw [e1, e2, operatorsOf_append, operatorsOf_append, ih]
    rcases hd with ⟨_, h2⟩ | ⟨h1, h2⟩
    · rw [h2]
    · rw [operatorsOf_operand t (by rw [isOperator, h1]),
        operatorsOf_operand t2 (by rw [isOperator, h2])]

theorem countP_isOperator_shape (toks math : List Str) (h : List.Forall₂ ShapeRel toks math) :
    math.countP isOperator = toks.countP hasOperatorMap := by
  induction h with
  | nil => rfl
  | @cons t t2 toks math hd _ ih =>
    rw [List.countP_cons, List.countP_cons, ih]
    rcases hd with hd | hd
    · rw [hd.2, isOperator]
    · rw [isOperator, hd.1, hd.2]

theorem operatorsOf_length (l : List Str) : (operatorsOf l).length = l.countP isOperator := by
  induction l with
  | nil => rfl
  | cons t l ih =>
    have e : t :: l = [t] ++ l := rfl
    rw [e, operatorsOf_append, List.countP_append, List.length_append, ih]
    congr 1
    cases h : isOperator t with
    | false => rw [operatorsOf_operand t h]; simp [h]
    | true =>
      obtain ⟨o, ho⟩ := getOperator_of_has t h
      rw [operatorsOf_operator t o ho]
      simp [h]

/-- The types of the registered operators by arity. -/
theorem operator_type_one (t : Str) (o : Operator) (h : isOperatorOneArg t = true)
    (ho : getOperator t = some o) : o.m_type = .OperatorInDoubleOutDouble := by
  have hop : hasOperatorMap t = true := isOperator_of_one t h
  rcases (hasOperatorMap_iff t).1 hop with h1 | h1 | h1 | h1 | h1 | h1 | h1 | h1 | h1 | h1 | h1 <;>
    subst h1 <;> first
      | (cases (Option.some.inj ho); rfl)
      | exact absurd h (by decide)

theorem operator_type_two (t : Str) (o : Operator) (h : isOperatorTwoArg t = true)
    (ho : getOperator t = some o) : o.m_type = .OperatorInDoubleDoubleOutDouble := by
  have hop : hasOperatorMap t = true := isOperator_of_two t h
  rcases (hasOperatorMap_iff t).1 hop with h1 | h1 | h1 | h1 | h1 | h1 | h1 | h1 | h1 | h1 | h1 <;>
    subst h1 <;> first
      | (cases (Option.some.inj ho); rfl)
      | exact absurd h (by decide)

end Depth

/-! ### The steps of a pass, as far as the shape goes -/

section PassSteps

variable {V : Type} (A : Arith V)

theorem Pass.pass_mem_math {pre : List Str} {ops0 : List Operator} {tlast : Str}
    {done run rest out : List Str} {s : MathExpression V}
    (h : Pass A pre ops0 tlast done run rest out s) (t : Str)
    (ht : t ∈ out ++ run ++ rest) : t ∈ s.m_math := by
  rw [h.math]
  simp only [List.mem_append] at ht ⊢
  tauto

theorem Pass.pass_isArgument_of {pre : List Str} {ops0 : List Operator} {tlast : Str}
    {done run rest out : List Str} {s : MathExpression V}
    (h : Pass A pre ops0 tlast done run rest out s) (t : Str)
    (ht : t ∈ s.m_math) (hop : isOperator t = false) : isArgument A s t = true := by
  rcases h.inv.2.1 t ht with h1 | h1
  · rw [isOperator, h1] at hop
    cases hop
  · exact isArgument_of_key A s t h1

theorem depthRP_operator_first (t : Str) (rest : List Str) (ht : isOperator t = true)
    (m : Nat) : depthRP (t :: rest) 0 ≠ some m := by
  intro h
  rcases isOperator_arity t ht with h1 | h1
  · simp [depthRP, depthStep_one 0 t h1] at h
  · simp [depthRP, depthStep_two 0 t h1] at h

theorem depthRP_two_second (x t : Str) (rest : List Str) (hx : isOperator x = false)
    (ht : isOperatorTwoArg t = true) (m : Nat) : depthRP (x :: t :: rest) 0 ≠ some m := by
  intro h
  simp [depthRP, depthStep_operand 0 x hx, depthStep_two 1 t ht] at h

theorem Pass.pass_no_operator_first {pre : List Str} {ops0 : List Operator} {tlast : Str}
    {done rest out : List Str} {t : Str} {s : MathExpression V}
    (h : Pass A pre ops0 tlast done [] (t :: rest) out s)
    (ht : isOperator t = true) (ho : out = []) : False := by
  obtain ⟨core, hc, hd⟩ := h.core
  subst ho
  simp only [List.nil_append] at hc
  cases pre with
  | nil =>
    simp only [List.nil_append] at hc
    rw [← hc] at hd
    exact depthRP_operator_first t rest ht 1 hd
  | cons p pre1 =>
    simp only [List.cons_append, List.cons.injEq] at hc
    have := h.pre_args p (List.mem_cons_self _ _)
    rw [← hc.1, ht] at this
    cases this

theorem Pass.pass_no_two_after_one {pre : List Str} {ops0 : List Operator} {tlast : Str}
    {done rest out : List Str} {x t : Str} {s : MathExpression V}
    (h : Pass A pre ops0 tlast done [x] (t :: rest) out s)
    (ht : isOperatorTwoArg t = true) (ho : out = []) : False := by
  obtain ⟨core, hc, hd⟩ := h.core
  have hx : isOperator x = false := h.run_args x (by simp)
  have hop := isOperator_of_two t ht
  subst ho
  simp only [List.nil_append, List.singleton_append] at hc
  cases pre with
  | nil =>
    simp only [List.nil_append] at hc
    rw [← hc] at hd
    exact depthRP_two_second x t rest hx ht 1 hd
  | cons p pre1 =>
    cases pre1 with
    | nil =>
      simp only [List.cons_append, List.nil_append, List.cons.injEq] at hc
      rw [← hc.2] at hd
      exact depthRP_operator_first t rest hop 1 hd
    | cons q pre2 =>
      simp only [List.cons_append, List.cons.injEq] at hc
      have := h.pre_args q (by simp)
      rw [← hc.2.1, hop] at this
      cases this

/-- An argument entity joins the run. -/
theorem Pass.pass_operand {pre : List Str} {ops0 : List Operator} {tlast : Str}
    {done run rest out : List Str} {t : Str} {s : MathExpression V}
    (h : Pass A pre ops0 tlast done run (t :: rest) out s)
    (ht : isOperator t = false) : Pass A pre ops0 tlast done (run ++ [t]) rest out s := by
  have e : out ++ (run ++ [t]) ++ rest = out ++ run ++ t :: rest := by simp
  exact {
    math := by rw [h.math]; simp
    inv := h.inv
    run_args := by
      intro u hu
      rcases List.mem_append.1 hu with hu | hu
      · exact h.run_args u hu
      · rw [List.mem_singleton.1 hu]; exact ht
    boundary := h.boundary
    first := h.first
    pre_args := h.pre_args
    core := by rw [e]; exact h.core
    ops := by rw [e]; exact h.ops
    count := by rw [e]; exact h.count
    arity := h.arity
    last := by
      rcases h.last with hl | ⟨_, hr, _⟩
      · left; rw [e]; exact hl
      · cases hr }

/-- An operator right after an operator is copied. -/
theorem Pass.pass_copy1 {pre : List Str} {ops0 : List Operator} {tlast : Str}
    {done rest out : List Str} {t : Str} {s : MathExpression V}
    (h : Pass A pre ops0 tlast done [] (t :: rest) out s)
    (ht : isOperator t = true) :
    Pass A pre ops0 tlast (done ++ [t]) [] rest (out ++ [t])
      { s with m_math := s.m_math ++ [t] } := by
  have e : out ++ [t] ++ [] ++ rest = out ++ [] ++ t :: rest := by simp
  exact {
    math := by
      show s.m_math ++ [t] = _
      rw [h.math]; simp
    inv := h.inv.add_math A [t] (fun u hu => by
      rw [List.mem_singleton.1 hu]
      exact h.pass_mem_math A t (by simp))
    run_args := fun u hu => by cases hu
    boundary := Or.inr ⟨done, t, rfl, ht⟩
    first := fun hd => absurd hd (by simp)
    pre_args := h.pre_args
    core := by rw [e]; exact h.core
    ops := by rw [e]; exact h.ops
    count := by rw [e]; exact h.count
    arity := h.arity
    last := by
      rcases h.last with hl | ⟨_, hr, _⟩
      · left; rw [e]; exact hl
      · cases hr }

/-- An argument and a two-argument operator right after an operator are copied. -/
theorem Pass.pass_copy2 {pre : List Str} {ops0 : List Operator} {tlast : Str}
    {done rest out : List Str} {x t : Str} {s : MathExpression V}
    (h : Pass A pre ops0 tlast done [x] (t :: rest) out s)
    (ht : isOperator t = true) :
    Pass A pre ops0 tlast (done ++ [x, t]) [] rest (out ++ [x, t])
      { s with m_math := s.m_math ++ [x, t] } := by
  have e : out ++ [x, t] ++ [] ++ rest = out ++ [x] ++ t :: rest := by simp
  exact {
    math := by
      show s.m_math ++ [x, t] = _
      rw [h.math]; simp
    inv := h.inv.add_math A [x, t] (fun u hu => by
      simp only [List.mem_cons, List.mem_singleton, List.mem_nil_iff, or_false] at hu
      rcases hu with hu | hu
      · rw [hu]; exact h.pass_mem_math A x (by simp)
      · rw [hu]; exact h.pass_mem_math A t (by simp))
    run_args := fun u hu => by cases hu
    boundary := Or.inr ⟨done ++ [x], t, by simp, ht⟩
    first := fun hd => absurd hd (by simp)
    pre_args := h.pre_args
    core := by rw [e]; exact h.core
    ops := by rw [e]; exact h.ops
    count := by rw [e]; exact h.count
    arity := h.arity
    last := by
      rcases h.last with hl | ⟨_, hr, _⟩
      · left; rw [e]; exact hl
      · cases hr }

/-- The argument of a one-argument operator is not one of the surplus operands. -/
theorem core_split1 (pre core P rest : List Str) (y t : Str)
    (hpre : ∀ u ∈ pre, isOperator u = false) (ht : isOperatorOneArg t = true)
    (h : P ++ y :: t :: rest = pre ++ core) (hd : depthRP core 0 = some 1) :
    ∃ c0, P = pre ++ c0 ∧ core = c0 ++ y :: t :: rest := by
  have hop := isOperator_of_one t ht
  rcases List.append_eq_append_iff.1 h with ⟨a, ha, hb⟩ | ⟨c, hc, hb⟩
  · cases a with
    | nil =>
      simp only [List.append_nil, List.nil_append] at ha hb
      exact ⟨[], by simp [ha], by simp [hb]⟩
    | cons a0 a1 =>
      exfalso
      cases a1 with
      | nil =>
        simp only [List.cons_append, List.nil_append, List.cons.injEq] at hb
        rw [← hb.2] at hd
        exact depthRP_operator_first t rest hop 1 hd
      | cons a2 a3 =>
        simp only [List.cons_append, List.cons.injEq] at hb
        have := hpre a2 (by rw [ha]; simp)
        rw [← hb.2.1, hop] at this
        cases this
  · exact ⟨c, hc, hb⟩

/-- The arguments of a two-argument operator are not among the surplus operands. -/
theorem core_split2 (pre core P rest : List Str) (x y t : Str)
    (hpre : ∀ u ∈ pre, isOperator u = false) (hy : isOperator y = false)
    (ht : isOperatorTwoArg t = true)
    (h : P ++ x :: y :: t :: rest = pre ++ core) (hd : depthRP core 0 = some 1) :
    ∃ c0, P = pre ++ c0 ∧ core = c0 ++ x :: y :: t :: rest := by
  have hop := isOperator_of_two t ht
  rcases List.append_eq_append_iff.1 h with ⟨a, ha, hb⟩ | ⟨c, hc, hb⟩
  · cases a with
    | nil =>
      simp only [List.append_nil, List.nil_append] at ha hb
      exact ⟨[], by simp [ha], by simp [hb]⟩
    | cons a0 a1 =>
      exfalso
      cases a1 with
      | nil =>
        simp only [List.cons_append, List.nil_append, List.cons.injEq] at hb
        rw [← hb.2] at hd
        exact depthRP_two_second y t rest hy ht 1 hd
      | cons a2 a3 =>
        cases a3 with
        | nil =>
          simp only [List.cons_append, List.nil_append, List.cons.injEq] at hb
          rw [← hb.2.2] at hd
          exact depthRP_operator_first t rest hop 1 hd
        | cons a4 a5 =>
          simp only [List.cons_append, List.cons.injEq] at hb
          have := hpre a4 (by rw [ha]; simp)
          rw [← hb.2.2.1, hop] at this
          cases this
  · exact ⟨c, hc, hb⟩

theorem depthRP_reduce1 (c0 rest : List Str) (y t nm : Str) (hy : isOperator y = false)
    (ht : isOperatorOneArg t = true) (hnm : isOperator nm = false) :
    depthRP (c0 ++ nm :: rest) 0 = depthRP (c0 ++ y :: t :: rest) 0 := by
  rw [depthRP_append, depthRP_append]
  cases depthRP c0 0 with
  | none => rfl
  | some n =>
    show depthRP (nm :: rest) n = depthRP (y :: t :: rest) n
    simp only [depthRP_cons, depthStep_operand n nm hnm, depthStep_operand n y hy,
      depthStep_one (n + 1) t ht, if_pos (Nat.le_add_left 1 n), Option.some_bind]

theorem depthRP_reduce2 (c0 rest : List Str) (x y t nm : Str) (hx : isOperator x = false)
    (hy : isOperator y = false) (ht : isOperatorTwoArg t = true) (hnm : isOperator nm = false) :
    depthRP (c0 ++ nm :: rest) 0 = depthRP (c0 ++ x :: y :: t :: rest) 0 := by
  rw [depthRP_append, depthRP_append]
  cases depthRP c0 0 with
  | none => rfl
  | some n =>
    show depthRP (nm :: rest) n = depthRP (x :: y :: t :: rest) n
    simp only [depthRP_cons, depthStep_operand n nm hnm, depthStep_operand n x hx,
      depthStep_operand (n + 1) y hy, depthStep_two (n + 1 + 1) t ht,
      if_pos (Nat.le_add_left 2 n), Option.some_bind, Nat.add_sub_cancel]

/-- The reduced operator was the last entity: nothing but the surplus operands is left in
front of it. -/
theorem core_last1 (c0 : List Str) (y t : Str) (hy : isOperator y = false)
    (ht : isOperatorOneArg t = true) (hd : depthRP (c0 ++ [y, t]) 0 = some 1) : c0 = [] := by
  rw [depthRP_append] at hd
  cases hc : depthRP c0 0 with
  | none => rw [hc] at hd; cases hd
  | some n =>
    rw [hc] at hd
    have hd2 : depthRP [y, t] n = some 1 := hd
    simp only [depthRP_cons, depthStep_operand n y hy, depthStep_one (n + 1) t ht,
      if_pos (Nat.le_add_left 1 n), Option.some_bind, depthRP, Option.some.injEq] at hd2
    have hn : n = 0 := by omega
    rw [hn] at hc
    exact depthRP_zero c0 hc

theorem core_last2 (c0 : List Str) (x y t : Str) (hx : isOperator x = false)
    (hy : isOperator y = false) (ht : isOperatorTwoArg t = true)
    (hd : depthRP (c0 ++ [x, y, t]) 0 = some 1) : c0 = [] := by
  rw [depthRP_append] at hd
  cases hc : depthRP c0 0 with
  | none => rw [hc] at hd; cases hd
  | some n =>
    rw [hc] at hd
    have hd2 : depthRP [x, y, t] n = some 1 := hd
    simp only [depthRP_cons, depthStep_operand n x hx, depthStep_operand (n + 1) y hy,
      depthStep_two (n + 1 + 1) t ht, if_pos (Nat.le_add_left 2 n), Option.some_bind, depthRP,
      Option.some.injEq, Nat.add_sub_cancel] at hd2
    have hn : n = 0 := by omega
    rw [hn] at hc
    exact depthRP_zero c0 hc

theorem countP_isOperator_run (run : List Str) (h : ∀ t ∈ run, isOperator t = false) :
    run.countP isOperator = 0 := by
  rw [List.countP_eq_zero]
  intro t ht
  rw [h t ht]
  exact Bool.false_ne_true

theorem getLast?_append_ne_nil {α : Type} (l1 l2 l3 : List α) (h : l3 ≠ []) :
    (l1 ++ l3).getLast? = (l2 ++ l3).getLast? := by
  rw [List.getLast?_append_of_ne_nil _ h, List.getLast?_append_of_ne_nil _ h]

theorem countP_isOperator_one (t : Str) (h : isOperator t = true) :
    [t].countP isOperator = 1 := by
  simp [List.countP_cons, h]

theorem countP_isOperator_none (t : Str) (h : isOperator t = false) :
    [t].countP isOperator = 0 := by
  simp [List.countP_cons, h]

theorem operatorsOf_cons_operand (t : Str) (l : List Str) (h : isOperator t = false) :
    operatorsOf (t :: l) = operatorsOf l := by
  simp [operatorsOf, List.filterMap_cons, getOperator_eq_none t h]

theorem operatorsOf_cons_operator (t : Str) (l : List Str) (o : Operator)
    (h : getOperator t = some o) : operatorsOf (t :: l) = o :: operatorsOf l := by
  simp [operatorsOf, List.filterMap_cons, h]

theorem generatorOperators_concat (G : List Generator) (g : Generator) (o : Operator)
    (h : g.m_op = some o) : generatorOperators (G ++ [g]) = generatorOperators G ++ [o] := by
  simp [generatorOperators, List.filterMap_append, h]

theorem isOperator_newName (s : MathExpression V) (hM : MapInv A s.m_argumentMap) :
    isOperator (createNewUserConstantName s) = false := by
  rw [createNewUserConstantName_eq A s hM]
  exact hasOperatorMap_nameOf _

/-- A one-argument operator after an argument is reduced to a generator, whatever the names
are. -/
theorem Pass.pass_reduce1 {pre : List Str} {ops0 : List Operator} {tlast : Str}
    {done r0 rest out : List Str} {x t : Str} {s : MathExpression V}
    (h : Pass A pre ops0 tlast done (r0 ++ [x]) (t :: rest) out s)
    (ht : isOperatorOneArg t = true) :
    Pass A pre ops0 tlast (done ++ (r0 ++ [x]) ++ [t]) [] rest
        (out ++ r0 ++ [createNewUserConstantName s])
        (generateArgOp A x t { s with m_math := s.m_math ++ r0 })
      ∧ (generateArgOp A x t { s with m_math := s.m_math ++ r0 }).m_generatorVec.length
          = s.m_generatorVec.length + 1 := by
  have hop := isOperator_of_one t ht
  have hxo : isOperator x = false := h.run_args x (by simp)
  have hx : isArgument A s x = true := h.pass_isArgument_of A x (h.pass_mem_math A x (by simp)) hxo
  have hnm := isOperator_newName A s h.inv.1
  obtain ⟨o, f, ho, _⟩ := isOperatorOneArg_spec t ht
  obtain ⟨p, hp, _, _⟩ := argPointer_ok A s h.inv.1 x hx
  obtain ⟨core, hc, hd⟩ := h.core
  have e2 : out ++ (r0 ++ [x]) ++ t :: rest = (out ++ r0) ++ x :: t :: rest := by simp
  have e1 : out ++ r0 ++ [createNewUserConstantName s] ++ [] ++ rest
      = (out ++ r0) ++ createNewUserConstantName s :: rest := by simp
  rw [e2] at hc
  obtain ⟨c0, hP, hcore⟩ := core_split1 pre core (out ++ r0) rest x t h.pre_args ht hc hd
  have hr0 : ∀ u ∈ r0, isOperator u = false := fun u hu => h.run_args u (by simp [hu])
  refine ⟨?_, by simp [generateArgOp]⟩
  exact {
    math := by
      show s.m_math ++ r0 ++ [createNewUserConstantName s] = _
      rw [h.math]; simp
    inv := generateArgOp_inv A s h.inv (s.m_math ++ r0)
      (fun u hu => by
        rcases List.mem_append.1 hu with hu | hu
        · exact h.inv.2.1 u hu
        · exact h.inv.2.1 u (h.pass_mem_math A u (by simp [hu]))) x t hx ht
    run_args := fun u hu => by cases hu
    boundary := Or.inr ⟨done ++ (r0 ++ [x]), t, rfl, hop⟩
    first := fun hd => absurd hd (by simp)
    pre_args := h.pre_args
    core := by
      refine ⟨c0 ++ createNewUserConstantName s :: rest, ?_, ?_⟩
      · rw [e1, hP, List.append_assoc]
      · rw [depthRP_reduce1 c0 rest x t _ hxo ht hnm, ← hcore]
        exact hd
    ops := by
      show List.Perm (generatorOperators (s.m_generatorVec ++ [_]) ++ operatorsOf _) ops0
      have h1 := h.ops
      rw [e2, operatorsOf_append, operatorsOf_cons_operand x _ hxo,
        operatorsOf_cons_operator t rest o ho] at h1
      rw [e1, operatorsOf_append, operatorsOf_cons_operand _ rest hnm,
        generatorOperators_concat _ _ o ho, List.append_assoc]
      exact (List.Perm.append_left _
        (@List.perm_middle _ o (operatorsOf (out ++ r0)) (operatorsOf rest)).symm).trans h1
    count := by
      show (out ++ r0 ++ [_] ++ [] ++ rest).countP isOperator
        + (s.m_generatorVec ++ [_]).length = ops0.length
      have h1 := h.count
      have e : out ++ (r0 ++ [x]) ++ t :: rest = out ++ r0 ++ [x] ++ [t] ++ rest := by simp
      rw [e] at h1
      simp only [List.countP_append, countP_isOperator_none x hxo,
        countP_isOperator_one t hop] at h1
      simp only [List.countP_append, List.countP_nil, List.length_append,
        List.length_cons, List.length_nil, countP_isOperator_none _ hnm]
      omega
    arity := by
      intro g hg
      rcases List.mem_append.1 hg with hg | hg
      · exact h.arity g hg
      · rw [List.mem_singleton.1 hg]
        refine ⟨o, ho, Or.inl ⟨rfl, operator_type_one t o ht ho, ?_, rfl⟩⟩
        show argPointer A s x ≠ none
        rw [hp]
        exact Option.some_ne_none p
    last := by
      rcases h.last with hl | ⟨hr, _⟩
      · rcases List.eq_nil_or_concat rest with hrest | ⟨r1, z, hrest⟩
        · right
          subst hrest
          have hcl : c0 = [] := core_last1 c0 x t hxo ht (by rw [← hcore]; exact hd)
          have htl : tlast = t := by
            rw [e2] at hl
            have : ((out ++ r0) ++ [x, t]).getLast? = some t := by
              rw [List.getLast?_append_of_ne_nil _ (by simp)]; rfl
            rw [this] at hl
            exact (Option.some.inj hl).symm
          refine ⟨rfl, rfl, ?_, s.m_generatorVec, _, rfl, ?_, ?_⟩
          · rw [List.countP_append, hP, hcl, List.append_nil,
              countP_isOperator_run pre h.pre_args, countP_isOperator_none _ hnm]
          · rw [htl]
          · rw [List.getLast?_append_of_ne_nil _ (by simp)]; rfl
        · left
          have hne : rest ≠ [] := by rw [hrest]; simp
          rw [e1]
          rw [e2] at hl
          have ea : (out ++ r0) ++ createNewUserConstantName s :: rest
              = (out ++ r0 ++ [createNewUserConstantName s]) ++ rest := by simp
          have eb : (out ++ r0) ++ x :: t :: rest = (out ++ r0 ++ [x, t]) ++ rest := by simp
          rw [ea, getLast?_append_ne_nil _ (out ++ r0 ++ [x, t]) rest hne, ← eb]
          exact hl
      · exact absurd hr (by simp) }

/-- A two-argument operator after two arguments is reduced to a generator, whatever the names
are. -/
theorem Pass.pass_reduce2 {pre : List Str} {ops0 : List Operator} {tlast : Str}
    {done r0 rest out : List Str} {x y t : Str} {s : MathExpression V}
    (h : Pass A pre ops0 tlast done (r0 ++ [x, y]) (t :: rest) out s)
    (ht : isOperatorTwoArg t = true) :
    Pass A pre ops0 tlast (done ++ (r0 ++ [x, y]) ++ [t]) [] rest
        (out ++ r0 ++ [createNewUserConstantName s])
        (generateArgArgOp A x y t { s with m_math := s.m_math ++ r0 })
      ∧ (generateArgArgOp A x y t { s with m_math := s.m_math ++ r0 }).m_generatorVec.length
          = s.m_generatorVec.length + 1 := by
  have hop := isOperator_of_two t ht
  have hxo : isOperator x = false := h.run_args x (by simp)
  have hyo : isOperator y = false := h.run_args y (by simp)
  have hx : isArgument A s x = true := h.pass_isArgument_of A x (h.pass_mem_math A x (by simp)) hxo
  have hy : isArgument A s y = true := h.pass_isArgument_of A y (h.pass_mem_math A y (by simp)) hyo
  have hnm := isOperator_newName A s h.inv.1
  obtain ⟨o, f, ho, _⟩ := isOperatorTwoArg_spec t ht
  obtain ⟨p1, hp1, _, _⟩ := argPointer_ok A s h.inv.1 x hx
  obtain ⟨p2, hp2, _, _⟩ := argPointer_ok A s h.inv.1 y hy
  obtain ⟨core, hc, hd⟩ := h.core
  have e2 : out ++ (r0 ++ [x, y]) ++ t :: rest = (out ++ r0) ++ x :: y :: t :: rest := by simp
  have e1 : out ++ r0 ++ [createNewUserConstantName s] ++ [] ++ rest
      = (out ++ r0) ++ createNewUserConstantName s :: rest := by simp
  rw [e2] at hc
  obtain ⟨c0, hP, hcore⟩ :=
    core_split2 pre core (out ++ r0) rest x y t h.pre_args hyo ht hc hd
  refine ⟨?_, by simp [generateArgArgOp]⟩
  exact {
    math := by
      show s.m_math ++ r0 ++ [createNewUserConstantName s] = _
      rw [h.math]; simp
    inv := generateArgArgOp_inv A s h.inv (s.m_math ++ r0)
      (fun u hu => by
        rcases List.mem_append.1 hu with hu | hu
        · exact h.inv.2.1 u hu
        · exact h.inv.2.1 u (h.pass_mem_math A u (by simp [hu]))) x y t hx hy ht
    run_args := fun u hu => by cases hu
    boundary := Or.inr ⟨done ++ (r0 ++ [x, y]), t, rfl, hop⟩
    first := fun hd => absurd hd (by simp)
    pre_args := h.pre_args
    core := by
      refine ⟨c0 ++ createNewUserConstantName s :: rest, ?_, ?_⟩
      · rw [e1, hP, List.append_assoc]
      · rw [depthRP_reduce2 c0 rest x y t _ hxo hyo ht hnm, ← hcore]
        exact hd
    ops := by
      show List.Perm (generatorOperators (s.m_generatorVec ++ [_]) ++ operatorsOf _) ops0
      have h1 := h.ops
      rw [e2, operatorsOf_append, operatorsOf_cons_operand x _ hxo,
        operatorsOf_cons_operand y _ hyo, operatorsOf_cons_operator t rest o ho] at h1
      rw [e1, operatorsOf_append, operatorsOf_cons_operand _ rest hnm,
        generatorOperators_concat _ _ o ho, List.append_assoc]
      exact (List.Perm.append_left _
        (@List.perm_middle _ o (operatorsOf (out ++ r0)) (operatorsOf rest)).symm).trans h1
    count := by
      show (out ++ r0 ++ [_] ++ [] ++ rest).countP isOperator
        + (s.m_generatorVec ++ [_]).length = ops0.length
      have h1 := h.count
      have e : out ++ (r0 ++ [x, y]) ++ t :: rest
          = out ++ r0 ++ [x] ++ [y] ++ [t] ++ rest := by simp
      rw [e] at h1
      simp only [List.countP_append, countP_isOperator_none x hxo,
        countP_isOperator_none y hyo, countP_isOperator_one t hop] at h1
      simp only [List.countP_append, List.countP_nil, List.length_append,
        List.length_cons, List.length_nil, countP_isOperator_none _ hnm]
      omega
    arity := by
      intro g hg
      rcases List.mem_append.1 hg with hg | hg
      · exact h.arity g hg
      · rw [List.mem_singleton.1 hg]
        refine ⟨o, ho, Or.inr ⟨rfl, operator_type_two t o ht ho, ?_, ?_⟩⟩
        · show argPointer A s x ≠ none
          rw [hp1]
          exact Option.some_ne_none p1
        · show argPointer A s y ≠ none
          rw [hp2]
          exact Option.some_ne_none p2
    last := by
      rcases h.last with hl | ⟨hr, _⟩
      · rcases List.eq_nil_or_concat rest with hrest | ⟨r1, z, hrest⟩
        · right
          subst hrest
          have hcl : c0 = [] := core_last2 c0 x y t hxo hyo ht (by rw [← hcore]; exact hd)
          have htl : tlast = t := by
            rw [e2] at hl
            have : ((out ++ r0) ++ [x, y, t]).getLast? = some t := by
              rw [List.getLast?_append_of_ne_nil _ (by simp)]; rfl
            rw [this] at hl
            exact (Option.some.inj hl).symm
          refine ⟨rfl, rfl, ?_, s.m_generatorVec, _, rfl, ?_, ?_⟩
          · rw [List.countP_append, hP, hcl, List.append_nil,
              countP_isOperator_run pre h.pre_args, countP_isOperator_none _ hnm]
          · rw [htl]
          · rw [List.getLast?_append_of_ne_nil _ (by simp)]; rfl
        · left
          have hne : rest ≠ [] := by rw [hrest]; simp
          rw [e1]
          rw [e2] at hl
          have ea : (out ++ r0) ++ createNewUserConstantName s :: rest
              = (out ++ r0 ++ [createNewUserConstantName s]) ++ rest := by simp
          have eb : (out ++ r0) ++ x :: y :: t :: rest
              = (out ++ r0 ++ [x, y, t]) ++ rest := by simp
          rw [ea, getLast?_append_ne_nil _ (out ++ r0 ++ [x, y, t]) rest hne, ← eb]
          exact hl
      · exact absurd hr (by simp) }

end PassSteps
section PassShape

variable {V : Type} (A : Arith V)

/-- The rest of a pass of the loop of `expandMathExpression`, whatever the names are: the loop
reads it to its end, keeps the shape of the entities, and builds a generator if the pass has
copied nothing so far and there is an operator left. -/
theorem pass_shape (pre : List Str) (ops0 : List Operator) (tlast : Str) (rest : List Str) :
    ∀ (done run out : List Str) (s : MathExpression V) (f : Nat),
      Pass A pre ops0 tlast done run rest out s →
      ∃ done1 run1 out1 s1,
        expandLoop A (f + rest.length) (done ++ run).length s
            = expandLoop A f (done ++ run ++ rest).length s1
          ∧ Pass A pre ops0 tlast done1 run1 [] out1 s1
          ∧ done1 ++ run1 = done ++ run ++ rest
          ∧ s.m_generatorVec.length ≤ s1.m_generatorVec.length
          ∧ (out = [] → (∃ t ∈ rest, isOperator t = true) →
              s.m_generatorVec.length < s1.m_generatorVec.length)
          ∧ (out1 ++ run1).length ≤ (out ++ run ++ rest).length := by
  induction rest with
  | nil =>
    intro done run out s f h
    refine ⟨done, run, out, s, by simp, h, by simp, le_refl _, ?_, by simp⟩
    rintro _ ⟨t, ht, _⟩
    cases ht
  | cons t rest ih =>
    intro done run out s f h
    have hfuel : f + (t :: rest).length = (f + rest.length) + 1 := by
      simp only [List.length_cons]; omega
    rw [hfuel]
    by_cases hop : isOperator t = true
    · rcases List.eq_nil_or_concat run with hr | ⟨r1, y, hr⟩
      · -- no argument since the last operator
        subst hr
        rcases h.boundary with hd | ⟨d, o, hd, ho⟩
        · exact absurd (h.pass_no_operator_first A hop (h.first hd)) id
        · have hm : s.m_math = d ++ [o] ++ t :: (rest ++ out) := by
            rw [h.math, hd]; simp
          have hstep := expandLoop_copy1 A (f + rest.length) d (rest ++ out) o t s h.inv.1 hm
            ho hop
          obtain ⟨done1, run1, out1, s1, hrun, hC, hd1, hE, _, hlen⟩ :=
            ih (done ++ [t]) [] (out ++ [t]) _ f (h.pass_copy1 A hop)
          refine ⟨done1, run1, out1, s1, ?_, hC, ?_, hE, ?_, ?_⟩
          · have e1 : (done ++ []).length = (d ++ [o]).length := by rw [hd]; simp only [List.length_append, List.length_cons, List.length_nil]
            have e2 : (d ++ [o]).length + 1 = (done ++ [t] ++ []).length := by rw [hd]; simp only [List.length_append, List.length_cons, List.length_nil]
            have e3 : (done ++ [] ++ t :: rest).length = (done ++ [t] ++ [] ++ rest).length := by
              simp only [List.length_append, List.length_cons, List.length_nil]; omega
            rw [e1, hstep, e2, hrun, e3]
          · rw [hd1]; simp
          · intro hout _
            exact absurd (h.pass_no_operator_first A hop hout) id
          · refine le_trans hlen (le_of_eq ?_)
            simp
      · have hr2 : run = r1 ++ [y] := by simpa using hr
        subst hr2
        rcases isOperator_arity t hop with h1 | h2
        · -- a one-argument operator after an argument
          have hm : s.m_math = done ++ r1 ++ [y] ++ t :: (rest ++ out) := by
            rw [h.math]; simp
          have hyo : isOperator y = false := h.run_args y (by simp)
          have hy : isArgument A s y = true :=
            h.pass_isArgument_of A y (h.pass_mem_math A y (by simp)) hyo
          have hstep := expandLoop_reduce1 A (f + rest.length) done r1 (rest ++ out) y t s hm
            h.boundary (fun u hu => h.run_args u (by simp [hu])) hy h1
          obtain ⟨hC0, hG0⟩ := h.pass_reduce1 A h1
          obtain ⟨done1, run1, out1, s1, hrun, hC, hd1, hE, _, hlen⟩ :=
            ih (done ++ (r1 ++ [y]) ++ [t]) [] (out ++ r1 ++ [createNewUserConstantName s]) _ f hC0
          refine ⟨done1, run1, out1, s1, ?_, hC, ?_, (by omega), ?_, ?_⟩
          · have e1 : (done ++ (r1 ++ [y])).length = (done ++ r1 ++ [y]).length := by simp only [List.length_append, List.length_cons, List.length_nil]; omega
            have e2 : (done ++ r1 ++ [y]).length + 1
                = (done ++ (r1 ++ [y]) ++ [t] ++ []).length := by 
              simp only [List.length_append, List.length_cons, List.length_nil]; omega
            have e3 : (done ++ (r1 ++ [y]) ++ t :: rest).length
                = (done ++ (r1 ++ [y]) ++ [t] ++ [] ++ rest).length := by 
              simp only [List.length_append, List.length_cons, List.length_nil]; omega
            rw [e1, hstep, e2, hrun, e3]
          · rw [hd1]; simp
          · intro _ _
            omega
          · refine le_trans hlen ?_
            simp only [List.length_append, List.length_cons, List.length_nil]
            omega
        · rcases List.eq_nil_or_concat r1 with hr1 | ⟨r0, x, hr1⟩
          · -- a two-argument operator after one argument
            subst hr1
            have h' : Pass A pre ops0 tlast done [y] (t :: rest) out s := by simpa using h
            rcases h.boundary with hd | ⟨d, o, hd, ho⟩
            · exact absurd (h'.pass_no_two_after_one A h2 (h.first hd)) id
            · have hm : s.m_math = d ++ [o, y] ++ t :: (rest ++ out) := by
                rw [h.math, hd]; simp
              have hyo : isOperator y = false := h.run_args y (by simp)
              have hy : isArgument A s y = true :=
                h.pass_isArgument_of A y (h.pass_mem_math A y (by simp)) hyo
              have hstep := expandLoop_copy2 A (f + rest.length) d (rest ++ out) o y t s
                h.inv.1 hm ho hy h2
              obtain ⟨done1, run1, out1, s1, hrun, hC, hd1, hE, _, hlen⟩ :=
                ih (done ++ [y, t]) [] (out ++ [y, t]) _ f (h'.pass_copy2 A hop)
              refine ⟨done1, run1, out1, s1, ?_, hC, ?_,
                hE, ?_, ?_⟩
              · have e1 : (done ++ ([] ++ [y])).length = (d ++ [o, y]).length := by
                  rw [hd]; simp
                have e2 : (d ++ [o, y]).length + 1 = (done ++ [y, t] ++ []).length := by
                  rw [hd]; simp only [List.length_append, List.length_cons, List.length_nil]
                have e3 : (done ++ ([] ++ [y]) ++ t :: rest).length
                    = (done ++ [y, t] ++ [] ++ rest).length := by 
                  simp only [List.length_append, List.length_cons, List.length_nil]; omega
                rw [e1, hstep, e2, hrun, e3]
              · rw [hd1]; simp
              · intro hout _
                exact absurd (h'.pass_no_two_after_one A h2 hout) id
              · refine le_trans hlen (le_of_eq ?_)
                simp
          · -- a two-argument operator after two arguments
            have hr3 : r1 = r0 ++ [x] := by simpa using hr1
            subst hr3
            have h' : Pass A pre ops0 tlast done (r0 ++ [x, y]) (t :: rest) out s := by simpa using h
            have hm : s.m_math = done ++ r0 ++ [x, y] ++ t :: (rest ++ out) := by
              rw [h.math]; simp
            have hxo : isOperator x = false := h.run_args x (by simp)
            have hyo : isOperator y = false := h.run_args y (by simp)
            have hx : isArgument A s x = true :=
              h.pass_isArgument_of A x (h.pass_mem_math A x (by simp)) hxo
            have hy : isArgument A s y = true :=
              h.pass_isArgument_of A y (h.pass_mem_math A y (by simp)) hyo
            have hstep := expandLoop_reduce2 A (f + rest.length) done r0 (rest ++ out) x y t s
              h.inv.1 hm h.boundary (fun u hu => h.run_args u (by simp [hu])) hx hy h2
            obtain ⟨hC0, hG0⟩ := h'.pass_reduce2 A h2
            obtain ⟨done1, run1, out1, s1, hrun, hC, hd1, hE, _, hlen⟩ :=
              ih (done ++ (r0 ++ [x, y]) ++ [t]) [] (out ++ r0 ++ [createNewUserConstantName s]) _ f hC0
            refine ⟨done1, run1, out1, s1, ?_, hC, ?_, (by omega), ?_, ?_⟩
            · have e1 : (done ++ (r0 ++ [x] ++ [y])).length = (done ++ r0 ++ [x, y]).length := by
                simp only [List.length_append, List.length_cons, List.length_nil]; omega
              have e2 : (done ++ r0 ++ [x, y]).length + 1
                  = (done ++ (r0 ++ [x, y]) ++ [t] ++ []).length := by 
                simp only [List.length_append, List.length_cons, List.length_nil]; omega
              have e3 : (done ++ (r0 ++ [x] ++ [y]) ++ t :: rest).length
                  = (done ++ (r0 ++ [x, y]) ++ [t] ++ [] ++ rest).length := by 
                simp only [List.length_append, List.length_cons, List.length_nil]; omega
              rw [e1, hstep, e2, hrun, e3]
            · rw [hd1]; simp
            · intro _ _
              omega
            · refine le_trans hlen ?_
              simp only [List.length_append, List.length_cons, List.length_nil]
              omega
    · -- an argument
      have hop2 : isOperator t = false := by simpa using hop
      have hm : s.m_math = (done ++ run) ++ t :: (rest ++ out) := by
        rw [h.math]; simp
      have hstep := expandLoop_operand A (f + rest.length) (done ++ run) (rest ++ out) t s hm
        hop2
      obtain ⟨done1, run1, out1, s1, hrun, hC, hd1, hE, hprog, hlen⟩ :=
        ih done (run ++ [t]) out s f (h.pass_operand A hop2)
      refine ⟨done1, run1, out1, s1, ?_, hC, ?_, hE, ?_, ?_⟩
      · have e2 : (done ++ run).length + 1 = (done ++ (run ++ [t])).length := by simp only [List.length_append, List.length_cons, List.length_nil]; omega
        have e3 : (done ++ run ++ t :: rest).length = (done ++ (run ++ [t]) ++ rest).length := by
          simp only [List.length_append, List.length_cons, List.length_nil]; omega
        rw [hstep, e2, hrun, e3]
      · rw [hd1]; simp
      · rintro hout ⟨u, hu, huo⟩
        refine hprog hout ⟨u, ?_, huo⟩
        rcases List.mem_cons.1 hu with hu | hu
        · rw [hu, hop2] at huo
          cases huo
        · exact hu
      · refine le_trans hlen (le_of_eq ?_)
        simp


/-- The next pass starts where a pass that has left an operator ended. -/
theorem Pass.pass_next {pre : List Str} {ops0 : List Operator} {tlast : Str}
    {done run out : List Str} {s : MathExpression V}
    (h : Pass A pre ops0 tlast done run [] out s) (h1 : 0 < (out ++ run).countP isOperator) :
    run = [] ∧ Pass A pre ops0 tlast done [] out [] s := by
  have hrun : run = [] := by
    rcases List.eq_nil_or_concat run with hr | ⟨r1, y, hr⟩
    · exact hr
    · exfalso
      have hr2 : run = r1 ++ [y] := by simpa using hr
      subst hr2
      have hy : isOperator y = false := h.run_args y (by simp)
      obtain ⟨core, hc, hd⟩ := h.core
      rw [List.append_nil, ← List.append_assoc] at hc
      rcases List.eq_nil_or_concat core with hc0 | ⟨c1, z, hc0⟩
      · rw [hc0] at hd
        cases hd
      · have hc1 : core = c1 ++ [z] := by simpa using hc0
        rw [hc1, ← List.append_assoc] at hc
        obtain ⟨hP, hz⟩ := List.append_inj' hc rfl
        have hz2 : y = z := by simpa using hz
        rw [hc1, ← hz2] at hd
        have hnil := depthRP_last_operator c1 y hd hy
        rw [hnil, List.append_nil] at hP
        rw [← List.append_assoc, List.countP_append, hP,
          countP_isOperator_run pre h.pre_args, countP_isOperator_none y hy] at h1
        exact absurd h1 (by decide)
  subst hrun
  refine ⟨rfl, ?_⟩
  have e : ([] : List Str) ++ [] ++ out = out ++ [] ++ [] := by simp
  exact {
    math := by rw [h.math]; simp
    inv := h.inv
    run_args := h.run_args
    boundary := h.boundary
    first := fun _ => rfl
    pre_args := h.pre_args
    core := by rw [e]; exact h.core
    ops := by rw [e]; exact h.ops
    count := by rw [e]; exact h.count
    arity := h.arity
    last := by
      rcases h.last with hl | ⟨_, _, h0, _⟩
      · left; rw [e]; exact hl
      · rw [List.append_nil, h0] at h1
        exact absurd h1 (by decide) }

/-- From the start of a pass, the loop of `expandMathExpression` runs to its end and returns
`true`, given a trip for every entity of every pass, and leaves no operator in what the last
pass has copied, whatever the names are. -/
theorem expand_shape (pre : List Str) (ops0 : List Operator) (tlast : Str) (k : Nat) :
    ∀ (done rest : List Str) (s : MathExpression V) (f : Nat),
      Pass A pre ops0 tlast done [] rest [] s → rest.countP isOperator ≤ k →
      rest.length * (k + 2) ≤ f →
      ∃ s1 done1 run1 out1, expandLoop A f done.length s = .ok (true, s1)
        ∧ Pass A pre ops0 tlast done1 run1 [] out1 s1
        ∧ (out1 ++ run1).countP isOperator = 0 := by
  induction k using Nat.strong_induction_on with
  | _ k ih =>
    intro done rest s f h hk hf
    have hw : rest.length ≤ f := by nlinarith
    obtain ⟨done1, run1, out1, s1, hrun, hC, hd1, hE, hprog, hlen⟩ :=
      pass_shape A pre ops0 tlast rest done [] [] s (f - rest.length) h
    have hf2 : f - rest.length + rest.length = f := by omega
    rw [hf2] at hrun
    simp only [List.append_nil, List.nil_append] at hrun hd1 hlen
    have hops := h.count
    have hops1 := hC.count
    simp only [List.append_nil, List.nil_append] at hops hops1
    have hlen1 : out1.length ≤ rest.length := by
      simp only [List.length_append] at hlen; omega
    rcases Nat.eq_zero_or_pos ((out1 ++ run1).countP isOperator) with h0 | h1
    · -- the pass has left no operator
      have hskip := expandLoop_skip A (f - rest.length) (done1 ++ run1) out1 s1
        (by rw [hC.math]; simp)
        (fun t ht => (countP_eq_zero_iff_all _).1 h0 t (by simp [ht]))
        (by
          have : rest.length * (k + 2) = rest.length * (k + 1) + rest.length := by ring
          have : rest.length ≤ rest.length * (k + 1) := Nat.le_mul_of_pos_right _ (by omega)
          omega)
      refine ⟨s1, done1, run1, out1, ?_, hC, h0⟩
      rw [hrun, ← hd1]
      exact hskip
    · -- the pass has left an operator: another pass
      obtain ⟨hr1, hC2⟩ := hC.pass_next A h1
      subst hr1
      simp only [List.append_nil] at hd1 h1 hops1
      have hrest : ∃ t ∈ rest, isOperator t = true := by
        have hpos : 0 < rest.countP isOperator := by omega
        obtain ⟨t, ht, hto⟩ := List.countP_pos_iff.1 hpos
        exact ⟨t, ht, hto⟩
      have hlt := hprog rfl hrest
      have hm : out1.countP isOperator < k := by omega
      have hfuel : out1.length * (out1.countP isOperator + 2) ≤ f - rest.length := by
        have h2 : out1.length * (out1.countP isOperator + 2) ≤ rest.length * (k + 1) :=
          Nat.mul_le_mul hlen1 (by omega)
        have : rest.length * (k + 2) = rest.length * (k + 1) + rest.length := by ring
        omega
      obtain ⟨s2, done2, run2, out2, hrun2, hC3, h03⟩ :=
        ih (out1.countP isOperator) hm done1 out1 s1 (f - rest.length) hC2 (le_refl _) hfuel
      refine ⟨s2, done2, run2, out2, ?_, hC3, h03⟩
      rw [hrun, ← hd1]
      exact hrun2

end PassShape
section ClassifyShape

variable {V : Type} (A : Arith V)

theorem entityKnown_of_isRPToken (t : Str) (h : isRPToken t = true) : entityKnown t = true := by
  simp only [isRPToken, isOperandToken, Bool.or_eq_true, Bool.and_eq_true] at h
  simp only [entityKnown, Bool.or_eq_true]
  tauto

/-- The entity `classifyEntity` puts in `m_math`, as far as the shape goes. -/
theorem classifyEntity_shape (i : Nat) (t : Str) (s s1 : MathExpression V) (hs : StInv A s)
    (hg : s.m_generatorVec = []) (h : classifyEntity A i t s = (true, s1)) :
    ∃ t2, s1.m_math = s.m_math ++ [t2] ∧ ShapeRel t t2
      ∧ s1.m_generatorVec = [] ∧ StInv A s1 := by
  obtain ⟨hinv, hg1⟩ := classifyEntity_inv A i t s s1 hs hg h
  rcases classifyEntity_cases A i t s s1 h with ⟨hop, h1⟩ | ⟨_, hop, _, c, _, h1⟩ | ⟨hv, h1⟩
    | ⟨hn, h1⟩
  · exact ⟨t, by rw [h1], Or.inl ⟨hop, rfl⟩, hg1, hinv⟩
  · exact ⟨t, by rw [h1], Or.inr ⟨hop, hop⟩, hg1, hinv⟩
  · have hop : hasOperatorMap t = false := by
      simp only [isVariableToken, Bool.and_eq_true, Bool.not_eq_true'] at hv
      tauto
    exact ⟨t, by rw [h1], Or.inr ⟨hop, hop⟩, hg1, hinv⟩
  · have hn2 : (charAt t 0).isAlpha = false ∧ isNumber t = true := by
      simpa [isNumberToken] using hn
    have hop : hasOperatorMap t = false := by
      by_contra hc
      have hc2 : hasOperatorMap t = true := by simpa using hc
      rw [isNumber_false_of_operator t hc2 hn2.1] at hn2
      exact absurd hn2.2 (by decide)
    exact ⟨createNewUserConstantName s, by rw [h1],
      Or.inr ⟨hop, isOperator_newName A s hs.1⟩, hg1, hinv⟩

/-- On a text whose entities are operator names and operands, `setArgumentMap` returns `true`
and leaves in `m_math` an entity for every entity of the text, an operator name for an operator
name and an argument for an operand, and no generator, whatever the number of entities is. -/
theorem setArgumentMap_shape (s0 : MathExpression V)
    (htok : ∀ t ∈ rpTokens s0.m_reversePolish, isRPToken t = true) :
    ∃ s1, setArgumentMap A s0 = (true, s1)
      ∧ List.Forall₂ ShapeRel (rpTokens s0.m_reversePolish) s1.m_math
      ∧ s1.m_generatorVec = [] ∧ StInv A s1 ∧ SameErrors s0 s1 := by
  have hret : (setArgumentMap A s0).1 = true := by
    rcases setArgumentMap_known A s0 with ⟨h1, _⟩ | ⟨_, t, ht, hk, _⟩
    · exact h1
    · rw [entityKnown_of_isRPToken t (htok t ht)] at hk
      cases hk
  have hpair : setArgumentMap A s0 = (true, (setArgumentMap A s0).2) := by
    rw [← hret]
  refine ⟨(setArgumentMap A s0).2, hpair, ?_⟩
  have hP := setArgumentMap_induct A
    (fun ts s => List.Forall₂ ShapeRel ts s.m_math ∧ s.m_generatorVec = [] ∧ StInv A s)
    (fun ts i t s s1 hP hcl => by
      obtain ⟨t2, hm, hrel, hg, hinv⟩ := classifyEntity_shape A i t s s1 hP.2.2 hP.2.1 hcl
      refine ⟨?_, hg, hinv⟩
      rw [hm]
      exact List.rel_append hP.1 (List.Forall₂.cons hrel List.Forall₂.nil))
    s0 _
    ⟨List.Forall₂.nil, rfl,
      MapInv.nil A, fun t ht => absurd ht (List.not_mem_nil t), fun _ => Built.base _⟩
    hpair
  exact ⟨hP.1, hP.2.1, hP.2.2, setArgumentMap_errors A s0 _ hpair⟩

theorem Forall₂_append_split {α β : Type} (R : α → β → Prop) (l1 l2 : List α) (m : List β)
    (h : List.Forall₂ R (l1 ++ l2) m) :
    ∃ m1 m2, m = m1 ++ m2 ∧ List.Forall₂ R l1 m1 ∧ List.Forall₂ R l2 m2 := by
  induction l1 generalizing m with
  | nil => exact ⟨[], m, rfl, List.Forall₂.nil, h⟩
  | cons a l1 ih =>
    cases h with
    | cons h1 h2 =>
      obtain ⟨m1, m2, hm, hr1, hr2⟩ := ih _ h2
      exact ⟨_ :: m1, m2, by rw [hm]; rfl, List.Forall₂.cons h1 hr1, hr2⟩

theorem ShapeRel.operands (toks math : List Str) (h : List.Forall₂ ShapeRel toks math)
    (ht : ∀ t ∈ toks, hasOperatorMap t = false) : ∀ u ∈ math, isOperator u = false := by
  induction h with
  | nil => intro u hu; cases hu
  | @cons t t2 toks math hd _ ih =>
    intro u hu
    rcases List.mem_cons.1 hu with hu | hu
    · rcases hd with ⟨h1, _⟩ | ⟨_, h2⟩
      · rw [ht t (List.mem_cons_self _ _)] at h1
        cases h1
      · rw [hu]; exact h2
    · exact ih (fun t1 ht1 => ht t1 (List.mem_cons_of_mem _ ht1)) u hu

/-- **The shape of the program of a Reverse Polish text.** For the text of operands `pre`
followed by a sequence `core` that a postfix reader reduces to one entry, whatever the number
of entities is, `setArgumentMap` returns `true`, `expandMathExpression` returns `true` given a
trip for every entity of every pass, neither sets an error number, and the program has one
generator of the right arity for every operator of `core`, the last one for the last
entity of `core`, with its name at the end of `m_math`. -/
theorem rp_shape_spec (pre core : List Str) (s0 : MathExpression V)
    (hpre : ∀ t ∈ pre, isOperandToken t = true) (hcore : isWellFormedRP core = true) :
    ∃ s1, setArgumentMapFrom A (rpText (pre ++ core)) s0 = (true, s1) ∧ SameErrors s0 s1
      ∧ s1.m_generatorVec = []
      ∧ ∀ fuel, (pre ++ core).length * ((pre ++ core).length + 2) ≤ fuel →
        ∃ s2, expandMathExpression A fuel s1 = .ok (true, s2) ∧ SameErrors s0 s2
          ∧ s2.m_generatorVec.length = core.countP hasOperatorMap
          ∧ List.Perm (generatorOperators s2.m_generatorVec) (operatorsOf core)
          ∧ (∀ g ∈ s2.m_generatorVec, GenArity g)
          ∧ ∀ c0 t, core = c0 ++ [t] → hasOperatorMap t = true →
              ∃ G0 g, s2.m_generatorVec = G0 ++ [g] ∧ g.m_op = getOperator t
                ∧ s2.m_math.getLast? = some g.m_name := by
  simp only [isWellFormedRP, Bool.and_eq_true, List.all_eq_true, beq_iff_eq] at hcore
  obtain ⟨hctok, hdepth⟩ := hcore
  have hprop : ∀ t ∈ pre, hasOperatorMap t = false := by
    intro t ht
    have := hpre t ht
    simp only [isOperandToken, Bool.and_eq_true, Bool.not_eq_true'] at this
    exact this.1.1
  have htok : ∀ t ∈ pre ++ core, isRPToken t = true := by
    intro t ht
    rcases List.mem_append.1 ht with ht | ht
    · simp [isRPToken, hpre t ht]
    · exact hctok t ht
  have htxt : rpTokens (rpText (pre ++ core)) = pre ++ core :=
    rpTokens_rpText _ (fun t ht => (isToken_iff t).1 (isToken_of_isRPToken t (htok t ht)))
  obtain ⟨s1, hset, hrel, hg1, hinv1, herr1⟩ := setArgumentMap_shape A
    { s0 with m_reversePolish := rpText (pre ++ core) } (by
      show ∀ t ∈ rpTokens (rpText (pre ++ core)), isRPToken t = true
      rw [htxt]; exact htok)
  have hrel2 : List.Forall₂ ShapeRel (pre ++ core) s1.m_math := by
    have := hrel
    rw [show rpTokens ({ s0 with m_reversePolish := rpText (pre ++ core) }
      : MathExpression V).m_reversePolish = pre ++ core from htxt] at this
    exact this
  have herr01 : SameErrors s0 s1 := ⟨herr1.1, herr1.2⟩
  refine ⟨s1, hset, herr01, hg1, ?_⟩
  obtain ⟨mpre, mcore, hmath, hrpre, hrcore⟩ := Forall₂_append_split ShapeRel pre core _ hrel2
  have hmpre := ShapeRel.operands pre mpre hrpre hprop
  have hmdepth : depthRP mcore 0 = some 1 := by
    rw [depthRP_shape core mcore hrcore 0]; exact hdepth
  have hlen : s1.m_math.length = (pre ++ core).length := (List.Forall₂.length_eq hrel2).symm
  -- the last entity
  obtain ⟨mc0, z, hmc⟩ : ∃ mc0 z, mcore = mc0 ++ [z] := by
    rcases List.eq_nil_or_concat mcore with h0 | ⟨mc0, z, h0⟩
    · rw [h0] at hmdepth; cases hmdepth
    · exact ⟨mc0, z, by simpa using h0⟩
  have hC : Pass A mpre (operatorsOf s1.m_math) z [] [] s1.m_math [] s1 :=
    { math := by simp
      inv := hinv1
      run_args := fun t ht => by cases ht
      boundary := Or.inl rfl
      first := fun _ => rfl
      pre_args := hmpre
      core := ⟨mcore, by simpa using hmath, hmdepth⟩
      ops := by
        rw [hg1]
        simp [generatorOperators]
      count := by
        rw [hg1]
        simp [operatorsOf_length]
      arity := fun g hg => by rw [hg1] at hg; cases hg
      last := Or.inl (by
        rw [List.nil_append, List.nil_append, hmath, hmc, ← List.append_assoc]
        exact List.getLast?_concat _) }
  intro fuel hfuel
  obtain ⟨s2, done2, run2, out2, hrun, hP2, h0⟩ :=
    expand_shape A mpre _ z (s1.m_math.countP isOperator) [] s1.m_math s1 fuel hC (le_refl _)
      (by
        rw [hlen]
        refine le_trans (Nat.mul_le_mul_left _ ?_) hfuel
        have := @List.countP_le_length _ isOperator s1.m_math
        omega)
  have herr2 := expandMathExpression_errors A fuel s1 s2 hrun
  have hall := (countP_eq_zero_iff_all _).1 h0
  have hopsm : operatorsOf s1.m_math = operatorsOf core := by
    rw [hmath, operatorsOf_append, operatorsOf_run mpre hmpre, List.nil_append]
    exact operatorsOf_shape core mcore hrcore
  have hcnt := hP2.count
  have hops := hP2.ops
  rw [List.append_nil] at hcnt hops
  rw [h0, Nat.zero_add, hopsm, operatorsOf_length] at hcnt
  rw [operatorsOf_run _ hall, List.append_nil, hopsm] at hops
  refine ⟨s2, hrun, herr01.err_trans herr2, hcnt, hops, hP2.arity, ?_⟩
  intro c0 t hct hop
  -- the last entity of `m_math` is the last entity of the text
  have hz : z = t := by
    rw [hct, hmc] at hrcore
    obtain ⟨m1, m2, hm, _, hr2⟩ := Forall₂_append_split ShapeRel c0 [t] _ hrcore
    obtain ⟨t1, ht1, hrel1⟩ : ∃ t1, m2 = [t1] ∧ ShapeRel t t1 := by
      cases hr2 with
      | cons h1 h2 =>
        cases h2
        exact ⟨_, rfl, h1⟩
    rw [ht1] at hm
    obtain ⟨_, hzz⟩ := List.append_inj' hm rfl
    have hzt : z = t1 := by simpa using hzz
    rcases hrel1 with ⟨_, h2⟩ | ⟨h1, _⟩
    · rw [hzt, h2]
    · rw [hop] at h1; cases h1
  rcases hP2.last with hl | ⟨hr, _, _, G0, g, hG, hgo, hgl⟩
  · exfalso
    rw [List.append_nil] at hl
    have hmem : z ∈ out2 ++ run2 := List.mem_of_mem_getLast? hl
    have := hall z hmem
    rw [hz, isOperator, hop] at this
    cases this
  · refine ⟨G0, g, hG, by rw [hgo, hz], ?_⟩
    have hne : out2 ≠ [] := by
      intro h
      rw [h] at hgl
      cases hgl
    rw [hP2.math, hr, List.append_nil, List.append_nil,
      List.getLast?_append_of_ne_nil _ hne]
    exact hgl

/-- A sequence with an operator that a postfix reader reduces to one entry ends with an
operator. -/
theorem wellFormed_last_operator (toks : List Str) (h : depthRP toks 0 = some 1)
    (hk : 0 < toks.countP hasOperatorMap) :
    ∃ t0 t, toks = t0 ++ [t] ∧ hasOperatorMap t = true := by
  rcases List.eq_nil_or_concat toks with h0 | ⟨t0, t, h0⟩
  · rw [h0] at h; cases h
  · have h1 : toks = t0 ++ [t] := by simpa using h0
    refine ⟨t0, t, h1, ?_⟩
    by_contra hc
    have hc2 : isOperator t = false := by simpa [isOperator] using hc
    rw [h1] at h hk
    have hnil := depthRP_last_operator t0 t h hc2
    rw [hnil] at hk
    simp only [List.nil_append, List.countP_cons, List.countP_nil, Nat.zero_add] at hk
    rw [isOperator] at hc2
    rw [hc2] at hk
    exact absurd hk (by decide)

end ClassifyShape
section Surplus

variable {V : Type} (A : Arith V)

/-- The postfix reader does not look below the entries it was started on. -/
theorem parseStep_frame (Γ : List (Str × Expr)) (st st1 st0 : List Expr) (t : Str)
    (h : parseStep A Γ st t = some st1) :
    parseStep A Γ (st ++ st0) t = some (st1 ++ st0) := by
  by_cases h1 : isOperatorOneArg t = true
  · have h' := h
    unfold parseStep at h'
    rw [if_pos h1] at h'
    split at h'
    · next f x st2 hf =>
      rw [← Option.some.inj h']
      exact parseStep_one A Γ (st2 ++ st0) t f x h1 hf
    · cases h'
  · by_cases h2 : isOperatorTwoArg t = true
    · have h' := h
      unfold parseStep at h'
      rw [if_neg h1, if_pos h2] at h'
      split at h'
      · next f y x st2 hf =>
        rw [← Option.some.inj h']
        exact parseStep_two A Γ (st2 ++ st0) t f x y h2 hf
      · cases h'
    · have h' := h
      unfold parseStep at h' ⊢
      rw [if_neg h1, if_neg h2] at h' ⊢
      rw [← Option.some.inj h']
      rfl

theorem parseRP_frame (Γ : List (Str × Expr)) (l : List Str) (st st1 st0 : List Expr)
    (h : parseRP A Γ l st = some st1) :
    parseRP A Γ l (st ++ st0) = some (st1 ++ st0) := by
  induction l generalizing st with
  | nil =>
    rw [parseRP] at h ⊢
    rw [← Option.some.inj h]
  | cons t l ih =>
    rw [parseRP] at h ⊢
    cases hs : parseStep A Γ st t with
    | none => rw [hs] at h; cases h
    | some st2 =>
      rw [hs] at h
      rw [parseStep_frame A Γ st st2 st0 t hs]
      exact ih st2 h

/-- **Refinement of the postfix stack evaluator, with operands in front.** For the text of
operands `pre` followed by a list of entities `R` the postfix stack evaluator reduces to one
value, with room for the names of the numbers and operators, `setArgumentMap` returns `true`,
`expandMathExpression` returns `true` given a trip for every entity of every pass, and
`calculateExpression` returns the value of the evaluator for `R`. -/
theorem rp_surplus_spec (pre R : List Str) (vals : List (Str × V)) (v : V)
    (s0 : MathExpression V)
    (hpre : ∀ t ∈ pre, isOperandToken t = true)
    (hcap : (pre ++ R).countP isLiteralToken + (pre ++ R).countP hasOperatorMap ≤ nameCapacity)
    (hvals : ∀ kv ∈ vals, isVariableName A kv.1 = true)
    (hwf : postfixEval A (envOf A vals) R [] = some [v]) :
    ∃ s1, setArgumentMapFrom A (rpText (pre ++ R)) s0 = (true, s1)
      ∧ ∀ fuel, (pre ++ R).length * ((pre ++ R).length + 2) ≤ fuel →
        ∃ s2, expandMathExpression A fuel s1 = .ok (true, s2)
          ∧ s2.m_generatorVec.length = R.countP hasOperatorMap
          ∧ ∃ s3, calculateExpression A (setVariables vals s2) = .ok (v, s3) := by
  have htokR := postfixEval_tokens A _ R [] [v] hwf
  have hprop : ∀ t ∈ pre, hasOperatorMap t = false := by
    intro t ht
    have := hpre t ht
    simp only [isOperandToken, Bool.and_eq_true, Bool.not_eq_true'] at this
    exact this.1.1
  have htok : ∀ t ∈ pre ++ R, isRPToken t = true := by
    intro t ht
    rcases List.mem_append.1 ht with ht | ht
    · simp [isRPToken, hpre t ht]
    · exact htokR t ht
  have hKpre : (pre ++ R).countP hasOperatorMap = R.countP hasOperatorMap := by
    rw [List.countP_append, List.countP_eq_zero.2 (fun t ht => by simp [hprop t ht]),
      Nat.zero_add]
  have hsinit : StInv A ({ s0 with
      m_reversePolish := rpText (pre ++ R)
      m_math := []
      m_argumentMap := []
      m_generatorVec := [] } : MathExpression V) :=
    ⟨MapInv.nil A, fun t ht => absurd ht (List.not_mem_nil t), fun _ => Built.base _⟩
  obtain ⟨M1, math1, hcl, hden, _, _, hcnt, hinv⟩ :=
    classifyTokens_den A (pre ++ R) 0 _ hsinit rfl (fun k a h => by cases h) htok
      (by
        show ([] : List (Str × Argument V)).countP counted + _ ≤ _
        simp only [List.countP_nil, Nat.zero_add]
        omega)
  simp only [List.nil_append, List.countP_nil, Nat.zero_add] at hcl hcnt hinv
  refine ⟨_, (setArgumentMapFrom_tokens A (pre ++ R) s0
    (fun t ht => isToken_of_isRPToken t (htok t ht))).trans hcl, ?_⟩
  -- the entities of the operands in front and of `R`
  obtain ⟨mpre, mR, hmath, hdpre, hdR⟩ := Forall₂_append_split _ pre R math1 hden
  have hmpre : ∀ t ∈ mpre, isOperator t = false := Forall₂_Den_operands A hdpre hprop
  -- the expression `R` reads as
  have hset : ∀ M : List (Str × Argument V),
      (∀ k a, M1.lookup k = some a → M.lookup k = some a) →
      List.Forall₂ (Den A (envOf A vals)
        (vals.foldl (fun m kv => mapSetDouble m kv.1 kv.2) M)) R mR := by
    intro M hM
    exact List.Forall₂.imp (fun _ _ h => h.after_sets A vals hvals)
      (Forall₂_Den_mono A hdR hM)
  obtain ⟨est1, hpar, hev⟩ := bridge A _ _ R mR (hset M1 (fun k a h => h)) [] [] [v] rfl hwf
  obtain ⟨T, rfl, _⟩ := map_eval_single A _ est1 v hev
  have hparAll : parseRP A [] (mpre ++ mR) []
      = some (T :: (mpre.map (fun t => symOf [] (ptrOf A t))).reverse) := by
    rw [parseRP_append, parseRP_run A [] mpre [] hmpre, List.append_nil]
    exact parseRP_frame A [] mR [] [T] _ hpar
  have hops := Forall₂_Den_operators A hden
  have hopsR := Forall₂_Den_operators A hdR
  have hlen : math1.length = (pre ++ R).length := (List.Forall₂.length_eq hden).symm
  have hC : Cfg A T ((pre ++ R).countP isLiteralToken) ((pre ++ R).countP hasOperatorMap)
      [] [] math1 []
      ({ s0 with
        m_reversePolish := rpText (pre ++ R)
        m_math := math1
        m_argumentMap := M1
        m_generatorVec := [] } : MathExpression V) :=
    { math := by simp
      inv := hinv
      built := Built.base _
      count := by simpa using hcnt
      ops := by simpa using hops
      cap := hcap
      run_args := fun t ht => by cases ht
      boundary := Or.inl rfl
      first := fun _ => rfl
      parse := by
        refine ⟨(mpre.map (fun t => symOf [] (ptrOf A t))).reverse, ?_, ?_⟩
        · show parseRP A (symTable []) ([] ++ [] ++ math1) [] = _
          rw [List.nil_append, List.nil_append, hmath]
          exact hparAll
        · intro e he
          rw [List.mem_reverse] at he
          obtain ⟨t, _, hte⟩ := List.mem_map.1 he
          exact ⟨ptrOf A t, by rw [← hte, symOf_nil]⟩
      quiet := fun _ _ => rfl
      last := Or.inl rfl
      names := fun g hg => by cases hg }
  intro fuel hfuel
  obtain ⟨s2, hrun, hE, hB, hK, hshape⟩ :=
    expand_spec A T _ _ ((pre ++ R).countP hasOperatorMap) [] math1 _ fuel hC (le_of_eq hops)
      (by
        rw [hlen]
        refine le_trans (Nat.mul_le_mul_left _ ?_) hfuel
        have := @List.countP_le_length _ hasOperatorMap (pre ++ R)
        omega)
  refine ⟨s2, hrun, by rw [hK, hKpre], ?_⟩
  obtain ⟨extra, hextra⟩ := hE.1
  have hden3 := hset s2.m_argumentMap (fun k a h => by
    rw [hextra]; exact lookup_append_some _ _ k a h)
  obtain ⟨est3, hpar3, hev3⟩ := bridge A _ _ R mR hden3 [] [] [v] rfl hwf
  rw [hpar] at hpar3
  have hest3 : est3 = [T] := (Option.some.inj hpar3).symm
  subst hest3
  have hT3 : T.eval A (vals.foldl (fun m kv => mapSetDouble m kv.1 kv.2) s2.m_argumentMap)
      = .ok v := by
    simpa using hev3
  rw [setVariables_eq]
  rcases hshape with ⟨hG, hne, hkey, hTx⟩ | hG
  · -- no generator: `R` is one operand
    have hK0 : mR.countP isOperator = 0 := by rw [hopsR, ← hKpre, ← hK, hG]; rfl
    obtain ⟨x1, hm1, hT1⟩ := parse_single A [] mR T hpar hK0
    rw [symOf_nil, hTx] at hT1
    have hx : s2.m_math.getD (s2.m_math.length - 1) [] = x1 :=
      ptrOf_inj A _ _ (Expr.leaf.inj hT1)
    subst hm1
    obtain ⟨t1, rfl, hd⟩ := Forall₂_single hden3
    have hop1 : hasOperatorMap t1 = false := by
      rw [hK0] at hopsR
      have := (List.countP_eq_zero.1 hopsR.symm) t1 (List.mem_singleton.2 rfl)
      simpa using this
    obtain ⟨_, _, a, ha, hva⟩ := hd.deref A hop1
    have hv : v = operandValue A (envOf A vals) t1 := by
      simp only [postfixEval, getOperator_none t1 hop1] at hwf
      split_ifs at hwf
      simp only [postfixEval, Option.some.injEq, List.cons.injEq, and_true] at hwf
      exact hwf.symm
    refine ⟨{ s2 with
      m_argumentMap := vals.foldl (fun m kv => mapSetDouble m kv.1 kv.2) s2.m_argumentMap }, ?_⟩
    unfold calculateExpression
    have hlen0 : (s2.m_generatorVec.length == 0) = true := by rw [hG]; rfl
    simp only [hlen0, if_true]
    rw [if_pos (List.length_pos.2 hne), hx, ha]
    show Except.ok (a.m_dvalue, _) = _
    rw [hva, ← hv]
  · exact calc_final A T
      { s2 with
        m_argumentMap := vals.foldl (fun m kv => mapSetDouble m kv.1 kv.2) s2.m_argumentMap }
      (by
        show Built A (mapKeys (vals.foldl (fun m kv => mapSetDouble m kv.1 kv.2)
          s2.m_argumentMap)) s2.m_generatorVec
        rw [mapKeys_setAll]
        exact hB) hG v hT3

end Surplus
section PostfixDepth

variable {V : Type} (A : Arith V)

/-- The postfix stack evaluator reduces a sequence of operator names and operands whenever a
reader that keeps only the depth of the stack does, and to a stack of that depth. -/
theorem postfixEval_depth (env : Str → V) (l : List Str) :
    ∀ (st : List V) (n : Nat), (∀ t ∈ l, isRPToken t = true) →
      depthRP l st.length = some n →
      ∃ st1, postfixEval A env l st = some st1 ∧ st1.length = n := by
  induction l with
  | nil =>
    intro st n _ h
    rw [depthRP] at h
    exact ⟨st, rfl, Option.some.inj h⟩
  | cons t l ih =>
    intro st n htok h
    have hl : ∀ u ∈ l, isRPToken u = true := fun u hu => htok u (List.mem_cons_of_mem _ hu)
    rw [depthRP_cons] at h
    by_cases hop : hasOperatorMap t = true
    · rcases operator_kinds t hop with ⟨o, f, ho, hty, hf, h1⟩ | ⟨o, f, ho, hty, hf, h2⟩
      · rw [depthStep_one st.length t h1] at h
        cases st with
        | nil => simp at h
        | cons x st1 =>
          rw [if_pos (by simp), Option.some_bind] at h
          obtain ⟨st2, hev, hlen⟩ := ih (A.callDD f x :: st1) n hl (by simpa using h)
          refine ⟨st2, ?_, hlen⟩
          rw [postfixEval, ho]
          simp only [hty, if_true, hf]
          exact hev
      · rw [depthStep_two st.length t h2] at h
        cases st with
        | nil => simp at h
        | cons y st0 =>
          cases st0 with
          | nil => simp at h
          | cons x st1 =>
            rw [if_pos (by simp), Option.some_bind] at h
            obtain ⟨st2, hev, hlen⟩ := ih (A.callDDD f x y :: st1) n hl (by simpa using h)
            refine ⟨st2, ?_, hlen⟩
            rw [postfixEval, ho]
            simp only [hty, if_false, hf]
            exact hev
    · have hop2 : hasOperatorMap t = false := by simpa using hop
      have hopd : isOperandToken t = true := by
        have := htok t (List.mem_cons_self _ _)
        simpa [isRPToken, hop2] using this
      rw [depthStep_operand st.length t hop2, Option.some_bind] at h
      obtain ⟨st2, hev, hlen⟩ := ih (operandValue A env t :: st) n hl (by simpa using h)
      refine ⟨st2, ?_, hlen⟩
      rw [postfixEval, getOperator_none t hop2]
      simp only [hopd, if_true]
      exact hev

/-- A well-formed Reverse Polish sequence has a value. -/
theorem postfixEval_wellFormed (env : Str → V) (R : List Str) (h : isWellFormedRP R = true) :
    ∃ v, postfixEval A env R [] = some [v] := by
  simp only [isWellFormedRP, Bool.and_eq_true, List.all_eq_true, beq_iff_eq] at h
  obtain ⟨st1, hev, hlen⟩ := postfixEval_depth A env R [] 1 h.1 h.2
  match st1, hlen with
  | [v], _ => exact ⟨v, hev⟩

end PostfixDepth
section SurplusOverflow

variable {V : Type} (A : Arith V)

/-- With all 6656 names in use, `generateArgArgOp` names its generator `#AA` and keeps the
argument map as it is. -/
theorem generateArgArgOp_full (x y t : Str) (s : MathExpression V)
    (hM : MapInv A s.m_argumentMap)
    (hcount : s.m_argumentMap.countP counted = nameCapacity)
    (hx : x ∈ mapKeys s.m_argumentMap) (hy : y ∈ mapKeys s.m_argumentMap)
    (hcx : hasConstantMap A x = false) (hcy : hasConstantMap A y = false) :
    generateArgArgOp A x y t s
      = { s with
          m_generatorVec := s.m_generatorVec ++ [saturatedGenerator t x y]
          m_math := s.m_math ++ [nameOf 0] } := by
  have h0 : nameOf 0 ∈ mapKeys s.m_argumentMap :=
    hM.nameOf_mem A 0 (by rw [hcount]; decide)
  obtain ⟨p0, hp0, _, hq0⟩ := argPointer_ok A s hM x (isArgument_of_key A s _ hx)
  obtain ⟨p1, hp1, _, hq1⟩ := argPointer_ok A s hM y (isArgument_of_key A s _ hy)
  rw [hcx, if_neg Bool.false_ne_true] at hq0
  rw [hcy, if_neg Bool.false_ne_true] at hq1
  subst hq0 hq1
  have hn : createNewUserConstantName s = nameOf 0 := by
    rw [createNewUserConstantName_eq A s hM, hcount, nameOf_capacity]
  unfold generateArgArgOp
  simp only [hn, hp0, hp1, mapInsert_of_mem _ _ _ h0, saturatedGenerator]

/-- The loop of `expandMathExpression` passes a run of arguments. -/
theorem expandLoop_run (fuel : Nat) (run pre0 post : List Str) (s : MathExpression V)
    (hm : s.m_math = pre0 ++ run ++ post) (hr : ∀ t ∈ run, isOperator t = false) :
    expandLoop A (fuel + run.length) pre0.length s = expandLoop A fuel (pre0 ++ run).length s := by
  induction run generalizing pre0 with
  | nil => simp
  | cons t run ih =>
    have hf : fuel + (t :: run).length = (fuel + run.length) + 1 := by
      simp only [List.length_cons]; omega
    rw [hf, expandLoop_operand A (fuel + run.length) pre0 (run ++ post) t s
      (by rw [hm]; simp) (hr t (List.mem_cons_self _ _))]
    have e1 : pre0.length + 1 = (pre0 ++ [t]).length := by simp
    have e2 : (pre0 ++ t :: run).length = (pre0 ++ [t] ++ run).length := by simp
    rw [e1, e2]
    exact ih (pre0 ++ [t]) (by rw [hm]; simp)
      (fun u hu => hr u (List.mem_cons_of_mem _ hu))

theorem expandLoop_cast (f f2 i i2 : Nat) (s : MathExpression V) (hf : f = f2) (hi : i = i2) :
    expandLoop A f i s = expandLoop A f2 i2 s := by
  rw [hf, hi]

/-- The expansion of a program with operands in front of `n1 n2 + n3 n4 + *` when all 6656
names are in use: three generators, all named `#AA`, the last of which multiplies the binding
`#AA` with itself. -/
theorem surplus_expand (mpre : List Str) (n1 n2 n3 n4 : Str) (s : MathExpression V)
    (hs : StInv A s) (hG : s.m_generatorVec = [])
    (hm : s.m_math
      = mpre ++ [n1, n2, "+".toList, n3, n4, "+".toList, "*".toList])
    (hcount : s.m_argumentMap.countP counted = nameCapacity)
    (hpre : ∀ t ∈ mpre, isOperator t = false)
    (hk : ∀ n ∈ [n1, n2, n3, n4],
      n ∈ mapKeys s.m_argumentMap ∧ hasConstantMap A n = false ∧ isOperator n = false)
    (fuel : Nat) (hfuel : 3 * mpre.length + 11 ≤ fuel) :
    expandMathExpression A fuel s = .ok (true,
      { s with
        m_generatorVec := [saturatedGenerator "+".toList n1 n2,
          saturatedGenerator "+".toList n3 n4,
          saturatedGenerator "*".toList (nameOf 0) (nameOf 0)]
        m_math := s.m_math ++ mpre ++ [nameOf 0] ++ [nameOf 0] ++ ["*".toList] ++ mpre
          ++ [nameOf 0] }) := by
  obtain ⟨F, rfl⟩ : ∃ F, fuel = F + (3 * mpre.length + 11) := ⟨fuel - (3 * mpre.length + 11),
    by omega⟩
  obtain ⟨hk1, hc1, ho1⟩ := hk n1 (by simp)
  obtain ⟨hk2, hc2, ho2⟩ := hk n2 (by simp)
  obtain ⟨hk3, hc3, ho3⟩ := hk n3 (by simp)
  obtain ⟨hk4, hc4, ho4⟩ := hk n4 (by simp)
  have hz : nameOf 0 ∈ mapKeys s.m_argumentMap :=
    hs.1.nameOf_mem A 0 (by rw [hcount]; decide)
  have hzo : isOperator (nameOf 0) = false := hasOperatorMap_nameOf 0
  have hzc : hasConstantMap A (nameOf 0) = false := hasConstantMap_nameOf A 0
  have hP : isOperator "+".toList = true := by decide
  have hMu : isOperator "*".toList = true := by decide
  -- the first pass: the operands in front and `n1 n2`
  have E1 : expandLoop A (F + (3 * mpre.length + 11)) 0 s
      = expandLoop A (F + (2 * mpre.length + 9)) (mpre.length + 2) s :=
    (expandLoop_cast A _ _ _ _ s (by simp; omega) rfl).trans
      ((expandLoop_run A (F + (2 * mpre.length + 9)) (mpre ++ [n1, n2]) []
        ["+".toList, n3, n4, "+".toList, "*".toList] s (by rw [hm]; simp)
        (fun t ht => by
          rcases List.mem_append.1 ht with ht | ht
          · exact hpre t ht
          · simp only [List.mem_cons, List.mem_singleton, List.mem_nil_iff, or_false] at ht
            rcases ht with rfl | rfl
            · exact ho1
            · exact ho2)).trans
        (expandLoop_cast A _ _ _ _ s rfl (by simp)))
  -- the first `+`
  have E2 : expandLoop A (F + (2 * mpre.length + 9)) (mpre.length + 2) s
      = expandLoop A (F + (2 * mpre.length + 8)) (mpre.length + 3)
          { s with
            m_generatorVec := [saturatedGenerator "+".toList n1 n2]
            m_math := s.m_math ++ mpre ++ [nameOf 0] } := by
    have h := expandLoop_reduce2 A (F + (2 * mpre.length + 8)) [] mpre
      [n3, n4, "+".toList, "*".toList] n1 n2 "+".toList s hs.1 (by rw [hm]; simp)
      (Or.inl rfl) hpre (isArgument_of_key A s _ hk1) (isArgument_of_key A s _ hk2) (by decide)
    rw [generateArgArgOp_full A n1 n2 "+".toList { s with m_math := s.m_math ++ mpre } hs.1
      hcount hk1 hk2 hc1 hc2] at h
    refine (expandLoop_cast A _ _ _ _ s (by omega) (by simp)).trans (h.trans ?_)
    have e : ({ s with m_math := s.m_math ++ mpre } : MathExpression V).m_generatorVec
        ++ [saturatedGenerator "+".toList n1 n2] = [saturatedGenerator "+".toList n1 n2] := by
      show s.m_generatorVec ++ _ = _
      rw [hG]; rfl
    rw [e]
    exact expandLoop_cast A _ _ _ _ _ rfl (by simp)
  -- the state after the first `+`
  obtain ⟨sA, hsA⟩ : ∃ sA : MathExpression V, sA = { s with
      m_generatorVec := [saturatedGenerator "+".toList n1 n2]
      m_math := s.m_math ++ mpre ++ [nameOf 0] } := ⟨_, rfl⟩
  rw [← hsA] at E2
  have hAmap : sA.m_argumentMap = s.m_argumentMap := by rw [hsA]
  have hAmath : sA.m_math = s.m_math ++ mpre ++ [nameOf 0] := by rw [hsA]
  have hAgen : sA.m_generatorVec = [saturatedGenerator "+".toList n1 n2] := by rw [hsA]
  have hAM : MapInv A sA.m_argumentMap := by rw [hAmap]; exact hs.1
  have E3 : expandLoop A (F + (2 * mpre.length + 8)) (mpre.length + 3) sA
      = expandLoop A (F + (2 * mpre.length + 6)) (mpre.length + 5) sA :=
    (expandLoop_cast A _ _ _ _ sA (by simp; omega) (by simp)).trans
      ((expandLoop_run A (F + (2 * mpre.length + 6)) [n3, n4] (mpre ++ [n1, n2, "+".toList])
        (["+".toList, "*".toList] ++ mpre ++ [nameOf 0]) sA (by rw [hAmath, hm]; simp)
        (fun t ht => by
          simp only [List.mem_cons, List.mem_singleton, List.mem_nil_iff, or_false] at ht
          rcases ht with rfl | rfl
          · exact ho3
          · exact ho4)).trans
        (expandLoop_cast A _ _ _ _ sA rfl (by simp)))
  -- the second `+`
  obtain ⟨sB, hsB⟩ : ∃ sB : MathExpression V, sB = { s with
      m_generatorVec := [saturatedGenerator "+".toList n1 n2,
        saturatedGenerator "+".toList n3 n4]
      m_math := s.m_math ++ mpre ++ [nameOf 0] ++ [nameOf 0] } := ⟨_, rfl⟩
  have hgenB : generateArgArgOp A n3 n4 "+".toList { sA with m_math := sA.m_math ++ [] }
      = sB := by
    rw [generateArgArgOp_full A n3 n4 "+".toList { sA with m_math := sA.m_math ++ [] } hAM
      (by show sA.m_argumentMap.countP counted = _; rw [hAmap]; exact hcount)
      (by show n3 ∈ mapKeys sA.m_argumentMap; rw [hAmap]; exact hk3)
      (by show n4 ∈ mapKeys sA.m_argumentMap; rw [hAmap]; exact hk4) hc3 hc4, hsB, hsA]
    simp
  have E4 : expandLoop A (F + (2 * mpre.length + 6)) (mpre.length + 5) sA
      = expandLoop A (F + (2 * mpre.length + 5)) (mpre.length + 6) sB := by
    have h := expandLoop_reduce2 A (F + (2 * mpre.length + 5)) (mpre ++ [n1, n2, "+".toList]) []
      (["*".toList] ++ mpre ++ [nameOf 0]) n3 n4 "+".toList sA hAM
      (by rw [hAmath, hm]; simp)
      (Or.inr ⟨mpre ++ [n1, n2], "+".toList, by simp, hP⟩)
      (fun u hu => absurd hu (List.not_mem_nil u))
      (isArgument_of_key A sA _ (by rw [hAmap]; exact hk3))
      (isArgument_of_key A sA _ (by rw [hAmap]; exact hk4)) (by decide)
    rw [hgenB] at h
    exact (expandLoop_cast A _ _ _ _ sA (by omega) (by simp)).trans
      (h.trans (expandLoop_cast A _ _ _ _ sB rfl (by simp)))
  have hBmap : sB.m_argumentMap = s.m_argumentMap := by rw [hsB]
  have hBmath : sB.m_math = s.m_math ++ mpre ++ [nameOf 0] ++ [nameOf 0] := by rw [hsB]
  have hBM : MapInv A sB.m_argumentMap := by rw [hBmap]; exact hs.1
  -- the operator `*` is copied
  obtain ⟨sC, hsC⟩ : ∃ sC : MathExpression V, sC = { s with
      m_generatorVec := [saturatedGenerator "+".toList n1 n2,
        saturatedGenerator "+".toList n3 n4]
      m_math := s.m_math ++ mpre ++ [nameOf 0] ++ [nameOf 0] ++ ["*".toList] } := ⟨_, rfl⟩
  have hcopy : ({ sB with m_math := sB.m_math ++ ["*".toList] } : MathExpression V) = sC := by
    rw [hsC, hsB]
  have E5 : expandLoop A (F + (2 * mpre.length + 5)) (mpre.length + 6) sB
      = expandLoop A (F + (2 * mpre.length + 4)) (mpre.length + 7) sC := by
    have h := expandLoop_copy1 A (F + (2 * mpre.length + 4))
      (mpre ++ [n1, n2, "+".toList, n3, n4]) (mpre ++ [nameOf 0] ++ [nameOf 0])
      "+".toList "*".toList sB hBM (by rw [hBmath, hm]; simp) hP hMu
    rw [hcopy] at h
    exact (expandLoop_cast A _ _ _ _ sB (by omega) (by simp)).trans
      (h.trans (expandLoop_cast A _ _ _ _ sC rfl (by simp)))
  have hCmap : sC.m_argumentMap = s.m_argumentMap := by rw [hsC]
  have hCmath : sC.m_math
      = s.m_math ++ mpre ++ [nameOf 0] ++ [nameOf 0] ++ ["*".toList] := by rw [hsC]
  have hCM : MapInv A sC.m_argumentMap := by rw [hCmap]; exact hs.1
  -- the second pass: the operands in front and the two names
  have E6 : expandLoop A (F + (2 * mpre.length + 4)) (mpre.length + 7) sC
      = expandLoop A (F + (mpre.length + 2)) (2 * mpre.length + 9) sC :=
    (expandLoop_cast A _ _ _ _ sC (by simp; omega) (by simp)).trans
      ((expandLoop_run A (F + (mpre.length + 2)) (mpre ++ [nameOf 0, nameOf 0])
        (mpre ++ [n1, n2, "+".toList, n3, n4, "+".toList, "*".toList]) ["*".toList] sC
        (by rw [hCmath, hm]; simp)
        (fun t ht => by
          rcases List.mem_append.1 ht with ht | ht
          · exact hpre t ht
          · simp only [List.mem_cons, List.mem_singleton, List.mem_nil_iff, or_false] at ht
            rcases ht with rfl | rfl <;> exact hzo)).trans
        (expandLoop_cast A _ _ _ _ sC rfl (by simp; omega)))
  -- the operator `*`
  obtain ⟨sF, hsF⟩ : ∃ sF : MathExpression V, sF = { s with
      m_generatorVec := [saturatedGenerator "+".toList n1 n2,
        saturatedGenerator "+".toList n3 n4,
        saturatedGenerator "*".toList (nameOf 0) (nameOf 0)]
      m_math := s.m_math ++ mpre ++ [nameOf 0] ++ [nameOf 0] ++ ["*".toList] ++ mpre
        ++ [nameOf 0] } := ⟨_, rfl⟩
  have hgenF : generateArgArgOp A (nameOf 0) (nameOf 0) "*".toList
      { sC with m_math := sC.m_math ++ mpre } = sF := by
    rw [generateArgArgOp_full A (nameOf 0) (nameOf 0) "*".toList
      { sC with m_math := sC.m_math ++ mpre } hCM
      (by show sC.m_argumentMap.countP counted = _; rw [hCmap]; exact hcount)
      (by show nameOf 0 ∈ mapKeys sC.m_argumentMap; rw [hCmap]; exact hz)
      (by show nameOf 0 ∈ mapKeys sC.m_argumentMap; rw [hCmap]; exact hz) hzc hzc, hsF, hsC]
    simp
  have E7 : expandLoop A (F + (mpre.length + 2)) (2 * mpre.length + 9) sC
      = expandLoop A (F + (mpre.length + 1)) (2 * mpre.length + 10) sF := by
    have h := expandLoop_reduce2 A (F + (mpre.length + 1))
      (mpre ++ [n1, n2, "+".toList, n3, n4, "+".toList, "*".toList]) mpre []
      (nameOf 0) (nameOf 0) "*".toList sC hCM
      (by rw [hCmath, hm]; simp)
      (Or.inr ⟨mpre ++ [n1, n2, "+".toList, n3, n4, "+".toList], "*".toList, by simp, hMu⟩)
      hpre
      (isArgument_of_key A sC _ (by rw [hCmap]; exact hz))
      (isArgument_of_key A sC _ (by rw [hCmap]; exact hz)) (by decide)
    rw [hgenF] at h
    exact (expandLoop_cast A _ _ _ _ sC (by omega) (by simp; omega)).trans
      (h.trans (expandLoop_cast A _ _ _ _ sF rfl (by simp; omega)))
  have hFmath : sF.m_math = s.m_math ++ mpre ++ [nameOf 0] ++ [nameOf 0] ++ ["*".toList]
      ++ mpre ++ [nameOf 0] := by rw [hsF]
  -- the third pass: nothing but arguments
  have E8 : expandLoop A (F + (mpre.length + 1)) (2 * mpre.length + 10) sF = .ok (true, sF) :=
    (expandLoop_cast A _ _ _ _ sF rfl (by simp; omega)).trans
      (expandLoop_skip A (F + (mpre.length + 1))
        (mpre ++ [n1, n2, "+".toList, n3, n4, "+".toList, "*".toList] ++ mpre
          ++ [nameOf 0, nameOf 0, "*".toList]) (mpre ++ [nameOf 0]) sF
        (by rw [hFmath, hm]; simp)
        (fun t ht => by
          rcases List.mem_append.1 ht with ht | ht
          · exact hpre t ht
          · rw [List.mem_singleton.1 ht]; exact hzo)
        (by simp))
  rw [← hsF]
  exact E1.trans (E2.trans (E3.trans (E4.trans (E5.trans (E6.trans (E7.trans E8))))))

theorem generateDoubleValue_full_add (x y : Str) (m : List (Str × Argument V))
    (a0 ax ay : Argument V) (h0 : m.lookup (nameOf 0) = some a0)
    (hx : m.lookup x = some ax) (hy : m.lookup y = some ay) :
    generateDoubleValue A (saturatedGenerator "+".toList x y) m
      = .ok (A.add ax.m_dvalue ay.m_dvalue,
          mapSetDouble m (nameOf 0) (A.add ax.m_dvalue ay.m_dvalue)) := by
  simp only [generateDoubleValue, saturatedGenerator, derefDouble, h0, hx, hy]
  rfl

theorem generateDoubleValue_full_mul (x y : Str) (m : List (Str × Argument V))
    (a0 ax ay : Argument V) (h0 : m.lookup (nameOf 0) = some a0)
    (hx : m.lookup x = some ax) (hy : m.lookup y = some ay) :
    generateDoubleValue A (saturatedGenerator "*".toList x y) m
      = .ok (A.mul ax.m_dvalue ay.m_dvalue,
          mapSetDouble m (nameOf 0) (A.mul ax.m_dvalue ay.m_dvalue)) := by
  simp only [generateDoubleValue, saturatedGenerator, derefDouble, h0, hx, hy]
  rfl

/-- An evaluation of three generators that all store into the binding `#AA`: the product takes
the second sum twice. -/
theorem surplus_calc (n1 n2 n3 n4 : Str) (s : MathExpression V) (a0 a1 a2 a3 a4 : Argument V)
    (hG : s.m_generatorVec = [saturatedGenerator "+".toList n1 n2,
      saturatedGenerator "+".toList n3 n4,
      saturatedGenerator "*".toList (nameOf 0) (nameOf 0)])
    (h0 : s.m_argumentMap.lookup (nameOf 0) = some a0)
    (h1 : s.m_argumentMap.lookup n1 = some a1) (h2 : s.m_argumentMap.lookup n2 = some a2)
    (h3 : s.m_argumentMap.lookup n3 = some a3) (h4 : s.m_argumentMap.lookup n4 = some a4)
    (hn3 : n3 ≠ nameOf 0) (hn4 : n4 ≠ nameOf 0) :
    calculateExpression A s
      = .ok (A.mul (A.add a3.m_dvalue a4.m_dvalue) (A.add a3.m_dvalue a4.m_dvalue),
          { s with
            m_argumentMap :=
              mapSetDouble
                (mapSetDouble
                  (mapSetDouble s.m_argumentMap (nameOf 0) (A.add a1.m_dvalue a2.m_dvalue))
                  (nameOf 0) (A.add a3.m_dvalue a4.m_dvalue))
                (nameOf 0)
                (A.mul (A.add a3.m_dvalue a4.m_dvalue) (A.add a3.m_dvalue a4.m_dvalue)) }) := by
  have g1 := generateDoubleValue_full_add A n1 n2 s.m_argumentMap a0 a1 a2 h0 h1 h2
  have g2 := generateDoubleValue_full_add A n3 n4
    (mapSetDouble s.m_argumentMap (nameOf 0) (A.add a1.m_dvalue a2.m_dvalue))
    { a0 with m_dvalue := A.add a1.m_dvalue a2.m_dvalue } a3 a4
    (by rw [lookup_mapSetDouble_self, h0]; rfl)
    (by rw [lookup_mapSetDouble_ne _ _ _ _ hn3, h3])
    (by rw [lookup_mapSetDouble_ne _ _ _ _ hn4, h4])
  have g3 := generateDoubleValue_full_mul A (nameOf 0) (nameOf 0)
    (mapSetDouble (mapSetDouble s.m_argumentMap (nameOf 0) (A.add a1.m_dvalue a2.m_dvalue))
      (nameOf 0) (A.add a3.m_dvalue a4.m_dvalue))
    { a0 with m_dvalue := A.add a3.m_dvalue a4.m_dvalue }
    { a0 with m_dvalue := A.add a3.m_dvalue a4.m_dvalue }
    { a0 with m_dvalue := A.add a3.m_dvalue a4.m_dvalue }
    (by rw [lookup_mapSetDouble_self, lookup_mapSetDouble_self, h0]; rfl)
    (by rw [lookup_mapSetDouble_self, lookup_mapSetDouble_self, h0]; rfl)
    (by rw [lookup_mapSetDouble_self, lookup_mapSetDouble_self, h0]; rfl)
  unfold calculateExpression
  rw [hG]
  simp only [runGenerators, g1, g2, g3]
  rfl

theorem Den.literal {env : Str → V} {M : List (Str × Argument V)} {t t2 : Str}
    (h : Den A env M t t2) (hop : hasOperatorMap t = false)
    (hal : (charAt t 0).isAlpha = false) :
    ∃ j, t2 = nameOf j ∧ ∃ a, M.lookup t2 = some a ∧ a.m_dvalue = A.atof t := by
  rcases h with h | ⟨_, _, hk, a, ha, hav⟩
  · rw [h.1] at hop; cases hop
  · rcases hk with hk | hk
    · rw [hk.1] at hal; cases hal
    · obtain ⟨j, hj⟩ := hk.2
      exact ⟨j, hj, a, ha, by rw [hav, operandValue_literal A env t hal]⟩

theorem Den.operator {env : Str → V} {M : List (Str × Argument V)} {t t2 : Str}
    (h : Den A env M t t2) (hop : hasOperatorMap t = true) : t2 = t := by
  rcases h with h | h
  · exact h.2
  · rw [h.1] at hop; cases hop

/-- The text of 6652 numbers `1` followed by `1 2 + 3 4 + *` is classified with all 6656
names: the numbers of the sequence at the end get the names of the counts 6652 to 6655. -/
theorem surplus_classify (s0 : MathExpression V) :
    ∃ s1 mpre, setArgumentMapFrom A (rpText (surplusOperands ++ surplusCore)) s0 = (true, s1)
      ∧ StInv A s1 ∧ s1.m_generatorVec = []
      ∧ s1.m_math = mpre ++ [nameOf 6652, nameOf 6653, "+".toList, nameOf 6654, nameOf 6655,
          "+".toList, "*".toList]
      ∧ mpre.length = 6652 ∧ (∀ t ∈ mpre, isOperator t = false)
      ∧ s1.m_argumentMap.countP counted = nameCapacity
      ∧ (∃ a, s1.m_argumentMap.lookup (nameOf 6652) = some a ∧ a.m_dvalue = A.atof "1".toList)
      ∧ (∃ a, s1.m_argumentMap.lookup (nameOf 6653) = some a ∧ a.m_dvalue = A.atof "2".toList)
      ∧ (∃ a, s1.m_argumentMap.lookup (nameOf 6654) = some a ∧ a.m_dvalue = A.atof "3".toList)
      ∧ (∃ a, s1.m_argumentMap.lookup (nameOf 6655) = some a
          ∧ a.m_dvalue = A.atof "4".toList) := by
  have hpreop : ∀ t ∈ surplusOperands, hasOperatorMap t = false := by
    intro t ht
    rw [surplusOperands, List.mem_replicate] at ht
    rw [ht.2]; rfl
  have htok : ∀ t ∈ surplusOperands ++ surplusCore, isRPToken t = true := by
    intro t ht
    rcases List.mem_append.1 ht with ht | ht
    · rw [surplusOperands, List.mem_replicate] at ht
      rw [ht.2]; rfl
    · simp only [surplusCore, List.mem_cons, List.mem_singleton, List.mem_nil_iff,
        or_false] at ht
      rcases ht with rfl | rfl | rfl | rfl | rfl | rfl | rfl <;> rfl
  have hlit : (surplusOperands ++ surplusCore).countP isLiteralToken = 6656 := by
    rw [surplusOperands, List.countP_append, List.countP_replicate]
    decide
  have hnum : (surplusOperands ++ surplusCore).countP isNumberToken = 6656 := by
    rw [surplusOperands, List.countP_append, List.countP_replicate]
    decide
  have hsinit : StInv A ({ s0 with
      m_reversePolish := rpText (surplusOperands ++ surplusCore)
      m_math := []
      m_argumentMap := []
      m_generatorVec := [] } : MathExpression V) :=
    ⟨MapInv.nil A, fun t ht => absurd ht (List.not_mem_nil t), fun _ => Built.base _⟩
  obtain ⟨M1, math1, hcl, hden, _, _, hcnt, hinv⟩ :=
    classifyTokens_den A (surplusOperands ++ surplusCore) 0 _ hsinit rfl
      (fun k a h => by cases h) htok
      (by
        show ([] : List (Str × Argument V)).countP counted + _ ≤ _
        rw [hlit, List.countP_nil]
        decide)
  simp only [List.nil_append, List.countP_nil, Nat.zero_add] at hcl hcnt hinv
  have hset := (setArgumentMapFrom_tokens A (surplusOperands ++ surplusCore) s0
    (fun t ht => isToken_of_isRPToken t (htok t ht))).trans hcl
  -- the names
  obtain ⟨_, _, ⟨_, htake⟩, hlenL⟩ := setArgumentMap_names A
    { s0 with m_reversePolish := rpText (surplusOperands ++ surplusCore) } _ hset
  have htxt : rpTokens (rpText (surplusOperands ++ surplusCore))
      = surplusOperands ++ surplusCore :=
    rpTokens_rpText _ (fun t ht => (isToken_iff t).1 (isToken_of_isRPToken t (htok t ht)))
  -- the entities
  obtain ⟨mpre, mR, hmath, hdpre, hdR⟩ :=
    Forall₂_append_split _ surplusOperands surplusCore math1 hden
  rw [surplusCore] at hdR
  obtain ⟨n1, r1, hd1, hr1, rfl⟩ := List.forall₂_cons_left_iff.1 hdR
  obtain ⟨n2, r2, hd2, hr2, rfl⟩ := List.forall₂_cons_left_iff.1 hr1
  obtain ⟨p1, r3, hd3, hr3, rfl⟩ := List.forall₂_cons_left_iff.1 hr2
  obtain ⟨n3, r4, hd4, hr4, rfl⟩ := List.forall₂_cons_left_iff.1 hr3
  obtain ⟨n4, r5, hd5, hr5, rfl⟩ := List.forall₂_cons_left_iff.1 hr4
  obtain ⟨p2, r6, hd6, hr6, rfl⟩ := List.forall₂_cons_left_iff.1 hr5
  obtain ⟨p3, r7, hd7, hr7, rfl⟩ := List.forall₂_cons_left_iff.1 hr6
  have hr7nil : r7 = [] := List.forall₂_nil_left_iff.1 hr7
  subst hr7nil
  obtain ⟨j1, rfl, a1, ha1, hv1⟩ := hd1.literal A (by decide) (by decide)
  obtain ⟨j2, rfl, a2, ha2, hv2⟩ := hd2.literal A (by decide) (by decide)
  obtain ⟨j3, rfl, a3, ha3, hv3⟩ := hd4.literal A (by decide) (by decide)
  obtain ⟨j4, rfl, a4, ha4, hv4⟩ := hd5.literal A (by decide) (by decide)
  have hp1 := hd3.operator A (by decide)
  have hp2 := hd6.operator A (by decide)
  have hp3 := hd7.operator A (by decide)
  subst hp1 hp2 hp3
  have hmpre : ∀ t ∈ mpre, isOperator t = false := Forall₂_Den_operands A hdpre hpreop
  have hlenpre : mpre.length = 6652 := by
    rw [← hdpre.length_eq, surplusOperands, List.length_replicate]
  -- the synthesized names of `m_math`, in order
  have hfilter : math1.filter isSynthesizedName
      = mpre.filter isSynthesizedName ++ [nameOf j1, nameOf j2, nameOf j3, nameOf j4] := by
    rw [hmath, List.filter_append]
    congr 1
  have hL : (math1.filter isSynthesizedName).length = 6656 := by
    have := hlenL
    rw [show rpTokens ({ s0 with m_reversePolish := rpText (surplusOperands ++ surplusCore) }
      : MathExpression V).m_reversePolish = surplusOperands ++ surplusCore from htxt,
      hnum] at this
    exact this
  have hcount : M1.countP counted = nameCapacity := by rw [hcnt, hlit]; rfl
  have hnames : math1.filter isSynthesizedName = (List.range 6656).map nameOf := by
    have h2 : (math1.filter isSynthesizedName ++ generatorNames []).take nameCapacity
        = (List.range (M1.countP counted)).map nameOf := htake
    rw [generatorNames, List.map_nil, List.append_nil,
      List.take_of_length_le (by rw [hL]; decide), hcount] at h2
    exact h2
  have hrange : (List.range 6656).map nameOf
      = (List.range 6652).map nameOf ++ [nameOf 6652, nameOf 6653, nameOf 6654, nameOf 6655] := by
    rw [show (6656 : Nat) = 6652 + 1 + 1 + 1 + 1 from rfl, List.range_succ, List.range_succ,
      List.range_succ, List.range_succ]
    simp
  rw [hfilter, hrange] at hnames
  obtain ⟨_, hlast4⟩ := List.append_inj' hnames rfl
  simp only [List.cons.injEq, and_true] at hlast4
  obtain ⟨e1, e2, e3, e4⟩ := hlast4
  rw [e1] at ha1
  rw [e2] at ha2
  rw [e3] at ha3
  rw [e4] at ha4
  refine ⟨_, mpre, hset, hinv, rfl, ?_, hlenpre, hmpre, hcount, ⟨a1, ha1, hv1⟩,
    ⟨a2, ha2, hv2⟩, ⟨a3, ha3, hv3⟩, ⟨a4, ha4, hv4⟩⟩
  show math1 = _
  rw [hmath, e1, e2, e3, e4]

end SurplusOverflow
section Fit

variable {V : Type} (A : Arith V)

theorem NameLaw.count_lt {L : List Str} {s : MathExpression V} (h : NameLaw L s)
    (hfit : (L ++ generatorNames s.m_generatorVec).length + 1 ≤ nameCapacity) :
    s.m_argumentMap.countP counted < nameCapacity
      ∧ (L ++ generatorNames s.m_generatorVec).length ≤ nameCapacity := by
  rw [h.1]
  constructor
  · exact lt_of_le_of_lt (Nat.min_le_left _ _) (by omega)
  · omega

theorem names_fresh_step {keys0 : List Str} (names : List Str) (nm : Str)
    (hnd : names.Nodup) (hdis : ∀ n ∈ names, n ∉ keys0)
    (hnot : ¬ (nm ∈ keys0 ∨ nm ∈ names)) :
    (names ++ [nm]).Nodup ∧ ∀ n ∈ names ++ [nm], n ∉ keys0 := by
  refine ⟨?_, ?_⟩
  · rw [List.nodup_append]
    refine ⟨hnd, List.nodup_singleton _, ?_⟩
    intro a ha hb
    rw [List.mem_singleton] at hb
    subst hb
    exact hnot (Or.inr ha)
  · intro n hn
    rcases List.mem_append.1 hn with h | h
    · exact hdis n h
    · rw [List.mem_singleton] at h
      subst h
      exact fun hk => hnot (Or.inl hk)

theorem generateArgOp_fit {keys0 L : List Str} (s : MathExpression V) (k1 k2 : Str)
    (hs : FitInv A keys0 L s) (h1 : isArgument A s k1 = true)
    (h2 : isOperatorOneArg k2 = true) : FitInv A keys0 L (generateArgOp A k1 k2 s) := by
  obtain ⟨⟨hM, hW⟩, hN, hB⟩ := hs
  refine ⟨generateArgOp_wired A s k1 k2 ⟨hM, hW⟩ h1 h2,
    (generateArgOp_names A L s k1 k2 ⟨hM, hN⟩).2, ?_⟩
  intro hfit
  have hfit2 : (L ++ generatorNames s.m_generatorVec).length + 1 ≤ nameCapacity := by
    have : (L ++ generatorNames (s.m_generatorVec ++ [_])).length ≤ nameCapacity := hfit
    rw [generatorNames_append, ← List.append_assoc, List.length_append,
      List.length_singleton] at this
    exact this
  obtain ⟨hc, hfit0⟩ := hN.count_lt hfit2
  obtain ⟨hB0, hnd, hdis⟩ := hB hfit0
  have hfk := hM.fresh_name A hc
  obtain ⟨g, f, hgen, hname, hwf, _, _⟩ := generateArgOp_fresh A s hM hc k1 k2 h1 h2
  rw [hgen]
  have hnot : ¬ (g.m_name ∈ keys0 ∨ g.m_name ∈ generatorNames s.m_generatorVec) := by
    rw [hname]
    exact fun h => hfk ((hW.1 _).2 h)
  refine ⟨?_, ?_⟩
  · show Built A (mapKeys (s.m_argumentMap ++ _)) (s.m_generatorVec ++ [g])
    rw [mapKeys_append]
    have := Built.gen g hB0 hwf (by rw [hname]; exact hfk)
    rw [hname] at this
    exact this
  · show (generatorNames (s.m_generatorVec ++ [g])).Nodup
      ∧ ∀ n ∈ generatorNames (s.m_generatorVec ++ [g]), n ∉ keys0
    rw [generatorNames_append]
    exact names_fresh_step _ _ hnd hdis hnot

theorem generateArgArgOp_fit {keys0 L : List Str} (s : MathExpression V) (k1 k2 k3 : Str)
    (hs : FitInv A keys0 L s) (h1 : isArgument A s k1 = true)
    (h2 : isArgument A s k2 = true) (h3 : isOperatorTwoArg k3 = true) :
    FitInv A keys0 L (generateArgArgOp A k1 k2 k3 s) := by
  obtain ⟨⟨hM, hW⟩, hN, hB⟩ := hs
  refine ⟨generateArgArgOp_wired A s k1 k2 k3 ⟨hM, hW⟩ h1 h2 h3,
    (generateArgArgOp_names A L s k1 k2 k3 ⟨hM, hN⟩).2, ?_⟩
  intro hfit
  have hfit2 : (L ++ generatorNames s.m_generatorVec).length + 1 ≤ nameCapacity := by
    have : (L ++ generatorNames (s.m_generatorVec ++ [_])).length ≤ nameCapacity := hfit
    rw [generatorNames_append, ← List.append_assoc, List.length_append,
      List.length_singleton] at this
    exact this
  obtain ⟨hc, hfit0⟩ := hN.count_lt hfit2
  obtain ⟨hB0, hnd, hdis⟩ := hB hfit0
  have hfk := hM.fresh_name A hc
  obtain ⟨g, f, hgen, hname, hwf, _, _⟩ :=
    generateArgArgOp_fresh A s hM hc k1 k2 k3 h1 h2 h3
  rw [hgen]
  have hnot : ¬ (g.m_name ∈ keys0 ∨ g.m_name ∈ generatorNames s.m_generatorVec) := by
    rw [hname]
    exact fun h => hfk ((hW.1 _).2 h)
  refine ⟨?_, ?_⟩
  · show Built A (mapKeys (s.m_argumentMap ++ _)) (s.m_generatorVec ++ [g])
    rw [mapKeys_append]
    have := Built.gen g hB0 hwf (by rw [hname]; exact hfk)
    rw [hname] at this
    exact this
  · show (generatorNames (s.m_generatorVec ++ [g])).Nodup
      ∧ ∀ n ∈ generatorNames (s.m_generatorVec ++ [g]), n ∉ keys0
    rw [generatorNames_append]
    exact names_fresh_step _ _ hnd hdis hnot

/-- Every program `expandMathExpression` builds on what `setArgumentMap` left, with at most as
many synthesized names as there are distinct names: the generators are built over the keys of
the argument map, their names are distinct, and none of them is a key `setArgumentMap`
made. -/
theorem compiled_fit (fuel : Nat) (s0 s1 s2 : MathExpression V) (b : Bool)
    (hmap : setArgumentMap A s0 = (true, s1))
    (hexp : expandMathExpression A fuel s1 = .ok (b, s2))
    (hcap : (synthesizedNames s1 s2).length ≤ nameCapacity) :
    Built A (mapKeys s2.m_argumentMap) s2.m_generatorVec
      ∧ (generatorNames s2.m_generatorVec).Nodup
      ∧ ∀ n ∈ generatorNames s2.m_generatorVec, n ∉ mapKeys s1.m_argumentMap := by
  obtain ⟨hS, hg, hL, _⟩ := setArgumentMap_names A s0 s1 hmap
  have h := expandLoop_induct A
    (FitInv A (mapKeys s1.m_argumentMap) (s1.m_math.filter isSynthesizedName))
    (fun i s hs _ => expandStep_preserves A
      (FitInv A (mapKeys s1.m_argumentMap) (s1.m_math.filter isSynthesizedName))
      (fun _ _ h => h) (fun _ _ _ h => h)
      (fun s k1 k2 hs h1 h2 => generateArgOp_fit A s k1 k2 hs h1 h2)
      (fun s k1 k2 k3 hs h1 h2 h3 => generateArgArgOp_fit A s k1 k2 k3 hs h1 h2 h3) i s hs)
    fuel 0 s1 s2 b
    ⟨⟨hS.1, Wired.wired_base A _ hg⟩, hL, fun _ => by
      rw [hg]
      exact ⟨Built.base _, List.nodup_nil, fun n hn => absurd hn (List.not_mem_nil n)⟩⟩
    hexp
  exact h.2.2 hcap

/-- A program that `setArgumentMap` and `expandMathExpression` built, both returning `true`,
with at most as many synthesized names as there are distinct names, can be evaluated. -/
theorem compiled_runnable_fit (fuel : Nat) (s0 s1 s2 : MathExpression V)
    (hmap : setArgumentMap A s0 = (true, s1))
    (hexp : expandMathExpression A fuel s1 = .ok (true, s2))
    (hcap : (synthesizedNames s1 s2).length ≤ nameCapacity) : Runnable A s2 := by
  refine ⟨(compiled_fit A fuel s0 s1 s2 true hmap hexp hcap).1, ?_⟩
  intro hG
  rcases compiled_last_key A fuel s0 s1 s2 hmap hexp hG with h | h
  · exact Or.inl h
  · exact Or.inr h

end Fit
/-! ## The claims -/

/-- C3. The infix text `(10 + 2) - 3 + 5` compiles to the RP text `10 2 + 3 - 5 +` without an
error; the expansion builds exactly three generators, `#AE = #AA + #AB` (10 + 2),
`#AF = #AE - #AC` (minus 3) and `#AG = #AF + #AD` (plus 5), over the literals `#AA..#AD`; and
`calculateExpression` returns 14. -/
theorem example1_rp_generators_value :
    compileAndRun 64 "(10 + 2) - 3 + 5".toList =
      .ok ⟨"10 2 + 3 - 5 +".toList, 0, 0,
        [twoArgGenerator "#AE" "+" "#AA" "#AB", twoArgGenerator "#AF" "-" "#AE" "#AC",
          twoArgGenerator "#AG" "+" "#AF" "#AD"],
        .ok (some 14)⟩ := by
  decide!

/-- C4. The infix text `162 / (2 + 1 )^4` compiles to the RP text `162 2 1 + 4 ^ /` without an
error and `calculateExpression` returns 2. -/
theorem example2_rp_value :
    (compileAndRun 64 "162 / (2 + 1 )^4".toList).map
        (fun o => (o.reversePolish, o.expressionError, o.reversePolishError, o.value)) =
      .ok ("162 2 1 + 4 ^ /".toList, 0, 0, .ok (some 2)) := by
  decide!

/-- C1 (the code departs from the claim). The infix text `2^2^1^2` is compiled to the RP text
`2 2 1 ^ 2 ^ ^`, that is `2^((2^1)^2)`, and evaluates to 16, whereas the right-associative
reading `2^(2^(1^2))` of the same text has the value 4. The infix text `2^sin(x)` is compiled
to the RP text `2 sin x ^`, which applies `sin` to 2. -/
theorem power_chain_value_differs :
    (compileAndRun 64 "2^2^1^2".toList).map (fun o => (o.reversePolish, o.value)) =
        .ok ("2 2 1 ^ 2 ^ ^".toList, .ok (some 16)) ∧
      exactArith.pow (some 2) (exactArith.pow (some 2) (exactArith.pow (some 1) (some 2)))
        = some 4 ∧
      (compileAndRun 64 "2^sin(x)".toList).map (fun o => o.reversePolish) =
        .ok "2 sin x ^".toList := by
  decide!

/-- C5. For all operand tokens `a`, `b`, `c`, the infix texts `a^b^c` and `a^(b^c)` both
convert (with enough fuel for the pre-pass) to the RP text `a b c ^ ^`; and `2^2^3` has the RP
text `2 2 3 ^ ^` and evaluates to 256, while the left-associative reading `(2^2)^3` would
give 64. -/
theorem power_right_assoc_three (V : Type) (a b c : Str) (ha : isOperand a = true)
    (hb : isOperand b = true) (hc : isOperand c = true) (fuel : Nat)
    (hfuel : a.length + b.length + c.length + 6 ≤ fuel) :
    (expressionToReversePolish fuel
        (setExpression (a ++ '^' :: (b ++ '^' :: c)) (MathExpression.new V))).map
          (fun r => (r.1, r.2.m_reversePolish))
        = .ok (true, a ++ ' ' :: (b ++ ' ' :: (c ++ " ^ ^".toList))) ∧
      (expressionToReversePolish fuel
        (setExpression (a ++ '^' :: '(' :: (b ++ '^' :: (c ++ [')'])))
          (MathExpression.new V))).map (fun r => (r.1, r.2.m_reversePolish))
        = .ok (true, a ++ ' ' :: (b ++ ' ' :: (c ++ " ^ ^".toList))) ∧
      (compileAndRun 64 "2^2^3".toList).map (fun o => (o.reversePolish, o.value)) =
        .ok ("2 2 3 ^ ^".toList, .ok (some 256)) ∧
      exactArith.pow (exactArith.pow (some 2) (some 2)) (some 3) = some 64 := by
  refine ⟨?_, ?_, by decide!, by decide!⟩
  · rw [chain3_rp a b c ha hb hc fuel (by omega)]
    rfl
  · rw [chain3_grouped_rp a b c ha hb hc fuel hfuel]
    rfl

/-- Witness of `power_right_assoc_three` at `2^2^3`. -/
theorem power_right_assoc_three_witness :
    isOperand "2".toList = true ∧ isOperand "3".toList = true ∧
      (expressionToReversePolish 64
        (setExpression "2^2^3".toList (MathExpression.new (Option ℚ)))).map
          (fun r => (r.1, r.2.m_reversePolish)) = .ok (true, "2 2 3 ^ ^".toList) :=
  ⟨by decide, by decide,
    (power_right_assoc_three (Option ℚ) "2".toList "2".toList "3".toList (by decide) (by decide)
      (by decide) 64 (by decide)).1⟩

/-- C6 (the code departs from the claim). A chain of four operands joined by `^` is not
grouped to the right: the infix text `1^2^3^4` converts to the RP text `1 2 3 ^ 4 ^ ^`, the RP
of `1^((2^3)^4)`, and not to `1 2 3 4 ^ ^ ^`; the pre-pass rewrites it to `1^(2^3^4)`. -/
theorem power_chain_four_rp :
    (expressionToReversePolish 64
        (setExpression "1^2^3^4".toList (MathExpression.new (Option ℚ)))).map
          (fun r => (r.1, r.2.m_expression, r.2.m_reversePolish))
      = .ok (true, "1^(2^3^4)".toList, "1 2 3 ^ 4 ^ ^".toList) := by
  decide!

/-- C7. Sign folding: for all unsigned numbers `a` and `b`, the pre-pass rewrites `a+-b` and
`a-+b` to `a-b`, which converts to the RP text `a b -`, and rewrites `a--b` and `a++b` to
`a+b`, which converts to the RP text `a b +`; `10+-5` and `10-+5` both give the RP text
`10 5 -` and the value 5. -/
theorem sign_folding (V : Type) (a b : Str) (ha : isUnsignedNumber a = true)
    (hb : isUnsignedNumber b = true) (fuel : Nat) (hfuel : a.length + b.length + 2 ≤ fuel) :
    (∀ x y : Char, (x = '+' ∧ y = '-') ∨ (x = '-' ∧ y = '+') →
      (expressionToReversePolish fuel
        (setExpression (a ++ x :: y :: b) (MathExpression.new V))).map
          (fun r => (r.1, r.2.m_expression, r.2.m_reversePolish))
        = .ok (true, a ++ '-' :: b, a ++ ' ' :: (b ++ " -".toList))) ∧
      (∀ x y : Char, (x = '-' ∧ y = '-') ∨ (x = '+' ∧ y = '+') →
        (expressionToReversePolish fuel
          (setExpression (a ++ x :: y :: b) (MathExpression.new V))).map
            (fun r => (r.1, r.2.m_expression, r.2.m_reversePolish))
          = .ok (true, a ++ '+' :: b, a ++ ' ' :: (b ++ " +".toList))) ∧
      (compileAndRun 64 "10+-5".toList).map (fun o => (o.reversePolish, o.value)) =
        .ok ("10 5 -".toList, .ok (some 5)) ∧
      (compileAndRun 64 "10-+5".toList).map (fun o => (o.reversePolish, o.value)) =
        .ok ("10 5 -".toList, .ok (some 5)) := by
  have ha2 : isOperand a = true := by simp [isOperand, ha]
  have hb2 : isOperand b = true := by simp [isOperand, hb]
  refine ⟨?_, ?_, by decide!, by decide!⟩
  · rintro x y (⟨rfl, rfl⟩ | ⟨rfl, rfl⟩)
    · rw [sign_pair_rp a b '+' '-' ha2 hb2 (Or.inl rfl) (Or.inr rfl) fuel hfuel]
      simp [Except.map, withRP]
    · rw [sign_pair_rp a b '-' '+' ha2 hb2 (Or.inr rfl) (Or.inl rfl) fuel hfuel]
      simp [Except.map, withRP]
  · rintro x y (⟨rfl, rfl⟩ | ⟨rfl, rfl⟩)
    · rw [sign_pair_rp a b '-' '-' ha2 hb2 (Or.inr rfl) (Or.inr rfl) fuel hfuel]
      simp [Except.map, withRP]
    · rw [sign_pair_rp a b '+' '+' ha2 hb2 (Or.inl rfl) (Or.inl rfl) fuel hfuel]
      simp [Except.map, withRP]

/-- Witness of `sign_folding` at `10+-5`. -/
theorem sign_folding_witness :
    isUnsignedNumber "10".toList = true ∧ isUnsignedNumber "5".toList = true ∧
      (expressionToReversePolish 64
        (setExpression "10+-5".toList (MathExpression.new (Option ℚ)))).map
          (fun r => (r.1, r.2.m_expression, r.2.m_reversePolish))
        = .ok (true, "10-5".toList, "10 5 -".toList) :=
  ⟨by decide, by decide,
    (sign_folding (Option ℚ) "10".toList "5".toList (by decide) (by decide) 64 (by decide)).1
      '+' '-' (Or.inl ⟨rfl, rfl⟩)⟩

/-- C10 (counterexample). Compiling `(1+2` does not set expression error 4: the error number
of the infix stage stays 0. -/
theorem unclosed_parenthesis_not_error4 :
    (compileAndRun 64 "(1+2".toList).map (fun o => o.expressionError) ≠ .ok 4 := by
  decide!

/-- C10 (amended). Compiling `(1+2` is rejected, but by the symbol-table stage and not as an
unmatched parenthesis: `expressionToReversePolish` returns `true` and flushes the unclosed `(`
into the RP text `1 2 + (`, leaving the expression error 0; `setArgumentMap` then returns
`false` on the token `(`, with `m_reversePolishError` set to its index 6 and the message that
the operator `(` does not exist in the operator map. -/
theorem unclosed_parenthesis_unknown_operator :
    ((expressionToReversePolish 64
        (setExpression "(1+2".toList (MathExpression.new (Option ℚ)))).map fun r =>
          (r.1, r.2.m_reversePolish, r.2.m_expressionError,
            (setArgumentMap exactArith r.2).1,
            (setArgumentMap exactArith r.2).2.m_reversePolishError,
            (setArgumentMap exactArith r.2).2.m_reversePolishErrorString))
      = .ok (true, "1 2 + (".toList, 0, false, 6,
          "The operator '(' doesn't exist in the operator map".toList) := by
  decide!

/-- C2. For every list of Reverse Polish entities that the standard postfix stack evaluator
reduces to exactly one value `v` (operators taking as many values as their registered type
says), with fewer than 676 numbers plus operators: on the text of the list `setArgumentMap`
returns `true`; `expandMathExpression` returns `true` (given a trip of its loop for every entity
of every pass), having built one generator per operator; and after any `setVariableDouble`
calls on variables, `calculateExpression` returns `v`, the value of the evaluator for the
values set. -/
theorem rp_expansion_refines_postfix (V : Type) (A : Arith V) (toks : List Str)
    (vals : List (Str × V)) (v : V) (s0 : MathExpression V)
    (hsize : toks.countP isLiteralToken + toks.countP hasOperatorMap < 676)
    (hvals : ∀ kv ∈ vals, isVariableName A kv.1 = true)
    (hwf : postfixEval A (envOf A vals) toks [] = some [v]) :
    ∃ s1, setArgumentMapFrom A (rpText toks) s0 = (true, s1)
      ∧ ∀ fuel, toks.length * (toks.length + 2) ≤ fuel →
        ∃ s2, expandMathExpression A fuel s1 = .ok (true, s2)
          ∧ s2.m_generatorVec.length = toks.countP hasOperatorMap
          ∧ ∃ s3, calculateExpression A (setVariables vals s2) = .ok (v, s3) :=
  rp_program_spec A toks vals v s0
    (le_trans (le_of_lt hsize) (by decide)) hvals hwf

/-- Witness of `rp_expansion_refines_postfix` at the text `x 2 +` with `x = 3`. -/
theorem rp_expansion_refines_postfix_witness :
    sampleTokens.countP isLiteralToken + sampleTokens.countP hasOperatorMap < 676
      ∧ (∀ kv ∈ sampleValues, isVariableName exactArith kv.1 = true)
      ∧ postfixEval exactArith (envOf exactArith sampleValues) sampleTokens [] = some [some 5]
      ∧ ∃ s1, setArgumentMapFrom exactArith (rpText sampleTokens)
            (MathExpression.new (Option ℚ)) = (true, s1)
        ∧ ∀ fuel, sampleTokens.length * (sampleTokens.length + 2) ≤ fuel →
          ∃ s2, expandMathExpression exactArith fuel s1 = .ok (true, s2)
            ∧ s2.m_generatorVec.length = sampleTokens.countP hasOperatorMap
            ∧ ∃ s3, calculateExpression exactArith (setVariables sampleValues s2)
                = .ok (some 5, s3) :=
  ⟨by decide, by decide!, by decide!,
    rp_expansion_refines_postfix (Option ℚ) exactArith sampleTokens sampleValues (some 5)
      (MathExpression.new (Option ℚ)) (by decide) (by decide!) (by decide!)⟩

/-- C8 (counterexample). The Reverse Polish text `5 1 +` followed by 6654 numbers `1` compiles
with `setArgumentMap` and `expandMathExpression` both returning `true`; its 6656 numbers use up
the 6656 synthesized names, so the generator of `+` gets the name `#AA` of the number `5` again;
two consecutive `calculateExpression` calls return 6 and then 7. -/
theorem evaluation_not_idempotent_at_capacity :
    ∃ s1 s2 s3 s4 : MathExpression (Option ℚ),
      setArgumentMapFrom exactArith overflowText (MathExpression.new (Option ℚ)) = (true, s1)
      ∧ expandMathExpression exactArith 6658 s1 = .ok (true, s2)
      ∧ getEntitySize s2 .Argument = nameCapacity
      ∧ calculateExpression exactArith s2 = .ok (some 6, s3)
      ∧ calculateExpression exactArith s3 = .ok (some 7, s4) := by
  obtain ⟨s1, s2, s3, s4, h1, h2, _, h4, h5, h6⟩ := overflow_evaluations
  exact ⟨s1, s2, s3, s4, h1, h2 6658 (Nat.le_refl _), h4, h5, h6⟩

/-- C8 (amended). Idempotence of evaluation within the capacity of the synthesized names: for
every program that `setArgumentMap` and `expandMathExpression` built, both returning `true`,
with at most 6656 synthesized names (those of the numbers and those of the generators), and
after any `setVariableDouble` calls, two consecutive `calculateExpression` calls both return,
with the identical value. -/
theorem evaluation_idempotent (V : Type) (A : Arith V) (fuel : Nat)
    (s0 s1 s2 : MathExpression V) (hmap : setArgumentMap A s0 = (true, s1))
    (hexp : expandMathExpression A fuel s1 = .ok (true, s2))
    (hcap : (synthesizedNames s1 s2).length ≤ nameCapacity) (vals : List (Str × V)) :
    ∃ v s3 s4, calculateExpression A (setVariables vals s2) = .ok (v, s3)
      ∧ calculateExpression A s3 = .ok (v, s4) :=
  calc_twice A _ ((compiled_runnable_fit A fuel s0 s1 s2 hmap hexp hcap).setVariables A vals)

/-- Witness of `evaluation_idempotent` at the text `x 2 +` with `x = 3`. -/
theorem evaluation_idempotent_witness :
    setArgumentMap exactArith sampleSource = (true, sampleMapped)
      ∧ expandMathExpression exactArith 16 sampleMapped = .ok (true, sampleProgram)
      ∧ (synthesizedNames sampleMapped sampleProgram).length ≤ nameCapacity
      ∧ ∃ v s3 s4, calculateExpression exactArith (setVariables sampleValues sampleProgram)
            = .ok (v, s3)
          ∧ calculateExpression exactArith s3 = .ok (v, s4) :=
  ⟨by decide!, by decide!, by decide!,
    evaluation_idempotent (Option ℚ) exactArith 16 sampleSource sampleMapped sampleProgram
      (by decide!) (by decide!) (by decide!) sampleValues⟩

/-- C9 (counterexample). The Reverse Polish text `5 1 +` followed by 6654 numbers `1` compiles
with `setArgumentMap` and `expandMathExpression` both returning `true`, to a program with one
generator, whose name `#AA` is the name of the number `5`; after one `calculateExpression` call
`calculateExpression` returns 7, on the freshly compiled program it returns 6. -/
theorem evaluation_history_dependent_at_capacity :
    ∃ s1 s2 s3 s4 s5 : MathExpression (Option ℚ),
      setArgumentMapFrom exactArith overflowText (MathExpression.new (Option ℚ)) = (true, s1)
      ∧ expandMathExpression exactArith 6658 s1 = .ok (true, s2)
      ∧ s2.m_generatorVec.length = 1
      ∧ runCalls exactArith [Call.calculate] s2 = .ok s3
      ∧ calculateExpression exactArith s3 = .ok (some 7, s4)
      ∧ calculateExpression exactArith (setVariables (settingsOf [Call.calculate]) s2)
          = .ok (some 6, s5) := by
  obtain ⟨s1, s2, s3, s4, h1, h2, h3, _, h5, h6⟩ := overflow_evaluations
  refine ⟨s1, s2, s3, s4, s3, h1, h2 6658 (Nat.le_refl _), h3, ?_, h6, h5⟩
  rw [runCalls, h5]
  rfl

/-- C9 (amended). History independence of re-evaluation within the capacity of the synthesized
names: for every program that `setArgumentMap` and `expandMathExpression` built, both
returning `true`, with at most 6656 synthesized names (those of the numbers and those of the
generators), any sequence of `setVariableDouble` and `calculateExpression` calls runs through,
and `calculateExpression` then returns the value it returns on the freshly built program on
which only the `setVariableDouble` calls of the sequence were made. -/
theorem evaluation_history_independent (V : Type) (A : Arith V) (fuel : Nat)
    (s0 s1 s2 : MathExpression V) (hmap : setArgumentMap A s0 = (true, s1))
    (hexp : expandMathExpression A fuel s1 = .ok (true, s2))
    (hcap : (synthesizedNames s1 s2).length ≤ nameCapacity) (calls : List (Call V)) :
    ∃ s3, runCalls A calls s2 = .ok s3
      ∧ ∃ v s4 s5, calculateExpression A s3 = .ok (v, s4)
        ∧ calculateExpression A (setVariables (settingsOf calls) s2) = .ok (v, s5) := by
  have hR := compiled_runnable_fit A fuel s0 s1 s2 hmap hexp hcap
  obtain ⟨s3, hrun, hR3, hS⟩ := calls_agree A calls s2 s2 hR (SameProgram.same_refl s2)
  obtain ⟨v, s4, s5, h4, h5, _, _⟩ := calc_agree A s3 _ hR3 hS
  exact ⟨s3, hrun, v, s4, s5, h4, h5⟩

/-- Witness of `evaluation_history_independent` at the text `x 2 +` and the calls
`sampleCalls`. -/
theorem evaluation_history_independent_witness :
    setArgumentMap exactArith sampleSource = (true, sampleMapped)
      ∧ expandMathExpression exactArith 16 sampleMapped = .ok (true, sampleProgram)
      ∧ (synthesizedNames sampleMapped sampleProgram).length ≤ nameCapacity
      ∧ ∃ s3, runCalls exactArith sampleCalls sampleProgram = .ok s3
        ∧ ∃ v s4 s5, calculateExpression exactArith s3 = .ok (v, s4)
          ∧ calculateExpression exactArith
              (setVariables (settingsOf sampleCalls) sampleProgram) = .ok (v, s5) :=
  ⟨by decide!, by decide!, by decide!,
    evaluation_history_independent (Option ℚ) exactArith 16 sampleSource sampleMapped
      sampleProgram (by decide!) (by decide!) (by decide!) sampleCalls⟩

/-- C11 (counterexample). Compiling `*3+2` does not set the expression error 1: the error
number after `setMath` is not 1. -/
theorem leading_operator_not_error1 :
    (compileAndRun 64 "*3+2".toList).map (fun o => o.expressionError) ≠ .ok 1 := by
  decide!

/-- C11 (amended). Compiling `*3+2`, which begins with a binary operator, fails with the
error of a malformed start: `expressionToReversePolish` returns `false` at the first character
with expression error 5, "The expression has incorect begining", and an empty RP text; the
later stages of `setMath` leave that error in place and build no generator. -/
theorem leading_operator_malformed_start :
    ((expressionToReversePolish 64
        (setExpression "*3+2".toList (MathExpression.new (Option ℚ)))).map fun r =>
          (r.1, r.2.m_reversePolish, r.2.m_expressionError, r.2.m_expressionErrorString))
      = .ok (false, [], 5, "The expression has incorect begining".toList)
    ∧ (compileAndRun 64 "*3+2".toList).map
        (fun o => (o.reversePolish, o.expressionError, o.generators))
      = .ok ([], 5, []) := by
  constructor <;> decide!

/-- C12. Compiling `1)` hands the `)` to `pushToReversePolish` while the working stack is
empty: the loop `for(; m_RPstack[0] != "(";)` reads `m_RPstack[0]` of an empty vector, which
is undefined behaviour, before the statements that set the error 4 can run. -/
theorem close_parenthesis_without_open_undefined :
    pushToReversePolish [')'] 'S' (withRP (MathExpression.new (Option ℚ)) "1".toList [])
        = .error .undefinedBehaviour
      ∧ compileAndRun 64 "1)".toList = .error .undefinedBehaviour :=
  ⟨pushToReversePolish_close_no_open 'S' _ (Or.inr rfl)
      (fun x hx => absurd hx (List.not_mem_nil x)), by decide!⟩

/-- C20. After `setMath("1+2")` the call `setMath("3+4")` on the same object appends to the
RP text that is already there: the RP text is `1 2 + 3 4 +` and there are two generators,
while on a fresh object `setMath("3+4")` gives the RP text `3 4 +` and one generator. -/
theorem recompilation_appends_to_rp_text :
    (recompileAndRun 64 "1+2".toList "3+4".toList).map
        (fun o => (o.reversePolish, o.generators.length))
      = .ok ("1 2 + 3 4 +".toList, 2)
    ∧ (compileAndRun 64 "3+4".toList).map (fun o => (o.reversePolish, o.generators.length))
      = .ok ("3 4 +".toList, 1) := by
  constructor <;> decide!
/-- C16. On the RP text `1 2 + +`, whose second `+` has one operand, `setArgumentMap` returns
`true` and `expandMathExpression` then does not return `false` with the error 2: it does not
return at all, whatever the fuel. -/
theorem dangling_operator_never_returns :
    ∃ s1, setArgumentMapFrom exactArith "1 2 + +".toList (MathExpression.new (Option ℚ))
        = (true, s1)
      ∧ ∀ fuel, expandMathExpression exactArith fuel s1 = .error .outOfFuel := by
  have h1 : (setArgumentMapFrom exactArith "1 2 + +".toList
      (MathExpression.new (Option ℚ))).1 = true := by decide!
  have hset : setArgumentMapFrom exactArith "1 2 + +".toList (MathExpression.new (Option ℚ))
      = (true, (setArgumentMapFrom exactArith "1 2 + +".toList
          (MathExpression.new (Option ℚ))).2) := Prod.ext h1 rfl
  refine ⟨_, hset, ?_⟩
  have hs := (setArgumentMap_inv exactArith _ _ hset).1
  exact expand_two_operands_two_operators exactArith _ hs (nameOf 0) (nameOf 1) "+".toList
    "+".toList (by decide!) (hasOperatorMap_nameOf 0) (hasOperatorMap_nameOf 1)
    (by decide) (by decide)

/-- C17. Compiling the infix text `1+2+` does not end: `expressionToReversePolish` and
`setArgumentMap` return `true`, with the RP text `1 2 + +`, and the loop of
`expandMathExpression` then runs for ever, so `setMath` runs out of every amount of fuel. -/
theorem compilation_does_not_terminate (fuel : Nat) :
    setMath exactArith fuel "1+2+".toList (MathExpression.new (Option ℚ))
      = .error .outOfFuel := by
  by_cases hf : 12 < fuel
  · obtain ⟨e1, he1, _⟩ := prepassLoop_total
      (setExpression "1+2+".toList (MathExpression.new (Option ℚ))).m_expression
    have hsame : expressionToReversePolish fuel
          (setExpression "1+2+".toList (MathExpression.new (Option ℚ)))
        = expressionToReversePolish 13
          (setExpression "1+2+".toList (MathExpression.new (Option ℚ))) := by
      simp only [expressionToReversePolish, he1 fuel hf, he1 13 (by decide)]
    have hfact : (expressionToReversePolish 13
          (setExpression "1+2+".toList (MathExpression.new (Option ℚ)))).map
          (fun r => ((setArgumentMap exactArith r.2).1, (setArgumentMap exactArith r.2).2.m_math))
        = .ok (true, [nameOf 0, nameOf 1, "+".toList, "+".toList]) := by decide!
    rw [setMath, hsame]
    cases hr : expressionToReversePolish 13
        (setExpression "1+2+".toList (MathExpression.new (Option ℚ))) with
    | error f =>
      rw [hr] at hfact
      cases hfact
    | ok r =>
      rw [hr] at hfact
      obtain ⟨b, s1⟩ := r
      have h2 := Except.ok.inj hfact
      have hb : (setArgumentMap exactArith s1).1 = true := congrArg Prod.fst h2
      have hm : (setArgumentMap exactArith s1).2.m_math
          = [nameOf 0, nameOf 1, "+".toList, "+".toList] := congrArg Prod.snd h2
      have hs := (setArgumentMap_inv exactArith s1 _ (Prod.ext hb rfl)).1
      have hx := expand_two_operands_two_operators exactArith _ hs (nameOf 0) (nameOf 1)
        "+".toList "+".toList hm (hasOperatorMap_nameOf 0) (hasOperatorMap_nameOf 1)
        (by decide) (by decide) fuel
      simp only [hx]
  · have hle : fuel ≤ 12 := by omega
    have hall : ∀ k, k ≤ 12 → (compileAndRun k "1+2+".toList) = .error .outOfFuel := by
      decide!
    have := hall fuel hle
    unfold compileAndRun at this
    cases hr : setMath exactArith fuel "1+2+".toList (MathExpression.new (Option ℚ)) with
    | error f =>
      rw [hr] at this
      have h3 : (Except.error f : Except Fault Observation) = .error .outOfFuel := this
      injection h3 with h4
      rw [h4]
    | ok s =>
      rw [hr] at this
      cases this

/-- C13. For every object with a non-empty expression text, with fuel for three trips of the
pre-pass for each character: if the first character is not a sign, a digit, a point, a letter
or `(`, then `expressionToReversePolish` returns `false`, having set the error 5 with its
message and changed neither the RP text nor anything but the working stack and the rewritten
expression text; if the first character is one of these, `expressionToReversePolish` does not
return `false`. -/
theorem malformed_start_iff (V : Type) (s : MathExpression V) (c : Char) (rest : Str)
    (hs : s.m_expression = c :: rest) :
    ∃ e1, ∀ fuel, 3 * s.m_expression.length < fuel →
      (startsWell c = false → expressionToReversePolish fuel s
        = .ok (false,
            { s with
              m_RPstack := []
              m_expression := e1
              m_expressionError := 5
              m_expressionErrorString := "The expression has incorect begining".toList }))
      ∧ (startsWell c = true → ∀ s1, expressionToReversePolish fuel s ≠ .ok (false, s1)) :=
  expressionToReversePolish_start s c rest hs

/-- Witness of `malformed_start_iff` at the expression `*3+2`. -/
theorem malformed_start_iff_witness :
    (setExpression "*3+2".toList (MathExpression.new (Option ℚ))).m_expression
        = '*' :: "3+2".toList
      ∧ ∃ e1, ∀ fuel,
        3 * (setExpression "*3+2".toList (MathExpression.new (Option ℚ))).m_expression.length
            < fuel →
        (startsWell '*' = false → expressionToReversePolish fuel
            (setExpression "*3+2".toList (MathExpression.new (Option ℚ)))
          = .ok (false,
              { setExpression "*3+2".toList (MathExpression.new (Option ℚ)) with
                m_RPstack := []
                m_expression := e1
                m_expressionError := 5
                m_expressionErrorString := "The expression has incorect begining".toList }))
        ∧ (startsWell '*' = true → ∀ s1, expressionToReversePolish fuel
            (setExpression "*3+2".toList (MathExpression.new (Option ℚ))) ≠ .ok (false, s1)) :=
  ⟨by decide, malformed_start_iff (Option ℚ) _ '*' "3+2".toList (by decide)⟩

/-- C14. Function `setArgumentMap` returns `false` exactly when some space-separated token of
the RP text does not start with a letter, is not accepted as a number by `isNumber` and is not
the name of a registered operator; it then reports the unknown-operator message for such a
token. It returns `true` when every token is of one of the three kinds. -/
theorem setArgumentMap_false_iff_unknown_token (V : Type) (A : Arith V)
    (s : MathExpression V) :
    ((setArgumentMap A s).1 = false
        ↔ ∃ t ∈ rpTokens s.m_reversePolish, entityKnown t = false)
      ∧ ((setArgumentMap A s).1 = true
        ↔ ∀ t ∈ rpTokens s.m_reversePolish, entityKnown t = true)
      ∧ ((setArgumentMap A s).1 = false →
        ∃ t ∈ rpTokens s.m_reversePolish, entityKnown t = false
          ∧ (setArgumentMap A s).2.m_reversePolishErrorString = unknownOperatorMessage t) := by
  rcases setArgumentMap_known A s with ⟨h1, h2⟩ | ⟨h1, t, ht, hk, hmsg⟩
  · refine ⟨⟨fun h => ?_, fun ⟨t, ht, hk⟩ => ?_⟩, ⟨fun _ => h2, fun _ => h1⟩, fun h => ?_⟩
    · rw [h1] at h
      cases h
    · rw [h2 t ht] at hk
      cases hk
    · rw [h1] at h
      cases h
  · refine ⟨⟨fun _ => ⟨t, ht, hk⟩, fun _ => h1⟩, ⟨fun h => ?_, fun h => ?_⟩,
      fun _ => ⟨t, ht, hk, hmsg⟩⟩
    · rw [h1] at h
      cases h
    · rw [h t ht] at hk
      cases hk

/-- C15. Given fuel for one trip of its loop, `expandMathExpression` returns `false` with the
expression error 1 exactly when `m_math` is not empty and its first entity is a registered
operator; it then returns at once, with the error 1 and its message set and nothing else
changed, so no generator is created. -/
theorem leading_operator_error1_iff (V : Type) (A : Arith V) (fuel : Nat)
    (s : MathExpression V) :
    ((∃ s1, expandMathExpression A (fuel + 1) s = .ok (false, s1) ∧ s1.m_expressionError = 1)
        ↔ ∃ t rest, s.m_math = t :: rest ∧ isOperator t = true)
      ∧ ((∃ t rest, s.m_math = t :: rest ∧ isOperator t = true) →
        expandMathExpression A (fuel + 1) s = .ok (false,
          { s with
            m_expressionError := 1
            m_expressionErrorString :=
              "The RP expression starts with an operator".toList })) := by
  have hlead : (∃ t rest, s.m_math = t :: rest ∧ isOperator t = true) →
      expandMathExpression A (fuel + 1) s = .ok (false,
        { s with
          m_expressionError := 1
          m_expressionErrorString := "The RP expression starts with an operator".toList }) :=
    fun ⟨t, rest, hm, ht⟩ => expandLoop_leading_operator A fuel s t rest hm ht
  refine ⟨⟨fun ⟨s1, h, herr⟩ => ?_, fun h => ⟨_, hlead h, rfl⟩⟩, hlead⟩
  cases hm : s.m_math with
  | nil =>
    rw [expandMathExpression, expandLoop_empty A _ s hm] at h
    cases h
  | cons t rest =>
    by_cases ht : isOperator t = true
    · exact ⟨t, rest, rfl, ht⟩
    · have h2 := expandLoop_operand_first A (fuel + 1) s s1 t rest hm
        (by simpa using ht) h
      rw [h2] at herr
      cases herr

/-- C18 (counterexample). Compiling `(1+2`: `expressionToReversePolish` returns `true`,
`setArgumentMap` returns `false`, and `expandMathExpression` has been run all the same: the
object holds a generator after `setMath`. -/
theorem failed_stage_does_not_stop :
    ((expressionToReversePolish 64
        (setExpression "(1+2".toList (MathExpression.new (Option ℚ)))).map fun r =>
          (r.1, (setArgumentMap exactArith r.2).1))
      = .ok (true, false)
    ∧ (compileAndRun 64 "(1+2".toList).map (fun o => o.generators.length) = .ok 1 := by
  constructor <;> decide!

/-- C18 (amended). Function `setMath` runs every stage whatever the stage before returned: for
every expression and every object, its result is that of `expandMathExpression` on the object
`setArgumentMap` leaves, run on the object `expressionToReversePolish` leaves, whether these
returned `true` or `false`. In particular, for an expression whose first character is not a
sign, a digit, a point, a letter or `(`, the stage `expressionToReversePolish` stops at that
character with the error 5, and `setArgumentMap` and `expandMathExpression` are then run on
the RP text the object held before. -/
theorem setMath_runs_every_stage (V : Type) (A : Arith V) (e : Str) (s : MathExpression V) :
    (∀ fuel b s1, expressionToReversePolish fuel (setExpression e s) = .ok (b, s1) →
        setMath A fuel e s
          = (expandMathExpression A fuel (setArgumentMap A s1).2).map Prod.snd)
      ∧ ∀ c rest, (setExpression e s).m_expression = c :: rest → startsWell c = false →
        ∃ e1, ∀ fuel, 3 * (setExpression e s).m_expression.length < fuel →
          setMath A fuel e s
            = (expandMathExpression A fuel (setArgumentMap A
                { setExpression e s with
                  m_RPstack := []
                  m_expression := e1
                  m_expressionError := 5
                  m_expressionErrorString :=
                    "The expression has incorect begining".toList }).2).map Prod.snd := by
  refine ⟨fun fuel b s1 h => setMath_stages A fuel e s s1 b h, ?_⟩
  intro c rest he hbad
  obtain ⟨e1, h1⟩ := expressionToReversePolish_start (setExpression e s) c rest he
  exact ⟨e1, fun fuel hf => setMath_stages A fuel e s _ false ((h1 fuel hf).1 hbad)⟩

/-- Witness of `setMath_runs_every_stage`: the expression `(1+2`, whose first stage returns
`true` and whose second stage returns `false`, and the expression `*3+2`, whose first stage
returns `false`, both on a fresh object. -/
theorem setMath_runs_every_stage_witness :
    ((expressionToReversePolish 64
        (setExpression "(1+2".toList (MathExpression.new (Option ℚ)))).map fun r =>
          (r.1, (setArgumentMap exactArith r.2).1))
      = .ok (true, false)
      ∧ (∀ fuel b s1,
          expressionToReversePolish fuel
              (setExpression "(1+2".toList (MathExpression.new (Option ℚ))) = .ok (b, s1) →
          setMath exactArith fuel "(1+2".toList (MathExpression.new (Option ℚ))
            = (expandMathExpression exactArith fuel
                (setArgumentMap exactArith s1).2).map Prod.snd)
      ∧ (setExpression "*3+2".toList (MathExpression.new (Option ℚ))).m_expression
          = '*' :: "3+2".toList
      ∧ startsWell '*' = false
      ∧ ∃ e1, ∀ fuel,
        3 * (setExpression "*3+2".toList (MathExpression.new (Option ℚ))).m_expression.length
            < fuel →
        setMath exactArith fuel "*3+2".toList (MathExpression.new (Option ℚ))
          = (expandMathExpression exactArith fuel (setArgumentMap exactArith
              { setExpression "*3+2".toList (MathExpression.new (Option ℚ)) with
                m_RPstack := []
                m_expression := e1
                m_expressionError := 5
                m_expressionErrorString :=
                  "The expression has incorect begining".toList }).2).map Prod.snd :=
  ⟨by decide!,
    (setMath_runs_every_stage (Option ℚ) exactArith "(1+2".toList
      (MathExpression.new (Option ℚ))).1,
    by decide, by decide,
    (setMath_runs_every_stage (Option ℚ) exactArith "*3+2".toList
      (MathExpression.new (Option ℚ))).2 '*' "3+2".toList (by decide) (by decide)⟩

/-- C19 (counterexample). Compiling `(x+2` fails in `setArgumentMap`, which reports the
unknown operator `(` at index 6; afterwards the symbol table holds three entries and the
generator list one generator, `getVariableSize` returns 1 and `calculateExpression` returns 2,
not 0. -/
theorem failed_compilation_keeps_program :
    (setMath exactArith 64 "(x+2".toList (MathExpression.new (Option ℚ))).map
        (fun s => (s.m_reversePolishError, s.m_argumentMap.length, s.m_generatorVec.length,
          getVariableSize s))
      = .ok (6, 3, 1, 1)
    ∧ (compileAndRun 64 "(x+2".toList).map (fun o => o.value) = .ok (.ok (some 2)) := by
  constructor <;> decide!

/-- C19 (amended). After a compilation that fails in `expressionToReversePolish` (first
character not a sign, a digit, a point, a letter or `(`) on an object whose RP text is empty,
as on a fresh or cleared object: `setMath` returns, the expression error is 5, the symbol
table and the generator list are empty, `getVariableSize` returns 0 and a following
`calculateExpression` returns `0.0`. -/
theorem malformed_start_leaves_empty_program (V : Type) (A : Arith V) (e : Str)
    (s : MathExpression V) (c : Char) (rest : Str) (hrp : s.m_reversePolish = [])
    (he : (setExpression e s).m_expression = c :: rest) (hbad : startsWell c = false) :
    ∃ s2, (∀ fuel, 3 * (setExpression e s).m_expression.length < fuel →
          setMath A fuel e s = .ok s2)
      ∧ s2.m_expressionError = 5 ∧ s2.m_argumentMap = [] ∧ s2.m_generatorVec = []
      ∧ getVariableSize s2 = 0 ∧ calculateExpression A s2 = .ok (A.zero, s2) := by
  obtain ⟨e1, h1⟩ := expressionToReversePolish_start (setExpression e s) c rest he
  refine ⟨{ malformedStart { setExpression e s with m_RPstack := [], m_expression := e1 } with
      m_math := [], m_argumentMap := [], m_generatorVec := [] }, ?_, rfl, rfl, rfl, rfl, rfl⟩
  intro fuel hf
  have hmap := setArgumentMap_empty A
    (malformedStart { setExpression e s with m_RPstack := [], m_expression := e1 }) hrp
  rw [setMath_stages A fuel e s _ false ((h1 fuel hf).1 hbad), hmap, expandMathExpression,
    expandLoop_empty A fuel _ rfl]
  rfl

/-- Witness of `malformed_start_leaves_empty_program` at the expression `*3+2` on a fresh
object. -/
theorem malformed_start_leaves_empty_program_witness :
    (MathExpression.new (Option ℚ)).m_reversePolish = []
      ∧ (setExpression "*3+2".toList (MathExpression.new (Option ℚ))).m_expression
        = '*' :: "3+2".toList
      ∧ startsWell '*' = false
      ∧ ∃ s2, (∀ fuel,
          3 * (setExpression "*3+2".toList (MathExpression.new (Option ℚ))).m_expression.length
              < fuel →
            setMath exactArith fuel "*3+2".toList (MathExpression.new (Option ℚ)) = .ok s2)
        ∧ s2.m_expressionError = 5 ∧ s2.m_argumentMap = [] ∧ s2.m_generatorVec = []
        ∧ getVariableSize s2 = 0
        ∧ calculateExpression exactArith s2 = .ok (exactArith.zero, s2) :=
  ⟨rfl, by decide, by decide,
    malformed_start_leaves_empty_program (Option ℚ) exactArith "*3+2".toList
      (MathExpression.new (Option ℚ)) '*' "3+2".toList rfl (by decide) (by decide)⟩
/-- C29. Left-associativity: for all operand tokens `a`, `b`, `c` and all operators `o1`, `o2`
both taken from `+ -` or both taken from `* /`, the two operators have the same precedence and
the infix text `a o1 b o2 c` converts (with enough fuel for the pre-pass) to the RP text
`a b o1 c o2`. -/
theorem left_associativity (V : Type) (a b c : Str) (o1 o2 : Char)
    (ha : isOperand a = true) (hb : isOperand b = true) (hc : isOperand c = true)
    (ho : ((o1 = '+' ∨ o1 = '-') ∧ (o2 = '+' ∨ o2 = '-'))
      ∨ ((o1 = '*' ∨ o1 = '/') ∧ (o2 = '*' ∨ o2 = '/')))
    (fuel : Nat) (hfuel : a.length + b.length + c.length + 2 ≤ fuel) :
    precedenceOf o1 = precedenceOf o2
      ∧ (expressionToReversePolish fuel
          (setExpression (a ++ o1 :: (b ++ o2 :: c)) (MathExpression.new V))).map
            (fun r => (r.1, r.2.m_reversePolish))
        = .ok (true, rpText [a, b, [o1], c, [o2]]) := by
  have h1 : isArithmeticChar o1 = true := by
    rcases ho with ⟨h1 | h1, _⟩ | ⟨h1 | h1, _⟩ <;> rw [h1] <;> rfl
  have h2 : isArithmeticChar o2 = true := by
    rcases ho with ⟨_, h2 | h2⟩ | ⟨_, h2 | h2⟩ <;> rw [h2] <;> rfl
  have hp : precedenceOf o1 = precedenceOf o2 := by
    rcases ho with ⟨h3 | h3, h4 | h4⟩ | ⟨h3 | h3, h4 | h4⟩ <;> rw [h3, h4] <;> rfl
  refine ⟨hp, ?_⟩
  rw [binary3_rp a b c o1 o2 ha hb hc h1 h2 fuel hfuel, if_pos (ge_of_eq hp)]
  simp [Except.map, withRP, rpText]

/-- Witness of `left_associativity` at `8-3+2`. -/
theorem left_associativity_witness :
    isOperand "8".toList = true ∧ isOperand "3".toList = true ∧ isOperand "2".toList = true
      ∧ (expressionToReversePolish 64
          (setExpression "8-3+2".toList (MathExpression.new (Option ℚ)))).map
            (fun r => (r.1, r.2.m_reversePolish)) = .ok (true, "8 3 - 2 +".toList) :=
  ⟨by decide, by decide, by decide,
    (left_associativity (Option ℚ) "8".toList "3".toList "2".toList '-' '+' (by decide)
      (by decide) (by decide) (Or.inl ⟨Or.inr rfl, Or.inl rfl⟩) 64 (by decide)).2⟩

/-- C30. Precedence tiers: every registered operator is one of `+ -`, of `* /` or of
`^ pow sin cos tan sqrt exp`, the operators `+` and `-` have the precedence 3, strictly lower
than the precedence 6 of `*` and `/`, which is strictly lower than the precedence 9 of `^` and
of the named functions; and for
all operand tokens `a`, `b`, `c` the infix text `a+b*c` converts (with enough fuel for the
pre-pass) to the RP text `a b c * +` and the infix text `a*b+c` to the RP text `a b * c +`. -/
theorem precedence_tiers (V : Type) (a b c : Str)
    (ha : isOperand a = true) (hb : isOperand b = true) (hc : isOperand c = true)
    (fuel : Nat) (hfuel : a.length + b.length + c.length + 2 ≤ fuel) :
    operatorMap.map Prod.fst
        = ["+", "-", "*", "/", "^", "pow", "sin", "cos", "tan", "sqrt", "exp"].map String.toList
      ∧ ["+", "-"].map (fun x => (getOperator x.toList).map Operator.precedence)
          = [some 3, some 3]
      ∧ ["*", "/"].map (fun x => (getOperator x.toList).map Operator.precedence)
          = [some 6, some 6]
      ∧ ["^", "pow", "sin", "cos", "tan", "sqrt", "exp"].map
            (fun x => (getOperator x.toList).map Operator.precedence)
          = [some 9, some 9, some 9, some 9, some 9, some 9, some 9]
      ∧ (expressionToReversePolish fuel
          (setExpression (a ++ '+' :: (b ++ '*' :: c)) (MathExpression.new V))).map
            (fun r => (r.1, r.2.m_reversePolish))
        = .ok (true, rpText [a, b, c, ['*'], ['+']])
      ∧ (expressionToReversePolish fuel
          (setExpression (a ++ '*' :: (b ++ '+' :: c)) (MathExpression.new V))).map
            (fun r => (r.1, r.2.m_reversePolish))
        = .ok (true, rpText [a, b, ['*'], c, ['+']]) := by
  refine ⟨by decide, by decide, by decide, by decide, ?_, ?_⟩
  · rw [binary3_rp a b c '+' '*' ha hb hc (by decide) (by decide) fuel hfuel,
      if_neg (by decide)]
    simp [Except.map, withRP, rpText]
  · rw [binary3_rp a b c '*' '+' ha hb hc (by decide) (by decide) fuel hfuel,
      if_pos (by decide)]
    simp [Except.map, withRP, rpText]

/-- Witness of `precedence_tiers` at `1+2*3` and `1*2+3`. -/
theorem precedence_tiers_witness :
    isOperand "1".toList = true ∧ isOperand "2".toList = true ∧ isOperand "3".toList = true
      ∧ (expressionToReversePolish 64
          (setExpression "1+2*3".toList (MathExpression.new (Option ℚ)))).map
            (fun r => (r.1, r.2.m_reversePolish)) = .ok (true, "1 2 3 * +".toList)
      ∧ (expressionToReversePolish 64
          (setExpression "1*2+3".toList (MathExpression.new (Option ℚ)))).map
            (fun r => (r.1, r.2.m_reversePolish)) = .ok (true, "1 2 * 3 +".toList) :=
  ⟨by decide, by decide, by decide,
    (precedence_tiers (Option ℚ) "1".toList "2".toList "3".toList (by decide) (by decide)
      (by decide) 64 (by decide)).2.2.2.2⟩

/-- C23. A call `setVariableDouble(name, value)` with a name that is not a key of the argument
map is a no-op: the object stays as it is, so the argument map, the generator list and the RP
text are unchanged, and a following `calculateExpression` does what it does without the
call. -/
theorem setVariableDouble_unknown_name (V : Type) (A : Arith V) (s : MathExpression V)
    (a_name : Str) (a_value : V) (h : a_name ∉ mapKeys s.m_argumentMap) :
    setVariableDouble a_name a_value s = s
      ∧ (setVariableDouble a_name a_value s).m_argumentMap = s.m_argumentMap
      ∧ (setVariableDouble a_name a_value s).m_generatorVec = s.m_generatorVec
      ∧ (setVariableDouble a_name a_value s).m_reversePolish = s.m_reversePolish
      ∧ calculateExpression A (setVariableDouble a_name a_value s)
          = calculateExpression A s := by
  have h1 : setVariableDouble a_name a_value s = s := by
    unfold setVariableDouble
    rw [if_neg]
    intro hc
    exact h ((lookup_isSome_iff_mem_keys _ _).1 hc)
  rw [h1]
  exact ⟨rfl, rfl, rfl, rfl, rfl⟩

/-- Witness of `setVariableDouble_unknown_name` at the program of `x 2 +` and the name `y`. -/
theorem setVariableDouble_unknown_name_witness :
    "y".toList ∉ mapKeys sampleProgram.m_argumentMap
      ∧ setVariableDouble "y".toList (some 5) sampleProgram = sampleProgram :=
  ⟨by decide!,
    (setVariableDouble_unknown_name (Option ℚ) exactArith sampleProgram "y".toList (some 5)
      (by decide!)).1⟩

/-- C21. Function `clear()` discards all compiled state: after `clear()` the expression text
and the RP text are empty, `getVariableSize()` is 0 and `calculateExpression()` returns 0.0;
and, whatever was compiled before, a following `setMath(e)` ends as `setMath(e)` ends on a
freshly constructed object: with the same fault (which includes running out of the same fuel),
or with the same RP text, the same variable count and the same `calculateExpression`
result. -/
theorem clear_discards_compiled_state (V : Type) (A : Arith V) (s : MathExpression V)
    (fuel : Nat) (e : Str) :
    (clear s).m_expression = [] ∧ (clear s).m_reversePolish = []
      ∧ getVariableSize (clear s) = 0
      ∧ calculateExpression A (clear s) = .ok (A.zero, clear s)
      ∧ match setMath A fuel e (clear s), setMath A fuel e (MathExpression.new V) with
        | .ok r, .ok r2 =>
          r.m_reversePolish = r2.m_reversePolish ∧ getVariableSize r = getVariableSize r2
            ∧ (calculateExpression A r).map Prod.fst
                = (calculateExpression A r2).map Prod.fst
        | .error f, .error f2 => f = f2
        | _, _ => False := by
  refine ⟨rfl, rfl, rfl, rfl, ?_⟩
  have h := setMath_frame A fuel e (clear s) (MathExpression.new V) (clear_fresh s)
  rcases hx : setMath A fuel e (clear s) with f | r <;>
    rcases hy : setMath A fuel e (MathExpression.new V) with f2 | r2 <;>
    rw [hx, hy] at h
  · exact h
  · exact False.elim h
  · exact False.elim h
  · exact ⟨h.1, getVariableSize_frame r r2 h, calculateExpression_frame A r r2 h⟩

/-- C25. Evaluation cannot fail after a successful compilation: whenever
`expressionToReversePolish`, `setArgumentMap` and `expandMathExpression` have all returned
`true`, `calculateExpression` returns a value, for a program of any size: it does not look up
a missing key of the argument map, dereference a missing argument or operator pointer, or
call an operator function that is not defined for the type of the generator, each of which is
a fault of the model. -/
theorem evaluation_cannot_fail (V : Type) (A : Arith V) (fuel fuel2 : Nat)
    (s s0 s1 s2 : MathExpression V)
    (_hrp : expressionToReversePolish fuel s = .ok (true, s0))
    (hmap : setArgumentMap A s0 = (true, s1))
    (hexp : expandMathExpression A fuel2 s1 = .ok (true, s2)) :
    ∃ v s3, calculateExpression A s2 = .ok (v, s3) :=
  compiled_calc_safe A fuel2 s0 s1 s2 hmap hexp

/-- Witness of `evaluation_cannot_fail` at the expression `Io*(exp(qe*V/(kBJ*(ToK+TC)))-1)`. -/
theorem evaluation_cannot_fail_witness :
    expressionToReversePolish 64
        (setExpression diodeExpression (MathExpression.new (Option ℚ))) = .ok (true, diodeSource)
      ∧ setArgumentMap exactArith diodeSource = (true, diodeMapped)
      ∧ expandMathExpression exactArith 64 diodeMapped = .ok (true, diodeProgram)
      ∧ ∃ v s3, calculateExpression exactArith diodeProgram = .ok (v, s3) :=
  ⟨by decide!, by decide!, by decide!,
    evaluation_cannot_fail (Option ℚ) exactArith 64 64
      (setExpression diodeExpression (MathExpression.new (Option ℚ))) diodeSource diodeMapped
      diodeProgram
      (by decide!) (by decide!) (by decide!)⟩

/-- C26. Producer before consumer: in every generator list that `expandMathExpression` builds
on the object `setArgumentMap` left, whatever the two return, each argument pointer of the
generator at position `k` points to a registry constant, to a user variable or a literal
constant of the argument map as `setArgumentMap` left it, or to the output binding of a
generator at a position smaller than `k`. -/
theorem producer_before_consumer (V : Type) (A : Arith V) (fuel : Nat)
    (s0 s2 : MathExpression V) (b : Bool)
    (hexp : expandMathExpression A fuel (setArgumentMap A s0).2 = .ok (b, s2))
    (k : Nat) (g : Generator) (hg : s2.m_generatorVec[k]? = some g) (p : ArgPtr)
    (hp : g.m_arg1 = some p ∨ g.m_arg2 = some p) :
    match p with
    | .constant key => hasConstantMap A key = true
    | .argument key =>
      (∃ a, (setArgumentMap A s0).2.m_argumentMap.lookup key = some a
          ∧ (a.m_type = .ArgumentVariable ∨ a.m_type = .ArgumentUserConstant))
        ∨ ∃ j g2, j < k ∧ s2.m_generatorVec[j]? = some g2 ∧ g2.m_myArg = some key := by
  obtain ⟨_, hW⟩ := compiled_wired A fuel s0 s2 b hexp
  obtain ⟨_, _, hE⟩ := setArgumentMap_entries A s0
  have h := hW.sources A k g hg p hp
  cases p with
  | constant key => exact h
  | argument key =>
    obtain ⟨hc, h1 | ⟨j, g2, hj, hg2, _, hmy⟩⟩ := h
    · exact Or.inl (hE.not_constant A key h1 hc)
    · exact Or.inr ⟨j, g2, hj, hg2, hmy⟩

/-- Witness of `producer_before_consumer` at the program of `x 2 +`: the first argument of its
generator is the user variable `x`. -/
theorem producer_before_consumer_witness :
    expandMathExpression exactArith 16 (setArgumentMap exactArith sampleSource).2
        = .ok (true, sampleProgram)
      ∧ sampleProgram.m_generatorVec[0]? = some (twoArgGenerator "#AB" "+" "x" "#AA")
      ∧ ((∃ a, (setArgumentMap exactArith sampleSource).2.m_argumentMap.lookup "x".toList
            = some a ∧ (a.m_type = .ArgumentVariable ∨ a.m_type = .ArgumentUserConstant))
        ∨ ∃ j g2, j < 0 ∧ sampleProgram.m_generatorVec[j]? = some g2
            ∧ g2.m_myArg = some "x".toList) :=
  ⟨by decide!, by decide!,
    producer_before_consumer (Option ℚ) exactArith 16 sampleSource sampleProgram true
      (by decide!) 0 (twoArgGenerator "#AB" "+" "x" "#AA") (by decide!)
      (.argument "x".toList) (Or.inl rfl)⟩

/-- C27 (counterexample). The Reverse Polish text `5 1 +` followed by 6654 numbers `1`
compiles with `setArgumentMap` and `expandMathExpression` both returning `true`; its first
literal constant gets the synthesized name `#AA`, and so does its generator: the synthesized
names of this program are not pairwise distinct. -/
theorem synthesized_names_collide_at_capacity :
    ∃ s1 s2 : MathExpression (Option ℚ),
      setArgumentMapFrom exactArith overflowText (MathExpression.new (Option ℚ)) = (true, s1)
      ∧ expandMathExpression exactArith 6658 s1 = .ok (true, s2)
      ∧ (s1.m_math.filter isSynthesizedName)[0]? = some "#AA".toList
      ∧ generatorNames s2.m_generatorVec = ["#AA".toList]
      ∧ ¬ (synthesizedNames s1 s2).Nodup := by
  obtain ⟨s1, s2, h1, h2, h3, h4⟩ := overflow_names
  refine ⟨s1, s2, h1, h2, h3, h4, ?_⟩
  intro hnd
  rw [synthesizedNames, h4] at hnd
  have hmem : nameOf 0 ∈ s1.m_math.filter isSynthesizedName := by
    cases hl : s1.m_math.filter isSynthesizedName with
    | nil => rw [hl] at h3; cases h3
    | cons x xs =>
      rw [hl] at h3
      have : x = nameOf 0 := by simpa using h3
      rw [this]
      exact List.mem_cons_self _ _
  exact (List.nodup_append.1 hnd).2.2 hmem (List.mem_singleton.2 rfl)

/-- C27 (amended). Within a single compiled program the synthesized names (those
`setArgumentMap` gave the literal constants and those of the generators of
`expandMathExpression`) are pairwise distinct when there are at most 6656 of them, and, for a
program of any size, none of them is the name of an operator, of a registry constant or of a
user variable of the argument map. -/
theorem synthesized_names_distinct (V : Type) (A : Arith V) (fuel : Nat)
    (s0 s1 s2 : MathExpression V) (b : Bool)
    (hmap : setArgumentMap A s0 = (true, s1))
    (hexp : expandMathExpression A fuel s1 = .ok (b, s2)) :
    ((synthesizedNames s1 s2).length ≤ nameCapacity → (synthesizedNames s1 s2).Nodup)
      ∧ ∀ x ∈ synthesizedNames s1 s2, hasOperatorMap x = false ∧ hasConstantMap A x = false
          ∧ ∀ kv ∈ s2.m_argumentMap, kv.2.m_type = .ArgumentVariable → kv.1 ≠ x := by
  obtain ⟨hM, h1, h2⟩ := compiled_names A fuel s0 s1 s2 b hmap hexp
  constructor
  · intro hcap
    rw [Nat.min_eq_left hcap] at h1
    rw [List.take_of_length_le hcap] at h2
    rw [h2]
    refine List.Nodup.map_on ?_ (List.nodup_range _)
    intro i hi j hj hij
    have hi2 := List.mem_range.1 hi
    have hj2 := List.mem_range.1 hj
    rw [h1] at hi2 hj2
    exact nameOf_inj i j (by omega) (by omega) hij
  · intro x hx
    have hsyn : isSynthesizedName x = true := by
      rcases List.mem_append.1 hx with h | h
      · exact (List.mem_filter.1 h).2
      · have hs1 : s1 = (setArgumentMap A s0).2 := by rw [hmap]
        rw [hs1] at hexp
        obtain ⟨_, hW⟩ := compiled_wired A fuel s0 s2 b hexp
        obtain ⟨g, hg, hgx⟩ := List.mem_map.1 h
        obtain ⟨j, hj⟩ := hW.2.2.2 g hg
        rw [← hgx, hj]
        rfl
    have hhead : (charAt x 0).isAlpha = false := by
      have : charAt x 0 = '#' := by simpa [isSynthesizedName] using hsyn
      rw [this]
      decide
    refine ⟨?_, ?_, ?_⟩
    · by_contra hc
      have := isSynthesizedName_of_operator x (by simpa using hc)
      rw [hsyn] at this
      cases this
    · by_contra hc
      have := hasConstantMap_of_head A x (by simpa using hc)
      rw [hhead] at this
      cases this
    · intro kv hkv hty hkey
      have hcnt : counted kv = false := by simp [counted, hty]
      have := (hM.2.2 kv hkv hcnt).1
      rw [hkey, hhead] at this
      cases this

/-- Witness of `synthesized_names_distinct` at the program of `10 2 +`. -/
theorem synthesized_names_distinct_witness :
    setArgumentMap exactArith sumSource = (true, sumMapped)
      ∧ expandMathExpression exactArith 16 sumMapped = .ok (true, sumProgram)
      ∧ (synthesizedNames sumMapped sumProgram).length ≤ nameCapacity
      ∧ (synthesizedNames sumMapped sumProgram).Nodup :=
  ⟨by decide!, by decide!, by decide!,
    (synthesized_names_distinct (Option ℚ) exactArith 16 sumSource sumMapped sumProgram true
      (by decide!) (by decide!)).1 (by decide!)⟩

/-- C28. Synthesized names follow creation order in the alphabet `#AA`..`#ZZ`: once
`setArgumentMap` has returned `true`, it has given as many synthesized names as the RP text has
numbers, and the synthesized name number `n` of the compilation (counted from 0 over the names
of the literal constants in the order of the RP text and then over the names of the generators
in creation order), for `n < 676`, is `#` followed by the capital letter number `n / 26` and
the capital letter number `n % 26`; and the synthesized names of `10 2 +` are `#AA`, `#AB` for
the literals and `#AC` for the generator. -/
theorem synthesized_names_in_order (V : Type) (A : Arith V) (fuel : Nat)
    (s0 s1 s2 : MathExpression V) (b : Bool)
    (hmap : setArgumentMap A s0 = (true, s1))
    (hexp : expandMathExpression A fuel s1 = .ok (b, s2)) :
    (s1.m_math.filter isSynthesizedName).length
        = (rpTokens s0.m_reversePolish).countP isNumberToken
      ∧ (∀ (n : Nat) (x : Str), n < 676 → (synthesizedNames s1 s2)[n]? = some x →
          x = ['#', Char.ofNat (65 + n / 26), Char.ofNat (65 + n % 26)])
      ∧ sumMapped.m_math.filter isSynthesizedName = ["#AA".toList, "#AB".toList]
      ∧ generatorNames sumProgram.m_generatorVec = ["#AC".toList] := by
  obtain ⟨hM, h1, h2⟩ := compiled_names A fuel s0 s1 s2 b hmap hexp
  refine ⟨(setArgumentMap_names A s0 s1 hmap).2.2.2, ?_, by decide!, by decide!⟩
  intro n x hn hx
  have hlt : n < nameCapacity := lt_trans hn (by decide)
  have h3 : ((synthesizedNames s1 s2).take nameCapacity)[n]? = some x := by
    rw [List.getElem?_take_of_lt hlt]
    exact hx
  rw [h2] at h3
  rw [List.getElem?_map] at h3
  cases hr : (List.range (s2.m_argumentMap.countP counted))[n]? with
  | none =>
    rw [hr] at h3
    cases h3
  | some m =>
    rw [hr] at h3
    have hm : m = n := by
      have hlen : n < (List.range (s2.m_argumentMap.countP counted)).length := by
        by_contra hge
        rw [List.getElem?_eq_none (by omega)] at hr
        cases hr
      rw [List.getElem?_eq_getElem hlen, List.getElem_range] at hr
      exact (Option.some.inj hr).symm
    rw [hm] at h3
    rw [← Option.some.inj h3]
    exact nameOf_letters n hn

/-- Witness of `synthesized_names_in_order` at the program of `10 2 +` and its generator. -/
theorem synthesized_names_in_order_witness :
    setArgumentMap exactArith sumSource = (true, sumMapped)
      ∧ expandMathExpression exactArith 16 sumMapped = .ok (true, sumProgram)
      ∧ (synthesizedNames sumMapped sumProgram)[2]? = some "#AC".toList
      ∧ "#AC".toList = ['#', Char.ofNat (65 + 2 / 26), Char.ofNat (65 + 2 % 26)] :=
  ⟨by decide!, by decide!, by decide!,
    (synthesized_names_in_order (Option ℚ) exactArith 16 sumSource sumMapped sumProgram true
      (by decide!) (by decide!)).2.1 2 "#AC".toList (by decide) (by decide!)⟩

/-- C24 (counterexample). The Reverse Polish text of the 65536 distinct variable names
`manyVariables` passes `setArgumentMap`, which returns `true`; the text has 65536 distinct
tokens that start with a letter and are names neither of operators nor of constants, and
`getVariableSize()`, whose counter is a `uint16_t`, returns 0. -/
theorem variable_count_wraps :
    ∃ s1 : MathExpression (Option ℚ),
      setArgumentMapFrom exactArith manyVariablesText (MathExpression.new (Option ℚ))
          = (true, s1)
      ∧ ((rpTokens manyVariablesText).filter (isVariableToken exactArith)).dedup.length = 65536
      ∧ getVariableSize s1 = 0 :=
  many_variables exactArith (MathExpression.new (Option ℚ))

/-- C24 (amended). After `setArgumentMap` has returned `true`, `getVariableSize()` equals,
modulo 65536, the number of distinct tokens of the RP text that start with a letter and are
names neither of registered operators nor of registered constants; the argument map has one
entry for a name, so that repeated occurrences of an identifier share a single binding, and
the binding of every such token is a user variable with the value 0.0. -/
theorem variable_count_modulo (V : Type) (A : Arith V) (s0 s1 : MathExpression V)
    (hmap : setArgumentMap A s0 = (true, s1)) :
    getVariableSize s1
        = ((rpTokens s0.m_reversePolish).filter (isVariableToken A)).dedup.length % 65536
      ∧ (mapKeys s1.m_argumentMap).Nodup
      ∧ ∀ t ∈ rpTokens s0.m_reversePolish, isVariableToken A t = true →
          s1.m_argumentMap.lookup t = some ⟨t, .ArgumentVariable, 0, A.zero⟩ :=
  ⟨setArgumentMap_variable_count A s0 s1 hmap, (setArgumentMap_variables A s0 s1 hmap).1,
    fun t ht hv => setArgumentMap_variable_binding A s0 s1 hmap t ht hv⟩

/-- Witness of `variable_count_modulo` at the expression `Io*(exp(qe*V/(kBJ*(ToK+TC)))-1)`,
which has the 3 variables `Io`, `V` and `TC`. -/
theorem variable_count_modulo_witness :
    setArgumentMap exactArith diodeSource = (true, diodeMapped)
      ∧ diodeSource.m_reversePolish = "Io qe V * kBJ ToK TC + * / exp 1 - *".toList
      ∧ ((rpTokens diodeSource.m_reversePolish).filter (isVariableToken exactArith)).dedup
          = ["Io".toList, "V".toList, "TC".toList]
      ∧ getVariableSize diodeMapped = 3
      ∧ getVariableSize diodeMapped
          = ((rpTokens diodeSource.m_reversePolish).filter
              (isVariableToken exactArith)).dedup.length % 65536 :=
  ⟨by decide!, by decide!, by decide!, by decide!,
    (variable_count_modulo (Option ℚ) exactArith diodeSource diodeMapped (by decide!)).1⟩

/-- C22 (counterexample). After `setMath("1+2")` the literal constant `1` has the binding `#AA`
and `calculateExpression` returns 3; after the call `setVariableDouble("#AA", 10)` it returns
12. After `setMath("pi")` the value `calculateExpression` returns is the one of the registry
constant; after the call `setVariableDouble("pi", 5)` it returns 5. -/
theorem constant_binding_changed_by_set :
    (setMath exactArith 16 "1+2".toList (MathExpression.new (Option ℚ))).map
        (fun s => (s.m_argumentMap.lookup "#AA".toList).map (fun a => a.m_type))
      = .ok (some .ArgumentUserConstant)
    ∧ (setMath exactArith 16 "1+2".toList (MathExpression.new (Option ℚ))).map
        (fun s => (calculateExpression exactArith s).map Prod.fst) = .ok (.ok (some 3))
    ∧ (setMath exactArith 16 "1+2".toList (MathExpression.new (Option ℚ))).map
        (fun s => (calculateExpression exactArith
          (setVariableDouble "#AA".toList (some 10) s)).map Prod.fst) = .ok (.ok (some 12))
    ∧ (setMath exactArith 16 "pi".toList (MathExpression.new (Option ℚ))).map
        (fun s => (calculateExpression exactArith s).map Prod.fst)
      = .ok (.ok exactArith.M_PI)
    ∧ (setMath exactArith 16 "pi".toList (MathExpression.new (Option ℚ))).map
        (fun s => (calculateExpression exactArith
          (setVariableDouble "pi".toList (some 5) s)).map Prod.fst) = .ok (.ok (some 5))
    ∧ exactArith.M_PI ≠ some 5 := by
  refine ⟨by decide!, by decide!, by decide!, by decide!, by decide!, by decide!⟩

/-- C22 (amended). Registry constants are fixed for the evaluation: for every program that
`setArgumentMap` and `expandMathExpression` built, both returning `true`, and that is not a
program without generator whose last entity is the name of a registry constant, any sequence
of `setVariableDouble` and `calculateExpression` calls runs through, with and without its
`setVariableDouble` calls whose name is the name of a registry constant, and
`calculateExpression` then returns the same value after both. -/
theorem registry_constants_fixed (V : Type) (A : Arith V) (fuel : Nat)
    (s0 s1 s2 : MathExpression V) (hmap : setArgumentMap A s0 = (true, s1))
    (hexp : expandMathExpression A fuel s1 = .ok (true, s2))
    (hlone : s2.m_generatorVec = [] →
      hasConstantMap A (s2.m_math.getD (s2.m_math.length - 1) []) = false)
    (calls : List (Call V)) :
    ∃ r r2 v r3 r4, runCalls A calls s2 = .ok r
      ∧ runCalls A (dropConstantSets A calls) s2 = .ok r2
      ∧ calculateExpression A r = .ok (v, r3) ∧ calculateExpression A r2 = .ok (v, r4) := by
  have hC := compiled_constant_free A fuel s0 s1 s2 hmap hexp hlone
  obtain ⟨r, r2, h1, h2, hC1, hg, hm, hag⟩ :=
    calls_agree_constants A calls s2 s2 hC rfl rfl (AgreeOffConstants.agree_same A _)
  obtain ⟨v, r3, r4, h3, h4, _⟩ := calculateExpression_agree_constants A r r2 hC1 hg hm hag
  exact ⟨r, r2, v, r3, r4, h1, h2, h3, h4⟩

/-- Witness of `registry_constants_fixed` at the expression
`Io*(exp(qe*V/(kBJ*(ToK+TC)))-1)` and the calls `diodeCalls`, two of which name the registry
constants `ToK` and `qe`. -/
theorem registry_constants_fixed_witness :
    setArgumentMap exactArith diodeSource = (true, diodeMapped)
      ∧ expandMathExpression exactArith 64 diodeMapped = .ok (true, diodeProgram)
      ∧ (diodeProgram.m_generatorVec = [] →
          hasConstantMap exactArith
            (diodeProgram.m_math.getD (diodeProgram.m_math.length - 1) []) = false)
      ∧ dropConstantSets exactArith diodeCalls = [.set "V".toList (some 2), .calculate]
      ∧ ∃ r r2 v r3 r4, runCalls exactArith diodeCalls diodeProgram = .ok r
          ∧ runCalls exactArith (dropConstantSets exactArith diodeCalls) diodeProgram = .ok r2
          ∧ calculateExpression exactArith r = .ok (v, r3)
          ∧ calculateExpression exactArith r2 = .ok (v, r4) :=
  ⟨by decide!, by decide!, by decide!, rfl,
    registry_constants_fixed (Option ℚ) exactArith 64 diodeSource diodeMapped diodeProgram
      (by decide!) (by decide!) (by decide!) diodeCalls⟩

/-- C34. Function `setExpression(e)` stores `e` with every space and every tab removed and all
other characters kept in their order (the stored text is `e` filtered by "is neither a space
nor a tab", it holds no space and no tab, and it is a subsequence of `e`), `expression()`
returns exactly that text, and `setExpression` applied to its own result changes nothing. -/
theorem setExpression_strips_blanks (V : Type) (e : Str) (s : MathExpression V) :
    expression (setExpression e s) = e.filter (fun c => c != ' ' && c != '\t')
      ∧ (∀ c ∈ expression (setExpression e s), c ≠ ' ' ∧ c ≠ '\t')
      ∧ List.Sublist (expression (setExpression e s)) e
      ∧ setExpression (expression (setExpression e s)) (setExpression e s)
          = setExpression e s := by
  have h1 : expression (setExpression e s) = e.filter (fun c => c != ' ' && c != '\t') := by
    simp only [expression, setExpression, List.filter_filter]
    congr 1
    funext c
    exact Bool.and_comm _ _
  refine ⟨h1, ?_, ?_, ?_⟩
  · intro c hc
    rw [h1, List.mem_filter] at hc
    simpa using hc.2
  · rw [h1]
    exact List.filter_sublist e
  · have h2 : ((expression (setExpression e s)).filter (fun c => c != ' ')).filter
        (fun c => c != '\t') = expression (setExpression e s) := by
      rw [List.filter_filter, h1, List.filter_filter]
      congr 1
      funext c
      cases (c != ' ') <;> cases (c != '\t') <;> rfl
    show ({ setExpression e s with m_expression := _ } : MathExpression V) = _
    rw [h2]
    rfl

/-- C40. Error numbers are sticky. For every object, function `clear()` leaves
`expressionErrorNum()`, `reversePolishErrorNum()` and the print precision as they are. And for
every object, a compilation `setMath(e)` whose three stages `expressionToReversePolish`,
`setArgumentMap` and `expandMathExpression` all return `true` ends with the object of the last
stage, in which `expressionErrorNum()` and `reversePolishErrorNum()` are what they were before
the compilation. So an error number set by a failed compilation is still reported after
`clear()` and a successful `setMath`. -/
theorem error_numbers_sticky (V : Type) (A : Arith V) (s : MathExpression V) :
    expressionErrorNum (clear s) = expressionErrorNum s
      ∧ reversePolishErrorNum (clear s) = reversePolishErrorNum s
      ∧ getMathPrintPrecision (clear s) = getMathPrintPrecision s
      ∧ (∀ fuel e s1 s2 s3,
          expressionToReversePolish fuel (setExpression e s) = .ok (true, s1) →
          setArgumentMap A s1 = (true, s2) →
          expandMathExpression A fuel s2 = .ok (true, s3) →
          setMath A fuel e s = .ok s3
            ∧ expressionErrorNum s3 = expressionErrorNum s
            ∧ reversePolishErrorNum s3 = reversePolishErrorNum s)
      ∧ ∀ fuel e s1 s2 s3,
          expressionToReversePolish fuel (setExpression e (clear s)) = .ok (true, s1) →
          setArgumentMap A s1 = (true, s2) →
          expandMathExpression A fuel s2 = .ok (true, s3) →
          setMath A fuel e (clear s) = .ok s3
            ∧ expressionErrorNum s3 = expressionErrorNum s
            ∧ reversePolishErrorNum s3 = reversePolishErrorNum s := by
  have key : ∀ (x : MathExpression V) fuel e s1 s2 s3,
      expressionToReversePolish fuel (setExpression e x) = .ok (true, s1) →
      setArgumentMap A s1 = (true, s2) →
      expandMathExpression A fuel s2 = .ok (true, s3) →
      setMath A fuel e x = .ok s3
        ∧ expressionErrorNum s3 = expressionErrorNum x
        ∧ reversePolishErrorNum s3 = reversePolishErrorNum x := by
    intro x fuel e s1 s2 s3 h1 h2 h3
    have e1 := expressionToReversePolish_errors fuel _ _ h1
    have e2 := setArgumentMap_errors A _ _ h2
    have e3 := expandMathExpression_errors A fuel _ _ h3
    have hm : setMath A fuel e x = .ok s3 := by
      unfold setMath
      rw [h1]
      simp only [h2, h3]
    exact ⟨hm, (e1.1.trans (e2.1.trans e3.1)).symm, (e1.2.trans (e2.2.trans e3.2)).symm⟩
  exact ⟨rfl, rfl, rfl, key s, key (clear s)⟩

/-- Witness of `error_numbers_sticky`: the failed `setMath("(1+2")` sets the RP error number
6, which `clear()` keeps; and after the failed `setMath("*3+2")`, which sets the expression
error number 5, `clear()` and the successful `setMath("1+2")` the expression error number is
still 5 (and `calculateExpression()` returns 3). -/
theorem error_numbers_sticky_witness :
    reversePolishErrorNum unclosedCompile = 6
      ∧ reversePolishErrorNum (clear unclosedCompile) = 6
      ∧ expressionErrorNum failedCompile = 5
      ∧ expressionErrorNum (clear failedCompile) = 5
      ∧ expressionToReversePolish 16 (setExpression "1+2".toList (clear failedCompile))
          = .ok (true, recompiledSource)
      ∧ setArgumentMap exactArith recompiledSource = (true, recompiledMapped)
      ∧ expandMathExpression exactArith 16 recompiledMapped = .ok (true, recompiledProgram)
      ∧ (calculateExpression exactArith recompiledProgram).map (fun r => r.1) = .ok (some 3)
      ∧ setMath exactArith 16 "1+2".toList (clear failedCompile) = .ok recompiledProgram
      ∧ expressionErrorNum recompiledProgram = 5 :=
  ⟨by decide!,
    ((error_numbers_sticky (Option ℚ) exactArith unclosedCompile).2.1).trans (by decide!),
    by decide!,
    ((error_numbers_sticky (Option ℚ) exactArith failedCompile).1).trans (by decide!),
    by decide!, by decide!, by decide!, by decide!,
    ((error_numbers_sticky (Option ℚ) exactArith failedCompile).2.2.2.2 16 "1+2".toList
      recompiledSource recompiledMapped recompiledProgram
      (by decide!) (by decide!) (by decide!)).1,
    ((error_numbers_sticky (Option ℚ) exactArith failedCompile).2.2.2.2 16 "1+2".toList
      recompiledSource recompiledMapped recompiledProgram
      (by decide!) (by decide!) (by decide!)).2.1.trans (by decide!)⟩

/-- C32. When the generator list is empty, `calculateExpression()` returns 0.0 if `m_math` (the
sequence derived from the RP text) is empty, and otherwise the current value of the binding
named by the last entry of `m_math`, the object unchanged; after `setArgumentMap` and
`expandMathExpression` have both returned `true` that last entry has a binding. For the
expression of a single variable `x` (letters only, the name neither of an operator nor of a
constant) the three stages return `true`, the generator list is empty, and
`calculateExpression()` returns the value `v` given last by `setVariableDouble(x, v)`, and 0.0
before any such call. -/
theorem calculate_without_generators (V : Type) (A : Arith V) (s : MathExpression V)
    (h : s.m_generatorVec = []) :
    (s.m_math = [] → calculateExpression A s = .ok (A.zero, s))
      ∧ (∀ key a, s.m_math.getLast? = some key → s.m_argumentMap.lookup key = some a →
          calculateExpression A s = .ok (a.m_dvalue, s))
      ∧ (∀ fuel s0 s1, setArgumentMap A s0 = (true, s1) →
          expandMathExpression A fuel s1 = .ok (true, s) → s.m_math ≠ [] →
          ∃ key a, s.m_math.getLast? = some key ∧ s.m_argumentMap.lookup key = some a)
      ∧ (∀ x fuel, isIdentifier x = true → hasConstantMap A x = false → x.length ≤ fuel →
          1 ≤ fuel →
          ∃ s1 s2, expressionToReversePolish fuel (setExpression x (MathExpression.new V))
              = .ok (true, s1)
            ∧ setArgumentMap A s1 = (true, s2)
            ∧ expandMathExpression A fuel s2 = .ok (true, s2)
            ∧ s2.m_generatorVec = []
            ∧ calculateExpression A s2 = .ok (A.zero, s2)
            ∧ ∀ v, calculateExpression A (setVariableDouble x v s2)
                = .ok (v, setVariableDouble x v s2)) := by
  refine ⟨?_, ?_, ?_, ?_⟩
  · intro hm
    simp [calculateExpression, h, hm]
  · intro key a hk hl
    obtain ⟨pre, hpre⟩ := List.getLast?_eq_some_iff.1 hk
    exact calculateExpression_last A s h pre key a hpre hl
  · intro fuel s0 s1 hmap hexp hne
    rcases compiled_last_key A fuel s0 s1 s hmap hexp h with h1 | h1
    · exact absurd h1 hne
    · have hlast : s.m_math.getLast? = some (s.m_math.getD (s.m_math.length - 1) []) := by
        rw [List.getLast?_eq_getElem?, List.getD_eq_getElem?_getD]
        have hlt : s.m_math.length - 1 < s.m_math.length := by
          have := List.length_pos.2 hne
          omega
        rw [List.getElem?_eq_getElem hlt]
        rfl
      have hsome := (lookup_isSome_iff_mem_keys _ _).2 h1
      obtain ⟨a, ha⟩ := Option.isSome_iff_exists.1 hsome
      exact ⟨_, a, hlast, ha⟩
  · intro x fuel hx hc hfuel h1
    have hop : isOperand x = true := by simp [isOperand, hx]
    have hmap := setArgumentMap_single_variable A x hx hc
      (withRP { MathExpression.new V with m_expression := x } x []) rfl
    refine ⟨_, _, operand_rp x hop fuel hfuel, hmap, ?_, rfl, ?_, ?_⟩
    · exact expandLoop_skip A fuel [] [x] _ rfl
        (fun t ht => by
          rw [List.mem_singleton] at ht
          rw [ht]
          exact isOperand_hasOperatorMap x hop)
        h1
    · exact calculateExpression_last A _ rfl [] x ⟨x, .ArgumentVariable, 0, A.zero⟩ rfl
        (by simp [List.lookup])
    · intro v
      have hset : setVariableDouble x v
          ({ withRP { MathExpression.new V with m_expression := x } x [] with
            m_math := [x]
            m_argumentMap := [(x, ⟨x, .ArgumentVariable, 0, A.zero⟩)]
            m_generatorVec := [] } : MathExpression V)
          = { withRP { MathExpression.new V with m_expression := x } x [] with
            m_math := [x]
            m_argumentMap := [(x, ⟨x, .ArgumentVariable, 0, v⟩)]
            m_generatorVec := [] } := by
        simp [setVariableDouble, hasArgumentMap, List.lookup, mapSetDouble]
      rw [hset]
      exact calculateExpression_last A _ rfl [] x ⟨x, .ArgumentVariable, 0, v⟩ rfl
        (by simp [List.lookup])

/-- Witness of `calculate_without_generators`: after `setMath("x")` and
`setVariableDouble("x", 5)` the generator list is empty and `calculateExpression()` returns
5. -/
theorem calculate_without_generators_witness :
    singleProgram.m_generatorVec = []
      ∧ singleProgram.m_math.getLast? = some "x".toList
      ∧ singleProgram.m_argumentMap.lookup "x".toList
          = some ⟨"x".toList, .ArgumentVariable, 0, some 5⟩
      ∧ calculateExpression exactArith singleProgram = .ok (some 5, singleProgram) :=
  ⟨by decide!, by decide!, by decide!,
    (calculate_without_generators (Option ℚ) exactArith singleProgram (by decide!)).2.1
      "x".toList ⟨"x".toList, .ArgumentVariable, 0, some 5⟩ (by decide!) (by decide!)⟩

/-- C35. Operator step of the shunting-yard converter. When a registered operator `o` is pushed
while the working stack `S` holds only operators and `(`, the call returns `true`; the RP text
gains, in stack order, the entries of a prefix `P` of `S`, and the new stack is `o` followed
by the rest of `S` (so `o` is inserted at the front of the stack), followed by the final flush
of the stack when the push is flagged as the last of the expression. `P` is the longest prefix
of `S` that lies before the first `(` and consists of operators with a precedence not lower
than that of `o`: no entry of `P` is `(`, every entry of `P` is such an operator, and the entry
after `P`, if there is one, is `(` or an operator of lower precedence. -/
theorem operator_step (V : Type) (o : Str) (k : Char) (s : MathExpression V) (op : Operator)
    (ho : getOperator o = some op)
    (hS : ∀ x ∈ s.m_RPstack, x = ['('] ∨ hasOperatorMap x = true) :
    s.m_RPstack = s.m_RPstack.takeWhile (yieldsTo op.precedence)
        ++ s.m_RPstack.dropWhile (yieldsTo op.precedence)
      ∧ (∀ x ∈ s.m_RPstack.takeWhile (yieldsTo op.precedence),
          x ≠ ['('] ∧ ∃ ox, getOperator x = some ox ∧ ox.precedence ≥ op.precedence)
      ∧ (∀ x ∈ (s.m_RPstack.dropWhile (yieldsTo op.precedence)).head?,
          x = ['('] ∨ ∃ ox, getOperator x = some ox ∧ ox.precedence < op.precedence)
      ∧ pushToReversePolish o k s = .ok (true, flushIfLast k { s with
          m_reversePolish := (s.m_RPstack.takeWhile (yieldsTo op.precedence)).foldl
            (fun rp x => appendToReversePolishString x rp) s.m_reversePolish
          m_RPstack := o :: s.m_RPstack.dropWhile (yieldsTo op.precedence) })
      ∧ (k ≠ 'N' → k ≠ 'A' → k ≠ 'S' →
          pushToReversePolish o k s = .ok (true, { s with
            m_reversePolish := (s.m_RPstack.takeWhile (yieldsTo op.precedence)).foldl
              (fun rp x => appendToReversePolishString x rp) s.m_reversePolish
            m_RPstack := o :: s.m_RPstack.dropWhile (yieldsTo op.precedence) })) := by
  have hpush := pushToReversePolish_operator o k s op ho hS
  refine ⟨(List.takeWhile_append_dropWhile _ _).symm, ?_, ?_, hpush, ?_⟩
  · intro x hx
    have hq := List.mem_takeWhile_imp hx
    simp only [yieldsTo, Bool.and_eq_true, bne_iff_ne, ne_eq] at hq
    refine ⟨hq.1, ?_⟩
    cases hg : getOperator x with
    | none => rw [hg] at hq; exact absurd hq.2 (by simp)
    | some ox =>
      rw [hg] at hq
      exact ⟨ox, rfl, by simpa using hq.2⟩
  · intro x hx
    have hmem : x ∈ s.m_RPstack.dropWhile (yieldsTo op.precedence) :=
      List.mem_of_mem_head? hx
    have hq : yieldsTo op.precedence x = false := by
      have := List.head?_dropWhile_not (yieldsTo op.precedence) s.m_RPstack
      rw [Option.mem_def.1 hx] at this
      simpa using this
    by_cases hx2 : x = ['(']
    · exact Or.inl hx2
    · right
      have hop : hasOperatorMap x = true := by
        rcases hS x ((List.dropWhile_sublist _).subset hmem) with h | h
        · exact absurd h hx2
        · exact h
      obtain ⟨ox, hox⟩ := getOperator_of_has x hop
      refine ⟨ox, hox, ?_⟩
      have hne : (x != ['(']) = true := by simpa using hx2
      simp only [yieldsTo, hne, hox, Bool.true_and, decide_eq_false_iff_not, not_le] at hq
      exact hq
  · intro h1 h2 h3
    rw [hpush]
    simp [flushIfLast, h1, h2, h3]

/-- Witness of `operator_step`: pushing `+` on the stack `* + ( -` with the RP text `a b`
moves `*` and `+` to the RP text and leaves the stack `+ ( -`. -/
theorem operator_step_witness :
    getOperator ['+']
        = some ⟨['+'], .OperatorInDoubleDoubleOutDouble, .Addition, none, some .add⟩
      ∧ pushToReversePolish ['+'] 's' stackSample
        = .ok (true, withRP (MathExpression.new (Option ℚ)) "a b * +".toList
            [['+'], ['('], ['-']]) :=
  ⟨by decide!,
    ((operator_step (Option ℚ) ['+'] 's' stackSample
      ⟨['+'], .OperatorInDoubleDoubleOutDouble, .Addition, none, some .add⟩ (by decide!)
      (by decide!)).2.2.2.2 (by decide) (by decide) (by decide)).trans (by decide!)⟩

/-- C39 (counterexample). The comma of `2,x` is a character the reader skips, and the RP text
of `2,x` is `2 x`, with the two tokens `2` and `x`: the characters on the two sides of the
comma are not joined into one token. -/
theorem skipped_character_between_tokens :
    isSkippedChar ',' = true
      ∧ (expressionToReversePolish 16
          (setExpression "2,x".toList (MathExpression.new (Option ℚ)))).map
            (fun r => (r.1, rpTokens r.2.m_reversePolish))
        = .ok (true, ["2".toList, "x".toList]) := by
  decide!

/-- C39 (amended). At any position after the first, a character that is not a letter, a digit,
`.` or one of `+ - * / ^ ( )` is skipped by the reader without an error and without ending the
token being read: the trip makes no push and keeps the pending token, and the reader goes on
with the rest of the text as it was. A letter that follows is appended to the identifier being
read, and a digit or point that follows is appended to the number being read, so two runs of
letters that together are an identifier make one token (`pow(x,y)` yields the RP `xy pow`);
a letter other than `e` that follows while a number is being read ends the number and starts
an identifier. -/
theorem skipped_character (V : Type) (rpre : List Char) (c : Char) (p : Pending)
    (hr : rpre ≠ []) (hc : isSkippedChar c = true) :
    lexStep rpre c p = some ([], p)
      ∧ (∀ rest, lexAll rpre (c :: rest) p = lexAll (c :: rpre) rest p)
      ∧ (∀ d t, d.isAlpha = true →
          lexStep (c :: rpre) d (.alpha t) = some ([], .alpha (t ++ [d])))
      ∧ (∀ d t, d.isDigit = true ∨ d = '.' →
          lexStep (c :: rpre) d (.number t) = some ([], .number (t ++ [d])))
      ∧ (∀ d t, d.isAlpha = true → d ≠ 'e' →
          lexStep (c :: rpre) d (.number t) = some ([(t, 'n')], .alpha [d]))
      ∧ (∀ a b fuel, a ≠ [] → isIdentifier (a ++ b) = true → c ≠ ' ' ∧ c ≠ '\t' →
          a.length + b.length + 1 ≤ fuel →
          expressionToReversePolish fuel (setExpression (a ++ c :: b) (MathExpression.new V))
            = .ok (true,
                withRP { MathExpression.new V with m_expression := a ++ c :: b } (a ++ b) []))
      ∧ (expressionToReversePolish 16
          (setExpression "pow(x,y)".toList (MathExpression.new (Option ℚ)))).map
            (fun r => (r.1, r.2.m_reversePolish))
        = .ok (true, "xy pow".toList) := by
  obtain ⟨h1, h2, h3, h4, h5, h6, h7⟩ := isSkippedChar_facts c hc
  refine ⟨lexStep_skipped rpre c p hr hc, fun rest => lexAll_skipped rpre c rest p hr hc,
    ?_, ?_, ?_, ?_, by decide!⟩
  · intro d t hd
    simp [lexStep, hd, Pending.isNumber]
  · intro d t hd
    have hda : d.isAlpha = false := by
      rcases hd with hd | rfl
      · exact not_isAlpha_of_isDigit d hd
      · decide
    have hds : isSpecialCharacter d = false := by
      rcases hd with hd | rfl
      · exact not_special_of_isDigit d hd
      · decide
    rcases hd with hd | rfl
    · simp [lexStep, hda, hds, hd, Pending.isNumber]
    · simp [lexStep, hda, hds, Pending.isNumber]
  · intro d t hd hde
    have hsign : signAfterParenthesis (c :: rpre) = false := by
      rcases rpre with _ | ⟨p2, rp⟩
      · rfl
      · simp [signAfterParenthesis, h5, h6]
    simp [lexStep, hd, hde, Pending.isNumber, Pending.pushes, hsign]
  · intro a b fuel ha hab hclean hfuel
    exact skipped_joined_rp a b c ha hab hc hclean fuel hfuel

/-- Witness of `skipped_character`: the comma after `2`. -/
theorem skipped_character_witness :
    ['2'] ≠ [] ∧ isSkippedChar ',' = true
      ∧ lexStep ['2'] ',' (.number ['2']) = some ([], .number ['2']) :=
  ⟨by decide, by decide,
    (skipped_character (Option ℚ) ['2'] ',' (.number ['2']) (by decide) (by decide)).1⟩

/-- C37. Sign runs fold by parity: for all operands `a` and `b` (unsigned numbers, and
identifiers as well) and every non-empty run of characters from `+ -` written between them,
the pre-pass (with enough fuel) reduces the run to a single sign, which is `-` when the run
holds an odd number of `-` and `+` otherwise: the expression text after the pre-pass is `a`,
that sign, `b`, and the RP text is `a b -` or `a b +` accordingly. -/
theorem sign_runs_fold_by_parity (V : Type) (a b run : Str) (ha : isOperand a = true)
    (hb : isOperand b = true) (hne : run ≠ []) (hrun : ∀ c ∈ run, c = '+' ∨ c = '-')
    (fuel : Nat) (hfuel : a.length + run.length + b.length ≤ fuel) :
    paritySign run = (if run.count '-' % 2 = 1 then '-' else '+')
      ∧ expressionToReversePolish fuel
          (setExpression (a ++ (run ++ b)) (MathExpression.new V))
        = .ok (true, withRP
            { MathExpression.new V with m_expression := a ++ paritySign run :: b }
            (rpText [a, b, [paritySign run]]) []) := by
  refine ⟨rfl, ?_⟩
  have h := @sign_rp_of_prepass V a b (a ++ (run ++ b)) (paritySign run) ha hb
    (paritySign_sign run) fuel
    (by
      intro c hc
      simp only [List.mem_append] at hc
      rcases hc with hc | hc | hc
      · exact operand_clean a ha c hc
      · rcases hrun c hc with rfl | rfl <;> decide
      · exact operand_clean b hb c hc)
    (prepassSplit_run_between a b run ha hb hne hrun fuel hfuel)
  rw [h]
  simp [rpText]

/-- Witness of `sign_runs_fold_by_parity`: the run `---` between `1` and `2` gives the RP text
`1 2 -`, and the run `-+-+` gives `1 2 +`. -/
theorem sign_runs_fold_by_parity_witness :
    isOperand "1".toList = true ∧ isOperand "2".toList = true
      ∧ (expressionToReversePolish 16
          (setExpression "1---2".toList (MathExpression.new (Option ℚ)))).map
            (fun r => (r.1, r.2.m_reversePolish)) = .ok (true, "1 2 -".toList)
      ∧ (expressionToReversePolish 16
          (setExpression "1-+-+2".toList (MathExpression.new (Option ℚ)))).map
            (fun r => (r.1, r.2.m_reversePolish)) = .ok (true, "1 2 +".toList) :=
  ⟨by decide, by decide,
    (congrArg (fun x => x.map (fun r => (r.1, r.2.m_reversePolish)))
      (sign_runs_fold_by_parity (Option ℚ) "1".toList "2".toList "---".toList (by decide)
        (by decide) (by decide) (by decide) 16 (by decide)).2).trans (by decide!),
    (congrArg (fun x => x.map (fun r => (r.1, r.2.m_reversePolish)))
      (sign_runs_fold_by_parity (Option ℚ) "1".toList "2".toList "-+-+".toList (by decide)
        (by decide) (by decide) (by decide) 16 (by decide)).2).trans (by decide!)⟩

/-- C31 (counterexample). The RP text of `(-5)` is the one token `-5`, not `0 5 -`: no
implicit `0` is emitted for a sign after `(` that is followed by a number. -/
theorem signed_number_without_zero :
    (expressionToReversePolish 16
        (setExpression "(-5)".toList (MathExpression.new (Option ℚ)))).map
          (fun r => (r.1, r.2.m_reversePolish)) = .ok (true, "-5".toList)
      ∧ "-5".toList ≠ "0 5 -".toList := by
  decide!

/-- C31 (amended). A sign `z` (`+` or `-`) right after `(` starts a number token. If a letter
other than `e` or a `(` follows, the reader pushes the sign (it goes on the stack as an
operator) and the implicit operand `0`, so for an identifier `t` that does not start with `e`
the text `(zt)` has the RP text `0 t z` (`(-t)` gives `0 t -`), and `(-(1+2))` gives
`0 1 2 + -`. If a digit or a point follows, it goes on with the number the sign started, so
for an unsigned number `n` the text `(zn)` has the one-token RP text `zn` (`(-5)` gives `-5`).
A sign at the very start of the expression always gets the implicit `0`: for every operand `t`
the text `zt` has the RP text `0 t z` (`-5` gives `0 5 -`), and `-(1+2)` gives
`0 1 2 + -`. -/
theorem sign_after_parenthesis (V : Type) (z : Char) (hz : z = '+' ∨ z = '-') :
    (∀ rpre p, p.isNumber = false → lexStep ('(' :: rpre) z p = some (p.pushes, .number [z]))
      ∧ (∀ rpre d, d.isAlpha = true → d ≠ 'e' →
          lexStep (z :: '(' :: rpre) d (.number [z])
            = some ([([z], 'n'), (['0'], 'n')], .alpha [d]))
      ∧ (∀ rpre, lexStep (z :: '(' :: rpre) '(' (.number [z])
            = some ([([z], 'n'), (['0'], 'n')], .special ['(']))
      ∧ (∀ rpre d, d.isDigit = true ∨ d = '.' →
          lexStep (z :: '(' :: rpre) d (.number [z]) = some ([], .number [z, d]))
      ∧ lexStep [] z .idle = some ([(['0'], 'n')], .special [z])
      ∧ (∀ t fuel, isIdentifier t = true → charAt t 0 ≠ 'e' → t.length + 3 ≤ fuel →
          expressionToReversePolish fuel
              (setExpression ('(' :: z :: (t ++ [')'])) (MathExpression.new V))
            = .ok (true,
                withRP { MathExpression.new V with m_expression := '(' :: z :: (t ++ [')']) }
                  (rpText [['0'], t, [z]]) []))
      ∧ (∀ n fuel, isUnsignedNumber n = true → n.length + 3 ≤ fuel →
          expressionToReversePolish fuel
              (setExpression ('(' :: z :: (n ++ [')'])) (MathExpression.new V))
            = .ok (true,
                withRP { MathExpression.new V with m_expression := '(' :: z :: (n ++ [')']) }
                  (z :: n) []))
      ∧ (∀ t fuel, isOperand t = true → t.length + 1 ≤ fuel →
          expressionToReversePolish fuel (setExpression (z :: t) (MathExpression.new V))
            = .ok (true, withRP { MathExpression.new V with m_expression := z :: t }
                (rpText [['0'], t, [z]]) []))
      ∧ (expressionToReversePolish 16
          (setExpression "(-(1+2))".toList (MathExpression.new (Option ℚ)))).map
            (fun r => (r.1, r.2.m_reversePolish)) = .ok (true, "0 1 2 + -".toList)
      ∧ (expressionToReversePolish 16
          (setExpression "-(1+2)".toList (MathExpression.new (Option ℚ)))).map
            (fun r => (r.1, r.2.m_reversePolish)) = .ok (true, "0 1 2 + -".toList) :=
  ⟨fun rpre p hp => lexStep_sign_after_open z hz rpre p hp,
    fun rpre d hd hde => lexStep_letter_after_sign z d hz rpre hd hde,
    fun rpre => lexStep_open_after_sign z hz rpre,
    fun rpre d hd => lexStep_digit_after_sign z d rpre hd,
    lexStep_sign_first z hz,
    fun t fuel ht he hfuel => signed_identifier_rp t z ht he hz fuel hfuel,
    fun n fuel hn hfuel => signed_number_rp n z hn hz fuel hfuel,
    fun t fuel ht hfuel => leading_sign_rp t z ht hz fuel hfuel,
    by decide!, by decide!⟩

/-- Witness of `sign_after_parenthesis`: `(-t)` gives the RP text `0 t -`, and `-5` gives
`0 5 -`. -/
theorem sign_after_parenthesis_witness :
    (expressionToReversePolish 16
        (setExpression "(-t)".toList (MathExpression.new (Option ℚ)))).map
          (fun r => (r.1, r.2.m_reversePolish)) = .ok (true, "0 t -".toList)
      ∧ (expressionToReversePolish 16
        (setExpression "-5".toList (MathExpression.new (Option ℚ)))).map
          (fun r => (r.1, r.2.m_reversePolish)) = .ok (true, "0 5 -".toList) :=
  ⟨(congrArg (fun x => x.map (fun r => (r.1, r.2.m_reversePolish)))
      ((sign_after_parenthesis (Option ℚ) '-' (Or.inr rfl)).2.2.2.2.2.1 "t".toList 16
        (by decide) (by decide) (by decide))).trans (by decide!),
    (congrArg (fun x => x.map (fun r => (r.1, r.2.m_reversePolish)))
      ((sign_after_parenthesis (Option ℚ) '-' (Or.inr rfl)).2.2.2.2.2.2.2.1 "5".toList 16
        (by decide) (by decide))).trans (by decide!)⟩

/-- C33 (counterexample). The Reverse Polish text `5 1 +` followed by 6654 numbers `1` compiles
with `setArgumentMap` and `expandMathExpression` both returning `true`; the binding `#AA` of
its literal constant `5` has the type of a literal constant and the value 5 before
`calculateExpression()`, which returns 6, and the value 6 after it. -/
theorem literal_binding_changed_at_capacity :
    ∃ (s1 s2 s3 : MathExpression (Option ℚ)) (a a3 : Argument (Option ℚ)),
      setArgumentMapFrom exactArith overflowText (MathExpression.new (Option ℚ)) = (true, s1)
      ∧ expandMathExpression exactArith 6658 s1 = .ok (true, s2)
      ∧ s2.m_argumentMap.lookup "#AA".toList = some a
      ∧ a.m_type = .ArgumentUserConstant ∧ a.m_dvalue = some 5
      ∧ calculateExpression exactArith s2 = .ok (some 6, s3)
      ∧ s3.m_argumentMap.lookup "#AA".toList = some a3
      ∧ a3.m_type = .ArgumentUserConstant ∧ a3.m_dvalue = some 6 := by
  obtain ⟨s1, j, math1, hset, hinv, hG, hm, hcount, h0, ⟨a, ha, hav⟩, hrest, hlen⟩ :=
    overflow_classify exactArith (MathExpression.new (Option ℚ))
  have h0mem : nameOf 0 ∈ mapKeys s1.m_argumentMap :=
    (lookup_isSome_iff_mem_keys _ _).1 (by rw [h0]; rfl)
  have h1mem : nameOf j ∈ mapKeys s1.m_argumentMap :=
    (lookup_isSome_iff_mem_keys _ _).1 (by rw [ha]; rfl)
  have h5 : exactArith.atof "5".toList = some 5 := by decide!
  have h1 : exactArith.atof "1".toList = some 1 := by decide!
  have hsum1 : exactArith.add (exactArith.atof "5".toList) a.m_dvalue = some 6 := by
    rw [hav, h5, h1]
    show some ((5 : ℚ) + 1) = some 6
    norm_num
  have c1 := overflow_calc exactArith j
    { s1 with m_generatorVec := [overflowGenerator j], m_math := s1.m_math ++ [nameOf 0] }
    _ a rfl h0 ha
  rw [hsum1] at c1
  refine ⟨s1, _, _, ⟨nameOf 0, .ArgumentUserConstant, 0, exactArith.atof "5".toList⟩,
    ⟨nameOf 0, .ArgumentUserConstant, 0, some 6⟩, hset,
    overflow_expand exactArith j math1 s1 hinv hG hm hcount h0mem h1mem hrest 6658 (by omega),
    h0, rfl, h5, c1, ?_, rfl, rfl⟩
  show (mapSetDouble s1.m_argumentMap (nameOf 0) (some 6)).lookup (nameOf 0) = _
  rw [lookup_mapSetDouble_self, h0]
  rfl

/-- C33 (amended). A call of `calculateExpression` that returns changes nothing but `double`
values of the argument map, for every object: the expression text, the RP text, the entities,
the generator list and the entries of the argument map with their keys, names and types are
the same after the call as before, and the call has made one store per generator, in order,
through the pointer `m_myArg`. For a program that `setArgumentMap` and `expandMathExpression`
built, both returning `true`, with at most 6656 synthesized names (those of the numbers and
those of the generators), after any sequence of `setVariableDouble` and `calculateExpression`
calls: the call returns, the stores go to the bindings named by the generators, which are
pairwise distinct, so that each generator's output binding is written exactly once, and every
binding with the type of a user variable, a literal constant or a registry constant has the
same value after the call as before. -/
theorem calculation_frame (V : Type) (A : Arith V) (fuel : Nat) (s0 s1 s2 : MathExpression V)
    (hmap : setArgumentMap A s0 = (true, s1))
    (hexp : expandMathExpression A fuel s1 = .ok (true, s2)) :
    (∀ (s s3 : MathExpression V) (v : V), calculateExpression A s = .ok (v, s3) →
        SameShape s s3 ∧ mapKeys s3.m_argumentMap = mapKeys s.m_argumentMap
          ∧ ∃ vals : List V, vals.length = (generatorWrites s.m_generatorVec).length
              ∧ s3 = { s with
                  m_argumentMap := storeAll ((generatorWrites s.m_generatorVec).zip vals)
                    s.m_argumentMap })
      ∧ ((synthesizedNames s1 s2).length ≤ nameCapacity →
          ∀ calls : List (Call V), ∃ s, runCalls A calls s2 = .ok s
            ∧ ∃ v s3, calculateExpression A s = .ok (v, s3)
              ∧ generatorWrites s.m_generatorVec = generatorNames s.m_generatorVec
              ∧ (generatorNames s.m_generatorVec).Nodup
              ∧ ∀ key a, s.m_argumentMap.lookup key = some a →
                  (a.m_type = .ArgumentVariable ∨ a.m_type = .ArgumentUserConstant
                    ∨ a.m_type = .ArgumentConstant) →
                  s3.m_argumentMap.lookup key = some a) := by
  constructor
  · intro s s3 v hc
    have hsh := calculateExpression_shape A s s3 v hc
    exact ⟨hsh, (mapKeys_of_skeleton _ _ hsh.2.2.2.2).symm, calculateExpression_stores A s s3 v hc⟩
  · intro hcap calls
    have hs1 : s1 = (setArgumentMap A s0).2 := by rw [hmap]
    have hexp2 := hexp
    rw [hs1] at hexp2
    obtain ⟨⟨_, hW⟩, hE, _⟩ := compiled_distinct A fuel s0 s2 true hexp2
    obtain ⟨_, hnd, hdis0⟩ := compiled_fit A fuel s0 s1 s2 true hmap hexp hcap
    have hdis : ∀ n ∈ generatorNames s2.m_generatorVec,
        n ∉ mapKeys (setArgumentMap A s0).2.m_argumentMap := by
      rw [← hs1]
      exact hdis0
    obtain ⟨s, hs⟩ := runCalls_safe A fuel s0 s1 s2 hmap hexp calls s2 (SameShape.shape_refl s2)
    have hsh := runCalls_shape A calls s2 s hs
    obtain ⟨v, s3, hc⟩ := calc_safe_of_shape A fuel s0 s1 s2 s hmap hexp hsh
    have hgen : s.m_generatorVec = s2.m_generatorVec := hsh.2.2.2.1.symm
    have hwr : generatorWrites s.m_generatorVec = generatorNames s.m_generatorVec := by
      rw [hgen]
      exact generatorWrites_eq_names _ (fun g hg => ((hW.generators_safe A) g hg).1.1)
    refine ⟨s, hs, v, s3, hc, hwr, by rw [hgen]; exact hnd, ?_⟩
    intro key a hl hty
    obtain ⟨a2, hl2, hty2, _, _⟩ := lookup_of_skeleton _ _ hsh.2.2.2.2.symm key a hl
    have hmem : (key, a2) ∈ s2.m_argumentMap := mem_of_lookup_eq_some _ _ _ hl2
    have hkey : key ∈ mapKeys (setArgumentMap A s0).2.m_argumentMap := by
      rcases hE _ hmem with h | h | h
      · exact h
      · rw [hty2] at h
        rcases hty with h2 | h2 | h2 <;> rw [h2] at h <;> cases h
      · rw [hty2] at h
        rcases hty with h2 | h2 | h2 <;> rw [h2] at h <;> cases h
    have hnot : key ∉ generatorNames s.m_generatorVec := by
      rw [hgen]
      exact fun h => hdis key h hkey
    obtain ⟨vals, hlen, hs3⟩ := calculateExpression_stores A s s3 v hc
    rw [hs3]
    show (storeAll _ s.m_argumentMap).lookup key = some a
    rw [lookup_storeAll_of_not_mem _ _ _ ?_, hl]
    intro hin
    rw [hwr] at hin
    obtain ⟨kv, hkv, hk⟩ := List.mem_map.1 hin
    have hk1 := (List.of_mem_zip hkv).1
    rw [hk] at hk1
    exact hnot hk1

/-- Witness of `calculation_frame` at the RP text `10 2 +`. -/
theorem calculation_frame_witness :
    setArgumentMap exactArith sumSource = (true, sumMapped)
      ∧ expandMathExpression exactArith 16 sumMapped = .ok (true, sumProgram)
      ∧ (synthesizedNames sumMapped sumProgram).length ≤ nameCapacity
      ∧ ∃ s, runCalls exactArith [.calculate] sumProgram = .ok s
          ∧ ∃ v s3, calculateExpression exactArith s = .ok (v, s3)
            ∧ generatorWrites s.m_generatorVec = generatorNames s.m_generatorVec
            ∧ (generatorNames s.m_generatorVec).Nodup
            ∧ ∀ key a, s.m_argumentMap.lookup key = some a →
                (a.m_type = .ArgumentVariable ∨ a.m_type = .ArgumentUserConstant
                  ∨ a.m_type = .ArgumentConstant) →
                s3.m_argumentMap.lookup key = some a :=
  ⟨by decide!, by decide!, by decide!,
    (calculation_frame (Option ℚ) exactArith 16 sumSource sumMapped sumProgram (by decide!)
      (by decide!)).2 (by decide!) [.calculate]⟩

/-- C36. For every well-formed Reverse Polish sequence `toks` (every entity is the name of an
operator or an operand, and a postfix reader reduces the sequence to one entry), whatever its
length, `setArgumentMap` returns `true` and leaves no generator, and `expandMathExpression`
returns `true`, given a trip for every entity of every pass, and leaves exactly as many
generators as `toks` has operator tokens. The operators of the generators are the operators of
the operator tokens, one generator for every occurrence; every generator is a one-argument
generator with one argument pointer for a one-argument operator, or a two-argument generator
with two argument pointers for a two-argument operator. When `toks` has an operator, its last
token is an operator, the last generator created has the operator of that token, and the name
of that generator is the last entity of `m_math`. -/
theorem one_generator_per_operator (V : Type) (A : Arith V) (toks : List Str)
    (s0 : MathExpression V) (hwf : isWellFormedRP toks = true) :
    ∃ s1, setArgumentMapFrom A (rpText toks) s0 = (true, s1) ∧ s1.m_generatorVec = []
      ∧ ∀ fuel, toks.length * (toks.length + 2) ≤ fuel →
        ∃ s2, expandMathExpression A fuel s1 = .ok (true, s2)
          ∧ s2.m_generatorVec.length = toks.countP hasOperatorMap
          ∧ List.Perm (generatorOperators s2.m_generatorVec) (operatorsOf toks)
          ∧ (∀ g ∈ s2.m_generatorVec, GenArity g)
          ∧ (0 < toks.countP hasOperatorMap →
              ∃ t0 t G0 g, toks = t0 ++ [t] ∧ hasOperatorMap t = true
                ∧ s2.m_generatorVec = G0 ++ [g] ∧ g.m_op = getOperator t
                ∧ s2.m_math.getLast? = some g.m_name) := by
  obtain ⟨s1, hset, _, hg1, hexp⟩ :=
    rp_shape_spec A [] toks s0 (fun t ht => by cases ht) hwf
  rw [List.nil_append] at hset hexp
  refine ⟨s1, hset, hg1, ?_⟩
  intro fuel hfuel
  obtain ⟨s2, hrun, _, hlen, hperm, har, hlast⟩ := hexp fuel hfuel
  refine ⟨s2, hrun, hlen, hperm, har, ?_⟩
  intro hk
  have hdepth : depthRP toks 0 = some 1 := by
    simp only [isWellFormedRP, Bool.and_eq_true, beq_iff_eq] at hwf
    exact hwf.2
  obtain ⟨t0, t, htoks, hop⟩ := wellFormed_last_operator toks hdepth hk
  obtain ⟨G0, g, hG, hgo, hgl⟩ := hlast t0 t htoks hop
  exact ⟨t0, t, G0, g, htoks, hop, hG, hgo, hgl⟩

/-- Witness of `one_generator_per_operator` at the sequence `a b c + + d e * -`: four
generators. -/
theorem one_generator_per_operator_witness :
    isWellFormedRP ["a".toList, "b".toList, "c".toList, "+".toList, "+".toList, "d".toList,
        "e".toList, "*".toList, "-".toList] = true
      ∧ ∃ s1, setArgumentMapFrom exactArith (rpText ["a".toList, "b".toList, "c".toList,
          "+".toList, "+".toList, "d".toList, "e".toList, "*".toList, "-".toList])
          (MathExpression.new (Option ℚ)) = (true, s1) ∧ s1.m_generatorVec = []
        ∧ ∀ fuel, 9 * (9 + 2) ≤ fuel →
          ∃ s2, expandMathExpression exactArith fuel s1 = .ok (true, s2)
            ∧ s2.m_generatorVec.length = 4
            ∧ List.Perm (generatorOperators s2.m_generatorVec)
                (operatorsOf ["a".toList, "b".toList, "c".toList, "+".toList, "+".toList,
                  "d".toList, "e".toList, "*".toList, "-".toList])
            ∧ (∀ g ∈ s2.m_generatorVec, GenArity g)
            ∧ (0 < 4 →
                ∃ t0 t G0 g, ["a".toList, "b".toList, "c".toList, "+".toList, "+".toList,
                    "d".toList, "e".toList, "*".toList, "-".toList] = t0 ++ [t]
                  ∧ hasOperatorMap t = true
                  ∧ s2.m_generatorVec = G0 ++ [g] ∧ g.m_op = getOperator t
                  ∧ s2.m_math.getLast? = some g.m_name) :=
  ⟨by decide, one_generator_per_operator (Option ℚ) exactArith _ _ (by decide)⟩

/-- C38 (counterexample). The text of 6652 numbers `1` in front of the well-formed sequence
`1 2 + 3 4 + *`, whose value is 21, compiles with both stages returning `true`, and
`calculateExpression` returns 49: the text uses all 6656 synthesized names, its three
generators store into the same binding, and the product takes the second sum twice. -/
theorem surplus_operands_at_capacity :
    (∀ t ∈ surplusOperands, isOperandToken t = true) ∧ surplusOperands ≠ []
      ∧ isWellFormedRP surplusCore = true
      ∧ postfixEval exactArith (envOf exactArith []) surplusCore [] = some [some 21]
      ∧ ∃ s1 s2 s3 : MathExpression (Option ℚ),
          setArgumentMapFrom exactArith (rpText (surplusOperands ++ surplusCore))
              (MathExpression.new (Option ℚ)) = (true, s1)
            ∧ (∀ fuel, 19967 ≤ fuel → expandMathExpression exactArith fuel s1 = .ok (true, s2))
            ∧ calculateExpression exactArith s2 = .ok (some 49, s3) := by
  refine ⟨?_, ?_, by decide, by decide!, ?_⟩
  · intro t ht
    rw [surplusOperands, List.mem_replicate] at ht
    rw [ht.2]
    rfl
  · rw [surplusOperands]
    exact List.cons_ne_nil _ _
  obtain ⟨s1, mpre, hset, hinv, hG, hm, hlen, hpre, hcount, ⟨a1, ha1, hv1⟩, ⟨a2, ha2, hv2⟩,
    ⟨a3, ha3, hv3⟩, ⟨a4, ha4, hv4⟩⟩ :=
    surplus_classify exactArith (MathExpression.new (Option ℚ))
  have hkey : ∀ (n : Str) (a : Argument (Option ℚ)), s1.m_argumentMap.lookup n = some a →
      n ∈ mapKeys s1.m_argumentMap :=
    fun n a h => (lookup_isSome_iff_mem_keys _ _).1 (by rw [h]; rfl)
  have hz : nameOf 0 ∈ mapKeys s1.m_argumentMap :=
    hinv.1.nameOf_mem exactArith 0 (by rw [hcount]; decide)
  obtain ⟨a0, ha0⟩ : ∃ a0, s1.m_argumentMap.lookup (nameOf 0) = some a0 :=
    Option.isSome_iff_exists.1 ((lookup_isSome_iff_mem_keys _ _).2 hz)
  have hexp := surplus_expand exactArith mpre (nameOf 6652) (nameOf 6653) (nameOf 6654)
    (nameOf 6655) s1 hinv hG hm hcount hpre
    (by
      intro n hn
      simp only [List.mem_cons, List.mem_singleton, List.mem_nil_iff, or_false] at hn
      rcases hn with rfl | rfl | rfl | rfl
      · exact ⟨hkey _ _ ha1, hasConstantMap_nameOf exactArith _, hasOperatorMap_nameOf _⟩
      · exact ⟨hkey _ _ ha2, hasConstantMap_nameOf exactArith _, hasOperatorMap_nameOf _⟩
      · exact ⟨hkey _ _ ha3, hasConstantMap_nameOf exactArith _, hasOperatorMap_nameOf _⟩
      · exact ⟨hkey _ _ ha4, hasConstantMap_nameOf exactArith _, hasOperatorMap_nameOf _⟩)
  have hcalc := surplus_calc exactArith (nameOf 6652) (nameOf 6653) (nameOf 6654) (nameOf 6655)
    { s1 with
      m_generatorVec := [saturatedGenerator "+".toList (nameOf 6652) (nameOf 6653),
        saturatedGenerator "+".toList (nameOf 6654) (nameOf 6655),
        saturatedGenerator "*".toList (nameOf 0) (nameOf 0)]
      m_math := s1.m_math ++ mpre ++ [nameOf 0] ++ [nameOf 0] ++ ["*".toList] ++ mpre
        ++ [nameOf 0] }
    a0 a1 a2 a3 a4 rfl ha0 ha1 ha2 ha3 ha4
    (fun h => absurd (nameOf_inj 6654 0 (by decide) (by decide) h) (by decide))
    (fun h => absurd (nameOf_inj 6655 0 (by decide) (by decide) h) (by decide))
  have h3 : exactArith.atof "3".toList = some 3 := by decide!
  have h4 : exactArith.atof "4".toList = some 4 := by decide!
  have hval : exactArith.mul (exactArith.add a3.m_dvalue a4.m_dvalue)
      (exactArith.add a3.m_dvalue a4.m_dvalue) = some 49 := by
    rw [hv3, hv4, h3, h4]
    show some (((3 : ℚ) + 4) * (3 + 4)) = some 49
    norm_num
  rw [hval] at hcalc
  exact ⟨s1, _, _, hset, fun fuel hf => hexp fuel (by rw [hlen]; omega), hcalc⟩

/-- C38 (amended). Operands in front of a well-formed Reverse Polish sequence `R` are accepted
silently: for every list `pre` of operand tokens, whatever the length of the text,
`setArgumentMap` and `expandMathExpression` (given a trip for every entity of every pass)
return `true` and leave the two error numbers as they were, and the program has one generator
for every operator of `R`. When the numbers and the operators of the whole text are at most
6656, the names do not run out: for every setting of the variables by `setVariableDouble`,
`R` has a value, that of the postfix stack evaluator on `R` alone, and `calculateExpression`
returns it. -/
theorem surplus_operands (V : Type) (A : Arith V) (pre R : List Str) (s0 : MathExpression V)
    (hpre : ∀ t ∈ pre, isOperandToken t = true) (hR : isWellFormedRP R = true) :
    ∃ s1, setArgumentMapFrom A (rpText (pre ++ R)) s0 = (true, s1) ∧ SameErrors s0 s1
      ∧ ∀ fuel, (pre ++ R).length * ((pre ++ R).length + 2) ≤ fuel →
        ∃ s2, expandMathExpression A fuel s1 = .ok (true, s2) ∧ SameErrors s0 s2
          ∧ s2.m_generatorVec.length = R.countP hasOperatorMap
          ∧ ((pre ++ R).countP isLiteralToken + (pre ++ R).countP hasOperatorMap
                ≤ nameCapacity →
              ∀ vals : List (Str × V), (∀ kv ∈ vals, isVariableName A kv.1 = true) →
                ∃ v s3, postfixEval A (envOf A vals) R [] = some [v]
                  ∧ calculateExpression A (setVariables vals s2) = .ok (v, s3)) := by
  obtain ⟨s1, hset, herr1, _, hexp⟩ := rp_shape_spec A pre R s0 hpre hR
  refine ⟨s1, hset, herr1, ?_⟩
  intro fuel hfuel
  obtain ⟨s2, hrun, herr2, hlen, _, _, _⟩ := hexp fuel hfuel
  refine ⟨s2, hrun, herr2, hlen, ?_⟩
  intro hcap vals hvals
  obtain ⟨v, hv⟩ := postfixEval_wellFormed A (envOf A vals) R hR
  obtain ⟨s1b, hset2, hexp2⟩ := rp_surplus_spec A pre R vals v s0 hpre hcap hvals hv
  have e1 : s1b = s1 := (Prod.mk.inj (hset2.symm.trans hset)).2
  subst e1
  obtain ⟨s2b, hrun2, _, s3, hcalc⟩ := hexp2 fuel hfuel
  have e2 : s2b = s2 := by
    have := hrun2.symm.trans hrun
    exact (Prod.mk.inj (Except.ok.inj this)).2
  subst e2
  exact ⟨v, s3, hv, hcalc⟩

/-- Witness of `surplus_operands` at the text `x y z +`: the operand `x` in front of
`y z +`. -/
theorem surplus_operands_witness :
    (∀ t ∈ ["x".toList], isOperandToken t = true)
      ∧ isWellFormedRP ["y".toList, "z".toList, "+".toList] = true
      ∧ ∃ s1, setArgumentMapFrom exactArith
            (rpText (["x".toList] ++ ["y".toList, "z".toList, "+".toList]))
            (MathExpression.new (Option ℚ)) = (true, s1)
          ∧ SameErrors (MathExpression.new (Option ℚ)) s1
          ∧ ∀ fuel, (["x".toList] ++ ["y".toList, "z".toList, "+".toList]).length
                * ((["x".toList] ++ ["y".toList, "z".toList, "+".toList]).length + 2) ≤ fuel →
            ∃ s2, expandMathExpression exactArith fuel s1 = .ok (true, s2)
              ∧ SameErrors (MathExpression.new (Option ℚ)) s2
              ∧ s2.m_generatorVec.length
                  = ["y".toList, "z".toList, "+".toList].countP hasOperatorMap
              ∧ ((["x".toList] ++ ["y".toList, "z".toList, "+".toList]).countP isLiteralToken
                    + (["x".toList] ++ ["y".toList, "z".toList, "+".toList]).countP
                        hasOperatorMap ≤ nameCapacity →
                  ∀ vals : List (Str × Option ℚ),
                    (∀ kv ∈ vals, isVariableName exactArith kv.1 = true) →
                    ∃ v s3, postfixEval exactArith (envOf exactArith vals)
                          ["y".toList, "z".toList, "+".toList] [] = some [v]
                      ∧ calculateExpression exactArith (setVariables vals s2) = .ok (v, s3)) :=
  ⟨by decide, by decide,
    surplus_operands (Option ℚ) exactArith ["x".toList] ["y".toList, "z".toList, "+".toList]
      (MathExpression.new (Option ℚ)) (by decide) (by decide)⟩
end PssMathParser
